import Mathlib

/-!
# Boundary-element flow-path solver: dense matrices, boundary solve, zone lookup

A shallow embedding of the C sources under `02-code/source` together with the
properties proved about them.

Conventions of the embedding.

* A C `double` is an element of an arbitrary type `α` carrying the arithmetic
  the routine needs (a ring for products and sums, a field where the code
  divides); results are therefore statements of exact arithmetic.
* Memory is one flat array of cells `Nat → α`; a C pointer `double *` is the
  index of the cell it points to and `NULL` is `0`.
* An `int` used as a flag is an `Int`; an `int` used as a size or an index is a
  `Nat`.
* A C struct that is passed by pointer and mutated is passed by value and
  returned.
* `exit(...)` is the result `none`.
* Output (`printf`), timing and statistics calls have no effect on the data
  and are left out.
-/

namespace SwpBem

/-! ## Control flow -/

/-- The C loop `for (i = lo; i < lo + n; i++) s = body(i, s);`. -/
@[noinline, nospecialize]
def forN {σ : Type} (body : Nat → σ → σ) : Nat → Nat → σ → σ
  | _, 0, s => s
  | lo, n + 1, s => forN body (lo + 1) n (body lo s)

/-- The C loop `for (i = lo; i < hi; i++) s = body(i, s);`. -/
@[noinline, nospecialize]
def forRange {σ : Type} (body : Nat → σ → σ) (lo hi : Nat) (s : σ) : σ :=
  forN body lo (hi - lo) s

/-! ## matrix_types.h -/

/-- The struct `matrix` of `matrix_types.h`; `value` is the address of the
first cell of the data area. -/
structure matrix where
  transpose : Int
  invert : Int
  rows : Nat
  columns : Nat
  value : Nat
deriving DecidableEq, Repr

/-! ## matrix.c: shape and element access -/

/-- `get_num_columns` of matrix.c. -/
@[noinline, nospecialize]
def get_num_columns (x : matrix) : Nat :=
  if x.transpose = 0 then x.columns else x.rows

/-- `get_num_rows` of matrix.c. -/
@[noinline, nospecialize]
def get_num_rows (x : matrix) : Nat :=
  if x.transpose = 0 then x.rows else x.columns

/-- `startof_matrix` of matrix.c. -/
@[noinline, nospecialize]
def startof_matrix (x : matrix) : Nat := x.value

/-- `after_matrix` of matrix.c: the address just beyond the data area. -/
@[noinline, nospecialize]
def after_matrix (x : matrix) : Nat := x.value + x.rows * x.columns

/-- `attach_matrix` of matrix.c: a header over predefined memory. -/
@[noinline, nospecialize]
def attach_matrix (rows columns data : Nat) : matrix :=
  { transpose := 0, invert := 0, rows := rows, columns := columns, value := data }

/-- `put_matrix_element` of matrix.c (`CHECK_MATRIX` is 0). -/
@[noinline, nospecialize]
def put_matrix_element {α : Type} (h : Nat → α) (x : matrix) (i j : Nat) (value : α) :
    Nat → α :=
  if x.transpose = 0 then Function.update h (x.value + (j * x.rows + i)) value
  else Function.update h (x.value + (i * x.rows + j)) value

/-- `get_matrix_element` of matrix.c (`CHECK_MATRIX` is 0). -/
@[noinline, nospecialize]
def get_matrix_element {α : Type} (h : Nat → α) (x : matrix) (i j : Nat) : α :=
  if x.transpose = 0 then h (x.value + (j * x.rows + i))
  else h (x.value + (i * x.rows + j))

/-- `put_block_matrix_element` of matrix.c. -/
@[noinline, nospecialize]
def put_block_matrix_element {α : Type} (h : Nat → α) (x : matrix)
    (offset_i offset_j i j : Nat) (value : α) : Nat → α :=
  let i := offset_i + i
  let j := offset_j + j
  if x.transpose = 0 then Function.update h (x.value + (j * x.rows + i)) value
  else Function.update h (x.value + (i * x.rows + j)) value

/-- `get_block_matrix_element` of matrix.c. -/
@[noinline, nospecialize]
def get_block_matrix_element {α : Type} (h : Nat → α) (x : matrix)
    (offset_i offset_j i j : Nat) : α :=
  let i := offset_i + i
  let j := offset_j + j
  if x.transpose = 0 then h (x.value + (j * x.rows + i))
  else h (x.value + (i * x.rows + j))

/-! ## Globals and external libraries -/

/-- The file-scope switches of matrix.c and matrix_multiply_optimized.c, and
the compile-time macro `__AVX2__`, and the two routines taken from external
libraries (LAPACK through `mat_inv` of matrix_inv.c, and `cblas_dgemm` of
OpenBLAS), which are parameters.

`mat_inv h A n` is the memory after inverting in place the `n`-by-`n`
column-major array at address `A`.

`cblas_dgemm h transA transB M N K alpha A lda B ldb beta C ldc` is the memory
after the column-major call of that name. -/
structure Config (α : Type) where
  use_sequential_inversion : Nat
  g_multiply_method : Nat
  g_dgemm_type : Nat
  g_block_size : Nat
  avx2 : Bool
  mat_inv : (Nat → α) → Nat → Nat → (Nat → α)
  cblas_dgemm : (Nat → α) → Bool → Bool → Nat → Nat → Nat → α → Nat → Nat →
    Nat → Nat → α → Nat → Nat → (Nat → α)

/-! ## matrix_multiply_optimized.c -/

/-- `multiply_matrix_sequential` of matrix_multiply_optimized.c. The header of
`x` is read, not written; the cells of `x` are written one by one while `a` and
`b` are read from the same memory. -/
@[noinline, nospecialize]
def multiply_matrix_sequential {α : Type} [Zero α] [Add α] [Mul α]
    (h : Nat → α) (a b x : matrix) : Nat → α :=
  let a_row_num := if a.transpose ≠ 0 then a.columns else a.rows
  let a_col_num := if a.transpose ≠ 0 then a.rows else a.columns
  let b_col_num := if b.transpose ≠ 0 then b.rows else b.columns
  let A := a.value
  let B := b.value
  let X := x.value
  if a.transpose = 0 then
    forN (fun row_a h =>
      forN (fun column_b h =>
        let value_new := forN (fun i value_new =>
          value_new + h (A + (i * a.rows + row_a)) * h (B + (column_b * b.rows + i)))
          0 a_col_num 0
        Function.update h (X + (column_b * x.rows + row_a)) value_new)
        0 b_col_num h)
      0 a_row_num h
  else
    forN (fun row_a h =>
      forN (fun column_b h =>
        let value_new := forN (fun i value_new =>
          value_new + h (A + (row_a * a.rows + i)) * h (B + (column_b * b.rows + i)))
          0 a_col_num 0
        Function.update h (X + (column_b * x.rows + row_a)) value_new)
        0 b_col_num h)
      0 a_row_num h

/-- `multiply_matrix_openmp_hybrid` of matrix_multiply_optimized.c; the
`omp parallel for` rows are run one after the other. -/
@[noinline, nospecialize]
def multiply_matrix_openmp_hybrid {α : Type} [Zero α] [Add α] [Mul α]
    (h : Nat → α) (a b x : matrix) : Nat → α :=
  let a_row_num := if a.transpose ≠ 0 then a.columns else a.rows
  let a_col_num := if a.transpose ≠ 0 then a.rows else a.columns
  let b_col_num := if b.transpose ≠ 0 then b.rows else b.columns
  let A := a.value
  let B := b.value
  let X := x.value
  if a.transpose = 0 then
    forN (fun row_a h =>
      forN (fun column_b h =>
        let value_new := forN (fun i value_new =>
          value_new + h (A + (i * a.rows + row_a)) * h (B + (column_b * b.rows + i)))
          0 a_col_num 0
        Function.update h (X + (column_b * x.rows + row_a)) value_new)
        0 b_col_num h)
      0 a_row_num h
  else
    forN (fun row_a h =>
      forN (fun column_b h =>
        let value_new := forN (fun i value_new =>
          value_new + h (A + (row_a * a.rows + i)) * h (B + (column_b * b.rows + i)))
          0 a_col_num 0
        Function.update h (X + (column_b * x.rows + row_a)) value_new)
        0 b_col_num h)
      0 a_row_num h

/-- `min_int` of matrix_multiply_optimized.c. -/
@[noinline, nospecialize]
def min_int (a b : Nat) : Nat := if a < b then a else b

/-- The C loop `for (i = i0; i < hi; i += step) s = body(i, s);` run for at most
`fuel` iterations: `none` if the condition still holds when the fuel is used up
(with `fuel = hi` this happens only for `step = 0`, where the C loop does not
terminate). -/
@[noinline, nospecialize]
def forBlocks {σ : Type} (body : Nat → σ → Option σ) (hi step : Nat) :
    Nat → Nat → σ → Option σ
  | 0, i, s => if i < hi then none else some s
  | fuel + 1, i, s =>
    if i < hi then (body i s).bind (forBlocks body hi step fuel (i + step)) else some s

/-- `multiply_matrix_cache_hybrid` of matrix_multiply_optimized.c. The two
branches on `a->transpose` differ only in the index into `A`, given here by
`ia i row_a`; parallel iterations are run in order. -/
@[noinline, nospecialize]
def multiply_matrix_cache_hybrid {α : Type} [Zero α] [Add α] [Mul α]
    (h : Nat → α) (a b x : matrix) (block_size : Nat) : Option (Nat → α) :=
  let a_row_num := if a.transpose ≠ 0 then a.columns else a.rows
  let a_col_num := if a.transpose ≠ 0 then a.rows else a.columns
  let b_col_num := if b.transpose ≠ 0 then b.rows else b.columns
  let A := a.value
  let B := b.value
  let X := x.value
  let h := forN (fun i h => Function.update h (X + i) 0) 0 (x.rows * x.columns) h
  let ia : Nat → Nat → Nat :=
    if a.transpose = 0 then fun i row_a => i * a.rows + row_a
    else fun i row_a => row_a * a.rows + i
  forBlocks (fun ii h =>
    forBlocks (fun jj h =>
      forBlocks (fun kk h =>
        let i_end := min_int (ii + block_size) a_row_num
        let j_end := min_int (jj + block_size) b_col_num
        let k_end := min_int (kk + block_size) a_col_num
        some (forRange (fun row_a h =>
          forRange (fun column_b h =>
            let value_new := forRange (fun i value_new =>
              value_new + h (A + ia i row_a) * h (B + (column_b * b.rows + i))) kk k_end 0
            Function.update h (X + (column_b * x.rows + row_a))
              (h (X + (column_b * x.rows + row_a)) + value_new))
            jj j_end h)
          ii i_end h))
        a_col_num block_size a_col_num 0 h)
      b_col_num block_size b_col_num 0 h)
    a_row_num block_size a_row_num 0 h

/-- The vector loop `for (; i + 3 < n; i += 4) s = body(i, s);` of the AVX2
code; returns the final `i` with the state. The loop variable grows by 4 each
time, so `fuel = n` iterations are never used up. -/
@[noinline, nospecialize]
def forLanes {σ : Type} (body : Nat → σ → σ) (n : Nat) : Nat → Nat → σ → Nat × σ
  | 0, i, s => (i, s)
  | fuel + 1, i, s =>
    if i + 3 < n then forLanes body n fuel (i + 4) (body i s) else (i, s)

/-- `multiply_matrix_simd_hybrid` of matrix_multiply_optimized.c. A `__m256d`
is a 4-tuple of lanes; `_mm256_fmadd_pd` is the lane-wise `a * b + c` in exact
arithmetic. With `avx2 = false` the scalar fallback of the `#else` branches is
taken. The two branches on `a->transpose` differ only in the index into `A`,
given here by `ia i row_a`. -/
@[noinline, nospecialize]
def multiply_matrix_simd_hybrid {α : Type} [Zero α] [Add α] [Mul α]
    (avx2 : Bool) (h : Nat → α) (a b x : matrix) (_block_size : Nat) : Nat → α :=
  let a_row_num := if a.transpose ≠ 0 then a.columns else a.rows
  let a_col_num := if a.transpose ≠ 0 then a.rows else a.columns
  let b_col_num := if b.transpose ≠ 0 then b.rows else b.columns
  let A := a.value
  let B := b.value
  let X := x.value
  let h := forN (fun i h => Function.update h (X + i) 0) 0 (x.rows * x.columns) h
  let ia : Nat → Nat → Nat :=
    if a.transpose = 0 then fun i row_a => i * a.rows + row_a
    else fun i row_a => row_a * a.rows + i
  forN (fun row_a h =>
    forN (fun column_b h =>
      let value_new :=
        if avx2 then
          let sum_vec : α × α × α × α := (0, 0, 0, 0)
          let (i, sum_vec) := forLanes (fun i (sum_vec : α × α × α × α) =>
            let a_vec := (h (A + ia i row_a), h (A + ia (i + 1) row_a),
              h (A + ia (i + 2) row_a), h (A + ia (i + 3) row_a))
            let b_vec := (h (B + (column_b * b.rows + i)), h (B + (column_b * b.rows + i + 1)),
              h (B + (column_b * b.rows + i + 2)), h (B + (column_b * b.rows + i + 3)))
            (a_vec.1 * b_vec.1 + sum_vec.1, a_vec.2.1 * b_vec.2.1 + sum_vec.2.1,
              a_vec.2.2.1 * b_vec.2.2.1 + sum_vec.2.2.1,
              a_vec.2.2.2 * b_vec.2.2.2 + sum_vec.2.2.2))
            a_col_num a_col_num 0 sum_vec
          let value_new := sum_vec.1 + sum_vec.2.1 + sum_vec.2.2.1 + sum_vec.2.2.2
          forRange (fun i value_new =>
            value_new + h (A + ia i row_a) * h (B + (column_b * b.rows + i)))
            i a_col_num value_new
        else
          forN (fun i value_new =>
            value_new + h (A + ia i row_a) * h (B + (column_b * b.rows + i)))
            0 a_col_num 0
      Function.update h (X + (column_b * x.rows + row_a)) value_new)
      0 b_col_num h)
    0 a_row_num h

/-- `multiply_matrix_openblas` of matrix_multiply_optimized.c. -/
@[noinline, nospecialize]
def multiply_matrix_openblas {α : Type} [Zero α] [One α]
    (cfg : Config α) (h : Nat → α) (a b x : matrix) : Option (Nat → α) :=
  let M := if a.transpose ≠ 0 then a.columns else a.rows
  let K := if a.transpose ≠ 0 then a.rows else a.columns
  let N := if b.transpose ≠ 0 then b.rows else b.columns
  if x.rows ≠ M ∨ x.columns ≠ N then none
  else
    let alpha : α := 1
    let beta : α := 0
    let lda := a.rows
    let ldb := b.rows
    let ldx := x.rows
    let transA := decide (a.transpose ≠ 0)
    let transB := decide (b.transpose ≠ 0)
    some (cfg.cblas_dgemm h transA transB M N K alpha a.value lda b.value ldb beta x.value ldx)

/-- `multiply_matrix_optimized` of matrix_multiply_optimized.c, the dispatcher. -/
@[noinline, nospecialize]
def multiply_matrix_optimized {α : Type} [Zero α] [One α] [Add α] [Mul α]
    (cfg : Config α) (h : Nat → α) (a b x : matrix) : Option (Nat → α) :=
  if cfg.g_multiply_method = 0 then some (multiply_matrix_sequential h a b x)
  else if cfg.g_dgemm_type = 0 then
    if cfg.g_multiply_method = 1 then some (multiply_matrix_openmp_hybrid h a b x)
    else if cfg.g_multiply_method = 2 then
      multiply_matrix_cache_hybrid h a b x cfg.g_block_size
    else if cfg.g_multiply_method = 3 then
      some (multiply_matrix_simd_hybrid cfg.avx2 h a b x cfg.g_block_size)
    else none
  else multiply_matrix_openblas cfg h a b x

/-! ## matrix.c: inversion -/

/-- `scale_row` of matrix.c. -/
@[noinline, nospecialize]
def scale_row {α : Type} [Field α] (h : Nat → α) (a : matrix) (row : Nat) : Nat → α :=
  let n := get_num_columns a
  let scale := get_matrix_element h a row row
  let scale := 1 / scale
  let h := put_matrix_element h a row row scale
  forRange (fun j h =>
    let value := get_matrix_element h a row (j % n)
    put_matrix_element h a row (j % n) (value * scale)) (row + 1) (row + n) h

/-- `reduce_row` of matrix.c. -/
@[noinline, nospecialize]
def reduce_row {α : Type} [Field α] (h : Nat → α) (a : matrix) (row pivot : Nat) :
    Nat → α :=
  let n := get_num_columns a
  let scale := get_matrix_element h a row pivot
  let value := -get_matrix_element h a pivot pivot * scale
  let h := put_matrix_element h a row pivot value
  forRange (fun j h =>
    let value := get_matrix_element h a row (j % n)
      - get_matrix_element h a pivot (j % n) * scale
    put_matrix_element h a row (j % n) value) (pivot + 1) (pivot + n) h

/-- `reduce_column` of matrix.c. -/
@[noinline, nospecialize]
def reduce_column {α : Type} [Field α] (h : Nat → α) (a : matrix) (col : Nat) : Nat → α :=
  let n := get_num_rows a
  forRange (fun i h => reduce_row h a (i % n) col) (col + 1) (col + n) h

/-- `invert_this_matrix` of matrix.c: clears the invert flag and inverts the
data in place, by LAPACK or by the Gauss-Jordan loop. -/
@[noinline, nospecialize]
def invert_this_matrix {α : Type} [Field α] (cfg : Config α) (h : Nat → α) (a : matrix) :
    Option ((Nat → α) × matrix) :=
  let a := { a with invert := 0 }
  let n := get_num_columns a
  if a.value = 0 then none
  else if cfg.use_sequential_inversion = 0 then
    some (cfg.mat_inv h a.value n, a)
  else
    some (forRange (fun j h => reduce_column (scale_row h a j) a j) 0 n h, a)

/-! ## matrix.c: products -/

/-- `multiply_matrix` of matrix.c. The three headers are different objects (the
guard `a == x || b == x` of `check_multiply_size` ends the program otherwise);
the result is the memory and the three headers after the call. -/
@[noinline, nospecialize]
def multiply_matrix {α : Type} [Field α] (cfg : Config α) (h : Nat → α) (a b x : matrix) :
    Option ((Nat → α) × matrix × matrix × matrix) :=
  let a_col_num := get_num_columns a
  let b_col_num := get_num_columns b
  let a_row_num := get_num_rows a
  let b_row_num := get_num_rows b
  -- check_multiply_shape
  if a_col_num ≠ b_row_num then none
  -- check_multiply_size
  else if a_row_num * b_col_num ≠ get_num_rows x * get_num_columns x then none
  -- check_memory
  else if x.value = 0 then none
  else
    (if a.invert = 1 then invert_this_matrix cfg h a else some (h, a)).bind fun (h, a) =>
    (if b.invert = 1 then invert_this_matrix cfg h b else some (h, b)).bind fun (h, b) =>
    let x := { x with transpose := 0, invert := 0, rows := a_row_num, columns := b_col_num }
    if x.rows > 1 ∧ x.columns > 1 then
      (multiply_matrix_optimized cfg h a b x).map fun h => (h, a, b, x)
    else if a.transpose = 0 then
      some (forN (fun row_a h =>
        forN (fun column_b h =>
          let value_new := forN (fun i value_new =>
            value_new + h (a.value + (i * a.rows + row_a))
              * h (b.value + (column_b * b_row_num + i)))
            0 a_col_num 0
          Function.update h (x.value + (column_b * x.rows + row_a)) value_new)
          0 b_col_num h)
        0 a_row_num h, a, b, x)
    else
      some (forN (fun row_a h =>
        forN (fun column_b h =>
          let value_new := forN (fun i value_new =>
            value_new + h (a.value + (row_a * a.rows + i))
              * h (b.value + (column_b * b_row_num + i)))
            0 a_col_num 0
          Function.update h (x.value + (column_b * x.rows + row_a)) value_new)
          0 b_col_num h)
        0 a_row_num h, a, b, x)

/-! ## Specification-level definitions -/

/-- Address of the cell that `get_matrix_element` and `put_matrix_element` use
for the logical index `(i, j)`. -/
@[noinline, nospecialize]
def cell (x : matrix) (i j : Nat) : Nat :=
  if x.transpose = 0 then x.value + (j * x.rows + i) else x.value + (i * x.rows + j)

/-- One Gauss-Jordan step on the pivot `j`, written on matrix entries: what
`scale_row` followed by `reduce_column` computes. -/
@[noinline, nospecialize]
def gjStep {α : Type} [Field α] (S : Nat → Nat → α) (j : Nat) : Nat → Nat → α := fun i k =>
  if i = j then (if k = j then 1 / S j j else S j k * (1 / S j j))
  else (if k = j then -(1 / S j j) * S i j else S i k - S j k * (1 / S j j) * S i j)

/-- Product of the leading `n`-by-`n` block of `A` with the vector `x`. -/
@[noinline, nospecialize]
def matVec {α : Type} [Field α] (n : Nat) (A : Nat → Nat → α) (x : Nat → α) (i : Nat) : α :=
  ∑ k in Finset.range n, A i k * x k

/-- Invariant of in-place Gauss-Jordan inversion after `t` pivots: the first
`t` columns of `S` are columns of the accumulated row transformation `E`, the
other columns are columns of `E * A`. Stated without `E`: for every `x`, with
`y = A x`, row `i` of `S` applied to `(y_0 .. y_(t-1), -x_t .. -x_(n-1))` is
`x_i` for `i < t` and `-y_i` otherwise. -/
@[noinline, nospecialize]
def gjInv {α : Type} [Field α] (n : Nat) (A : Nat → Nat → α) (t : Nat)
    (S : Nat → Nat → α) : Prop :=
  ∀ x : Nat → α, ∀ i, i < n →
    ∑ k in Finset.range n, S i k * (if k < t then matVec n A x k else - x k)
      = if i < t then x i else - matVec n A x i

/-! ## Concrete inputs used to instantiate the theorems -/

/-- A configuration that selects the hand-written loops: Gauss-Jordan
inversion and the sequential product. The library routines are not reached. -/
@[noinline, nospecialize]
def exCfg : Config ℚ :=
  { use_sequential_inversion := 1, g_multiply_method := 0, g_dgemm_type := 0,
    g_block_size := 64, avx2 := true, mat_inv := fun h _ _ => h,
    cblas_dgemm := fun h _ _ _ _ _ _ _ _ _ _ _ _ _ => h }

/-- Memory holding the values `l` from address 1 on, and zero elsewhere. -/
@[noinline, nospecialize]
def memOfList {α : Type} [Zero α] (l : List α) : Nat → α :=
  fun k => if k = 0 then 0 else l.getD (k - 1) 0

/-- The 2-by-2 matrix with columns `(2, 1)` and `(1, 1)` at address 1. -/
@[noinline, nospecialize]
def exSquare : matrix :=
  { transpose := 0, invert := 0, rows := 2, columns := 2, value := 1 }


/-- A 1-by-2 row vector `(1, 0)` at address 1. -/
@[noinline, nospecialize]
def exRow : matrix := { transpose := 0, invert := 0, rows := 1, columns := 2, value := 1 }

/-- A 2-by-2 array at address 3 with the transpose flag set: stored cells
`1, 2, 3, 4`, so that `get_matrix_element` reads rows `(1, 2)` and `(3, 4)`. -/
@[noinline, nospecialize]
def exBt : matrix := { transpose := 1, invert := 0, rows := 2, columns := 2, value := 3 }

/-- A 1-by-2 result vector at address 7. -/
@[noinline, nospecialize]
def exOut : matrix := { transpose := 0, invert := 0, rows := 1, columns := 2, value := 7 }

/-- Memory holding `exRow`, `exBt` and `exOut` one after the other. -/
@[noinline, nospecialize]
def exMem : Nat → ℚ := memOfList [1, 0, 1, 2, 3, 4, 0, 0]


/-! ## Monadic control flow -/

/-- The C loop `for (i = lo; i < lo + n; i++) s = body(i, s);` where the body
may end the program. -/
@[noinline, nospecialize]
def forNM {σ : Type} (body : Nat → σ → Option σ) : Nat → Nat → σ → Option σ
  | _, 0, s => some s
  | lo, n + 1, s => (body lo s).bind (forNM body (lo + 1) n)

/-- The C loop `for (i = lo; i < hi; i++) s = body(i, s);` where the body may
end the program. -/
@[noinline, nospecialize]
def forRangeM {σ : Type} (body : Nat → σ → Option σ) (lo hi : Nat) (s : σ) : Option σ :=
  forNM body lo (hi - lo) s

/-- The C loop `while (cond(s)) s = body(s);` run for at most `fuel` rounds:
`none` when the body ends the program or when the condition still holds after
`fuel` rounds. -/
@[noinline, nospecialize]
def whileM {σ : Type} (cond : σ → Bool) (body : σ → Option σ) : Nat → σ → Option σ
  | 0, s => if cond s then none else some s
  | fuel + 1, s => if cond s then (body s).bind (whileM cond body fuel) else some s

/-! ## boundary_types.h -/

/-- `coordinates` of boundary_types.h: the pair `(x, y)`. -/
abbrev coordinates (α : Type) := α × α

/-- `tensor` of boundary_types.h: the rows `([0][0], [0][1])` and
`([1][0], [1][1])`. -/
abbrev tensor (α : Type) := (α × α) × (α × α)

/-- The struct `path` of boundary_types.h. The two arrays are not written
after loading and are given as functions of the index; `none` is `NULL`. -/
structure path (α : Type) where
  links : Int
  close : Int
  reverse : Int
  points : Nat
  xy : Option (Nat → coordinates α)
  value : Option (Nat → α)

/-- The struct `boundary` of boundary_types.h. `loop j` is the address of the
`j`-th path struct; `bvv` and `bcv` are addresses of cells, `0` for `NULL`. -/
structure boundary where
  curve : Int
  components : Nat
  level : Nat → Int
  loop : Nat → Nat
  bvv : Nat
  bcv : Nat

/-- The struct `path_link` of boundary_types.h; `name` holds the 32 bytes. -/
structure path_link where
  path_p : Nat
  name : List Nat

/-- The struct `catchment` of boundary_types.h. -/
structure catchment where
  num_zones : Nat
  max_zones : Nat
  previous_zone : Int
  zones : Nat → boundary
  num_paths : Nat
  max_paths : Nat
  path_list : Nat → path_link

/-- The functions of `math.h` the sources call, and the constant `M_PI`. -/
structure LibM (α : Type) where
  sqrt : α → α
  atan2 : α → α → α
  M_PI : α

/-! ## geometry.c -/

/-- `convert_PQ` of geometry.c; the result is `(x, y1, y2)`. -/
@[noinline, nospecialize]
def convert_PQ {α : Type} [Field α] (m : LibM α) (Qa Qb P : coordinates α) : α × α × α :=
  let yu := Qb.1 - Qa.1
  let yv := Qb.2 - Qa.2
  let d := m.sqrt (yu * yu + yv * yv)
  let yu := yu / d
  let yv := yv / d
  let xu := yv
  let xv := -yu
  let y1 := (Qa.1 - P.1) * yu + (Qa.2 - P.2) * yv
  let y2 := (Qb.1 - P.1) * yu + (Qb.2 - P.2) * yv
  let x := (Qa.1 - P.1) * xu + (Qa.2 - P.2) * xv
  (x, y1, y2)

/-- `rotate_to_PQ` of geometry.c. -/
@[noinline, nospecialize]
def rotate_to_PQ {α : Type} [Field α] (m : LibM α) (x y : α) (Qa Qb : coordinates α) :
    coordinates α :=
  let yu := Qb.1 - Qa.1
  let yv := Qb.2 - Qa.2
  let d := m.sqrt (yu * yu + yv * yv)
  let yu := yu / d
  let yv := yv / d
  let xu := yv
  let xv := -yu
  (x * xu + y * yu, x * xv + y * yv)

/-- `double_rotate_to_PQ` of geometry.c. -/
@[noinline, nospecialize]
def double_rotate_to_PQ {α : Type} [Field α] (m : LibM α) (a b c d : α)
    (Qa Qb : coordinates α) : tensor α :=
  let yu := Qb.1 - Qa.1
  let yv := Qb.2 - Qa.2
  let dd := m.sqrt (yu * yu + yv * yv)
  let yu := yu / dd
  let yv := yv / dd
  let alphasq := yv * yv
  let alphabeta := -yu * yv
  let betasq := yu * yu
  ((a * alphasq - (b + c) * alphabeta + d * betasq,
    b * alphasq + (a - d) * alphabeta - c * betasq),
   (c * alphasq + (a - d) * alphabeta - b * betasq,
    d * alphasq + (b + c) * alphabeta + a * betasq))

/-! ## path.c -/

/-- `check_path_index` of path.c: `none` where the source calls `exit`. -/
@[noinline, nospecialize]
def check_path_index {α : Type} (p : path α) (i : Int) : Option Unit :=
  if p.close = 0 then
    if 0 > i ∨ i ≥ p.points then none else some ()
  else
    if i < 0 then none else some ()

/-- `reverse_path` of path.c. -/
@[noinline, nospecialize]
def reverse_path {α : Type} (p : path α) : path α :=
  { p with reverse := 1 - p.reverse }

/-- `get_path_value` of path.c. -/
@[noinline, nospecialize]
def get_path_value {α : Type} (p : path α) (i : Int) : Option α := do
  let value ← p.value
  check_path_index p i
  let i := i % (p.points : Int)
  if p.reverse = 0 then pure (value i.toNat)
  else pure (value ((p.points : Int) - 1 - i).toNat)

/-- `get_path_xy` of path.c. -/
@[noinline, nospecialize]
def get_path_xy {α : Type} (p : path α) (i : Int) : Option (coordinates α) := do
  let xy ← p.xy
  check_path_index p i
  let i := i % (p.points : Int)
  if p.reverse = 0 then pure (xy i.toNat)
  else pure (xy ((p.points : Int) - 1 - i).toNat)


/-! ## catchment.c -/

/-- `reverse_zone` of catchment.c, acting on the path structs `paths`. -/
@[noinline, nospecialize]
def reverse_zone {α : Type} (paths : Nat → path α) (b : boundary) : Nat → path α :=
  let zone_type := b.curve
  forN (fun j paths =>
    let this_path := b.loop j
    let path_type := b.level j
    if (zone_type = 0 ∧ path_type = 1) ∨ (zone_type = 1 ∧ path_type = 0) then
      Function.update paths this_path (reverse_path (paths this_path))
    else paths) 0 b.components paths

/-- `distance_to_path` of catchment.c; the result is the returned flag with the
outputs `(*d, *s, *segment)`. -/
@[noinline, nospecialize]
def distance_to_path {α : Type} [LinearOrderedField α] (m : LibM α) (P : coordinates α)
    (this_path : path α) : Option (Int × α × α × Nat) := do
  let n_segment := this_path.points
  let Qa ← get_path_xy this_path 0
  let x := Qa.1 - P.1
  let y := Qa.2 - P.2
  let dmin := x * x + y * y
  let imin := 0
  let (dmin, imin) ← forRangeM (fun i (st : α × Nat) => do
    let Qa ← get_path_xy this_path i
    let x := Qa.1 - P.1
    let y := Qa.2 - P.2
    let dsq := x * x + y * y
    if dsq < st.1 then pure (dsq, i) else pure st) 1 n_segment (dmin, imin)
  let dmin := m.sqrt dmin
  let s : α := -(1 / 2)
  let d := dmin
  let segment := imin
  let new_value : Int := 0
  let (new_value, dmin, imin) ← forRangeM (fun i (st : Int × α × Nat) => do
    let Qa ← get_path_xy this_path i
    let Qb ← get_path_xy this_path (i + 1)
    let (x, y1, y2) := convert_PQ m Qa Qb P
    if y1 ≤ 0 ∧ y2 ≥ 0 then
      let x := |x|
      if x < st.2.1 then pure (1, x, i) else pure st
    else pure st) 0 n_segment (new_value, dmin, imin)
  if new_value = 0 then
    let Qa ← get_path_xy this_path ((imin : Int) + n_segment - 1)
    let Qb ← get_path_xy this_path imin
    let (x, _, _) := convert_PQ m Qa Qb P
    let PminusQdotN := -x
    let Qa ← get_path_xy this_path imin
    let Qb ← get_path_xy this_path (imin + 1)
    let (x, _, _) := convert_PQ m Qa Qb P
    let PminusQdotN := PminusQdotN - x
    pure (if PminusQdotN < 0 then 1 else 0, d, s, segment)
  else
    let Qa ← get_path_xy this_path imin
    let Qb ← get_path_xy this_path (imin + 1)
    let (x, y1, y2) := convert_PQ m Qa Qb P
    let PminusQdotN := -x
    let s := -(y1 + y2) / 2 / (y2 - y1)
    let d := dmin
    let segment := imin
    pure (if PminusQdotN < 0 then 1 else 0, d, s, segment)

/-- `check_zone` of catchment.c: the returned flag and the path structs after
the call. -/
@[noinline, nospecialize]
def check_zone {α : Type} [LinearOrderedField α] (m : LibM α) (paths : Nat → path α)
    (b : boundary) (P : coordinates α) : Option (Int × (Nat → path α)) := do
  let n_path := b.components
  let loops := b.loop
  let count := 0
  let paths := reverse_zone paths b
  let count ← forNM (fun j count => do
    let (r, _, _, _) ← distance_to_path m P (paths (loops j))
    if r = 1 then pure (count + 1) else pure count) 0 n_path count
  let paths := reverse_zone paths b
  let j := if count = n_path then 1 else 0
  pure (j, paths)

/-- `check_each_zone` of catchment.c: the returned index and the path structs
after the call. The loop state is `(k, not_this_zone, paths)`. -/
@[noinline, nospecialize]
def check_each_zone {α : Type} [LinearOrderedField α] (m : LibM α) (paths : Nat → path α)
    (c : catchment) (P : coordinates α) : Option (Int × (Nat → path α)) := do
  let nz := c.num_zones
  let not_this_zone : Int := 1
  let (k, not_this_zone, paths) ← whileM
    (fun (st : Nat × Int × (Nat → path α)) => decide (st.1 < nz ∧ st.2.1 ≠ 0))
    (fun st => do
      let b := c.zones st.1
      let (r, paths) ← check_zone m st.2.2 b P
      let not_this_zone := if r = 1 then 0 else st.2.1
      pure (st.1 + 1, not_this_zone, paths))
    nz (0, not_this_zone, paths)
  let k := if not_this_zone = 1 then 0 else k
  pure ((k : Int) - 1, paths)


/-- Number of times `reverse_zone` reverses the path struct at address `a`
while it walks the first `n` components of `b`. -/
@[noinline, nospecialize]
def toggleCount (b : boundary) : Nat → Nat → Nat
  | 0, _ => 0
  | n + 1, a =>
    toggleCount b n a +
      (if ((b.curve = 0 ∧ b.level n = 1) ∨ (b.curve = 1 ∧ b.level n = 0)) ∧ b.loop n = a
        then 1 else 0)


/-- Square roots of the perfect squares that occur in the examples. -/
@[noinline, nospecialize]
def exSqrt (x : ℚ) : ℚ :=
  if x = 1 then 1 else if x = 4 then 2 else if x = 9 then 3 else if x = 16 then 4
  else if x = 25 then 5 else if x = 36 then 6 else if x = 64 then 8 else if x = 100 then 10
  else if x = 144 then 12 else 0

/-- Library functions for the examples: exact square roots on the values that
occur; `atan2` and `M_PI` are not reached by the zone tests. -/
@[noinline, nospecialize]
def exLibM : LibM ℚ := { sqrt := exSqrt, atan2 := fun _ _ => 0, M_PI := 3 }

/-- The rectangle with corners `(0,0), (6,0), (6,8), (0,8)`, anticlockwise,
with node values `x + y`. -/
@[noinline, nospecialize]
def exRect : path ℚ :=
  { links := 0, close := 1, reverse := 0, points := 4,
    xy := some (fun i => [((0 : ℚ), (0 : ℚ)), (6, 0), (6, 8), (0, 8)].getD i (0, 0)),
    value := some (fun i => [(0 : ℚ), 6, 14, 8].getD i 0) }

/-- The rectangle with corners `(11,-2), (17,-2), (17,10), (11,10)`,
anticlockwise. -/
@[noinline, nospecialize]
def exFarRect : path ℚ :=
  { links := 0, close := 1, reverse := 0, points := 4,
    xy := some (fun i => [((11 : ℚ), (-2 : ℚ)), (17, -2), (17, 10), (11, 10)].getD i (0, 0)),
    value := some (fun i => [(9 : ℚ), 15, 27, 21].getD i 0) }

/-- Path structs of the examples: `exRect` at address 1, `exFarRect` at 2. -/
@[noinline, nospecialize]
def exPaths : Nat → path ℚ := fun a => if a = 2 then exFarRect else exRect

/-- A zone bounded by the single outer path at address `a`. -/
@[noinline, nospecialize]
def exZone (a : Nat) : boundary :=
  { curve := 0, components := 1, level := fun _ => 0, loop := fun _ => a, bvv := 0, bcv := 0 }

/-- A catchment of two zones: the far rectangle first, then `exRect`. -/
@[noinline, nospecialize]
def exCatchment : catchment :=
  { num_zones := 2, max_zones := 2, previous_zone := -1,
    zones := fun k => if k = 0 then exZone 2 else exZone 1,
    num_paths := 2, max_paths := 2,
    path_list := fun k => { path_p := k + 1, name := [] } }


/-! ## terms.h -/

/-- The kernel integrals declared in terms.h. terms.c is not among the
sources, so the terms are parameters: scalar terms for a sample point off and
on the source segment, and the vector and tensor terms of the first and second
derivatives, all as functions of the local coordinates `(x, y1, y2)`. -/
structure Terms (α : Type) where
  Vterm_PoffS : α → α → α → α
  Wterm_PoffS : α → α → α → α
  Vterm_PonS : α → α → α → α
  Wterm_PonS : α → α → α → α
  Jterm_PoffS : α → α → α → α
  Kterm_PoffS : α → α → α → α
  Lterm_PoffS : α → α → α → α
  Mterm_PoffS : α → α → α → α
  Jterm_PonS : α → α → α → α
  Kterm_PonS : α → α → α → α
  Lterm_PonS : α → α → α → α
  Mterm_PonS : α → α → α → α
  V1 : α → α → α → coordinates α
  W1 : α → α → α → coordinates α
  J1 : α → α → α → coordinates α
  K1 : α → α → α → coordinates α
  L1 : α → α → α → coordinates α
  M1 : α → α → α → coordinates α
  V2 : α → α → α → tensor α
  W2 : α → α → α → tensor α
  J2 : α → α → α → tensor α
  K2 : α → α → α → tensor α
  L2 : α → α → α → tensor α
  M2 : α → α → α → tensor α

/-! ## linear_sys.c: change of basis -/

/-- `p2c_2coeff` of linear_sys.c; the result is `(*a0, *a1)`. -/
@[noinline, nospecialize]
def p2c_2coeff {α : Type} [Field α] (v w : α) : α × α := (w, v / 4)

/-- `p2c_4coeff` of linear_sys.c; the result is `(*a0, *a1, *a2, *a3)`. -/
@[noinline, nospecialize]
def p2c_4coeff {α : Type} [Field α] (j k l m : α) : α × α × α × α :=
  (m + k / 16, l / 4 + j / 32, k / 16, j / 64)

/-- `p2c_2basis` of linear_sys.c; the result is `(*A0, *A1)`. -/
@[noinline, nospecialize]
def p2c_2basis {α : Type} [Field α] (Vterm Wterm : α) : α × α := (Wterm, 4 * Vterm)

/-- `p2c_4basis` of linear_sys.c; the result is `(*A0, *A1, *A2, *A3)`. -/
@[noinline, nospecialize]
def p2c_4basis {α : Type} [Field α] (Jterm Kterm Lterm Mterm : α) : α × α × α × α :=
  (Mterm, 4 * Lterm, 16 * Kterm - Mterm, 64 * Jterm - 8 * Lterm)

/-- `p2c_2basis_co` of linear_sys.c. -/
@[noinline, nospecialize]
def p2c_2basis_co {α : Type} [Field α] (Vterm Wterm : coordinates α) :
    coordinates α × coordinates α :=
  ((Wterm.1, Wterm.2), (4 * Vterm.1, 4 * Vterm.2))

/-- `p2c_4basis_co` of linear_sys.c. -/
@[noinline, nospecialize]
def p2c_4basis_co {α : Type} [Field α] (Jterm Kterm Lterm Mterm : coordinates α) :
    coordinates α × coordinates α × coordinates α × coordinates α :=
  ((Mterm.1, Mterm.2), (4 * Lterm.1, 4 * Lterm.2),
    (16 * Kterm.1 - Mterm.1, 16 * Kterm.2 - Mterm.2),
    (64 * Jterm.1 - 8 * Lterm.1, 64 * Jterm.2 - 8 * Lterm.2))

/-- `p2c_2basis_ten` of linear_sys.c. -/
@[noinline, nospecialize]
def p2c_2basis_ten {α : Type} [Field α] (Vterm Wterm : tensor α) : tensor α × tensor α :=
  (((Wterm.1.1, Wterm.1.2), (Wterm.2.1, Wterm.2.2)),
   ((4 * Vterm.1.1, 4 * Vterm.1.2), (4 * Vterm.2.1, 4 * Vterm.2.2)))

/-- `p2c_4basis_ten` of linear_sys.c. -/
@[noinline, nospecialize]
def p2c_4basis_ten {α : Type} [Field α] (Jterm Kterm Lterm Mterm : tensor α) :
    tensor α × tensor α × tensor α × tensor α :=
  (((Mterm.1.1, Mterm.1.2), (Mterm.2.1, Mterm.2.2)),
   ((4 * Lterm.1.1, 4 * Lterm.1.2), (4 * Lterm.2.1, 4 * Lterm.2.2)),
   ((16 * Kterm.1.1 - Mterm.1.1, 16 * Kterm.1.2 - Mterm.1.2),
    (16 * Kterm.2.1 - Mterm.2.1, 16 * Kterm.2.2 - Mterm.2.2)),
   ((64 * Jterm.1.1 - 8 * Lterm.1.1, 64 * Jterm.1.2 - 8 * Lterm.1.2),
    (64 * Jterm.2.1 - 8 * Lterm.2.1, 64 * Jterm.2.2 - 8 * Lterm.2.2)))

/-! ## linear_sys.c: voltage geometry matrix -/

/-- The block that `fill_voltage_geometry_matrix` repeats for each of the five
sample points `Pa .. Pe`: `convert_PQ`, the `V` and `W` terms (`PonS` when
`onS`, `PoffS` otherwise), `p2c_2basis`, and the two `put_block_matrix_element` calls
at row `i` and columns `j`, `j + 1`. -/
@[noinline, nospecialize]
def vgm_sample {α : Type} [Field α] (m : LibM α) (t : Terms α) (vgm : matrix)
    (offset_i offset_j : Nat) (Qa Qb : coordinates α) (onS : Bool) (Px : coordinates α)
    (i j : Nat) (h : Nat → α) : Nat → α :=
  let (x, y1, y2) := convert_PQ m Qa Qb Px
  let V := if onS then t.Vterm_PonS x y1 y2 else t.Vterm_PoffS x y1 y2
  let W := if onS then t.Wterm_PonS x y1 y2 else t.Wterm_PoffS x y1 y2
  let (V, W) := p2c_2basis V W
  let h := put_block_matrix_element h vgm offset_i offset_j i j V
  put_block_matrix_element h vgm offset_i offset_j i (j + 1) W

/-- `fill_voltage_geometry_matrix` of linear_sys.c. `path_i` and `path_j` are
addresses of path structs. The constants `0.8, 0.6, 0.4, 0.2` are the exact
fractions. -/
@[noinline, nospecialize]
def fill_voltage_geometry_matrix {α : Type} [Field α] (m : LibM α) (t : Terms α)
    (paths : Nat → path α) (offset_i offset_j path_i path_j : Nat) (vgm : matrix)
    (h : Nat → α) : Option (Nat → α) :=
  let offset_i := offset_i * 5
  let offset_j := offset_j * 2
  let points_i := (paths path_i).points
  let points_j := (paths path_j).points
  forNM (fun segment_j h => do
    let Qa ← get_path_xy (paths path_j) segment_j
    let Qb ← get_path_xy (paths path_j) (segment_j + 1)
    let j := segment_j * 2
    forNM (fun segment_i h => do
      let i := segment_i * 5
      let Pa ← get_path_xy (paths path_i) segment_i
      let Pf ← get_path_xy (paths path_i) (segment_i + 1)
      let Pb : coordinates α := (4 / 5 * Pa.1 + 1 / 5 * Pf.1, 4 / 5 * Pa.2 + 1 / 5 * Pf.2)
      let Pc : coordinates α := (3 / 5 * Pa.1 + 2 / 5 * Pf.1, 3 / 5 * Pa.2 + 2 / 5 * Pf.2)
      let Pd : coordinates α := (2 / 5 * Pa.1 + 3 / 5 * Pf.1, 2 / 5 * Pa.2 + 3 / 5 * Pf.2)
      let Pe : coordinates α := (1 / 5 * Pa.1 + 4 / 5 * Pf.1, 1 / 5 * Pa.2 + 4 / 5 * Pf.2)
      let put := vgm_sample m t vgm offset_i offset_j Qa Qb
      if path_i ≠ path_j then
        let h := put false Pa i j h
        let h := put false Pb (i + 1) j h
        let h := put false Pc (i + 2) j h
        let h := put false Pd (i + 3) j h
        let h := put false Pe (i + 4) j h
        pure h
      else if ((segment_i : Int) - segment_j + points_i) % points_i = 0 then
        let h := put true Pa i j h
        let h := put true Pb (i + 1) j h
        let h := put true Pc (i + 2) j h
        let h := put true Pd (i + 3) j h
        let h := put true Pe (i + 4) j h
        pure h
      else if ((segment_i : Int) - segment_j + points_i) % points_i = 1 then
        let h := put true Pa i j h
        let h := put false Pb (i + 1) j h
        let h := put false Pc (i + 2) j h
        let h := put false Pd (i + 3) j h
        let h := put false Pe (i + 4) j h
        pure h
      else
        let h := put false Pa i j h
        let h := put false Pb (i + 1) j h
        let h := put false Pc (i + 2) j h
        let h := put false Pd (i + 3) j h
        let h := put false Pe (i + 4) j h
        pure h) 0 points_i h) 0 points_j h

/-- `make_voltage_geometry_matrix` of linear_sys.c. The loop states are
`(memory, offset_j)` and `(memory, offset_i)`. -/
@[noinline, nospecialize]
def make_voltage_geometry_matrix {α : Type} [Field α] (m : LibM α) (t : Terms α)
    (paths : Nat → path α) (b : boundary) (vgm : matrix) (h : Nat → α) : Option (Nat → α) := do
  let paths_n := b.components
  let (h, _) ← forNM (fun j (st : (Nat → α) × Nat) => do
    let path_j := b.loop j
    let (h, _) ← forNM (fun i (st' : (Nat → α) × Nat) => do
      let path_i := b.loop i
      let h ← fill_voltage_geometry_matrix m t paths st'.2 st.2 path_i path_j vgm st'.1
      pure (h, st'.2 + (paths (b.loop i)).points)) 0 paths_n (st.1, 0)
    pure (h, st.2 + (paths (b.loop j)).points)) 0 paths_n (h, 0)
  pure h


/-! ## linear_sys.c: current geometry matrix -/

/-- The block that `fill_current_geometry_matrix` repeats for each of the five
sample points: `convert_PQ`, the `J, K, L, M` terms (`PonS` when `onS`, `PoffS`
otherwise), `p2c_4basis`, and the four `put_block_matrix_element` calls at row
`i` and columns `j .. j + 3`. -/
@[noinline, nospecialize]
def cgm_sample {α : Type} [Field α] (m : LibM α) (t : Terms α) (cgm : matrix)
    (offset_i offset_j : Nat) (Qa Qb : coordinates α) (onS : Bool) (Px : coordinates α)
    (i j : Nat) (h : Nat → α) : Nat → α :=
  let (x, y1, y2) := convert_PQ m Qa Qb Px
  let J := if onS then t.Jterm_PonS x y1 y2 else t.Jterm_PoffS x y1 y2
  let K := if onS then t.Kterm_PonS x y1 y2 else t.Kterm_PoffS x y1 y2
  let L := if onS then t.Lterm_PonS x y1 y2 else t.Lterm_PoffS x y1 y2
  let M := if onS then t.Mterm_PonS x y1 y2 else t.Mterm_PoffS x y1 y2
  let (J, K, L, M) := p2c_4basis J K L M
  let h := put_block_matrix_element h cgm offset_i offset_j i j J
  let h := put_block_matrix_element h cgm offset_i offset_j i (j + 1) K
  let h := put_block_matrix_element h cgm offset_i offset_j i (j + 2) L
  put_block_matrix_element h cgm offset_i offset_j i (j + 3) M

/-- `fill_current_geometry_matrix` of linear_sys.c. -/
@[noinline, nospecialize]
def fill_current_geometry_matrix {α : Type} [Field α] (m : LibM α) (t : Terms α)
    (paths : Nat → path α) (offset_i offset_j path_i path_j : Nat) (cgm : matrix)
    (h : Nat → α) : Option (Nat → α) :=
  let offset_i := offset_i * 5
  let offset_j := offset_j * 4
  let points_i := (paths path_i).points
  let points_j := (paths path_j).points
  forNM (fun segment_j h => do
    let Qa ← get_path_xy (paths path_j) segment_j
    let Qb ← get_path_xy (paths path_j) (segment_j + 1)
    let j := segment_j * 4
    forNM (fun segment_i h => do
      let i := segment_i * 5
      let Pa ← get_path_xy (paths path_i) segment_i
      let Pf ← get_path_xy (paths path_i) (segment_i + 1)
      let Pb : coordinates α := (4 / 5 * Pa.1 + 1 / 5 * Pf.1, 4 / 5 * Pa.2 + 1 / 5 * Pf.2)
      let Pc : coordinates α := (3 / 5 * Pa.1 + 2 / 5 * Pf.1, 3 / 5 * Pa.2 + 2 / 5 * Pf.2)
      let Pd : coordinates α := (2 / 5 * Pa.1 + 3 / 5 * Pf.1, 2 / 5 * Pa.2 + 3 / 5 * Pf.2)
      let Pe : coordinates α := (1 / 5 * Pa.1 + 4 / 5 * Pf.1, 1 / 5 * Pa.2 + 4 / 5 * Pf.2)
      let put := cgm_sample m t cgm offset_i offset_j Qa Qb
      if path_i ≠ path_j then
        let h := put false Pa i j h
        let h := put false Pb (i + 1) j h
        let h := put false Pc (i + 2) j h
        let h := put false Pd (i + 3) j h
        let h := put false Pe (i + 4) j h
        pure h
      else if ((segment_i : Int) - segment_j + points_i) % points_i = 0 then
        let h := put true Pa i j h
        let h := put true Pb (i + 1) j h
        let h := put true Pc (i + 2) j h
        let h := put true Pd (i + 3) j h
        let h := put true Pe (i + 4) j h
        pure h
      else if ((segment_i : Int) - segment_j + points_i) % points_i = 1 then
        let h := put true Pa i j h
        let h := put false Pb (i + 1) j h
        let h := put false Pc (i + 2) j h
        let h := put false Pd (i + 3) j h
        let h := put false Pe (i + 4) j h
        pure h
      else
        let h := put false Pa i j h
        let h := put false Pb (i + 1) j h
        let h := put false Pc (i + 2) j h
        let h := put false Pd (i + 3) j h
        let h := put false Pe (i + 4) j h
        pure h) 0 points_i h) 0 points_j h

/-- `make_current_geometry_matrix` of linear_sys.c. -/
@[noinline, nospecialize]
def make_current_geometry_matrix {α : Type} [Field α] (m : LibM α) (t : Terms α)
    (paths : Nat → path α) (b : boundary) (cgm : matrix) (h : Nat → α) : Option (Nat → α) := do
  let paths_n := b.components
  let (h, _) ← forNM (fun j (st : (Nat → α) × Nat) => do
    let path_j := b.loop j
    let (h, _) ← forNM (fun i (st' : (Nat → α) × Nat) => do
      let path_i := b.loop i
      let h ← fill_current_geometry_matrix m t paths st'.2 st.2 path_i path_j cgm st'.1
      pure (h, st'.2 + (paths (b.loop i)).points)) 0 paths_n (st.1, 0)
    pure (h, st.2 + (paths (b.loop j)).points)) 0 paths_n (h, 0)
  pure h

/-! ## linear_sys.c: diagonal matrix -/

/-- The ten `put_block_matrix_element(dm, offset_i, offset_j, i + k, j + c, 0.0)`
calls that `fill_diagonal_matrix` and `empty_diagonal_matrix` make for one pair
of segments. -/
@[noinline, nospecialize]
def dm_zero_block {α : Type} [Field α] (dm : matrix) (offset_i offset_j i j : Nat)
    (h : Nat → α) : Nat → α :=
  let h := put_block_matrix_element h dm offset_i offset_j i j 0
  let h := put_block_matrix_element h dm offset_i offset_j i (j + 1) 0
  let h := put_block_matrix_element h dm offset_i offset_j (i + 1) j 0
  let h := put_block_matrix_element h dm offset_i offset_j (i + 1) (j + 1) 0
  let h := put_block_matrix_element h dm offset_i offset_j (i + 2) j 0
  let h := put_block_matrix_element h dm offset_i offset_j (i + 2) (j + 1) 0
  let h := put_block_matrix_element h dm offset_i offset_j (i + 3) j 0
  let h := put_block_matrix_element h dm offset_i offset_j (i + 3) (j + 1) 0
  let h := put_block_matrix_element h dm offset_i offset_j (i + 4) j 0
  put_block_matrix_element h dm offset_i offset_j (i + 4) (j + 1) 0

/-- `fill_diagonal_matrix` of linear_sys.c. -/
@[noinline, nospecialize]
def fill_diagonal_matrix {α : Type} [LinearOrderedField α] (m : LibM α)
    (paths : Nat → path α) (offset_i offset_j path_i path_j : Nat) (dm : matrix)
    (h : Nat → α) : Option (Nat → α) :=
  let points_i := (paths path_i).points
  let points_j := (paths path_j).points
  let offset_i := offset_i * 5
  let offset_j := offset_j * 2
  forNM (fun segment_j h => do
    let j := segment_j * 2
    let h := forRange (fun segment_i h =>
      dm_zero_block dm offset_i offset_j (segment_i * 5) j h) 0 segment_j h
    let segment_i := segment_j
    let i := segment_i * 5
    let a ← get_path_xy (paths path_i) ((segment_i : Int) - 1 + points_i)
    let b ← get_path_xy (paths path_i) segment_i
    let c ← get_path_xy (paths path_i) (segment_i + 1)
    let syn_y := (a.2 - b.2) * (c.1 - b.1) - (c.2 - b.2) * (a.1 - b.1)
    let syn_x := (a.1 - b.1) * (c.1 - b.1) + (c.2 - b.2) * (a.2 - b.2)
    let syn := m.atan2 syn_y syn_x
    let syn := syn / (2 * m.M_PI)
    let syn := if syn < 0 then syn + 1 else syn
    let (V, W) := p2c_2basis (-(1 / 2) * syn) syn
    let h := put_block_matrix_element h dm offset_i offset_j i j V
    let h := put_block_matrix_element h dm offset_i offset_j i (j + 1) W
    let (V, W) := p2c_2basis (-(3 / 10) * (1 / 2 : α)) (1 / 2)
    let h := put_block_matrix_element h dm offset_i offset_j (i + 1) j V
    let h := put_block_matrix_element h dm offset_i offset_j (i + 1) (j + 1) W
    let (V, W) := p2c_2basis (-(1 / 10) * (1 / 2 : α)) (1 / 2)
    let h := put_block_matrix_element h dm offset_i offset_j (i + 2) j V
    let h := put_block_matrix_element h dm offset_i offset_j (i + 2) (j + 1) W
    let (V, W) := p2c_2basis (1 / 10 * (1 / 2 : α)) (1 / 2)
    let h := put_block_matrix_element h dm offset_i offset_j (i + 3) j V
    let h := put_block_matrix_element h dm offset_i offset_j (i + 3) (j + 1) W
    let (V, W) := p2c_2basis (3 / 10 * (1 / 2 : α)) (1 / 2)
    let h := put_block_matrix_element h dm offset_i offset_j (i + 4) j V
    let h := put_block_matrix_element h dm offset_i offset_j (i + 4) (j + 1) W
    let h := forRange (fun segment_i h =>
      dm_zero_block dm offset_i offset_j (segment_i * 5) j h) (segment_j + 1) points_i h
    pure h) 0 points_j h

/-- `empty_diagonal_matrix` of linear_sys.c. -/
@[noinline, nospecialize]
def empty_diagonal_matrix {α : Type} [Field α] (paths : Nat → path α)
    (offset_i offset_j path_i path_j : Nat) (dm : matrix) (h : Nat → α) : Nat → α :=
  let points_i := (paths path_i).points
  let points_j := (paths path_j).points
  let offset_i := offset_i * 5
  let offset_j := offset_j * 2
  forN (fun segment_j h =>
    let j := segment_j * 2
    forN (fun segment_i h =>
      dm_zero_block dm offset_i offset_j (segment_i * 5) j h) 0 points_i h) 0 points_j h

/-- `make_diagonal_matrix` of linear_sys.c. -/
@[noinline, nospecialize]
def make_diagonal_matrix {α : Type} [LinearOrderedField α] (m : LibM α)
    (paths : Nat → path α) (b : boundary) (dm : matrix) (h : Nat → α) : Option (Nat → α) := do
  let paths_n := b.components
  let (h, _) ← forNM (fun j (st : (Nat → α) × Nat) => do
    let path_j := b.loop j
    let offset_j := st.2
    let (h, offset_i) := forRange (fun i (st' : (Nat → α) × Nat) =>
      (empty_diagonal_matrix paths st'.2 offset_j (b.loop i) path_j dm st'.1,
        st'.2 + (paths (b.loop i)).points)) 0 j (st.1, 0)
    let i := j
    let path_i := b.loop i
    let h ← fill_diagonal_matrix m paths offset_i offset_j path_i path_j dm h
    let offset_i := offset_i + (paths (b.loop i)).points
    let (h, _) := forRange (fun i (st' : (Nat → α) × Nat) =>
      (empty_diagonal_matrix paths st'.2 offset_j (b.loop i) path_j dm st'.1,
        st'.2 + (paths (b.loop i)).points)) (j + 1) paths_n (h, offset_i)
    pure (h, offset_j + (paths (b.loop j)).points)) 0 paths_n (h, 0)
  pure h


/-! ## linear_sys.c: geometry vectors -/

/-- `fill_voltage_geometry_vector` of linear_sys.c. -/
@[noinline, nospecialize]
def fill_voltage_geometry_vector {α : Type} [Field α] (m : LibM α) (t : Terms α)
    (paths : Nat → path α) (P : coordinates α) (offset_j path_j : Nat) (vgv : matrix)
    (h : Nat → α) : Option (Nat → α) :=
  let offset_j := offset_j * 2
  let points_j := (paths path_j).points
  forNM (fun segment_j h => do
    let Qa ← get_path_xy (paths path_j) segment_j
    let Qb ← get_path_xy (paths path_j) (segment_j + 1)
    let j := segment_j * 2
    let (x, y1, y2) := convert_PQ m Qa Qb P
    let V := t.Vterm_PoffS x y1 y2
    let W := t.Wterm_PoffS x y1 y2
    let (V, W) := p2c_2basis V W
    let h := put_block_matrix_element h vgv 0 offset_j 0 j V
    let h := put_block_matrix_element h vgv 0 offset_j 0 (j + 1) W
    pure h) 0 points_j h

/-- `make_voltage_geometry_vector` of linear_sys.c. -/
@[noinline, nospecialize]
def make_voltage_geometry_vector {α : Type} [Field α] (m : LibM α) (t : Terms α)
    (paths : Nat → path α) (P : coordinates α) (b : boundary) (vgv : matrix)
    (h : Nat → α) : Option (Nat → α) := do
  let paths_n := b.components
  let (h, _) ← forNM (fun j (st : (Nat → α) × Nat) => do
    let path_j := b.loop j
    let h ← fill_voltage_geometry_vector m t paths P st.2 path_j vgv st.1
    pure (h, st.2 + (paths (b.loop j)).points)) 0 paths_n (h, 0)
  pure h

/-- `fill_current_geometry_vector` of linear_sys.c. -/
@[noinline, nospecialize]
def fill_current_geometry_vector {α : Type} [Field α] (m : LibM α) (t : Terms α)
    (paths : Nat → path α) (P : coordinates α) (offset_j path_j : Nat) (cgv : matrix)
    (h : Nat → α) : Option (Nat → α) :=
  let offset_j := offset_j * 4
  let points_j := (paths path_j).points
  forNM (fun segment_j h => do
    let Qa ← get_path_xy (paths path_j) segment_j
    let Qb ← get_path_xy (paths path_j) (segment_j + 1)
    let j := segment_j * 4
    let (x, y1, y2) := convert_PQ m Qa Qb P
    let J := t.Jterm_PoffS x y1 y2
    let K := t.Kterm_PoffS x y1 y2
    let L := t.Lterm_PoffS x y1 y2
    let M := t.Mterm_PoffS x y1 y2
    let (J, K, L, M) := p2c_4basis J K L M
    let h := put_block_matrix_element h cgv 0 offset_j 0 j J
    let h := put_block_matrix_element h cgv 0 offset_j 0 (j + 1) K
    let h := put_block_matrix_element h cgv 0 offset_j 0 (j + 2) L
    let h := put_block_matrix_element h cgv 0 offset_j 0 (j + 3) M
    pure h) 0 points_j h

/-- `make_current_geometry_vector` of linear_sys.c. -/
@[noinline, nospecialize]
def make_current_geometry_vector {α : Type} [Field α] (m : LibM α) (t : Terms α)
    (paths : Nat → path α) (P : coordinates α) (b : boundary) (cgv : matrix)
    (h : Nat → α) : Option (Nat → α) := do
  let paths_n := b.components
  let (h, _) ← forNM (fun j (st : (Nat → α) × Nat) => do
    let path_j := b.loop j
    let h ← fill_current_geometry_vector m t paths P st.2 path_j cgv st.1
    pure (h, st.2 + (paths (b.loop j)).points)) 0 paths_n (h, 0)
  pure h

/-- `fill_kcl_geometry_vector` of linear_sys.c. -/
@[noinline, nospecialize]
def fill_kcl_geometry_vector {α : Type} [Field α] (m : LibM α)
    (paths : Nat → path α) (offset_j path_j : Nat) (kcl : matrix)
    (h : Nat → α) : Option (Nat → α) :=
  let offset_j := offset_j * 4
  let points_j := (paths path_j).points
  forNM (fun segment_j h => do
    let Qa ← get_path_xy (paths path_j) segment_j
    let Qb ← get_path_xy (paths path_j) (segment_j + 1)
    let P : coordinates α := ((Qa.1 + Qb.1) / 2, (Qa.2 + Qb.2) / 2)
    let j := segment_j * 4
    let (_, y1, y2) := convert_PQ m Qa Qb P
    let J : α := 0
    let K := (y2 - y1) / 12
    let L : α := 0
    let M := y2 - y1
    let (J, K, L, M) := p2c_4basis J K L M
    let h := put_block_matrix_element h kcl 0 offset_j 0 j J
    let h := put_block_matrix_element h kcl 0 offset_j 0 (j + 1) K
    let h := put_block_matrix_element h kcl 0 offset_j 0 (j + 2) L
    let h := put_block_matrix_element h kcl 0 offset_j 0 (j + 3) M
    pure h) 0 points_j h

/-- `make_kcl_geometry_vector` of linear_sys.c. -/
@[noinline, nospecialize]
def make_kcl_geometry_vector {α : Type} [Field α] (m : LibM α)
    (paths : Nat → path α) (b : boundary) (kcl : matrix)
    (h : Nat → α) : Option (Nat → α) := do
  let paths_n := b.components
  let (h, _) ← forNM (fun j (st : (Nat → α) × Nat) => do
    let path_j := b.loop j
    let h ← fill_kcl_geometry_vector m paths st.2 path_j kcl st.1
    pure (h, st.2 + (paths (b.loop j)).points)) 0 paths_n (h, 0)
  pure h

/-! ## matrix.c: sums, copies and lazy flags -/

/-- `check_size` of matrix.c: `none` where the source calls `exit`. -/
@[noinline, nospecialize]
def check_size (a b : matrix) : Option Unit :=
  if a.rows * a.columns ≠ b.rows * b.columns then none else some ()

/-- `check_memory` of matrix.c. -/
@[noinline, nospecialize]
def check_memory (x : matrix) : Option Unit :=
  if x.value = 0 then none else some ()

/-- `check_add_shape` of matrix.c. -/
@[noinline, nospecialize]
def check_add_shape (a b : matrix) : Option Unit :=
  if get_num_rows a ≠ get_num_rows b ∨ get_num_columns a ≠ get_num_columns b then none
  else some ()

/-- `check_size_row` of matrix.c. -/
@[noinline, nospecialize]
def check_size_row (a b : matrix) : Option Unit :=
  if get_num_columns a ≠ get_num_columns b ∨ get_num_rows b ≠ 1 then none else some ()

/-- `check_invert_shape` of matrix.c. -/
@[noinline, nospecialize]
def check_invert_shape (a : matrix) : Option Unit :=
  if get_num_rows a ≠ get_num_columns a then none else some ()

/-- `add_matrix` of matrix.c for a result `x` that is a different object from
`a` and `b` (the branches `a == x` and `b == x` are not taken); the result is
the memory and the headers of `a`, `b`, `x`. -/
@[noinline, nospecialize]
def add_matrix {α : Type} [Field α] (cfg : Config α) (h : Nat → α) (a b x : matrix) :
    Option ((Nat → α) × matrix × matrix × matrix) := do
  check_add_shape a b
  check_size a x
  check_memory x
  let (h, a) ← if a.invert = 1 then invert_this_matrix cfg h a else some (h, a)
  let (h, b) ← if b.invert = 1 then invert_this_matrix cfg h b else some (h, b)
  let x : matrix := { x with transpose := 0, invert := 0 }
  let rows := get_num_rows a
  let columns := get_num_columns a
  let x : matrix := if x.transpose = 0 then { x with rows := rows, columns := columns }
    else { x with rows := columns, columns := rows }
  let h := forN (fun j h =>
    forN (fun i h =>
      let value_a := get_matrix_element h a i j
      let value_b := get_matrix_element h b i j
      put_matrix_element h x i j (value_a + value_b)) 0 rows h) 0 columns h
  pure (h, a, b, x)

/-- `zero_last_matrix_row` of matrix.c. -/
@[noinline, nospecialize]
def zero_last_matrix_row {α : Type} [Field α] (h : Nat → α) (a : matrix) :
    Option (Nat → α) := do
  check_memory a
  let rows := get_num_rows a
  let columns := get_num_columns a
  let i := rows - 1
  pure (forN (fun j h => put_matrix_element h a i j 0) 0 columns h)

/-- `fill_last_matrix_row` of matrix.c. -/
@[noinline, nospecialize]
def fill_last_matrix_row {α : Type} (h : Nat → α) (a x : matrix) : Option (Nat → α) := do
  check_size_row a x
  check_memory a
  check_memory x
  let rows := get_num_rows a
  let columns := get_num_columns a
  let i := rows - 1
  pure (forN (fun j h =>
    let value := get_matrix_element h x 0 j
    put_matrix_element h a i j value) 0 columns h)

/-- `copy_matrix` of matrix.c; `x = none` stands for the call `copy_matrix(a, a)`
with the same object twice. The result is the memory and the headers of `a`
and, when it is another object, `x`. -/
@[noinline, nospecialize]
def copy_matrix {α : Type} [Field α] (cfg : Config α) (h : Nat → α) (a : matrix)
    (x : Option matrix) : Option ((Nat → α) × matrix × Option matrix) := do
  check_size a (x.getD a)
  check_memory (x.getD a)
  let (h, a) ← if a.invert = 1 then invert_this_matrix cfg h a else some (h, a)
  match x with
  | none => pure (h, a, none)
  | some x =>
    let x : matrix := { x with transpose := 0, invert := 0 }
    let rows := get_num_rows a
    let x : matrix := { x with rows := rows }
    let columns := get_num_columns a
    let x : matrix := { x with columns := columns }
    let h := forN (fun j h =>
      forN (fun i h =>
        let value_a := get_matrix_element h a i j
        put_matrix_element h x i j value_a) 0 rows h) 0 columns h
    pure (h, a, some x)

/-- `transpose_matrix` of matrix.c; `x = none` stands for the call
`transpose_matrix(a, a)` with the same object twice. -/
@[noinline, nospecialize]
def transpose_matrix {α : Type} [Field α] (cfg : Config α) (h : Nat → α) (a : matrix)
    (x : Option matrix) : Option ((Nat → α) × matrix × Option matrix) := do
  check_size a (x.getD a)
  check_memory (x.getD a)
  let a : matrix := { a with transpose := 1 - a.transpose }
  match x with
  | none => pure (h, a, none)
  | some x =>
    let (h, a, x) ← copy_matrix cfg h a (some x)
    let a : matrix := { a with transpose := 1 - a.transpose }
    pure (h, a, x)

/-- `invert_matrix` of matrix.c; `x = none` stands for the call
`invert_matrix(a, a)` with the same object twice. -/
@[noinline, nospecialize]
def invert_matrix {α : Type} [Field α] (cfg : Config α) (h : Nat → α) (a : matrix)
    (x : Option matrix) : Option ((Nat → α) × matrix × Option matrix) := do
  check_size a (x.getD a)
  check_invert_shape a
  check_memory (x.getD a)
  let a : matrix := { a with invert := 1 - a.invert }
  match x with
  | none => pure (h, a, none)
  | some x => copy_matrix cfg h a (some x)


/-! ## Allocation -/

/-- The cells of `double` together with the allocator state: `brk` is the
address `malloc` hands out next. `malloc` never returns `NULL` here, and `free`
does not recycle addresses. -/
structure memory (α : Type) where
  cells : Nat → α
  brk : Nat

/-- `malloc(n * sizeof(double))`: the new block and the memory after the call. -/
@[noinline, nospecialize]
def malloc {α : Type} (mem : memory α) (n : Nat) : Nat × memory α :=
  (mem.brk, { mem with brk := mem.brk + n })

/-! ## bsolve_optimized.c: boundary vectors -/

/-- `fill_boundary_voltage_vector` of bsolve_optimized.c; `result` is the
address of the first cell to fill. -/
@[noinline, nospecialize]
def fill_boundary_voltage_vector {α : Type} [Field α] (path_i : path α) (result : Nat)
    (h : Nat → α) : Option (Nat → α) :=
  let poi := path_i.points
  forNM (fun j h => do
    let v1 ← get_path_value path_i j
    let v2 ← get_path_value path_i (j + 1)
    let V := v2 - v1
    let W := (v2 + v1) / 2
    let (V, W) := p2c_2coeff V W
    let h := Function.update h (result + 2 * j) V
    let h := Function.update h (result + (2 * j + 1)) W
    pure h) 0 poi h

/-- `make_boundary_voltage_vector` of bsolve_optimized.c: the memory, the zone
and the header `bvv` after the call. -/
@[noinline, nospecialize]
def make_boundary_voltage_vector {α : Type} [Field α] (paths : Nat → path α)
    (mem : memory α) (b : boundary) (bvv : matrix) :
    Option (memory α × boundary × matrix) :=
  if b.bvv = 0 then do
    let (p, mem) := malloc mem (get_num_rows bvv)
    let bvv : matrix := { bvv with value := p }
    let b : boundary := { b with bvv := bvv.value }
    let paths_n := b.components
    let result := bvv.value
    let (h, _) ← forNM (fun i (st : (Nat → α) × Nat) => do
      let path_i := paths (b.loop i)
      let h ← fill_boundary_voltage_vector path_i st.2 st.1
      let poi := path_i.points
      pure (h, st.2 + 2 * poi)) 0 paths_n (mem.cells, result)
    pure ({ mem with cells := h }, b, bvv)
  else
    some (mem, b, { bvv with value := b.bvv })

/-- Total number of points of the components of a zone, the loop
`N = 0; for (j...) N = N + b->loop[j]->points;`. -/
@[noinline, nospecialize]
def num_boundary_points {α : Type} (paths : Nat → path α) (b : boundary) : Nat :=
  forN (fun j N => N + (paths (b.loop j)).points) 0 b.components 0

/-- PHASE 1 of `make_bcv_use_KCL`, first half: the views `A` and `D` are
attached, `A` is assembled and its last row cleared. The result is the memory
and the headers `A`, `D`. -/
@[noinline, nospecialize]
def KCL_assemble_A {α : Type} [Field α] (m : LibM α) (t : Terms α) (paths : Nat → path α)
    (b : boundary) (N values : Nat) (h : Nat → α) : Option ((Nat → α) × matrix × matrix) := do
  let A := attach_matrix (5 * N + 1) (2 * N) values
  let D := attach_matrix (5 * N + 1) (2 * N) (after_matrix A)
  let h ← make_voltage_geometry_matrix m t paths b A h
  let h ← zero_last_matrix_row h A
  pure (h, A, D)

/-- PHASE 1 of `make_bcv_use_KCL`, second half of the assembly: `D` is
assembled and its last row cleared. -/
@[noinline, nospecialize]
def KCL_assemble_D {α : Type} [LinearOrderedField α] (m : LibM α) (paths : Nat → path α)
    (b : boundary) (D : matrix) (h : Nat → α) : Option (Nat → α) := do
  let h ← make_diagonal_matrix m paths b D h
  zero_last_matrix_row h D

/-- PHASE 1 of `make_bcv_use_KCL`, "Voltage Geometry Matrix Setup": the memory
and the headers `DA`, `V`, `DAV` at its end. -/
@[noinline, nospecialize]
def KCL_phase1 {α : Type} [LinearOrderedField α] (cfg : Config α) (m : LibM α) (t : Terms α)
    (paths : Nat → path α) (b : boundary) (N values : Nat) (V : matrix) (h : Nat → α) :
    Option ((Nat → α) × matrix × matrix × matrix) := do
  let (h, A, D) ← KCL_assemble_A m t paths b N values h
  let DA := attach_matrix (5 * N + 1) (2 * N) values
  let DAV := attach_matrix (5 * N + 1) 1 (after_matrix D)
  let h ← KCL_assemble_D m paths b D h
  let (h, _, _, DA) ← add_matrix cfg h D A DA
  let (h, DA, V, DAV) ← multiply_matrix cfg h DA V DAV
  pure (h, DA, V, DAV)

/-- PHASE 2 of `make_bcv_use_KCL`, "Current Geometry Matrix Setup": the memory
and the headers `B`, `BT`, `BTB`, `BTDAV` at its end. -/
@[noinline, nospecialize]
def KCL_phase2 {α : Type} [Field α] (cfg : Config α) (m : LibM α) (t : Terms α)
    (paths : Nat → path α) (b : boundary) (N values : Nat) (DAV : matrix) (h : Nat → α) :
    Option ((Nat → α) × matrix × matrix × matrix × matrix) := do
  let B := attach_matrix (5 * N + 1) (4 * N) values
  let BT := attach_matrix (5 * N + 1) (4 * N) values
  let BTB := attach_matrix (4 * N) (4 * N) (after_matrix DAV)
  let BTDAV := attach_matrix (4 * N) 1 (after_matrix BTB)
  let KCL := attach_matrix 1 (4 * N) (after_matrix BTB)
  let h ← make_current_geometry_matrix m t paths b B h
  let h ← make_kcl_geometry_vector m paths b KCL h
  let h ← fill_last_matrix_row h B KCL
  let (h, BT, _) ← transpose_matrix cfg h BT none
  pure (h, B, BT, BTB, BTDAV)

/-- PHASES 3 to 5 of `make_bcv_use_KCL`: `BT * B`, the lazy inversion, `BT * DAV`
and the product into `J`. The result is the memory and the header `J`. -/
@[noinline, nospecialize]
def KCL_solve {α : Type} [Field α] (cfg : Config α) (B BT BTB BTDAV DAV J : matrix)
    (h : Nat → α) : Option ((Nat → α) × matrix) := do
  let (h, BT, _, BTB) ← multiply_matrix cfg h BT B BTB
  let (h, BTB, _) ← invert_matrix cfg h BTB none
  let (h, _, _, BTDAV) ← multiply_matrix cfg h BT DAV BTDAV
  let (h, _, _, J) ← multiply_matrix cfg h BTB BTDAV J
  pure (h, J)

/-- `make_bcv_use_KCL` of bsolve_optimized.c: the memory, the zone and the
headers `V`, `J` after the call. -/
@[noinline, nospecialize]
def make_bcv_use_KCL {α : Type} [LinearOrderedField α] (cfg : Config α) (m : LibM α)
    (t : Terms α) (paths : Nat → path α) (mem : memory α) (b : boundary) (V J : matrix) :
    Option (memory α × boundary × matrix × matrix) :=
  if b.bcv = 0 then do
    let (p, mem) := malloc mem (get_num_rows J)
    let J : matrix := { J with value := p }
    let b : boundary := { b with bcv := J.value }
    let N := num_boundary_points paths b
    let (values, mem) := malloc mem ((9 * N + 1) * (4 * N + 1))
    let (h, _, V, DAV) ← KCL_phase1 cfg m t paths b N values V mem.cells
    let (h, B, BT, BTB, BTDAV) ← KCL_phase2 cfg m t paths b N values DAV h
    let (h, J) ← KCL_solve cfg B BT BTB BTDAV DAV J h
    pure ({ mem with cells := h }, b, V, J)
  else
    some (mem, b, V, { J with value := b.bcv })

/-- The assembly and first product of `make_bcv_no_KCL`: the memory and the
headers `DA`, `V`, `DAV`. -/
@[noinline, nospecialize]
def noKCL_phase1 {α : Type} [LinearOrderedField α] (cfg : Config α) (m : LibM α) (t : Terms α)
    (paths : Nat → path α) (b : boundary) (N values : Nat) (V : matrix) (h : Nat → α) :
    Option ((Nat → α) × matrix × matrix × matrix) := do
  let A := attach_matrix (5 * N) (2 * N) values
  let D := attach_matrix (5 * N) (2 * N) (after_matrix A)
  let DA := attach_matrix (5 * N) (2 * N) values
  let DAV := attach_matrix (5 * N) 1 (after_matrix D)
  let h ← make_voltage_geometry_matrix m t paths b A h
  let h ← make_diagonal_matrix m paths b D h
  let (h, _, _, DA) ← add_matrix cfg h D A DA
  let (h, DA, V, DAV) ← multiply_matrix cfg h DA V DAV
  pure (h, DA, V, DAV)

/-- The second block of `make_bcv_no_KCL` up to the lazy transpose: the memory
and the headers `B`, `BT`, `BTB`, `BTDAV`. -/
@[noinline, nospecialize]
def noKCL_phase2 {α : Type} [Field α] (cfg : Config α) (m : LibM α) (t : Terms α)
    (paths : Nat → path α) (b : boundary) (N values : Nat) (DAV : matrix) (h : Nat → α) :
    Option ((Nat → α) × matrix × matrix × matrix × matrix) := do
  let B := attach_matrix (5 * N) (4 * N) values
  let BT := attach_matrix (5 * N) (4 * N) values
  let BTB := attach_matrix (4 * N) (4 * N) (after_matrix DAV)
  let BTDAV := attach_matrix (4 * N) 1 (after_matrix BTB)
  let h ← make_current_geometry_matrix m t paths b B h
  let (h, BT, _) ← transpose_matrix cfg h BT none
  pure (h, B, BT, BTB, BTDAV)

/-- The value of a C `int` expression whose mathematical value is `z`: `int`
has 32 bits, and on overflow the model takes the wrap-around of two's
complement arithmetic (C leaves the overflow of a signed integer undefined). -/
@[noinline, nospecialize]
def int_wrap (z : Int) : Int := (z + 2 ^ 31) % 2 ^ 32 - 2 ^ 31

/-- The argument `9*N*(4*N+1)*sizeof(double)` of `malloc` in `make_bcv_no_KCL`,
in bytes: `9*N*(4*N+1)` is evaluated in `int`, and only the result is converted
to `size_t` (64 bits) for the product with `sizeof(double) = 8`. -/
@[noinline, nospecialize]
def no_KCL_malloc_bytes (N : Nat) : Nat :=
  let i : Int := int_wrap (int_wrap (9 * (N : Int)) * int_wrap (int_wrap (4 * (N : Int)) + 1))
  ((i % 2 ^ 64).toNat * 8) % 2 ^ 64

/-- The number of doubles that `make_bcv_no_KCL` asks `malloc` for. -/
@[noinline, nospecialize]
def no_KCL_arena_cells (N : Nat) : Nat := no_KCL_malloc_bytes N / 8

/-- `make_bcv_no_KCL` of bsolve_optimized.c. The arena is requested with the
size that the `int` expression of the source yields (`no_KCL_arena_cells`); the
allocator of the model grants every request, and the result of `malloc` is not
checked, as in the source. -/
@[noinline, nospecialize]
def make_bcv_no_KCL {α : Type} [LinearOrderedField α] (cfg : Config α) (m : LibM α)
    (t : Terms α) (paths : Nat → path α) (mem : memory α) (b : boundary) (V J : matrix) :
    Option (memory α × boundary × matrix × matrix) :=
  if b.bcv = 0 then do
    let (p, mem) := malloc mem (get_num_rows J)
    let J : matrix := { J with value := p }
    let b : boundary := { b with bcv := J.value }
    let N := num_boundary_points paths b
    let (values, mem) := malloc mem (no_KCL_arena_cells N)
    let (h, _, V, DAV) ← noKCL_phase1 cfg m t paths b N values V mem.cells
    let (h, B, BT, BTB, BTDAV) ← noKCL_phase2 cfg m t paths b N values DAV h
    let (h, J) ← KCL_solve cfg B BT BTB BTDAV DAV J h
    pure ({ mem with cells := h }, b, V, J)
  else
    some (mem, b, V, { J with value := b.bcv })

/-- `make_boundary_current_vector` of bsolve_optimized.c. -/
@[noinline, nospecialize]
def make_boundary_current_vector {α : Type} [LinearOrderedField α] (cfg : Config α)
    (m : LibM α) (t : Terms α) (paths : Nat → path α) (mem : memory α) (b : boundary)
    (V J : matrix) : Option (memory α × boundary × matrix × matrix) :=
  let finite : Int := forN (fun j finite => if b.level j = 0 then 1 else finite)
    0 b.components 0
  if finite = 1 then make_bcv_use_KCL cfg m t paths mem b V J
  else make_bcv_no_KCL cfg m t paths mem b V J

/-- `make_boundary_vector` of bsolve_optimized.c. -/
@[noinline, nospecialize]
def make_boundary_vector {α : Type} [LinearOrderedField α] (cfg : Config α)
    (m : LibM α) (t : Terms α) (paths : Nat → path α) (mem : memory α) (b : boundary)
    (bvv bcv : matrix) : Option (memory α × boundary × matrix × matrix) := do
  let (mem, b, bvv) ← make_boundary_voltage_vector paths mem b bvv
  make_boundary_current_vector cfg m t paths mem b bvv bcv


/-- The triple loop shared by the hand-written products: for every row and
column, `X[column * xr + row] = sum over i < K of A[ia i row] * B[ib column i]`,
written cell by cell into the memory that is being read. -/
@[noinline, nospecialize]
def mulLoops {α : Type} [Zero α] [Add α] [Mul α] (A B X : Nat) (ia ib : Nat → Nat → Nat)
    (xr R C K : Nat) (h : Nat → α) : Nat → α :=
  forN (fun row_a h =>
    forN (fun column_b h =>
      let value_new := forN (fun i value_new =>
        value_new + h (A + ia i row_a) * h (B + ib column_b i)) 0 K 0
      Function.update h (X + (column_b * xr + row_a)) value_new)
      0 C h)
    0 R h

/-- The memory `h'` agrees with `h` outside the cells `lo .. hi - 1`. -/
@[noinline, nospecialize]
def Within {α : Type} (lo hi : Nat) (h h' : Nat → α) : Prop :=
  ∀ addr, (addr < lo ∨ hi ≤ addr) → h' addr = h addr

/-- What the BLAS reference asks of `cblas_dgemm` in column-major order when
the result array shares no cell with the operands: the cell `(i, j)` of `C`
becomes `alpha * sum_k op(A)(i,k) * op(B)(k,j) + beta * C(i,j)` and no other
cell changes. -/
@[noinline, nospecialize]
def DgemmContract {α : Type} [Field α]
    (dgemm : (Nat → α) → Bool → Bool → Nat → Nat → Nat → α → Nat → Nat →
      Nat → Nat → α → Nat → Nat → (Nat → α)) : Prop :=
  ∀ (h : Nat → α) (transA transB : Bool) (M N K : Nat) (alpha : α) (A lda B ldb : Nat)
    (beta : α) (C ldc : Nat),
    M ≤ ldc →
    (∀ i k, i < M → k < K →
      (A + (if transA then i * lda + k else k * lda + i) < C
        ∨ C + ldc * N ≤ A + (if transA then i * lda + k else k * lda + i))) →
    (∀ k j, k < K → j < N →
      (B + (if transB then k * ldb + j else j * ldb + k) < C
        ∨ C + ldc * N ≤ B + (if transB then k * ldb + j else j * ldb + k))) →
    (∀ i j, i < M → j < N →
      dgemm h transA transB M N K alpha A lda B ldb beta C ldc (C + (j * ldc + i))
        = alpha * (∑ k in Finset.range K,
            h (A + (if transA then i * lda + k else k * lda + i))
              * h (B + (if transB then k * ldb + j else j * ldb + k)))
          + beta * h (C + (j * ldc + i)))
    ∧ (∀ addr, (addr < C ∨ C + ldc * N ≤ addr) →
      dgemm h transA transB M N K alpha A lda B ldb beta C ldc addr = h addr)

/-- The settings under which `multiply_matrix_optimized` returns a product and
the inversion stays inside its array: the method is one of 0..3 as
`set_multiply_method` enforces, the block size is positive as `set_block_size`
enforces, `cblas_dgemm`, where it is the back end, does what BLAS documents,
and `mat_inv`, where it is the back end, writes only the `n * n` cells of its
array. -/
@[noinline, nospecialize]
def Config.valid {α : Type} [Field α] (cfg : Config α) : Prop :=
  cfg.g_multiply_method ≤ 3 ∧ 1 ≤ cfg.g_block_size
    ∧ (cfg.g_multiply_method ≠ 0 → cfg.g_dgemm_type ≠ 0 → DgemmContract cfg.cblas_dgemm)
    ∧ (cfg.use_sequential_inversion = 0 →
        ∀ (h : Nat → α) (A n : Nat), Within A (A + n * n) h (cfg.mat_inv h A n))


/-- The data areas of two matrices share no cell. -/
@[noinline, nospecialize]
def Apart (a x : matrix) : Prop :=
  after_matrix a ≤ x.value ∨ after_matrix x ≤ a.value

/-- The memory `h'` holds in `x` the product of the matrices that `a` and `b`
denote in `h` (entries read by `get_matrix_element`), and agrees with `h`
outside the data area of `x`. -/
@[noinline, nospecialize]
def IsProduct {α : Type} [Semiring α] (h h' : Nat → α) (a b x : matrix) : Prop :=
  (∀ row col, row < get_num_rows a → col < get_num_columns b →
    get_matrix_element h' x row col
      = ∑ i in Finset.range (get_num_columns a),
          get_matrix_element h a row i * get_matrix_element h b i col)
  ∧ (∀ addr, (addr < x.value ∨ after_matrix x ≤ addr) → h' addr = h addr)


/-- Progress of the blocked product when its three block loops stand at
`(ii, jj, kk)`: the number of terms already added into the result cell
`(row, col)`. Rows before the current block of rows are complete; in the
current block of rows, columns before the current block of columns are
complete and the current block of columns holds the terms below `kk`. -/
@[noinline, nospecialize]
def blockProgress (bs K ii jj kk row col : Nat) : Nat :=
  if row < ii then K
  else if row < ii + bs then
    (if col < jj then K else if col < jj + bs then min kk K else 0)
  else 0

/-- The result cells of a product under way: cell `(row, col)` of the `R`-by-`C`
result at `X` (leading dimension `xr`) holds the first `S row col` terms of its
sum, the terms being `f row col i`; cells outside the result are those of `hz`. -/
@[noinline, nospecialize]
def Accumulated {α : Type} [Semiring α] (X xr R C : Nat) (f : Nat → Nat → Nat → α)
    (hz : Nat → α) (S : Nat → Nat → Nat) (g : Nat → α) : Prop :=
  (∀ row col, row < R → col < C →
    g (X + (col * xr + row)) = ∑ i in Finset.range (S row col), f row col i)
  ∧ (∀ addr, (addr < X ∨ X + xr * C ≤ addr) → g addr = hz addr)


/-- The three block loops of `multiply_matrix_cache_hybrid` with their block
body, on the index functions `ia` (into `A`) and leading dimension `ldb` of
`B`; the result array has leading dimension `xr`. -/
@[noinline, nospecialize]
def blockedLoops {α : Type} [Zero α] [Add α] [Mul α] (A B X : Nat) (ia : Nat → Nat → Nat)
    (ldb xr R C K block_size : Nat) (h : Nat → α) : Option (Nat → α) :=
  forBlocks (fun ii h =>
    forBlocks (fun jj h =>
      forBlocks (fun kk h =>
        some (forRange (fun row_a h =>
          forRange (fun column_b h =>
            let value_new := forRange (fun i value_new =>
              value_new + h (A + ia i row_a) * h (B + (column_b * ldb + i)))
              kk (min_int (kk + block_size) K) 0
            Function.update h (X + (column_b * xr + row_a))
              (h (X + (column_b * xr + row_a)) + value_new))
            jj (min_int (jj + block_size) C) h)
          ii (min_int (ii + block_size) R) h))
        K block_size K 0 h)
      C block_size C 0 h)
    R block_size R 0 h


/-- The header of the result as `multiply_matrix` leaves it: untransposed, not
inverted, with the given logical size, on the storage of `x`. -/
@[noinline, nospecialize]
def product_header (x : matrix) (rows columns : Nat) : matrix :=
  { x with transpose := 0, invert := 0, rows := rows, columns := columns }


/-- Number of points of the first `j` components of a zone: the value of the
running offset of the `make_..._matrix` loops when they reach component `j`. -/
@[noinline, nospecialize]
def points_before {α : Type} (paths : Nat → path α) (b : boundary) (j : Nat) : Nat :=
  forN (fun j N => N + (paths (b.loop j)).points) 0 j 0

/-- The paths of a zone are closed and carry coordinates, so that every
`get_path_xy` the assembly makes returns. -/
@[noinline, nospecialize]
def ZonePaths {α : Type} (paths : Nat → path α) (b : boundary) : Prop :=
  ∀ j, j < b.components → (paths (b.loop j)).close ≠ 0 ∧ (paths (b.loop j)).xy.isSome = true


/-- The Gram matrix `B^T B` of the `R`-row matrix with entries `B r c`. -/
@[noinline, nospecialize]
def gram {α : Type} [Field α] (R : Nat) (B : Nat → Nat → α) (i k : Nat) : α :=
  ∑ r in Finset.range R, B r i * B r k

/-- Kernel terms for the examples: every term is the constant one, and its
vector and tensor companions are zero. -/
@[noinline, nospecialize]
def exTerms : Terms ℚ :=
  { Vterm_PoffS := fun _ _ _ => 1, Wterm_PoffS := fun _ _ _ => 1,
    Vterm_PonS := fun _ _ _ => 1, Wterm_PonS := fun _ _ _ => 1,
    Jterm_PoffS := fun _ _ _ => 1, Kterm_PoffS := fun _ _ _ => 1,
    Lterm_PoffS := fun _ _ _ => 1, Mterm_PoffS := fun _ _ _ => 1,
    Jterm_PonS := fun _ _ _ => 1, Kterm_PonS := fun _ _ _ => 1,
    Lterm_PonS := fun _ _ _ => 1, Mterm_PonS := fun _ _ _ => 1,
    V1 := fun _ _ _ => (0, 0), W1 := fun _ _ _ => (0, 0),
    J1 := fun _ _ _ => (0, 0), K1 := fun _ _ _ => (0, 0),
    L1 := fun _ _ _ => (0, 0), M1 := fun _ _ _ => (0, 0),
    V2 := fun _ _ _ => ((0, 0), (0, 0)), W2 := fun _ _ _ => ((0, 0), (0, 0)),
    J2 := fun _ _ _ => ((0, 0), (0, 0)), K2 := fun _ _ _ => ((0, 0), (0, 0)),
    L2 := fun _ _ _ => ((0, 0), (0, 0)), M2 := fun _ _ _ => ((0, 0), (0, 0)) }

/-- A memory whose cells are all zero and whose allocator stands at 9. -/
@[noinline, nospecialize]
def exMemory : memory ℚ := { cells := fun _ => 0, brk := 9 }


/-- The call `p2c_2basis(Vterm, Wterm, A0, A1)` on a store of `double`
variables: the two arguments are passed by value, the results are written
through the pointers `A0` and `A1`, in this order. -/
@[noinline, nospecialize]
def p2c_2basis_call {α : Type} [Field α] (st : Nat → α) (Vterm Wterm : α) (A0 A1 : Nat) :
    Nat → α :=
  let st := Function.update st A0 Wterm
  Function.update st A1 (4 * Vterm)

/-- The call `p2c_4basis(Jterm, Kterm, Lterm, Mterm, A0, A1, A2, A3)` on a
store of `double` variables. -/
@[noinline, nospecialize]
def p2c_4basis_call {α : Type} [Field α] (st : Nat → α) (Jterm Kterm Lterm Mterm : α)
    (A0 A1 A2 A3 : Nat) : Nat → α :=
  let st := Function.update st A0 Mterm
  let st := Function.update st A1 (4 * Lterm)
  let st := Function.update st A2 (16 * Kterm - Mterm)
  Function.update st A3 (64 * Jterm - 8 * Lterm)


/-! ## scan.c: sections -/

/-- The struct `section` of memory_types.h. -/
structure Section (α : Type) where
  n : Int
  P1 : coordinates α
  P2 : coordinates α
  step : α

/-- `put_section` of scan.c; the six values that `sscanf` reads from `data`
are the arguments `i1`, `first`, `i2`, `last`. -/
@[noinline, nospecialize]
def put_section {α : Type} [Field α] (m : LibM α) (i1 : Int) (first : coordinates α)
    (i2 : Int) (last : coordinates α) : Section α :=
  let n := i2 - i1 + 1
  let P1 := (first.1, first.2)
  let P2 := (last.1, last.2)
  let first : coordinates α := (last.1 - first.1, last.2 - first.2)
  { n := n, P1 := P1, P2 := P2,
    step := m.sqrt (first.1 * first.1 + first.2 * first.2) / ((i2 - i1 : Int) : α) }

/-- `put_sectionV2` of scan.c. -/
@[noinline, nospecialize]
def put_sectionV2 {α : Type} [Field α] (m : LibM α) (Nseg : Int) (PA PB : coordinates α) :
    Section α :=
  let dP : coordinates α := (PB.1 - PA.1, PB.2 - PA.2)
  { n := Nseg + 1, P1 := (PA.1, PA.2), P2 := (PB.1, PB.2),
    step := m.sqrt (dP.1 * dP.1 + dP.2 * dP.2) / ((Nseg : Int) : α) }

/-- `xy_section` of scan.c; the result is `xy`. -/
@[noinline, nospecialize]
def xy_section {α : Type} [Field α] (sec : Section α) (i : Int) : coordinates α :=
  if i = 0 then (sec.P1.1, sec.P1.2)
  else if i = sec.n - 1 then (sec.P2.1, sec.P2.2)
  else
    ((sec.P1.1 * ((sec.n - 1 - i : Int) : α) + sec.P2.1 * ((i : Int) : α))
        / ((sec.n - 1 : Int) : α),
     (sec.P1.2 * ((sec.n - 1 - i : Int) : α) + sec.P2.2 * ((i : Int) : α))
        / ((sec.n - 1 : Int) : α))


/-! ## area.c -/

/-- The struct `bem_results` of memory_types.h. -/
structure bem_results (α : Type) where
  V : α
  dV : coordinates α
  d2V : tensor α

/-- `catchment_area` of area.c. streamline.c is not among the sources, so
`streamline_loop` is a parameter: `world` is everything the call reaches through
`c`, `streamline[k]` and `vectors`, the index `k` of the streamline handed over
is an argument, and the call returns the length, the results written to `R` and
the world after it, or `none` when it ends the program. `R` is the content of
the local `R` on entry. The result is the returned area and the world. -/
@[noinline, nospecialize]
def catchment_area {α world : Type} [LinearOrderedField α] (m : LibM α)
    (streamline_loop : world → coordinates α → Int → Int → α → Nat → bem_results α →
      Option (α × bem_results α × world))
    (w : world) (mouth : Section α) (direction max_steps : Int) (step_size : α)
    (n_stream : Int) (R : bem_results α) : Option (α × world) := do
  let n := mouth.n - 1
  let dx := (mouth.P2.1 - mouth.P1.1) / ((n : Int) : α)
  let dy := (mouth.P2.2 - mouth.P1.2) / ((n : Int) : α)
  let dw := mouth.step
  let P := xy_section mouth 0
  let (L_old, R, w) ← streamline_loop w P direction max_steps step_size 0 R
  let cosq_theta := (dx * R.dV.1 + dy * R.dV.2) / dw
  let cosq_theta := cosq_theta * cosq_theta / (R.dV.1 * R.dV.1 + R.dV.2 * R.dV.2)
  let cosq_theta := if cosq_theta > 1 then 1 else cosq_theta
  let s_theta_old := m.sqrt (1 - cosq_theta)
  let C_sum : α := 0
  let k : Nat := 1
  let (_, _, _, C_sum, _, w) ← forRangeM
    (fun i (st : α × α × bem_results α × α × Nat × world) => do
      let (L_old, s_theta_old, R, C_sum, k, w) := st
      let P := xy_section mouth i
      let (L_new, R, w, k) ←
        if (i : Int) * (n_stream - 1) ≥ (k : Int) * n then do
          let (L_new, R, w) ← streamline_loop w P direction max_steps step_size k R
          pure (L_new, R, w, k + 1)
        else do
          let (L_new, R, w) ← streamline_loop w P direction max_steps step_size k R
          pure (L_new, R, w, k)
      let cosq_theta := (dx * R.dV.1 + dy * R.dV.2) / dw
      let cosq_theta := cosq_theta * cosq_theta / (R.dV.1 * R.dV.1 + R.dV.2 * R.dV.2)
      let cosq_theta := if cosq_theta > 1 then 1 else cosq_theta
      let s_theta_new := m.sqrt (1 - cosq_theta)
      let C_sum := C_sum + L_old * s_theta_old + L_new * s_theta_new
      pure (L_new, s_theta_new, R, C_sum, k, w))
    1 mouth.n.toNat (L_old, s_theta_old, R, C_sum, k, w)
  let C_sum := C_sum * dw / 2
  pure (C_sum, w)

/-- Index of the streamline that `catchment_area` hands to the call for the
mouth point `i`: `0` for the first point, and the value of the counter `k` at
the start of round `i` of the loop for the others. -/
@[noinline, nospecialize]
def stream_index (n n_stream : Int) : Nat → Nat
  | 0 => 0
  | 1 => 1
  | i + 2 =>
    if ((i + 1 : Nat) : Int) * (n_stream - 1) ≥ (stream_index n n_stream (i + 1) : Int) * n
    then stream_index n n_stream (i + 1) + 1 else stream_index n n_stream (i + 1)

/-- The sine of the angle between the mouth and the gradient `dV` reported for
a mouth point: `sqrt(1 - min(1, cos^2))`, with `cos^2` the squared projection
of the mouth direction on the gradient. -/
@[noinline, nospecialize]
def sin_theta {α : Type} [LinearOrderedField α] (m : LibM α) (mouth : Section α)
    (dV : coordinates α) : α :=
  let dx := (mouth.P2.1 - mouth.P1.1) / ((mouth.n - 1 : Int) : α)
  let dy := (mouth.P2.2 - mouth.P1.2) / ((mouth.n - 1 : Int) : α)
  let c := (dx * dV.1 + dy * dV.2) / mouth.step
  m.sqrt (1 - min 1 (c * c / (dV.1 * dV.1 + dV.2 * dV.2)))

/-- The streamlines of the mouth points `i, i + 1, ..., i + cnt - 1`, each
computed once, in this order: the list of the pairs `(L_j, sin(theta_j))`, the
last results and the world after the last call. -/
@[noinline, nospecialize]
def mouth_streamlines {α world : Type} [LinearOrderedField α] (m : LibM α)
    (streamline_loop : world → coordinates α → Int → Int → α → Nat → bem_results α →
      Option (α × bem_results α × world))
    (mouth : Section α) (direction max_steps : Int) (step_size : α) (n_stream : Int) :
    Nat → Nat → world → bem_results α → Option (List (α × α) × bem_results α × world)
  | _, 0, w, R => some ([], R, w)
  | i, cnt + 1, w, R =>
    (streamline_loop w (xy_section mouth i) direction max_steps step_size
      (stream_index (mouth.n - 1) n_stream i) R).bind fun r =>
    (mouth_streamlines m streamline_loop mouth direction max_steps step_size n_stream
      (i + 1) cnt r.2.2 r.2.1).bind fun rest =>
    some ((r.1, sin_theta m mouth r.2.1.dV) :: rest.1, rest.2.1, rest.2.2)

/-- The trapezoid sum of the spec over the list of `(L_i, sin(theta_i))`:
`(dw/2) * sum for i = 0..n-2 of (L_i sin(theta_i) + L_{i+1} sin(theta_{i+1}))`. -/
@[noinline, nospecialize]
def trapezoid_area {α : Type} [Field α] (dw : α) (l : List (α × α)) : α :=
  dw / 2 * ∑ i in Finset.range (l.length - 1),
    ((l.getD i (0, 0)).1 * (l.getD i (0, 0)).2
      + (l.getD (i + 1) (0, 0)).1 * (l.getD (i + 1) (0, 0)).2)

/-- A stand-in for `streamline_loop` in the examples: the world is the log of
the calls `(P, k)`, the length reported is `1 + P.x`, and the gradient
reported is `(0, 1)`. -/
@[noinline, nospecialize]
def exStreamline (w : List (coordinates ℚ × Nat)) (P : coordinates ℚ) (_ _ : Int) (_ : ℚ)
    (k : Nat) (_ : bem_results ℚ) :
    Option (ℚ × bem_results ℚ × List (coordinates ℚ × Nat)) :=
  some (1 + P.1, { V := 0, dV := (0, 1), d2V := ((0, 0), (0, 0)) }, w ++ [(P, k)])

/-- The results used for the content of an uninitialised `bem_results`. -/
@[noinline, nospecialize]
def exResults : bem_results ℚ := { V := 0, dV := (0, 0), d2V := ((0, 0), (0, 0)) }


/-! ## catchment.c: marking the paths of a zone -/

/-- `reverse_all_paths` of catchment.c. -/
@[noinline, nospecialize]
def reverse_all_paths {α : Type} (paths : Nat → path α) (b : boundary) : Nat → path α :=
  forN (fun j paths =>
    Function.update paths (b.loop j) (reverse_path (paths (b.loop j)))) 0 b.components paths

/-- `find_limits` of catchment.c; the result is `(min, max)`. -/
@[noinline, nospecialize]
def find_limits {α : Type} [LinearOrderedField α] (this_path : path α) :
    Option (coordinates α × coordinates α) := do
  let P ← get_path_xy this_path 0
  let n_segment := this_path.points
  forRangeM (fun i (st : coordinates α × coordinates α) => do
    let P ← get_path_xy this_path i
    let (min, max) := st
    let (min0, max0) :=
      if P.1 < min.1 then (P.1, max.1)
      else if P.1 > max.1 then (min.1, P.1) else (min.1, max.1)
    let (min1, max1) :=
      if P.2 < min.2 then (P.2, max.2)
      else if P.2 > max.2 then (min.2, P.2) else (min.2, max.2)
    pure ((min0, min1), (max0, max1))) 1 n_segment ((P.1, P.2), (P.1, P.2))

/-- `find_orientation` of catchment.c: 0 is anti-clockwise, 1 is clockwise. -/
@[noinline, nospecialize]
def find_orientation {α : Type} [LinearOrderedField α] (m : LibM α) (this_path : path α) :
    Option Int := do
  let (Pmin, Pmax) ← find_limits this_path
  let Pmin : coordinates α := ((3 * Pmin.1 - Pmax.1) / 2, (3 * Pmin.2 - Pmax.2) / 2)
  let (location, _, _, _) ← distance_to_path m Pmin this_path
  if location = 0 then pure 0 else pure 1

/-- `count_paths` of catchment.c: the returned index, the outputs
`(*outside_zone, *inside_zone)` and the path structs after the call. The state
of the loop over `j` is `(index_path, outside, inside)`. -/
@[noinline, nospecialize]
def count_paths {α : Type} [LinearOrderedField α] (m : LibM α) (paths : Nat → path α)
    (b : boundary) : Option (Int × Int × Int × (Nat → path α)) := do
  let outside : Int := 0
  let inside : Int := 0
  let index_path : Int := -1
  let zone_type := b.curve
  let n_paths := b.components
  let (index_path, outside, inside, paths) ←
    if n_paths = 1 then
      if zone_type = 0 then pure ((0 : Int), (1 : Int), inside, paths)
      else pure (index_path, outside, (1 : Int), paths)
    else do
      let paths := if zone_type = 1 then reverse_all_paths paths b else paths
      let (index_path, outside, inside) ← forNM (fun j (st : Int × Int × Int) => do
        let this_path := paths (b.loop j)
        let paths_enclosed ← forNM (fun i (paths_enclosed : Int) =>
          if i ≠ j then do
            let P ← get_path_xy (paths (b.loop i)) 0
            let (r, _, _, _) ← distance_to_path m P this_path
            if r = 1 then pure (paths_enclosed + 1) else pure paths_enclosed
          else pure paths_enclosed) 0 n_paths 0
        let (index_path, outside, inside) := st
        let inside := if paths_enclosed = 0 then inside + 1 else inside
        let (index_path, outside) :=
          if paths_enclosed = (n_paths : Int) - 1 then ((j : Int), outside + 1)
          else (index_path, outside)
        pure (index_path, outside, inside)) 0 n_paths (index_path, outside, inside)
      let paths := if zone_type = 1 then reverse_all_paths paths b else paths
      pure (index_path, outside, inside, paths)
  if outside > 1 then none
  else pure (index_path, outside, inside, paths)

/-- `mark_paths` of catchment.c: the zone and the path structs after the
call. -/
@[noinline, nospecialize]
def mark_paths {α : Type} [LinearOrderedField α] (m : LibM α) (paths : Nat → path α)
    (b : boundary) : Option (boundary × (Nat → path α)) := do
  let n_paths := b.components
  let b : boundary :=
    { b with level := forN (fun i level => Function.update level i 1) 0 n_paths b.level }
  let (bpath, outside, inside, paths) ← count_paths m paths b
  let b ←
    if outside = 1 then
      (pure { b with level := Function.update b.level bpath.toNat 0 } : Option boundary)
    else if outside > 1 then none
    else pure b
  if outside + inside ≠ (n_paths : Int) then none
  else pure (b, paths)

/-- `mark_curve` of catchment.c. -/
@[noinline, nospecialize]
def mark_curve {α : Type} [LinearOrderedField α] (m : LibM α) (paths : Nat → path α)
    (b : boundary) : Option boundary := do
  let n_paths := b.components
  let clockwise ← forNM (fun i (clockwise : Int) => do
    let o ← find_orientation m (paths (b.loop i))
    pure (clockwise + o)) 0 n_paths 0
  if clockwise = (n_paths : Int) then pure { b with curve := 1 }
  else if clockwise = 0 then pure { b with curve := 0 }
  else none

/-- The test that `count_paths` makes of path `j` against path `i`: whether
`distance_to_path` returns 1 for the first point of path `i` and the path `j`,
that is whether path `j` encloses path `i`; `none` when the program ends in
the test. -/
@[noinline, nospecialize]
def encloses_test {α : Type} [LinearOrderedField α] (m : LibM α) (paths : Nat → path α)
    (b : boundary) (j i : Nat) : Option Bool := do
  let P ← get_path_xy (paths (b.loop i)) 0
  let (r, _, _, _) ← distance_to_path m P (paths (b.loop j))
  pure (decide (r = 1))

/-- Number of the other paths of the zone that path `j` encloses. -/
@[noinline, nospecialize]
def paths_enclosed {α : Type} [LinearOrderedField α] (m : LibM α) (paths : Nat → path α)
    (b : boundary) (j : Nat) : Nat :=
  ((Finset.range b.components).filter
    (fun i => i ≠ j ∧ encloses_test m paths b j i = some true)).card

/-- Number of the other paths of the zone that enclose path `j`. -/
@[noinline, nospecialize]
def paths_enclosing {α : Type} [LinearOrderedField α] (m : LibM α) (paths : Nat → path α)
    (b : boundary) (j : Nat) : Nat :=
  ((Finset.range b.components).filter
    (fun i => i ≠ j ∧ encloses_test m paths b i j = some true)).card

/-- The rectangle with corners `(-3,-4), (3,-4), (3,4), (-3,4)`, anticlockwise. -/
@[noinline, nospecialize]
def exOuterRect : path ℚ :=
  { links := 0, close := 1, reverse := 0, points := 4,
    xy := some (fun i => [((-3 : ℚ), (-4 : ℚ)), (3, -4), (3, 4), (-3, 4)].getD i (0, 0)),
    value := some (fun i => [(0 : ℚ), 0, 0, 0].getD i 0) }

/-- The unit square with corners `(0,0), (1,0), (1,1), (0,1)`, anticlockwise; it
lies inside `exOuterRect`. -/
@[noinline, nospecialize]
def exInnerSquare : path ℚ :=
  { links := 0, close := 1, reverse := 0, points := 4,
    xy := some (fun i => [((0 : ℚ), (0 : ℚ)), (1, 0), (1, 1), (0, 1)].getD i (0, 0)),
    value := some (fun i => [(1 : ℚ), 1, 1, 1].getD i 0) }

/-- Path structs of the nested example: `exInnerSquare` at address 0,
`exOuterRect` elsewhere. -/
@[noinline, nospecialize]
def exNestedPaths : Nat → path ℚ := fun a => if a = 0 then exInnerSquare else exOuterRect

/-- The zone between `exOuterRect` and `exInnerSquare`, as `create_boundary`
and `mark_curve` leave it: the hole is component 0, the outer path
component 1, no level marked yet. -/
@[noinline, nospecialize]
def exRingZone : boundary :=
  { curve := 0, components := 2, level := fun _ => 0, loop := fun j => j, bvv := 0, bcv := 0 }

/-- The unbounded zone outside the two rectangles `exRect` (address 1) and
`exFarRect` (address 2), which lie side by side. -/
@[noinline, nospecialize]
def exOutsideZone : boundary :=
  { curve := 0, components := 2, level := fun _ => 0, loop := fun j => j + 1,
    bvv := 0, bcv := 0 }


/-! ## ten_matrix.c -/

/-- The struct `ten_matrix` of ten_matrix_types.h has the fields of `matrix`;
`value` is the address of the first cell of `tensor`. -/
abbrev ten_matrix := matrix

/-- The struct `co_matrix` of co_matrix_types.h, with the fields of `matrix`;
`value` is the address of the first cell of `coordinates`. -/
abbrev co_matrix := matrix

/-- `get_ten_num_columns` of ten_matrix.c. -/
@[noinline, nospecialize]
def get_ten_num_columns (x : ten_matrix) : Nat :=
  if x.transpose = 0 then x.columns else x.rows

/-- `get_ten_num_rows` of ten_matrix.c. -/
@[noinline, nospecialize]
def get_ten_num_rows (x : ten_matrix) : Nat :=
  if x.transpose = 0 then x.rows else x.columns

/-- `startof_ten_matrix` of ten_matrix.c. -/
@[noinline, nospecialize]
def startof_ten_matrix (x : ten_matrix) : Nat := x.value

/-- `attach_ten_matrix` of ten_matrix.c. -/
@[noinline, nospecialize]
def attach_ten_matrix (rows columns data : Nat) : ten_matrix :=
  { transpose := 0, invert := 0, rows := rows, columns := columns, value := data }

/-- `check_ten_matrix_index` of ten_matrix.c: `none` where the source calls
`exit`. The indices are not negative. -/
@[noinline, nospecialize]
def check_ten_matrix_index (x : ten_matrix) (i j : Nat) : Option Unit :=
  let rows := get_ten_num_rows x
  let cols := get_ten_num_columns x
  if i ≥ rows then none
  else if j ≥ cols then none
  else some ()

/-- `check_ten_invert` of ten_matrix.c. -/
@[noinline, nospecialize]
def check_ten_invert (x : ten_matrix) : Option Unit :=
  if x.invert ≠ 0 then none else some ()

/-- `put_ten_matrix_element` of ten_matrix.c. -/
@[noinline, nospecialize]
def put_ten_matrix_element {α : Type} (t : Nat → tensor α) (x : ten_matrix) (i j : Nat)
    (value : tensor α) : Option (Nat → tensor α) := do
  check_ten_invert x
  check_ten_matrix_index x i j
  if x.transpose = 0 then
    pure (Function.update t (x.value + (j * x.rows + i))
      ((value.1.1, value.1.2), (value.2.1, value.2.2)))
  else
    pure (Function.update t (x.value + (i * x.rows + j))
      ((value.1.1, value.1.2), (value.2.1, value.2.2)))

/-- `get_ten_matrix_element` of ten_matrix.c; the result is `value`. -/
@[noinline, nospecialize]
def get_ten_matrix_element {α : Type} (t : Nat → tensor α) (x : ten_matrix) (i j : Nat) :
    Option (tensor α) := do
  check_ten_invert x
  check_ten_matrix_index x i j
  if x.transpose = 0 then
    pure (((t (x.value + (j * x.rows + i))).1.1, (t (x.value + (j * x.rows + i))).1.2),
      ((t (x.value + (j * x.rows + i))).2.1, (t (x.value + (j * x.rows + i))).2.2))
  else
    pure (((t (x.value + (i * x.rows + j))).1.1, (t (x.value + (i * x.rows + j))).1.2),
      ((t (x.value + (i * x.rows + j))).2.1, (t (x.value + (i * x.rows + j))).2.2))

/-- `put_block_ten_matrix_element` of ten_matrix.c. -/
@[noinline, nospecialize]
def put_block_ten_matrix_element {α : Type} (t : Nat → tensor α) (x : ten_matrix)
    (offset_i offset_j i j : Nat) (value : tensor α) : Option (Nat → tensor α) := do
  let i := offset_i + i
  let j := offset_j + j
  check_ten_invert x
  check_ten_matrix_index x i j
  if x.transpose = 0 then
    pure (Function.update t (x.value + (j * x.rows + i))
      ((value.1.1, value.1.2), (value.2.1, value.2.2)))
  else
    pure (Function.update t (x.value + (i * x.rows + j))
      ((value.1.1, value.1.2), (value.2.1, value.2.2)))

/-- `multiply_ten_element_column` of ten_matrix.c. -/
@[noinline, nospecialize]
def multiply_ten_element_column {α : Type} [Field α] (h : Nat → α) (t : Nat → tensor α)
    (a : ten_matrix) (b : matrix) (row_a column_b : Nat) (x : ten_matrix) :
    Option (Nat → tensor α) := do
  let value_new : tensor α := ((0, 0), (0, 0))
  let value_new ← forNM (fun i (value_new : tensor α) => do
    let xy ← get_ten_matrix_element t a row_a i
    let scalar := get_matrix_element h b i column_b
    pure ((value_new.1.1 + xy.1.1 * scalar, value_new.1.2 + xy.1.2 * scalar),
      (value_new.2.1 + xy.2.1 * scalar, value_new.2.2 + xy.2.2 * scalar)))
    0 (get_ten_num_columns a) value_new
  put_ten_matrix_element t x row_a column_b value_new

/-- `multiply_ten_element_row` of ten_matrix.c. -/
@[noinline, nospecialize]
def multiply_ten_element_row {α : Type} [Field α] (h : Nat → α) (t : Nat → tensor α)
    (a : ten_matrix) (b : matrix) (row_a : Nat) (x : ten_matrix) : Option (Nat → tensor α) :=
  forNM (fun column_b t => multiply_ten_element_column h t a b row_a column_b x)
    0 (get_num_columns b) t

/-- `multiply_ten_matrix` of ten_matrix.c. The headers `a` and `x` are
different objects (the guard `a == x` of `check_ten_multiply_size` ends the
program otherwise); the result is the two memories and the headers `b` and `x`
after the call. -/
@[noinline, nospecialize]
def multiply_ten_matrix {α : Type} [Field α] (cfg : Config α) (h : Nat → α)
    (t : Nat → tensor α) (a : ten_matrix) (b : matrix) (x : ten_matrix) :
    Option ((Nat → α) × (Nat → tensor α) × matrix × ten_matrix) :=
  -- check_ten_multiply_shape
  if get_ten_num_columns a ≠ get_num_rows b then none
  -- check_ten_multiply_size
  else if get_ten_num_rows a * get_num_columns b
      ≠ get_ten_num_rows x * get_ten_num_columns x then none
  -- check_ten_memory
  else if x.value = 0 then none
  else if a.invert = 1 then none
  else
    (if b.invert = 1 then invert_this_matrix cfg h b else some (h, b)).bind fun (h, b) =>
    let x := product_header x (get_ten_num_rows a) (get_num_columns b)
    (forNM (fun row_a t => multiply_ten_element_row h t a b row_a x)
      0 (get_ten_num_rows a) t).map fun t => (h, t, b, x)

/-! ## co_matrix.h -/

/-- The routines declared in co_matrix.h that the sources call. co_matrix.c is
not among the sources, so they are parameters: `attach_co_matrix x rows columns
data` is the header after the call, `put_block_co_matrix_element c x offset_i
offset_j i j value` the cells of `coordinates` after the call, and
`multiply_co_matrix h c a b x` the two memories and the three headers after the
call; `none` is the end of the program. -/
structure CoMatrix (α : Type) where
  attach_co_matrix : co_matrix → Nat → Nat → Nat → co_matrix
  startof_co_matrix : co_matrix → Nat
  put_block_co_matrix_element : (Nat → coordinates α) → co_matrix → Nat → Nat → Nat → Nat →
    coordinates α → Option (Nat → coordinates α)
  multiply_co_matrix : (Nat → α) → (Nat → coordinates α) → co_matrix → matrix → co_matrix →
    Option ((Nat → α) × (Nat → coordinates α) × co_matrix × matrix × co_matrix)

/-! ## linear_sys.c: geometry vectors of the derivatives -/

/-- `fill_co_voltage_geometry_vector` of linear_sys.c. -/
@[noinline, nospecialize]
def fill_co_voltage_geometry_vector {α : Type} [Field α] (m : LibM α) (t : Terms α)
    (cm : CoMatrix α) (paths : Nat → path α) (P : coordinates α) (offset_j path_j : Nat)
    (co_vgv : co_matrix) (c : Nat → coordinates α) : Option (Nat → coordinates α) :=
  let offset_j := offset_j * 2
  let points_j := (paths path_j).points
  forNM (fun segment_j c => do
    let Qa ← get_path_xy (paths path_j) segment_j
    let Qb ← get_path_xy (paths path_j) (segment_j + 1)
    let j := segment_j * 2
    let (x, y1, y2) := convert_PQ m Qa Qb P
    let Vterm := t.V1 x y1 y2
    let Wterm := t.W1 x y1 y2
    let Vterm := rotate_to_PQ m Vterm.1 Vterm.2 Qa Qb
    let Wterm := rotate_to_PQ m Wterm.1 Wterm.2 Qa Qb
    let (A0, A1) := p2c_2basis_co Vterm Wterm
    let c ← cm.put_block_co_matrix_element c co_vgv 0 offset_j 0 j A0
    let c ← cm.put_block_co_matrix_element c co_vgv 0 offset_j 0 (j + 1) A1
    pure c) 0 points_j c

/-- `make_co_voltage_geometry_vector` of linear_sys.c. -/
@[noinline, nospecialize]
def make_co_voltage_geometry_vector {α : Type} [Field α] (m : LibM α) (t : Terms α)
    (cm : CoMatrix α) (paths : Nat → path α) (P : coordinates α) (b : boundary)
    (co_vgv : co_matrix) (c : Nat → coordinates α) : Option (Nat → coordinates α) := do
  let paths_n := b.components
  let (c, _) ← forNM (fun j (st : (Nat → coordinates α) × Nat) => do
    let path_j := b.loop j
    let c ← fill_co_voltage_geometry_vector m t cm paths P st.2 path_j co_vgv st.1
    pure (c, st.2 + (paths (b.loop j)).points)) 0 paths_n (c, 0)
  pure c

/-- `fill_co_current_geometry_vector` of linear_sys.c. -/
@[noinline, nospecialize]
def fill_co_current_geometry_vector {α : Type} [Field α] (m : LibM α) (t : Terms α)
    (cm : CoMatrix α) (paths : Nat → path α) (P : coordinates α) (offset_j path_j : Nat)
    (co_cgv : co_matrix) (c : Nat → coordinates α) : Option (Nat → coordinates α) :=
  let offset_j := offset_j * 4
  let points_j := (paths path_j).points
  forNM (fun segment_j c => do
    let Qa ← get_path_xy (paths path_j) segment_j
    let Qb ← get_path_xy (paths path_j) (segment_j + 1)
    let j := segment_j * 4
    let (x, y1, y2) := convert_PQ m Qa Qb P
    let Jterm := t.J1 x y1 y2
    let Kterm := t.K1 x y1 y2
    let Lterm := t.L1 x y1 y2
    let Mterm := t.M1 x y1 y2
    let Jterm := rotate_to_PQ m Jterm.1 Jterm.2 Qa Qb
    let Kterm := rotate_to_PQ m Kterm.1 Kterm.2 Qa Qb
    let Lterm := rotate_to_PQ m Lterm.1 Lterm.2 Qa Qb
    let Mterm := rotate_to_PQ m Mterm.1 Mterm.2 Qa Qb
    let (A0, A1, A2, A3) := p2c_4basis_co Jterm Kterm Lterm Mterm
    let c ← cm.put_block_co_matrix_element c co_cgv 0 offset_j 0 j A0
    let c ← cm.put_block_co_matrix_element c co_cgv 0 offset_j 0 (j + 1) A1
    let c ← cm.put_block_co_matrix_element c co_cgv 0 offset_j 0 (j + 2) A2
    let c ← cm.put_block_co_matrix_element c co_cgv 0 offset_j 0 (j + 3) A3
    pure c) 0 points_j c

/-- `make_co_current_geometry_vector` of linear_sys.c. -/
@[noinline, nospecialize]
def make_co_current_geometry_vector {α : Type} [Field α] (m : LibM α) (t : Terms α)
    (cm : CoMatrix α) (paths : Nat → path α) (P : coordinates α) (b : boundary)
    (co_cgv : co_matrix) (c : Nat → coordinates α) : Option (Nat → coordinates α) := do
  let paths_n := b.components
  let (c, _) ← forNM (fun j (st : (Nat → coordinates α) × Nat) => do
    let path_j := b.loop j
    let c ← fill_co_current_geometry_vector m t cm paths P st.2 path_j co_cgv st.1
    pure (c, st.2 + (paths (b.loop j)).points)) 0 paths_n (c, 0)
  pure c

/-- `fill_ten_voltage_geometry_vector` of linear_sys.c. -/
@[noinline, nospecialize]
def fill_ten_voltage_geometry_vector {α : Type} [Field α] (m : LibM α) (t : Terms α)
    (paths : Nat → path α) (P : coordinates α) (offset_j path_j : Nat)
    (ten_vgv : ten_matrix) (c : Nat → tensor α) : Option (Nat → tensor α) :=
  let offset_j := offset_j * 2
  let points_j := (paths path_j).points
  forNM (fun segment_j c => do
    let Qa ← get_path_xy (paths path_j) segment_j
    let Qb ← get_path_xy (paths path_j) (segment_j + 1)
    let j := segment_j * 2
    let (x, y1, y2) := convert_PQ m Qa Qb P
    let Vterm := t.V2 x y1 y2
    let Wterm := t.W2 x y1 y2
    let Vterm := double_rotate_to_PQ m Vterm.1.1 Vterm.1.2 Vterm.2.1 Vterm.2.2 Qa Qb
    let Wterm := double_rotate_to_PQ m Wterm.1.1 Wterm.1.2 Wterm.2.1 Wterm.2.2 Qa Qb
    let (A0, A1) := p2c_2basis_ten Vterm Wterm
    let c ← put_block_ten_matrix_element c ten_vgv 0 offset_j 0 j A0
    let c ← put_block_ten_matrix_element c ten_vgv 0 offset_j 0 (j + 1) A1
    pure c) 0 points_j c

/-- `make_ten_voltage_geometry_vector` of linear_sys.c. -/
@[noinline, nospecialize]
def make_ten_voltage_geometry_vector {α : Type} [Field α] (m : LibM α) (t : Terms α)
    (paths : Nat → path α) (P : coordinates α) (b : boundary)
    (ten_vgv : ten_matrix) (c : Nat → tensor α) : Option (Nat → tensor α) := do
  let paths_n := b.components
  let (c, _) ← forNM (fun j (st : (Nat → tensor α) × Nat) => do
    let path_j := b.loop j
    let c ← fill_ten_voltage_geometry_vector m t paths P st.2 path_j ten_vgv st.1
    pure (c, st.2 + (paths (b.loop j)).points)) 0 paths_n (c, 0)
  pure c

/-- `fill_ten_current_geometry_vector` of linear_sys.c. -/
@[noinline, nospecialize]
def fill_ten_current_geometry_vector {α : Type} [Field α] (m : LibM α) (t : Terms α)
    (paths : Nat → path α) (P : coordinates α) (offset_j path_j : Nat)
    (ten_cgv : ten_matrix) (c : Nat → tensor α) : Option (Nat → tensor α) :=
  let offset_j := offset_j * 4
  let points_j := (paths path_j).points
  forNM (fun segment_j c => do
    let Qa ← get_path_xy (paths path_j) segment_j
    let Qb ← get_path_xy (paths path_j) (segment_j + 1)
    let j := segment_j * 4
    let (x, y1, y2) := convert_PQ m Qa Qb P
    let Jterm := t.J2 x y1 y2
    let Kterm := t.K2 x y1 y2
    let Lterm := t.L2 x y1 y2
    let Mterm := t.M2 x y1 y2
    let Jterm := double_rotate_to_PQ m Jterm.1.1 Jterm.1.2 Jterm.2.1 Jterm.2.2 Qa Qb
    let Kterm := double_rotate_to_PQ m Kterm.1.1 Kterm.1.2 Kterm.2.1 Kterm.2.2 Qa Qb
    let Lterm := double_rotate_to_PQ m Lterm.1.1 Lterm.1.2 Lterm.2.1 Lterm.2.2 Qa Qb
    let Mterm := double_rotate_to_PQ m Mterm.1.1 Mterm.1.2 Mterm.2.1 Mterm.2.2 Qa Qb
    let (A0, A1, A2, A3) := p2c_4basis_ten Jterm Kterm Lterm Mterm
    let c ← put_block_ten_matrix_element c ten_cgv 0 offset_j 0 j A0
    let c ← put_block_ten_matrix_element c ten_cgv 0 offset_j 0 (j + 1) A1
    let c ← put_block_ten_matrix_element c ten_cgv 0 offset_j 0 (j + 2) A2
    let c ← put_block_ten_matrix_element c ten_cgv 0 offset_j 0 (j + 3) A3
    pure c) 0 points_j c

/-- `make_ten_current_geometry_vector` of linear_sys.c. -/
@[noinline, nospecialize]
def make_ten_current_geometry_vector {α : Type} [Field α] (m : LibM α) (t : Terms α)
    (paths : Nat → path α) (P : coordinates α) (b : boundary)
    (ten_cgv : ten_matrix) (c : Nat → tensor α) : Option (Nat → tensor α) := do
  let paths_n := b.components
  let (c, _) ← forNM (fun j (st : (Nat → tensor α) × Nat) => do
    let path_j := b.loop j
    let c ← fill_ten_current_geometry_vector m t paths P st.2 path_j ten_cgv st.1
    pure (c, st.2 + (paths (b.loop j)).points)) 0 paths_n (c, 0)
  pure c

/-! ## bsolve_optimized.c: the field at an interior point -/

/-- `make_internal_voltage` of bsolve_optimized.c. The local `voltage`, to
which `temp1.value` points, is the cell at `mem.brk`, beyond every allocated
block. The result is the returned voltage, the memory and the headers `bvv`,
`bcv`, `vgv`, `cgv` after the call. -/
@[noinline, nospecialize]
def make_internal_voltage {α : Type} [Field α] (cfg : Config α) (m : LibM α) (t : Terms α)
    (paths : Nat → path α) (mem : memory α) (b : boundary) (bvv bcv : matrix)
    (P : coordinates α) (vgv cgv : matrix) :
    Option (α × memory α × matrix × matrix × matrix × matrix) := do
  let voltage := mem.brk
  let temp1 : matrix := { transpose := 0, invert := 0, rows := 1, columns := 1, value := voltage }
  let h ← make_voltage_geometry_vector m t paths P b vgv mem.cells
  let h ← make_current_geometry_vector m t paths P b cgv h
  let (h, vgv, bvv, temp1) ← multiply_matrix cfg h vgv bvv temp1
  let v1 := h voltage
  let (h, cgv, bcv, _) ← multiply_matrix cfg h cgv bcv temp1
  let v2 := h voltage
  let h := Function.update h voltage (v2 - v1)
  pure (h voltage, { mem with cells := h }, bvv, bcv, vgv, cgv)

/-- `make_internal_grad_voltage` of bsolve_optimized.c. The local `voltage` is
the cell of `coordinates` at `co.brk`. The result is `Gv`, the two memories and
the headers `bvv`, `bcv`, `co_vgv`, `co_cgv` after the call. -/
@[noinline, nospecialize]
def make_internal_grad_voltage {α : Type} [Field α] (m : LibM α) (t : Terms α)
    (cm : CoMatrix α) (paths : Nat → path α) (mem : memory α) (co : memory (coordinates α))
    (b : boundary) (bvv bcv : matrix) (P : coordinates α) (co_vgv co_cgv : co_matrix) :
    Option (coordinates α × memory α × memory (coordinates α)
      × matrix × matrix × co_matrix × co_matrix) := do
  let voltage := co.brk
  let temp1 : co_matrix :=
    { transpose := 0, invert := 0, rows := 1, columns := 1, value := voltage }
  let c ← make_co_voltage_geometry_vector m t cm paths P b co_vgv co.cells
  let c ← make_co_current_geometry_vector m t cm paths P b co_cgv c
  let (h, c, co_vgv, bvv, temp1) ← cm.multiply_co_matrix mem.cells c co_vgv bvv temp1
  let v1 : coordinates α := ((c voltage).1, (c voltage).2)
  let (h, c, co_cgv, bcv, _) ← cm.multiply_co_matrix h c co_cgv bcv temp1
  let v2 : coordinates α := ((c voltage).1, (c voltage).2)
  let Gv : coordinates α := (v2.1 - v1.1, v2.2 - v1.2)
  let Gv : coordinates α := (Gv.1 / (2 * m.M_PI), Gv.2 / (2 * m.M_PI))
  pure (Gv, { mem with cells := h }, { co with cells := c }, bvv, bcv, co_vgv, co_cgv)

/-- `make_internal_sec_grad_voltage` of bsolve_optimized.c. The local `voltage`
is the cell of `tensor` at `ten.brk`. The result is `Gv`, the two memories and
the headers `bvv`, `bcv`, `ten_vgv`, `ten_cgv` after the call. -/
@[noinline, nospecialize]
def make_internal_sec_grad_voltage {α : Type} [Field α] (cfg : Config α) (m : LibM α)
    (t : Terms α) (paths : Nat → path α) (mem : memory α) (ten : memory (tensor α))
    (b : boundary) (bvv bcv : matrix) (P : coordinates α) (ten_vgv ten_cgv : ten_matrix) :
    Option (tensor α × memory α × memory (tensor α)
      × matrix × matrix × ten_matrix × ten_matrix) := do
  let voltage := ten.brk
  let temp1 : ten_matrix :=
    { transpose := 0, invert := 0, rows := 1, columns := 1, value := voltage }
  let c ← make_ten_voltage_geometry_vector m t paths P b ten_vgv ten.cells
  let c ← make_ten_current_geometry_vector m t paths P b ten_cgv c
  let (h, c, bvv, temp1) ← multiply_ten_matrix cfg mem.cells c ten_vgv bvv temp1
  let v1 : tensor α := (((c voltage).1.1, (c voltage).1.2), ((c voltage).2.1, (c voltage).2.2))
  let (h, c, bcv, _) ← multiply_ten_matrix cfg h c ten_cgv bcv temp1
  let v2 : tensor α := (((c voltage).1.1, (c voltage).1.2), ((c voltage).2.1, (c voltage).2.2))
  let Gv : tensor α :=
    ((v2.1.1 - v1.1.1, v2.1.2 - v1.1.2), (v2.2.1 - v1.2.1, v2.2.2 - v1.2.2))
  let Gv : tensor α :=
    ((Gv.1.1 / (2 * m.M_PI), Gv.1.2 / (2 * m.M_PI)),
      (Gv.2.1 / (2 * m.M_PI), Gv.2.2 / (2 * m.M_PI)))
  pure (Gv, { mem with cells := h }, { ten with cells := c }, bvv, bcv, ten_vgv, ten_cgv)

/-! ## memory_types.h and vcalc.1.c -/

/-- The struct `bem_vectors` of memory_types.h: the eight headers it points
to. -/
structure bem_vectors where
  bvv : matrix
  bcv : matrix
  vgv : matrix
  cgv : matrix
  co_vgv : co_matrix
  co_cgv : co_matrix
  ten_vgv : ten_matrix
  ten_cgv : ten_matrix

/-- What the field evaluators read and write besides their arguments: the path
structs, and the cells of `double`, of `coordinates` and of `tensor`. -/
structure heaps (α : Type) where
  paths : Nat → path α
  mem : memory α
  co : memory (coordinates α)
  ten : memory (tensor α)

/-- `calculate_in_same_zone` of vcalc.1.c: the returned voltage, the heaps and
the structs `*x` and `*R` after the call. -/
@[noinline, nospecialize]
def calculate_in_same_zone {α : Type} [Field α] (cfg : Config α) (m : LibM α) (t : Terms α)
    (cm : CoMatrix α) (w : heaps α) (b : boundary) (P : coordinates α) (x : bem_vectors)
    (R : bem_results α) : Option (α × heaps α × bem_vectors × bem_results α) := do
  let paths := reverse_zone w.paths b
  let (V, mem, bvv, bcv, vgv, cgv) ←
    make_internal_voltage cfg m t paths w.mem b x.bvv x.bcv P x.vgv x.cgv
  let R : bem_results α := { V := V, dV := R.dV, d2V := R.d2V }
  let (dV, mem, co, bvv, bcv, co_vgv, co_cgv) ←
    make_internal_grad_voltage m t cm paths mem w.co b bvv bcv P x.co_vgv x.co_cgv
  let R : bem_results α := { V := R.V, dV := dV, d2V := R.d2V }
  let (d2V, mem, ten, bvv, bcv, ten_vgv, ten_cgv) ←
    make_internal_sec_grad_voltage cfg m t paths mem w.ten b bvv bcv P x.ten_vgv x.ten_cgv
  let R : bem_results α := { V := R.V, dV := R.dV, d2V := d2V }
  let paths := reverse_zone paths b
  pure (R.V, { paths := paths, mem := mem, co := co, ten := ten },
    { bvv := bvv, bcv := bcv, vgv := vgv, cgv := cgv, co_vgv := co_vgv, co_cgv := co_cgv,
      ten_vgv := ten_vgv, ten_cgv := ten_cgv }, R)

/-- `calculate_in_new_zone` of vcalc.1.c: the returned voltage, the heaps, the
zone `*b` and the structs `*x` and `*R` after the call. -/
@[noinline, nospecialize]
def calculate_in_new_zone {α : Type} [LinearOrderedField α] (cfg : Config α) (m : LibM α)
    (t : Terms α) (cm : CoMatrix α) (w : heaps α) (b : boundary) (P : coordinates α)
    (x : bem_vectors) (R : bem_results α) :
    Option (α × heaps α × boundary × bem_vectors × bem_results α) := do
  let N := forN (fun k N => N + (w.paths (b.loop k)).points) 0 b.components 0
  let bvv := attach_matrix (2 * N) 1 0
  let bcv := attach_matrix (4 * N) 1 0
  let cgv := attach_matrix 1 (4 * N) (startof_matrix x.cgv)
  let vgv := attach_matrix 1 (2 * N) (startof_matrix x.vgv)
  let co_cgv := cm.attach_co_matrix x.co_cgv 1 (4 * N) (cm.startof_co_matrix x.co_cgv)
  let co_vgv := cm.attach_co_matrix x.co_vgv 1 (2 * N) (cm.startof_co_matrix x.co_vgv)
  let ten_cgv := attach_ten_matrix 1 (4 * N) (startof_ten_matrix x.ten_cgv)
  let ten_vgv := attach_ten_matrix 1 (2 * N) (startof_ten_matrix x.ten_vgv)
  let paths := reverse_zone w.paths b
  let (mem, b, bvv, bcv) ← make_boundary_vector cfg m t paths w.mem b bvv bcv
  let (V, mem, bvv, bcv, vgv, cgv) ←
    make_internal_voltage cfg m t paths mem b bvv bcv P vgv cgv
  let R : bem_results α := { V := V, dV := R.dV, d2V := R.d2V }
  let (dV, mem, co, bvv, bcv, co_vgv, co_cgv) ←
    make_internal_grad_voltage m t cm paths mem w.co b bvv bcv P co_vgv co_cgv
  let R : bem_results α := { V := R.V, dV := dV, d2V := R.d2V }
  let (d2V, mem, ten, bvv, bcv, ten_vgv, ten_cgv) ←
    make_internal_sec_grad_voltage cfg m t paths mem w.ten b bvv bcv P ten_vgv ten_cgv
  let R : bem_results α := { V := R.V, dV := R.dV, d2V := d2V }
  let paths := reverse_zone paths b
  pure (R.V, { paths := paths, mem := mem, co := co, ten := ten }, b,
    { bvv := bvv, bcv := bcv, vgv := vgv, cgv := cgv, co_vgv := co_vgv, co_cgv := co_cgv,
      ten_vgv := ten_vgv, ten_cgv := ten_cgv }, R)

/-- `calculate_inside_catchment` of vcalc.1.c: the returned value, the heaps,
the catchment, the structs `*vectors` and `*voltage`, and `*new_z` after the
call. -/
@[noinline, nospecialize]
def calculate_inside_catchment {α : Type} [LinearOrderedField α] (cfg : Config α)
    (m : LibM α) (t : Terms α) (cm : CoMatrix α) (w : heaps α) (c : catchment)
    (P : coordinates α) (vectors : bem_vectors) (voltage : bem_results α) :
    Option (α × heaps α × catchment × bem_vectors × bem_results α × Int) := do
  let (this_zone, paths) ← check_each_zone m w.paths c P
  let w : heaps α := { paths := paths, mem := w.mem, co := w.co, ten := w.ten }
  let previous_zone := c.previous_zone
  if this_zone < 0 then
    let new_z : Int := -1
    let pp : α := 0
    let voltage : bem_results α := { V := 0, dV := (0, 0), d2V := ((0, 0), (0, 0)) }
    pure (pp, w, c, vectors, voltage, new_z)
  else
    let bb := c.zones this_zone.toNat
    if this_zone = previous_zone then
      let new_z : Int := 0
      let (pp, w, vectors, voltage) ← calculate_in_same_zone cfg m t cm w bb P vectors voltage
      pure (pp, w, c, vectors, voltage, new_z)
    else
      let c : catchment := { c with previous_zone := this_zone }
      let new_z : Int := 1
      let (pp, w, bb, vectors, voltage) ←
        calculate_in_new_zone cfg m t cm w bb P vectors voltage
      let c : catchment := { c with zones := Function.update c.zones this_zone.toNat bb }
      pure (pp, w, c, vectors, voltage, new_z)

/-- The rectangle with corners `(0,0), (12,0), (12,10), (0,10)`, anticlockwise,
with node values `x + y`. -/
@[noinline, nospecialize]
def exField : path ℚ :=
  { links := 0, close := 1, reverse := 0, points := 4,
    xy := some (fun i => [((0 : ℚ), (0 : ℚ)), (12, 0), (12, 10), (0, 10)].getD i (0, 0)),
    value := some (fun i => [(0 : ℚ), 12, 22, 10].getD i 0) }

/-- Path structs of the field example: `exField` at every address. -/
@[noinline, nospecialize]
def exFieldPaths : Nat → path ℚ := fun _ => exField

/-- The zone inside `exField`, with its boundary vectors cached: `bvv` at
address 1 and `bcv` at address 9. -/
@[noinline, nospecialize]
def exCachedZone : boundary :=
  { curve := 0, components := 1, level := fun _ => 0, loop := fun _ => 1, bvv := 1, bcv := 9 }

/-- The catchment of the single zone `exCachedZone`, no zone visited yet. -/
@[noinline, nospecialize]
def exFieldCatchment : catchment :=
  { num_zones := 1, max_zones := 1, previous_zone := -1,
    zones := fun _ => exCachedZone,
    num_paths := 1, max_paths := 1,
    path_list := fun _ => { path_p := 1, name := [] } }

/-- A stand-in for co_matrix.c in the examples, after the pattern of
ten_matrix.c for row vectors: column-major cells, no checks, and the product of
a row vector of `coordinates` with a column vector of `double`. -/
@[noinline, nospecialize]
def exCoMatrix : CoMatrix ℚ :=
  { attach_co_matrix := fun _ rows columns data => attach_matrix rows columns data,
    startof_co_matrix := fun x => x.value,
    put_block_co_matrix_element := fun c x offset_i offset_j i j value =>
      some (Function.update c (x.value + ((offset_j + j) * x.rows + (offset_i + i))) value),
    multiply_co_matrix := fun h c a b x =>
      some (h, Function.update c x.value
        (forN (fun i (v : coordinates ℚ) =>
          (v.1 + (c (a.value + i)).1 * h (b.value + i),
            v.2 + (c (a.value + i)).2 * h (b.value + i))) 0 a.columns (0, 0)),
        a, b, product_header x 1 1) }

/-- Heaps of the field example: the cells of `double` hold 1 at the even
addresses and 2 at the odd ones, with the allocator at 49; the cells of `coordinates` and of `tensor` are zero,
with their allocators at 25. -/
@[noinline, nospecialize]
def exHeaps : heaps ℚ :=
  { paths := exFieldPaths,
    mem := { cells := fun a => if a % 2 = 0 then 1 else 2, brk := 49 },
    co := { cells := fun _ => (0, 0), brk := 25 },
    ten := { cells := fun _ => ((0, 0), (0, 0)), brk := 25 } }

/-- The vectors of the field example, as `create_bem_vectors` lays them out for
`N = 4`: `vgv` at 25 and `cgv` at 33 among the cells of `double`, the vectors
of derivatives at 1 and 9 among their cells. -/
@[noinline, nospecialize]
def exVectors : bem_vectors :=
  { bvv := attach_matrix 8 1 1, bcv := attach_matrix 16 1 9,
    vgv := attach_matrix 1 8 25, cgv := attach_matrix 1 16 33,
    co_vgv := attach_matrix 1 8 1, co_cgv := attach_matrix 1 16 9,
    ten_vgv := attach_ten_matrix 1 8 1, ten_cgv := attach_ten_matrix 1 16 9 }


/-- The path structs `ps` answer as the path structs `paths` do: every reverse
flag is the same, and `get_path_xy`, `get_path_value` and `find_orientation`
give the same results for every path. -/
@[noinline, nospecialize]
def paths_unchanged {α : Type} [LinearOrderedField α] (m : LibM α) (ps paths : Nat → path α) :
    Prop :=
  ∀ a, (ps a).reverse = (paths a).reverse
    ∧ (∀ i, get_path_xy (ps a) i = get_path_xy (paths a) i)
    ∧ (∀ i, get_path_value (ps a) i = get_path_value (paths a) i)
    ∧ find_orientation m (ps a) = find_orientation m (paths a)

/-- The zone of `exCachedZone` with its path marked as a hole, so that
`reverse_zone` flips it. -/
@[noinline, nospecialize]
def exHoleZone : boundary :=
  { curve := 0, components := 1, level := fun _ => 1, loop := fun _ => 1, bvv := 1, bcv := 9 }


/-- What the field evaluators rely on from co_matrix.c, after the pattern of
ten_matrix.c: `put_block_co_matrix_element` returns when the invert flag is
clear and the indices lie inside the shape; `multiply_co_matrix` on a row
vector `a` of `coordinates` (`1 x n`, flags clear), a column vector `b` of
`double` (`n x 1`, invert flag clear) and a result `x` of one allocated cell
returns, leaves the cells of `double` and the headers of `a` and `b` as they
were, resets the header of `x` to an untransposed `1 x 1` matrix, stores in the
cell of `x` the sum over `i` of `a[i] * b[i]`, component by component, and
changes no other cell. -/
@[noinline, nospecialize]
def CoMatrix.valid {α : Type} [Field α] (cm : CoMatrix α) : Prop :=
  (∀ (c : Nat → coordinates α) (x : co_matrix) (oi oj i j : Nat) (v : coordinates α),
    x.invert = 0 → oi + i < get_num_rows x → oj + j < get_num_columns x →
    (cm.put_block_co_matrix_element c x oi oj i j v).isSome = true)
  ∧ (∀ (h : Nat → α) (c : Nat → coordinates α) (a : co_matrix) (b : matrix) (x : co_matrix)
      (n : Nat),
    a.transpose = 0 → a.invert = 0 → a.rows = 1 → a.columns = n →
    b.invert ≠ 1 → get_num_rows b = n → get_num_columns b = 1 →
    get_num_rows x * get_num_columns x = 1 → x.value ≠ 0 →
    ∃ c', cm.multiply_co_matrix h c a b x = some (h, c', a, b, product_header x 1 1)
      ∧ c' x.value = (∑ i in Finset.range n, (c (a.value + i)).1 * h (b.value + i),
          ∑ i in Finset.range n, (c (a.value + i)).2 * h (b.value + i))
      ∧ ∀ addr, addr ≠ x.value → c' addr = c addr)


/-- What the comparison of two runs relies on from LAPACK: the entries that
`mat_inv` leaves in the array depend only on the entries it finds there. -/
@[noinline, nospecialize]
def Config.inverse_local {α : Type} (cfg : Config α) : Prop :=
  cfg.use_sequential_inversion = 0 →
    ∀ (h k : Nat → α) (A n : Nat),
      (∀ i j, i < n → j < n → h (A + (j * n + i)) = k (A + (j * n + i))) →
      ∀ i j, i < n → j < n →
        cfg.mat_inv h A n (A + (j * n + i)) = cfg.mat_inv k A n (A + (j * n + i))

/-- The path structs of a second catchment with the geometry of `paths` and
every node value twice that of `paths`. -/
@[noinline, nospecialize]
def twice_values {α : Type} [Field α] (paths : Nat → path α) : Nat → path α :=
  fun a => { paths a with value := (paths a).value.map fun f i => 2 * f i }

/-- The zone inside `exField` as it is after loading: no boundary vector is
cached. -/
@[noinline, nospecialize]
def exFreshZone : boundary :=
  { curve := 0, components := 1, level := fun _ => 0, loop := fun _ => 1, bvv := 0, bcv := 0 }

/-- The catchment of the single zone `exFreshZone`, no zone visited yet. -/
@[noinline, nospecialize]
def exFreshCatchment : catchment :=
  { num_zones := 1, max_zones := 1, previous_zone := -1,
    zones := fun _ => exFreshZone,
    num_paths := 1, max_paths := 1,
    path_list := fun _ => { path_p := 1, name := [] } }

/-- The result array of `x` shares no cell with the cells that the hand-written
products read: `A[i * a->rows + row]` (or `A[row * a->rows + i]` for a
transposed `a`) and `B[column * b->rows + i]`, over the loop bounds of the
sources. -/
@[noinline, nospecialize]
def OperandsApart (a b x : matrix) : Prop :=
  (∀ i, i < (if a.transpose ≠ 0 then a.rows else a.columns) →
    ∀ row, row < (if a.transpose ≠ 0 then a.columns else a.rows) →
      (a.value + (if a.transpose = 0 then i * a.rows + row else row * a.rows + i) < x.value
        ∨ x.value + x.rows * x.columns
            ≤ a.value + (if a.transpose = 0 then i * a.rows + row else row * a.rows + i)))
  ∧ (∀ col, col < (if b.transpose ≠ 0 then b.rows else b.columns) →
    ∀ i, i < (if a.transpose ≠ 0 then a.rows else a.columns) →
      (b.value + (col * b.rows + i) < x.value
        ∨ x.value + x.rows * x.columns ≤ b.value + (col * b.rows + i)))

/-- A 2-by-3 array at address 1 read as its transpose (3 rows, 2 columns). -/
@[noinline, nospecialize]
def exWideT : matrix := { transpose := 1, invert := 0, rows := 2, columns := 3, value := 1 }

/-- A 2-by-2 array at address 7. -/
@[noinline, nospecialize]
def exSq7 : matrix := { transpose := 0, invert := 0, rows := 2, columns := 2, value := 7 }

/-- A 3-by-2 result array at address 11. -/
@[noinline, nospecialize]
def exOut32 : matrix := { transpose := 0, invert := 0, rows := 3, columns := 2, value := 11 }

/-- Memory of the product example: cells 1..6 hold 1..6, cells 7..10 hold
1, 2, 3, 4, the cells of the result hold 9. -/
@[noinline, nospecialize]
def exMemProduct : Nat → ℚ :=
  memOfList [1, 2, 3, 4, 5, 6, 1, 2, 3, 4, 9, 9, 9, 9, 9, 9]

/-! ## zone_processor.c -/

/-- The struct `zone_result` of zone_processor.h; of its fields only the two
that `aggregate_zone_results` reads are kept. -/
structure zone_result (α : Type) where
  catchment_area : α
  total_time : α

/-- `aggregate_zone_results` of zone_processor.c: the values left in
`*total_area` and `*total_time`, which are two variables of the caller.
`results z = none` is a `NULL` entry of the array. -/
@[noinline, nospecialize]
def aggregate_zone_results {α : Type} [LinearOrderedField α]
    (results : Nat → Option (zone_result α)) (num_zones : Int) : α × α :=
  let total_area : α := 0
  let total_time : α := 0
  forN (fun z (st : α × α) =>
    match results z with
    | some r =>
      let total_area := st.1 + r.catchment_area
      let total_time := if r.total_time > st.2 then r.total_time else st.2
      (total_area, total_time)
    | none => st) 0 num_zones.toNat (total_area, total_time)

/-- Three zone results, the middle one `NULL`: areas 10 and 5, processing times
1 and 2. -/
@[noinline, nospecialize]
def exZoneResults : Nat → Option (zone_result ℚ) := fun z =>
  if z = 0 then some { catchment_area := 10, total_time := 1 }
  else if z = 2 then some { catchment_area := 5, total_time := 2 }
  else none

/-! ## bsolve_optimized.c: the views on the arena -/

/-- The nine local matrix headers of `make_bcv_use_KCL`. -/
structure KCL_views where
  A : matrix
  D : matrix
  DA : matrix
  DAV : matrix
  B : matrix
  BT : matrix
  BTB : matrix
  BTDAV : matrix
  KCL : matrix

/-- The `attach_matrix` calls of `make_bcv_use_KCL`, in the order of the
source, on the arena at `values`: `A`, `D`, `DA`, `DAV` at the start of
PHASE 1 and `B`, `BT`, `BTB`, `BTDAV`, `KCL` at the start of PHASE 2. -/
@[noinline, nospecialize]
def make_bcv_use_KCL_views (N values : Nat) : KCL_views :=
  let A := attach_matrix (5 * N + 1) (2 * N) values
  let D := attach_matrix (5 * N + 1) (2 * N) (after_matrix A)
  let DA := attach_matrix (5 * N + 1) (2 * N) values
  let DAV := attach_matrix (5 * N + 1) 1 (after_matrix D)
  let B := attach_matrix (5 * N + 1) (4 * N) values
  let BT := attach_matrix (5 * N + 1) (4 * N) values
  let BTB := attach_matrix (4 * N) (4 * N) (after_matrix DAV)
  let BTDAV := attach_matrix (4 * N) 1 (after_matrix BTB)
  let KCL := attach_matrix 1 (4 * N) (after_matrix BTB)
  KCL_views.mk A D DA DAV B BT BTB BTDAV KCL

/-- The eight local matrix headers of `make_bcv_no_KCL`. -/
structure noKCL_views where
  A : matrix
  D : matrix
  DA : matrix
  DAV : matrix
  B : matrix
  BT : matrix
  BTB : matrix
  BTDAV : matrix

/-- The `attach_matrix` calls of `make_bcv_no_KCL`, in the order of the source,
on the arena at `values`. -/
@[noinline, nospecialize]
def make_bcv_no_KCL_views (N values : Nat) : noKCL_views :=
  let A := attach_matrix (5 * N) (2 * N) values
  let D := attach_matrix (5 * N) (2 * N) (after_matrix A)
  let DA := attach_matrix (5 * N) (2 * N) values
  let DAV := attach_matrix (5 * N) 1 (after_matrix D)
  let B := attach_matrix (5 * N) (4 * N) values
  let BT := attach_matrix (5 * N) (4 * N) values
  let BTB := attach_matrix (4 * N) (4 * N) (after_matrix DAV)
  let BTDAV := attach_matrix (4 * N) 1 (after_matrix BTB)
  noKCL_views.mk A D DA DAV B BT BTB BTDAV

/-- The views of `make_bcv_use_KCL` as a list. -/
@[noinline, nospecialize]
def KCL_views.all (v : KCL_views) : List matrix :=
  [v.A, v.D, v.DA, v.DAV, v.B, v.BT, v.BTB, v.BTDAV, v.KCL]

/-- The views of `make_bcv_no_KCL` as a list. -/
@[noinline, nospecialize]
def noKCL_views.all (v : noKCL_views) : List matrix :=
  [v.A, v.D, v.DA, v.DAV, v.B, v.BT, v.BTB, v.BTDAV]

/-- A call of `streamline_loop` through an array `streamline` of `n_stream`
path buffers: for an index outside `0 .. n_stream - 1` there is no buffer, and
the call is taken to end the program. -/
@[noinline, nospecialize]
def streamline_checked {α world : Type} (n_stream : Int)
    (streamline_loop : world → coordinates α → Int → Int → α → Nat → bem_results α →
      Option (α × bem_results α × world)) :
    world → coordinates α → Int → Int → α → Nat → bem_results α →
      Option (α × bem_results α × world) :=
  fun w P direction max_steps step_size k R =>
    if (k : Int) < n_stream then streamline_loop w P direction max_steps step_size k R
    else none

/-- The entries of the matrix that the header `a` denotes in the memory `h`:
the stored entries as `get_matrix_element` reads them, or, when the invert flag
is set, the entries that `invert_this_matrix` leaves when the pending inversion
is carried out; `none` if that ends the program. -/
@[noinline, nospecialize]
def denoted {α : Type} [Field α] (cfg : Config α) (h : Nat → α) (a : matrix) :
    Option (Nat → Nat → α) :=
  if a.invert = 1 then
    (invert_this_matrix cfg h a).map fun r => fun i j => get_matrix_element r.1 r.2 i j
  else some fun i j => get_matrix_element h a i j

/-- A 2-by-2 array at address 1 with a pending inversion. -/
@[noinline, nospecialize]
def exSquareInv : matrix :=
  { transpose := 0, invert := 1, rows := 2, columns := 2, value := 1 }

/-- A 2-by-2 result array at address 5. -/
@[noinline, nospecialize]
def exSq5 : matrix := { transpose := 0, invert := 0, rows := 2, columns := 2, value := 5 }

/-- Memory holding the columns `(2, 1)` and `(3, 2)` at addresses 1..4 and the
value 9 in the cells 5..8. -/
@[noinline, nospecialize]
def exMemSquare : Nat → ℚ := memOfList [2, 1, 3, 2, 9, 9, 9, 9]

/-! ## string.h and path_list.c -/

/-- `strncmp` of string.h on two byte buffers: at most `n` bytes are compared,
as `unsigned char`, and the comparison stops after a NUL; the result is the
difference of the first two bytes that differ, or 0. A byte past the end of the
list reads as NUL. -/
@[noinline, nospecialize]
def strncmp (s1 s2 : List Nat) : Nat → Int
  | 0 => 0
  | n + 1 =>
    if s1.headD 0 ≠ s2.headD 0 then (s1.headD 0 : Int) - (s2.headD 0 : Int)
    else if s1.headD 0 = 0 then 0
    else strncmp s1.tail s2.tail n

/-- `strncpy` of string.h: the `n` bytes it writes to the destination, which
are the bytes of `src` up to its NUL, followed by NULs. -/
@[noinline, nospecialize]
def strncpy (src : List Nat) : Nat → List Nat
  | 0 => []
  | n + 1 =>
    if src.headD 0 = 0 then List.replicate (n + 1) 0
    else src.headD 0 :: strncpy src.tail n

/-- `search_path_list` of path_list.c. The loop state is `(index, i, compare)`;
the loop makes at most `n` rounds. -/
@[noinline, nospecialize]
def search_path_list (file_name : List Nat) (n : Int) (path_list : Nat → path_link) :
    Option Int := do
  let index : Int := -1
  let i : Nat := 0
  let compare : Int := 1
  let (index, _, _) ← whileM
    (fun (st : Int × Nat × Int) => decide (st.2.2 ≠ 0 ∧ (st.2.1 : Int) < n))
    (fun st =>
      let compare := strncmp file_name (path_list st.2.1).name 31
      let index := if compare = 0 then (st.2.1 : Int) else st.1
      some (index, st.2.1 + 1, compare))
    n.toNat (index, i, compare)
  pure index

/-- `load_path_list` of path_list.c: the returned index and the path list
after the call. The path struct is created and read from the file by
`create_path` and `get_path`; `this_path` is its address. -/
@[noinline, nospecialize]
def load_path_list (file_name : List Nat) (index : Nat) (path_list : Nat → path_link)
    (this_path : Nat) : Nat × (Nat → path_link) :=
  let name := strncpy file_name 32
  let name := name.set 31 0
  (index, Function.update path_list index { path_p := this_path, name := name })

/-- `get_path_list` of path_list.c. -/
@[noinline, nospecialize]
def get_path_list (index : Nat) (path_list : Nat → path_link) : Nat :=
  (path_list index).path_p

/-- The body of the inner loop of `get_catchment` of catchment.c for one line
`path_file` of a boundary file: the path is looked up in the pool and loaded if
it is not there. The result is the catchment and `new_path`, the address stored
in `zones[i]->loop[j]`; `fresh` is the address of the path struct that a load
creates. -/
@[noinline, nospecialize]
def get_catchment_path (c : catchment) (path_file : List Nat) (fresh : Nat) :
    Option (catchment × Nat) := do
  let index ← search_path_list path_file c.num_paths c.path_list
  let (c, index) ←
    if index < 0 then
      if c.num_paths < c.max_paths then
        let (index, p_list) := load_path_list path_file c.num_paths c.path_list fresh
        some ({ { c with path_list := p_list } with num_paths := c.num_paths + 1 }, (index : Int))
      else none
    else some (c, index)
  let new_path := get_path_list index.toNat c.path_list
  pure (c, new_path)

/-- The bytes of a buffer before its NUL, among the first `n`: what a file name
and a stored name are compared on. -/
@[noinline, nospecialize]
def leading_bytes (s : List Nat) : Nat → List Nat
  | 0 => []
  | n + 1 => if s.headD 0 = 0 then [] else s.headD 0 :: leading_bytes s.tail n

/-- A file name of 33 bytes: 31 times the letter `a`, then `1` and `x`. -/
@[noinline, nospecialize]
def exName1 : List Nat := List.replicate 31 97 ++ [49, 120, 0]

/-- A file name of 33 bytes: 31 times the letter `a`, then `2` and `y`. -/
@[noinline, nospecialize]
def exName2 : List Nat := List.replicate 31 97 ++ [50, 121, 0]

/-- An empty pool with room for two paths, as `create_catchment` leaves it. -/
@[noinline, nospecialize]
def exEmptyPool : catchment :=
  { num_zones := 0, max_zones := 1, previous_zone := -1, zones := fun _ => exZone 1,
    num_paths := 0, max_paths := 2, path_list := fun _ => { path_p := 0, name := [0] } }

/-! ## The writes of the diagonal-matrix assembly -/

/-- The normalised angle `syn` that `fill_diagonal_matrix` computes at a node
`b` from the previous point `a` and the next point `c`: `atan2` of the cross
and dot products of `a - b` and `c - b`, divided by `2 pi`, plus 1 if
negative. -/
@[noinline, nospecialize]
def node_angle {α : Type} [LinearOrderedField α] (m : LibM α) (a b c : coordinates α) : α :=
  let syn_y := (a.2 - b.2) * (c.1 - b.1) - (c.2 - b.2) * (a.1 - b.1)
  let syn_x := (a.1 - b.1) * (c.1 - b.1) + (c.2 - b.2) * (a.2 - b.2)
  let syn := m.atan2 syn_y syn_x
  let syn := syn / (2 * m.M_PI)
  if syn < 0 then syn + 1 else syn

/-- The value of `syn` in round `segment_j = s` of `fill_diagonal_matrix` on
the path `p`: the three `get_path_xy` calls of that round and `node_angle`. -/
@[noinline, nospecialize]
def node_syn {α : Type} [LinearOrderedField α] (m : LibM α) (p : path α) (s : Nat) :
    Option α := do
  let a ← get_path_xy p ((s : Int) - 1 + p.points)
  let b ← get_path_xy p s
  let c ← get_path_xy p (s + 1)
  pure (node_angle m a b c)

/-- The entries that `fill_diagonal_matrix` writes for a segment against
itself: row `k` of the block (sample `k`) holds in its two columns the
`p2c_2basis` image of `(V, W)`, with `V = -0.5 syn`, `W = syn` for sample 0 and
`V = c * 0.5`, `W = 0.5` with `c = -0.3, -0.1, 0.1, 0.3` for samples 1 to 4. -/
@[noinline, nospecialize]
def diag_stencil {α : Type} [Field α] (syn : α) (k c : Nat) : α :=
  let VW : α × α :=
    if k = 0 then p2c_2basis (-(1 / 2) * syn) syn
    else if k = 1 then p2c_2basis (-(3 / 10) * (1 / 2 : α)) (1 / 2)
    else if k = 2 then p2c_2basis (-(1 / 10) * (1 / 2 : α)) (1 / 2)
    else if k = 3 then p2c_2basis (1 / 10 * (1 / 2 : α)) (1 / 2)
    else p2c_2basis (3 / 10 * (1 / 2 : α)) (1 / 2)
  if c = 0 then VW.1 else VW.2

/-- The ten writes that the assembly of the diagonal matrix makes for one pair
of segments, in the order of the source: `(R, C)`, `(R, C+1)`, `(R+1, C)`, ...,
`(R+4, C+1)`, each with the row, the column and the value handed to
`put_matrix_element`. -/
@[noinline, nospecialize]
def block_writes {α : Type} (R C : Nat) (v : Nat → Nat → α) : List (Nat × Nat × α) :=
  (List.range 5).flatMap fun k => (List.range 2).map fun c => (R + k, C + c, v k c)

/-- The writes of `make_diagonal_matrix` in program order: for each component
`j` (columns), each component `i` (rows), each segment `sj` of component `j` and
each segment `si` of component `i`, the ten writes of the pair; the values are
those of `diag_stencil` when the two segments are the same and 0 otherwise.
`syn j s` is the angle at node `s` of component `j`. -/
@[noinline, nospecialize]
def diagonal_writes {α : Type} [Field α] (paths : Nat → path α) (b : boundary)
    (syn : Nat → Nat → α) : List (Nat × Nat × α) :=
  (List.range b.components).flatMap fun j =>
    (List.range b.components).flatMap fun i =>
      (List.range (paths (b.loop j)).points).flatMap fun sj =>
        (List.range (paths (b.loop i)).points).flatMap fun si =>
          block_writes (points_before paths b i * 5 + si * 5)
            (points_before paths b j * 2 + sj * 2)
            (fun k c => if i = j ∧ si = sj then diag_stencil (syn j sj) k c else 0)

/-- The ten `put_block_matrix_element(dm, offset_i, offset_j, i + k, j + c, 0.0)`
calls of `dm_zero_block`, with the store into entry `(offset_i + i, offset_j + j)`
of `dm` given by `put`. -/
@[noinline, nospecialize]
def dm_zero_block_on {α σ : Type} [Field α] (put : σ → Nat → Nat → α → σ)
    (offset_i offset_j i j : Nat) (s : σ) : σ :=
  let s := put s (offset_i + i) (offset_j + j) 0
  let s := put s (offset_i + i) (offset_j + (j + 1)) 0
  let s := put s (offset_i + (i + 1)) (offset_j + j) 0
  let s := put s (offset_i + (i + 1)) (offset_j + (j + 1)) 0
  let s := put s (offset_i + (i + 2)) (offset_j + j) 0
  let s := put s (offset_i + (i + 2)) (offset_j + (j + 1)) 0
  let s := put s (offset_i + (i + 3)) (offset_j + j) 0
  let s := put s (offset_i + (i + 3)) (offset_j + (j + 1)) 0
  let s := put s (offset_i + (i + 4)) (offset_j + j) 0
  put s (offset_i + (i + 4)) (offset_j + (j + 1)) 0

/-- `fill_diagonal_matrix` of linear_sys.c with the store as a parameter: the
call `put_block_matrix_element(dm, offset_i, offset_j, i, j, v)` is
`put s (offset_i + i) (offset_j + j) v`, so that the same code runs on the
memory and on a log of its writes. -/
@[noinline, nospecialize]
def fill_diagonal_matrix_on {α σ : Type} [LinearOrderedField α]
    (put : σ → Nat → Nat → α → σ) (m : LibM α)
    (paths : Nat → path α) (offset_i offset_j path_i path_j : Nat) (s : σ) : Option σ :=
  let points_i := (paths path_i).points
  let points_j := (paths path_j).points
  let offset_i := offset_i * 5
  let offset_j := offset_j * 2
  forNM (fun segment_j s => do
    let j := segment_j * 2
    let s := forRange (fun segment_i s =>
      dm_zero_block_on put offset_i offset_j (segment_i * 5) j s) 0 segment_j s
    let segment_i := segment_j
    let i := segment_i * 5
    let a ← get_path_xy (paths path_i) ((segment_i : Int) - 1 + points_i)
    let b ← get_path_xy (paths path_i) segment_i
    let c ← get_path_xy (paths path_i) (segment_i + 1)
    let syn_y := (a.2 - b.2) * (c.1 - b.1) - (c.2 - b.2) * (a.1 - b.1)
    let syn_x := (a.1 - b.1) * (c.1 - b.1) + (c.2 - b.2) * (a.2 - b.2)
    let syn := m.atan2 syn_y syn_x
    let syn := syn / (2 * m.M_PI)
    let syn := if syn < 0 then syn + 1 else syn
    let (V, W) := p2c_2basis (-(1 / 2) * syn) syn
    let s := put s (offset_i + i) (offset_j + j) V
    let s := put s (offset_i + i) (offset_j + (j + 1)) W
    let (V, W) := p2c_2basis (-(3 / 10) * (1 / 2 : α)) (1 / 2)
    let s := put s (offset_i + (i + 1)) (offset_j + j) V
    let s := put s (offset_i + (i + 1)) (offset_j + (j + 1)) W
    let (V, W) := p2c_2basis (-(1 / 10) * (1 / 2 : α)) (1 / 2)
    let s := put s (offset_i + (i + 2)) (offset_j + j) V
    let s := put s (offset_i + (i + 2)) (offset_j + (j + 1)) W
    let (V, W) := p2c_2basis (1 / 10 * (1 / 2 : α)) (1 / 2)
    let s := put s (offset_i + (i + 3)) (offset_j + j) V
    let s := put s (offset_i + (i + 3)) (offset_j + (j + 1)) W
    let (V, W) := p2c_2basis (3 / 10 * (1 / 2 : α)) (1 / 2)
    let s := put s (offset_i + (i + 4)) (offset_j + j) V
    let s := put s (offset_i + (i + 4)) (offset_j + (j + 1)) W
    let s := forRange (fun segment_i s =>
      dm_zero_block_on put offset_i offset_j (segment_i * 5) j s) (segment_j + 1) points_i s
    pure s) 0 points_j s

/-- `empty_diagonal_matrix` of linear_sys.c with the store as a parameter. -/
@[noinline, nospecialize]
def empty_diagonal_matrix_on {α σ : Type} [Field α] (put : σ → Nat → Nat → α → σ)
    (paths : Nat → path α) (offset_i offset_j path_i path_j : Nat) (s : σ) : σ :=
  let points_i := (paths path_i).points
  let points_j := (paths path_j).points
  let offset_i := offset_i * 5
  let offset_j := offset_j * 2
  forN (fun segment_j s =>
    let j := segment_j * 2
    forN (fun segment_i s =>
      dm_zero_block_on put offset_i offset_j (segment_i * 5) j s) 0 points_i s) 0 points_j s

/-- `make_diagonal_matrix` of linear_sys.c with the store as a parameter. -/
@[noinline, nospecialize]
def make_diagonal_matrix_on {α σ : Type} [LinearOrderedField α]
    (put : σ → Nat → Nat → α → σ) (m : LibM α)
    (paths : Nat → path α) (b : boundary) (s : σ) : Option σ := do
  let paths_n := b.components
  let (s, _) ← forNM (fun j (st : σ × Nat) => do
    let path_j := b.loop j
    let offset_j := st.2
    let (s, offset_i) := forRange (fun i (st' : σ × Nat) =>
      (empty_diagonal_matrix_on put paths st'.2 offset_j (b.loop i) path_j st'.1,
        st'.2 + (paths (b.loop i)).points)) 0 j (st.1, 0)
    let i := j
    let path_i := b.loop i
    let s ← fill_diagonal_matrix_on put m paths offset_i offset_j path_i path_j s
    let offset_i := offset_i + (paths (b.loop i)).points
    let (s, _) := forRange (fun i (st' : σ × Nat) =>
      (empty_diagonal_matrix_on put paths st'.2 offset_j (b.loop i) path_j st'.1,
        st'.2 + (paths (b.loop i)).points)) (j + 1) paths_n (s, offset_i)
    pure (s, offset_j + (paths (b.loop j)).points)) 0 paths_n (s, 0)
  pure s

/-- The store that records a write at the end of a log: the row, the column
and the value handed to `put_block_matrix_element`, offsets added. -/
@[noinline, nospecialize]
def log_write {α : Type} (l : List (Nat × Nat × α)) (r c : Nat) (v : α) :
    List (Nat × Nat × α) :=
  l ++ [(r, c, v)]

/-- The state after the writes of a list have been made, first to last, by
`put`. -/
@[noinline, nospecialize]
def replay_on {α σ : Type} (put : σ → Nat → Nat → α → σ) (s : σ)
    (l : List (Nat × Nat × α)) : σ :=
  l.foldl (fun s w => put s w.1 w.2.1 w.2.2) s

/-- Library functions for the examples of the diagonal matrix: `atan2` is
exact, in units of `M_PI`, on the positive and negative `y` axis and on the
`x` axis; the examples call it nowhere else. -/
@[noinline, nospecialize]
def exLibMAxis : LibM ℚ :=
  { sqrt := exSqrt,
    atan2 := fun y x =>
      if x = 0 then (if 0 < y then (355 / 113) / 2 else if y < 0 then -((355 / 113) / 2) else 0)
      else if y = 0 ∧ x < 0 then 355 / 113 else 0,
    M_PI := 355 / 113 }

/-- The writes of `fill_diagonal_matrix` in program order: for each segment
`sj` of `path_j` and each segment `si` of `path_i` the ten writes of the pair,
with the stencil of the node angle `syn sj` when `si = sj` and 0 otherwise.
`R` and `C` are the first row and column of the block of the two components. -/
@[noinline, nospecialize]
def fill_writes {α : Type} [Field α] (R C points_i points_j : Nat) (syn : Nat → α) :
    List (Nat × Nat × α) :=
  (List.range points_j).flatMap fun sj =>
    (List.range points_i).flatMap fun si =>
      block_writes (R + si * 5) (C + sj * 2)
        (fun k c => if si = sj then diag_stencil (syn sj) k c else 0)

/-! ## Catchments of nested contours -/

section GaussJordan
variable {α : Type} [Field α]

theorem gjInv_zero (n : Nat) (A : Nat → Nat → α) : gjInv n A 0 A := by
  intro x i _
  simp [matVec, Finset.sum_neg_distrib]

theorem gjInv_step (n : Nat) (A S : Nat → Nat → α) (t : Nat) (ht : t < n)
    (hp : S t t ≠ 0) (hS : gjInv n A t S) : gjInv n A (t + 1) (gjStep S t) := by
  intro x i hi
  have hrow := hS x t ht
  simp only [lt_irrefl, if_false] at hrow
  have htmem : t ∈ Finset.range n := Finset.mem_range.mpr ht
  have hc : ∀ k, k ≠ t → (if k < t + 1 then matVec n A x k else - x k)
      = (if k < t then matVec n A x k else - x k) := by
    intro k hk
    have h1 : (k < t + 1) ↔ (k < t) := by
      constructor <;> intro h <;> omega
    simp only [h1]
  have hct : (if t < t + 1 then matVec n A x t else - x t) = matVec n A x t := by simp
  have hct' : (if t < t then matVec n A x t else - x t) = - x t := by simp
  by_cases hit : i = t
  · subst hit
    have key : ∀ k ∈ Finset.range n,
        gjStep S i i k * (if k < i + 1 then matVec n A x k else - x k)
          = (1 / S i i) * (S i k * (if k < i then matVec n A x k else - x k))
            + (if k = i then (1 / S i i) * (matVec n A x i + S i i * x i) else 0) := by
      intro k _
      by_cases hk : k = i
      · subst hk
        rw [hct, hct']
        simp only [gjStep, if_true]
        field_simp
        ring
      · rw [hc k hk]
        generalize (if k < i then matVec n A x k else - x k) = ck
        simp only [gjStep, if_true, if_neg hk]
        ring
    rw [Finset.sum_congr rfl key, Finset.sum_add_distrib, ← Finset.mul_sum, hrow,
      Finset.sum_ite_eq' (Finset.range n) i, if_pos htmem]
    simp only [Nat.lt_succ_self, if_true]
    field_simp
    ring
  · have hd : (i < t + 1) ↔ (i < t) := by
      constructor <;> intro h <;> omega
    have hrowi := hS x i hi
    have key : ∀ k ∈ Finset.range n,
        gjStep S t i k * (if k < t + 1 then matVec n A x k else - x k)
          = S i k * (if k < t then matVec n A x k else - x k)
            - (S i t / S t t) * (S t k * (if k < t then matVec n A x k else - x k))
            + (if k = t then -(1 / S t t) * S i t * matVec n A x t else 0) := by
      intro k _
      by_cases hk : k = t
      · subst hk
        rw [hct, hct']
        simp only [gjStep, if_true, if_neg hit]
        field_simp
        ring
      · rw [hc k hk]
        generalize (if k < t then matVec n A x k else - x k) = ck
        simp only [gjStep, if_neg hk, if_neg hit]
        field_simp
        ring
    rw [Finset.sum_congr rfl key, Finset.sum_add_distrib, Finset.sum_sub_distrib,
      ← Finset.mul_sum, hrow, hrowi, Finset.sum_ite_eq' (Finset.range n) t, if_pos htmem]
    simp only [hd]
    field_simp

theorem gjInv_final (n : Nat) (A S : Nat → Nat → α) (hS : gjInv n A n S) :
    (Matrix.of fun i j : Fin n => S i j) * (Matrix.of fun i j : Fin n => A i j) = 1 := by
  ext i j
  have h := hS (fun k => if k = j.val then 1 else 0) i.val i.isLt
  simp only [i.isLt, if_true] at h
  rw [Matrix.mul_apply, Matrix.one_apply]
  have e : ∀ k ∈ Finset.range n, S i k * (if k < n then matVec n A (fun k => if k = j.val then (1:α) else 0) k
      else - (fun k => if k = j.val then (1:α) else 0) k) = S i k * A k j := by
    intro k hk
    rw [if_pos (Finset.mem_range.mp hk)]
    simp [matVec, Finset.sum_ite_eq', j.isLt]
  rw [Finset.sum_congr rfl e] at h
  rw [← Fin.sum_univ_eq_sum_range (fun k => S i k * A k j) n] at h
  simp only [Matrix.of_apply]
  rw [h]
  simp [Fin.ext_iff]

/-- A zero pivot at step `t` forces the leading minor of order `t + 1` to vanish. -/
theorem gjInv_pivot (n : Nat) (A S : Nat → Nat → α) (t : Nat) (ht : t < n)
    (hS : gjInv n A t S)
    (hminor : (Matrix.of fun i j : Fin (t + 1) => A i j).det ≠ 0) : S t t ≠ 0 := by
  intro hz
  apply hminor
  rw [← Matrix.exists_vecMul_eq_zero_iff]
  refine ⟨fun k => if k.val = t then 1 else S t k, ?_, ?_⟩
  · intro h
    have := congrFun h (Fin.last t)
    simp at this
  · ext m
    have h := hS (fun k => if k = m.val then 1 else 0) t ht
    simp only [lt_irrefl, if_false] at h
    have hm : m.val < n := lt_of_lt_of_le m.isLt ht
    have hAx : ∀ k, matVec n A (fun k => if k = m.val then (1:α) else 0) k = A k m := by
      intro k
      simp [matVec, Finset.sum_ite_eq', hm]
    simp only [hAx] at h
    -- split the sum over Finset.range n at t + 1
    have hsplit : ∑ k in Finset.range n, S t k * (if k < t then A k m else -(if k = m.val then (1:α) else 0))
        = ∑ k in Finset.range (t + 1), (if k = t then 0 else S t k * A k m) := by
      rw [← Finset.sum_subset (Finset.range_subset.mpr (Nat.succ_le_of_lt ht))]
      · apply Finset.sum_congr rfl
        intro k hk
        have hk' := Finset.mem_range.mp hk
        by_cases hkt : k = t
        · subst hkt; simp [hz]
        · have : k < t := by omega
          simp [this, hkt]
      · intro k hk hk'
        have h1 := Finset.mem_range.mp hk
        have h2 : ¬ k < t + 1 := fun h => hk' (Finset.mem_range.mpr h)
        have h3 : ¬ k < t := by omega
        have h4 : k ≠ m.val := by have := m.isLt; omega
        simp [h3, h4]
    rw [hsplit] at h
    simp only [Matrix.vecMul, Matrix.dotProduct, Matrix.of_apply, Pi.zero_apply]
    rw [← Fin.sum_univ_eq_sum_range (fun k => if k = t then 0 else S t k * A k m) (t + 1)] at h
    have e : ∀ k : Fin (t + 1), (if k.val = t then (1:α) else S t k) * A k m
        = (if k.val = t then 0 else S t k * A k m) + (if k = Fin.last t then A t m else 0) := by
      intro k
      by_cases hk : k.val = t
      · have : k = Fin.last t := Fin.ext hk
        subst this
        simp
      · have : k ≠ Fin.last t := fun h => hk (by rw [h]; rfl)
        simp [hk, this]
    rw [Finset.sum_congr rfl (fun k _ => e k), Finset.sum_add_distrib, h]
    simp

end GaussJordan

section Loops

theorem forN_succ {σ : Type} (body : Nat → σ → σ) (lo n : Nat) (s : σ) :
    forN body lo (n + 1) s = body (lo + n) (forN body lo n s) := by
  induction n generalizing lo s with
  | zero => simp [forN]
  | succ n ih =>
    rw [forN, ih (lo + 1) (body lo s), forN]
    congr 1
    omega

/-- Loop invariant rule for `forN`. -/
theorem forN_inv {σ : Type} (P : Nat → σ → Prop) (body : Nat → σ → σ) (lo n : Nat) (s : σ)
    (h0 : P 0 s) (hstep : ∀ t, t < n → ∀ s, P t s → P (t + 1) (body (lo + t) s)) :
    P n (forN body lo n s) := by
  induction n with
  | zero => simpa [forN] using h0
  | succ n ih =>
    rw [forN_succ]
    exact hstep n (Nat.lt_succ_self n) _ (ih (fun t ht s hs => hstep t (Nat.lt_succ_of_lt ht) s hs))

/-- A loop that writes one cell per iteration, each at its own address, where the
value written at step `j` only reads cells that earlier steps have not written:
every written cell holds the value computed from the initial memory, and every
other cell is unchanged. -/
theorem forN_fill {α : Type} (W : Nat → Nat) (val : (Nat → α) → Nat → α) (lo n : Nat)
    (h0 : Nat → α)
    (hinj : ∀ i j, i < n → j < n → W (lo + i) = W (lo + j) → i = j)
    (hval : ∀ j, j < n → ∀ h : Nat → α,
      (∀ k, (∀ i, i < j → k ≠ W (lo + i)) → h k = h0 k) → val h (lo + j) = val h0 (lo + j)) :
    (∀ j, j < n →
      forN (fun j h => Function.update h (W j) (val h j)) lo n h0 (W (lo + j)) = val h0 (lo + j))
    ∧ (∀ k, (∀ j, j < n → k ≠ W (lo + j)) →
      forN (fun j h => Function.update h (W j) (val h j)) lo n h0 k = h0 k) := by
  have key := forN_inv
    (fun t (h : Nat → α) => (∀ j, j < t → h (W (lo + j)) = val h0 (lo + j))
      ∧ (∀ k, (∀ j, j < t → k ≠ W (lo + j)) → h k = h0 k))
    (fun j h => Function.update h (W j) (val h j)) lo n h0
    ⟨fun j hj => absurd hj (Nat.not_lt_zero j), fun k _ => rfl⟩
    (by
      intro t ht h ⟨h1, h2⟩
      have hv : val h (lo + t) = val h0 (lo + t) := hval t ht h h2
      refine ⟨?_, ?_⟩
      · intro j hj
        by_cases hjt : j = t
        · subst hjt
          show Function.update h (W (lo + j)) (val h (lo + j)) (W (lo + j)) = _
          rw [Function.update_same, hv]
        · have hjlt : j < t := by omega
          have hne : W (lo + j) ≠ W (lo + t) := by
            intro he
            exact hjt (hinj j t (by omega) ht he)
          show Function.update h (W (lo + t)) (val h (lo + t)) (W (lo + j)) = _
          rw [Function.update_noteq hne]
          exact h1 j hjlt
      · intro k hk
        have hne : k ≠ W (lo + t) := hk t (Nat.lt_succ_self t)
        show Function.update h (W (lo + t)) (val h (lo + t)) k = _
        rw [Function.update_noteq hne]
        exact h2 k (fun j hj => hk j (Nat.lt_succ_of_lt hj)))
  exact key

end Loops

section Cells

theorem idx_lt {r c i j : Nat} (hi : i < r) (hj : j < c) : j * r + i < r * c := by
  have h1 : j * r + i < (j + 1) * r := by rw [Nat.add_mul]; omega
  have h2 : (j + 1) * r ≤ c * r := Nat.mul_le_mul_right r hj
  rw [Nat.mul_comm r c]
  omega

theorem idx_inj {r i j i' j' : Nat} (hi : i < r) (hi' : i' < r)
    (h : j * r + i = j' * r + i') : i = i' ∧ j = j' := by
  have hr : 0 < r := by omega
  have h1 : (j * r + i) % r = i := by
    rw [Nat.add_comm, Nat.add_mul_mod_self_right, Nat.mod_eq_of_lt hi]
  have h2 : (j' * r + i') % r = i' := by
    rw [Nat.add_comm, Nat.add_mul_mod_self_right, Nat.mod_eq_of_lt hi']
  have h3 : (j * r + i) / r = j := by
    rw [Nat.add_comm, Nat.add_mul_div_right _ _ hr, Nat.div_eq_of_lt hi, Nat.zero_add]
  have h4 : (j' * r + i') / r = j' := by
    rw [Nat.add_comm, Nat.add_mul_div_right _ _ hr, Nat.div_eq_of_lt hi', Nat.zero_add]
  constructor
  · rw [← h1, ← h2, h]
  · rw [← h3, ← h4, h]

theorem mod_wrap {j n : Nat} (h : j < 2 * n) : j % n = if j < n then j else j - n := by
  split
  · next hlt => exact Nat.mod_eq_of_lt hlt
  · next hge =>
    have hge' : n ≤ j := Nat.le_of_not_lt hge
    rw [Nat.mod_eq_sub_mod hge']
    exact Nat.mod_eq_of_lt (by omega)

theorem get_matrix_element_eq {α : Type} (h : Nat → α) (x : matrix) (i j : Nat) :
    get_matrix_element h x i j = h (cell x i j) := by
  unfold get_matrix_element cell
  split <;> rfl

theorem put_matrix_element_eq {α : Type} (h : Nat → α) (x : matrix) (i j : Nat) (v : α) :
    put_matrix_element h x i j v = Function.update h (cell x i j) v := by
  unfold put_matrix_element cell
  split <;> rfl

/-- A cell addressed by an in-range logical index lies inside the data area. -/
theorem cell_mem (x : matrix) {i j : Nat} (hi : i < get_num_rows x)
    (hj : j < get_num_columns x) :
    x.value ≤ cell x i j ∧ cell x i j < x.value + x.rows * x.columns := by
  unfold get_num_rows at hi
  unfold get_num_columns at hj
  unfold cell
  by_cases ht : x.transpose = 0
  · simp only [ht, if_true] at hi hj ⊢
    have := idx_lt hi hj
    omega
  · simp only [ht, if_false] at hi hj ⊢
    have := idx_lt hj hi
    omega

/-- In-range logical indices address different cells. -/
theorem cell_inj (x : matrix) {i j i' j' : Nat} (hi : i < get_num_rows x)
    (hj : j < get_num_columns x) (hi' : i' < get_num_rows x) (hj' : j' < get_num_columns x)
    (h : cell x i j = cell x i' j') : i = i' ∧ j = j' := by
  unfold get_num_rows at hi hi'
  unfold get_num_columns at hj hj'
  unfold cell at h
  by_cases ht : x.transpose = 0
  · simp only [ht, if_true] at hi hj hi' hj' h
    exact idx_inj hi hi' (by omega)
  · simp only [ht, if_false] at hi hj hi' hj' h
    have := idx_inj hj hj' (Nat.add_left_cancel h)
    exact ⟨this.2, this.1⟩

end Cells

section GaussJordanCode
variable {α : Type} [Field α]

/-- The loop index `j` of `for (j = p + 1; j < p + n; j++)`, reduced modulo `n`,
visits every index below `n` other than `p` exactly once. -/
theorem wrap_ne {p n j : Nat} (hp : p < n) (hj : j < n - 1) :
    (p + 1 + j) % n < n ∧ (p + 1 + j) % n ≠ p := by
  rw [mod_wrap (by omega)]
  split <;> omega

theorem wrap_inj {p n i j : Nat} (hp : p < n) (hi : i < n - 1) (hj : j < n - 1)
    (h : (p + 1 + i) % n = (p + 1 + j) % n) : i = j := by
  rw [mod_wrap (by omega), mod_wrap (by omega)] at h
  split at h <;> split at h <;> omega

theorem wrap_surj {p n k : Nat} (hp : p < n) (hk : k < n) (hkp : k ≠ p) :
    ∃ j, j < n - 1 ∧ (p + 1 + j) % n = k := by
  by_cases h : p < k
  · refine ⟨k - p - 1, by omega, ?_⟩
    rw [mod_wrap (by omega)]
    split <;> omega
  · refine ⟨k + n - p - 1, by omega, ?_⟩
    rw [mod_wrap (by omega)]
    split <;> omega

/-- Effect of `scale_row` on a square matrix: the pivot is replaced by its
reciprocal, the rest of the row is multiplied by it, nothing else changes. -/
theorem scale_row_spec (h : Nat → α) (a : matrix) (row n : Nat)
    (hr : get_num_rows a = n) (hc : get_num_columns a = n) (hrow : row < n) :
    (∀ k, k < n → get_matrix_element (scale_row h a row) a row k
      = if k = row then 1 / get_matrix_element h a row row
        else get_matrix_element h a row k * (1 / get_matrix_element h a row row))
    ∧ (∀ addr, (∀ k, k < n → addr ≠ cell a row k) → scale_row h a row addr = h addr) := by
  have hcell : ∀ {k k' : Nat}, k < n → k' < n → cell a row k = cell a row k' → k = k' := by
    intro k k' hk hk' he
    exact (cell_inj a (by omega) (by omega) (by omega) (by omega) he).2
  set scale := 1 / get_matrix_element h a row row with hscale
  set h1 := Function.update h (cell a row row) scale with hh1
  have hdef : scale_row h a row
      = forN (fun j g => Function.update g (cell a row (j % n)) (g (cell a row (j % n)) * scale))
          (row + 1) (n - 1) h1 := by
    unfold scale_row forRange
    simp only [put_matrix_element_eq, get_matrix_element_eq, hc]
    have : row + n - (row + 1) = n - 1 := by omega
    rw [this, hh1, hscale, get_matrix_element_eq]
  have hfill := forN_fill (fun j => cell a row (j % n))
    (fun g j => g (cell a row (j % n)) * scale) (row + 1) (n - 1) h1
    (by
      intro i j hi hj he
      exact wrap_inj hrow hi hj (hcell (wrap_ne hrow hi).1 (wrap_ne hrow hj).1 he))
    (by
      intro j hj g hg
      have : g (cell a row ((row + 1 + j) % n)) = h1 (cell a row ((row + 1 + j) % n)) := by
        apply hg
        intro i hi he
        have := wrap_inj hrow hj (by omega) (hcell (wrap_ne hrow hj).1 (wrap_ne hrow (by omega)).1 he)
        omega
      simp only [this])
  rw [hdef]
  refine ⟨?_, ?_⟩
  · intro k hk
    rw [get_matrix_element_eq]
    by_cases hkr : k = row
    · subst hkr
      rw [if_pos rfl, hfill.2]
      · rw [hh1, Function.update_same]
      · intro j hj he
        exact (wrap_ne hrow hj).2 (hcell (wrap_ne hrow hj).1 hk he.symm)
    · rw [if_neg hkr]
      obtain ⟨j, hj, hjk⟩ := wrap_surj hrow hk hkr
      have := hfill.1 j hj
      simp only [hjk] at this
      rw [this, hh1, Function.update_noteq, get_matrix_element_eq]
      intro he
      exact hkr (hcell hk hrow he)
  · intro addr haddr
    rw [hfill.2]
    · rw [hh1, Function.update_noteq (haddr row hrow)]
    · intro j hj
      exact haddr _ (wrap_ne hrow hj).1

/-- Effect of `reduce_row` on a square matrix, for a row other than the pivot
row: the entry in the pivot column becomes minus the (already inverted) pivot
times the old entry, the other entries lose that multiple of the pivot row. -/
theorem reduce_row_spec (h : Nat → α) (a : matrix) (row pivot n : Nat)
    (hr : get_num_rows a = n) (hc : get_num_columns a = n) (hrow : row < n)
    (hp : pivot < n) (hne : row ≠ pivot) :
    (∀ k, k < n → get_matrix_element (reduce_row h a row pivot) a row k
      = if k = pivot then -get_matrix_element h a pivot pivot * get_matrix_element h a row pivot
        else get_matrix_element h a row k
          - get_matrix_element h a pivot k * get_matrix_element h a row pivot)
    ∧ (∀ addr, (∀ k, k < n → addr ≠ cell a row k) → reduce_row h a row pivot addr = h addr) := by
  have hcell : ∀ {i k i' k' : Nat}, i < n → k < n → i' < n → k' < n →
      cell a i k = cell a i' k' → i = i' ∧ k = k' := by
    intro i k i' k' hi hk hi' hk' he
    exact cell_inj a (by omega) (by omega) (by omega) (by omega) he
  set scale := get_matrix_element h a row pivot with hscale
  set h1 := Function.update h (cell a row pivot)
    (-get_matrix_element h a pivot pivot * scale) with hh1
  have hdef : reduce_row h a row pivot
      = forN (fun j g => Function.update g (cell a row (j % n))
          (g (cell a row (j % n)) - g (cell a pivot (j % n)) * scale))
          (pivot + 1) (n - 1) h1 := by
    unfold reduce_row forRange
    simp only [put_matrix_element_eq, get_matrix_element_eq, hc]
    have : pivot + n - (pivot + 1) = n - 1 := by omega
    rw [this, hh1, hscale, get_matrix_element_eq, get_matrix_element_eq]
  have hfill := forN_fill (fun j => cell a row (j % n))
    (fun g j => g (cell a row (j % n)) - g (cell a pivot (j % n)) * scale) (pivot + 1) (n - 1) h1
    (by
      intro i j hi hj he
      exact wrap_inj hp hi hj (hcell hrow (wrap_ne hp hi).1 hrow (wrap_ne hp hj).1 he).2)
    (by
      intro j hj g hg
      have e1 : g (cell a row ((pivot + 1 + j) % n)) = h1 (cell a row ((pivot + 1 + j) % n)) := by
        apply hg
        intro i hi he
        have := wrap_inj hp hj (by omega)
          (hcell hrow (wrap_ne hp hj).1 hrow (wrap_ne hp (by omega)).1 he).2
        omega
      have e2 : g (cell a pivot ((pivot + 1 + j) % n))
          = h1 (cell a pivot ((pivot + 1 + j) % n)) := by
        apply hg
        intro i hi he
        exact hne (hcell hp (wrap_ne hp hj).1 hrow (wrap_ne hp (by omega)).1 he).1.symm
      simp only [e1, e2])
  rw [hdef]
  refine ⟨?_, ?_⟩
  · intro k hk
    rw [get_matrix_element_eq]
    by_cases hkp : k = pivot
    · subst hkp
      rw [if_pos rfl, hfill.2]
      · rw [hh1, Function.update_same, hscale]
      · intro j hj he
        exact (wrap_ne hk hj).2 (hcell hrow (wrap_ne hk hj).1 hrow hk he.symm).2
    · rw [if_neg hkp]
      obtain ⟨j, hj, hjk⟩ := wrap_surj hp hk hkp
      have := hfill.1 j hj
      simp only [hjk] at this
      rw [this, hh1, Function.update_noteq, Function.update_noteq, get_matrix_element_eq,
        get_matrix_element_eq]
      · intro he
        exact hne (hcell hp hk hrow hp he).1.symm
      · intro he
        exact hkp (hcell hrow hk hrow hp he).2
  · intro addr haddr
    rw [hfill.2]
    · rw [hh1, Function.update_noteq (haddr pivot hp)]
    · intro j hj
      exact haddr _ (wrap_ne hp hj).1

/-- Effect of `reduce_column` on a square matrix: every row other than the
pivot row is reduced by `reduce_row`, the pivot row is left alone. -/
theorem reduce_column_spec (h : Nat → α) (a : matrix) (col n : Nat)
    (hr : get_num_rows a = n) (hc : get_num_columns a = n) (hcol : col < n) :
    (∀ i k, i < n → k < n → get_matrix_element (reduce_column h a col) a i k
      = if i = col then get_matrix_element h a col k
        else if k = col then -get_matrix_element h a col col * get_matrix_element h a i col
        else get_matrix_element h a i k
          - get_matrix_element h a col k * get_matrix_element h a i col)
    ∧ (∀ addr, (∀ i k, i < n → k < n → addr ≠ cell a i k) →
        reduce_column h a col addr = h addr) := by
  have hcell : ∀ {i k i' k' : Nat}, i < n → k < n → i' < n → k' < n →
      cell a i k = cell a i' k' → i = i' ∧ k = k' := by
    intro i k i' k' hi hk hi' hk' he
    exact cell_inj a (by omega) (by omega) (by omega) (by omega) he
  have hdef : reduce_column h a col
      = forN (fun i g => reduce_row g a (i % n) col) (col + 1) (n - 1) h := by
    unfold reduce_column forRange
    have : col + n - (col + 1) = n - 1 := by omega
    simp only [hr, this]
  have key := forN_inv
    (fun t (g : Nat → α) =>
      (∀ i k, i < n → k < n → (∃ s, s < t ∧ (col + 1 + s) % n = i) →
        g (cell a i k) = if k = col then -h (cell a col col) * h (cell a i col)
          else h (cell a i k) - h (cell a col k) * h (cell a i col))
      ∧ (∀ i k, i < n → k < n → (¬ ∃ s, s < t ∧ (col + 1 + s) % n = i) →
        g (cell a i k) = h (cell a i k))
      ∧ (∀ addr, (∀ i k, i < n → k < n → addr ≠ cell a i k) → g addr = h addr))
    (fun i g => reduce_row g a (i % n) col) (col + 1) (n - 1) h
    ⟨fun i k _ _ ⟨s, hs, _⟩ => absurd hs (Nat.not_lt_zero s), fun _ _ _ _ _ => rfl,
      fun _ _ => rfl⟩
    (by
      intro t ht g ⟨h1, h2, h3⟩
      have hrn := (wrap_ne hcol ht).1
      have hrc := (wrap_ne hcol ht).2
      have hspec := reduce_row_spec g a ((col + 1 + t) % n) col n hr hc hrn hcol hrc
      have hfresh : ¬ ∃ s, s < t ∧ (col + 1 + s) % n = (col + 1 + t) % n := by
        rintro ⟨s, hs, he⟩
        have := wrap_inj hcol (by omega) ht he
        omega
      have hpiv : ¬ ∃ s, s < t ∧ (col + 1 + s) % n = col := by
        rintro ⟨s, hs, he⟩
        exact (wrap_ne hcol (by omega : s < n - 1)).2 he
      refine ⟨?_, ?_, ?_⟩
      · intro i k hi hk ⟨s, hs, he⟩
        by_cases hst : s = t
        · subst hst
          subst he
          have := hspec.1 k hk
          simp only [get_matrix_element_eq] at this
          show reduce_row g a ((col + 1 + s) % n) col (cell a ((col + 1 + s) % n) k) = _
          rw [this, h2 _ _ hcol hcol hpiv, h2 _ _ hrn hcol hfresh, h2 _ _ hrn hk hfresh,
            h2 _ _ hcol hk hpiv]
        · have hs' : s < t := by omega
          show reduce_row g a ((col + 1 + t) % n) col (cell a i k) = _
          rw [hspec.2]
          · exact h1 i k hi hk ⟨s, hs', he⟩
          · intro k' hk' hce
            have := (hcell hi hk hrn hk' hce).1
            have := wrap_inj hcol (by omega) ht (he.trans this)
            omega
      · intro i k hi hk hnot
        show reduce_row g a ((col + 1 + t) % n) col (cell a i k) = _
        rw [hspec.2]
        · exact h2 i k hi hk (fun ⟨s, hs, he⟩ => hnot ⟨s, by omega, he⟩)
        · intro k' hk' hce
          have := (hcell hi hk hrn hk' hce).1
          exact hnot ⟨t, Nat.lt_succ_self t, this.symm⟩
      · intro addr haddr
        show reduce_row g a ((col + 1 + t) % n) col addr = _
        rw [hspec.2]
        · exact h3 addr haddr
        · intro k' hk'
          exact haddr _ _ hrn hk')
  rw [hdef]
  obtain ⟨k1, k2, k3⟩ := key
  refine ⟨?_, k3⟩
  intro i k hi hk
  simp only [get_matrix_element_eq]
  by_cases hic : i = col
  · subst hic
    rw [if_pos rfl]
    apply k2 _ _ hi hk
    rintro ⟨s, hs, he⟩
    exact (wrap_ne hi hs).2 he
  · rw [if_neg hic]
    exact k1 i k hi hk (wrap_surj hcol hi hic)

/-- One pass of the inversion loop, `scale_row(a, j); reduce_column(a, j);`,
acts on the entries of a square matrix as `gjStep`. -/
theorem gj_pass_spec (h : Nat → α) (a : matrix) (j n : Nat)
    (hr : get_num_rows a = n) (hc : get_num_columns a = n) (hj : j < n) :
    (∀ i k, i < n → k < n →
      get_matrix_element (reduce_column (scale_row h a j) a j) a i k
        = gjStep (fun i k => get_matrix_element h a i k) j i k)
    ∧ (∀ addr, (∀ i k, i < n → k < n → addr ≠ cell a i k) →
        reduce_column (scale_row h a j) a j addr = h addr) := by
  have hcell : ∀ {i k i' k' : Nat}, i < n → k < n → i' < n → k' < n →
      cell a i k = cell a i' k' → i = i' ∧ k = k' := by
    intro i k i' k' hi hk hi' hk' he
    exact cell_inj a (by omega) (by omega) (by omega) (by omega) he
  have hs := scale_row_spec h a j n hr hc hj
  have hrc := reduce_column_spec (scale_row h a j) a j n hr hc hj
  have hother : ∀ i k, i < n → k < n → i ≠ j →
      get_matrix_element (scale_row h a j) a i k = get_matrix_element h a i k := by
    intro i k hi hk hij
    rw [get_matrix_element_eq, get_matrix_element_eq, hs.2]
    intro k' hk' he
    exact hij (hcell hi hk hj hk' he).1
  refine ⟨?_, ?_⟩
  · intro i k hi hk
    rw [hrc.1 i k hi hk]
    unfold gjStep
    by_cases hij : i = j
    · subst hij
      rw [if_pos rfl, if_pos rfl, hs.1 k hk]
    · rw [if_neg hij, if_neg hij]
      by_cases hkj : k = j
      · subst hkj
        rw [if_pos rfl, if_pos rfl, hs.1 k hk, if_pos rfl, hother i k hi hk hij]
      · rw [if_neg hkj, if_neg hkj, hs.1 k hk, if_neg hkj, hother i k hi hk hij,
          hother i j hi hj hij]
  · intro addr haddr
    rw [hrc.2 addr haddr, hs.2]
    intro k hk
    exact haddr j k hj hk

end GaussJordanCode

section GaussJordanLoop
variable {α : Type} [Field α]

theorem gjInv_congr (n : Nat) (A S S' : Nat → Nat → α) (t : Nat)
    (hS : ∀ i k, i < n → k < n → S' i k = S i k) (h : gjInv n A t S) : gjInv n A t S' := by
  intro x i hi
  rw [← h x i hi]
  apply Finset.sum_congr rfl
  intro k hk
  rw [hS i k hi (Finset.mem_range.mp hk)]

/-- The Gauss-Jordan loop of `invert_this_matrix` on a square matrix whose
leading principal minors do not vanish: the result is a left inverse of the
initial matrix, and no cell outside the matrix is written. -/
theorem gj_loop_spec (h : Nat → α) (a : matrix) (n : Nat)
    (hr : get_num_rows a = n) (hc : get_num_columns a = n)
    (hminor : ∀ k, k ≤ n → (Matrix.of fun i j : Fin k => get_matrix_element h a i j).det ≠ 0) :
    gjInv n (fun i k => get_matrix_element h a i k) n
      (fun i k => get_matrix_element
        (forRange (fun j g => reduce_column (scale_row g a j) a j) 0 n h) a i k)
    ∧ (∀ addr, (∀ i k, i < n → k < n → addr ≠ cell a i k) →
        forRange (fun j g => reduce_column (scale_row g a j) a j) 0 n h addr = h addr) := by
  unfold forRange
  rw [Nat.sub_zero]
  apply forN_inv
    (fun t (g : Nat → α) =>
      gjInv n (fun i k => get_matrix_element h a i k) t (fun i k => get_matrix_element g a i k)
      ∧ (∀ addr, (∀ i k, i < n → k < n → addr ≠ cell a i k) → g addr = h addr))
  · exact ⟨gjInv_zero n _, fun _ _ => rfl⟩
  · intro t ht g ⟨hg1, hg2⟩
    rw [Nat.zero_add]
    have hpiv : get_matrix_element g a t t ≠ 0 :=
      gjInv_pivot n (fun i k => get_matrix_element h a i k) (fun i k => get_matrix_element g a i k)
        t ht hg1 (hminor (t + 1) ht)
    have hpass := gj_pass_spec g a t n hr hc ht
    refine ⟨?_, ?_⟩
    · exact gjInv_congr n _ _ _ (t + 1) hpass.1 (gjInv_step n _ _ t ht hpiv hg1)
    · intro addr haddr
      rw [hpass.2 addr haddr]
      exact hg2 addr haddr

/-- What `invert_this_matrix` does on its Gauss-Jordan path. -/
theorem invert_this_matrix_sequential (cfg : Config α) (h : Nat → α) (a : matrix) (n : Nat)
    (hseq : cfg.use_sequential_inversion ≠ 0) (hval : a.value ≠ 0)
    (hr : a.rows = n) (hc : a.columns = n)
    (hminor : ∀ k, k ≤ n → (Matrix.of fun i j : Fin k => get_matrix_element h a i j).det ≠ 0) :
    ∃ h', invert_this_matrix cfg h a = some (h', { a with invert := 0 })
      ∧ (Matrix.of fun i j : Fin n => get_matrix_element h' a i j)
          * (Matrix.of fun i j : Fin n => get_matrix_element h a i j) = 1
      ∧ (∀ addr, (addr < a.value ∨ a.value + a.rows * a.columns ≤ addr) → h' addr = h addr) := by
  have hr' : get_num_rows { a with invert := 0 } = n := by
    unfold get_num_rows; simp [hr, hc]
  have hc' : get_num_columns { a with invert := 0 } = n := by
    unfold get_num_columns; simp [hr, hc]
  have hget : ∀ (g : Nat → α) i k,
      get_matrix_element g { a with invert := 0 } i k = get_matrix_element g a i k :=
    fun _ _ _ => rfl
  have hloop := gj_loop_spec h { a with invert := 0 } n hr' hc' (by simpa only [hget] using hminor)
  refine ⟨forRange (fun j g => reduce_column (scale_row g { a with invert := 0 } j)
    { a with invert := 0 } j) 0 n h, ?_, ?_, ?_⟩
  · unfold invert_this_matrix
    simp only [hc', if_neg hval, if_neg hseq]
  · have := gjInv_final n _ _ hloop.1
    simpa only [hget] using this
  · intro addr haddr
    apply hloop.2
    intro i k hi hk he
    have := cell_mem { a with invert := 0 } (i := i) (j := k) (by omega) (by omega)
    simp only at this
    omega

end GaussJordanLoop

/-- C2. On a square `n`-by-`n` matrix over a field whose leading principal
minors are all non-zero, the sequential inversion loop of `invert_this_matrix`
(`scale_row(a, j); reduce_column(a, j)` for `j = 0 .. n-1`) returns normally,
leaves the header unchanged apart from `invert = 0`, and replaces the entries
in place by those of the inverse: with `R` the matrix read afterwards and `A`
the matrix read before, `R * A = 1` and `A * R = 1`. -/
theorem invert_this_matrix_gauss_jordan_inverse {α : Type} [Field α] (cfg : Config α)
    (h : Nat → α) (a : matrix) (n : Nat)
    (hseq : cfg.use_sequential_inversion ≠ 0) (hval : a.value ≠ 0)
    (hr : a.rows = n) (hc : a.columns = n)
    (hminor : ∀ k, k ≤ n → (Matrix.of fun i j : Fin k => get_matrix_element h a i j).det ≠ 0) :
    ∃ h' a', invert_this_matrix cfg h a = some (h', a')
      ∧ a'.invert = 0 ∧ a' = { a with invert := 0 }
      ∧ (Matrix.of fun i j : Fin n => get_matrix_element h' a' i j)
          * (Matrix.of fun i j : Fin n => get_matrix_element h a i j) = 1
      ∧ (Matrix.of fun i j : Fin n => get_matrix_element h a i j)
          * (Matrix.of fun i j : Fin n => get_matrix_element h' a' i j) = 1 := by
  obtain ⟨h', h1, h2, _⟩ := invert_this_matrix_sequential cfg h a n hseq hval hr hc hminor
  refine ⟨h', { a with invert := 0 }, h1, rfl, rfl, h2, ?_⟩
  exact (Matrix.mul_eq_one_comm).mp h2

theorem invert_this_matrix_gauss_jordan_inverse_witness :
    (∀ k, k ≤ 2 → (Matrix.of fun i j : Fin k =>
        get_matrix_element (memOfList [(2 : ℚ), 1, 1, 1]) exSquare i j).det ≠ 0)
    ∧ ∃ h' a', invert_this_matrix exCfg (memOfList [(2 : ℚ), 1, 1, 1]) exSquare = some (h', a')
      ∧ a'.invert = 0 ∧ a' = { exSquare with invert := 0 }
      ∧ (Matrix.of fun i j : Fin 2 => get_matrix_element h' a' i j)
          * (Matrix.of fun i j : Fin 2 =>
              get_matrix_element (memOfList [(2 : ℚ), 1, 1, 1]) exSquare i j) = 1
      ∧ (Matrix.of fun i j : Fin 2 =>
              get_matrix_element (memOfList [(2 : ℚ), 1, 1, 1]) exSquare i j)
          * (Matrix.of fun i j : Fin 2 => get_matrix_element h' a' i j) = 1 := by
  have hm : ∀ k, k ≤ 2 → (Matrix.of fun i j : Fin k =>
        get_matrix_element (memOfList [(2 : ℚ), 1, 1, 1]) exSquare i j).det ≠ 0 := by
    intro k hk
    interval_cases k
    · simp
    · simp [get_matrix_element, memOfList, exSquare]
    · simp [Matrix.det_fin_two, get_matrix_element, memOfList, exSquare]; norm_num
  exact ⟨hm, invert_this_matrix_gauss_jordan_inverse exCfg (memOfList [(2 : ℚ), 1, 1, 1])
    exSquare 2 (by decide) (by decide) rfl rfl hm⟩

/-- C1 (fails on the code). `multiply_matrix` on its small-result path and
`multiply_matrix_sequential` index the second operand as if it were not
transposed. For the row vector `a = (1, 0)` and the transposed 2-by-2 operand
`b` whose logical rows are `(1, 2)` and `(3, 4)`, shapes are compatible and the
result vector is separate storage of the right size, yet both routines store
`3` at `x(0, 1)` while the sum over `k` of `op(a)(0, k) * op(b)(k, 1)`, with
`op` read by `get_matrix_element`, is `2`. -/
theorem multiply_matrix_second_operand_transpose_ignored :
    get_num_columns exRow = get_num_rows exBt
    ∧ get_num_rows exRow * get_num_columns exBt = get_num_rows exOut * get_num_columns exOut
    ∧ exRow.invert = 0 ∧ exBt.invert = 0
    ∧ after_matrix exRow ≤ exBt.value ∧ after_matrix exBt ≤ exOut.value
    ∧ (∃ h', multiply_matrix exCfg exMem exRow exBt exOut = some (h', exRow, exBt, exOut)
        ∧ get_matrix_element h' exOut 0 1 = 3)
    ∧ get_matrix_element (multiply_matrix_sequential exMem exRow exBt exOut) exOut 0 1 = 3
    ∧ ∑ k in Finset.range (get_num_columns exRow),
        get_matrix_element exMem exRow 0 k * get_matrix_element exMem exBt k 1 = 2 := by
  refine ⟨by decide, by decide, rfl, rfl, by decide, by decide, ⟨_, rfl, ?_⟩, ?_, ?_⟩
  · simp [get_matrix_element, forN, exMem, memOfList, Function.update, exRow, exBt, exOut,
      get_num_rows, get_num_columns]
  · simp [multiply_matrix_sequential, get_matrix_element, forN, exMem, memOfList,
      Function.update, exRow, exBt, exOut]
  · simp [Finset.sum_range_succ, get_matrix_element, exMem, memOfList, exRow, exBt,
      get_num_columns]

section Zones

theorem reverse_path_involutive {α : Type} : Function.Involutive (reverse_path (α := α)) := by
  intro p
  cases p
  simp [reverse_path]

theorem reverse_zone_apply {α : Type} (paths : Nat → path α) (b : boundary) (n a : Nat) :
    forN (fun j paths =>
      if (b.curve = 0 ∧ b.level j = 1) ∨ (b.curve = 1 ∧ b.level j = 0) then
        Function.update paths (b.loop j) (reverse_path (paths (b.loop j)))
      else paths) 0 n paths a = reverse_path^[toggleCount b n a] (paths a) := by
  induction n with
  | zero => rfl
  | succ n ih =>
    rw [forN_succ, Nat.zero_add]
    simp only [toggleCount]
    by_cases hc : (b.curve = 0 ∧ b.level n = 1) ∨ (b.curve = 1 ∧ b.level n = 0)
    · rw [if_pos hc]
      by_cases ha : b.loop n = a
      · subst ha
        rw [Function.update_same, ih, if_pos ⟨hc, rfl⟩, Function.iterate_succ_apply']
      · rw [Function.update_noteq (Ne.symm ha), ih, if_neg (fun h => ha h.2)]
        rfl
    · rw [if_neg hc, ih, if_neg (fun h => hc h.1)]
      rfl

/-- The scoped flip of `check_zone` and of the field evaluators: `reverse_zone`
applied twice gives back every path struct. -/
theorem reverse_zone_twice {α : Type} (paths : Nat → path α) (b : boundary) :
    reverse_zone (reverse_zone paths b) b = paths := by
  funext a
  unfold reverse_zone
  simp only []
  rw [reverse_zone_apply, reverse_zone_apply, ← Function.iterate_add_apply, ← two_mul,
    reverse_path_involutive.iterate_two_mul]
  rfl

/-- `check_zone` hands back the path structs it was given. -/
theorem check_zone_paths {α : Type} [LinearOrderedField α] (m : LibM α)
    (paths : Nat → path α) (b : boundary) (P : coordinates α) (r : Int) (ps : Nat → path α)
    (h : check_zone m paths b P = some (r, ps)) : ps = paths := by
  unfold check_zone at h
  simp only [bind, Option.bind_eq_some, pure, Option.some.injEq, Prod.mk.injEq] at h
  obtain ⟨_, _, _, h2⟩ := h
  rw [← h2, reverse_zone_twice]

end Zones

section ZoneScan
variable {α : Type} [LinearOrderedField α]

theorem whileM_done {σ : Type} (cond : σ → Bool) (body : σ → Option σ) (fuel : Nat) (s : σ)
    (h : cond s = false) : whileM cond body fuel s = some s := by
  cases fuel <;> simp [whileM, h]

/-- The scan loop of `check_each_zone`, started at zone `k0` with no hit so far,
when zone `k` is the first one from `k0` on for which `check_zone` returns 1. -/
theorem check_each_zone_loop_hit (m : LibM α) (paths : Nat → path α) (c : catchment)
    (P : coordinates α) (k : Nat) (hk : k < c.num_zones)
    (hhit : ∃ ps, check_zone m paths (c.zones k) P = some (1, ps)) :
    ∀ fuel k0, k0 + fuel = c.num_zones → k0 ≤ k →
      (∀ i, k0 ≤ i → i < k → ∃ r ps, check_zone m paths (c.zones i) P = some (r, ps) ∧ r ≠ 1) →
      whileM (fun (st : Nat × Int × (Nat → path α)) => decide (st.1 < c.num_zones ∧ st.2.1 ≠ 0))
        (fun st => do
          let b := c.zones st.1
          let (r, paths) ← check_zone m st.2.2 b P
          let not_this_zone := if r = 1 then 0 else st.2.1
          pure (st.1 + 1, not_this_zone, paths))
        fuel (k0, 1, paths) = some (k + 1, 0, paths) := by
  intro fuel
  induction fuel with
  | zero => intro k0 h0 hle _; omega
  | succ fuel ih =>
    intro k0 h0 hle hmiss
    have hcond : decide (k0 < c.num_zones ∧ (1 : Int) ≠ 0) = true := by
      simp; omega
    rw [whileM]
    simp only [hcond, if_true]
    by_cases hkk : k0 = k
    · subst hkk
      obtain ⟨ps, hps⟩ := hhit
      have := check_zone_paths m paths _ P 1 ps hps
      subst this
      simp only [hps, bind, Option.bind, pure, if_true]
      exact whileM_done _ _ _ _ (by simp)
    · obtain ⟨r, ps, hps, hr⟩ := hmiss k0 (Nat.le_refl _) (by omega)
      have := check_zone_paths m paths _ P r ps hps
      subst this
      simp only [hps, bind, Option.bind, pure, if_neg hr]
      exact ih (k0 + 1) (by omega) (by omega) (fun i hi hik => hmiss i (by omega) hik)

/-- The scan loop of `check_each_zone` when no zone from `k0` on returns 1. -/
theorem check_each_zone_loop_miss (m : LibM α) (paths : Nat → path α) (c : catchment)
    (P : coordinates α) :
    ∀ fuel k0, k0 + fuel = c.num_zones →
      (∀ i, k0 ≤ i → i < c.num_zones →
        ∃ r ps, check_zone m paths (c.zones i) P = some (r, ps) ∧ r ≠ 1) →
      whileM (fun (st : Nat × Int × (Nat → path α)) => decide (st.1 < c.num_zones ∧ st.2.1 ≠ 0))
        (fun st => do
          let b := c.zones st.1
          let (r, paths) ← check_zone m st.2.2 b P
          let not_this_zone := if r = 1 then 0 else st.2.1
          pure (st.1 + 1, not_this_zone, paths))
        fuel (k0, 1, paths) = some (c.num_zones, 1, paths) := by
  intro fuel
  induction fuel with
  | zero =>
    intro k0 h0 _
    have : k0 = c.num_zones := by omega
    subst this
    simp [whileM]
  | succ fuel ih =>
    intro k0 h0 hmiss
    have hcond : decide (k0 < c.num_zones ∧ (1 : Int) ≠ 0) = true := by
      simp; omega
    rw [whileM]
    simp only [hcond, if_true]
    obtain ⟨r, ps, hps, hr⟩ := hmiss k0 (Nat.le_refl _) (by omega)
    have := check_zone_paths m paths _ P r ps hps
    subst this
    simp only [hps, bind, Option.bind, pure, if_neg hr]
    exact ih (k0 + 1) (by omega) (fun i hi hik => hmiss i (by omega) hik)

end ZoneScan

/-- C9. `check_each_zone(c, P)` returns the smallest index `k` below
`num_zones` whose zone has `check_zone = 1`: if `check_zone` returns a value
other than 1 on the zones before `k` and 1 on zone `k`, the result is `k`,
whatever the later zones are (nothing is assumed of them, they are not
consulted); and if `check_zone` returns a value other than 1 on every zone
(in particular when `num_zones = 0`) the result is `-1`. In both cases the path
structs are handed back as they were. -/
theorem check_each_zone_first_hit {α : Type} [LinearOrderedField α] (m : LibM α)
    (paths : Nat → path α) (c : catchment) (P : coordinates α) :
    (∀ k, k < c.num_zones →
      (∀ i, i < k → ∃ r ps, check_zone m paths (c.zones i) P = some (r, ps) ∧ r ≠ 1) →
      (∃ ps, check_zone m paths (c.zones k) P = some (1, ps)) →
      check_each_zone m paths c P = some ((k : Int), paths))
    ∧ ((∀ i, i < c.num_zones →
        ∃ r ps, check_zone m paths (c.zones i) P = some (r, ps) ∧ r ≠ 1) →
      check_each_zone m paths c P = some (-1, paths)) := by
  constructor
  · intro k hk hmiss hhit
    have := check_each_zone_loop_hit m paths c P k hk hhit c.num_zones 0 (by omega) (by omega)
      (fun i _ hik => hmiss i hik)
    unfold check_each_zone
    simp only []
    erw [this]
    simp [bind, pure]
  · intro hmiss
    have := check_each_zone_loop_miss m paths c P c.num_zones 0 (by omega)
      (fun i _ hik => hmiss i hik)
    unfold check_each_zone
    simp only []
    erw [this]
    simp [bind, pure]

theorem option_fst_some {β γ : Type} (o : Option (β × γ)) (r : β)
    (h : o.map Prod.fst = some r) : ∃ ps, o = some (r, ps) := by
  cases o with
  | none => simp at h
  | some v =>
    simp only [Option.map_some', Option.some.injEq] at h
    exact ⟨v.2, by rw [← h]⟩

theorem check_each_zone_first_hit_witness :
    (∀ i, i < 1 → ∃ r ps,
        check_zone exLibM exPaths (exCatchment.zones i) ((3 : ℚ), 4) = some (r, ps) ∧ r ≠ 1)
    ∧ (∃ ps, check_zone exLibM exPaths (exCatchment.zones 1) ((3 : ℚ), 4) = some (1, ps))
    ∧ check_each_zone exLibM exPaths exCatchment ((3 : ℚ), 4) = some (1, exPaths) := by
  have h0 : ∀ i, i < 1 → ∃ r ps,
      check_zone exLibM exPaths (exCatchment.zones i) ((3 : ℚ), 4) = some (r, ps) ∧ r ≠ 1 := by
    intro i hi
    have hi0 : i = 0 := by omega
    subst hi0
    obtain ⟨ps, hps⟩ := option_fst_some
      (check_zone exLibM exPaths (exCatchment.zones 0) ((3 : ℚ), 4)) 0 (by decide!)
    exact ⟨0, ps, hps, by decide⟩
  have h1 : ∃ ps, check_zone exLibM exPaths (exCatchment.zones 1) ((3 : ℚ), 4) = some (1, ps) :=
    option_fst_some _ 1 (by decide!)
  exact ⟨h0, h1, (check_each_zone_first_hit exLibM exPaths exCatchment ((3 : ℚ), 4)).1 1
    (by decide) h0 h1⟩

section Products
variable {α : Type}

theorem forN_sum [AddCommMonoid α] (f : Nat → α) (lo n : Nat) (z : α) :
    forN (fun i acc => acc + f i) lo n z = z + ∑ i in Finset.range n, f (lo + i) := by
  induction n with
  | zero => simp [forN]
  | succ n ih => rw [forN_succ, ih, Finset.sum_range_succ, add_assoc]

/-- Two nested loops that write one cell per pair `(p, q)`, each pair at its
own address, where the value written only reads cells not yet written: every
written cell holds its value computed from the initial memory and every other
cell is unchanged. -/
theorem forN2_fill (W : Nat → Nat → Nat) (val : (Nat → α) → Nat → Nat → α) (np nq : Nat)
    (h0 : Nat → α)
    (hinj : ∀ p q p' q', p < np → q < nq → p' < np → q' < nq → W p q = W p' q' →
      p = p' ∧ q = q')
    (hval : ∀ p q, p < np → q < nq → ∀ h : Nat → α,
      (∀ k, (∀ p' q', p' < np → q' < nq → (p' < p ∨ (p' = p ∧ q' < q)) → k ≠ W p' q') →
        h k = h0 k) → val h p q = val h0 p q) :
    (∀ p q, p < np → q < nq →
      forN (fun p h => forN (fun q h => Function.update h (W p q) (val h p q)) 0 nq h)
        0 np h0 (W p q) = val h0 p q)
    ∧ (∀ k, (∀ p q, p < np → q < nq → k ≠ W p q) →
      forN (fun p h => forN (fun q h => Function.update h (W p q) (val h p q)) 0 nq h)
        0 np h0 k = h0 k) := by
  have key := forN_inv
    (fun t (h : Nat → α) => (∀ p q, p < t → q < nq → h (W p q) = val h0 p q)
      ∧ (∀ k, (∀ p q, p < t → q < nq → k ≠ W p q) → h k = h0 k))
    (fun p h => forN (fun q h => Function.update h (W p q) (val h p q)) 0 nq h) 0 np h0
    ⟨fun p q hp => absurd hp (Nat.not_lt_zero p), fun k _ => rfl⟩
    (by
      intro t ht h ⟨h1, h2⟩
      rw [Nat.zero_add]
      have hrow := forN_fill (fun q => W t q) (fun g q => val g t q) 0 nq h
        (by
          intro i j hi hj he
          rw [Nat.zero_add, Nat.zero_add] at he
          exact (hinj t i t j ht hi ht hj he).2)
        (by
          intro j hj g hg
          rw [Nat.zero_add]
          have e1 : val g t j = val h0 t j := by
            apply hval t j ht hj
            intro k hk
            rw [hg k, h2 k]
            · intro p q hp hq
              exact hk p q (by omega) hq (Or.inl hp)
            · intro i hi
              rw [Nat.zero_add]
              exact hk t i ht (by omega) (Or.inr ⟨rfl, hi⟩)
          have e2 : val h t j = val h0 t j := by
            apply hval t j ht hj
            intro k hk
            rw [h2 k]
            intro p q hp hq
            exact hk p q (by omega) hq (Or.inl hp)
          show val g t j = val h t j
          rw [e1, e2])
      simp only [Nat.zero_add] at hrow
      have hvt : ∀ q, q < nq → val h t q = val h0 t q := by
        intro q hq
        apply hval t q ht hq
        intro k hk
        rw [h2 k]
        intro p q' hp hq'
        exact hk p q' (by omega) hq' (Or.inl hp)
      refine ⟨?_, ?_⟩
      · intro p q hp hq
        by_cases hpt : p = t
        · subst hpt
          show forN (fun q h => Function.update h (W p q) (val h p q)) 0 nq h (W p q) = _
          rw [hrow.1 q hq, hvt q hq]
        · show forN (fun q h => Function.update h (W t q) (val h t q)) 0 nq h (W p q) = _
          rw [hrow.2]
          · exact h1 p q (by omega) hq
          · intro j hj he
            exact hpt (hinj p q t j (by omega) hq ht hj he).1
      · intro k hk
        show forN (fun q h => Function.update h (W t q) (val h t q)) 0 nq h k = _
        rw [hrow.2]
        · exact h2 k (fun p q hp hq => hk p q (by omega) hq)
        · intro j hj
          exact hk t j (Nat.lt_succ_self t) hj)
  exact key

/-- The triple loop computes the matrix product when the result cells are
apart from the cells it reads. -/
theorem mulLoops_spec [Semiring α] (A B X : Nat) (ia ib : Nat → Nat → Nat)
    (xr R C K : Nat) (h : Nat → α) (hR : R ≤ xr)
    (hA : ∀ i row, i < K → row < R → (A + ia i row < X ∨ X + xr * C ≤ A + ia i row))
    (hB : ∀ col i, col < C → i < K → (B + ib col i < X ∨ X + xr * C ≤ B + ib col i)) :
    (∀ row col, row < R → col < C →
      mulLoops A B X ia ib xr R C K h (X + (col * xr + row))
        = ∑ i in Finset.range K, h (A + ia i row) * h (B + ib col i))
    ∧ (∀ addr, (addr < X ∨ X + xr * C ≤ addr) → mulLoops A B X ia ib xr R C K h addr = h addr) := by
  have hcellmem : ∀ row col, row < R → col < C →
      X ≤ X + (col * xr + row) ∧ X + (col * xr + row) < X + xr * C := by
    intro row col hr hc
    have := idx_lt (r := xr) (c := C) (i := row) (j := col) (by omega) hc
    omega
  have hfill := forN2_fill (fun row col => X + (col * xr + row))
    (fun g row col => forN (fun i acc => acc + g (A + ia i row) * g (B + ib col i)) 0 K 0)
    R C h
    (by
      intro p q p' q' hp hq hp' hq' he
      exact idx_inj (r := xr) (by omega) (by omega) (Nat.add_left_cancel he))
    (by
      intro p q hp hq g hg
      beta_reduce at hg ⊢
      rw [forN_sum, forN_sum]
      congr 1
      apply Finset.sum_congr rfl
      intro i hi
      have hiK := Finset.mem_range.mp hi
      rw [Nat.zero_add, hg, hg]
      · intro p' q' hp' hq' _ he
        have := hcellmem p' q' hp' hq'
        have := hB q i hq hiK
        omega
      · intro p' q' hp' hq' _ he
        have := hcellmem p' q' hp' hq'
        have := hA i p hiK hp
        omega)
  refine ⟨?_, ?_⟩
  · intro row col hr hc
    have := hfill.1 row col hr hc
    beta_reduce at this
    unfold mulLoops
    rw [this, forN_sum]
    simp
  · intro addr haddr
    unfold mulLoops
    apply hfill.2
    intro p q hp hq he
    beta_reduce at he
    have := hcellmem p q hp hq
    omega

end Products

section ProductRoutines
variable {α : Type}

theorem ite_ne_zero_eq {β : Type} (t : Int) (u v : β) :
    (if t ≠ 0 then u else v) = (if t = 0 then v else u) := by
  by_cases h : t = 0 <;> simp [h]

/-- The cells the products read from the first operand are inside its data
area, for either transpose flag. -/
theorem first_operand_mem (a : matrix) {i row : Nat} (hrow : row < get_num_rows a)
    (hi : i < get_num_columns a) :
    a.value + (if a.transpose = 0 then i * a.rows + row else row * a.rows + i)
      < after_matrix a
    ∧ a.value + (if a.transpose = 0 then i * a.rows + row else row * a.rows + i)
      = cell a row i := by
  have := cell_mem a hrow hi
  unfold cell at *
  unfold after_matrix
  by_cases ht : a.transpose = 0
  · simp only [ht, if_true] at this ⊢
    exact ⟨this.2, trivial⟩
  · simp only [ht, if_false] at this ⊢
    exact ⟨this.2, trivial⟩

/-- The triple loop with the index functions of the sources, on an
untransposed second operand, yields the product. -/
theorem mulLoops_isProduct [Semiring α] (h : Nat → α) (a b x : matrix) (ldb : Nat)
    (hx : x.transpose = 0) (hxr : x.rows = get_num_rows a) (hxc : x.columns = get_num_columns b)
    (hb : b.transpose = 0) (hldb : ldb = b.rows) (hK : get_num_columns a = get_num_rows b)
    (hax : Apart a x) (hbx : Apart b x) :
    IsProduct h (mulLoops a.value b.value x.value
      (fun i row => if a.transpose = 0 then i * a.rows + row else row * a.rows + i)
      (fun col i => col * ldb + i) x.rows (get_num_rows a) (get_num_columns b)
      (get_num_columns a) h) a b x := by
  subst hldb
  have hbr : get_num_rows b = b.rows := by unfold get_num_rows; simp [hb]
  have hbc : get_num_columns b = b.columns := by unfold get_num_columns; simp [hb]
  have hafter : after_matrix x = x.value + x.rows * x.columns := rfl
  have hbcell : ∀ col i, col < get_num_columns b → i < get_num_columns a →
      b.value + (col * b.rows + i) < after_matrix b
      ∧ b.value + (col * b.rows + i) = cell b i col := by
    intro col i hc hi
    have hi' : i < get_num_rows b := by omega
    have := cell_mem b hi' hc
    unfold cell at *
    simp only [hb, if_true] at this ⊢
    exact ⟨this.2, trivial⟩
  have hspec := mulLoops_spec a.value b.value x.value
    (fun i row => if a.transpose = 0 then i * a.rows + row else row * a.rows + i)
    (fun col i => col * b.rows + i) x.rows (get_num_rows a) (get_num_columns b)
    (get_num_columns a) h (by omega)
    (by
      intro i row hi hrow
      have := (first_operand_mem a hrow hi).1
      unfold Apart at hax
      rw [hafter, hxc] at hax
      beta_reduce
      omega)
    (by
      intro col i hc hi
      have := (hbcell col i hc hi).1
      unfold Apart at hbx
      rw [hafter, hxc] at hbx
      beta_reduce
      omega)
  refine ⟨?_, ?_⟩
  · intro row col hrow hcol
    have := hspec.1 row col hrow hcol
    rw [get_matrix_element_eq]
    have hc : cell x row col = x.value + (col * x.rows + row) := by
      unfold cell; simp [hx]
    rw [hc, this]
    apply Finset.sum_congr rfl
    intro i hi
    have hi' := Finset.mem_range.mp hi
    beta_reduce
    rw [(first_operand_mem a hrow hi').2, (hbcell col i hcol hi').2, get_matrix_element_eq,
      get_matrix_element_eq]
  · intro addr haddr
    apply hspec.2
    rw [hafter, hxc] at haddr
    exact haddr

theorem multiply_matrix_sequential_eq [Zero α] [Add α] [Mul α] (h : Nat → α) (a b x : matrix)
    (hb : b.transpose = 0) :
    multiply_matrix_sequential h a b x
      = mulLoops a.value b.value x.value
          (fun i row => if a.transpose = 0 then i * a.rows + row else row * a.rows + i)
          (fun col i => col * b.rows + i) x.rows (get_num_rows a) (get_num_columns b)
          (get_num_columns a) h := by
  unfold multiply_matrix_sequential mulLoops get_num_rows get_num_columns
  by_cases ht : a.transpose = 0
  · simp only [ht, hb, if_true, ne_eq, not_true_eq_false, if_false]
  · simp only [ht, hb, if_true, ne_eq, not_false_eq_true, if_false, not_true_eq_false]

theorem multiply_matrix_openmp_hybrid_eq [Zero α] [Add α] [Mul α] (h : Nat → α)
    (a b x : matrix) (hb : b.transpose = 0) :
    multiply_matrix_openmp_hybrid h a b x
      = mulLoops a.value b.value x.value
          (fun i row => if a.transpose = 0 then i * a.rows + row else row * a.rows + i)
          (fun col i => col * b.rows + i) x.rows (get_num_rows a) (get_num_columns b)
          (get_num_columns a) h := by
  unfold multiply_matrix_openmp_hybrid mulLoops get_num_rows get_num_columns
  by_cases ht : a.transpose = 0
  · simp only [ht, hb, if_true, ne_eq, not_true_eq_false, if_false]
  · simp only [ht, hb, if_true, ne_eq, not_false_eq_true, if_false, not_true_eq_false]

end ProductRoutines

section Simd
variable {α : Type}

theorem forN_sum_Ico [AddCommMonoid α] (f : Nat → α) (lo hi : Nat) (z : α) :
    forRange (fun i acc => acc + f i) lo hi z = z + ∑ i in Finset.Ico lo hi, f i := by
  unfold forRange
  rw [forN_sum, Finset.sum_Ico_eq_sum_range]

/-- The vector loop of the AVX2 code: the four lanes together gain the terms
from the start index up to the index at which the loop stops, and that index
does not pass `n`. -/
theorem forLanes_spec [AddCommMonoid α] (f : Nat → α) (n : Nat) :
    ∀ (fuel i : Nat) (s : α × α × α × α), i ≤ n →
      i ≤ (forLanes (fun i (s : α × α × α × α) =>
          (f i + s.1, f (i + 1) + s.2.1, f (i + 2) + s.2.2.1, f (i + 3) + s.2.2.2))
          n fuel i s).1
      ∧ (forLanes (fun i (s : α × α × α × α) =>
          (f i + s.1, f (i + 1) + s.2.1, f (i + 2) + s.2.2.1, f (i + 3) + s.2.2.2))
          n fuel i s).1 ≤ n
      ∧ (let r := forLanes (fun i (s : α × α × α × α) =>
          (f i + s.1, f (i + 1) + s.2.1, f (i + 2) + s.2.2.1, f (i + 3) + s.2.2.2))
          n fuel i s
        r.2.1 + r.2.2.1 + r.2.2.2.1 + r.2.2.2.2
          = s.1 + s.2.1 + s.2.2.1 + s.2.2.2 + ∑ k in Finset.Ico i r.1, f k) := by
  intro fuel
  induction fuel with
  | zero =>
    intro i s hi
    simp [forLanes, hi]
  | succ fuel ih =>
    intro i s hi
    rw [forLanes]
    by_cases hc : i + 3 < n
    · simp only [hc, if_true]
      obtain ⟨h1, h2, h3⟩ := ih (i + 4)
        (f i + s.1, f (i + 1) + s.2.1, f (i + 2) + s.2.2.1, f (i + 3) + s.2.2.2) (by omega)
      refine ⟨by omega, h2, ?_⟩
      simp only [] at h3 ⊢
      rw [h3, ← Finset.sum_Ico_consecutive f (by omega : i ≤ i + 4) h1]
      have e : ∑ k in Finset.Ico i (i + 4), f k = f i + f (i + 1) + f (i + 2) + f (i + 3) := by
        rw [Finset.sum_Ico_eq_sum_range]
        have : i + 4 - i = 4 := by omega
        rw [this]
        simp [Finset.sum_range_succ]
      rw [e]
      abel
    · simp only [hc, if_false]
      simp [hi]

/-- The AVX2 dot product (vector loop, horizontal sum, scalar remainder) is the
plain dot product. -/
theorem simd_dot [Semiring α] (g : Nat → α) (A B ldb K col : Nat) (ia' : Nat → Nat) :
    (match forLanes (fun i (sum_vec : α × α × α × α) =>
        (g (A + ia' i) * g (B + (col * ldb + i)) + sum_vec.1,
          g (A + ia' (i + 1)) * g (B + (col * ldb + i + 1)) + sum_vec.2.1,
          g (A + ia' (i + 2)) * g (B + (col * ldb + i + 2)) + sum_vec.2.2.1,
          g (A + ia' (i + 3)) * g (B + (col * ldb + i + 3)) + sum_vec.2.2.2))
        K K 0 ((0 : α), (0 : α), (0 : α), (0 : α)) with
      | (i, sum_vec) =>
        forRange (fun i value_new => value_new + g (A + ia' i) * g (B + (col * ldb + i)))
          i K (sum_vec.1 + sum_vec.2.1 + sum_vec.2.2.1 + sum_vec.2.2.2))
      = forN (fun i value_new => value_new + g (A + ia' i) * g (B + (col * ldb + i))) 0 K 0 := by
  have hs := forLanes_spec (fun k => g (A + ia' k) * g (B + (col * ldb + k))) K K 0
    ((0 : α), (0 : α), (0 : α), (0 : α)) (Nat.zero_le K)
  simp only [Nat.add_assoc] at hs ⊢
  generalize forLanes (fun i (s : α × α × α × α) =>
    (g (A + ia' i) * g (B + (col * ldb + i)) + s.1,
      g (A + ia' (i + 1)) * g (B + (col * ldb + (i + 1))) + s.2.1,
      g (A + ia' (i + 2)) * g (B + (col * ldb + (i + 2))) + s.2.2.1,
      g (A + ia' (i + 3)) * g (B + (col * ldb + (i + 3))) + s.2.2.2)) K K 0
    ((0 : α), (0 : α), (0 : α), (0 : α)) = r at hs ⊢
  obtain ⟨i, sv⟩ := r
  obtain ⟨_, h2, h3⟩ := hs
  simp only [] at h2 h3 ⊢
  rw [forN_sum_Ico, forN_sum, h3]
  simp only [zero_add, Nat.zero_add, add_zero]
  rw [Finset.sum_Ico_consecutive _ (Nat.zero_le i) h2, Finset.range_eq_Ico]

theorem zero_fill_spec [Zero α] (X n : Nat) (h : Nat → α) :
    (∀ i, i < n → forN (fun i h => Function.update h (X + i) 0) 0 n h (X + i) = 0)
    ∧ (∀ addr, (addr < X ∨ X + n ≤ addr) →
      forN (fun i h => Function.update h (X + i) 0) 0 n h addr = h addr) := by
  have := forN_fill (fun i => X + i) (fun _ _ => (0 : α)) 0 n h
    (by intro i j _ _ he; beta_reduce at he; omega) (by intro j _ g _; rfl)
  refine ⟨?_, ?_⟩
  · intro i hi
    have := this.1 i hi
    rw [Nat.zero_add] at this
    exact this
  · intro addr haddr
    apply this.2
    intro j hj
    beta_reduce
    omega

/-- `IsProduct` only looks at the operands: a memory that agrees with `h` on
the data areas of `a` and `b` and outside that of `x` can take its place. -/
theorem IsProduct_of_agree [Semiring α] (h hz h' : Nat → α) (a b x : matrix)
    (hK : get_num_columns a = get_num_rows b) (hax : Apart a x) (hbx : Apart b x)
    (hagree : ∀ addr, (addr < x.value ∨ after_matrix x ≤ addr) → hz addr = h addr)
    (hp : IsProduct hz h' a b x) : IsProduct h h' a b x := by
  refine ⟨?_, ?_⟩
  · intro row col hrow hcol
    rw [hp.1 row col hrow hcol]
    apply Finset.sum_congr rfl
    intro i hi
    have hi' := Finset.mem_range.mp hi
    rw [get_matrix_element_eq, get_matrix_element_eq, get_matrix_element_eq,
      get_matrix_element_eq, hagree, hagree]
    · have hm := cell_mem b (i := i) (j := col) ?_ hcol
      · unfold Apart after_matrix at hbx
        unfold after_matrix
        omega
      · omega
    · have hm := cell_mem a hrow hi'
      unfold Apart after_matrix at hax
      unfold after_matrix
      omega
  · intro addr haddr
    rw [hp.2 addr haddr, hagree addr haddr]

end Simd

section SimdRoutine
variable {α : Type}

theorem simd_dot_proj [Semiring α] (g : Nat → α) (A B ldb K col : Nat) (ia' : Nat → Nat) :
    forRange (fun i value_new => value_new + g (A + ia' i) * g (B + (col * ldb + i)))
        (forLanes (fun i (sum_vec : α × α × α × α) =>
          (g (A + ia' i) * g (B + (col * ldb + i)) + sum_vec.1,
            g (A + ia' (i + 1)) * g (B + (col * ldb + i + 1)) + sum_vec.2.1,
            g (A + ia' (i + 2)) * g (B + (col * ldb + i + 2)) + sum_vec.2.2.1,
            g (A + ia' (i + 3)) * g (B + (col * ldb + i + 3)) + sum_vec.2.2.2))
          K K 0 ((0 : α), (0 : α), (0 : α), (0 : α))).1 K
        ((forLanes (fun i (sum_vec : α × α × α × α) =>
          (g (A + ia' i) * g (B + (col * ldb + i)) + sum_vec.1,
            g (A + ia' (i + 1)) * g (B + (col * ldb + i + 1)) + sum_vec.2.1,
            g (A + ia' (i + 2)) * g (B + (col * ldb + i + 2)) + sum_vec.2.2.1,
            g (A + ia' (i + 3)) * g (B + (col * ldb + i + 3)) + sum_vec.2.2.2))
          K K 0 ((0 : α), (0 : α), (0 : α), (0 : α))).2.1
        + (forLanes (fun i (sum_vec : α × α × α × α) =>
          (g (A + ia' i) * g (B + (col * ldb + i)) + sum_vec.1,
            g (A + ia' (i + 1)) * g (B + (col * ldb + i + 1)) + sum_vec.2.1,
            g (A + ia' (i + 2)) * g (B + (col * ldb + i + 2)) + sum_vec.2.2.1,
            g (A + ia' (i + 3)) * g (B + (col * ldb + i + 3)) + sum_vec.2.2.2))
          K K 0 ((0 : α), (0 : α), (0 : α), (0 : α))).2.2.1
        + (forLanes (fun i (sum_vec : α × α × α × α) =>
          (g (A + ia' i) * g (B + (col * ldb + i)) + sum_vec.1,
            g (A + ia' (i + 1)) * g (B + (col * ldb + i + 1)) + sum_vec.2.1,
            g (A + ia' (i + 2)) * g (B + (col * ldb + i + 2)) + sum_vec.2.2.1,
            g (A + ia' (i + 3)) * g (B + (col * ldb + i + 3)) + sum_vec.2.2.2))
          K K 0 ((0 : α), (0 : α), (0 : α), (0 : α))).2.2.2.1
        + (forLanes (fun i (sum_vec : α × α × α × α) =>
          (g (A + ia' i) * g (B + (col * ldb + i)) + sum_vec.1,
            g (A + ia' (i + 1)) * g (B + (col * ldb + i + 1)) + sum_vec.2.1,
            g (A + ia' (i + 2)) * g (B + (col * ldb + i + 2)) + sum_vec.2.2.1,
            g (A + ia' (i + 3)) * g (B + (col * ldb + i + 3)) + sum_vec.2.2.2))
          K K 0 ((0 : α), (0 : α), (0 : α), (0 : α))).2.2.2.2)
      = forN (fun i value_new => value_new + g (A + ia' i) * g (B + (col * ldb + i))) 0 K 0 :=
  simd_dot g A B ldb K col ia'

theorem multiply_matrix_simd_hybrid_eq [Semiring α] (avx2 : Bool) (h : Nat → α)
    (a b x : matrix) (block_size : Nat) (hb : b.transpose = 0) :
    multiply_matrix_simd_hybrid avx2 h a b x block_size
      = mulLoops a.value b.value x.value
          (fun i row => if a.transpose = 0 then i * a.rows + row else row * a.rows + i)
          (fun col i => col * b.rows + i) x.rows (get_num_rows a) (get_num_columns b)
          (get_num_columns a)
          (forN (fun i h => Function.update h (x.value + i) 0) 0 (x.rows * x.columns) h) := by
  unfold multiply_matrix_simd_hybrid mulLoops get_num_rows get_num_columns
  have e1 : (if a.transpose ≠ 0 then a.columns else a.rows)
      = (if a.transpose = 0 then a.rows else a.columns) := ite_ne_zero_eq _ _ _
  have e2 : (if a.transpose ≠ 0 then a.rows else a.columns)
      = (if a.transpose = 0 then a.columns else a.rows) := ite_ne_zero_eq _ _ _
  have e3 : (if b.transpose ≠ 0 then b.rows else b.columns)
      = (if b.transpose = 0 then b.columns else b.rows) := ite_ne_zero_eq _ _ _
  simp only [e1, e2, e3]
  cases avx2
  · simp only [Bool.false_eq_true, if_false]
    by_cases ht : a.transpose = 0 <;> simp only [ht, if_true, if_false]
  · simp only [if_true]
    by_cases ht : a.transpose = 0
    · simp only [ht, if_true]
      congr 1
      funext row g
      congr 1
      funext col g'
      exact congrArg _
        (simd_dot_proj g' a.value b.value b.rows a.columns col (fun i => i * a.rows + row))
    · simp only [ht, if_false]
      congr 1
      funext row g
      congr 1
      funext col g'
      exact congrArg _
        (simd_dot_proj g' a.value b.value b.rows a.rows col (fun i => row * a.rows + i))

theorem multiply_matrix_simd_hybrid_spec [Semiring α] (avx2 : Bool) (h : Nat → α)
    (a b x : matrix) (block_size : Nat)
    (hx : x.transpose = 0) (hxr : x.rows = get_num_rows a) (hxc : x.columns = get_num_columns b)
    (hb : b.transpose = 0) (hK : get_num_columns a = get_num_rows b)
    (hax : Apart a x) (hbx : Apart b x) :
    IsProduct h (multiply_matrix_simd_hybrid avx2 h a b x block_size) a b x := by
  rw [multiply_matrix_simd_hybrid_eq avx2 h a b x block_size hb]
  apply IsProduct_of_agree h _ _ a b x hK hax hbx
  · intro addr haddr
    exact (zero_fill_spec x.value (x.rows * x.columns) h).2 addr haddr
  · exact mulLoops_isProduct _ a b x b.rows hx hxr hxc hb rfl hK hax hbx

end SimdRoutine

section Blocked
variable {α : Type}

theorem forN_shift {σ : Type} (body : Nat → σ → σ) (lo n : Nat) (s : σ) :
    forN body lo n s = forN (fun i => body (lo + i)) 0 n s := by
  induction n generalizing body lo s with
  | zero => rfl
  | succ n ih =>
    rw [forN, forN, ih body (lo + 1), ih (fun i => body (lo + i)) (0 + 1)]
    simp only [Nat.add_zero, Nat.zero_add]
    have : (fun i => body (lo + 1 + i)) = (fun i => body (lo + (1 + i))) := by
      funext i
      rw [Nat.add_assoc]
    rw [this]

theorem min_int_eq (a b : Nat) : min_int a b = min a b := by
  unfold min_int
  split <;> omega

/-- Invariant rule for a strided loop with a positive step and enough fuel. -/
theorem forBlocks_inv {σ : Type} (P : Nat → σ → Prop) (body : Nat → σ → Option σ)
    (hi step : Nat) (hstep : 1 ≤ step)
    (hbody : ∀ i s, i < hi → P i s → ∃ s', body i s = some s' ∧ P (i + step) s') :
    ∀ fuel i s, hi ≤ i + fuel → P i s →
      ∃ s' i', forBlocks body hi step fuel i s = some s' ∧ hi ≤ i' ∧ P i' s' := by
  intro fuel
  induction fuel with
  | zero =>
    intro i s hf hP
    refine ⟨s, i, ?_, by omega, hP⟩
    simp [forBlocks]
    omega
  | succ fuel ih =>
    intro i s hf hP
    rw [forBlocks]
    by_cases hc : i < hi
    · obtain ⟨s', hs', hP'⟩ := hbody i s hc hP
      simp only [hc, if_true, hs', Option.bind]
      exact ih (i + step) s' (by omega) hP'
    · exact ⟨s, i, by simp [hc], by omega, hP⟩

theorem Accumulated_congr [Semiring α] (X xr R C : Nat) (f : Nat → Nat → Nat → α)
    (hz : Nat → α) (S S' : Nat → Nat → Nat) (g : Nat → α)
    (hS : ∀ row col, row < R → col < C → S' row col = S row col)
    (h : Accumulated X xr R C f hz S g) : Accumulated X xr R C f hz S' g :=
  ⟨fun row col hr hc => by rw [hS row col hr hc]; exact h.1 row col hr hc, h.2⟩

end Blocked

section BlockedProduct
variable {α : Type} [Semiring α]

/-- One block of the blocked product adds, into every result cell of the
block, the terms `kk .. k_end - 1` of its sum. -/
theorem cache_block_spec (A B X ldb xr R C K bs : Nat) (ia : Nat → Nat → Nat) (hz g : Nat → α)
    (ii jj kk : Nat) (hR : R ≤ xr) (hbs : 1 ≤ bs)
    (hA : ∀ i row, i < K → row < R → (A + ia i row < X ∨ X + xr * C ≤ A + ia i row))
    (hB : ∀ col i, col < C → i < K →
      (B + (col * ldb + i) < X ∨ X + xr * C ≤ B + (col * ldb + i)))
    (hkk : kk < K)
    (hg : Accumulated X xr R C (fun row col i => hz (A + ia i row) * hz (B + (col * ldb + i)))
      hz (blockProgress bs K ii jj kk) g) :
    Accumulated X xr R C (fun row col i => hz (A + ia i row) * hz (B + (col * ldb + i)))
      hz (blockProgress bs K ii jj (kk + bs))
      (forRange (fun row_a h =>
        forRange (fun column_b h =>
          let value_new := forRange (fun i value_new =>
            value_new + h (A + ia i row_a) * h (B + (column_b * ldb + i)))
            kk (min_int (kk + bs) K) 0
          Function.update h (X + (column_b * xr + row_a))
            (h (X + (column_b * xr + row_a)) + value_new))
          jj (min_int (jj + bs) C) h)
        ii (min_int (ii + bs) R) g) := by
  rw [min_int_eq, min_int_eq, min_int_eq]
  have hcellmem : ∀ row col, row < R → col < C →
      X ≤ X + (col * xr + row) ∧ X + (col * xr + row) < X + xr * C := by
    intro row col hr hc
    have := idx_lt (r := xr) (c := C) (i := row) (j := col) (by omega) hc
    omega
  unfold forRange
  rw [forN_shift]
  have hinner : ∀ (row : Nat),
      (fun (h : Nat → α) => forN (fun column_b h =>
          let value_new := forN (fun i value_new =>
            value_new + h (A + ia i row) * h (B + (column_b * ldb + i)))
            kk (min (kk + bs) K - kk) 0
          Function.update h (X + (column_b * xr + row))
            (h (X + (column_b * xr + row)) + value_new))
          jj (min (jj + bs) C - jj) h)
      = (fun (h : Nat → α) => forN (fun q h =>
          Function.update h (X + ((jj + q) * xr + row))
            (h (X + ((jj + q) * xr + row))
              + forN (fun i value_new =>
                  value_new + h (A + ia i row) * h (B + ((jj + q) * ldb + i)))
                kk (min (kk + bs) K - kk) 0))
          0 (min (jj + bs) C - jj) h) := by
    intro row
    funext h
    rw [forN_shift]
  simp only [hinner]
  have hfill := forN2_fill (fun p q => X + ((jj + q) * xr + (ii + p)))
    (fun h p q => h (X + ((jj + q) * xr + (ii + p)))
      + forN (fun i value_new =>
          value_new + h (A + ia i (ii + p)) * h (B + ((jj + q) * ldb + i)))
        kk (min (kk + bs) K - kk) 0)
    (min (ii + bs) R - ii) (min (jj + bs) C - jj) g
    (by
      intro p q p' q' hp hq hp' hq' he
      have := idx_inj (r := xr) (i := ii + p) (j := jj + q)
        (by omega) (by omega) (Nat.add_left_cancel he)
      omega)
    (by
      intro p q hp hq h hh
      beta_reduce at hh ⊢
      have hrow : ii + p < R := by omega
      have hcol : jj + q < C := by omega
      rw [forN_sum, forN_sum]
      congr 1
      · apply hh
        intro p' q' hp' hq' hlt he
        have := idx_inj (r := xr) (i := ii + p) (j := jj + q)
          (by omega) (by omega) (Nat.add_left_cancel he)
        omega
      · congr 1
        apply Finset.sum_congr rfl
        intro i hi
        have hiK : kk + i < K := by
          have := Finset.mem_range.mp hi
          omega
        rw [hh, hh]
        · intro p' q' hp' hq' _ he
          have := hcellmem (ii + p') (jj + q') (by omega) (by omega)
          have := hB (jj + q) (kk + i) hcol hiK
          omega
        · intro p' q' hp' hq' _ he
          have := hcellmem (ii + p') (jj + q') (by omega) (by omega)
          have := hA (kk + i) (ii + p) hiK hrow
          omega)
  beta_reduce at hfill
  refine ⟨?_, ?_⟩
  · intro row col hrow hcol
    by_cases hin : (ii ≤ row ∧ row < ii + bs) ∧ (jj ≤ col ∧ col < jj + bs)
    · obtain ⟨⟨h1, h2⟩, h3, h4⟩ := hin
      have hw := hfill.1 (row - ii) (col - jj) (by omega) (by omega)
      have e1 : ii + (row - ii) = row := by omega
      have e2 : jj + (col - jj) = col := by omega
      rw [e1, e2] at hw
      rw [hw, hg.1 row col hrow hcol, forN_sum, zero_add]
      have hprog : blockProgress bs K ii jj kk row col = kk := by
        unfold blockProgress
        simp only [show ¬ row < ii by omega, show row < ii + bs by omega,
          show ¬ col < jj by omega, show col < jj + bs by omega, if_true, if_false]
        omega
      have hprog' : blockProgress bs K ii jj (kk + bs) row col = min (kk + bs) K := by
        unfold blockProgress
        simp only [show ¬ row < ii by omega, show row < ii + bs by omega,
          show ¬ col < jj by omega, show col < jj + bs by omega, if_true, if_false]
      rw [hprog, hprog']
      have hsum : ∑ i in Finset.range (min (kk + bs) K - kk),
            g (A + ia (kk + i) row) * g (B + (col * ldb + (kk + i)))
          = ∑ i in Finset.Ico kk (min (kk + bs) K),
            hz (A + ia i row) * hz (B + (col * ldb + i)) := by
        rw [Finset.sum_Ico_eq_sum_range]
        apply Finset.sum_congr rfl
        intro i hi
        have hiK : kk + i < K := by
          have := Finset.mem_range.mp hi
          omega
        rw [hg.2 _ (hA (kk + i) row hiK hrow), hg.2 _ (hB col (kk + i) hcol hiK)]
      rw [hsum, Finset.sum_range_add_sum_Ico _ (by omega)]
    · rw [hfill.2]
      · rw [hg.1 row col hrow hcol]
        have : blockProgress bs K ii jj (kk + bs) row col = blockProgress bs K ii jj kk row col := by
          unfold blockProgress
          by_cases c1 : row < ii
          · simp [c1]
          · by_cases c2 : row < ii + bs
            · by_cases c3 : col < jj
              · simp [c1, c2, c3]
              · by_cases c4 : col < jj + bs
                · exact absurd ⟨⟨by omega, c2⟩, by omega, c4⟩ hin
                · simp [c1, c2, c3, c4]
            · simp [c1, c2]
        rw [this]
      · intro p q hp hq he
        have := idx_inj (r := xr) (i := row) (j := col)
          (by omega) (by omega) (Nat.add_left_cancel he)
        apply hin
        omega
  · intro addr haddr
    rw [hfill.2]
    · exact hg.2 addr haddr
    · intro p q hp hq he
      have := hcellmem (ii + p) (jj + q) (by omega) (by omega)
      omega

end BlockedProduct

section BlockedLoops
variable {α : Type} [Semiring α]

/-- The block loops terminate and complete every sum of the product. -/
theorem blockedLoops_spec (A B X ldb xr R C K bs : Nat) (ia : Nat → Nat → Nat) (hz : Nat → α)
    (hR : R ≤ xr) (hbs : 1 ≤ bs)
    (hA : ∀ i row, i < K → row < R → (A + ia i row < X ∨ X + xr * C ≤ A + ia i row))
    (hB : ∀ col i, col < C → i < K →
      (B + (col * ldb + i) < X ∨ X + xr * C ≤ B + (col * ldb + i)))
    (hzero : ∀ row col, row < R → col < C → hz (X + (col * xr + row)) = 0) :
    ∃ g, blockedLoops A B X ia ldb xr R C K bs hz = some g
      ∧ Accumulated X xr R C (fun row col i => hz (A + ia i row) * hz (B + (col * ldb + i)))
          hz (fun _ _ => K) g := by
  unfold blockedLoops
  have hloop := forBlocks_inv
    (fun ii s => Accumulated X xr R C
      (fun row col i => hz (A + ia i row) * hz (B + (col * ldb + i))) hz
      (blockProgress bs K ii 0 0) s)
    (fun ii h =>
      forBlocks (fun jj h =>
        forBlocks (fun kk h =>
          some (forRange (fun row_a h =>
            forRange (fun column_b h =>
              let value_new := forRange (fun i value_new =>
                value_new + h (A + ia i row_a) * h (B + (column_b * ldb + i)))
                kk (min_int (kk + bs) K) 0
              Function.update h (X + (column_b * xr + row_a))
                (h (X + (column_b * xr + row_a)) + value_new))
              jj (min_int (jj + bs) C) h)
            ii (min_int (ii + bs) R) h))
          K bs K 0 h)
        C bs C 0 h)
    R bs hbs
    (by
      intro ii s hii hs
      have hj := forBlocks_inv
        (fun jj s => Accumulated X xr R C
          (fun row col i => hz (A + ia i row) * hz (B + (col * ldb + i))) hz
          (blockProgress bs K ii jj 0) s)
        (fun jj h =>
          forBlocks (fun kk h =>
            some (forRange (fun row_a h =>
              forRange (fun column_b h =>
                let value_new := forRange (fun i value_new =>
                  value_new + h (A + ia i row_a) * h (B + (column_b * ldb + i)))
                  kk (min_int (kk + bs) K) 0
                Function.update h (X + (column_b * xr + row_a))
                  (h (X + (column_b * xr + row_a)) + value_new))
                jj (min_int (jj + bs) C) h)
              ii (min_int (ii + bs) R) h))
            K bs K 0 h)
        C bs hbs
        (by
          intro jj s hjj hs
          have hk := forBlocks_inv
            (fun kk s => Accumulated X xr R C
              (fun row col i => hz (A + ia i row) * hz (B + (col * ldb + i))) hz
              (blockProgress bs K ii jj kk) s)
            (fun kk h =>
              some (forRange (fun row_a h =>
                forRange (fun column_b h =>
                  let value_new := forRange (fun i value_new =>
                    value_new + h (A + ia i row_a) * h (B + (column_b * ldb + i)))
                    kk (min_int (kk + bs) K) 0
                  Function.update h (X + (column_b * xr + row_a))
                    (h (X + (column_b * xr + row_a)) + value_new))
                  jj (min_int (jj + bs) C) h)
                ii (min_int (ii + bs) R) h))
            K bs hbs
            (by
              intro kk s hkk hs
              exact ⟨_, rfl, cache_block_spec A B X ldb xr R C K bs ia hz s ii jj kk hR hbs
                hA hB hkk hs⟩)
            K 0 s (by omega) hs
          obtain ⟨s', kk', he, hkk', hs'⟩ := hk
          refine ⟨s', he, ?_⟩
          apply Accumulated_congr X xr R C _ hz _ _ s' ?_ hs'
          intro row col hrow hcol
          unfold blockProgress
          by_cases c1 : row < ii
          · simp [c1]
          · by_cases c2 : row < ii + bs
            · by_cases c3 : col < jj
              · simp [c1, c2, c3, show col < jj + bs by omega]
              · by_cases c4 : col < jj + bs
                · simp [c1, c2, c3, c4, hkk']
                · simp [c1, c2, c3, c4]
            · simp [c1, c2])
        C 0 s (by omega) hs
      obtain ⟨s', jj', he, hjj', hs'⟩ := hj
      refine ⟨s', he, ?_⟩
      apply Accumulated_congr X xr R C _ hz _ _ s' ?_ hs'
      intro row col hrow hcol
      unfold blockProgress
      by_cases c1 : row < ii
      · simp [c1, show row < ii + bs by omega]
      · by_cases c2 : row < ii + bs
        · simp [c1, c2, show col < jj' by omega]
        · simp [c1, c2])
    R 0 hz (by omega)
    (by
      refine ⟨?_, fun _ _ => rfl⟩
      intro row col hrow hcol
      rw [hzero row col hrow hcol]
      unfold blockProgress
      by_cases c2 : row < 0 + bs
      · by_cases c4 : col < 0 + bs
        · simp [c2, c4]
        · simp [c2, c4]
      · simp [c2])
  obtain ⟨g, ii', he, hii', hg⟩ := hloop
  refine ⟨g, he, ?_⟩
  apply Accumulated_congr X xr R C _ hz _ _ g ?_ hg
  intro row col hrow hcol
  unfold blockProgress
  simp [show row < ii' by omega]

theorem multiply_matrix_cache_hybrid_eq {β : Type} [Zero β] [Add β] [Mul β] (h : Nat → β)
    (a b x : matrix) (block_size : Nat) (hb : b.transpose = 0) :
    multiply_matrix_cache_hybrid h a b x block_size
      = blockedLoops a.value b.value x.value
          (fun i row => if a.transpose = 0 then i * a.rows + row else row * a.rows + i)
          b.rows x.rows (get_num_rows a) (get_num_columns b) (get_num_columns a) block_size
          (forN (fun i h => Function.update h (x.value + i) 0) 0 (x.rows * x.columns) h) := by
  unfold multiply_matrix_cache_hybrid blockedLoops get_num_rows get_num_columns
  by_cases ht : a.transpose = 0
  · simp only [ht, hb, if_true, ne_eq, not_true_eq_false, if_false]
  · simp only [ht, hb, if_true, ne_eq, not_false_eq_true, if_false, not_true_eq_false]

/-- The cache-blocked product returns, and its result is the product, for a
positive block size and an untransposed second operand. -/
theorem multiply_matrix_cache_hybrid_spec (h : Nat → α) (a b x : matrix) (block_size : Nat)
    (hbs : 1 ≤ block_size)
    (hx : x.transpose = 0) (hxr : x.rows = get_num_rows a) (hxc : x.columns = get_num_columns b)
    (hb : b.transpose = 0) (hK : get_num_columns a = get_num_rows b)
    (hax : Apart a x) (hbx : Apart b x) :
    ∃ h', multiply_matrix_cache_hybrid h a b x block_size = some h' ∧ IsProduct h h' a b x := by
  rw [multiply_matrix_cache_hybrid_eq h a b x block_size hb]
  have hbr : get_num_rows b = b.rows := by unfold get_num_rows; simp [hb]
  have hafter : after_matrix x = x.value + x.rows * x.columns := rfl
  have hbcell : ∀ col i, col < get_num_columns b → i < get_num_columns a →
      b.value + (col * b.rows + i) < after_matrix b
      ∧ b.value + (col * b.rows + i) = cell b i col := by
    intro col i hc hi
    have hi' : i < get_num_rows b := by omega
    have := cell_mem b hi' hc
    unfold cell at *
    simp only [hb, if_true] at this ⊢
    exact ⟨this.2, trivial⟩
  have hzf := zero_fill_spec x.value (x.rows * x.columns) h
  obtain ⟨g, he, hg⟩ := blockedLoops_spec a.value b.value x.value b.rows x.rows
    (get_num_rows a) (get_num_columns b) (get_num_columns a) block_size
    (fun i row => if a.transpose = 0 then i * a.rows + row else row * a.rows + i)
    (forN (fun i h => Function.update h (x.value + i) 0) 0 (x.rows * x.columns) h)
    (by omega) hbs
    (by
      intro i row hi hrow
      have := (first_operand_mem a hrow hi).1
      unfold Apart at hax
      rw [hafter, hxc] at hax
      beta_reduce
      omega)
    (by
      intro col i hc hi
      have := (hbcell col i hc hi).1
      unfold Apart at hbx
      rw [hafter, hxc] at hbx
      omega)
    (by
      intro row col hrow hcol
      apply hzf.1
      have := idx_lt (r := x.rows) (c := x.columns) (i := row) (j := col) (by omega) (by omega)
      exact this)
  refine ⟨g, he, ?_⟩
  apply IsProduct_of_agree h _ g a b x hK hax hbx
  · intro addr haddr
    exact hzf.2 addr haddr
  · refine ⟨?_, ?_⟩
    · intro row col hrow hcol
      have := hg.1 row col hrow hcol
      rw [get_matrix_element_eq]
      have hc : cell x row col = x.value + (col * x.rows + row) := by
        unfold cell; simp [hx]
      rw [hc, this]
      apply Finset.sum_congr rfl
      intro i hi
      have hi' := Finset.mem_range.mp hi
      beta_reduce
      rw [(first_operand_mem a hrow hi').2, (hbcell col i hcol hi').2, get_matrix_element_eq,
        get_matrix_element_eq]
    · intro addr haddr
      apply hg.2
      rw [hafter, hxc] at haddr
      exact haddr

end BlockedLoops

section Dispatch
variable {α : Type} [Field α]

theorem operand_cell (a : matrix) (i k : Nat) :
    a.value + (if decide (a.transpose ≠ 0) = true then i * a.rows + k else k * a.rows + i)
      = cell a i k := by
  unfold cell
  by_cases ht : a.transpose = 0
  · simp [ht]
  · simp [ht]

/-- The OpenBLAS back end returns the product, for either transpose flag of
either operand, when `cblas_dgemm` keeps to its contract. -/
theorem multiply_matrix_openblas_spec (cfg : Config α) (h : Nat → α) (a b x : matrix)
    (hd : DgemmContract cfg.cblas_dgemm)
    (hx : x.transpose = 0) (hxr : x.rows = get_num_rows a) (hxc : x.columns = get_num_columns b)
    (hK : get_num_columns a = get_num_rows b)
    (hax : Apart a x) (hbx : Apart b x) :
    ∃ h', multiply_matrix_openblas cfg h a b x = some h' ∧ IsProduct h h' a b x := by
  have hM : (if a.transpose ≠ 0 then a.columns else a.rows) = get_num_rows a := by
    unfold get_num_rows
    by_cases ht : a.transpose = 0 <;> simp [ht]
  have hKa : (if a.transpose ≠ 0 then a.rows else a.columns) = get_num_columns a := by
    unfold get_num_columns
    by_cases ht : a.transpose = 0 <;> simp [ht]
  have hN : (if b.transpose ≠ 0 then b.rows else b.columns) = get_num_columns b := by
    unfold get_num_columns
    by_cases ht : b.transpose = 0 <;> simp [ht]
  have hafter : after_matrix x = x.value + x.rows * x.columns := rfl
  unfold multiply_matrix_openblas
  simp only [hM, hKa, hN]
  rw [if_neg (by rw [hxr, hxc]; simp)]
  refine ⟨_, rfl, ?_⟩
  have hc := hd h (decide (a.transpose ≠ 0)) (decide (b.transpose ≠ 0)) (get_num_rows a)
    (get_num_columns b) (get_num_columns a) 1 a.value a.rows b.value b.rows 0 x.value x.rows
    (by omega)
    (by
      intro i k hi hk
      rw [operand_cell]
      have := cell_mem a hi hk
      unfold Apart after_matrix at hax
      rw [hxc] at hax
      omega)
    (by
      intro k j hk hj
      rw [operand_cell]
      have := cell_mem b (i := k) (j := j) (by omega) hj
      unfold Apart after_matrix at hbx
      rw [hxc] at hbx
      omega)
  refine ⟨?_, ?_⟩
  · intro row col hrow hcol
    rw [get_matrix_element_eq]
    have hcx : cell x row col = x.value + (col * x.rows + row) := by
      unfold cell; simp [hx]
    rw [hcx, hc.1 row col hrow hcol, one_mul, zero_mul, add_zero]
    apply Finset.sum_congr rfl
    intro i _
    rw [operand_cell, operand_cell, get_matrix_element_eq, get_matrix_element_eq]
  · intro addr haddr
    apply hc.2
    rw [hafter, hxc] at haddr
    exact haddr

/-- Every back end of the dispatcher returns the product when the settings
are valid and the second operand is not transposed. -/
theorem multiply_matrix_optimized_spec (cfg : Config α) (h : Nat → α) (a b x : matrix)
    (hcfg : cfg.valid)
    (hx : x.transpose = 0) (hxr : x.rows = get_num_rows a) (hxc : x.columns = get_num_columns b)
    (hb : b.transpose = 0) (hK : get_num_columns a = get_num_rows b)
    (hax : Apart a x) (hbx : Apart b x) :
    ∃ h', multiply_matrix_optimized cfg h a b x = some h' ∧ IsProduct h h' a b x := by
  obtain ⟨hm, hbs, hd, _⟩ := hcfg
  unfold multiply_matrix_optimized
  by_cases h0 : cfg.g_multiply_method = 0
  · rw [if_pos h0]
    refine ⟨_, rfl, ?_⟩
    rw [multiply_matrix_sequential_eq h a b x hb]
    exact mulLoops_isProduct h a b x b.rows hx hxr hxc hb rfl hK hax hbx
  · rw [if_neg h0]
    by_cases hdt : cfg.g_dgemm_type = 0
    · rw [if_pos hdt]
      by_cases h1 : cfg.g_multiply_method = 1
      · rw [if_pos h1]
        refine ⟨_, rfl, ?_⟩
        rw [multiply_matrix_openmp_hybrid_eq h a b x hb]
        exact mulLoops_isProduct h a b x b.rows hx hxr hxc hb rfl hK hax hbx
      · rw [if_neg h1]
        by_cases h2 : cfg.g_multiply_method = 2
        · rw [if_pos h2]
          exact multiply_matrix_cache_hybrid_spec h a b x cfg.g_block_size hbs hx hxr hxc hb hK
            hax hbx
        · rw [if_neg h2, if_pos (by omega)]
          exact ⟨_, rfl, multiply_matrix_simd_hybrid_spec cfg.avx2 h a b x cfg.g_block_size
            hx hxr hxc hb hK hax hbx⟩
    · rw [if_neg hdt]
      exact multiply_matrix_openblas_spec cfg h a b x (hd h0 hdt) hx hxr hxc hK hax hbx

end Dispatch

section Multiply
variable {α : Type} [Field α]

theorem get_num_rows_congr (a a' : matrix) (ht : a'.transpose = a.transpose)
    (hr : a'.rows = a.rows) (hc : a'.columns = a.columns) :
    get_num_rows a' = get_num_rows a := by
  unfold get_num_rows
  rw [ht, hr, hc]

theorem get_num_columns_congr (a a' : matrix) (ht : a'.transpose = a.transpose)
    (hr : a'.rows = a.rows) (hc : a'.columns = a.columns) :
    get_num_columns a' = get_num_columns a := by
  unfold get_num_columns
  rw [ht, hr, hc]

/-- `multiply_matrix` returns and stores the product of its operands as they
stand after the lazy inversion of the first one (`hi`, `ai`), for an
untransposed second operand whose invert flag is clear. The result header is
reset to an untransposed matrix of the logical size of the product. -/
theorem multiply_matrix_spec (cfg : Config α) (h hi : Nat → α) (a ai b x : matrix)
    (hcfg : cfg.valid)
    (hpre : (if a.invert = 1 then invert_this_matrix cfg h a else some (h, a)) = some (hi, ai))
    (hat : ai.transpose = a.transpose) (har : ai.rows = a.rows) (hac : ai.columns = a.columns)
    (hK : get_num_columns a = get_num_rows b)
    (hsize : get_num_rows a * get_num_columns b = get_num_rows x * get_num_columns x)
    (hxv : x.value ≠ 0) (hbi : b.invert ≠ 1) (hb : b.transpose = 0)
    (hax : Apart ai (product_header x (get_num_rows a) (get_num_columns b)))
    (hbx : Apart b (product_header x (get_num_rows a) (get_num_columns b))) :
    ∃ h', multiply_matrix cfg h a b x
        = some (h', ai, b, (product_header x (get_num_rows a) (get_num_columns b)))
      ∧ IsProduct hi h' ai b (product_header x (get_num_rows a) (get_num_columns b)) := by
  have hrows := get_num_rows_congr a ai hat har hac
  have hcols := get_num_columns_congr a ai hat har hac
  have hph : product_header x (get_num_rows a) (get_num_columns b)
      = { transpose := 0, invert := 0, rows := get_num_rows a, columns := get_num_columns b,
          value := x.value } := rfl
  rw [hph] at hax hbx ⊢
  unfold multiply_matrix
  simp only [ne_eq, hK, not_true_eq_false, if_false, hsize, if_neg hxv, hpre, Option.some_bind,
    if_neg hbi]
  by_cases hbig : get_num_rows a > 1 ∧ get_num_columns b > 1
  · rw [if_pos hbig]
    obtain ⟨h', he, hp⟩ := multiply_matrix_optimized_spec cfg hi ai b
      { transpose := 0, invert := 0, rows := get_num_rows a, columns := get_num_columns b,
        value := x.value } hcfg rfl hrows.symm rfl hb (by rw [hcols, hK]) hax hbx
    refine ⟨h', ?_, hp⟩
    rw [he]
    rfl
  · rw [if_neg hbig]
    have hp := mulLoops_isProduct hi ai b
      { transpose := 0, invert := 0, rows := get_num_rows a, columns := get_num_columns b,
        value := x.value } (get_num_rows b) rfl hrows.symm rfl hb
      (by unfold get_num_rows; simp [hb]) (by rw [hcols, hK]) hax hbx
    by_cases ht : ai.transpose = 0
    · rw [if_pos ht]
      refine ⟨_, rfl, ?_⟩
      unfold mulLoops at hp
      simp only [ht, if_true, hrows, hcols, hK] at hp
      exact hp
    · rw [if_neg ht]
      refine ⟨_, rfl, ?_⟩
      unfold mulLoops at hp
      simp only [ht, if_false, hrows, hcols, hK] at hp
      exact hp

end Multiply

section Frames
variable {α : Type}

theorem Within.refl (lo hi : Nat) (h : Nat → α) : Within lo hi h h := fun _ _ => rfl

theorem Within.trans {lo hi : Nat} {h g k : Nat → α} (h1 : Within lo hi h g)
    (h2 : Within lo hi g k) : Within lo hi h k :=
  fun addr ha => (h2 addr ha).trans (h1 addr ha)

theorem Within.mono {lo hi lo' hi' : Nat} {h g : Nat → α} (h1 : Within lo hi h g)
    (hlo : lo' ≤ lo) (hhi : hi ≤ hi') : Within lo' hi' h g :=
  fun addr ha => h1 addr (by omega)

/-- Total-correctness rule for a loop whose body may end the program. -/
theorem forNM_total {σ : Type} (P : Nat → σ → Prop) (body : Nat → σ → Option σ) (lo n : Nat)
    (s : σ) (h0 : P lo s)
    (hstep : ∀ i s, lo ≤ i → i < lo + n → P i s → ∃ s', body i s = some s' ∧ P (i + 1) s') :
    ∃ s', forNM body lo n s = some s' ∧ P (lo + n) s' := by
  induction n generalizing lo s with
  | zero => exact ⟨s, rfl, h0⟩
  | succ n ih =>
    obtain ⟨s1, he1, hp1⟩ := hstep lo s (Nat.le_refl lo) (by omega) h0
    obtain ⟨s2, he2, hp2⟩ := ih (lo + 1) s1 hp1
      (fun i s hi1 hi2 hp => hstep i s (by omega) (by omega) hp)
    refine ⟨s2, ?_, ?_⟩
    · rw [forNM, he1]
      exact he2
    · have : lo + (n + 1) = lo + 1 + n := by omega
      rw [this]
      exact hp2

theorem points_before_succ (paths : Nat → path α) (b : boundary) (j : Nat) :
    points_before paths b (j + 1) = points_before paths b j + (paths (b.loop j)).points := by
  unfold points_before
  rw [forN_succ, Nat.zero_add]

theorem points_before_mono (paths : Nat → path α) (b : boundary) {j k : Nat} (hjk : j ≤ k) :
    points_before paths b j ≤ points_before paths b k := by
  induction k with
  | zero =>
    have : j = 0 := by omega
    rw [this]
  | succ k ih =>
    by_cases hj : j = k + 1
    · rw [hj]
    · have := ih (by omega)
      rw [points_before_succ]
      omega

theorem points_before_le (paths : Nat → path α) (b : boundary) {j : Nat}
    (hj : j < b.components) :
    points_before paths b j + (paths (b.loop j)).points ≤ num_boundary_points paths b := by
  rw [← points_before_succ]
  exact points_before_mono paths b (by omega)

theorem get_path_xy_closed (p : path α) (i : Int) (hc : p.close ≠ 0)
    (hxy : p.xy.isSome = true) (hi : 0 ≤ i) : ∃ c, get_path_xy p i = some c := by
  obtain ⟨f, hf⟩ := Option.isSome_iff_exists.mp hxy
  unfold get_path_xy check_path_index
  simp only [hf, if_neg hc, if_neg (not_lt.mpr hi)]
  by_cases hr : p.reverse = 0
  · exact ⟨f (i % (p.points : Int)).toNat, by simp [hr, bind, pure]⟩
  · exact ⟨f ((p.points : Int) - 1 - i % (p.points : Int)).toNat, by simp [hr, bind, pure]⟩

theorem put_block_within (h : Nat → α) (x : matrix) (oi oj i j : Nat) (v : α)
    (hi : oi + i < get_num_rows x) (hj : oj + j < get_num_columns x) :
    Within x.value (after_matrix x) h (put_block_matrix_element h x oi oj i j v) := by
  intro addr haddr
  have hm := cell_mem x hi hj
  have hput : put_block_matrix_element h x oi oj i j v
      = Function.update h (cell x (oi + i) (oj + j)) v := by
    unfold put_block_matrix_element cell
    split <;> rfl
  rw [hput, Function.update_noteq]
  unfold after_matrix at haddr
  omega

end Frames

section CurrentMatrixFrame
variable {α : Type} [Field α]

theorem cgm_sample_within (m : LibM α) (t : Terms α) (cgm : matrix) (oi oj : Nat)
    (Qa Qb : coordinates α) (onS : Bool) (Px : coordinates α) (i j : Nat) (h : Nat → α)
    (hi : oi + i < get_num_rows cgm) (hj : oj + (j + 3) < get_num_columns cgm) :
    Within cgm.value (after_matrix cgm) h (cgm_sample m t cgm oi oj Qa Qb onS Px i j h) := by
  unfold cgm_sample
  simp only []
  exact (((put_block_within _ cgm oi oj i j _ hi (by omega)).trans
    (put_block_within _ cgm oi oj i (j + 1) _ hi (by omega))).trans
    (put_block_within _ cgm oi oj i (j + 2) _ hi (by omega))).trans
    (put_block_within _ cgm oi oj i (j + 3) _ hi hj)

theorem cgm_five_within (m : LibM α) (t : Terms α) (cgm : matrix) (oi oj : Nat)
    (Qa Qb : coordinates α) (s0 s1 s2 s3 s4 : Bool) (P0 P1 P2 P3 P4 : coordinates α)
    (i j : Nat) (h : Nat → α)
    (hi : oi + (i + 4) < get_num_rows cgm) (hj : oj + (j + 3) < get_num_columns cgm) :
    Within cgm.value (after_matrix cgm) h
      (cgm_sample m t cgm oi oj Qa Qb s4 P4 (i + 4) j
        (cgm_sample m t cgm oi oj Qa Qb s3 P3 (i + 3) j
          (cgm_sample m t cgm oi oj Qa Qb s2 P2 (i + 2) j
            (cgm_sample m t cgm oi oj Qa Qb s1 P1 (i + 1) j
              (cgm_sample m t cgm oi oj Qa Qb s0 P0 i j h))))) :=
  ((((cgm_sample_within m t cgm oi oj Qa Qb s0 P0 i j h (by omega) hj).trans
    (cgm_sample_within m t cgm oi oj Qa Qb s1 P1 (i + 1) j _ (by omega) hj)).trans
    (cgm_sample_within m t cgm oi oj Qa Qb s2 P2 (i + 2) j _ (by omega) hj)).trans
    (cgm_sample_within m t cgm oi oj Qa Qb s3 P3 (i + 3) j _ (by omega) hj)).trans
    (cgm_sample_within m t cgm oi oj Qa Qb s4 P4 (i + 4) j _ hi hj)

/-- `fill_current_geometry_matrix` returns and writes inside the matrix when
its block lies inside and the two paths are closed with coordinates. -/
theorem fill_current_geometry_matrix_total (m : LibM α) (t : Terms α) (paths : Nat → path α)
    (offset_i offset_j path_i path_j : Nat) (cgm : matrix) (h : Nat → α)
    (hci : (paths path_i).close ≠ 0) (hxi : (paths path_i).xy.isSome = true)
    (hcj : (paths path_j).close ≠ 0) (hxj : (paths path_j).xy.isSome = true)
    (hrow : (offset_i + (paths path_i).points) * 5 ≤ get_num_rows cgm)
    (hcol : (offset_j + (paths path_j).points) * 4 ≤ get_num_columns cgm) :
    ∃ h', fill_current_geometry_matrix m t paths offset_i offset_j path_i path_j cgm h = some h'
      ∧ Within cgm.value (after_matrix cgm) h h' := by
  unfold fill_current_geometry_matrix
  simp only []
  refine forNM_total (fun _ g => Within cgm.value (after_matrix cgm) h g)
    _ 0 (paths path_j).points h (Within.refl _ _ h) ?_
  · intro segment_j g _ hsj hg
    obtain ⟨Qa, hQa⟩ := get_path_xy_closed (paths path_j) (segment_j : Int) hcj hxj (by omega)
    obtain ⟨Qb, hQb⟩ := get_path_xy_closed (paths path_j) ((segment_j : Int) + 1) hcj hxj
      (by omega)
    simp only [hQa, hQb, Option.bind_eq_bind, Option.some_bind]
    refine forNM_total (fun _ g' => Within cgm.value (after_matrix cgm) h g')
      _ 0 (paths path_i).points g hg ?_
    · intro segment_i g' _ hsi hg'
      obtain ⟨Pa, hPa⟩ := get_path_xy_closed (paths path_i) (segment_i : Int) hci hxi (by omega)
      obtain ⟨Pf, hPf⟩ := get_path_xy_closed (paths path_i) ((segment_i : Int) + 1) hci hxi
        (by omega)
      simp only [hPa, hPf, Option.bind_eq_bind, Option.some_bind]
      have hi : offset_i * 5 + (segment_i * 5 + 4) < get_num_rows cgm := by omega
      have hj : offset_j * 4 + (segment_j * 4 + 3) < get_num_columns cgm := by omega
      split
      · exact ⟨_, rfl, hg'.trans (cgm_five_within m t cgm _ _ Qa Qb _ _ _ _ _ _ _ _ _ _ _ _ _
          hi hj)⟩
      · split
        · exact ⟨_, rfl, hg'.trans (cgm_five_within m t cgm _ _ Qa Qb _ _ _ _ _ _ _ _ _ _ _ _ _
            hi hj)⟩
        · split
          · exact ⟨_, rfl, hg'.trans (cgm_five_within m t cgm _ _ Qa Qb _ _ _ _ _ _ _ _ _ _ _ _ _
              hi hj)⟩
          · exact ⟨_, rfl, hg'.trans (cgm_five_within m t cgm _ _ Qa Qb _ _ _ _ _ _ _ _ _ _ _ _ _
              hi hj)⟩

end CurrentMatrixFrame
section CurrentMatrixTotal
variable {α : Type} [Field α]

/-- `make_current_geometry_matrix` returns and writes inside the matrix when
the matrix has room for `5 N` rows and `4 N` columns. -/
theorem make_current_geometry_matrix_total (m : LibM α) (t : Terms α) (paths : Nat → path α)
    (b : boundary) (cgm : matrix) (h : Nat → α) (hz : ZonePaths paths b)
    (hrows : num_boundary_points paths b * 5 ≤ get_num_rows cgm)
    (hcols : num_boundary_points paths b * 4 ≤ get_num_columns cgm) :
    ∃ h', make_current_geometry_matrix m t paths b cgm h = some h'
      ∧ Within cgm.value (after_matrix cgm) h h' := by
  unfold make_current_geometry_matrix
  have outer := forNM_total
    (fun j (st : (Nat → α) × Nat) =>
      Within cgm.value (after_matrix cgm) h st.1 ∧ st.2 = points_before paths b j)
    (fun j (st : (Nat → α) × Nat) => do
      let path_j := b.loop j
      let (h, _) ← forNM (fun i (st' : (Nat → α) × Nat) => do
        let path_i := b.loop i
        let h ← fill_current_geometry_matrix m t paths st'.2 st.2 path_i path_j cgm st'.1
        pure (h, st'.2 + (paths (b.loop i)).points)) 0 b.components (st.1, 0)
      pure (h, st.2 + (paths (b.loop j)).points))
    0 b.components (h, 0) ⟨Within.refl _ _ h, rfl⟩
    (by
      intro j st _ hj ⟨hw, ho⟩
      have inner := forNM_total
        (fun i (st' : (Nat → α) × Nat) =>
          Within cgm.value (after_matrix cgm) h st'.1 ∧ st'.2 = points_before paths b i)
        (fun i (st' : (Nat → α) × Nat) => do
          let path_i := b.loop i
          let h ← fill_current_geometry_matrix m t paths st'.2 st.2 path_i (b.loop j) cgm st'.1
          pure (h, st'.2 + (paths (b.loop i)).points))
        0 b.components (st.1, 0) ⟨hw, rfl⟩
        (by
          intro i st' _ hi ⟨hw', ho'⟩
          have hbi := points_before_le paths b (j := i) (by omega)
          have hbj := points_before_le paths b (j := j) (by omega)
          obtain ⟨g, hg, hgw⟩ := fill_current_geometry_matrix_total m t paths st'.2 st.2
            (b.loop i) (b.loop j) cgm st'.1 (hz i (by omega)).1 (hz i (by omega)).2
            (hz j (by omega)).1 (hz j (by omega)).2 (by rw [ho']; omega) (by rw [ho]; omega)
          refine ⟨(g, st'.2 + (paths (b.loop i)).points), ?_, hw'.trans hgw, ?_⟩
          · simp only [hg, Option.bind_eq_bind, Option.some_bind]
            rfl
          · show st'.2 + (paths (b.loop i)).points = _
            rw [points_before_succ, ho'])
      obtain ⟨st1, he1, hw1, _⟩ := inner
      refine ⟨(st1.1, st.2 + (paths (b.loop j)).points), ?_, hw1, ?_⟩
      · simp only [Option.bind_eq_bind] at he1 ⊢
        rw [he1]
        rfl
      · show st.2 + (paths (b.loop j)).points = _
        rw [points_before_succ, ho])
  obtain ⟨st, he, hw, _⟩ := outer
  refine ⟨st.1, ?_, hw⟩
  simp only [Option.bind_eq_bind] at he ⊢
  rw [he]
  rfl

end CurrentMatrixTotal

section VoltageMatrixFrame
variable {α : Type} [Field α]

theorem vgm_sample_within (m : LibM α) (t : Terms α) (vgm : matrix) (oi oj : Nat)
    (Qa Qb : coordinates α) (onS : Bool) (Px : coordinates α) (i j : Nat) (h : Nat → α)
    (hi : oi + i < get_num_rows vgm) (hj : oj + (j + 1) < get_num_columns vgm) :
    Within vgm.value (after_matrix vgm) h (vgm_sample m t vgm oi oj Qa Qb onS Px i j h) := by
  unfold vgm_sample
  simp only []
  exact (put_block_within _ vgm oi oj i j _ hi (by omega)).trans
    (put_block_within _ vgm oi oj i (j + 1) _ hi hj)

theorem vgm_five_within (m : LibM α) (t : Terms α) (vgm : matrix) (oi oj : Nat)
    (Qa Qb : coordinates α) (s0 s1 s2 s3 s4 : Bool) (P0 P1 P2 P3 P4 : coordinates α)
    (i j : Nat) (h : Nat → α)
    (hi : oi + (i + 4) < get_num_rows vgm) (hj : oj + (j + 1) < get_num_columns vgm) :
    Within vgm.value (after_matrix vgm) h
      (vgm_sample m t vgm oi oj Qa Qb s4 P4 (i + 4) j
        (vgm_sample m t vgm oi oj Qa Qb s3 P3 (i + 3) j
          (vgm_sample m t vgm oi oj Qa Qb s2 P2 (i + 2) j
            (vgm_sample m t vgm oi oj Qa Qb s1 P1 (i + 1) j
              (vgm_sample m t vgm oi oj Qa Qb s0 P0 i j h))))) :=
  ((((vgm_sample_within m t vgm oi oj Qa Qb s0 P0 i j h (by omega) hj).trans
    (vgm_sample_within m t vgm oi oj Qa Qb s1 P1 (i + 1) j _ (by omega) hj)).trans
    (vgm_sample_within m t vgm oi oj Qa Qb s2 P2 (i + 2) j _ (by omega) hj)).trans
    (vgm_sample_within m t vgm oi oj Qa Qb s3 P3 (i + 3) j _ (by omega) hj)).trans
    (vgm_sample_within m t vgm oi oj Qa Qb s4 P4 (i + 4) j _ hi hj)

/-- `fill_voltage_geometry_matrix` returns and writes inside the matrix when
its block lies inside and the two paths are closed with coordinates. -/
theorem fill_voltage_geometry_matrix_total (m : LibM α) (t : Terms α) (paths : Nat → path α)
    (offset_i offset_j path_i path_j : Nat) (vgm : matrix) (h : Nat → α)
    (hci : (paths path_i).close ≠ 0) (hxi : (paths path_i).xy.isSome = true)
    (hcj : (paths path_j).close ≠ 0) (hxj : (paths path_j).xy.isSome = true)
    (hrow : (offset_i + (paths path_i).points) * 5 ≤ get_num_rows vgm)
    (hcol : (offset_j + (paths path_j).points) * 2 ≤ get_num_columns vgm) :
    ∃ h', fill_voltage_geometry_matrix m t paths offset_i offset_j path_i path_j vgm h = some h'
      ∧ Within vgm.value (after_matrix vgm) h h' := by
  unfold fill_voltage_geometry_matrix
  simp only []
  refine forNM_total (fun _ g => Within vgm.value (after_matrix vgm) h g)
    _ 0 (paths path_j).points h (Within.refl _ _ h) ?_
  · intro segment_j g _ hsj hg
    obtain ⟨Qa, hQa⟩ := get_path_xy_closed (paths path_j) (segment_j : Int) hcj hxj (by omega)
    obtain ⟨Qb, hQb⟩ := get_path_xy_closed (paths path_j) ((segment_j : Int) + 1) hcj hxj
      (by omega)
    simp only [hQa, hQb, Option.bind_eq_bind, Option.some_bind]
    refine forNM_total (fun _ g' => Within vgm.value (after_matrix vgm) h g')
      _ 0 (paths path_i).points g hg ?_
    · intro segment_i g' _ hsi hg'
      obtain ⟨Pa, hPa⟩ := get_path_xy_closed (paths path_i) (segment_i : Int) hci hxi (by omega)
      obtain ⟨Pf, hPf⟩ := get_path_xy_closed (paths path_i) ((segment_i : Int) + 1) hci hxi
        (by omega)
      simp only [hPa, hPf, Option.bind_eq_bind, Option.some_bind]
      have hi : offset_i * 5 + (segment_i * 5 + 4) < get_num_rows vgm := by omega
      have hj : offset_j * 2 + (segment_j * 2 + 1) < get_num_columns vgm := by omega
      split
      · exact ⟨_, rfl, hg'.trans (vgm_five_within m t vgm _ _ Qa Qb _ _ _ _ _ _ _ _ _ _ _ _ _
          hi hj)⟩
      · split
        · exact ⟨_, rfl, hg'.trans (vgm_five_within m t vgm _ _ Qa Qb _ _ _ _ _ _ _ _ _ _ _ _ _
            hi hj)⟩
        · split
          · exact ⟨_, rfl, hg'.trans (vgm_five_within m t vgm _ _ Qa Qb _ _ _ _ _ _ _ _ _ _ _ _ _
              hi hj)⟩
          · exact ⟨_, rfl, hg'.trans (vgm_five_within m t vgm _ _ Qa Qb _ _ _ _ _ _ _ _ _ _ _ _ _
              hi hj)⟩

/-- `make_voltage_geometry_matrix` returns and writes inside the matrix when
the matrix has room for `5 N` rows and `2 N` columns. -/
theorem make_voltage_geometry_matrix_total (m : LibM α) (t : Terms α) (paths : Nat → path α)
    (b : boundary) (vgm : matrix) (h : Nat → α) (hz : ZonePaths paths b)
    (hrows : num_boundary_points paths b * 5 ≤ get_num_rows vgm)
    (hcols : num_boundary_points paths b * 2 ≤ get_num_columns vgm) :
    ∃ h', make_voltage_geometry_matrix m t paths b vgm h = some h'
      ∧ Within vgm.value (after_matrix vgm) h h' := by
  unfold make_voltage_geometry_matrix
  have outer := forNM_total
    (fun j (st : (Nat → α) × Nat) =>
      Within vgm.value (after_matrix vgm) h st.1 ∧ st.2 = points_before paths b j)
    (fun j (st : (Nat → α) × Nat) => do
      let path_j := b.loop j
      let (h, _) ← forNM (fun i (st' : (Nat → α) × Nat) => do
        let path_i := b.loop i
        let h ← fill_voltage_geometry_matrix m t paths st'.2 st.2 path_i path_j vgm st'.1
        pure (h, st'.2 + (paths (b.loop i)).points)) 0 b.components (st.1, 0)
      pure (h, st.2 + (paths (b.loop j)).points))
    0 b.components (h, 0) ⟨Within.refl _ _ h, rfl⟩
    (by
      intro j st _ hj ⟨hw, ho⟩
      have inner := forNM_total
        (fun i (st' : (Nat → α) × Nat) =>
          Within vgm.value (after_matrix vgm) h st'.1 ∧ st'.2 = points_before paths b i)
        (fun i (st' : (Nat → α) × Nat) => do
          let path_i := b.loop i
          let h ← fill_voltage_geometry_matrix m t paths st'.2 st.2 path_i (b.loop j) vgm st'.1
          pure (h, st'.2 + (paths (b.loop i)).points))
        0 b.components (st.1, 0) ⟨hw, rfl⟩
        (by
          intro i st' _ hi ⟨hw', ho'⟩
          have hbi := points_before_le paths b (j := i) (by omega)
          have hbj := points_before_le paths b (j := j) (by omega)
          obtain ⟨g, hg, hgw⟩ := fill_voltage_geometry_matrix_total m t paths st'.2 st.2
            (b.loop i) (b.loop j) vgm st'.1 (hz i (by omega)).1 (hz i (by omega)).2
            (hz j (by omega)).1 (hz j (by omega)).2 (by rw [ho']; omega) (by rw [ho]; omega)
          refine ⟨(g, st'.2 + (paths (b.loop i)).points), ?_, hw'.trans hgw, ?_⟩
          · simp only [hg, Option.bind_eq_bind, Option.some_bind]
            rfl
          · show st'.2 + (paths (b.loop i)).points = _
            rw [points_before_succ, ho'])
      obtain ⟨st1, he1, hw1, _⟩ := inner
      refine ⟨(st1.1, st.2 + (paths (b.loop j)).points), ?_, hw1, ?_⟩
      · simp only [Option.bind_eq_bind] at he1 ⊢
        rw [he1]
        rfl
      · show st.2 + (paths (b.loop j)).points = _
        rw [points_before_succ, ho])
  obtain ⟨st, he, hw, _⟩ := outer
  refine ⟨st.1, ?_, hw⟩
  simp only [Option.bind_eq_bind] at he ⊢
  rw [he]
  rfl

end VoltageMatrixFrame

section KclVectorFrame
variable {α : Type} [Field α]

/-- `fill_kcl_geometry_vector` returns and writes inside the vector. -/
theorem fill_kcl_geometry_vector_total (m : LibM α) (paths : Nat → path α)
    (offset_j path_j : Nat) (kcl : matrix) (h : Nat → α)
    (hcj : (paths path_j).close ≠ 0) (hxj : (paths path_j).xy.isSome = true)
    (hrow : 0 < get_num_rows kcl)
    (hcol : (offset_j + (paths path_j).points) * 4 ≤ get_num_columns kcl) :
    ∃ h', fill_kcl_geometry_vector m paths offset_j path_j kcl h = some h'
      ∧ Within kcl.value (after_matrix kcl) h h' := by
  unfold fill_kcl_geometry_vector
  simp only []
  refine forNM_total (fun _ g => Within kcl.value (after_matrix kcl) h g)
    _ 0 (paths path_j).points h (Within.refl _ _ h) ?_
  intro segment_j g _ hsj hg
  obtain ⟨Qa, hQa⟩ := get_path_xy_closed (paths path_j) (segment_j : Int) hcj hxj (by omega)
  obtain ⟨Qb, hQb⟩ := get_path_xy_closed (paths path_j) ((segment_j : Int) + 1) hcj hxj
    (by omega)
  simp only [hQa, hQb, Option.bind_eq_bind, Option.some_bind]
  refine ⟨_, rfl, ?_⟩
  exact hg.trans ((((put_block_within _ kcl 0 _ 0 _ _ (by omega) (by omega)).trans
    (put_block_within _ kcl 0 _ 0 _ _ (by omega) (by omega))).trans
    (put_block_within _ kcl 0 _ 0 _ _ (by omega) (by omega))).trans
    (put_block_within _ kcl 0 _ 0 _ _ (by omega) (by omega)))

/-- `make_kcl_geometry_vector` returns and writes inside the vector when the
vector has room for `4 N` columns. -/
theorem make_kcl_geometry_vector_total (m : LibM α) (paths : Nat → path α)
    (b : boundary) (kcl : matrix) (h : Nat → α) (hz : ZonePaths paths b)
    (hrow : 0 < get_num_rows kcl)
    (hcols : num_boundary_points paths b * 4 ≤ get_num_columns kcl) :
    ∃ h', make_kcl_geometry_vector m paths b kcl h = some h'
      ∧ Within kcl.value (after_matrix kcl) h h' := by
  unfold make_kcl_geometry_vector
  have outer := forNM_total
    (fun j (st : (Nat → α) × Nat) =>
      Within kcl.value (after_matrix kcl) h st.1 ∧ st.2 = points_before paths b j)
    (fun j (st : (Nat → α) × Nat) => do
      let path_j := b.loop j
      let h ← fill_kcl_geometry_vector m paths st.2 path_j kcl st.1
      pure (h, st.2 + (paths (b.loop j)).points))
    0 b.components (h, 0) ⟨Within.refl _ _ h, rfl⟩
    (by
      intro j st _ hj ⟨hw, ho⟩
      have hbj := points_before_le paths b (j := j) (by omega)
      obtain ⟨g, hg, hgw⟩ := fill_kcl_geometry_vector_total m paths st.2 (b.loop j) kcl st.1
        (hz j (by omega)).1 (hz j (by omega)).2 hrow (by rw [ho]; omega)
      refine ⟨(g, st.2 + (paths (b.loop j)).points), ?_, hw.trans hgw, ?_⟩
      · simp only [hg, Option.bind_eq_bind, Option.some_bind]
        rfl
      · show st.2 + (paths (b.loop j)).points = _
        rw [points_before_succ, ho])
  obtain ⟨st, he, hw, _⟩ := outer
  refine ⟨st.1, ?_, hw⟩
  simp only [Option.bind_eq_bind] at he ⊢
  rw [he]
  rfl

end KclVectorFrame

section DiagonalMatrixFrame
variable {α : Type}

theorem dm_zero_block_within [Field α] (dm : matrix) (oi oj i j : Nat) (h : Nat → α)
    (hi : oi + (i + 4) < get_num_rows dm) (hj : oj + (j + 1) < get_num_columns dm) :
    Within dm.value (after_matrix dm) h (dm_zero_block dm oi oj i j h) := by
  unfold dm_zero_block
  simp only []
  iterate 9 refine Within.trans ?_ (put_block_within _ dm _ _ _ _ _ (by omega) (by omega))
  exact put_block_within _ dm _ _ _ _ _ (by omega) (by omega)

theorem zero_blocks_within [Field α] (dm : matrix) (oi oj j lo hi n : Nat) (h : Nat → α)
    (hn : hi ≤ n) (hrow : oi + n * 5 ≤ get_num_rows dm)
    (hj : oj + (j + 1) < get_num_columns dm) :
    Within dm.value (after_matrix dm) h
      (forRange (fun segment_i h => dm_zero_block dm oi oj (segment_i * 5) j h) lo hi h) := by
  unfold forRange
  refine forN_inv (fun _ g => Within dm.value (after_matrix dm) h g) _ lo (hi - lo) h
    (Within.refl _ _ h) ?_
  intro t ht g hg
  exact hg.trans (dm_zero_block_within dm oi oj _ j g (by omega) hj)

/-- `fill_diagonal_matrix` returns and writes inside the matrix. -/
theorem fill_diagonal_matrix_total [LinearOrderedField α] (m : LibM α) (paths : Nat → path α)
    (offset_i offset_j path_i path_j : Nat) (dm : matrix) (h : Nat → α)
    (hci : (paths path_i).close ≠ 0) (hxi : (paths path_i).xy.isSome = true)
    (hp : (paths path_j).points ≤ (paths path_i).points)
    (hrow : (offset_i + (paths path_i).points) * 5 ≤ get_num_rows dm)
    (hcol : (offset_j + (paths path_j).points) * 2 ≤ get_num_columns dm) :
    ∃ h', fill_diagonal_matrix m paths offset_i offset_j path_i path_j dm h = some h'
      ∧ Within dm.value (after_matrix dm) h h' := by
  unfold fill_diagonal_matrix
  simp only []
  refine forNM_total (fun _ g => Within dm.value (after_matrix dm) h g)
    _ 0 (paths path_j).points h (Within.refl _ _ h) ?_
  intro segment_j g _ hsj hg
  obtain ⟨a, ha⟩ := get_path_xy_closed (paths path_i)
    ((segment_j : Int) - 1 + (paths path_i).points) hci hxi (by omega)
  obtain ⟨b, hb⟩ := get_path_xy_closed (paths path_i) (segment_j : Int) hci hxi (by omega)
  obtain ⟨c, hc⟩ := get_path_xy_closed (paths path_i) ((segment_j : Int) + 1) hci hxi
    (by omega)
  simp only [ha, hb, hc, Option.bind_eq_bind, Option.some_bind, p2c_2basis]
  refine ⟨_, rfl, ?_⟩
  have hj : offset_j * 2 + (segment_j * 2 + 1) < get_num_columns dm := by omega
  refine hg.trans ?_
  refine Within.trans ?_ (zero_blocks_within dm _ _ _ _ _ (paths path_i).points _
    (Nat.le_refl _) (by omega) hj)
  iterate 10 refine Within.trans ?_ (put_block_within _ dm _ _ _ _ _ (by omega) (by omega))
  exact zero_blocks_within dm _ _ _ _ _ (paths path_i).points _ (by omega) (by omega) hj

/-- `empty_diagonal_matrix` writes inside the matrix. -/
theorem empty_diagonal_matrix_within [Field α] (paths : Nat → path α)
    (offset_i offset_j path_i path_j : Nat) (dm : matrix) (h : Nat → α)
    (hrow : (offset_i + (paths path_i).points) * 5 ≤ get_num_rows dm)
    (hcol : (offset_j + (paths path_j).points) * 2 ≤ get_num_columns dm) :
    Within dm.value (after_matrix dm) h
      (empty_diagonal_matrix paths offset_i offset_j path_i path_j dm h) := by
  unfold empty_diagonal_matrix
  simp only []
  refine forN_inv (fun _ g => Within dm.value (after_matrix dm) h g) _ 0 _ h
    (Within.refl _ _ h) ?_
  intro sj hsj g hg
  refine hg.trans ?_
  refine forN_inv (fun _ g' => Within dm.value (after_matrix dm) g g') _ 0 _ g
    (Within.refl _ _ g) ?_
  intro si hsi g' hg'
  exact hg'.trans (dm_zero_block_within dm _ _ _ _ g' (by omega) (by omega))

end DiagonalMatrixFrame
section DiagonalMatrixTotal
variable {α : Type}

theorem empty_blocks_within [Field α] (paths : Nat → path α) (b : boundary) (dm : matrix)
    (offset_j path_j lo hi : Nat) (g : Nat → α) (hlo : lo ≤ hi) (hhi : hi ≤ b.components)
    (hrows : num_boundary_points paths b * 5 ≤ get_num_rows dm)
    (hcol : (offset_j + (paths path_j).points) * 2 ≤ get_num_columns dm) :
    Within dm.value (after_matrix dm) g
        (forRange (fun i (st' : (Nat → α) × Nat) =>
          (empty_diagonal_matrix paths st'.2 offset_j (b.loop i) path_j dm st'.1,
            st'.2 + (paths (b.loop i)).points)) lo hi (g, points_before paths b lo)).1
      ∧ (forRange (fun i (st' : (Nat → α) × Nat) =>
          (empty_diagonal_matrix paths st'.2 offset_j (b.loop i) path_j dm st'.1,
            st'.2 + (paths (b.loop i)).points)) lo hi (g, points_before paths b lo)).2
        = points_before paths b hi := by
  unfold forRange
  have key := forN_inv
    (fun t (st' : (Nat → α) × Nat) =>
      Within dm.value (after_matrix dm) g st'.1 ∧ st'.2 = points_before paths b (lo + t))
    (fun i (st' : (Nat → α) × Nat) =>
      (empty_diagonal_matrix paths st'.2 offset_j (b.loop i) path_j dm st'.1,
        st'.2 + (paths (b.loop i)).points)) lo (hi - lo) (g, points_before paths b lo)
    ⟨Within.refl _ _ g, rfl⟩
    (by
      intro t ht st' ⟨hw, ho⟩
      have hbi := points_before_le paths b (j := lo + t) (by omega)
      refine ⟨hw.trans (empty_diagonal_matrix_within paths _ _ _ _ dm _
        (by rw [ho]; omega) hcol), ?_⟩
      show st'.2 + (paths (b.loop (lo + t))).points = _
      rw [ho, ← points_before_succ]
      rfl)
  have e : lo + (hi - lo) = hi := by omega
  beta_reduce at key
  rw [e] at key
  exact key

/-- `make_diagonal_matrix` returns and writes inside the matrix when the
matrix has room for `5 N` rows and `2 N` columns. -/
theorem make_diagonal_matrix_total [LinearOrderedField α] (m : LibM α) (paths : Nat → path α)
    (b : boundary) (dm : matrix) (h : Nat → α) (hz : ZonePaths paths b)
    (hrows : num_boundary_points paths b * 5 ≤ get_num_rows dm)
    (hcols : num_boundary_points paths b * 2 ≤ get_num_columns dm) :
    ∃ h', make_diagonal_matrix m paths b dm h = some h'
      ∧ Within dm.value (after_matrix dm) h h' := by
  unfold make_diagonal_matrix
  have outer := forNM_total
    (fun j (st : (Nat → α) × Nat) =>
      Within dm.value (after_matrix dm) h st.1 ∧ st.2 = points_before paths b j)
    (fun j (st : (Nat → α) × Nat) => do
      let path_j := b.loop j
      let offset_j := st.2
      let (h, offset_i) := forRange (fun i (st' : (Nat → α) × Nat) =>
        (empty_diagonal_matrix paths st'.2 offset_j (b.loop i) path_j dm st'.1,
          st'.2 + (paths (b.loop i)).points)) 0 j (st.1, 0)
      let i := j
      let path_i := b.loop i
      let h ← fill_diagonal_matrix m paths offset_i offset_j path_i path_j dm h
      let offset_i := offset_i + (paths (b.loop i)).points
      let (h, _) := forRange (fun i (st' : (Nat → α) × Nat) =>
        (empty_diagonal_matrix paths st'.2 offset_j (b.loop i) path_j dm st'.1,
          st'.2 + (paths (b.loop i)).points)) (j + 1) b.components (h, offset_i)
      pure (h, offset_j + (paths (b.loop j)).points))
    0 b.components (h, 0) ⟨Within.refl _ _ h, rfl⟩
    (by
      intro j st _ hj ⟨hw, ho⟩
      have hbj := points_before_le paths b (j := j) (by omega)
      have hcol : (st.2 + (paths (b.loop j)).points) * 2 ≤ get_num_columns dm := by
        rw [ho]; omega
      have h1 := empty_blocks_within paths b dm st.2 (b.loop j) 0 j st.1 (by omega) (by omega)
        hrows hcol
      have hpb0 : points_before paths b 0 = 0 := rfl
      rw [hpb0] at h1
      obtain ⟨g, hg, hgw⟩ := fill_diagonal_matrix_total m paths
        (forRange (fun i (st' : (Nat → α) × Nat) =>
          (empty_diagonal_matrix paths st'.2 st.2 (b.loop i) (b.loop j) dm st'.1,
            st'.2 + (paths (b.loop i)).points)) 0 j (st.1, 0)).2
        st.2 (b.loop j) (b.loop j) dm
        (forRange (fun i (st' : (Nat → α) × Nat) =>
          (empty_diagonal_matrix paths st'.2 st.2 (b.loop i) (b.loop j) dm st'.1,
            st'.2 + (paths (b.loop i)).points)) 0 j (st.1, 0)).1
        (hz j (by omega)).1 (hz j (by omega)).2 (Nat.le_refl _)
        (by rw [h1.2]; omega) hcol
      have h2 := empty_blocks_within paths b dm st.2 (b.loop j) (j + 1) b.components g
        (by omega) (Nat.le_refl _) hrows hcol
      rw [points_before_succ, ← h1.2] at h2
      refine ⟨((forRange (fun i (st' : (Nat → α) × Nat) =>
          (empty_diagonal_matrix paths st'.2 st.2 (b.loop i) (b.loop j) dm st'.1,
            st'.2 + (paths (b.loop i)).points)) (j + 1) b.components
          (g, (forRange (fun i (st' : (Nat → α) × Nat) =>
            (empty_diagonal_matrix paths st'.2 st.2 (b.loop i) (b.loop j) dm st'.1,
              st'.2 + (paths (b.loop i)).points)) 0 j (st.1, 0)).2
            + (paths (b.loop j)).points)).1, st.2 + (paths (b.loop j)).points),
        ?_, ((hw.trans h1.1).trans hgw).trans h2.1, ?_⟩
      · simp only [hg, Option.bind_eq_bind, Option.some_bind]
        rfl
      · show st.2 + (paths (b.loop j)).points = _
        rw [points_before_succ, ho])
  obtain ⟨st, he, hw, _⟩ := outer
  refine ⟨st.1, ?_, hw⟩
  simp only [Option.bind_eq_bind] at he ⊢
  rw [he]
  rfl

end DiagonalMatrixTotal

section MatrixOps
variable {α : Type} [Field α]

/-- `zero_last_matrix_row` returns, clears the last row and changes no other
cell. -/
theorem zero_last_matrix_row_spec (h : Nat → α) (a : matrix) (hv : a.value ≠ 0)
    (hrows : 0 < get_num_rows a) :
    ∃ h', zero_last_matrix_row h a = some h'
      ∧ (∀ j, j < get_num_columns a → get_matrix_element h' a (get_num_rows a - 1) j = 0)
      ∧ (∀ addr, (∀ j, j < get_num_columns a → addr ≠ cell a (get_num_rows a - 1) j) →
          h' addr = h addr) := by
  unfold zero_last_matrix_row check_memory
  simp only [if_neg hv, Option.bind_eq_bind, Option.some_bind, Option.pure_def]
  refine ⟨_, rfl, ?_⟩
  have hfill := forN_fill (fun j => cell a (get_num_rows a - 1) j) (fun _ _ => (0 : α)) 0
    (get_num_columns a) h
    (by
      intro i j hi hj he
      simp only [Nat.zero_add] at he
      exact (cell_inj a (by omega) hi (by omega) hj he).2)
    (by intro j _ g _; rfl)
  simp only [Nat.zero_add] at hfill
  have hdef : forN (fun j h => put_matrix_element h a (get_num_rows a - 1) j 0) 0
      (get_num_columns a) h
      = forN (fun j h => Function.update h (cell a (get_num_rows a - 1) j) (0 : α)) 0
        (get_num_columns a) h := by
    congr 1
    funext j g
    rw [put_matrix_element_eq]
  rw [hdef]
  refine ⟨?_, hfill.2⟩
  intro j hj
  rw [get_matrix_element_eq]
  exact hfill.1 j hj

/-- `transpose_matrix(a, a)` only flips the transpose flag. -/
theorem transpose_matrix_self (cfg : Config α) (h : Nat → α) (a : matrix) (hv : a.value ≠ 0) :
    transpose_matrix cfg h a none
      = some (h, { a with transpose := 1 - a.transpose }, none) := by
  unfold transpose_matrix check_size check_memory
  simp [hv]

/-- `invert_matrix(a, a)` on a square matrix only flips the invert flag. -/
theorem invert_matrix_self (cfg : Config α) (h : Nat → α) (a : matrix) (hv : a.value ≠ 0)
    (hsq : get_num_rows a = get_num_columns a) :
    invert_matrix cfg h a none = some (h, { a with invert := 1 - a.invert }, none) := by
  unfold invert_matrix check_size check_memory check_invert_shape
  simp [hv, hsq]

end MatrixOps

section MatrixOpsPlain
variable {α : Type}

theorem zero_last_matrix_row_within (h h' : Nat → α) (a : matrix)
    (hrows : 0 < get_num_rows a)
    (hframe : ∀ addr, (∀ j, j < get_num_columns a → addr ≠ cell a (get_num_rows a - 1) j) →
          h' addr = h addr) :
    Within a.value (after_matrix a) h h' := by
  intro addr haddr
  apply hframe
  intro j hj he
  have := cell_mem a (i := get_num_rows a - 1) (j := j) (by omega) hj
  unfold after_matrix at haddr
  omega

/-- `fill_last_matrix_row` returns, copies the row vector `x` into the last row
of `a` and changes no other cell, when `x` lies apart from `a`. -/
theorem fill_last_matrix_row_spec (h : Nat → α) (a x : matrix) (hv : a.value ≠ 0)
    (hxv : x.value ≠ 0) (hrows : 0 < get_num_rows a)
    (hcols : get_num_columns a = get_num_columns x) (hx1 : get_num_rows x = 1)
    (hax : Apart a x) :
    ∃ h', fill_last_matrix_row h a x = some h'
      ∧ (∀ j, j < get_num_columns a →
          get_matrix_element h' a (get_num_rows a - 1) j = get_matrix_element h x 0 j)
      ∧ (∀ addr, (∀ j, j < get_num_columns a → addr ≠ cell a (get_num_rows a - 1) j) →
          h' addr = h addr) := by
  have hchk : ¬(get_num_columns a ≠ get_num_columns x ∨ get_num_rows x ≠ 1) := by
    simp [hcols, hx1]
  unfold fill_last_matrix_row check_memory check_size_row
  simp only [if_neg hv, if_neg hxv, if_neg hchk,
    Option.bind_eq_bind, Option.some_bind, Option.pure_def]
  refine ⟨_, rfl, ?_⟩
  have hfill := forN_fill (fun j => cell a (get_num_rows a - 1) j)
    (fun g j => g (cell x 0 j)) 0 (get_num_columns a) h
    (by
      intro i j hi hj he
      simp only [Nat.zero_add] at he
      exact (cell_inj a (by omega) hi (by omega) hj he).2)
    (by
      intro j hj g hg
      simp only [Nat.zero_add]
      apply hg
      intro i hi he
      simp only [Nat.zero_add] at he
      have h1 := cell_mem a (i := get_num_rows a - 1) (j := i) (by omega) (by omega)
      have h2 := cell_mem x (i := 0) (j := j) (by omega) (by omega)
      unfold Apart after_matrix at hax
      omega)
  simp only [Nat.zero_add] at hfill
  have hdef : forN (fun j h =>
        let value := get_matrix_element h x 0 j
        put_matrix_element h a (get_num_rows a - 1) j value) 0 (get_num_columns a) h
      = forN (fun j h => Function.update h (cell a (get_num_rows a - 1) j) (h (cell x 0 j))) 0
        (get_num_columns a) h := by
    congr 1
    funext j g
    simp only [put_matrix_element_eq, get_matrix_element_eq]
  rw [hdef]
  refine ⟨?_, hfill.2⟩
  intro j hj
  rw [get_matrix_element_eq, get_matrix_element_eq]
  exact hfill.1 j hj

end MatrixOpsPlain

section AddMatrix
variable {α : Type} [Field α]

/-- `add_matrix(a, b, x)` for untransposed operands of one shape, where the
result `x` is a view of the storage of `b`: it returns, leaves in `x` the
entrywise sum, and writes only in that storage. -/
theorem add_matrix_spec (cfg : Config α) (h : Nat → α) (a b x : matrix)
    (hat : a.transpose = 0) (hbt : b.transpose = 0) (hai : a.invert ≠ 1) (hbi : b.invert ≠ 1)
    (hbr : b.rows = a.rows) (hbc : b.columns = a.columns)
    (hsize : a.rows * a.columns = x.rows * x.columns) (hxv : x.value ≠ 0)
    (hxb : x.value = b.value) (hab : Apart a b) :
    ∃ h', add_matrix cfg h a b x = some (h', a, b, product_header x a.rows a.columns)
      ∧ (∀ i j, i < a.rows → j < a.columns →
          get_matrix_element h' (product_header x a.rows a.columns) i j
            = get_matrix_element h a i j + get_matrix_element h b i j)
      ∧ Within b.value (after_matrix b) h h' := by
  have har : get_num_rows a = a.rows := by unfold get_num_rows; simp [hat]
  have hac : get_num_columns a = a.columns := by unfold get_num_columns; simp [hat]
  have hbr' : get_num_rows b = a.rows := by unfold get_num_rows; simp [hbt, hbr]
  have hbc' : get_num_columns b = a.columns := by unfold get_num_columns; simp [hbt, hbc]
  have hchk : ¬(get_num_rows a ≠ get_num_rows b ∨ get_num_columns a ≠ get_num_columns b) := by
    simp [har, hac, hbr', hbc']
  have hcx : ∀ i j, cell (product_header x a.rows a.columns) i j
      = b.value + (j * a.rows + i) := by
    intro i j
    unfold cell product_header
    simp [hxb]
  have hca : ∀ i j, cell a i j = a.value + (j * a.rows + i) := by
    intro i j
    unfold cell
    simp [hat]
  have hcb : ∀ i j, cell b i j = b.value + (j * a.rows + i) := by
    intro i j
    unfold cell
    simp [hbt, hbr]
  have hfill := forN2_fill (fun p q => b.value + (p * a.rows + q))
    (fun g p q => g (a.value + (p * a.rows + q)) + g (b.value + (p * a.rows + q)))
    a.columns a.rows h
    (by
      intro p q p' q' hp hq hp' hq' he
      have := idx_inj (r := a.rows) (i := q) (j := p) hq hq'
        (Nat.add_left_cancel he)
      omega)
    (by
      intro p q hp hq g hg
      beta_reduce
      rw [hg, hg]
      · intro p' q' hp' hq' hlt he
        have := idx_inj (r := a.rows) (i := q) (j := p) hq hq'
          (Nat.add_left_cancel he)
        omega
      · intro p' q' hp' hq' _ he
        beta_reduce at he
        have h1 := idx_lt (r := a.rows) (c := a.columns) (i := q) (j := p) hq hp
        have h2 := idx_lt (r := a.rows) (c := a.columns) (i := q') (j := p') hq' hp'
        unfold Apart after_matrix at hab
        rw [hbr, hbc] at hab
        omega)
  have hdef : add_matrix cfg h a b x
      = some (forN (fun p h => forN (fun q h =>
          Function.update h (b.value + (p * a.rows + q))
            (h (a.value + (p * a.rows + q)) + h (b.value + (p * a.rows + q)))) 0 a.rows h)
          0 a.columns h, a, b, product_header x a.rows a.columns) := by
    unfold add_matrix check_add_shape check_size check_memory
    simp only [if_neg hchk, Option.bind_eq_bind, Option.some_bind]
    simp only [hsize, ne_eq, not_true_eq_false, if_false, if_neg hxv, if_neg hai,
      if_neg hbi, Option.bind_eq_bind, Option.some_bind, Option.pure_def, if_true, har, hac]
    congr 2
    congr 1
    funext p g
    congr 1
    funext q g'
    rw [put_matrix_element_eq, get_matrix_element_eq, get_matrix_element_eq, hca, hcb]
    have := hcx q p
    unfold product_header at this
    rw [this]
  refine ⟨_, hdef, ?_, ?_⟩
  · intro i j hi hj
    rw [get_matrix_element_eq, get_matrix_element_eq, get_matrix_element_eq, hcx, hca, hcb]
    exact hfill.1 j i hj hi
  · intro addr haddr
    apply hfill.2
    intro p q hp hq he
    beta_reduce at he
    have h1 := idx_lt (r := a.rows) (c := a.columns) (i := q) (j := p) hq hp
    unfold after_matrix at haddr
    rw [hbr, hbc] at haddr
    omega

end AddMatrix

section InversionFrame
variable {α : Type} [Field α]

/-- `invert_this_matrix` returns, clears the invert flag and writes only inside
the square matrix, whatever its entries are. -/
theorem invert_this_matrix_within (cfg : Config α) (h : Nat → α) (a : matrix) (n : Nat)
    (hcfg : cfg.valid) (hval : a.value ≠ 0) (hr : a.rows = n) (hc : a.columns = n) :
    ∃ h', invert_this_matrix cfg h a = some (h', { a with invert := 0 })
      ∧ Within a.value (after_matrix a) h h' := by
  have hr' : get_num_rows { a with invert := 0 } = n := by
    unfold get_num_rows; simp [hr, hc]
  have hc' : get_num_columns { a with invert := 0 } = n := by
    unfold get_num_columns; simp [hr, hc]
  unfold invert_this_matrix
  simp only [hc', if_neg hval]
  by_cases hseq : cfg.use_sequential_inversion = 0
  · rw [if_pos hseq]
    refine ⟨_, rfl, ?_⟩
    have := hcfg.2.2.2 hseq h a.value n
    unfold after_matrix
    rw [hr, hc]
    exact this
  · rw [if_neg hseq]
    refine ⟨_, rfl, ?_⟩
    unfold forRange
    rw [Nat.sub_zero]
    refine forN_inv (fun _ g => Within a.value (after_matrix a) h g) _ 0 n h
      (Within.refl _ _ h) ?_
    intro t ht g hg
    refine hg.trans ?_
    intro addr haddr
    rw [Nat.zero_add]
    apply (gj_pass_spec g { a with invert := 0 } t n hr' hc' ht).2
    intro i k hi hk he
    have := cell_mem { a with invert := 0 } (i := i) (j := k) (by omega) (by omega)
    simp only at this
    unfold after_matrix at haddr
    omega

end InversionFrame

section SolvePlain
variable {α : Type}

/-- An entry of a matrix is unchanged by writes that stay in an area apart
from the matrix. -/
theorem get_of_within {lo hi : Nat} {h h' : Nat → α} (W : Within lo hi h h') (x : matrix)
    (i j : Nat) (hi' : i < get_num_rows x) (hj : j < get_num_columns x)
    (hout : after_matrix x ≤ lo ∨ hi ≤ x.value) :
    get_matrix_element h' x i j = get_matrix_element h x i j := by
  rw [get_matrix_element_eq, get_matrix_element_eq]
  apply W
  have := cell_mem x hi' hj
  unfold after_matrix at hout
  omega

end SolvePlain

section Solve
variable {α : Type} [Field α]

theorem Within_of_IsProduct {h h' : Nat → α} {a b x : matrix} (hp : IsProduct h h' a b x) :
    Within x.value (after_matrix x) h h' := hp.2

/-- PHASES 3 to 5 on the headers that `make_bcv_use_KCL` and `make_bcv_no_KCL`
attach (`B` and `BT` on `R * n` cells at `v`, `DAV` at `p0`, `BTB` at `p1`,
`BTDAV` at `p2`, the five areas in this order after that of `J`): `KCL_solve`
returns; the array of `BTB` held the Gram matrix of `B` when the lazy inversion
ran on it; `J` is the product of the inverted array with `BT * DAV`; and `B`,
`DAV` and all cells outside the areas of `J`, `BTB`, `BTDAV` are unchanged. -/
theorem KCL_solve_spec (cfg : Config α) (hcfg : cfg.valid) (R n v p0 p1 p2 : Nat) (J : matrix)
    (h : Nat → α) (hJv : J.value ≠ 0) (hJs : n * 1 = get_num_rows J * get_num_columns J)
    (hl1 : J.value + n ≤ v) (hl2 : v + R * n ≤ p0) (hl3 : p0 + R ≤ p1)
    (hl4 : p1 + n * n ≤ p2) :
    ∃ h4 h5 h', KCL_solve cfg (attach_matrix R n v) { attach_matrix R n v with transpose := 1 }
          (attach_matrix n n p1) (attach_matrix n 1 p2) (attach_matrix R 1 p0) J h
        = some (h', product_header J n 1)
      ∧ (∀ i k, i < n → k < n → get_matrix_element h4 (attach_matrix n n p1) i k
          = ∑ r in Finset.range R, get_matrix_element h (attach_matrix R n v) r i
              * get_matrix_element h (attach_matrix R n v) r k)
      ∧ invert_this_matrix cfg h4 { attach_matrix n n p1 with invert := 1 }
          = some (h5, attach_matrix n n p1)
      ∧ (∀ i k, i < n → k < n → get_matrix_element h' (attach_matrix n n p1) i k
          = get_matrix_element h5 (attach_matrix n n p1) i k)
      ∧ (∀ k, k < n → get_matrix_element h' (product_header J n 1) k 0
          = ∑ j in Finset.range n, get_matrix_element h' (attach_matrix n n p1) k j
              * ∑ r in Finset.range R, get_matrix_element h (attach_matrix R n v) r j
                  * get_matrix_element h (attach_matrix R 1 p0) r 0)
      ∧ (∀ addr, (addr < J.value ∨ (J.value + n ≤ addr ∧ addr < p1) ∨ p2 + n ≤ addr) →
          h' addr = h addr) := by
  -- the first product, BT * B
  obtain ⟨h3, he3, P3⟩ := multiply_matrix_spec cfg h h
    { attach_matrix R n v with transpose := 1 } { attach_matrix R n v with transpose := 1 }
    (attach_matrix R n v) (attach_matrix n n p1) hcfg rfl rfl rfl rfl rfl rfl
    (by show p1 ≠ 0; omega) (by show (0 : Int) ≠ 1; decide) rfl
    (Or.inl (by show v + R * n ≤ p1; omega)) (Or.inl (by show v + R * n ≤ p1; omega))
  have hBTB : product_header (attach_matrix n n p1)
      (get_num_rows { attach_matrix R n v with transpose := 1 })
      (get_num_columns (attach_matrix R n v)) = attach_matrix n n p1 := rfl
  rw [hBTB] at he3 P3
  -- the lazy inversion
  have he_inv := invert_matrix_self cfg h3 (attach_matrix n n p1) (by show p1 ≠ 0; omega) rfl
  have hBTB1 : ({ attach_matrix n n p1 with invert := 1 - (attach_matrix n n p1).invert } : matrix)
      = { attach_matrix n n p1 with invert := 1 } := rfl
  rw [hBTB1] at he_inv
  -- the second product, BT * DAV
  obtain ⟨h4, he4, P4⟩ := multiply_matrix_spec cfg h3 h3
    { attach_matrix R n v with transpose := 1 } { attach_matrix R n v with transpose := 1 }
    (attach_matrix R 1 p0) (attach_matrix n 1 p2) hcfg rfl rfl rfl rfl rfl rfl
    (by show p2 ≠ 0; omega) (by show (0 : Int) ≠ 1; decide) rfl
    (Or.inl (by show v + R * n ≤ p2; omega)) (Or.inl (by show p0 + R * 1 ≤ p2; omega))
  have hBTDAV : product_header (attach_matrix n 1 p2)
      (get_num_rows { attach_matrix R n v with transpose := 1 })
      (get_num_columns (attach_matrix R 1 p0)) = attach_matrix n 1 p2 := rfl
  rw [hBTDAV] at he4 P4
  -- the inversion inside the last product
  obtain ⟨h5, he5, W5⟩ := invert_this_matrix_within cfg h4
    { attach_matrix n n p1 with invert := 1 } n hcfg (by show p1 ≠ 0; omega) rfl rfl
  have hBTB0 : ({ ({ attach_matrix n n p1 with invert := 1 } : matrix) with invert := 0 } : matrix)
      = attach_matrix n n p1 := rfl
  rw [hBTB0] at he5
  obtain ⟨h6, he6, P6⟩ := multiply_matrix_spec cfg h4 h5
    { attach_matrix n n p1 with invert := 1 } (attach_matrix n n p1)
    (attach_matrix n 1 p2) J hcfg (by rw [if_pos rfl]; exact he5) rfl rfl rfl rfl hJs hJv
    (by show (0 : Int) ≠ 1; decide) rfl
    (Or.inr (by show J.value + n * 1 ≤ p1; omega)) (Or.inr (by show J.value + n * 1 ≤ p2; omega))
  have hJ : product_header J (get_num_rows { attach_matrix n n p1 with invert := 1 })
      (get_num_columns (attach_matrix n 1 p2)) = product_header J n 1 := rfl
  rw [hJ] at he6 P6
  refine ⟨h4, h5, h6, ?_, ?_, he5, ?_, ?_, ?_⟩
  · unfold KCL_solve
    simp only [he3, he_inv, he4, he6, Option.bind_eq_bind, Option.some_bind, Option.pure_def]
  · intro i k hi hk
    rw [get_of_within (Within_of_IsProduct P4) (attach_matrix n n p1) i k hi hk
      (Or.inl (by show p1 + n * n ≤ p2; omega))]
    rw [P3.1 i k hi hk]
    rfl
  · intro i k hi hk
    exact get_of_within (Within_of_IsProduct P6) (attach_matrix n n p1) i k hi hk
      (Or.inr (by show J.value + n * 1 ≤ p1; omega))
  · intro k hk
    rw [P6.1 k 0 hk (by show 0 < 1; omega)]
    apply Finset.sum_congr rfl
    intro j hj
    have hj' := Finset.mem_range.mp hj
    rw [get_of_within (Within_of_IsProduct P6) (attach_matrix n n p1) k j hk hj'
      (Or.inr (by show J.value + n * 1 ≤ p1; omega))]
    congr 1
    rw [get_of_within W5 (attach_matrix n 1 p2) j 0 hj' (by show 0 < 1; omega)
      (Or.inr (by show p1 + n * n ≤ p2; omega))]
    rw [P4.1 j 0 hj' (by show 0 < 1; omega)]
    apply Finset.sum_congr rfl
    intro r hr
    have hr' := Finset.mem_range.mp hr
    rw [get_of_within (Within_of_IsProduct P3) { attach_matrix R n v with transpose := 1 } j r
        hj' hr' (Or.inl (by show v + R * n ≤ p1; omega)),
      get_of_within (Within_of_IsProduct P3) (attach_matrix R 1 p0) r 0 hr' (by show 0 < 1; omega)
        (Or.inl (by show p0 + R * 1 ≤ p1; omega))]
    rfl
  · intro addr haddr
    rw [P6.2 addr (by show addr < J.value ∨ J.value + n * 1 ≤ addr; omega),
      W5 addr (by show addr < p1 ∨ p1 + n * n ≤ addr; omega),
      P4.2 addr (by show addr < p2 ∨ p2 + n * 1 ≤ addr; omega),
      P3.2 addr (by show addr < p1 ∨ p1 + n * n ≤ addr; omega)]

end Solve
section Phase1
variable {α : Type} [LinearOrderedField α]

theorem after_attach (r c p : Nat) : after_matrix (attach_matrix r c p) = p + r * c := rfl

/-- PHASE 1 of `make_bcv_use_KCL` returns: `A` and `D` are assembled with their
last rows cleared, `DAV` holds `(D + A) * V`, and only cells of the arena
before `BTB` are written. -/
theorem KCL_phase1_spec (cfg : Config α) (m : LibM α) (t : Terms α) (paths : Nat → path α)
    (b : boundary) (N v : Nat) (V : matrix) (h : Nat → α) (hcfg : cfg.valid)
    (hz : ZonePaths paths b) (hN : N = num_boundary_points paths b) (hv : v ≠ 0)
    (hVt : V.transpose = 0) (hVi : V.invert ≠ 1) (hVr : V.rows = 2 * N) (hVc : V.columns = 1)
    (hVv : V.value + 2 * N ≤ v) :
    ∃ hA hD h1,
      KCL_assemble_A m t paths b N v h
        = some (hA, attach_matrix (5 * N + 1) (2 * N) v,
            attach_matrix (5 * N + 1) (2 * N) (v + (5 * N + 1) * (2 * N)))
      ∧ KCL_assemble_D m paths b
          (attach_matrix (5 * N + 1) (2 * N) (v + (5 * N + 1) * (2 * N))) hA = some hD
      ∧ KCL_phase1 cfg m t paths b N v V h
        = some (h1, attach_matrix (5 * N + 1) (2 * N) v, V,
            attach_matrix (5 * N + 1) 1 (v + (5 * N + 1) * (2 * N) + (5 * N + 1) * (2 * N)))
      ∧ (∀ r, r < 5 * N + 1 →
          get_matrix_element h1
              (attach_matrix (5 * N + 1) 1 (v + (5 * N + 1) * (2 * N) + (5 * N + 1) * (2 * N))) r 0
            = ∑ c in Finset.range (2 * N),
                (get_matrix_element hD
                    (attach_matrix (5 * N + 1) (2 * N) (v + (5 * N + 1) * (2 * N))) r c
                  + get_matrix_element hD (attach_matrix (5 * N + 1) (2 * N) v) r c)
                * get_matrix_element h V c 0)
      ∧ (∀ c, c < 2 * N →
          get_matrix_element hD (attach_matrix (5 * N + 1) (2 * N) v) (5 * N) c = 0
          ∧ get_matrix_element hD
              (attach_matrix (5 * N + 1) (2 * N) (v + (5 * N + 1) * (2 * N))) (5 * N) c = 0)
      ∧ Within v (v + (5 * N + 1) * (2 * N) + (5 * N + 1) * (2 * N) + (5 * N + 1)) h h1
      ∧ (∀ r c, r < 5 * N + 1 → c < 2 * N →
          get_matrix_element h1 (attach_matrix (5 * N + 1) (2 * N) v) r c
            = get_matrix_element hD
                (attach_matrix (5 * N + 1) (2 * N) (v + (5 * N + 1) * (2 * N))) r c
              + get_matrix_element hD (attach_matrix (5 * N + 1) (2 * N) v) r c)
      ∧ (∀ r c, r < 5 * N + 1 → c < 2 * N →
          get_matrix_element h1
              (attach_matrix (5 * N + 1) (2 * N) (v + (5 * N + 1) * (2 * N))) r c
            = get_matrix_element hD
                (attach_matrix (5 * N + 1) (2 * N) (v + (5 * N + 1) * (2 * N))) r c) := by
  -- assembly of A
  obtain ⟨hA0, heA0, WA0⟩ := make_voltage_geometry_matrix_total m t paths b
    (attach_matrix (5 * N + 1) (2 * N) v) h hz
    (by show num_boundary_points paths b * 5 ≤ 5 * N + 1; omega)
    (by show num_boundary_points paths b * 2 ≤ 2 * N; omega)
  obtain ⟨hA, heA, zA, fA⟩ := zero_last_matrix_row_spec hA0
    (attach_matrix (5 * N + 1) (2 * N) v) hv (by show 0 < 5 * N + 1; omega)
  have WA := zero_last_matrix_row_within hA0 hA (attach_matrix (5 * N + 1) (2 * N) v)
    (by show 0 < 5 * N + 1; omega) fA
  have heAA : KCL_assemble_A m t paths b N v h
      = some (hA, attach_matrix (5 * N + 1) (2 * N) v,
          attach_matrix (5 * N + 1) (2 * N) (v + (5 * N + 1) * (2 * N))) := by
    unfold KCL_assemble_A
    simp only [heA0, heA, Option.bind_eq_bind, Option.some_bind, Option.pure_def]
    rfl
  -- assembly of D
  obtain ⟨hD0, heD0, WD0⟩ := make_diagonal_matrix_total m paths b
    (attach_matrix (5 * N + 1) (2 * N) (v + (5 * N + 1) * (2 * N))) hA hz
    (by show num_boundary_points paths b * 5 ≤ 5 * N + 1; omega)
    (by show num_boundary_points paths b * 2 ≤ 2 * N; omega)
  obtain ⟨hD, heD, zD, fD⟩ := zero_last_matrix_row_spec hD0
    (attach_matrix (5 * N + 1) (2 * N) (v + (5 * N + 1) * (2 * N)))
    (by show v + (5 * N + 1) * (2 * N) ≠ 0; omega) (by show 0 < 5 * N + 1; omega)
  have WD := zero_last_matrix_row_within hD0 hD
    (attach_matrix (5 * N + 1) (2 * N) (v + (5 * N + 1) * (2 * N)))
    (by show 0 < 5 * N + 1; omega) fD
  have heDD : KCL_assemble_D m paths b
      (attach_matrix (5 * N + 1) (2 * N) (v + (5 * N + 1) * (2 * N))) hA = some hD := by
    unfold KCL_assemble_D
    simp only [heD0, heD, Option.bind_eq_bind, Option.some_bind]
  -- the sum DA = D + A on the storage of A
  obtain ⟨hS, heS, sS, WS⟩ := add_matrix_spec cfg hD
    (attach_matrix (5 * N + 1) (2 * N) (v + (5 * N + 1) * (2 * N)))
    (attach_matrix (5 * N + 1) (2 * N) v) (attach_matrix (5 * N + 1) (2 * N) v)
    rfl rfl (by show (0 : Int) ≠ 1; decide) (by show (0 : Int) ≠ 1; decide) rfl rfl rfl hv rfl
    (Or.inr (by show v + (5 * N + 1) * (2 * N) ≤ v + (5 * N + 1) * (2 * N); omega))
  have hDA : product_header (attach_matrix (5 * N + 1) (2 * N) v)
      (attach_matrix (5 * N + 1) (2 * N) (v + (5 * N + 1) * (2 * N))).rows
      (attach_matrix (5 * N + 1) (2 * N) (v + (5 * N + 1) * (2 * N))).columns
      = attach_matrix (5 * N + 1) (2 * N) v := rfl
  rw [hDA] at heS sS
  -- the product DAV = DA * V
  have hVrows : get_num_rows V = 2 * N := by unfold get_num_rows; simp [hVt, hVr]
  have hVcols : get_num_columns V = 1 := by unfold get_num_columns; simp [hVt, hVc]
  obtain ⟨h1, he1, P1⟩ := multiply_matrix_spec cfg hS hS
    (attach_matrix (5 * N + 1) (2 * N) v) (attach_matrix (5 * N + 1) (2 * N) v) V
    (attach_matrix (5 * N + 1) 1 (v + (5 * N + 1) * (2 * N) + (5 * N + 1) * (2 * N))) hcfg rfl rfl rfl rfl
    (by rw [hVrows]; rfl) (by rw [hVcols]; rfl)
    (by show v + (5 * N + 1) * (2 * N) + (5 * N + 1) * (2 * N) ≠ 0; omega) hVi hVt
    (Or.inl (by
      show v + (5 * N + 1) * (2 * N) ≤ v + (5 * N + 1) * (2 * N) + (5 * N + 1) * (2 * N)
      omega))
    (Or.inl (by
      show V.value + V.rows * V.columns ≤ v + (5 * N + 1) * (2 * N) + (5 * N + 1) * (2 * N)
      rw [hVr, hVc]
      omega))
  have hDAV : product_header (attach_matrix (5 * N + 1) 1 (v + (5 * N + 1) * (2 * N) + (5 * N + 1) * (2 * N)))
      (get_num_rows (attach_matrix (5 * N + 1) (2 * N) v)) (get_num_columns V)
      = attach_matrix (5 * N + 1) 1 (v + (5 * N + 1) * (2 * N) + (5 * N + 1) * (2 * N)) := by
    rw [hVcols]
    rfl
  rw [hDAV] at he1 P1
  refine ⟨hA, hD, h1, heAA, heDD, ?_, ?_, ?_, ?_, ?_, ?_⟩
  · unfold KCL_phase1
    simp only [heAA, Option.bind_eq_bind, Option.some_bind, Option.pure_def, after_attach,
      heDD, heS, he1]
  · intro r hr
    rw [P1.1 r 0 hr (by rw [hVcols]; omega)]
    apply Finset.sum_congr rfl
    intro c hc
    have hc' : c < 2 * N := Finset.mem_range.mp hc
    rw [sS r c hr hc']
    congr 1
    have W : Within v (v + (5 * N + 1) * (2 * N) + (5 * N + 1) * (2 * N)) h hS :=
      ((((WA0.mono (by show v ≤ v; omega)
          (by show v + (5 * N + 1) * (2 * N) ≤ _; omega)).trans
        (WA.mono (by show v ≤ v; omega)
          (by show v + (5 * N + 1) * (2 * N) ≤ _; omega))).trans
        (WD0.mono (by show v ≤ v + (5 * N + 1) * (2 * N); omega)
          (by show v + (5 * N + 1) * (2 * N) + (5 * N + 1) * (2 * N) ≤ _; omega))).trans
        (WD.mono (by show v ≤ v + (5 * N + 1) * (2 * N); omega)
          (by show v + (5 * N + 1) * (2 * N) + (5 * N + 1) * (2 * N) ≤ _; omega))).trans
        (WS.mono (by show v ≤ v; omega) (by show v + (5 * N + 1) * (2 * N) ≤ _; omega))
    exact get_of_within W V c 0 (by rw [hVrows]; exact hc') (by rw [hVcols]; omega)
      (Or.inl (by
        show V.value + V.rows * V.columns ≤ v
        rw [hVr, hVc]
        omega))
  · intro c hc
    refine ⟨?_, zD c hc⟩
    rw [get_of_within (WD0.trans WD) (attach_matrix (5 * N + 1) (2 * N) v) (5 * N) c
      (by show 5 * N < 5 * N + 1; omega) hc
      (Or.inl (by show v + (5 * N + 1) * (2 * N) ≤ v + (5 * N + 1) * (2 * N); omega))]
    exact zA c hc
  · exact (((((WA0.mono (by show v ≤ v; omega)
          (by show v + (5 * N + 1) * (2 * N) ≤ _; omega)).trans
        (WA.mono (by show v ≤ v; omega)
          (by show v + (5 * N + 1) * (2 * N) ≤ _; omega))).trans
        (WD0.mono (by show v ≤ v + (5 * N + 1) * (2 * N); omega)
          (by show v + (5 * N + 1) * (2 * N) + (5 * N + 1) * (2 * N) ≤ _; omega))).trans
        (WD.mono (by show v ≤ v + (5 * N + 1) * (2 * N); omega)
          (by show v + (5 * N + 1) * (2 * N) + (5 * N + 1) * (2 * N) ≤ _; omega))).trans
        (WS.mono (by show v ≤ v; omega) (by show v + (5 * N + 1) * (2 * N) ≤ _; omega))).trans
      ((Within_of_IsProduct P1).mono
        (by show v ≤ v + (5 * N + 1) * (2 * N) + (5 * N + 1) * (2 * N); omega)
        (by
          show v + (5 * N + 1) * (2 * N) + (5 * N + 1) * (2 * N) + (5 * N + 1) * 1 ≤ _
          omega))
  · intro r c hr hc
    rw [get_of_within (Within_of_IsProduct P1) (attach_matrix (5 * N + 1) (2 * N) v) r c hr hc
      (Or.inl (by
        show v + (5 * N + 1) * (2 * N) ≤ v + (5 * N + 1) * (2 * N) + (5 * N + 1) * (2 * N)
        omega))]
    exact sS r c hr hc
  · intro r c hr hc
    rw [get_of_within (Within_of_IsProduct P1)
      (attach_matrix (5 * N + 1) (2 * N) (v + (5 * N + 1) * (2 * N))) r c hr hc
      (Or.inl (by
        show v + (5 * N + 1) * (2 * N) + (5 * N + 1) * (2 * N)
          ≤ v + (5 * N + 1) * (2 * N) + (5 * N + 1) * (2 * N)
        omega))]
    exact get_of_within WS (attach_matrix (5 * N + 1) (2 * N) (v + (5 * N + 1) * (2 * N))) r c
      hr hc (Or.inr (by
        show v + (5 * N + 1) * (2 * N) ≤ v + (5 * N + 1) * (2 * N)
        omega))

end Phase1
section Phase2
variable {α : Type} [Field α]

/-- PHASE 2 of `make_bcv_use_KCL` returns: it writes only the area of `B` and
the area of the KCL vector behind `BTB`, and the last row of `B` is the KCL
vector. -/
theorem KCL_phase2_spec (cfg : Config α) (m : LibM α) (t : Terms α) (paths : Nat → path α)
    (b : boundary) (N v p0 : Nat) (h : Nat → α)
    (hz : ZonePaths paths b) (hN : N = num_boundary_points paths b) (hv : v ≠ 0)
    (hp0 : v + (5 * N + 1) * (4 * N) ≤ p0) :
    ∃ h2, KCL_phase2 cfg m t paths b N v (attach_matrix (5 * N + 1) 1 p0) h
        = some (h2, attach_matrix (5 * N + 1) (4 * N) v,
            { attach_matrix (5 * N + 1) (4 * N) v with transpose := 1 },
            attach_matrix (4 * N) (4 * N) (p0 + (5 * N + 1) * 1),
            attach_matrix (4 * N) 1 (p0 + (5 * N + 1) * 1 + 4 * N * (4 * N)))
      ∧ (∀ addr, (addr < v ∨ (v + (5 * N + 1) * (4 * N) ≤ addr
            ∧ addr < p0 + (5 * N + 1) * 1 + 4 * N * (4 * N))
          ∨ p0 + (5 * N + 1) * 1 + 4 * N * (4 * N) + 4 * N ≤ addr) → h2 addr = h addr)
      ∧ (∀ c, c < 4 * N →
          get_matrix_element h2 (attach_matrix (5 * N + 1) (4 * N) v) (5 * N) c
            = get_matrix_element h2
                (attach_matrix 1 (4 * N) (p0 + (5 * N + 1) * 1 + 4 * N * (4 * N))) 0 c)
      ∧ ∃ hB0 hK,
          make_current_geometry_matrix m t paths b (attach_matrix (5 * N + 1) (4 * N) v) h
            = some hB0
          ∧ make_kcl_geometry_vector m paths b
              (attach_matrix 1 (4 * N) (p0 + (5 * N + 1) * 1 + 4 * N * (4 * N))) hB0 = some hK
          ∧ (∀ c, c < 4 * N →
              get_matrix_element h2 (attach_matrix (5 * N + 1) (4 * N) v) (5 * N) c
                = get_matrix_element hK
                    (attach_matrix 1 (4 * N) (p0 + (5 * N + 1) * 1 + 4 * N * (4 * N))) 0 c)
          ∧ (∀ addr, (∀ c, c < 4 * N →
                addr ≠ cell (attach_matrix (5 * N + 1) (4 * N) v) (5 * N) c) →
              h2 addr = hK addr) := by
  obtain ⟨hB0, heB0, WB0⟩ := make_current_geometry_matrix_total m t paths b
    (attach_matrix (5 * N + 1) (4 * N) v) h hz
    (by show num_boundary_points paths b * 5 ≤ 5 * N + 1; omega)
    (by show num_boundary_points paths b * 4 ≤ 4 * N; omega)
  obtain ⟨hK, heK, WK⟩ := make_kcl_geometry_vector_total m paths b
    (attach_matrix 1 (4 * N) (p0 + (5 * N + 1) * 1 + 4 * N * (4 * N))) hB0 hz
    (by show 0 < 1; omega) (by show num_boundary_points paths b * 4 ≤ 4 * N; omega)
  obtain ⟨h2, he2, l2, f2⟩ := fill_last_matrix_row_spec hK
    (attach_matrix (5 * N + 1) (4 * N) v)
    (attach_matrix 1 (4 * N) (p0 + (5 * N + 1) * 1 + 4 * N * (4 * N))) hv
    (by show p0 + (5 * N + 1) * 1 + 4 * N * (4 * N) ≠ 0; omega)
    (by show 0 < 5 * N + 1; omega) rfl rfl
    (Or.inl (by
      show v + (5 * N + 1) * (4 * N) ≤ p0 + (5 * N + 1) * 1 + 4 * N * (4 * N)
      omega))
  have W2 := zero_last_matrix_row_within hK h2 (attach_matrix (5 * N + 1) (4 * N) v)
    (by show 0 < 5 * N + 1; omega) f2
  have heT := transpose_matrix_self cfg h2 (attach_matrix (5 * N + 1) (4 * N) v) hv
  have hBT : ({ attach_matrix (5 * N + 1) (4 * N) v with
      transpose := 1 - (attach_matrix (5 * N + 1) (4 * N) v).transpose } : matrix)
      = { attach_matrix (5 * N + 1) (4 * N) v with transpose := 1 } := rfl
  rw [hBT] at heT
  refine ⟨h2, ?_, ?_, ?_, hB0, hK, heB0, heK, l2, f2⟩
  · unfold KCL_phase2
    simp only [after_attach, heB0, heK, he2, heT, Option.bind_eq_bind, Option.some_bind,
      Option.pure_def]
  · intro addr haddr
    rw [W2 addr (by show addr < v ∨ v + (5 * N + 1) * (4 * N) ≤ addr; omega),
      WK addr (by
        show addr < p0 + (5 * N + 1) * 1 + 4 * N * (4 * N)
          ∨ p0 + (5 * N + 1) * 1 + 4 * N * (4 * N) + 1 * (4 * N) ≤ addr
        omega),
      WB0 addr (by show addr < v ∨ v + (5 * N + 1) * (4 * N) ≤ addr; omega)]
  · intro c hc
    refine (l2 c hc).trans ?_
    exact (get_of_within W2 (attach_matrix 1 (4 * N) (p0 + (5 * N + 1) * 1 + 4 * N * (4 * N)))
      0 c (by show 0 < 1; omega) hc (Or.inr (by
        show v + (5 * N + 1) * (4 * N) ≤ p0 + (5 * N + 1) * 1 + 4 * N * (4 * N)
        omega))).symm

end Phase2
section Phase1NoKCL
variable {α : Type} [LinearOrderedField α]

/-- The first block of `make_bcv_no_KCL` returns: `A` and `D` are assembled,
`DAV` holds `(D + A) * V`, and only cells of the arena before `BTB` are
written. -/
theorem noKCL_phase1_spec (cfg : Config α) (m : LibM α) (t : Terms α) (paths : Nat → path α)
    (b : boundary) (N v : Nat) (V : matrix) (h : Nat → α) (hcfg : cfg.valid)
    (hz : ZonePaths paths b) (hN : N = num_boundary_points paths b) (hv : v ≠ 0)
    (hVt : V.transpose = 0) (hVi : V.invert ≠ 1) (hVr : V.rows = 2 * N) (hVc : V.columns = 1)
    (hVv : V.value + 2 * N ≤ v) :
    ∃ hA hD h1,
      make_voltage_geometry_matrix m t paths b (attach_matrix (5 * N) (2 * N) v) h = some hA
      ∧ make_diagonal_matrix m paths b
          (attach_matrix (5 * N) (2 * N) (v + 5 * N * (2 * N))) hA = some hD
      ∧ noKCL_phase1 cfg m t paths b N v V h
        = some (h1, attach_matrix (5 * N) (2 * N) v, V,
            attach_matrix (5 * N) 1 (v + 5 * N * (2 * N) + 5 * N * (2 * N)))
      ∧ (∀ r, r < 5 * N →
          get_matrix_element h1
              (attach_matrix (5 * N) 1 (v + 5 * N * (2 * N) + 5 * N * (2 * N))) r 0
            = ∑ c in Finset.range (2 * N),
                (get_matrix_element hD
                    (attach_matrix (5 * N) (2 * N) (v + 5 * N * (2 * N))) r c
                  + get_matrix_element hD (attach_matrix (5 * N) (2 * N) v) r c)
                * get_matrix_element h V c 0)
      ∧ Within v (v + 5 * N * (2 * N) + 5 * N * (2 * N) + 5 * N) h h1
      ∧ (∀ r c, r < 5 * N → c < 2 * N →
          get_matrix_element h1 (attach_matrix (5 * N) (2 * N) v) r c
            = get_matrix_element hD (attach_matrix (5 * N) (2 * N) (v + 5 * N * (2 * N))) r c
              + get_matrix_element hD (attach_matrix (5 * N) (2 * N) v) r c)
      ∧ (∀ r c, r < 5 * N → c < 2 * N →
          get_matrix_element h1 (attach_matrix (5 * N) (2 * N) (v + 5 * N * (2 * N))) r c
            = get_matrix_element hD
                (attach_matrix (5 * N) (2 * N) (v + 5 * N * (2 * N))) r c) := by
  obtain ⟨hA, heA, WA⟩ := make_voltage_geometry_matrix_total m t paths b
    (attach_matrix (5 * N) (2 * N) v) h hz
    (by show num_boundary_points paths b * 5 ≤ 5 * N; omega)
    (by show num_boundary_points paths b * 2 ≤ 2 * N; omega)
  obtain ⟨hD, heD, WD⟩ := make_diagonal_matrix_total m paths b
    (attach_matrix (5 * N) (2 * N) (v + 5 * N * (2 * N))) hA hz
    (by show num_boundary_points paths b * 5 ≤ 5 * N; omega)
    (by show num_boundary_points paths b * 2 ≤ 2 * N; omega)
  obtain ⟨hS, heS, sS, WS⟩ := add_matrix_spec cfg hD
    (attach_matrix (5 * N) (2 * N) (v + 5 * N * (2 * N)))
    (attach_matrix (5 * N) (2 * N) v) (attach_matrix (5 * N) (2 * N) v)
    rfl rfl (by show (0 : Int) ≠ 1; decide) (by show (0 : Int) ≠ 1; decide) rfl rfl rfl hv rfl
    (Or.inr (by show v + 5 * N * (2 * N) ≤ v + 5 * N * (2 * N); omega))
  have hDA : product_header (attach_matrix (5 * N) (2 * N) v)
      (attach_matrix (5 * N) (2 * N) (v + 5 * N * (2 * N))).rows
      (attach_matrix (5 * N) (2 * N) (v + 5 * N * (2 * N))).columns
      = attach_matrix (5 * N) (2 * N) v := rfl
  rw [hDA] at heS sS
  have hVrows : get_num_rows V = 2 * N := by unfold get_num_rows; simp [hVt, hVr]
  have hVcols : get_num_columns V = 1 := by unfold get_num_columns; simp [hVt, hVc]
  obtain ⟨h1, he1, P1⟩ := multiply_matrix_spec cfg hS hS
    (attach_matrix (5 * N) (2 * N) v) (attach_matrix (5 * N) (2 * N) v) V
    (attach_matrix (5 * N) 1 (v + 5 * N * (2 * N) + 5 * N * (2 * N))) hcfg rfl rfl rfl rfl
    (by rw [hVrows]; rfl) (by rw [hVcols]; rfl)
    (by show v + 5 * N * (2 * N) + 5 * N * (2 * N) ≠ 0; omega) hVi hVt
    (Or.inl (by
      show v + 5 * N * (2 * N) ≤ v + 5 * N * (2 * N) + 5 * N * (2 * N)
      omega))
    (Or.inl (by
      show V.value + V.rows * V.columns ≤ v + 5 * N * (2 * N) + 5 * N * (2 * N)
      rw [hVr, hVc]
      omega))
  have hDAV : product_header (attach_matrix (5 * N) 1 (v + 5 * N * (2 * N) + 5 * N * (2 * N)))
      (get_num_rows (attach_matrix (5 * N) (2 * N) v)) (get_num_columns V)
      = attach_matrix (5 * N) 1 (v + 5 * N * (2 * N) + 5 * N * (2 * N)) := by
    rw [hVcols]
    rfl
  rw [hDAV] at he1 P1
  have W : Within v (v + 5 * N * (2 * N) + 5 * N * (2 * N)) h hS :=
    ((WA.mono (by show v ≤ v; omega) (by show v + 5 * N * (2 * N) ≤ _; omega)).trans
      (WD.mono (by show v ≤ v + 5 * N * (2 * N); omega)
        (by show v + 5 * N * (2 * N) + 5 * N * (2 * N) ≤ _; omega))).trans
      (WS.mono (by show v ≤ v; omega) (by show v + 5 * N * (2 * N) ≤ _; omega))
  refine ⟨hA, hD, h1, heA, heD, ?_, ?_, ?_, ?_, ?_⟩
  · unfold noKCL_phase1
    simp only [heA, Option.bind_eq_bind, Option.some_bind, Option.pure_def, after_attach,
      heD, heS, he1]
  · intro r hr
    rw [P1.1 r 0 hr (by rw [hVcols]; omega)]
    apply Finset.sum_congr rfl
    intro c hc
    have hc' : c < 2 * N := Finset.mem_range.mp hc
    rw [sS r c hr hc']
    congr 1
    exact get_of_within W V c 0 (by rw [hVrows]; exact hc') (by rw [hVcols]; omega)
      (Or.inl (by
        show V.value + V.rows * V.columns ≤ v
        rw [hVr, hVc]
        omega))
  · exact (W.mono (Nat.le_refl _) (by omega)).trans
      ((Within_of_IsProduct P1).mono
        (by show v ≤ v + 5 * N * (2 * N) + 5 * N * (2 * N); omega)
        (by
          show v + 5 * N * (2 * N) + 5 * N * (2 * N) + 5 * N * 1 ≤ _
          omega))
  · intro r c hr hc
    rw [get_of_within (Within_of_IsProduct P1) (attach_matrix (5 * N) (2 * N) v) r c hr hc
      (Or.inl (by
        show v + 5 * N * (2 * N) ≤ v + 5 * N * (2 * N) + 5 * N * (2 * N)
        omega))]
    exact sS r c hr hc
  · intro r c hr hc
    rw [get_of_within (Within_of_IsProduct P1)
      (attach_matrix (5 * N) (2 * N) (v + 5 * N * (2 * N))) r c hr hc
      (Or.inl (by
        show v + 5 * N * (2 * N) + 5 * N * (2 * N) ≤ v + 5 * N * (2 * N) + 5 * N * (2 * N)
        omega))]
    exact get_of_within WS (attach_matrix (5 * N) (2 * N) (v + 5 * N * (2 * N))) r c
      hr hc (Or.inr (by
        show v + 5 * N * (2 * N) ≤ v + 5 * N * (2 * N)
        omega))

end Phase1NoKCL

section Phase2NoKCL
variable {α : Type} [Field α]

/-- The second block of `make_bcv_no_KCL` up to the lazy transpose returns and
writes only the area of `B`. -/
theorem noKCL_phase2_spec (cfg : Config α) (m : LibM α) (t : Terms α) (paths : Nat → path α)
    (b : boundary) (N v p0 : Nat) (h : Nat → α)
    (hz : ZonePaths paths b) (hN : N = num_boundary_points paths b) (hv : v ≠ 0) :
    ∃ h2, noKCL_phase2 cfg m t paths b N v (attach_matrix (5 * N) 1 p0) h
        = some (h2, attach_matrix (5 * N) (4 * N) v,
            { attach_matrix (5 * N) (4 * N) v with transpose := 1 },
            attach_matrix (4 * N) (4 * N) (p0 + 5 * N * 1),
            attach_matrix (4 * N) 1 (p0 + 5 * N * 1 + 4 * N * (4 * N)))
      ∧ Within v (v + 5 * N * (4 * N)) h h2
      ∧ make_current_geometry_matrix m t paths b (attach_matrix (5 * N) (4 * N) v) h
          = some h2 := by
  obtain ⟨h2, he2, W2⟩ := make_current_geometry_matrix_total m t paths b
    (attach_matrix (5 * N) (4 * N) v) h hz
    (by show num_boundary_points paths b * 5 ≤ 5 * N; omega)
    (by show num_boundary_points paths b * 4 ≤ 4 * N; omega)
  have heT := transpose_matrix_self cfg h2 (attach_matrix (5 * N) (4 * N) v) hv
  have hBT : ({ attach_matrix (5 * N) (4 * N) v with
      transpose := 1 - (attach_matrix (5 * N) (4 * N) v).transpose } : matrix)
      = { attach_matrix (5 * N) (4 * N) v with transpose := 1 } := rfl
  rw [hBT] at heT
  refine ⟨h2, ?_, W2, he2⟩
  unfold noKCL_phase2
  simp only [after_attach, he2, heT, Option.bind_eq_bind, Option.some_bind, Option.pure_def]

end Phase2NoKCL

section NormalEq
variable {α : Type} [Field α]

end NormalEq

section RunKCL
variable {α : Type} [LinearOrderedField α]

theorem arena_split (N : Nat) :
    (5 * N + 1) * (4 * N) = (5 * N + 1) * (2 * N) + (5 * N + 1) * (2 * N) := by ring

/-- One run of `make_bcv_use_KCL` on a zone whose `bcv` is not cached: the call
returns, and the memories `hD` (after the assembly of `A` and `D`), `h4` (when
the lazy inversion starts), `h5` (when it has ended) and `h'` (at the end) are
related as stated. `v` is the arena, `p0`, `p1`, `p2` are the addresses of
`DAV`, `BTB`, `BTDAV`. -/
theorem make_bcv_use_KCL_run (cfg : Config α) (m : LibM α) (t : Terms α)
    (paths : Nat → path α) (mem : memory α) (b : boundary) (V J : matrix) (N v p0 p1 p2 : Nat)
    (hcfg : cfg.valid) (hz : ZonePaths paths b) (hN : N = num_boundary_points paths b)
    (hbcv : b.bcv = 0) (hbrk : mem.brk ≠ 0)
    (hVt : V.transpose = 0) (hVi : V.invert ≠ 1) (hVr : V.rows = 2 * N) (hVc : V.columns = 1)
    (hVv : V.value + 2 * N ≤ mem.brk)
    (hJr : get_num_rows J = 4 * N) (hJc : get_num_columns J = 1)
    (hv : v = mem.brk + 4 * N)
    (hp0 : p0 = v + (5 * N + 1) * (2 * N) + (5 * N + 1) * (2 * N))
    (hp1 : p1 = p0 + (5 * N + 1) * 1) (hp2 : p2 = p1 + 4 * N * (4 * N)) :
    ∃ hA hD h1 h2 h4 h5 h',
      make_bcv_use_KCL cfg m t paths mem b V J
        = some ({ cells := h', brk := mem.brk + get_num_rows J + (9 * N + 1) * (4 * N + 1) },
            { b with bcv := mem.brk }, V, product_header { J with value := mem.brk } (4 * N) 1)
      ∧ KCL_assemble_A m t paths { b with bcv := mem.brk } N v mem.cells
        = some (hA, attach_matrix (5 * N + 1) (2 * N) v,
            attach_matrix (5 * N + 1) (2 * N) (v + (5 * N + 1) * (2 * N)))
      ∧ KCL_assemble_D m paths { b with bcv := mem.brk }
          (attach_matrix (5 * N + 1) (2 * N) (v + (5 * N + 1) * (2 * N))) hA = some hD
      ∧ (∀ c, c < 2 * N →
          get_matrix_element hD (attach_matrix (5 * N + 1) (2 * N) v) (5 * N) c = 0
          ∧ get_matrix_element hD
              (attach_matrix (5 * N + 1) (2 * N) (v + (5 * N + 1) * (2 * N))) (5 * N) c = 0)
      ∧ (∀ r, r < 5 * N + 1 →
          get_matrix_element h' (attach_matrix (5 * N + 1) 1 p0) r 0
            = ∑ c in Finset.range (2 * N),
                (get_matrix_element hD
                    (attach_matrix (5 * N + 1) (2 * N) (v + (5 * N + 1) * (2 * N))) r c
                  + get_matrix_element hD (attach_matrix (5 * N + 1) (2 * N) v) r c)
                * get_matrix_element mem.cells V c 0)
      ∧ (∀ c, c < 4 * N →
          get_matrix_element h' (attach_matrix (5 * N + 1) (4 * N) v) (5 * N) c
            = get_matrix_element h2 (attach_matrix 1 (4 * N) p2) 0 c)
      ∧ (∀ i k, i < 4 * N → k < 4 * N →
          get_matrix_element h4 (attach_matrix (4 * N) (4 * N) p1) i k
            = gram (5 * N + 1)
                (fun r c => get_matrix_element h' (attach_matrix (5 * N + 1) (4 * N) v) r c) i k)
      ∧ invert_this_matrix cfg h4 { attach_matrix (4 * N) (4 * N) p1 with invert := 1 }
          = some (h5, attach_matrix (4 * N) (4 * N) p1)
      ∧ (∀ i k, i < 4 * N → k < 4 * N →
          get_matrix_element h' (attach_matrix (4 * N) (4 * N) p1) i k
            = get_matrix_element h5 (attach_matrix (4 * N) (4 * N) p1) i k)
      ∧ (∀ k, k < 4 * N →
          get_matrix_element h' (product_header { J with value := mem.brk } (4 * N) 1) k 0
            = ∑ j in Finset.range (4 * N),
                get_matrix_element h' (attach_matrix (4 * N) (4 * N) p1) k j
                * ∑ r in Finset.range (5 * N + 1),
                    get_matrix_element h' (attach_matrix (5 * N + 1) (4 * N) v) r j
                    * get_matrix_element h' (attach_matrix (5 * N + 1) 1 p0) r 0)
      ∧ (∀ addr, addr < mem.brk → h' addr = mem.cells addr)
      ∧ KCL_phase1 cfg m t paths { b with bcv := mem.brk } N v V mem.cells
        = some (h1, attach_matrix (5 * N + 1) (2 * N) v, V, attach_matrix (5 * N + 1) 1 p0)
      ∧ KCL_phase2 cfg m t paths { b with bcv := mem.brk } N v (attach_matrix (5 * N + 1) 1 p0) h1
        = some (h2, attach_matrix (5 * N + 1) (4 * N) v,
            { attach_matrix (5 * N + 1) (4 * N) v with transpose := 1 },
            attach_matrix (4 * N) (4 * N) p1, attach_matrix (4 * N) 1 p2) := by
  have hvne : v ≠ 0 := by omega
  have hsplit := arena_split N
  obtain ⟨hA, hD, h1, heA, heD, he1, c1, z1, W1, _, _⟩ := KCL_phase1_spec cfg m t paths
    { b with bcv := mem.brk } N v V mem.cells hcfg hz hN hvne hVt hVi hVr hVc (by omega)
  rw [← hp0] at he1 c1 W1
  obtain ⟨h2, he2, f2, l2, _⟩ := KCL_phase2_spec cfg m t paths { b with bcv := mem.brk } N v p0 h1
    hz hN hvne (by omega)
  rw [← hp1, ← hp2] at he2 f2 l2
  obtain ⟨h4, h5, h', he3, g3, i3, r3, j3, f3⟩ := KCL_solve_spec cfg hcfg (5 * N + 1) (4 * N) v p0
    p1 p2 { J with value := mem.brk } h2 hbrk
    (by
      show 4 * N * 1 = get_num_rows J * get_num_columns J
      rw [hJr, hJc])
    (by show mem.brk + 4 * N ≤ v; omega) (by omega) (by omega) (by omega)
  have hB : ∀ r c, r < 5 * N + 1 → c < 4 * N →
      get_matrix_element h' (attach_matrix (5 * N + 1) (4 * N) v) r c
        = get_matrix_element h2 (attach_matrix (5 * N + 1) (4 * N) v) r c := by
    intro r c hr hc
    rw [get_matrix_element_eq, get_matrix_element_eq]
    apply f3
    have := cell_mem (attach_matrix (5 * N + 1) (4 * N) v) (i := r) (j := c) hr hc
    have e1 : (attach_matrix (5 * N + 1) (4 * N) v).value = v := rfl
    have e2 : (attach_matrix (5 * N + 1) (4 * N) v).rows = 5 * N + 1 := rfl
    have e3 : (attach_matrix (5 * N + 1) (4 * N) v).columns = 4 * N := rfl
    have e4 : ({ J with value := mem.brk } : matrix).value = mem.brk := rfl
    rw [e1, e2, e3] at this
    rw [e4]
    omega
  have hDAV : ∀ r, r < 5 * N + 1 →
      get_matrix_element h' (attach_matrix (5 * N + 1) 1 p0) r 0
        = get_matrix_element h2 (attach_matrix (5 * N + 1) 1 p0) r 0 := by
    intro r hr
    rw [get_matrix_element_eq, get_matrix_element_eq]
    apply f3
    have := cell_mem (attach_matrix (5 * N + 1) 1 p0) (i := r) (j := 0) hr (by show 0 < 1; omega)
    have e1 : (attach_matrix (5 * N + 1) 1 p0).value = p0 := rfl
    have e2 : (attach_matrix (5 * N + 1) 1 p0).rows = 5 * N + 1 := rfl
    have e3 : (attach_matrix (5 * N + 1) 1 p0).columns = 1 := rfl
    have e4 : ({ J with value := mem.brk } : matrix).value = mem.brk := rfl
    rw [e1, e2, e3] at this
    rw [e4]
    omega
  have hDAV2 : ∀ r, r < 5 * N + 1 →
      get_matrix_element h2 (attach_matrix (5 * N + 1) 1 p0) r 0
        = get_matrix_element h1 (attach_matrix (5 * N + 1) 1 p0) r 0 := by
    intro r hr
    rw [get_matrix_element_eq, get_matrix_element_eq]
    apply f2
    have := cell_mem (attach_matrix (5 * N + 1) 1 p0) (i := r) (j := 0) hr (by show 0 < 1; omega)
    have e1 : (attach_matrix (5 * N + 1) 1 p0).value = p0 := rfl
    have e2 : (attach_matrix (5 * N + 1) 1 p0).rows = 5 * N + 1 := rfl
    have e3 : (attach_matrix (5 * N + 1) 1 p0).columns = 1 := rfl
    rw [e1, e2, e3] at this
    omega
  refine ⟨hA, hD, h1, h2, h4, h5, h', ?_, heA, heD, z1, ?_, ?_, ?_, i3, r3, ?_, ?_, he1, he2⟩
  · unfold make_bcv_use_KCL malloc
    simp only [if_pos hbcv, Option.bind_eq_bind, Option.pure_def]
    have hN' : num_boundary_points paths { b with bcv := mem.brk } = N := hN.symm
    have hvJ : mem.brk + get_num_rows J = v := by rw [hJr, hv]
    simp only [hN', hvJ, he1, he2, he3, Option.some_bind]
  · intro r hr
    rw [hDAV r hr, hDAV2 r hr]
    exact c1 r hr
  · intro c hc
    rw [hB (5 * N) c (by omega) hc]
    exact l2 c hc
  · intro i k hi hk
    rw [g3 i k hi hk]
    simp only [gram]
    apply Finset.sum_congr rfl
    intro r hr
    have hr' := Finset.mem_range.mp hr
    rw [hB r i hr' hi, hB r k hr' hk]
  · intro k hk
    rw [j3 k hk]
    apply Finset.sum_congr rfl
    intro j hj
    have hj' := Finset.mem_range.mp hj
    congr 1
    apply Finset.sum_congr rfl
    intro r hr
    have hr' := Finset.mem_range.mp hr
    rw [hB r j hr' hj', hDAV r hr']
  · intro addr haddr
    have e4 : ({ J with value := mem.brk } : matrix).value = mem.brk := rfl
    rw [f3 addr (by rw [e4]; omega), f2 addr (by omega), W1 addr (by omega)]

end RunKCL

section RunNoKCL
variable {α : Type} [LinearOrderedField α]

theorem arena_split_noKCL (N : Nat) :
    5 * N * (4 * N) = 5 * N * (2 * N) + 5 * N * (2 * N) := by ring

/-- One run of `make_bcv_no_KCL` on a zone whose `bcv` is not cached: the call
returns, and the memories `hD` (after the assembly of `A` and `D`), `h4` (when
the lazy inversion starts), `h5` (when it has ended) and `h'` (at the end) are
related as stated. `v` is the arena, `p0`, `p1` are the addresses of `DAV` and
`BTB`. -/
theorem make_bcv_no_KCL_run (cfg : Config α) (m : LibM α) (t : Terms α)
    (paths : Nat → path α) (mem : memory α) (b : boundary) (V J : matrix) (N v p0 p1 : Nat)
    (hcfg : cfg.valid) (hz : ZonePaths paths b) (hN : N = num_boundary_points paths b)
    (hbcv : b.bcv = 0) (hbrk : mem.brk ≠ 0)
    (hVt : V.transpose = 0) (hVi : V.invert ≠ 1) (hVr : V.rows = 2 * N) (hVc : V.columns = 1)
    (hVv : V.value + 2 * N ≤ mem.brk)
    (hJr : get_num_rows J = 4 * N) (hJc : get_num_columns J = 1)
    (hv : v = mem.brk + 4 * N)
    (hp0 : p0 = v + 5 * N * (2 * N) + 5 * N * (2 * N))
    (hp1 : p1 = p0 + 5 * N * 1) :
    ∃ hA hD h1 h2 h4 h5 h',
      make_bcv_no_KCL cfg m t paths mem b V J
        = some ({ cells := h', brk := mem.brk + get_num_rows J + no_KCL_arena_cells N },
            { b with bcv := mem.brk }, V, product_header { J with value := mem.brk } (4 * N) 1)
      ∧ make_voltage_geometry_matrix m t paths { b with bcv := mem.brk }
          (attach_matrix (5 * N) (2 * N) v) mem.cells = some hA
      ∧ make_diagonal_matrix m paths { b with bcv := mem.brk }
          (attach_matrix (5 * N) (2 * N) (v + 5 * N * (2 * N))) hA = some hD
      ∧ (∀ r, r < 5 * N →
          get_matrix_element h' (attach_matrix (5 * N) 1 p0) r 0
            = ∑ c in Finset.range (2 * N),
                (get_matrix_element hD
                    (attach_matrix (5 * N) (2 * N) (v + 5 * N * (2 * N))) r c
                  + get_matrix_element hD (attach_matrix (5 * N) (2 * N) v) r c)
                * get_matrix_element mem.cells V c 0)
      ∧ (∀ i k, i < 4 * N → k < 4 * N →
          get_matrix_element h4 (attach_matrix (4 * N) (4 * N) p1) i k
            = gram (5 * N)
                (fun r c => get_matrix_element h' (attach_matrix (5 * N) (4 * N) v) r c) i k)
      ∧ invert_this_matrix cfg h4 { attach_matrix (4 * N) (4 * N) p1 with invert := 1 }
          = some (h5, attach_matrix (4 * N) (4 * N) p1)
      ∧ (∀ i k, i < 4 * N → k < 4 * N →
          get_matrix_element h' (attach_matrix (4 * N) (4 * N) p1) i k
            = get_matrix_element h5 (attach_matrix (4 * N) (4 * N) p1) i k)
      ∧ (∀ k, k < 4 * N →
          get_matrix_element h' (product_header { J with value := mem.brk } (4 * N) 1) k 0
            = ∑ j in Finset.range (4 * N),
                get_matrix_element h' (attach_matrix (4 * N) (4 * N) p1) k j
                * ∑ r in Finset.range (5 * N),
                    get_matrix_element h' (attach_matrix (5 * N) (4 * N) v) r j
                    * get_matrix_element h' (attach_matrix (5 * N) 1 p0) r 0)
      ∧ (∀ addr, addr < mem.brk → h' addr = mem.cells addr)
      ∧ noKCL_phase1 cfg m t paths { b with bcv := mem.brk } N v V mem.cells
        = some (h1, attach_matrix (5 * N) (2 * N) v, V, attach_matrix (5 * N) 1 p0)
      ∧ noKCL_phase2 cfg m t paths { b with bcv := mem.brk } N v (attach_matrix (5 * N) 1 p0) h1
        = some (h2, attach_matrix (5 * N) (4 * N) v,
            { attach_matrix (5 * N) (4 * N) v with transpose := 1 },
            attach_matrix (4 * N) (4 * N) p1, attach_matrix (4 * N) 1 (p1 + 4 * N * (4 * N))) := by
  have hvne : v ≠ 0 := by omega
  have hsplit := arena_split_noKCL N
  obtain ⟨hA, hD, h1, heA, heD, he1, c1, W1, _, _⟩ := noKCL_phase1_spec cfg m t paths
    { b with bcv := mem.brk } N v V mem.cells hcfg hz hN hvne hVt hVi hVr hVc (by omega)
  rw [← hp0] at he1 c1 W1
  obtain ⟨h2, he2, W2, _⟩ := noKCL_phase2_spec cfg m t paths { b with bcv := mem.brk } N v p0 h1
    hz hN hvne
  rw [← hp1] at he2
  obtain ⟨h4, h5, h', he3, g3, i3, r3, j3, f3⟩ := KCL_solve_spec cfg hcfg (5 * N) (4 * N) v p0
    p1 (p1 + 4 * N * (4 * N)) { J with value := mem.brk } h2 hbrk
    (by
      show 4 * N * 1 = get_num_rows J * get_num_columns J
      rw [hJr, hJc])
    (by show mem.brk + 4 * N ≤ v; omega) (by omega) (by omega) (by omega)
  have hB : ∀ r c, r < 5 * N → c < 4 * N →
      get_matrix_element h' (attach_matrix (5 * N) (4 * N) v) r c
        = get_matrix_element h2 (attach_matrix (5 * N) (4 * N) v) r c := by
    intro r c hr hc
    rw [get_matrix_element_eq, get_matrix_element_eq]
    apply f3
    have := cell_mem (attach_matrix (5 * N) (4 * N) v) (i := r) (j := c) hr hc
    have e1 : (attach_matrix (5 * N) (4 * N) v).value = v := rfl
    have e2 : (attach_matrix (5 * N) (4 * N) v).rows = 5 * N := rfl
    have e3 : (attach_matrix (5 * N) (4 * N) v).columns = 4 * N := rfl
    have e4 : ({ J with value := mem.brk } : matrix).value = mem.brk := rfl
    rw [e1, e2, e3] at this
    rw [e4]
    omega
  have hDAV : ∀ r, r < 5 * N →
      get_matrix_element h' (attach_matrix (5 * N) 1 p0) r 0
        = get_matrix_element h1 (attach_matrix (5 * N) 1 p0) r 0 := by
    intro r hr
    rw [get_matrix_element_eq, get_matrix_element_eq]
    have := cell_mem (attach_matrix (5 * N) 1 p0) (i := r) (j := 0) hr (by show 0 < 1; omega)
    have e1 : (attach_matrix (5 * N) 1 p0).value = p0 := rfl
    have e2 : (attach_matrix (5 * N) 1 p0).rows = 5 * N := rfl
    have e3 : (attach_matrix (5 * N) 1 p0).columns = 1 := rfl
    have e4 : ({ J with value := mem.brk } : matrix).value = mem.brk := rfl
    rw [e1, e2, e3] at this
    rw [f3 _ (by rw [e4]; omega), W2 _ (by omega)]
  refine ⟨hA, hD, h1, h2, h4, h5, h', ?_, heA, heD, ?_, ?_, i3, r3, ?_, ?_, he1, he2⟩
  · unfold make_bcv_no_KCL malloc
    simp only [if_pos hbcv, Option.bind_eq_bind, Option.pure_def]
    have hN' : num_boundary_points paths { b with bcv := mem.brk } = N := hN.symm
    have hvJ : mem.brk + get_num_rows J = v := by rw [hJr, hv]
    simp only [hN', hvJ, he1, he2, he3, Option.some_bind]
  · intro r hr
    rw [hDAV r hr]
    exact c1 r hr
  · intro i k hi hk
    rw [g3 i k hi hk]
    simp only [gram]
    apply Finset.sum_congr rfl
    intro r hr
    have hr' := Finset.mem_range.mp hr
    rw [hB r i hr' hi, hB r k hr' hk]
  · intro k hk
    rw [j3 k hk]
    apply Finset.sum_congr rfl
    intro j hj
    have hj' := Finset.mem_range.mp hj
    congr 1
    apply Finset.sum_congr rfl
    intro r hr
    have hr' := Finset.mem_range.mp hr
    rw [hB r j hr' hj']
    congr 1
    rw [get_matrix_element_eq, get_matrix_element_eq]
    have := cell_mem (attach_matrix (5 * N) 1 p0) (i := r) (j := 0) hr' (by show 0 < 1; omega)
    have e1 : (attach_matrix (5 * N) 1 p0).value = p0 := rfl
    have e2 : (attach_matrix (5 * N) 1 p0).rows = 5 * N := rfl
    have e3 : (attach_matrix (5 * N) 1 p0).columns = 1 := rfl
    have e4 : ({ J with value := mem.brk } : matrix).value = mem.brk := rfl
    rw [e1, e2, e3] at this
    rw [f3 _ (by rw [e4]; omega)]
  · intro addr haddr
    have e4 : ({ J with value := mem.brk } : matrix).value = mem.brk := rfl
    rw [f3 addr (by rw [e4]; omega), W2 addr (by omega), W1 addr (by omega)]

end RunNoKCL

section NormalEquationsClaim

end NormalEquationsClaim
section Dispatch6

theorem finite_flag_iff (b : boundary) :
    forN (fun j (finite : Int) => if b.level j = 0 then 1 else finite) 0 b.components 0 = 1
      ↔ ∃ j, j < b.components ∧ b.level j = 0 := by
  have key := forN_inv
    (fun t (f : Int) => (f = 1 ↔ ∃ j, j < t ∧ b.level j = 0) ∧ (f = 0 ∨ f = 1))
    (fun j (finite : Int) => if b.level j = 0 then 1 else finite) 0 b.components 0
    ⟨⟨fun h => absurd h (by decide), fun ⟨j, hj, _⟩ => absurd hj (Nat.not_lt_zero j)⟩,
      Or.inl rfl⟩
    (by
      intro t _ f ⟨hiff, hf⟩
      rw [Nat.zero_add]
      beta_reduce
      by_cases hl : b.level t = 0
      · rw [if_pos hl]
        exact ⟨⟨fun _ => ⟨t, Nat.lt_succ_self t, hl⟩, fun _ => rfl⟩, Or.inr rfl⟩
      · rw [if_neg hl]
        refine ⟨⟨fun h1 => ?_, fun ⟨j, hj, hlj⟩ => ?_⟩, hf⟩
        · obtain ⟨j, hj, hlj⟩ := hiff.mp h1
          exact ⟨j, Nat.lt_succ_of_lt hj, hlj⟩
        · by_cases hjt : j = t
          · subst hjt
            exact absurd hlj hl
          · exact hiff.mpr ⟨j, by omega, hlj⟩)
  exact key.1

/-- C6. `make_boundary_current_vector` calls `make_bcv_use_KCL` if some
component `j` of the zone has `level[j] = 0` and `make_bcv_no_KCL` otherwise.
On a well-formed zone whose `bcv` is not cached, the first returns with the
last rows of `A` and `D` cleared and the last row of `B` (which has `5 N + 1`
rows) equal to the row vector `KCL` of PHASE 2; the second returns with a `B`
of `5 N` rows. -/
theorem make_boundary_current_vector_kcl_iff_finite {α : Type} [LinearOrderedField α]
    (cfg : Config α) (m : LibM α) (t : Terms α) (paths : Nat → path α) (mem : memory α)
    (b : boundary) (V J : matrix) :
    ((∃ j, j < b.components ∧ b.level j = 0) →
      make_boundary_current_vector cfg m t paths mem b V J
        = make_bcv_use_KCL cfg m t paths mem b V J)
    ∧ ((¬ ∃ j, j < b.components ∧ b.level j = 0) →
      make_boundary_current_vector cfg m t paths mem b V J
        = make_bcv_no_KCL cfg m t paths mem b V J)
    ∧ (∀ N v p0 p1 p2 q0 q1 : Nat, cfg.valid → ZonePaths paths b →
        N = num_boundary_points paths b → b.bcv = 0 → mem.brk ≠ 0 →
        V.transpose = 0 → V.invert = 0 → V.rows = 2 * N → V.columns = 1 →
        V.value + 2 * N ≤ mem.brk → get_num_rows J = 4 * N → get_num_columns J = 1 →
        v = mem.brk + 4 * N →
        p0 = v + (5 * N + 1) * (2 * N) + (5 * N + 1) * (2 * N) →
        p1 = p0 + (5 * N + 1) * 1 → p2 = p1 + 4 * N * (4 * N) →
        q0 = v + 5 * N * (2 * N) + 5 * N * (2 * N) → q1 = q0 + 5 * N * 1 →
        (∃ hA hD h1 h2 mem' J',
          make_bcv_use_KCL cfg m t paths mem b V J
            = some (mem', { b with bcv := mem.brk }, V, J')
          ∧ KCL_assemble_A m t paths { b with bcv := mem.brk } N v mem.cells
            = some (hA, attach_matrix (5 * N + 1) (2 * N) v,
                attach_matrix (5 * N + 1) (2 * N) (v + (5 * N + 1) * (2 * N)))
          ∧ KCL_assemble_D m paths { b with bcv := mem.brk }
              (attach_matrix (5 * N + 1) (2 * N) (v + (5 * N + 1) * (2 * N))) hA = some hD
          ∧ (∀ c, c < 2 * N →
              get_matrix_element hD (attach_matrix (5 * N + 1) (2 * N) v) (5 * N) c = 0
              ∧ get_matrix_element hD
                  (attach_matrix (5 * N + 1) (2 * N) (v + (5 * N + 1) * (2 * N))) (5 * N) c = 0)
          ∧ KCL_phase2 cfg m t paths { b with bcv := mem.brk } N v
              (attach_matrix (5 * N + 1) 1 p0) h1
            = some (h2, attach_matrix (5 * N + 1) (4 * N) v,
                { attach_matrix (5 * N + 1) (4 * N) v with transpose := 1 },
                attach_matrix (4 * N) (4 * N) p1, attach_matrix (4 * N) 1 p2)
          ∧ (∀ c, c < 4 * N →
              get_matrix_element mem'.cells (attach_matrix (5 * N + 1) (4 * N) v) (5 * N) c
                = get_matrix_element h2 (attach_matrix 1 (4 * N) p2) 0 c))
        ∧ (∃ h1 h2 mem' J',
          make_bcv_no_KCL cfg m t paths mem b V J
            = some (mem', { b with bcv := mem.brk }, V, J')
          ∧ noKCL_phase2 cfg m t paths { b with bcv := mem.brk } N v
              (attach_matrix (5 * N) 1 q0) h1
            = some (h2, attach_matrix (5 * N) (4 * N) v,
                { attach_matrix (5 * N) (4 * N) v with transpose := 1 },
                attach_matrix (4 * N) (4 * N) q1,
                attach_matrix (4 * N) 1 (q1 + 4 * N * (4 * N))))) := by
  refine ⟨?_, ?_, ?_⟩
  · intro hex
    unfold make_boundary_current_vector
    simp only [if_pos ((finite_flag_iff b).mpr hex)]
  · intro hex
    unfold make_boundary_current_vector
    simp only [if_neg (fun h => hex ((finite_flag_iff b).mp h))]
  · intro N v p0 p1 p2 q0 q1 hcfg hz hN hbcv hbrk hVt hVi hVr hVc hVv hJr hJc hv hp0 hp1 hp2
      hq0 hq1
    have hVi' : V.invert ≠ 1 := by rw [hVi]; decide
    refine ⟨?_, ?_⟩
    · obtain ⟨hA, hD, h1, h2, h4, h5, h', he, heA, heD, z1, _, l2, _, _, _, _, _, _, he2⟩ :=
        make_bcv_use_KCL_run cfg m t paths mem b V J N v p0 p1 p2
          hcfg hz hN hbcv hbrk hVt hVi' hVr hVc hVv hJr hJc hv hp0 hp1 hp2
      exact ⟨hA, hD, h1, h2, _, _, he, heA, heD, z1, he2, l2⟩
    · obtain ⟨hA, hD, h1, h2, h4, h5, h', he, _, _, _, _, _, _, _, _, _, he2⟩ :=
        make_bcv_no_KCL_run cfg m t paths mem b V J N v q0 q1
          hcfg hz hN hbcv hbrk hVt hVi' hVr hVc hVv hJr hJc hv hq0 hq1
      exact ⟨h1, h2, _, _, he, he2⟩

theorem make_boundary_current_vector_kcl_iff_finite_witness :
    (∃ j, j < (exZone 1).components ∧ (exZone 1).level j = 0)
    ∧ make_boundary_current_vector exCfg exLibM exTerms exPaths exMemory (exZone 1)
        (attach_matrix 8 1 1) (attach_matrix 16 1 0)
      = make_bcv_use_KCL exCfg exLibM exTerms exPaths exMemory (exZone 1)
        (attach_matrix 8 1 1) (attach_matrix 16 1 0)
    ∧ (∃ mem' J', make_bcv_use_KCL exCfg exLibM exTerms exPaths exMemory (exZone 1)
        (attach_matrix 8 1 1) (attach_matrix 16 1 0)
        = some (mem', { exZone 1 with bcv := 9 }, attach_matrix 8 1 1, J')) := by
  have hex : ∃ j, j < (exZone 1).components ∧ (exZone 1).level j = 0 :=
    ⟨0, by decide, rfl⟩
  have key := make_boundary_current_vector_kcl_iff_finite exCfg exLibM exTerms exPaths exMemory
    (exZone 1) (attach_matrix 8 1 1) (attach_matrix 16 1 0)
  have hcfg : exCfg.valid :=
    ⟨by decide, by decide, fun h => absurd rfl h, fun h => absurd h (by decide)⟩
  have hz : ZonePaths exPaths (exZone 1) := by
    intro j _
    exact ⟨by show (1 : Int) ≠ 0; decide, rfl⟩
  obtain ⟨⟨_, _, _, _, mem1, J1, he1, _⟩, _⟩ := key.2.2 4 25 361 382 638 345 365 hcfg hz
    (by decide) rfl (by decide) rfl rfl rfl rfl (by decide) rfl rfl rfl rfl rfl rfl rfl rfl
  exact ⟨hex, key.1 hex, mem1, J1, he1⟩

end Dispatch6

section PathAccess

/-- C13. With the arrays of a path allocated and `N = points ≥ 1`:
on a closed path every index `i ≥ 0` reads the stored node `i mod N`, or
`N - 1 - (i mod N)` when the path is reversed; on an open path an index
`0 ≤ i < N` reads node `i`, or `N - 1 - i` when reversed, and every other index
ends the program; a negative index ends the program on every path. This holds
for `get_path_xy` and `get_path_value` alike. -/
theorem get_path_indexing {α : Type} (p : path α) (fxy : Nat → coordinates α) (fv : Nat → α)
    (i : Int) (hN : 1 ≤ p.points) (hxy : p.xy = some fxy) (hv : p.value = some fv) :
    (p.close ≠ 0 → 0 ≤ i →
      (p.reverse = 0 →
        get_path_xy p i = some (fxy (i % (p.points : Int)).toNat)
        ∧ get_path_value p i = some (fv (i % (p.points : Int)).toNat))
      ∧ (p.reverse = 1 →
        get_path_xy p i = some (fxy ((p.points : Int) - 1 - i % (p.points : Int)).toNat)
        ∧ get_path_value p i = some (fv ((p.points : Int) - 1 - i % (p.points : Int)).toNat))
      ∧ 0 ≤ i % (p.points : Int) ∧ i % (p.points : Int) < p.points)
    ∧ (p.close = 0 → 0 ≤ i → i < p.points →
      (p.reverse = 0 →
        get_path_xy p i = some (fxy i.toNat) ∧ get_path_value p i = some (fv i.toNat))
      ∧ (p.reverse = 1 →
        get_path_xy p i = some (fxy ((p.points : Int) - 1 - i).toNat)
        ∧ get_path_value p i = some (fv ((p.points : Int) - 1 - i).toNat)))
    ∧ (p.close = 0 → (i < 0 ∨ (p.points : Int) ≤ i) →
      get_path_xy p i = none ∧ get_path_value p i = none)
    ∧ (i < 0 → get_path_xy p i = none ∧ get_path_value p i = none) := by
  have hNpos : (0 : Int) < p.points := by exact_mod_cast hN
  refine ⟨?_, ?_, ?_, ?_⟩
  · intro hc hi
    have hchk : check_path_index p i = some () := by
      unfold check_path_index
      simp [hc, not_lt.mpr hi]
    refine ⟨?_, ?_, Int.emod_nonneg i (by omega), Int.emod_lt_of_pos i hNpos⟩
    · intro hr
      unfold get_path_xy get_path_value
      simp [hxy, hv, hchk, hr, bind, pure]
    · intro hr
      unfold get_path_xy get_path_value
      simp [hxy, hv, hchk, hr, bind, pure]
  · intro hc hi hlt
    have hchk : check_path_index p i = some () := by
      unfold check_path_index
      simp [hc, not_lt.mpr hi, hlt]
    have hmod : i % (p.points : Int) = i := Int.emod_eq_of_lt hi hlt
    refine ⟨?_, ?_⟩
    · intro hr
      unfold get_path_xy get_path_value
      simp [hxy, hv, hchk, hr, hmod, bind, pure]
    · intro hr
      unfold get_path_xy get_path_value
      simp [hxy, hv, hchk, hr, hmod, bind, pure]
  · intro hc hout
    have hchk : check_path_index p i = none := by
      unfold check_path_index
      rw [if_pos hc, if_pos]
      rcases hout with h | h
      · exact Or.inl h
      · exact Or.inr h
    unfold get_path_xy get_path_value
    simp [hxy, hv, hchk, bind]
  · intro hneg
    have hchk : check_path_index p i = none := by
      unfold check_path_index
      by_cases hc : p.close = 0
      · rw [if_pos hc, if_pos (Or.inl hneg)]
      · rw [if_neg hc, if_pos hneg]
    unfold get_path_xy get_path_value
    simp [hxy, hv, hchk, bind]

theorem get_path_indexing_witness :
    get_path_xy exRect 6 = some (6, 8) ∧ get_path_value exRect 6 = some 14 := by
  have key := get_path_indexing exRect
    (fun i => [((0 : ℚ), (0 : ℚ)), (6, 0), (6, 8), (0, 8)].getD i (0, 0))
    (fun i => [(0 : ℚ), 6, 14, 8].getD i 0) 6 (by decide) rfl rfl
  have h := (key.1 (by decide) (by decide)).1 rfl
  exact h

end PathAccess

section Basis

/-- C16. `p2c_2basis(V, W)` yields `(W, 4 V)` and `p2c_4basis(J, K, L, M)`
yields `(M, 4 L, 16 K - M, 64 J - 8 L)`; the calls
`p2c_2basis(V, W, &V, &W)` and `p2c_4basis(J, K, L, M, &J, &K, &L, &M)` of the
call sites, whose outputs are the variables the inputs were read from, leave
these values in `V, W` and `J, K, L, M`; and the `_co` and `_ten` variants are
the scalar maps on each of the 2 and 4 components. -/
theorem p2c_basis_maps {α : Type} [Field α] (V W J K L M : α)
    (Vc Wc Jc Kc Lc Mc : coordinates α) (Vt Wt Jt Kt Lt Mt : tensor α)
    (st : Nat → α) (aV aW aJ aK aL aM : Nat)
    (hVW : aV ≠ aW)
    (hJKLM : aJ ≠ aK ∧ aJ ≠ aL ∧ aJ ≠ aM ∧ aK ≠ aL ∧ aK ≠ aM ∧ aL ≠ aM) :
    p2c_2basis V W = (W, 4 * V)
    ∧ p2c_4basis J K L M = (M, 4 * L, 16 * K - M, 64 * J - 8 * L)
    ∧ (p2c_2basis_call st (st aV) (st aW) aV aW aV = (p2c_2basis (st aV) (st aW)).1
      ∧ p2c_2basis_call st (st aV) (st aW) aV aW aW = (p2c_2basis (st aV) (st aW)).2)
    ∧ (p2c_4basis_call st (st aJ) (st aK) (st aL) (st aM) aJ aK aL aM aJ
        = (p2c_4basis (st aJ) (st aK) (st aL) (st aM)).1
      ∧ p2c_4basis_call st (st aJ) (st aK) (st aL) (st aM) aJ aK aL aM aK
        = (p2c_4basis (st aJ) (st aK) (st aL) (st aM)).2.1
      ∧ p2c_4basis_call st (st aJ) (st aK) (st aL) (st aM) aJ aK aL aM aL
        = (p2c_4basis (st aJ) (st aK) (st aL) (st aM)).2.2.1
      ∧ p2c_4basis_call st (st aJ) (st aK) (st aL) (st aM) aJ aK aL aM aM
        = (p2c_4basis (st aJ) (st aK) (st aL) (st aM)).2.2.2)
    ∧ p2c_2basis_co Vc Wc
        = (((p2c_2basis Vc.1 Wc.1).1, (p2c_2basis Vc.2 Wc.2).1),
           ((p2c_2basis Vc.1 Wc.1).2, (p2c_2basis Vc.2 Wc.2).2))
    ∧ p2c_4basis_co Jc Kc Lc Mc
        = (((p2c_4basis Jc.1 Kc.1 Lc.1 Mc.1).1, (p2c_4basis Jc.2 Kc.2 Lc.2 Mc.2).1),
           ((p2c_4basis Jc.1 Kc.1 Lc.1 Mc.1).2.1, (p2c_4basis Jc.2 Kc.2 Lc.2 Mc.2).2.1),
           ((p2c_4basis Jc.1 Kc.1 Lc.1 Mc.1).2.2.1, (p2c_4basis Jc.2 Kc.2 Lc.2 Mc.2).2.2.1),
           ((p2c_4basis Jc.1 Kc.1 Lc.1 Mc.1).2.2.2, (p2c_4basis Jc.2 Kc.2 Lc.2 Mc.2).2.2.2))
    ∧ p2c_2basis_ten Vt Wt
        = ((((p2c_2basis Vt.1.1 Wt.1.1).1, (p2c_2basis Vt.1.2 Wt.1.2).1),
            ((p2c_2basis Vt.2.1 Wt.2.1).1, (p2c_2basis Vt.2.2 Wt.2.2).1)),
           (((p2c_2basis Vt.1.1 Wt.1.1).2, (p2c_2basis Vt.1.2 Wt.1.2).2),
            ((p2c_2basis Vt.2.1 Wt.2.1).2, (p2c_2basis Vt.2.2 Wt.2.2).2)))
    ∧ p2c_4basis_ten Jt Kt Lt Mt
        = ((((p2c_4basis Jt.1.1 Kt.1.1 Lt.1.1 Mt.1.1).1,
              (p2c_4basis Jt.1.2 Kt.1.2 Lt.1.2 Mt.1.2).1),
            ((p2c_4basis Jt.2.1 Kt.2.1 Lt.2.1 Mt.2.1).1,
              (p2c_4basis Jt.2.2 Kt.2.2 Lt.2.2 Mt.2.2).1)),
           (((p2c_4basis Jt.1.1 Kt.1.1 Lt.1.1 Mt.1.1).2.1,
              (p2c_4basis Jt.1.2 Kt.1.2 Lt.1.2 Mt.1.2).2.1),
            ((p2c_4basis Jt.2.1 Kt.2.1 Lt.2.1 Mt.2.1).2.1,
              (p2c_4basis Jt.2.2 Kt.2.2 Lt.2.2 Mt.2.2).2.1)),
           (((p2c_4basis Jt.1.1 Kt.1.1 Lt.1.1 Mt.1.1).2.2.1,
              (p2c_4basis Jt.1.2 Kt.1.2 Lt.1.2 Mt.1.2).2.2.1),
            ((p2c_4basis Jt.2.1 Kt.2.1 Lt.2.1 Mt.2.1).2.2.1,
              (p2c_4basis Jt.2.2 Kt.2.2 Lt.2.2 Mt.2.2).2.2.1)),
           (((p2c_4basis Jt.1.1 Kt.1.1 Lt.1.1 Mt.1.1).2.2.2,
              (p2c_4basis Jt.1.2 Kt.1.2 Lt.1.2 Mt.1.2).2.2.2),
            ((p2c_4basis Jt.2.1 Kt.2.1 Lt.2.1 Mt.2.1).2.2.2,
              (p2c_4basis Jt.2.2 Kt.2.2 Lt.2.2 Mt.2.2).2.2.2))) := by
  obtain ⟨h1, h2, h3, h4, h5, h6⟩ := hJKLM
  refine ⟨rfl, rfl, ⟨?_, ?_⟩, ⟨?_, ?_, ?_, ?_⟩, rfl, rfl, rfl, rfl⟩
  · simp [p2c_2basis_call, p2c_2basis, Function.update, hVW]
  · simp [p2c_2basis_call, p2c_2basis, Function.update]
  · simp [p2c_4basis_call, p2c_4basis, Function.update, h1, h2, h3]
  · simp [p2c_4basis_call, p2c_4basis, Function.update, h4, h5]
  · simp [p2c_4basis_call, p2c_4basis, Function.update, h6]
  · simp [p2c_4basis_call, p2c_4basis, Function.update]

theorem p2c_basis_maps_witness :
    p2c_2basis (3 : ℚ) 5 = (5, 12)
    ∧ p2c_2basis_call (fun k => if k = 1 then (3 : ℚ) else 5) 3 5 1 2 1 = 5
    ∧ p2c_2basis_call (fun k => if k = 1 then (3 : ℚ) else 5) 3 5 1 2 2 = 12 := by
  have key := p2c_basis_maps (3 : ℚ) 5 0 0 0 0 (0, 0) (0, 0) (0, 0) (0, 0) (0, 0) (0, 0)
    ((0, 0), (0, 0)) ((0, 0), (0, 0)) ((0, 0), (0, 0)) ((0, 0), (0, 0)) ((0, 0), (0, 0))
    ((0, 0), (0, 0)) (fun k => if k = 1 then (3 : ℚ) else 5) 1 2 3 4 5 6 (by decide)
    (by decide)
  refine ⟨by rw [key.1]; norm_num, ?_, ?_⟩
  · have := key.2.2.1.1
    simpa [p2c_2basis] using this
  · have := key.2.2.1.2
    simp [p2c_2basis] at this
    rw [this]
    norm_num

end Basis

section Accessors

/-- C17. For either transpose flag and logical indices inside the matrix:
after `put_matrix_element(x, i, j, v)` the element `(i, j)` reads `v` and every
other element `(i', j')` reads what it read before; an untransposed matrix
keeps `(i, j)` at `value[j * rows + i]`, a transposed one at
`value[i * rows + j]`, the place of the physical element `(j, i)`. The block
accessors do the same at `(offset_i + i, offset_j + j)`. -/
theorem put_get_matrix_element {α : Type} (h : Nat → α) (x : matrix) (i j i' j' : Nat) (v : α)
    (oi oj : Nat)
    (hi : i < get_num_rows x) (hj : j < get_num_columns x)
    (hi' : i' < get_num_rows x) (hj' : j' < get_num_columns x)
    (hbi : oi + i < get_num_rows x) (hbj : oj + j < get_num_columns x) :
    get_matrix_element (put_matrix_element h x i j v) x i j = v
    ∧ ((i', j') ≠ (i, j) →
        get_matrix_element (put_matrix_element h x i j v) x i' j' = get_matrix_element h x i' j')
    ∧ (x.transpose = 0 →
        put_matrix_element h x i j v = Function.update h (x.value + (j * x.rows + i)) v
        ∧ get_matrix_element h x i j = h (x.value + (j * x.rows + i)))
    ∧ (x.transpose ≠ 0 →
        put_matrix_element h x i j v = Function.update h (x.value + (i * x.rows + j)) v
        ∧ get_matrix_element h x i j = h (x.value + (i * x.rows + j))
        ∧ get_matrix_element h x i j
          = get_matrix_element h { x with transpose := 0 } j i)
    ∧ put_block_matrix_element h x oi oj i j v = put_matrix_element h x (oi + i) (oj + j) v
    ∧ get_block_matrix_element h x oi oj i j = get_matrix_element h x (oi + i) (oj + j)
    ∧ get_block_matrix_element (put_block_matrix_element h x oi oj i j v) x oi oj i j = v
    ∧ ((i', j') ≠ (oi + i, oj + j) →
        get_matrix_element (put_block_matrix_element h x oi oj i j v) x i' j'
          = get_matrix_element h x i' j') := by
  have hblock : put_block_matrix_element h x oi oj i j v
      = put_matrix_element h x (oi + i) (oj + j) v := by
    unfold put_block_matrix_element put_matrix_element
    rfl
  have hgblock : ∀ g : Nat → α, get_block_matrix_element g x oi oj i j
      = get_matrix_element g x (oi + i) (oj + j) := by
    intro g
    unfold get_block_matrix_element get_matrix_element
    rfl
  have hother : ∀ a b : Nat, a < get_num_rows x → b < get_num_columns x → (i', j') ≠ (a, b) →
      get_matrix_element (put_matrix_element h x a b v) x i' j' = get_matrix_element h x i' j' := by
    intro a b ha hb hne
    rw [put_matrix_element_eq, get_matrix_element_eq, get_matrix_element_eq,
      Function.update_noteq]
    intro he
    have := cell_inj x hi' hj' ha hb he
    exact hne (by rw [this.1, this.2])
  refine ⟨?_, hother i j hi hj, ?_, ?_, hblock, hgblock h, ?_, ?_⟩
  · rw [put_matrix_element_eq, get_matrix_element_eq, Function.update_same]
  · intro ht
    unfold put_matrix_element get_matrix_element
    simp [ht]
  · intro ht
    unfold put_matrix_element get_matrix_element
    simp [ht]
  · rw [hgblock, hblock, put_matrix_element_eq, get_matrix_element_eq, Function.update_same]
  · intro hne
    rw [hblock]
    exact hother (oi + i) (oj + j) hbi hbj hne

theorem put_get_matrix_element_witness :
    get_matrix_element (put_matrix_element (memOfList [(2 : ℚ), 1, 1, 1]) exSquare 0 1 7)
        exSquare 0 1 = 7
    ∧ get_matrix_element (put_matrix_element (memOfList [(2 : ℚ), 1, 1, 1]) exSquare 0 1 7)
        exSquare 1 0
      = get_matrix_element (memOfList [(2 : ℚ), 1, 1, 1]) exSquare 1 0 := by
  have key := put_get_matrix_element (memOfList [(2 : ℚ), 1, 1, 1]) exSquare 0 1 1 0 7 0 0
    (by decide) (by decide) (by decide) (by decide) (by decide) (by decide)
  exact ⟨key.1, key.2.1 (by decide)⟩

end Accessors

section LocalFrame

/-- C18. For `Qa ≠ Qb`, with `d = sqrt(|Qb - Qa|^2)` positive and
`d * d = |Qb - Qa|^2` (what `sqrt` of math.h gives in real arithmetic),
`convert_PQ(Qa, Qb, P)` returns `(x, y1, y2)` with `y2 - y1 = d > 0`,
`x^2 + y1^2 = |Qa - P|^2`, `x^2 + y2^2 = |Qb - P|^2`, and `x * d` the cross
product of `Qa - P` and `Qb - Qa`, so that `|x|` is the distance from `P` to the
line through `Qa` and `Qb`; and `rotate_to_PQ(x, y1, Qa, Qb)` is `Qa - P`. -/
theorem convert_PQ_local_frame {α : Type} [LinearOrderedField α] (m : LibM α)
    (Qa Qb P : coordinates α) (hne : Qa ≠ Qb)
    (hsq : m.sqrt ((Qb.1 - Qa.1) * (Qb.1 - Qa.1) + (Qb.2 - Qa.2) * (Qb.2 - Qa.2))
      * m.sqrt ((Qb.1 - Qa.1) * (Qb.1 - Qa.1) + (Qb.2 - Qa.2) * (Qb.2 - Qa.2))
      = (Qb.1 - Qa.1) * (Qb.1 - Qa.1) + (Qb.2 - Qa.2) * (Qb.2 - Qa.2))
    (hpos : 0 ≤ m.sqrt ((Qb.1 - Qa.1) * (Qb.1 - Qa.1) + (Qb.2 - Qa.2) * (Qb.2 - Qa.2))) :
    (convert_PQ m Qa Qb P).2.2 - (convert_PQ m Qa Qb P).2.1
        = m.sqrt ((Qb.1 - Qa.1) * (Qb.1 - Qa.1) + (Qb.2 - Qa.2) * (Qb.2 - Qa.2))
    ∧ 0 < (convert_PQ m Qa Qb P).2.2 - (convert_PQ m Qa Qb P).2.1
    ∧ (convert_PQ m Qa Qb P).1 ^ 2 + (convert_PQ m Qa Qb P).2.1 ^ 2
        = (Qa.1 - P.1) ^ 2 + (Qa.2 - P.2) ^ 2
    ∧ (convert_PQ m Qa Qb P).1 ^ 2 + (convert_PQ m Qa Qb P).2.2 ^ 2
        = (Qb.1 - P.1) ^ 2 + (Qb.2 - P.2) ^ 2
    ∧ (convert_PQ m Qa Qb P).1
          * m.sqrt ((Qb.1 - Qa.1) * (Qb.1 - Qa.1) + (Qb.2 - Qa.2) * (Qb.2 - Qa.2))
        = (Qa.1 - P.1) * (Qb.2 - Qa.2) - (Qa.2 - P.2) * (Qb.1 - Qa.1)
    ∧ rotate_to_PQ m (convert_PQ m Qa Qb P).1 (convert_PQ m Qa Qb P).2.1 Qa Qb
        = (Qa.1 - P.1, Qa.2 - P.2) := by
  obtain ⟨a1, a2⟩ := Qa
  obtain ⟨b1, b2⟩ := Qb
  obtain ⟨p1, p2⟩ := P
  simp only at hsq hpos ⊢
  set d := m.sqrt ((b1 - a1) * (b1 - a1) + (b2 - a2) * (b2 - a2)) with hd
  have hs : 0 < (b1 - a1) * (b1 - a1) + (b2 - a2) * (b2 - a2) := by
    by_contra hcon
    have h0 : (b1 - a1) * (b1 - a1) + (b2 - a2) * (b2 - a2) = 0 :=
      le_antisymm (not_lt.mp hcon) (add_nonneg (mul_self_nonneg _) (mul_self_nonneg _))
    have h1 : b1 - a1 = 0 := by
      have := mul_self_nonneg (b2 - a2)
      have h1' : (b1 - a1) * (b1 - a1) = 0 :=
        le_antisymm (by linarith) (mul_self_nonneg _)
      exact mul_self_eq_zero.mp h1'
    have h2 : b2 - a2 = 0 := by
      have := mul_self_nonneg (b1 - a1)
      have h2' : (b2 - a2) * (b2 - a2) = 0 :=
        le_antisymm (by linarith) (mul_self_nonneg _)
      exact mul_self_eq_zero.mp h2'
    apply hne
    rw [sub_eq_zero.mp h1, sub_eq_zero.mp h2]
  have hdne : d ≠ 0 := by
    intro h0
    rw [h0, mul_zero] at hsq
    linarith
  have hdpos : 0 < d := lt_of_le_of_ne hpos (Ne.symm hdne)
  have hconv : convert_PQ m (a1, a2) (b1, b2) (p1, p2)
      = ((a1 - p1) * ((b2 - a2) / d) + (a2 - p2) * (-((b1 - a1) / d)),
         (a1 - p1) * ((b1 - a1) / d) + (a2 - p2) * ((b2 - a2) / d),
         (b1 - p1) * ((b1 - a1) / d) + (b2 - p2) * ((b2 - a2) / d)) := rfl
  have hrot : ∀ x y : α, rotate_to_PQ m x y (a1, a2) (b1, b2)
      = (x * ((b2 - a2) / d) + y * ((b1 - a1) / d),
         x * (-((b1 - a1) / d)) + y * ((b2 - a2) / d)) := fun _ _ => rfl
  rw [hconv]
  simp only [hrot]
  have hu : b1 - a1 = (b1 - a1) / d * d := by field_simp
  have hw : b2 - a2 = (b2 - a2) / d * d := by field_simp
  have hunit : (b1 - a1) / d * ((b1 - a1) / d) + (b2 - a2) / d * ((b2 - a2) / d) = 1 := by
    field_simp
    linear_combination -hsq
  generalize (b1 - a1) / d = u at hu hw hunit ⊢
  generalize (b2 - a2) / d = w at hu hw hunit ⊢
  have hb1 : b1 = a1 + u * d := by linear_combination hu
  have hb2 : b2 = a2 + w * d := by linear_combination hw
  have hy : (b1 - p1) * u + (b2 - p2) * w - ((a1 - p1) * u + (a2 - p2) * w) = d := by
    rw [hb1, hb2]
    linear_combination d * hunit
  refine ⟨hy, by rw [hy]; exact hdpos, ?_, ?_, ?_, ?_⟩
  · linear_combination ((a1 - p1) ^ 2 + (a2 - p2) ^ 2) * hunit
  · rw [hb1, hb2]
    linear_combination ((a1 - p1) ^ 2 + (a2 - p2) ^ 2
      + 2 * d * ((a1 - p1) * u + (a2 - p2) * w) + d ^ 2 * (u * u + w * w)) * hunit
  · rw [hb1, hb2]
    ring
  · refine Prod.ext ?_ ?_
    · show ((a1 - p1) * w + (a2 - p2) * -u) * w + ((a1 - p1) * u + (a2 - p2) * w) * u = a1 - p1
      linear_combination (a1 - p1) * hunit
    · show ((a1 - p1) * w + (a2 - p2) * -u) * -u + ((a1 - p1) * u + (a2 - p2) * w) * w = a2 - p2
      linear_combination (a2 - p2) * hunit

theorem convert_PQ_local_frame_witness :
    (convert_PQ exLibM (0, 0) (3, 4) (1, 1)).2.2 - (convert_PQ exLibM (0, 0) (3, 4) (1, 1)).2.1
      = 5
    ∧ rotate_to_PQ exLibM (convert_PQ exLibM (0, 0) (3, 4) (1, 1)).1
        (convert_PQ exLibM (0, 0) (3, 4) (1, 1)).2.1 (0, 0) (3, 4) = (0 - 1, 0 - 1) := by
  have h25 : exLibM.sqrt (((3 : ℚ) - 0) * (3 - 0) + (4 - 0) * (4 - 0)) = 5 := by
    show exSqrt _ = 5
    norm_num [exSqrt]
  have key := convert_PQ_local_frame exLibM ((0 : ℚ), (0 : ℚ)) (3, 4) (1, 1) (by decide)
    (by rw [h25]; norm_num) (by rw [h25]; norm_num)
  refine ⟨?_, key.2.2.2.2.2⟩
  rw [key.1]
  exact h25

end LocalFrame

section Sections
variable {α : Type} [LinearOrderedField α]

/-- The sample `i` of a section with at least two points is the affine
combination of its end points. -/
theorem xy_section_affine (sec : Section α) (hn : 2 ≤ sec.n) (i : Int) (h0 : 0 ≤ i)
    (h1 : i ≤ sec.n - 1) :
    xy_section sec i
      = (sec.P1.1 + (i : α) / ((sec.n - 1 : Int) : α) * (sec.P2.1 - sec.P1.1),
         sec.P1.2 + (i : α) / ((sec.n - 1 : Int) : α) * (sec.P2.2 - sec.P1.2)) := by
  have hne : ((sec.n - 1 : Int) : α) ≠ 0 := by
    have : (sec.n - 1 : Int) ≠ 0 := by omega
    exact_mod_cast this
  unfold xy_section
  by_cases hi0 : i = 0
  · subst hi0
    simp
  · rw [if_neg hi0]
    by_cases hi1 : i = sec.n - 1
    · rw [if_pos hi1, ← hi1]
      rw [← hi1] at hne
      rw [div_self hne]
      ext <;> simp
    · rw [if_neg hi1]
      ext
      · simp only []
        push_cast
        push_cast at hne
        field_simp
        ring
      · simp only []
        push_cast
        push_cast at hne
        field_simp
        ring

theorem section_samples (m : LibM α) (sec : Section α) (hn : 2 ≤ sec.n)
    (hstep : sec.step = m.sqrt ((sec.P2.1 - sec.P1.1) * (sec.P2.1 - sec.P1.1)
        + (sec.P2.2 - sec.P1.2) * (sec.P2.2 - sec.P1.2)) / ((sec.n - 1 : Int) : α))
    (hsq : m.sqrt ((sec.P2.1 - sec.P1.1) * (sec.P2.1 - sec.P1.1)
        + (sec.P2.2 - sec.P1.2) * (sec.P2.2 - sec.P1.2))
      * m.sqrt ((sec.P2.1 - sec.P1.1) * (sec.P2.1 - sec.P1.1)
        + (sec.P2.2 - sec.P1.2) * (sec.P2.2 - sec.P1.2))
      = (sec.P2.1 - sec.P1.1) * (sec.P2.1 - sec.P1.1)
        + (sec.P2.2 - sec.P1.2) * (sec.P2.2 - sec.P1.2)) :
    (∀ i : Int, 0 ≤ i → i ≤ sec.n - 1 →
      xy_section sec i
        = (sec.P1.1 + (i : α) / ((sec.n - 1 : Int) : α) * (sec.P2.1 - sec.P1.1),
           sec.P1.2 + (i : α) / ((sec.n - 1 : Int) : α) * (sec.P2.2 - sec.P1.2)))
    ∧ xy_section sec 0 = sec.P1
    ∧ xy_section sec (sec.n - 1) = sec.P2
    ∧ (∀ i : Int, 0 ≤ i → i < sec.n - 1 →
      ((xy_section sec (i + 1)).1 - (xy_section sec i).1)
          * ((xy_section sec (i + 1)).1 - (xy_section sec i).1)
        + ((xy_section sec (i + 1)).2 - (xy_section sec i).2)
          * ((xy_section sec (i + 1)).2 - (xy_section sec i).2)
        = sec.step * sec.step) := by
  have hne : ((sec.n - 1 : Int) : α) ≠ 0 := by
    have : (sec.n - 1 : Int) ≠ 0 := by omega
    exact_mod_cast this
  refine ⟨fun i h0 h1 => xy_section_affine sec hn i h0 h1, ?_, ?_, ?_⟩
  · simp [xy_section]
  · have h10 : sec.n - 1 ≠ 0 := by omega
    simp [xy_section, h10]
  · intro i h0 h1
    rw [xy_section_affine sec hn (i + 1) (by omega) (by omega),
      xy_section_affine sec hn i h0 (by omega), hstep]
    simp only []
    generalize hd : m.sqrt ((sec.P2.1 - sec.P1.1) * (sec.P2.1 - sec.P1.1)
        + (sec.P2.2 - sec.P1.2) * (sec.P2.2 - sec.P1.2)) = d at hsq
    generalize ((sec.n - 1 : Int) : α) = N at hne
    push_cast
    field_simp
    linear_combination (-1 : α) * hsq

end Sections

/-- C20. A section built by `put_sectionV2(Nseg, PA, PB)` with `Nseg >= 1`, or by
`put_section` from indices `i2 > i1`, has `n = Nseg + 1` (respectively
`i2 - i1 + 1`) points and `step = |P2 - P1| / (n - 1)`, where `|P2 - P1|` is
`sqrt` of the squared length; for `0 <= i <= n - 1`,
`xy_section(sec, i) = P1 + (i / (n - 1)) (P2 - P1)`; the first and the last
sample are `P1` and `P2`; and, `sqrt` squaring to its argument at the squared
length, the squared distance of consecutive samples is `step * step`. -/
theorem section_equispaced {α : Type} [LinearOrderedField α] (m : LibM α) (sec : Section α)
    (PA PB : coordinates α)
    (hsec : (∃ Nseg : Int, 1 ≤ Nseg ∧ sec = put_sectionV2 m Nseg PA PB)
      ∨ (∃ i1 i2 : Int, i1 < i2 ∧ sec = put_section m i1 PA i2 PB))
    (hsq : m.sqrt ((PB.1 - PA.1) * (PB.1 - PA.1) + (PB.2 - PA.2) * (PB.2 - PA.2))
      * m.sqrt ((PB.1 - PA.1) * (PB.1 - PA.1) + (PB.2 - PA.2) * (PB.2 - PA.2))
      = (PB.1 - PA.1) * (PB.1 - PA.1) + (PB.2 - PA.2) * (PB.2 - PA.2)) :
    ((∀ Nseg : Int, sec = put_sectionV2 m Nseg PA PB → sec.n = Nseg + 1)
      ∧ (∀ i1 i2 : Int, sec = put_section m i1 PA i2 PB → sec.n = i2 - i1 + 1))
    ∧ 2 ≤ sec.n ∧ sec.P1 = PA ∧ sec.P2 = PB
    ∧ sec.step = m.sqrt ((PB.1 - PA.1) * (PB.1 - PA.1) + (PB.2 - PA.2) * (PB.2 - PA.2))
        / ((sec.n - 1 : Int) : α)
    ∧ (∀ i : Int, 0 ≤ i → i ≤ sec.n - 1 →
      xy_section sec i
        = (PA.1 + (i : α) / ((sec.n - 1 : Int) : α) * (PB.1 - PA.1),
           PA.2 + (i : α) / ((sec.n - 1 : Int) : α) * (PB.2 - PA.2)))
    ∧ xy_section sec 0 = PA
    ∧ xy_section sec (sec.n - 1) = PB
    ∧ (∀ i : Int, 0 ≤ i → i < sec.n - 1 →
      ((xy_section sec (i + 1)).1 - (xy_section sec i).1)
          * ((xy_section sec (i + 1)).1 - (xy_section sec i).1)
        + ((xy_section sec (i + 1)).2 - (xy_section sec i).2)
          * ((xy_section sec (i + 1)).2 - (xy_section sec i).2)
        = sec.step * sec.step) := by
  have key : 2 ≤ sec.n ∧ sec.P1 = PA ∧ sec.P2 = PB
      ∧ sec.step = m.sqrt ((PB.1 - PA.1) * (PB.1 - PA.1) + (PB.2 - PA.2) * (PB.2 - PA.2))
          / ((sec.n - 1 : Int) : α) := by
    rcases hsec with ⟨Nseg, hN, rfl⟩ | ⟨i1, i2, hi, rfl⟩
    · refine ⟨?_, rfl, rfl, ?_⟩
      · show 2 ≤ Nseg + 1
        omega
      · show _ / ((Nseg : Int) : α) = _ / (((Nseg + 1) - 1 : Int) : α)
        rw [add_sub_cancel_right]
    · refine ⟨?_, rfl, rfl, ?_⟩
      · show 2 ≤ i2 - i1 + 1
        omega
      · show _ / ((i2 - i1 : Int) : α) = _ / (((i2 - i1 + 1) - 1 : Int) : α)
        rw [add_sub_cancel_right]
  obtain ⟨hn, hP1, hP2, hstep⟩ := key
  have hs := section_samples m sec hn (by rw [hP1, hP2]; exact hstep) (by rw [hP1, hP2]; exact hsq)
  rw [hP1, hP2] at hs
  refine ⟨⟨fun Nseg h => by rw [h]; rfl, fun i1 i2 h => by rw [h]; rfl⟩, hn, hP1, hP2, hstep,
    hs.1, hs.2.1, hs.2.2.1, hs.2.2.2⟩

theorem section_equispaced_witness :
    (put_sectionV2 exLibM 5 ((0 : ℚ), 0) (3, 4)).n = 6
    ∧ (put_sectionV2 exLibM 5 ((0 : ℚ), 0) (3, 4)).step = 1
    ∧ xy_section (put_sectionV2 exLibM 5 ((0 : ℚ), 0) (3, 4)) 2 = (6 / 5, 8 / 5)
    ∧ xy_section (put_sectionV2 exLibM 5 ((0 : ℚ), 0) (3, 4)) 3 = (9 / 5, 12 / 5)
    ∧ ((xy_section (put_sectionV2 exLibM 5 ((0 : ℚ), 0) (3, 4)) (2 + 1)).1
          - (xy_section (put_sectionV2 exLibM 5 ((0 : ℚ), 0) (3, 4)) 2).1)
          * ((xy_section (put_sectionV2 exLibM 5 ((0 : ℚ), 0) (3, 4)) (2 + 1)).1
          - (xy_section (put_sectionV2 exLibM 5 ((0 : ℚ), 0) (3, 4)) 2).1)
        + ((xy_section (put_sectionV2 exLibM 5 ((0 : ℚ), 0) (3, 4)) (2 + 1)).2
          - (xy_section (put_sectionV2 exLibM 5 ((0 : ℚ), 0) (3, 4)) 2).2)
          * ((xy_section (put_sectionV2 exLibM 5 ((0 : ℚ), 0) (3, 4)) (2 + 1)).2
          - (xy_section (put_sectionV2 exLibM 5 ((0 : ℚ), 0) (3, 4)) 2).2)
        = (put_sectionV2 exLibM 5 ((0 : ℚ), 0) (3, 4)).step
          * (put_sectionV2 exLibM 5 ((0 : ℚ), 0) (3, 4)).step := by
  have h25 : exLibM.sqrt ((3 - 0) * (3 - 0) + (4 - 0) * (4 - 0) : ℚ)
      * exLibM.sqrt ((3 - 0) * (3 - 0) + (4 - 0) * (4 - 0) : ℚ)
      = ((3 - 0) * (3 - 0) + (4 - 0) * (4 - 0) : ℚ) := by
    norm_num [exLibM, exSqrt]
  have h := section_equispaced exLibM (put_sectionV2 exLibM 5 ((0 : ℚ), 0) (3, 4))
    ((0 : ℚ), 0) (3, 4) (Or.inl ⟨5, by decide, rfl⟩) h25
  refine ⟨h.1.1 5 rfl, ?_, ?_, ?_, h.2.2.2.2.2.2.2.2 2 (by decide) (by decide)⟩
  · norm_num [put_sectionV2, exLibM, exSqrt]
  · norm_num [put_sectionV2, xy_section]
  · norm_num [put_sectionV2, xy_section]

section Area
variable {α world : Type} [LinearOrderedField α]

/-- Sum of `f prev + f x` over the consecutive pairs of `prev :: l`. -/
theorem pair_sum_cons (f : α × α → α) (x y : α × α) (l : List (α × α)) :
    ∑ i in Finset.range ((x :: y :: l).length - 1),
      (f ((x :: y :: l).getD i (0, 0)) + f ((x :: y :: l).getD (i + 1) (0, 0)))
    = f x + f y + ∑ i in Finset.range ((y :: l).length - 1),
      (f ((y :: l).getD i (0, 0)) + f ((y :: l).getD (i + 1) (0, 0))) := by
  simp only [List.length_cons, Nat.add_sub_cancel]
  rw [Finset.sum_range_succ']
  simp only [List.getD_cons_succ, List.getD_cons_zero]
  ring

theorem stream_index_succ (n n_stream : Int) (i : Nat) (hi : 1 ≤ i) :
    stream_index n n_stream (i + 1)
      = if (i : Int) * (n_stream - 1) ≥ (stream_index n n_stream i : Int) * n
        then stream_index n n_stream i + 1 else stream_index n n_stream i := by
  obtain ⟨j, rfl⟩ : ∃ j, i = j + 1 := ⟨i - 1, by omega⟩
  rw [stream_index]

theorem sin_theta_eq (m : LibM α) (mouth : Section α) (dV : coordinates α) :
    m.sqrt (1 - (if ((mouth.P2.1 - mouth.P1.1) / ((mouth.n - 1 : Int) : α) * dV.1
            + (mouth.P2.2 - mouth.P1.2) / ((mouth.n - 1 : Int) : α) * dV.2) / mouth.step
            * (((mouth.P2.1 - mouth.P1.1) / ((mouth.n - 1 : Int) : α) * dV.1
            + (mouth.P2.2 - mouth.P1.2) / ((mouth.n - 1 : Int) : α) * dV.2) / mouth.step)
            / (dV.1 * dV.1 + dV.2 * dV.2) > 1 then 1
          else ((mouth.P2.1 - mouth.P1.1) / ((mouth.n - 1 : Int) : α) * dV.1
            + (mouth.P2.2 - mouth.P1.2) / ((mouth.n - 1 : Int) : α) * dV.2) / mouth.step
            * (((mouth.P2.1 - mouth.P1.1) / ((mouth.n - 1 : Int) : α) * dV.1
            + (mouth.P2.2 - mouth.P1.2) / ((mouth.n - 1 : Int) : α) * dV.2) / mouth.step)
            / (dV.1 * dV.1 + dV.2 * dV.2)))
      = sin_theta m mouth dV := by
  unfold sin_theta
  simp only []
  congr 2
  split_ifs with h
  · exact (min_eq_left (le_of_lt h)).symm
  · exact (min_eq_right (not_lt.mp h)).symm

/-- One round of the loop of `catchment_area`. -/
theorem catchment_area_round (m : LibM α)
    (sl : world → coordinates α → Int → Int → α → Nat → bem_results α →
      Option (α × bem_results α × world))
    (mouth : Section α) (direction max_steps : Int) (step_size : α) (n_stream : Int)
    (i : Nat) (L_old s_old : α) (R : bem_results α) (C : α) (k : Nat) (w : world) :
    (fun i (st : α × α × bem_results α × α × Nat × world) => do
        let (L_old, s_theta_old, R, C_sum, k, w) := st
        let P := xy_section mouth i
        let (L_new, R, w, k) ←
          if (i : Int) * (n_stream - 1) ≥ (k : Int) * (mouth.n - 1) then do
            let (L_new, R, w) ← sl w P direction max_steps step_size k R
            pure (L_new, R, w, k + 1)
          else do
            let (L_new, R, w) ← sl w P direction max_steps step_size k R
            pure (L_new, R, w, k)
        let cosq_theta := ((mouth.P2.1 - mouth.P1.1) / ((mouth.n - 1 : Int) : α) * R.dV.1
          + (mouth.P2.2 - mouth.P1.2) / ((mouth.n - 1 : Int) : α) * R.dV.2) / mouth.step
        let cosq_theta := cosq_theta * cosq_theta / (R.dV.1 * R.dV.1 + R.dV.2 * R.dV.2)
        let cosq_theta := if cosq_theta > 1 then 1 else cosq_theta
        let s_theta_new := m.sqrt (1 - cosq_theta)
        let C_sum := C_sum + L_old * s_theta_old + L_new * s_theta_new
        pure (L_new, s_theta_new, R, C_sum, k, w)) i (L_old, s_old, R, C, k, w)
    = (sl w (xy_section mouth i) direction max_steps step_size k R).bind fun r =>
        some (r.1, sin_theta m mouth r.2.1.dV, r.2.1,
          C + L_old * s_old + r.1 * sin_theta m mouth r.2.1.dV,
          (if (i : Int) * (n_stream - 1) ≥ (k : Int) * (mouth.n - 1) then k + 1 else k),
          r.2.2) := by
  cases hsl : sl w (xy_section mouth i) direction max_steps step_size k R with
  | none =>
    by_cases hc : (i : Int) * (n_stream - 1) ≥ (k : Int) * (mouth.n - 1)
    · simp [hc, hsl, bind]
    · simp [hc, hsl, bind]
  | some r =>
    obtain ⟨L, R1, w1⟩ := r
    have hsin := sin_theta_eq m mouth R1.dV
    by_cases hc : (i : Int) * (n_stream - 1) ≥ (k : Int) * (mouth.n - 1)
    · simp only [hc, hsl, bind, Option.bind, pure, if_true, hsin]
    · simp only [hc, hsl, bind, Option.bind, pure, if_false, hsin]

/-- The loop of `catchment_area` from round `i` on, against the calls of
`mouth_streamlines`. -/
theorem catchment_area_loop (m : LibM α)
    (sl : world → coordinates α → Int → Int → α → Nat → bem_results α →
      Option (α × bem_results α × world))
    (mouth : Section α) (direction max_steps : Int) (step_size : α) (n_stream : Int)
    (body : Nat → α × α × bem_results α × α × Nat × world →
      Option (α × α × bem_results α × α × Nat × world))
    (hbody : ∀ i L_old s_old R C k w, body i (L_old, s_old, R, C, k, w)
      = (sl w (xy_section mouth i) direction max_steps step_size k R).bind fun r =>
        some (r.1, sin_theta m mouth r.2.1.dV, r.2.1,
          C + L_old * s_old + r.1 * sin_theta m mouth r.2.1.dV,
          (if (i : Int) * (n_stream - 1) ≥ (k : Int) * (mouth.n - 1) then k + 1 else k),
          r.2.2)) :
    ∀ (cnt i : Nat) (L_old s_old : α) (R : bem_results α) (C : α) (w : world), 1 ≤ i →
    (forNM body i cnt (L_old, s_old, R, C, stream_index (mouth.n - 1) n_stream i, w)).map
        (fun st => (st.2.2.2.1, st.2.2.2.2.2))
    = (mouth_streamlines m sl mouth direction max_steps step_size n_stream i cnt w R).map
        (fun r => (C + ∑ j in Finset.range (((L_old, s_old) :: r.1).length - 1),
          ((((L_old, s_old) :: r.1).getD j (0, 0)).1 * (((L_old, s_old) :: r.1).getD j (0, 0)).2
            + (((L_old, s_old) :: r.1).getD (j + 1) (0, 0)).1
              * (((L_old, s_old) :: r.1).getD (j + 1) (0, 0)).2), r.2.2)) := by
  intro cnt
  induction cnt with
  | zero =>
    intro i L_old s_old R C w _
    simp [forNM, mouth_streamlines]
  | succ cnt ih =>
    intro i L_old s_old R C w hi
    rw [forNM, mouth_streamlines, hbody]
    cases hsl : sl w (xy_section mouth i) direction max_steps step_size
        (stream_index (mouth.n - 1) n_stream i) R with
    | none => rfl
    | some r =>
      obtain ⟨L, R1, w1⟩ := r
      have hk := stream_index_succ (mouth.n - 1) n_stream i hi
      have key := ih (i + 1) L (sin_theta m mouth R1.dV) R1
        (C + L_old * s_old + L * sin_theta m mouth R1.dV) w1 (by omega)
      rw [hk] at key
      simp only [Option.bind]
      rw [key]
      cases hrest : mouth_streamlines m sl mouth direction max_steps step_size n_stream
        (i + 1) cnt w1 R1 with
      | none => rfl
      | some rest =>
        simp only [Option.map_some', Option.some.injEq, Prod.mk.injEq, and_true]
        rw [pair_sum_cons (fun x => x.1 * x.2)]
        ring

end Area
section AreaMain
variable {α world : Type} [LinearOrderedField α]

theorem mouth_streamlines_length (m : LibM α)
    (sl : world → coordinates α → Int → Int → α → Nat → bem_results α →
      Option (α × bem_results α × world))
    (mouth : Section α) (direction max_steps : Int) (step_size : α) (n_stream : Int) :
    ∀ (cnt i : Nat) (w : world) (R : bem_results α) r,
      mouth_streamlines m sl mouth direction max_steps step_size n_stream i cnt w R = some r →
      r.1.length = cnt := by
  intro cnt
  induction cnt with
  | zero =>
    intro i w R r h
    simp only [mouth_streamlines, Option.some.injEq] at h
    rw [← h]
    rfl
  | succ cnt ih =>
    intro i w R r h
    rw [mouth_streamlines] at h
    simp only [Option.bind_eq_some, Option.some.injEq] at h
    obtain ⟨r1, _, rest, hrest, h⟩ := h
    rw [← h]
    simp [ih (i + 1) _ _ rest hrest]

theorem catchment_area_eq (m : LibM α)
    (sl : world → coordinates α → Int → Int → α → Nat → bem_results α →
      Option (α × bem_results α × world))
    (w : world) (mouth : Section α) (direction max_steps : Int) (step_size : α)
    (n_stream : Int) (R : bem_results α) (hn : 1 ≤ mouth.n) :
    catchment_area m sl w mouth direction max_steps step_size n_stream R
      = (mouth_streamlines m sl mouth direction max_steps step_size n_stream
          0 mouth.n.toNat w R).map (fun r => (trapezoid_area mouth.step r.1, r.2.2)) := by
  obtain ⟨cnt, hcnt⟩ : ∃ cnt, mouth.n.toNat = cnt + 1 := ⟨mouth.n.toNat - 1, by omega⟩
  rw [hcnt, mouth_streamlines]
  unfold catchment_area
  simp only [forRangeM, hcnt, Nat.add_sub_cancel]
  have h0 : xy_section mouth ((0 : Nat) : Int) = xy_section mouth 0 := rfl
  rw [h0]
  have hs0 : stream_index (mouth.n - 1) n_stream 0 = 0 := by rw [stream_index]
  rw [hs0]
  cases hsl : sl w (xy_section mouth 0) direction max_steps step_size 0 R with
  | none => rfl
  | some r =>
    obtain ⟨L, R1, w1⟩ := r
    have hs1 : stream_index (mouth.n - 1) n_stream 1 = 1 := by rw [stream_index]
    have key := catchment_area_loop m sl mouth direction max_steps step_size n_stream
      (fun i (st : α × α × bem_results α × α × Nat × world) => do
        let (L_old, s_theta_old, R, C_sum, k, w) := st
        let P := xy_section mouth i
        let (L_new, R, w, k) ←
          if (i : Int) * (n_stream - 1) ≥ (k : Int) * (mouth.n - 1) then do
            let (L_new, R, w) ← sl w P direction max_steps step_size k R
            pure (L_new, R, w, k + 1)
          else do
            let (L_new, R, w) ← sl w P direction max_steps step_size k R
            pure (L_new, R, w, k)
        let cosq_theta := ((mouth.P2.1 - mouth.P1.1) / ((mouth.n - 1 : Int) : α) * R.dV.1
          + (mouth.P2.2 - mouth.P1.2) / ((mouth.n - 1 : Int) : α) * R.dV.2) / mouth.step
        let cosq_theta := cosq_theta * cosq_theta / (R.dV.1 * R.dV.1 + R.dV.2 * R.dV.2)
        let cosq_theta := if cosq_theta > 1 then 1 else cosq_theta
        let s_theta_new := m.sqrt (1 - cosq_theta)
        let C_sum := C_sum + L_old * s_theta_old + L_new * s_theta_new
        pure (L_new, s_theta_new, R, C_sum, k, w))
      (fun i L_old s_old R C k w =>
        catchment_area_round m sl mouth direction max_steps step_size n_stream i L_old s_old R C k w)
      cnt 1 L (sin_theta m mouth R1.dV) R1 0 w1 (le_refl 1)
    rw [hs1] at key
    simp only [bind, Option.bind, pure, sin_theta_eq] at key ⊢
    cases hloop : forNM _ 1 cnt (L, sin_theta m mouth R1.dV, R1, (0 : α), 1, w1) with
    | none =>
      rw [hloop] at key
      cases hrest : mouth_streamlines m sl mouth direction max_steps step_size n_stream
        (0 + 1) cnt w1 R1 with
      | none => rfl
      | some rest => rw [hrest] at key; simp at key
    | some st =>
      rw [hloop] at key
      cases hrest : mouth_streamlines m sl mouth direction max_steps step_size n_stream
        (0 + 1) cnt w1 R1 with
      | none => rw [hrest] at key; simp at key
      | some rest =>
        rw [hrest] at key
        simp only [Option.map_some', Option.some.injEq, Prod.mk.injEq] at key
        obtain ⟨st1, st2, st3, st4, st5, st6⟩ := st
        simp only at key
        simp only [Option.map_some', Option.some.injEq, Prod.mk.injEq]
        refine ⟨?_, key.2⟩
        rw [key.1]
        unfold trapezoid_area
        ring

end AreaMain

/-- C19. For a mouth section with `n >= 1` points and spacing `dw = mouth.step`,
`catchment_area` calls `streamline_loop` once for each mouth point
`i = 0, ..., n - 1`, in this order (each call starting from the world and the
results the previous call left), and returns, with `L_i` the value the `i`-th
call returns and `sin(theta_i) = sqrt(1 - min(1, cos^2(theta_i)))` computed from
the gradient it reports,
`(dw/2) * sum for i = 0..n-2 of (L_i sin(theta_i) + L_(i+1) sin(theta_(i+1)))`;
it ends the program exactly when one of these calls does. When the calls
return, there are `n` of them. -/
theorem catchment_area_trapezoid {α world : Type} [LinearOrderedField α] (m : LibM α)
    (streamline_loop : world → coordinates α → Int → Int → α → Nat → bem_results α →
      Option (α × bem_results α × world))
    (w : world) (mouth : Section α) (direction max_steps : Int) (step_size : α)
    (n_stream : Int) (R : bem_results α) (hn : 1 ≤ mouth.n) :
    catchment_area m streamline_loop w mouth direction max_steps step_size n_stream R
      = (mouth_streamlines m streamline_loop mouth direction max_steps step_size n_stream
          0 mouth.n.toNat w R).map
        (fun r => (mouth.step / 2 * ∑ i in Finset.range (r.1.length - 1),
          ((r.1.getD i (0, 0)).1 * (r.1.getD i (0, 0)).2
            + (r.1.getD (i + 1) (0, 0)).1 * (r.1.getD (i + 1) (0, 0)).2), r.2.2))
    ∧ ∀ r, mouth_streamlines m streamline_loop mouth direction max_steps step_size n_stream
          0 mouth.n.toNat w R = some r → (r.1.length : Int) = mouth.n :=
  ⟨catchment_area_eq m streamline_loop w mouth direction max_steps step_size n_stream R hn,
    fun r h => by
      rw [mouth_streamlines_length m streamline_loop mouth direction max_steps step_size
        n_stream _ _ _ _ r h]
      omega⟩

theorem catchment_area_trapezoid_witness :
    catchment_area exLibM exStreamline [] (put_sectionV2 exLibM 3 ((0 : ℚ), 0) (3, 0))
        1 (-1) 1 4 exResults
      = some (15 / 2, [(((0 : ℚ), (0 : ℚ)), 0), ((1, 0), 1), ((2, 0), 2), ((3, 0), 3)]) := by
  have h := (catchment_area_trapezoid exLibM exStreamline []
    (put_sectionV2 exLibM 3 ((0 : ℚ), 0) (3, 0)) 1 (-1) 1 4 exResults (by decide)).1
  rw [h]
  have hn : (put_sectionV2 exLibM 3 ((0 : ℚ), 0) (3, 0)).n.toNat = 4 := by decide
  rw [hn]
  simp only [mouth_streamlines, exStreamline, Option.bind, Option.map]
  norm_num [stream_index, sin_theta, xy_section, put_sectionV2, exLibM, exSqrt,
    Finset.sum_range_succ]

section ZoneMembership
variable {α : Type} [LinearOrderedField α]

/-- `check_zone` returns 0 or 1. -/
theorem check_zone_flag (m : LibM α) (paths : Nat → path α) (b : boundary) (P : coordinates α)
    (r : Int) (ps : Nat → path α) (h : check_zone m paths b P = some (r, ps)) :
    r = 0 ∨ r = 1 := by
  unfold check_zone at h
  simp only [bind, Option.bind_eq_some, pure, Option.some.injEq, Prod.mk.injEq] at h
  obtain ⟨count, _, h1, _⟩ := h
  rw [← h1]
  split_ifs
  · exact Or.inr rfl
  · exact Or.inl rfl

/-- What the scan loop of `check_each_zone` has seen when it ends. -/
theorem check_each_zone_loop_inv (m : LibM α) (paths : Nat → path α) (c : catchment)
    (P : coordinates α) :
    ∀ fuel k0 st, k0 ≤ c.num_zones →
      whileM (fun (st : Nat × Int × (Nat → path α)) => decide (st.1 < c.num_zones ∧ st.2.1 ≠ 0))
        (fun st => do
          let b := c.zones st.1
          let (r, paths) ← check_zone m st.2.2 b P
          let not_this_zone := if r = 1 then 0 else st.2.1
          pure (st.1 + 1, not_this_zone, paths))
        fuel (k0, 1, paths) = some st →
      (st = (c.num_zones, 1, paths)
        ∧ ∀ i, k0 ≤ i → i < c.num_zones →
          ∃ ps, check_zone m paths (c.zones i) P = some (0, ps))
      ∨ (∃ k, k0 ≤ k ∧ k < c.num_zones ∧ st = (k + 1, 0, paths)
        ∧ (∃ ps, check_zone m paths (c.zones k) P = some (1, ps))
        ∧ ∀ i, k0 ≤ i → i < k → ∃ ps, check_zone m paths (c.zones i) P = some (0, ps)) := by
  intro fuel
  induction fuel with
  | zero =>
    intro k0 st hk h
    rw [whileM] at h
    split_ifs at h with hc
    simp only [decide_eq_true_eq, not_and_or, not_lt] at hc
    simp only [Option.some.injEq] at h
    have : k0 = c.num_zones := by
      rcases hc with hc | hc
      · omega
      · exact absurd (by decide) hc
    subst this
    exact Or.inl ⟨h.symm, fun i h1 h2 => by omega⟩
  | succ fuel ih =>
    intro k0 st hk h
    rw [whileM] at h
    split_ifs at h with hc
    · simp only [decide_eq_true_eq] at hc
      cases hz : check_zone m paths (c.zones k0) P with
      | none => simp [hz, bind] at h
      | some v =>
        obtain ⟨r, ps⟩ := v
        have hps := check_zone_paths m paths _ P r ps hz
        subst hps
        rcases check_zone_flag m ps _ P r ps hz with hr | hr
        · subst hr
          simp only [hz, bind, Option.bind, pure] at h
          have h01 : ¬ ((0 : Int) = 1) := by decide
          rw [if_neg h01] at h
          rcases ih (k0 + 1) st (by omega) h with ⟨hst, hall⟩ | ⟨k, hk0, hkn, hst, hhit, hall⟩
          · refine Or.inl ⟨hst, fun i h1 h2 => ?_⟩
            by_cases hik : i = k0
            · subst hik
              exact ⟨_, hz⟩
            · exact hall i (by omega) h2
          · refine Or.inr ⟨k, by omega, hkn, hst, hhit, fun i h1 h2 => ?_⟩
            by_cases hik : i = k0
            · subst hik
              exact ⟨_, hz⟩
            · exact hall i (by omega) h2
        · subst hr
          simp only [hz, bind, Option.bind, pure, if_true] at h
          rw [whileM_done _ _ _ _ (by simp)] at h
          simp only [Option.some.injEq] at h
          exact Or.inr ⟨k0, le_refl _, hc.1, h.symm, ⟨_, hz⟩, fun i h1 h2 => by omega⟩
    · simp only [decide_eq_true_eq, not_and_or, not_lt] at hc
      simp only [Option.some.injEq] at h
      have : k0 = c.num_zones := by
        rcases hc with hc | hc
        · omega
        · exact absurd (by decide) hc
      subst this
      exact Or.inl ⟨h.symm, fun i h1 h2 => by omega⟩

end ZoneMembership

section MarkPaths

/-- Partial-correctness rule for `forNM`: an invariant kept by every round that
returns holds of the final state. -/
theorem forNM_some_inv {σ : Type} (Q : Nat → σ → Prop) (body : Nat → σ → Option σ) :
    ∀ (n lo : Nat) (s s' : σ), Q lo s →
      (∀ i s s', lo ≤ i → i < lo + n → Q i s → body i s = some s' → Q (i + 1) s') →
      forNM body lo n s = some s' → Q (lo + n) s' := by
  intro n
  induction n with
  | zero =>
    intro lo s s' h0 _ h
    simp only [forNM, Option.some.injEq] at h
    rw [← h]
    exact h0
  | succ n ih =>
    intro lo s s' h0 hstep h
    rw [forNM] at h
    cases hb : body lo s with
    | none => simp [hb] at h
    | some s1 =>
      rw [hb] at h
      have := ih (lo + 1) s1 s' (hstep lo s s1 (le_refl _) (by omega) h0 hb)
        (fun i s s' h1 h2 => hstep i s s' (by omega) (by omega)) h
      rw [show lo + (n + 1) = lo + 1 + n by omega]
      exact this

theorem reverse_all_paths_eq {α : Type} (paths : Nat → path α) (b : boundary) :
    reverse_all_paths paths b
      = reverse_zone paths { b with curve := 0, level := fun _ => 1 } := by
  unfold reverse_all_paths reverse_zone
  simp

theorem reverse_all_paths_twice {α : Type} (paths : Nat → path α) (b : boundary) :
    reverse_all_paths (reverse_all_paths paths b) b = paths := by
  rw [reverse_all_paths_eq, reverse_all_paths_eq, reverse_zone_twice]

variable {α : Type} [LinearOrderedField α]

/-- The inner loop of `count_paths`: the number of paths that path `j`
encloses. -/
theorem count_paths_inner (m : LibM α) (ps : Nat → path α) (b : boundary) (j : Nat) (pe : Int)
    (body : Nat → Int → Option Int)
    (h : forNM body 0 b.components 0 = some pe)
    (hb : ∀ i pe, body i pe
      = if i ≠ j then
          (get_path_xy (ps (b.loop i)) 0).bind fun P =>
            (distance_to_path m P (ps (b.loop j))).bind fun r =>
              if r.1 = 1 then some (pe + 1) else some pe
        else some pe) :
    pe = (paths_enclosed m ps b j : Int)
    ∧ ∀ i, i < b.components → i ≠ j → (encloses_test m ps b j i).isSome = true := by
  have key := forNM_some_inv
    (fun (n : Nat) (pe : Int) =>
      pe = (((Finset.range n).filter
        (fun i => i ≠ j ∧ encloses_test m ps b j i = some true)).card : Int)
      ∧ ∀ i, i < n → i ≠ j → (encloses_test m ps b j i).isSome = true)
    _ b.components 0 0 pe ⟨by simp, fun i hi => absurd hi (Nat.not_lt_zero _)⟩ ?_ h
  · rw [Nat.zero_add] at key
    exact key
  · intro i s s' _ _ ⟨hs, hall⟩ hbody
    rw [hb] at hbody
    by_cases hij : i = j
    · subst hij
      simp only [ne_eq, not_true_eq_false, if_false, Option.some.injEq] at hbody
      subst hbody
      refine ⟨?_, fun k hk hki => hall k (by omega) hki⟩
      rw [hs, Finset.range_succ, Finset.filter_insert]
      simp
    · simp only [ne_eq, hij, not_false_eq_true, if_true] at hbody
      cases hxy : get_path_xy (ps (b.loop i)) 0 with
      | none => simp [hxy] at hbody
      | some P =>
        cases hd : distance_to_path m P (ps (b.loop j)) with
        | none => simp [hxy, hd] at hbody
        | some v =>
          obtain ⟨r, v2, v3, v4⟩ := v
          have htest : encloses_test m ps b j i = some (decide (r = 1)) := by
            simp [encloses_test, hxy, hd, bind, pure]
          simp only [hxy, hd, Option.bind] at hbody
          refine ⟨?_, fun k hk hki => ?_⟩
          · rw [Finset.range_succ, Finset.filter_insert]
            by_cases hr : r = 1
            · simp only [hr, if_true, Option.some.injEq] at hbody
              subst hbody
              have : i ≠ j ∧ encloses_test m ps b j i = some true := ⟨hij, by simp [htest, hr]⟩
              rw [if_pos this, Finset.card_insert_of_not_mem (by simp), hs]
              push_cast
              ring
            · simp only [hr, if_false, Option.some.injEq] at hbody
              subst hbody
              have : ¬ (i ≠ j ∧ encloses_test m ps b j i = some true) := by
                simp [htest, hr]
              rw [if_neg this, hs]
          · by_cases hki2 : k = i
            · subst hki2
              simp [htest]
            · exact hall k (by omega) hki

/-- What `count_paths` returns for a zone of two or more components. -/
theorem count_paths_spec (m : LibM α) (paths : Nat → path α) (b : boundary)
    (hn : 2 ≤ b.components) (idx out ins : Int) (ps' : Nat → path α)
    (h : count_paths m paths b = some (idx, out, ins, ps')) :
    ps' = paths
    ∧ out = (((Finset.range b.components).filter (fun j =>
        paths_enclosed m (if b.curve = 1 then reverse_all_paths paths b else paths) b j
          = b.components - 1)).card : Int)
    ∧ ins = (((Finset.range b.components).filter (fun j =>
        paths_enclosed m (if b.curve = 1 then reverse_all_paths paths b else paths) b j
          = 0)).card : Int)
    ∧ out ≤ 1
    ∧ (0 < out → ∃ j, j < b.components ∧ idx = (j : Int)
        ∧ paths_enclosed m (if b.curve = 1 then reverse_all_paths paths b else paths) b j
          = b.components - 1)
    ∧ (∀ j, j < b.components → ∀ i, i < b.components → i ≠ j →
        (encloses_test m (if b.curve = 1 then reverse_all_paths paths b else paths) b j i).isSome
          = true) := by
  unfold count_paths at h
  have hn1 : b.components ≠ 1 := by omega
  simp only [hn1, if_false] at h
  generalize hps : (if b.curve = 1 then reverse_all_paths paths b else paths) = ps at h ⊢
  simp only [bind, Option.bind_eq_some, pure, Option.some.injEq, Prod.mk.injEq] at h
  obtain ⟨st, hloop, r, hr, h⟩ := h
  obtain ⟨i1, o1, n1⟩ := st
  subst hr
  simp only at h
  by_cases hout : o1 > 1
  · rw [if_pos hout] at h
    exact absurd h (by simp)
  rw [if_neg hout] at h
  simp only [Option.some.injEq, Prod.mk.injEq] at h
  obtain ⟨h1, h2, h3, h4⟩ := h
  subst h1 h2 h3
  have hback : ps' = paths := by
    rw [← h4, ← hps]
    by_cases hc : b.curve = 1
    · simp only [hc, if_true]
      exact reverse_all_paths_twice paths b
    · simp only [hc, if_false]
  have key := forNM_some_inv
    (fun (J : Nat) (st : Int × Int × Int) =>
      st.2.1 = (((Finset.range J).filter (fun j =>
          paths_enclosed m ps b j = b.components - 1)).card : Int)
      ∧ st.2.2 = (((Finset.range J).filter (fun j => paths_enclosed m ps b j = 0)).card : Int)
      ∧ (0 < st.2.1 → ∃ j, j < J ∧ st.1 = (j : Int)
          ∧ paths_enclosed m ps b j = b.components - 1)
      ∧ (∀ j, j < J → ∀ i, i < b.components → i ≠ j →
          (encloses_test m ps b j i).isSome = true))
    _ b.components 0 (-1, 0, 0) (i1, o1, n1)
    ⟨by simp, by simp, fun h => absurd h (by decide), fun j hj => absurd hj (Nat.not_lt_zero _)⟩
    ?_ hloop
  · rw [Nat.zero_add] at key
    exact ⟨hback, key.1, key.2.1, not_lt.mp hout, key.2.2.1, key.2.2.2⟩
  · intro J s s' _ hJ ⟨hso, hsi, hidx, hall⟩ hbody
    obtain ⟨i0, o0, n0⟩ := s
    simp only at hso hsi hidx
    simp only [Option.bind_eq_some, Option.some.injEq] at hbody
    obtain ⟨pe, hinner, hs'⟩ := hbody
    obtain ⟨hpe, htests⟩ := count_paths_inner m ps b J pe _ hinner (fun _ _ => rfl)
    subst hs'
    have hcast : (pe = (b.components : Int) - 1) ↔ paths_enclosed m ps b J = b.components - 1 := by
      rw [hpe]
      omega
    have hzero : (pe = 0) ↔ paths_enclosed m ps b J = 0 := by
      rw [hpe]
      omega
    refine ⟨?_, ?_, ?_, ?_⟩
    · simp only
      rw [Finset.range_succ, Finset.filter_insert]
      by_cases hA : paths_enclosed m ps b J = b.components - 1
      · rw [if_pos (hcast.mpr hA), if_pos hA, Finset.card_insert_of_not_mem (by simp)]
        simp only
        rw [hso]
        push_cast
        ring
      · rw [if_neg (fun hh => hA (hcast.mp hh)), if_neg hA]
        exact hso
    · simp only
      rw [Finset.range_succ, Finset.filter_insert]
      by_cases hB : paths_enclosed m ps b J = 0
      · rw [if_pos (hzero.mpr hB), if_pos hB, Finset.card_insert_of_not_mem (by simp)]
        rw [hsi]
        push_cast
        ring
      · rw [if_neg (fun hh => hB (hzero.mp hh)), if_neg hB]
        exact hsi
    · simp only
      by_cases hA : paths_enclosed m ps b J = b.components - 1
      · rw [if_pos (hcast.mpr hA)]
        intro _
        exact ⟨J, Nat.lt_succ_self _, rfl, hA⟩
      · rw [if_neg (fun hh => hA (hcast.mp hh))]
        intro hpos
        obtain ⟨j, hj, hij, hjA⟩ := hidx hpos
        exact ⟨j, by omega, hij, hjA⟩
    · intro j hj i hi hij
      by_cases hjJ : j = J
      · subst hjJ
        exact htests i hi hij
      · exact hall j (by omega) i hi hij

end MarkPaths
section MarkPathsMain
variable {α : Type} [LinearOrderedField α]

theorem mark_all_inside (level : Nat → Int) (n i : Nat) :
    forN (fun i (level : Nat → Int) => Function.update level i 1) 0 n level i
      = if i < n then 1 else level i := by
  induction n with
  | zero => simp [forN]
  | succ n ih =>
    rw [forN_succ, Nat.zero_add]
    by_cases hi : i = n
    · subst hi
      simp
    · rw [Function.update_noteq hi, ih]
      by_cases hlt : i < n
      · rw [if_pos hlt, if_pos (by omega)]
      · rw [if_neg hlt, if_neg (by omega)]

theorem mark_paths_spec (m : LibM α) (paths : Nat → path α) (b : boundary)
    (hn : 2 ≤ b.components) (b' : boundary) (paths' : Nat → path α)
    (h : mark_paths m paths b = some (b', paths')) :
    paths' = paths ∧ b'.curve = b.curve ∧ b'.components = b.components ∧ b'.loop = b.loop
    ∧ (∀ j, b.components ≤ j → b'.level j = b.level j)
    ∧ (∀ j, j < b.components → ∀ i, i < b.components → i ≠ j →
        (encloses_test m (if b.curve = 1 then reverse_all_paths paths b else paths) b j i).isSome
          = true)
    ∧ (∀ j, j < b.components →
        paths_enclosed m (if b.curve = 1 then reverse_all_paths paths b else paths) b j = 0
        ∨ paths_enclosed m (if b.curve = 1 then reverse_all_paths paths b else paths) b j
          = b.components - 1)
    ∧ (∀ j, j < b.components →
        (b'.level j = 0 ↔
          paths_enclosed m (if b.curve = 1 then reverse_all_paths paths b else paths) b j
            = b.components - 1)
        ∧ (b'.level j = 1 ↔
          paths_enclosed m (if b.curve = 1 then reverse_all_paths paths b else paths) b j = 0))
    ∧ (∀ j j', j < b.components → j' < b.components → b'.level j = 0 → b'.level j' = 0 →
        j = j') := by
  unfold mark_paths at h
  simp only [Option.bind_eq_bind, Option.bind_eq_some] at h
  obtain ⟨r, hcount, h⟩ := h
  obtain ⟨bpath, out, ins, ps1⟩ := r
  obtain ⟨hps, hout, hins, hle, hidx, htests⟩ := count_paths_spec m paths _ hn bpath out ins ps1 hcount
  generalize hpsdef : (if b.curve = 1 then reverse_all_paths paths b else paths) = ps
    at hout hins hidx htests ⊢
  simp only [pure] at h
  obtain ⟨b1, hb1, hb1c, hb1n, hb1l, h⟩ : ∃ b1 : boundary,
      ((out = 1 ∧ b1.level = Function.update
          (forN (fun i (level : Nat → Int) => Function.update level i 1) 0 b.components b.level)
          bpath.toNat 0)
        ∨ (¬ out = 1 ∧ b1.level
          = forN (fun i (level : Nat → Int) => Function.update level i 1) 0 b.components b.level))
      ∧ b1.curve = b.curve ∧ b1.components = b.components ∧ b1.loop = b.loop
      ∧ (if out + ins ≠ (b.components : Int) then none else some (b1, ps1))
          = some (b', paths') := by
    by_cases ho : out = 1
    · rw [if_pos ho, Option.some_bind] at h
      refine ⟨_, ?_, ?_, ?_, ?_, h⟩
      · exact Or.inl ⟨ho, rfl⟩
      · rfl
      · rfl
      · rfl
    · rw [if_neg ho, if_neg (not_lt.mpr hle), Option.some_bind] at h
      refine ⟨_, ?_, ?_, ?_, ?_, h⟩
      · exact Or.inr ⟨ho, rfl⟩
      · rfl
      · rfl
      · rfl
  by_cases hsum : out + ins ≠ (b.components : Int)
  · rw [if_pos hsum] at h
    exact absurd h (by simp)
  rw [if_neg hsum] at h
  simp only [Option.some.injEq, Prod.mk.injEq] at h
  obtain ⟨hb', hp'⟩ := h
  subst hb' hp'
  rw [not_not] at hsum
  -- every path is counted
  have hdisj : Disjoint
      ((Finset.range b.components).filter (fun j => paths_enclosed m ps b j = b.components - 1))
      ((Finset.range b.components).filter (fun j => paths_enclosed m ps b j = 0)) := by
    rw [Finset.disjoint_filter]
    intro j _ h1 h2
    omega
  have hall : ∀ j, j < b.components →
      paths_enclosed m ps b j = 0 ∨ paths_enclosed m ps b j = b.components - 1 := by
    have hcard : (((Finset.range b.components).filter
          (fun j => paths_enclosed m ps b j = b.components - 1))
        ∪ ((Finset.range b.components).filter (fun j => paths_enclosed m ps b j = 0))).card
        = (Finset.range b.components).card := by
      rw [Finset.card_union_of_disjoint hdisj, Finset.card_range]
      rw [hout, hins] at hsum
      exact_mod_cast hsum
    have hsub : (((Finset.range b.components).filter
          (fun j => paths_enclosed m ps b j = b.components - 1))
        ∪ ((Finset.range b.components).filter (fun j => paths_enclosed m ps b j = 0)))
        ⊆ Finset.range b.components :=
      Finset.union_subset (Finset.filter_subset _ _) (Finset.filter_subset _ _)
    have heq := Finset.eq_of_subset_of_card_le hsub (le_of_eq hcard.symm)
    intro j hj
    have hmem : j ∈ Finset.range b.components := Finset.mem_range.mpr hj
    rw [← heq, Finset.mem_union, Finset.mem_filter, Finset.mem_filter] at hmem
    rcases hmem with h1 | h1
    · exact Or.inr h1.2
    · exact Or.inl h1.2
  have hlev : ∀ j, j < b.components →
      (b1.level j = 0 ↔ paths_enclosed m ps b j = b.components - 1) := by
    rcases hb1 with ⟨ho, hb1⟩ | ⟨ho, hb1⟩
    · obtain ⟨j0, hj0, hbj, hpe0⟩ := hidx (by omega)
      have hcard1 : ((Finset.range b.components).filter
          (fun j => paths_enclosed m ps b j = b.components - 1)).card = 1 := by
        rw [ho] at hout
        exact_mod_cast hout.symm
      obtain ⟨a, ha⟩ := Finset.card_eq_one.mp hcard1
      have hj0mem : j0 ∈ (Finset.range b.components).filter
          (fun j => paths_enclosed m ps b j = b.components - 1) :=
        Finset.mem_filter.mpr ⟨Finset.mem_range.mpr hj0, hpe0⟩
      rw [ha, Finset.mem_singleton] at hj0mem
      subst hj0mem
      intro j hj
      have hbt : bpath.toNat = j0 := by omega
      rw [hb1, hbt]
      by_cases hjj : j = j0
      · subst hjj
        simp [hpe0]
      · rw [Function.update_noteq hjj, mark_all_inside, if_pos hj]
        constructor
        · intro h10
          exact absurd h10 (by decide)
        · intro hpe
          have : j ∈ (Finset.range b.components).filter
              (fun j => paths_enclosed m ps b j = b.components - 1) :=
            Finset.mem_filter.mpr ⟨Finset.mem_range.mpr hj, hpe⟩
          rw [ha, Finset.mem_singleton] at this
          exact absurd this hjj
    · have hcard0 : ((Finset.range b.components).filter
          (fun j => paths_enclosed m ps b j = b.components - 1)).card = 0 := by
        have : out = 0 := by
          have h0 : (0 : Int) ≤ out := by rw [hout]; exact Int.natCast_nonneg _
          omega
        rw [this] at hout
        exact_mod_cast hout.symm
      intro j hj
      rw [hb1, mark_all_inside, if_pos hj]
      constructor
      · intro h10
        exact absurd h10 (by decide)
      · intro hpe
        have : j ∈ (Finset.range b.components).filter
            (fun j => paths_enclosed m ps b j = b.components - 1) :=
          Finset.mem_filter.mpr ⟨Finset.mem_range.mpr hj, hpe⟩
        rw [Finset.card_eq_zero.mp hcard0] at this
        exact absurd this (Finset.not_mem_empty _)
  have hlev01 : ∀ j, j < b.components → b1.level j = 0 ∨ b1.level j = 1 := by
    intro j hj
    rcases hb1 with ⟨ho, hb1⟩ | ⟨ho, hb1⟩
    · by_cases hjj : j = bpath.toNat
      · subst hjj
        left
        rw [hb1]
        simp
      · right
        rw [hb1, Function.update_noteq hjj, mark_all_inside, if_pos hj]
    · right
      rw [hb1, mark_all_inside, if_pos hj]
  have hframe : b1.curve = b.curve ∧ b1.components = b.components ∧ b1.loop = b.loop
      ∧ ∀ j, b.components ≤ j → b1.level j = b.level j := by
    refine ⟨hb1c, hb1n, hb1l, fun j hj => ?_⟩
    rcases hb1 with ⟨ho, hb1⟩ | ⟨ho, hb1⟩
    · obtain ⟨j0, hj0, hbj, _⟩ := hidx (by omega)
      have hbt : bpath.toNat = j0 := by omega
      rw [hb1, hbt, Function.update_noteq (by omega), mark_all_inside, if_neg (by omega)]
    · rw [hb1, mark_all_inside, if_neg (not_lt.mpr hj)]
  refine ⟨hps, hframe.1, hframe.2.1, hframe.2.2.1, hframe.2.2.2, htests, hall, ?_, ?_⟩
  · intro j hj
    refine ⟨hlev j hj, ?_⟩
    constructor
    · intro h1
      rcases hall j hj with h0 | hA
      · exact h0
      · have := (hlev j hj).mpr hA
        rw [this] at h1
        exact absurd h1 (by decide)
    · intro h0
      rcases hlev01 j hj with hl | hl
      · have := (hlev j hj).mp hl
        omega
      · exact hl
  · intro j j' hj hj' hl hl'
    have h1 := (hlev j hj).mp hl
    have h2 := (hlev j' hj').mp hl'
    have hm1 : j ∈ (Finset.range b.components).filter
        (fun j => paths_enclosed m ps b j = b.components - 1) :=
      Finset.mem_filter.mpr ⟨Finset.mem_range.mpr hj, h1⟩
    have hm2 : j' ∈ (Finset.range b.components).filter
        (fun j => paths_enclosed m ps b j = b.components - 1) :=
      Finset.mem_filter.mpr ⟨Finset.mem_range.mpr hj', h2⟩
    have hcle : ((Finset.range b.components).filter
        (fun j => paths_enclosed m ps b j = b.components - 1)).card ≤ 1 := by
      rw [hout] at hle
      exact_mod_cast hle
    exact Finset.card_le_one.mp hcle j hm1 j' hm2

end MarkPathsMain

/-- C15 (counterexample). The unbounded zone outside the two rectangles `exRect`
and `exFarRect`, which lie side by side: `mark_paths` returns normally and
marks both paths with level 1, although neither path is enclosed by another
path of the zone. -/
theorem mark_paths_unbounded_zone_example :
    exOutsideZone.components = 2
    ∧ (mark_paths exLibM exPaths exOutsideZone).map (fun r => (r.1.level 0, r.1.level 1))
        = some (1, 1)
    ∧ paths_enclosing exLibM exPaths exOutsideZone 0 = 0
    ∧ paths_enclosing exLibM exPaths exOutsideZone 1 = 0 := by
  refine ⟨rfl, ?_, ?_, ?_⟩
  · decide!
  · decide!
  · decide!

/-- C15 (as the code has it). For a zone with two or more components on which
`mark_paths` returns, with the paths oriented as `count_paths` tests them (all
reversed when `curve = 1`): every test of a path against the first point of
another path returned; `count_paths` counted for each path `j` how many of the
other paths it encloses, and this number is `0` or `components - 1` for every
`j` (otherwise `mark_paths` ends the program); `level[j] = 0` exactly when
path `j` encloses all the other paths, `level[j] = 1` exactly when it encloses
none, and at most one path has level 0 (a zone in which no path encloses
another has none). The path structs are handed back as they were and nothing
of the zone but `level[0 .. components - 1]` changes. -/
theorem mark_paths_levels {α : Type} [LinearOrderedField α] (m : LibM α)
    (paths : Nat → path α) (b : boundary) (hn : 2 ≤ b.components) (b' : boundary)
    (paths' : Nat → path α) (h : mark_paths m paths b = some (b', paths')) :
    paths' = paths ∧ b'.curve = b.curve ∧ b'.components = b.components ∧ b'.loop = b.loop
    ∧ (∀ j, b.components ≤ j → b'.level j = b.level j)
    ∧ (∀ j, j < b.components → ∀ i, i < b.components → i ≠ j →
        (encloses_test m (if b.curve = 1 then reverse_all_paths paths b else paths) b j i).isSome
          = true)
    ∧ (∀ j, j < b.components →
        paths_enclosed m (if b.curve = 1 then reverse_all_paths paths b else paths) b j = 0
        ∨ paths_enclosed m (if b.curve = 1 then reverse_all_paths paths b else paths) b j
          = b.components - 1)
    ∧ (∀ j, j < b.components →
        (b'.level j = 0 ↔
          paths_enclosed m (if b.curve = 1 then reverse_all_paths paths b else paths) b j
            = b.components - 1)
        ∧ (b'.level j = 1 ↔
          paths_enclosed m (if b.curve = 1 then reverse_all_paths paths b else paths) b j = 0))
    ∧ (∀ j j', j < b.components → j' < b.components → b'.level j = 0 → b'.level j' = 0 →
        j = j') :=
  mark_paths_spec m paths b hn b' paths' h

theorem mark_paths_levels_witness :
    ∃ b' paths', mark_paths exLibM exNestedPaths exRingZone = some (b', paths')
      ∧ paths' = exNestedPaths
      ∧ (b'.level 1 = 0 ↔ paths_enclosed exLibM
          (if exRingZone.curve = 1 then reverse_all_paths exNestedPaths exRingZone
            else exNestedPaths) exRingZone 1 = exRingZone.components - 1)
      ∧ (b'.level 0 = 1 ↔ paths_enclosed exLibM
          (if exRingZone.curve = 1 then reverse_all_paths exNestedPaths exRingZone
            else exNestedPaths) exRingZone 0 = 0) := by
  cases hm : mark_paths exLibM exNestedPaths exRingZone with
  | none =>
    have hs : (mark_paths exLibM exNestedPaths exRingZone).isSome = true := by decide!
    rw [hm] at hs
    exact absurd hs (by decide)
  | some v =>
    obtain ⟨b', paths'⟩ := v
    have h := mark_paths_levels exLibM exNestedPaths exRingZone (by decide) b' paths' hm
    exact ⟨b', paths', rfl, h.1, (h.2.2.2.2.2.2.2.1 1 (by decide)).1,
      (h.2.2.2.2.2.2.2.1 0 (by decide)).2⟩

/-- The levels that `mark_paths` gives to the nested example: the hole gets
level 1, the outer rectangle level 0. -/
theorem mark_paths_nested_example :
    (mark_paths exLibM exNestedPaths exRingZone).map (fun r => (r.1.level 0, r.1.level 1))
      = some (1, 0) := by decide!

section FieldFrames

theorem check_each_zone_paths {α : Type} [LinearOrderedField α] (m : LibM α)
    (paths : Nat → path α) (c : catchment) (P : coordinates α) (r : Int) (ps : Nat → path α)
    (h : check_each_zone m paths c P = some (r, ps)) : ps = paths := by
  unfold check_each_zone at h
  simp only [bind, Option.bind_eq_some, pure, Option.some.injEq, Prod.mk.injEq] at h
  obtain ⟨st, hloop, _, hps⟩ := h
  rcases check_each_zone_loop_inv m paths c P c.num_zones 0 st (Nat.zero_le _) hloop with
    ⟨hst, _⟩ | ⟨k, _, _, hst, _, _⟩
  · rw [← hps, hst]
  · rw [← hps, hst]

theorem reverse_zone_congr {α : Type} (paths : Nat → path α) (b b' : boundary)
    (hc : b'.curve = b.curve) (hn : b'.components = b.components) (hl : b'.level = b.level)
    (ho : b'.loop = b.loop) : reverse_zone paths b' = reverse_zone paths b := by
  unfold reverse_zone
  rw [hc, hn, hl, ho]

variable {α : Type}

theorem make_boundary_voltage_vector_zone [Field α] (paths : Nat → path α) (mem : memory α)
    (b : boundary) (bvv : matrix) (mem' : memory α) (b' : boundary) (bvv' : matrix)
    (h : make_boundary_voltage_vector paths mem b bvv = some (mem', b', bvv')) :
    b'.curve = b.curve ∧ b'.components = b.components ∧ b'.level = b.level
    ∧ b'.loop = b.loop ∧ b'.bcv = b.bcv
    ∧ (b.bvv ≠ 0 → mem' = mem ∧ b' = b) := by
  unfold make_boundary_voltage_vector at h
  by_cases hb : b.bvv = 0
  · rw [if_pos hb] at h
    simp only [malloc, Option.bind_eq_bind, Option.bind_eq_some, pure, Option.some.injEq,
      Prod.mk.injEq] at h
    obtain ⟨_, _, _, hb', _⟩ := h
    rw [← hb']
    exact ⟨rfl, rfl, rfl, rfl, rfl, fun hne => absurd hb hne⟩
  · rw [if_neg hb] at h
    simp only [Option.some.injEq, Prod.mk.injEq] at h
    obtain ⟨hm, hb', _⟩ := h
    rw [← hb', ← hm]
    exact ⟨rfl, rfl, rfl, rfl, rfl, fun _ => ⟨rfl, rfl⟩⟩

theorem make_bcv_use_KCL_zone [LinearOrderedField α] (cfg : Config α) (m : LibM α)
    (t : Terms α) (paths : Nat → path α) (mem : memory α) (b : boundary) (V J : matrix)
    (mem' : memory α) (b' : boundary) (V' J' : matrix)
    (h : make_bcv_use_KCL cfg m t paths mem b V J = some (mem', b', V', J')) :
    b'.curve = b.curve ∧ b'.components = b.components ∧ b'.level = b.level
    ∧ b'.loop = b.loop ∧ b'.bvv = b.bvv
    ∧ (b.bcv ≠ 0 → mem' = mem ∧ b' = b) := by
  unfold make_bcv_use_KCL at h
  by_cases hb : b.bcv = 0
  · rw [if_pos hb] at h
    simp only [malloc, Option.bind_eq_bind, Option.bind_eq_some, pure, Option.some.injEq,
      Prod.mk.injEq] at h
    obtain ⟨_, _, _, _, _, _, _, hb', _⟩ := h
    rw [← hb']
    exact ⟨rfl, rfl, rfl, rfl, rfl, fun hne => absurd hb hne⟩
  · rw [if_neg hb] at h
    simp only [Option.some.injEq, Prod.mk.injEq] at h
    obtain ⟨hm, hb', _⟩ := h
    rw [← hb', ← hm]
    exact ⟨rfl, rfl, rfl, rfl, rfl, fun _ => ⟨rfl, rfl⟩⟩

theorem make_bcv_no_KCL_zone [LinearOrderedField α] (cfg : Config α) (m : LibM α)
    (t : Terms α) (paths : Nat → path α) (mem : memory α) (b : boundary) (V J : matrix)
    (mem' : memory α) (b' : boundary) (V' J' : matrix)
    (h : make_bcv_no_KCL cfg m t paths mem b V J = some (mem', b', V', J')) :
    b'.curve = b.curve ∧ b'.components = b.components ∧ b'.level = b.level
    ∧ b'.loop = b.loop ∧ b'.bvv = b.bvv
    ∧ (b.bcv ≠ 0 → mem' = mem ∧ b' = b) := by
  unfold make_bcv_no_KCL at h
  by_cases hb : b.bcv = 0
  · rw [if_pos hb] at h
    simp only [malloc, Option.bind_eq_bind, Option.bind_eq_some, pure, Option.some.injEq,
      Prod.mk.injEq] at h
    obtain ⟨_, _, _, _, _, _, _, hb', _⟩ := h
    rw [← hb']
    exact ⟨rfl, rfl, rfl, rfl, rfl, fun hne => absurd hb hne⟩
  · rw [if_neg hb] at h
    simp only [Option.some.injEq, Prod.mk.injEq] at h
    obtain ⟨hm, hb', _⟩ := h
    rw [← hb', ← hm]
    exact ⟨rfl, rfl, rfl, rfl, rfl, fun _ => ⟨rfl, rfl⟩⟩

theorem make_boundary_vector_zone [LinearOrderedField α] (cfg : Config α) (m : LibM α)
    (t : Terms α) (paths : Nat → path α) (mem : memory α) (b : boundary) (bvv bcv : matrix)
    (mem' : memory α) (b' : boundary) (bvv' bcv' : matrix)
    (h : make_boundary_vector cfg m t paths mem b bvv bcv = some (mem', b', bvv', bcv')) :
    b'.curve = b.curve ∧ b'.components = b.components ∧ b'.level = b.level
    ∧ b'.loop = b.loop
    ∧ (b.bvv ≠ 0 → b.bcv ≠ 0 → mem' = mem ∧ b' = b) := by
  unfold make_boundary_vector at h
  simp only [Option.bind_eq_bind, Option.bind_eq_some] at h
  obtain ⟨⟨mem1, b1, bvv1⟩, h1, h2⟩ := h
  simp only at h2
  obtain ⟨e1, e2, e3, e4, e5, e6⟩ := make_boundary_voltage_vector_zone paths mem b bvv mem1 b1 bvv1 h1
  unfold make_boundary_current_vector at h2
  simp only at h2
  split_ifs at h2
  · obtain ⟨f1, f2, f3, f4, f5, f6⟩ := make_bcv_use_KCL_zone cfg m t paths mem1 b1 bvv1 bcv
      mem' b' bvv' bcv' h2
    refine ⟨f1.trans e1, f2.trans e2, f3.trans e3, f4.trans e4, fun hv hc => ?_⟩
    obtain ⟨g1, g2⟩ := e6 hv
    obtain ⟨g3, g4⟩ := f6 (by rw [e5]; exact hc)
    exact ⟨g3.trans g1, g4.trans g2⟩
  · obtain ⟨f1, f2, f3, f4, f5, f6⟩ := make_bcv_no_KCL_zone cfg m t paths mem1 b1 bvv1 bcv
      mem' b' bvv' bcv' h2
    refine ⟨f1.trans e1, f2.trans e2, f3.trans e3, f4.trans e4, fun hv hc => ?_⟩
    obtain ⟨g1, g2⟩ := e6 hv
    obtain ⟨g3, g4⟩ := f6 (by rw [e5]; exact hc)
    exact ⟨g3.trans g1, g4.trans g2⟩

theorem make_internal_voltage_brk [Field α] (cfg : Config α) (m : LibM α) (t : Terms α)
    (paths : Nat → path α) (mem : memory α) (b : boundary) (bvv bcv : matrix)
    (P : coordinates α) (vgv cgv : matrix) (r : α × memory α × matrix × matrix × matrix × matrix)
    (h : make_internal_voltage cfg m t paths mem b bvv bcv P vgv cgv = some r) :
    r.2.1.brk = mem.brk := by
  unfold make_internal_voltage at h
  simp only [Option.bind_eq_bind, Option.bind_eq_some, pure, Option.some.injEq] at h
  obtain ⟨_, _, _, _, _, _, _, _, hr⟩ := h
  rw [← hr]

theorem make_internal_grad_voltage_brk [Field α] (m : LibM α) (t : Terms α)
    (cm : CoMatrix α) (paths : Nat → path α) (mem : memory α) (co : memory (coordinates α))
    (b : boundary) (bvv bcv : matrix) (P : coordinates α) (co_vgv co_cgv : co_matrix)
    (r : coordinates α × memory α × memory (coordinates α)
      × matrix × matrix × co_matrix × co_matrix)
    (h : make_internal_grad_voltage m t cm paths mem co b bvv bcv P co_vgv co_cgv = some r) :
    r.2.1.brk = mem.brk ∧ r.2.2.1.brk = co.brk := by
  unfold make_internal_grad_voltage at h
  simp only [Option.bind_eq_bind, Option.bind_eq_some, pure, Option.some.injEq] at h
  obtain ⟨_, _, _, _, _, _, _, _, hr⟩ := h
  rw [← hr]
  exact ⟨rfl, rfl⟩

theorem make_internal_sec_grad_voltage_brk [Field α] (cfg : Config α) (m : LibM α)
    (t : Terms α) (paths : Nat → path α) (mem : memory α) (ten : memory (tensor α))
    (b : boundary) (bvv bcv : matrix) (P : coordinates α) (ten_vgv ten_cgv : ten_matrix)
    (r : tensor α × memory α × memory (tensor α) × matrix × matrix × ten_matrix × ten_matrix)
    (h : make_internal_sec_grad_voltage cfg m t paths mem ten b bvv bcv P ten_vgv ten_cgv
      = some r) :
    r.2.1.brk = mem.brk ∧ r.2.2.1.brk = ten.brk := by
  unfold make_internal_sec_grad_voltage at h
  simp only [Option.bind_eq_bind, Option.bind_eq_some, pure, Option.some.injEq] at h
  obtain ⟨_, _, _, _, _, _, _, _, hr⟩ := h
  rw [← hr]
  exact ⟨rfl, rfl⟩

/-- `calculate_in_same_zone` hands back the path structs and allocates
nothing. -/
theorem calculate_in_same_zone_frame [Field α] (cfg : Config α) (m : LibM α) (t : Terms α)
    (cm : CoMatrix α) (w : heaps α) (b : boundary) (P : coordinates α) (x : bem_vectors)
    (R : bem_results α) (r : α × heaps α × bem_vectors × bem_results α)
    (h : calculate_in_same_zone cfg m t cm w b P x R = some r) :
    r.2.1.paths = w.paths ∧ r.2.1.mem.brk = w.mem.brk ∧ r.2.1.co.brk = w.co.brk
    ∧ r.2.1.ten.brk = w.ten.brk ∧ r.1 = r.2.2.2.V := by
  unfold calculate_in_same_zone at h
  simp only [Option.bind_eq_bind, Option.bind_eq_some, pure, Option.some.injEq] at h
  obtain ⟨r1, h1, r2, h2, r3, h3, hr⟩ := h
  have e1 := make_internal_voltage_brk cfg m t _ _ _ _ _ _ _ _ r1 h1
  have e2 := make_internal_grad_voltage_brk m t cm _ _ _ _ _ _ _ _ _ r2 h2
  have e3 := make_internal_sec_grad_voltage_brk cfg m t _ _ _ _ _ _ _ _ _ r3 h3
  rw [← hr]
  refine ⟨reverse_zone_twice _ _, ?_, e2.2, e3.2, rfl⟩
  exact e3.1.trans (e2.1.trans e1)

/-- `calculate_in_new_zone` hands back the path structs, changes nothing of the
zone but its cached vectors, and allocates nothing when both are cached. -/
theorem calculate_in_new_zone_frame [LinearOrderedField α] (cfg : Config α) (m : LibM α)
    (t : Terms α) (cm : CoMatrix α) (w : heaps α) (b : boundary) (P : coordinates α)
    (x : bem_vectors) (R : bem_results α)
    (r : α × heaps α × boundary × bem_vectors × bem_results α)
    (h : calculate_in_new_zone cfg m t cm w b P x R = some r) :
    r.2.1.paths = w.paths
    ∧ r.2.2.1.curve = b.curve ∧ r.2.2.1.components = b.components
    ∧ r.2.2.1.level = b.level ∧ r.2.2.1.loop = b.loop
    ∧ (b.bvv ≠ 0 → b.bcv ≠ 0 → r.2.1.mem.brk = w.mem.brk ∧ r.2.2.1 = b)
    ∧ r.2.1.co.brk = w.co.brk ∧ r.2.1.ten.brk = w.ten.brk := by
  unfold calculate_in_new_zone at h
  simp only [Option.bind_eq_bind, Option.bind_eq_some, pure, Option.some.injEq] at h
  obtain ⟨⟨mem1, b1, bvv1, bcv1⟩, h0, r1, h1, r2, h2, r3, h3, hr⟩ := h
  obtain ⟨z1, z2, z3, z4, z5⟩ := make_boundary_vector_zone cfg m t _ _ _ _ _ mem1 b1 bvv1 bcv1 h0
  have e1 := make_internal_voltage_brk cfg m t _ _ _ _ _ _ _ _ r1 h1
  have e2 := make_internal_grad_voltage_brk m t cm _ _ _ _ _ _ _ _ _ r2 h2
  have e3 := make_internal_sec_grad_voltage_brk cfg m t _ _ _ _ _ _ _ _ _ r3 h3
  rw [← hr]
  refine ⟨?_, z1, z2, z3, z4, fun hv hc => ?_, e2.2, e3.2⟩
  · show reverse_zone (reverse_zone w.paths b) b1 = w.paths
    rw [reverse_zone_congr _ b b1 z1 z2 z3 z4, reverse_zone_twice]
  · obtain ⟨g1, g2⟩ := z5 hv hc
    refine ⟨?_, g2⟩
    show r3.2.1.brk = w.mem.brk
    rw [e3.1, e2.1, e1, g1]

end FieldFrames
section ZoneCache
variable {α : Type} [LinearOrderedField α]

theorem paths_unchanged_of_eq (m : LibM α) (ps paths : Nat → path α) (h : ps = paths) :
    paths_unchanged m ps paths := by
  subst h
  exact fun a => ⟨rfl, fun _ => rfl, fun _ => rfl, rfl⟩

theorem check_zone_congr (m : LibM α) (paths : Nat → path α) (b b' : boundary)
    (P : coordinates α) (hc : b'.curve = b.curve) (hn : b'.components = b.components)
    (hl : b'.level = b.level) (ho : b'.loop = b.loop) :
    check_zone m paths b' P = check_zone m paths b P := by
  unfold check_zone
  simp only [reverse_zone_congr _ b b' hc hn hl ho, hn, ho]

theorem check_each_zone_congr (m : LibM α) (paths : Nat → path α) (c c' : catchment)
    (P : coordinates α) (hnz : c'.num_zones = c.num_zones)
    (hz : ∀ k, (c'.zones k).curve = (c.zones k).curve
      ∧ (c'.zones k).components = (c.zones k).components
      ∧ (c'.zones k).level = (c.zones k).level ∧ (c'.zones k).loop = (c.zones k).loop) :
    check_each_zone m paths c' P = check_each_zone m paths c P := by
  unfold check_each_zone
  have hbody : ∀ (q : Nat → path α) k,
      check_zone m q (c'.zones k) P = check_zone m q (c.zones k) P :=
    fun q k => check_zone_congr m q _ _ P (hz k).1 (hz k).2.1 (hz k).2.2.1 (hz k).2.2.2
  simp only [hnz, hbody]

/-- What one call of `calculate_inside_catchment` does to the catchment and the
heaps, by the zone that `check_each_zone` reports. -/
theorem calculate_inside_catchment_frame (cfg : Config α) (m : LibM α) (t : Terms α)
    (cm : CoMatrix α) (w : heaps α) (c : catchment) (P : coordinates α) (x : bem_vectors)
    (R : bem_results α) (k : Nat) (ps : Nat → path α)
    (hk : check_each_zone m w.paths c P = some ((k : Int), ps))
    (r : α × heaps α × catchment × bem_vectors × bem_results α × Int)
    (h : calculate_inside_catchment cfg m t cm w c P x R = some r) :
    r.2.1.paths = w.paths
    ∧ r.2.2.1.previous_zone = (k : Int)
    ∧ r.2.2.1.num_zones = c.num_zones
    ∧ (∀ j, (r.2.2.1.zones j).curve = (c.zones j).curve
        ∧ (r.2.2.1.zones j).components = (c.zones j).components
        ∧ (r.2.2.1.zones j).level = (c.zones j).level
        ∧ (r.2.2.1.zones j).loop = (c.zones j).loop)
    ∧ (c.previous_zone = (k : Int) →
        r.2.2.2.2.2 = 0 ∧ r.2.2.1 = c ∧ r.2.1.mem.brk = w.mem.brk
        ∧ (calculate_in_same_zone cfg m t cm w (c.zones k) P x R).map
            (fun s => (s.1, s.2.1, c, s.2.2.1, s.2.2.2, (0 : Int))) = some r)
    ∧ (c.previous_zone ≠ (k : Int) →
        r.2.2.2.2.2 = 1
        ∧ ((c.zones k).bvv ≠ 0 → (c.zones k).bcv ≠ 0 → r.2.1.mem.brk = w.mem.brk)) := by
  have hps := check_each_zone_paths m w.paths c P _ ps hk
  subst hps
  have hw : ({ paths := w.paths, mem := w.mem, co := w.co, ten := w.ten } : heaps α) = w := by
    cases w
    rfl
  unfold calculate_inside_catchment at h
  have hk0 : ¬ ((k : Int) < 0) := by omega
  simp only [hk, Option.bind_eq_bind, Option.some_bind, hk0, if_false, Int.toNat_ofNat, hw] at h
  by_cases hprev : (k : Int) = c.previous_zone
  · rw [if_pos hprev] at h
    simp only [Option.bind_eq_some, pure, Option.some.injEq] at h
    obtain ⟨s, hs, hr⟩ := h
    have hf := calculate_in_same_zone_frame cfg m t cm w (c.zones k) P x R s hs
    rw [← hr]
    refine ⟨hf.1, hprev.symm, rfl, fun j => ⟨rfl, rfl, rfl, rfl⟩, fun _ => ?_, fun hne => ?_⟩
    · exact ⟨rfl, rfl, hf.2.1, by rw [hs]; rfl⟩
    · exact absurd hprev.symm hne
  · rw [if_neg hprev] at h
    simp only [Option.bind_eq_some, pure, Option.some.injEq] at h
    obtain ⟨s, hs, hr⟩ := h
    have hf := calculate_in_new_zone_frame cfg m t cm w (c.zones k) P x R s hs
    rw [← hr]
    refine ⟨hf.1, rfl, rfl, fun j => ?_, fun he => absurd he.symm hprev, fun _ => ?_⟩
    · by_cases hj : j = k
      · subst hj
        show (Function.update c.zones j s.2.2.1 j).curve = _
          ∧ (Function.update c.zones j s.2.2.1 j).components = _
          ∧ (Function.update c.zones j s.2.2.1 j).level = _
          ∧ (Function.update c.zones j s.2.2.1 j).loop = _
        rw [Function.update_same]
        exact ⟨hf.2.1, hf.2.2.1, hf.2.2.2.1, hf.2.2.2.2.1⟩
      · show (Function.update c.zones k s.2.2.1 j).curve = _
          ∧ (Function.update c.zones k s.2.2.1 j).components = _
          ∧ (Function.update c.zones k s.2.2.1 j).level = _
          ∧ (Function.update c.zones k s.2.2.1 j).loop = _
        rw [Function.update_noteq hj]
        exact ⟨rfl, rfl, rfl, rfl⟩
    · exact ⟨rfl, fun hv hc => (hf.2.2.2.2.2.1 hv hc).1⟩

end ZoneCache

/-- C10. When `check_each_zone(c, P)` returns a negative index (no zone contains
`P`), `calculate_inside_catchment` returns 0 and does not end the program; it
sets `*new_z = -1`, `V = 0`, `dV = (0, 0)` and the four components of `d2V` to
0; the heaps (paths, allocated vectors, allocator), the catchment with its
`previous_zone` and its cached vectors, and `*vectors` are as before the call:
no boundary vector is made. -/
theorem calculate_inside_catchment_outside {α : Type} [LinearOrderedField α]
    (cfg : Config α) (m : LibM α) (t : Terms α) (cm : CoMatrix α) (w : heaps α)
    (c : catchment) (P : coordinates α) (vectors : bem_vectors) (voltage : bem_results α)
    (r : Int) (ps : Nat → path α) (h : check_each_zone m w.paths c P = some (r, ps))
    (hr : r < 0) :
    calculate_inside_catchment cfg m t cm w c P vectors voltage
      = some (0, w, c, vectors, { V := 0, dV := (0, 0), d2V := ((0, 0), (0, 0)) }, -1) := by
  have hps := check_each_zone_paths m w.paths c P r ps h
  subst hps
  unfold calculate_inside_catchment
  simp only [h, Option.bind_eq_bind, Option.some_bind, hr, if_true, pure]

theorem calculate_inside_catchment_outside_witness :
    calculate_inside_catchment exCfg exLibM exTerms exCoMatrix exHeaps exFieldCatchment
        ((15 : ℚ), 4) exVectors exResults
      = some (0, exHeaps, exFieldCatchment, exVectors,
          { V := 0, dV := (0, 0), d2V := ((0, 0), (0, 0)) }, -1) := by
  obtain ⟨ps, hps⟩ := option_fst_some
    (check_each_zone exLibM exHeaps.paths exFieldCatchment ((15 : ℚ), 4)) (-1) (by decide!)
  exact calculate_inside_catchment_outside exCfg exLibM exTerms exCoMatrix exHeaps
    exFieldCatchment ((15 : ℚ), 4) exVectors exResults (-1) ps hps (by decide)

/-- C12. `reverse_zone` applied twice gives back every path struct, whatever
the curve, the levels and the loop array of the zone (a path listed more than
once or shared with another zone included). Hence `check_zone`,
`calculate_in_same_zone` and `calculate_in_new_zone`, when they return, leave
the path structs as they were on entry: every reverse flag is as before, and
`get_path_xy`, `get_path_value` and `find_orientation` give the same results
for every path after the call as before it. -/
theorem scoped_orientation_flip {α : Type} [LinearOrderedField α] (cfg : Config α)
    (m : LibM α) (t : Terms α) (cm : CoMatrix α) :
    (∀ (paths : Nat → path α) (b : boundary), reverse_zone (reverse_zone paths b) b = paths)
    ∧ (∀ (paths : Nat → path α) (b : boundary) (P : coordinates α) (r : Int)
        (ps : Nat → path α), check_zone m paths b P = some (r, ps) →
        ps = paths ∧ paths_unchanged m ps paths)
    ∧ (∀ (w : heaps α) (b : boundary) (P : coordinates α) (x : bem_vectors)
        (R : bem_results α) r, calculate_in_same_zone cfg m t cm w b P x R = some r →
        r.2.1.paths = w.paths ∧ paths_unchanged m r.2.1.paths w.paths)
    ∧ (∀ (w : heaps α) (b : boundary) (P : coordinates α) (x : bem_vectors)
        (R : bem_results α) r, calculate_in_new_zone cfg m t cm w b P x R = some r →
        r.2.1.paths = w.paths ∧ paths_unchanged m r.2.1.paths w.paths) := by
  refine ⟨reverse_zone_twice, fun paths b P r ps h => ?_, fun w b P x R r h => ?_,
    fun w b P x R r h => ?_⟩
  · have := check_zone_paths m paths b P r ps h
    exact ⟨this, paths_unchanged_of_eq m _ _ this⟩
  · have := (calculate_in_same_zone_frame cfg m t cm w b P x R r h).1
    exact ⟨this, paths_unchanged_of_eq m _ _ this⟩
  · have := (calculate_in_new_zone_frame cfg m t cm w b P x R r h).1
    exact ⟨this, paths_unchanged_of_eq m _ _ this⟩

set_option maxRecDepth 100000 in
theorem scoped_orientation_flip_witness :
    (reverse_zone exFieldPaths exHoleZone 1).reverse = 1
    ∧ ∃ r, calculate_in_same_zone exCfg exLibM exTerms exCoMatrix exHeaps exHoleZone
        ((3 : ℚ), 4) exVectors exResults = some r
      ∧ r.2.1.paths = exFieldPaths ∧ paths_unchanged exLibM r.2.1.paths exFieldPaths := by
  refine ⟨by decide, ?_⟩
  cases hm : calculate_in_same_zone exCfg exLibM exTerms exCoMatrix exHeaps exHoleZone
      ((3 : ℚ), 4) exVectors exResults with
  | none =>
    have hs : (calculate_in_same_zone exCfg exLibM exTerms exCoMatrix exHeaps exHoleZone
      ((3 : ℚ), 4) exVectors exResults).isSome = true := by decide!
    rw [hm] at hs
    exact absurd hs (by decide)
  | some r =>
    exact ⟨r, rfl, (scoped_orientation_flip exCfg exLibM exTerms exCoMatrix).2.2.1
      exHeaps exHoleZone ((3 : ℚ), 4) exVectors exResults r hm⟩

/-- C11. Two consecutive calls of `calculate_inside_catchment` at `P1` and `P2`
for which `check_each_zone` reports the same zone `k >= 0` (for `P2` in the
catchment as loaded: the first call does not change what `check_each_zone`
reports). After the first call `previous_zone = k`; it reports `new_z = 0` when
`previous_zone` was `k` already and `new_z = 1` otherwise, and it allocates
nothing (no boundary vector is made) unless `new_z = 1` and `bvv` or `bcv` of
the zone was not cached. In the second call `check_each_zone` reports `k`
again, the call is `calculate_in_same_zone` on zone `k` (which has no call of
`make_boundary_vector`) with `new_z = 0`, the catchment is left as the first
call left it, and nothing is allocated. -/
theorem zone_cache_same_zone {α : Type} [LinearOrderedField α] (cfg : Config α)
    (m : LibM α) (t : Terms α) (cm : CoMatrix α) (w : heaps α) (c : catchment)
    (P1 P2 : coordinates α) (x : bem_vectors) (R : bem_results α) (k : Nat)
    (ps1 ps2 : Nat → path α)
    (h1 : check_each_zone m w.paths c P1 = some ((k : Int), ps1))
    (h2 : check_each_zone m w.paths c P2 = some ((k : Int), ps2))
    (r1 : α × heaps α × catchment × bem_vectors × bem_results α × Int)
    (hcall1 : calculate_inside_catchment cfg m t cm w c P1 x R = some r1) :
    r1.2.2.1.previous_zone = (k : Int)
    ∧ (r1.2.2.2.2.2 = 0 ∨ r1.2.2.2.2.2 = 1)
    ∧ (r1.2.2.2.2.2 = 0 ↔ c.previous_zone = (k : Int))
    ∧ (r1.2.1.mem.brk ≠ w.mem.brk →
        r1.2.2.2.2.2 = 1 ∧ ((c.zones k).bvv = 0 ∨ (c.zones k).bcv = 0))
    ∧ check_each_zone m r1.2.1.paths r1.2.2.1 P2 = some ((k : Int), r1.2.1.paths)
    ∧ calculate_inside_catchment cfg m t cm r1.2.1 r1.2.2.1 P2 r1.2.2.2.1 r1.2.2.2.2.1
        = (calculate_in_same_zone cfg m t cm r1.2.1 (r1.2.2.1.zones k) P2 r1.2.2.2.1
            r1.2.2.2.2.1).map
          (fun s => (s.1, s.2.1, r1.2.2.1, s.2.2.1, s.2.2.2, (0 : Int)))
    ∧ (∀ r2, calculate_inside_catchment cfg m t cm r1.2.1 r1.2.2.1 P2 r1.2.2.2.1 r1.2.2.2.2.1
          = some r2 →
        r2.2.2.2.2.2 = 0 ∧ r2.2.2.1 = r1.2.2.1 ∧ r2.2.1.mem.brk = r1.2.1.mem.brk) := by
  obtain ⟨f1, f2, f3, f4, f5, f6⟩ :=
    calculate_inside_catchment_frame cfg m t cm w c P1 x R k ps1 h1 r1 hcall1
  have hps2 := check_each_zone_paths m w.paths c P2 _ ps2 h2
  subst hps2
  have hsecond : check_each_zone m r1.2.1.paths r1.2.2.1 P2 = some ((k : Int), r1.2.1.paths) := by
    rw [f1, check_each_zone_congr m w.paths c r1.2.2.1 P2 f3 f4]
    exact h2
  have hcall2 : ∀ r2, calculate_inside_catchment cfg m t cm r1.2.1 r1.2.2.1 P2 r1.2.2.2.1
      r1.2.2.2.2.1 = some r2 →
      r2.2.2.2.2.2 = 0 ∧ r2.2.2.1 = r1.2.2.1 ∧ r2.2.1.mem.brk = r1.2.1.mem.brk
      ∧ (calculate_in_same_zone cfg m t cm r1.2.1 (r1.2.2.1.zones k) P2 r1.2.2.2.1
            r1.2.2.2.2.1).map
          (fun s => (s.1, s.2.1, r1.2.2.1, s.2.2.1, s.2.2.2, (0 : Int))) = some r2 := by
    intro r2 hr2
    have g := (calculate_inside_catchment_frame cfg m t cm r1.2.1 r1.2.2.1 P2 r1.2.2.2.1
      r1.2.2.2.2.1 k _ hsecond r2 hr2).2.2.2.2.1 f2
    exact ⟨g.1, g.2.1, g.2.2.1, g.2.2.2⟩
  refine ⟨f2, ?_, ?_, ?_, hsecond, ?_, fun r2 hr2 => ?_⟩
  · by_cases hp : c.previous_zone = (k : Int)
    · exact Or.inl (f5 hp).1
    · exact Or.inr (f6 hp).1
  · constructor
    · intro h0
      by_contra hp
      have := (f6 hp).1
      rw [h0] at this
      exact absurd this (by decide)
    · intro hp
      exact (f5 hp).1
  · intro hbrk
    by_cases hp : c.previous_zone = (k : Int)
    · exact absurd (f5 hp).2.2.1 hbrk
    · refine ⟨(f6 hp).1, ?_⟩
      by_contra hcached
      rw [not_or] at hcached
      exact hbrk ((f6 hp).2 hcached.1 hcached.2)
  · cases hc : calculate_inside_catchment cfg m t cm r1.2.1 r1.2.2.1 P2 r1.2.2.2.1
        r1.2.2.2.2.1 with
    | some r2 => exact ((hcall2 r2 hc).2.2.2).symm
    | none =>
      cases hs : calculate_in_same_zone cfg m t cm r1.2.1 (r1.2.2.1.zones k) P2 r1.2.2.2.1
          r1.2.2.2.2.1 with
      | none => rfl
      | some s =>
        exfalso
        have hw : heaps.mk r1.2.1.paths r1.2.1.mem r1.2.1.co r1.2.1.ten = r1.2.1 := rfl
        have hk0 : ¬ ((k : Int) < 0) := by omega
        unfold calculate_inside_catchment at hc
        simp only [hsecond, Option.bind_eq_bind, Option.some_bind, hk0, if_false,
          Int.toNat_ofNat, hw, f2, if_true, hs] at hc
        exact absurd hc (by simp [pure])
  · have g := hcall2 r2 hr2
    exact ⟨g.1, g.2.1, g.2.2.1⟩

set_option maxRecDepth 100000 in
theorem zone_cache_same_zone_witness :
    ∃ r1, calculate_inside_catchment exCfg exLibM exTerms exCoMatrix exHeaps exFieldCatchment
        ((3 : ℚ), 4) exVectors exResults = some r1
      ∧ r1.2.2.1.previous_zone = 0
      ∧ calculate_inside_catchment exCfg exLibM exTerms exCoMatrix r1.2.1 r1.2.2.1
          ((9 : ℚ), 6) r1.2.2.2.1 r1.2.2.2.2.1
        = (calculate_in_same_zone exCfg exLibM exTerms exCoMatrix r1.2.1 (r1.2.2.1.zones 0)
            ((9 : ℚ), 6) r1.2.2.2.1 r1.2.2.2.2.1).map
          (fun s => (s.1, s.2.1, r1.2.2.1, s.2.2.1, s.2.2.2, (0 : Int))) := by
  obtain ⟨ps1, h1⟩ := option_fst_some
    (check_each_zone exLibM exHeaps.paths exFieldCatchment ((3 : ℚ), 4)) ((0 : Nat) : Int)
    (by decide!)
  obtain ⟨ps2, h2⟩ := option_fst_some
    (check_each_zone exLibM exHeaps.paths exFieldCatchment ((9 : ℚ), 6)) ((0 : Nat) : Int)
    (by decide!)
  cases hm : calculate_inside_catchment exCfg exLibM exTerms exCoMatrix exHeaps
      exFieldCatchment ((3 : ℚ), 4) exVectors exResults with
  | none =>
    have hs : (calculate_inside_catchment exCfg exLibM exTerms exCoMatrix exHeaps
      exFieldCatchment ((3 : ℚ), 4) exVectors exResults).isSome = true := by decide!
    rw [hm] at hs
    exact absurd hs (by decide)
  | some r1 =>
    have h := zone_cache_same_zone exCfg exLibM exTerms exCoMatrix exHeaps exFieldCatchment
      ((3 : ℚ), 4) ((9 : ℚ), 6) exVectors exResults 0 ps1 ps2 h1 h2 r1 hm
    exact ⟨r1, rfl, h.1, h.2.2.2.2.2.1⟩

section InternalVoltage
variable {α : Type} [Field α]

/-- `fill_voltage_geometry_vector` returns and writes inside the vector. -/
theorem fill_voltage_geometry_vector_total (m : LibM α) (t : Terms α) (paths : Nat → path α)
    (P : coordinates α) (offset_j path_j : Nat) (vgv : matrix) (h : Nat → α)
    (hcj : (paths path_j).close ≠ 0) (hxj : (paths path_j).xy.isSome = true)
    (hrow : 0 < get_num_rows vgv)
    (hcol : (offset_j + (paths path_j).points) * 2 ≤ get_num_columns vgv) :
    ∃ h', fill_voltage_geometry_vector m t paths P offset_j path_j vgv h = some h'
      ∧ Within vgv.value (after_matrix vgv) h h' := by
  unfold fill_voltage_geometry_vector
  simp only []
  refine forNM_total (fun _ g => Within vgv.value (after_matrix vgv) h g)
    _ 0 (paths path_j).points h (Within.refl _ _ h) ?_
  intro segment_j g _ hsj hg
  obtain ⟨Qa, hQa⟩ := get_path_xy_closed (paths path_j) (segment_j : Int) hcj hxj (by omega)
  obtain ⟨Qb, hQb⟩ := get_path_xy_closed (paths path_j) ((segment_j : Int) + 1) hcj hxj
    (by omega)
  simp only [hQa, hQb, Option.bind_eq_bind, Option.some_bind]
  refine ⟨_, rfl, ?_⟩
  exact hg.trans ((put_block_within _ vgv 0 _ 0 _ _ (by omega) (by omega)).trans
    (put_block_within _ vgv 0 _ 0 _ _ (by omega) (by omega)))

/-- `make_voltage_geometry_vector` returns and writes inside the vector when
the vector has room for `2 N` columns. -/
theorem make_voltage_geometry_vector_total (m : LibM α) (t : Terms α) (paths : Nat → path α)
    (P : coordinates α) (b : boundary) (vgv : matrix) (h : Nat → α) (hz : ZonePaths paths b)
    (hrow : 0 < get_num_rows vgv)
    (hcols : num_boundary_points paths b * 2 ≤ get_num_columns vgv) :
    ∃ h', make_voltage_geometry_vector m t paths P b vgv h = some h'
      ∧ Within vgv.value (after_matrix vgv) h h' := by
  unfold make_voltage_geometry_vector
  have outer := forNM_total
    (fun j (st : (Nat → α) × Nat) =>
      Within vgv.value (after_matrix vgv) h st.1 ∧ st.2 = points_before paths b j)
    (fun j (st : (Nat → α) × Nat) => do
      let path_j := b.loop j
      let h ← fill_voltage_geometry_vector m t paths P st.2 path_j vgv st.1
      pure (h, st.2 + (paths (b.loop j)).points))
    0 b.components (h, 0) ⟨Within.refl _ _ h, rfl⟩
    (by
      intro j st _ hj ⟨hw, ho⟩
      have hbj := points_before_le paths b (j := j) (by omega)
      obtain ⟨g, hg, hgw⟩ := fill_voltage_geometry_vector_total m t paths P st.2 (b.loop j) vgv
        st.1 (hz j (by omega)).1 (hz j (by omega)).2 hrow (by rw [ho]; omega)
      refine ⟨(g, st.2 + (paths (b.loop j)).points), ?_, hw.trans hgw, ?_⟩
      · simp only [hg, Option.bind_eq_bind, Option.some_bind]
        rfl
      · show st.2 + (paths (b.loop j)).points = _
        rw [points_before_succ, ho])
  obtain ⟨st, he, hw, _⟩ := outer
  refine ⟨st.1, ?_, hw⟩
  simp only [Option.bind_eq_bind] at he ⊢
  rw [he]
  rfl

/-- `fill_current_geometry_vector` returns and writes inside the vector. -/
theorem fill_current_geometry_vector_total (m : LibM α) (t : Terms α) (paths : Nat → path α)
    (P : coordinates α) (offset_j path_j : Nat) (cgv : matrix) (h : Nat → α)
    (hcj : (paths path_j).close ≠ 0) (hxj : (paths path_j).xy.isSome = true)
    (hrow : 0 < get_num_rows cgv)
    (hcol : (offset_j + (paths path_j).points) * 4 ≤ get_num_columns cgv) :
    ∃ h', fill_current_geometry_vector m t paths P offset_j path_j cgv h = some h'
      ∧ Within cgv.value (after_matrix cgv) h h' := by
  unfold fill_current_geometry_vector
  simp only []
  refine forNM_total (fun _ g => Within cgv.value (after_matrix cgv) h g)
    _ 0 (paths path_j).points h (Within.refl _ _ h) ?_
  intro segment_j g _ hsj hg
  obtain ⟨Qa, hQa⟩ := get_path_xy_closed (paths path_j) (segment_j : Int) hcj hxj (by omega)
  obtain ⟨Qb, hQb⟩ := get_path_xy_closed (paths path_j) ((segment_j : Int) + 1) hcj hxj
    (by omega)
  simp only [hQa, hQb, Option.bind_eq_bind, Option.some_bind]
  refine ⟨_, rfl, ?_⟩
  exact hg.trans ((((put_block_within _ cgv 0 _ 0 _ _ (by omega) (by omega)).trans
    (put_block_within _ cgv 0 _ 0 _ _ (by omega) (by omega))).trans
    (put_block_within _ cgv 0 _ 0 _ _ (by omega) (by omega))).trans
    (put_block_within _ cgv 0 _ 0 _ _ (by omega) (by omega)))

/-- `make_current_geometry_vector` returns and writes inside the vector when
the vector has room for `4 N` columns. -/
theorem make_current_geometry_vector_total (m : LibM α) (t : Terms α) (paths : Nat → path α)
    (P : coordinates α) (b : boundary) (cgv : matrix) (h : Nat → α) (hz : ZonePaths paths b)
    (hrow : 0 < get_num_rows cgv)
    (hcols : num_boundary_points paths b * 4 ≤ get_num_columns cgv) :
    ∃ h', make_current_geometry_vector m t paths P b cgv h = some h'
      ∧ Within cgv.value (after_matrix cgv) h h' := by
  unfold make_current_geometry_vector
  have outer := forNM_total
    (fun j (st : (Nat → α) × Nat) =>
      Within cgv.value (after_matrix cgv) h st.1 ∧ st.2 = points_before paths b j)
    (fun j (st : (Nat → α) × Nat) => do
      let path_j := b.loop j
      let h ← fill_current_geometry_vector m t paths P st.2 path_j cgv st.1
      pure (h, st.2 + (paths (b.loop j)).points))
    0 b.components (h, 0) ⟨Within.refl _ _ h, rfl⟩
    (by
      intro j st _ hj ⟨hw, ho⟩
      have hbj := points_before_le paths b (j := j) (by omega)
      obtain ⟨g, hg, hgw⟩ := fill_current_geometry_vector_total m t paths P st.2 (b.loop j) cgv
        st.1 (hz j (by omega)).1 (hz j (by omega)).2 hrow (by rw [ho]; omega)
      refine ⟨(g, st.2 + (paths (b.loop j)).points), ?_, hw.trans hgw, ?_⟩
      · simp only [hg, Option.bind_eq_bind, Option.some_bind]
        rfl
      · show st.2 + (paths (b.loop j)).points = _
        rw [points_before_succ, ho])
  obtain ⟨st, he, hw, _⟩ := outer
  refine ⟨st.1, ?_, hw⟩
  simp only [Option.bind_eq_bind] at he ⊢
  rw [he]
  rfl

/-- `multiply_matrix` on a row vector and a column vector with a result of one
cell: the cell receives the dot product, nothing else changes. -/
theorem multiply_row_column (cfg : Config α) (h : Nat → α) (a b x : matrix) (n : Nat)
    (hat : a.transpose = 0) (hai : a.invert ≠ 1) (har : a.rows = 1) (hac : a.columns = n)
    (hbi : b.invert ≠ 1) (hbr : get_num_rows b = n) (hbc : get_num_columns b = 1)
    (hx : get_num_rows x * get_num_columns x = 1) (hxv : x.value ≠ 0) :
    multiply_matrix cfg h a b x
      = some (Function.update h x.value
          (∑ i in Finset.range n, h (a.value + i) * h (b.value + i)), a, b,
          product_header x 1 1) := by
  have hcol : get_num_columns a = n := by
    unfold get_num_columns
    rw [if_pos hat, hac]
  have hrow : get_num_rows a = 1 := by
    unfold get_num_rows
    rw [if_pos hat, har]
  unfold multiply_matrix
  simp only [hcol, hrow, hbr, hbc, hx, ne_eq, not_true_eq_false, if_false, if_neg hxv,
    if_neg hai, if_neg hbi, Option.some_bind, Nat.mul_one]
  have hnot : ¬ ((1 : Nat) > 1 ∧ (1 : Nat) > 1) := by omega
  rw [if_neg hnot, if_pos hat]
  have hsum : forN (fun i (value_new : α) =>
      value_new + h (a.value + i * a.rows) * h (b.value + (0 + i))) 0 n 0
      = ∑ i in Finset.range n, h (a.value + i) * h (b.value + i) := by
    rw [forN_sum (fun i => h (a.value + i * a.rows) * h (b.value + (0 + i))) 0 n 0,
      zero_add]
    apply Finset.sum_congr rfl
    intro i _
    rw [har]
    simp
  simp only [forN, Nat.zero_mul, Nat.add_zero]
  rw [hsum]
  rfl

end InternalVoltage
section InternalVoltageMain
variable {α : Type} [Field α]

theorem make_internal_voltage_spec (cfg : Config α) (m : LibM α) (t : Terms α)
    (paths : Nat → path α) (mem : memory α) (b : boundary) (bvv bcv : matrix)
    (P : coordinates α) (vgv cgv : matrix) (hz : ZonePaths paths b)
    (hvgv : vgv.transpose = 0 ∧ vgv.invert ≠ 1 ∧ vgv.rows = 1
      ∧ vgv.columns = 2 * num_boundary_points paths b)
    (hcgv : cgv.transpose = 0 ∧ cgv.invert ≠ 1 ∧ cgv.rows = 1
      ∧ cgv.columns = 4 * num_boundary_points paths b)
    (hbvv : bvv.invert ≠ 1 ∧ get_num_rows bvv = 2 * num_boundary_points paths b
      ∧ get_num_columns bvv = 1)
    (hbcv : bcv.invert ≠ 1 ∧ get_num_rows bcv = 4 * num_boundary_points paths b
      ∧ get_num_columns bcv = 1)
    (hbrk : 0 < mem.brk)
    (hl1 : cgv.value + 4 * num_boundary_points paths b ≤ mem.brk)
    (hl2 : bcv.value + 4 * num_boundary_points paths b ≤ mem.brk)
    (hvb : vgv.value + 2 * num_boundary_points paths b ≤ bvv.value
      ∨ bvv.value + 2 * num_boundary_points paths b ≤ vgv.value)
    (hvc : vgv.value + 2 * num_boundary_points paths b ≤ bcv.value
      ∨ bcv.value + 4 * num_boundary_points paths b ≤ vgv.value)
    (hcv : cgv.value + 4 * num_boundary_points paths b ≤ vgv.value
      ∨ vgv.value + 2 * num_boundary_points paths b ≤ cgv.value)
    (hcb : cgv.value + 4 * num_boundary_points paths b ≤ bvv.value
      ∨ bvv.value + 2 * num_boundary_points paths b ≤ cgv.value)
    (hcc : cgv.value + 4 * num_boundary_points paths b ≤ bcv.value
      ∨ bcv.value + 4 * num_boundary_points paths b ≤ cgv.value) :
    ∃ h1 h2 mem',
      make_voltage_geometry_vector m t paths P b vgv mem.cells = some h1
      ∧ make_current_geometry_vector m t paths P b cgv h1 = some h2
      ∧ make_internal_voltage cfg m t paths mem b bvv bcv P vgv cgv
        = some ((∑ i in Finset.range (4 * num_boundary_points paths b),
              h2 (cgv.value + i) * mem.cells (bcv.value + i))
            - (∑ i in Finset.range (2 * num_boundary_points paths b),
              h1 (vgv.value + i) * mem.cells (bvv.value + i)),
          mem', bvv, bcv, vgv, cgv)
      ∧ mem'.brk = mem.brk
      ∧ (∀ a, a ≠ mem.brk → mem'.cells a = h2 a) := by
  generalize hN : num_boundary_points paths b = N at *
  obtain ⟨hvt, hvi, hvr, hvcol⟩ := hvgv
  obtain ⟨hct, hci, hcr, hccol⟩ := hcgv
  have hvrow : get_num_rows vgv = 1 := by
    unfold get_num_rows
    rw [if_pos hvt, hvr]
  have hvcols : get_num_columns vgv = 2 * N := by
    unfold get_num_columns
    rw [if_pos hvt, hvcol]
  have hcrow : get_num_rows cgv = 1 := by
    unfold get_num_rows
    rw [if_pos hct, hcr]
  have hccols : get_num_columns cgv = 4 * N := by
    unfold get_num_columns
    rw [if_pos hct, hccol]
  obtain ⟨h1, e1, w1⟩ := make_voltage_geometry_vector_total m t paths P b vgv mem.cells hz
    (by omega) (by rw [hN, hvcols]; omega)
  obtain ⟨h2, e2, w2⟩ := make_current_geometry_vector_total m t paths P b cgv h1 hz
    (by omega) (by rw [hN, hccols]; omega)
  have av : after_matrix vgv = vgv.value + 2 * N := by
    unfold after_matrix
    rw [hvr, hvcol, Nat.one_mul]
  have ac : after_matrix cgv = cgv.value + 4 * N := by
    unfold after_matrix
    rw [hcr, hccol, Nat.one_mul]
  rw [av] at w1
  rw [ac] at w2
  have m1 := multiply_row_column cfg h2 vgv bvv
    { transpose := 0, invert := 0, rows := 1, columns := 1, value := mem.brk } (2 * N)
    hvt hvi hvr hvcol hbvv.1 hbvv.2.1 hbvv.2.2 rfl (by show mem.brk ≠ 0; omega)
  have m2 := multiply_row_column cfg
    (Function.update h2 mem.brk (∑ i in Finset.range (2 * N), h2 (vgv.value + i) * h2 (bvv.value + i)))
    cgv bcv (product_header
      { transpose := 0, invert := 0, rows := 1, columns := 1, value := mem.brk } 1 1) (4 * N)
    hct hci hcr hccol hbcv.1 hbcv.2.1 hbcv.2.2 rfl (by show mem.brk ≠ 0; omega)
  have s1 : (∑ i in Finset.range (2 * N), h2 (vgv.value + i) * h2 (bvv.value + i))
      = ∑ i in Finset.range (2 * N), h1 (vgv.value + i) * mem.cells (bvv.value + i) := by
    apply Finset.sum_congr rfl
    intro i hi
    rw [Finset.mem_range] at hi
    rw [w2 (vgv.value + i) (by omega), w2 (bvv.value + i) (by omega),
      w1 (bvv.value + i) (by omega)]
  have s2 : (∑ i in Finset.range (4 * N),
        Function.update h2 mem.brk
            (∑ i in Finset.range (2 * N), h2 (vgv.value + i) * h2 (bvv.value + i))
            (cgv.value + i)
          * Function.update h2 mem.brk
            (∑ i in Finset.range (2 * N), h2 (vgv.value + i) * h2 (bvv.value + i))
            (bcv.value + i))
      = ∑ i in Finset.range (4 * N), h2 (cgv.value + i) * mem.cells (bcv.value + i) := by
    apply Finset.sum_congr rfl
    intro i hi
    rw [Finset.mem_range] at hi
    rw [Function.update_noteq (by omega), Function.update_noteq (by omega),
      w2 (bcv.value + i) (by omega), w1 (bcv.value + i) (by omega)]
  have hv : (product_header
      { transpose := 0, invert := 0, rows := 1, columns := 1, value := mem.brk } 1 1).value
      = mem.brk := rfl
  rw [hv] at m2
  cases hr : make_internal_voltage cfg m t paths mem b bvv bcv P vgv cgv with
  | none =>
    unfold make_internal_voltage at hr
    simp only [e1, e2, Option.bind_eq_bind, Option.some_bind, m1, m2, pure] at hr
    exact absurd hr (by simp)
  | some r =>
    have hb := make_internal_voltage_brk cfg m t paths mem b bvv bcv P vgv cgv r hr
    unfold make_internal_voltage at hr
    simp only [e1, e2, Option.bind_eq_bind, Option.some_bind, m1, m2, pure,
      Function.update_same, Option.some.injEq] at hr
    rw [s2, s1] at hr
    subst hr
    exact ⟨h1, h2, _, e1, e2, rfl, rfl, fun a ha => by
      simp only [Function.update_noteq ha]⟩

end InternalVoltageMain

/-- C4 (counterexample). On the zone inside the rectangle `exField`, with every
scalar kernel term equal to 1, `bvv` at address 1, `bcv` at 9, `vgv` at 25 and
`cgv` at 33, `make_internal_voltage` returns `344`, which is
`cgv(P) . bcv - vgv(P) . bvv`, while `vgv(P) . bvv - cgv(P) . bcv` is `-344`
(the vectors as they stand in the memory after the call). -/
theorem make_internal_voltage_sign_example :
    (make_internal_voltage exCfg exLibM exTerms exFieldPaths exHeaps.mem exCachedZone
      exVectors.bvv exVectors.bcv ((3 : ℚ), 4) exVectors.vgv exVectors.cgv).map
      (fun r => decide (r.1 = 344
        ∧ (∑ i in Finset.range 8, r.2.1.cells (25 + i) * r.2.1.cells (1 + i))
          - (∑ i in Finset.range 16, r.2.1.cells (33 + i) * r.2.1.cells (9 + i)) = -344))
      = some true := by
  decide!

/-- C4 (as the code has it). For a zone whose paths are closed and allocated,
with `N` its number of boundary points, row vectors `vgv` (`1 x 2N`) and `cgv`
(`1 x 4N`), column vectors `bvv` (`2N x 1`) and `bcv` (`4N x 1`) with clear
invert flags, in blocks that share no cell and lie below the allocator, the
call `make_internal_voltage(b, bvv, bcv, P, vgv, cgv)` returns, and the value
returned is `cgv(P) . bcv - vgv(P) . bvv`, where `vgv(P)` is the row that
`make_voltage_geometry_vector` fills for `P` and `cgv(P)` the row that
`make_current_geometry_vector` fills after it; the four headers are left as
they were and nothing is allocated. -/
theorem make_internal_voltage_value {α : Type} [Field α] (cfg : Config α) (m : LibM α)
    (t : Terms α) (paths : Nat → path α) (mem : memory α) (b : boundary) (bvv bcv : matrix)
    (P : coordinates α) (vgv cgv : matrix) (hz : ZonePaths paths b)
    (hvgv : vgv.transpose = 0 ∧ vgv.invert ≠ 1 ∧ vgv.rows = 1
      ∧ vgv.columns = 2 * num_boundary_points paths b)
    (hcgv : cgv.transpose = 0 ∧ cgv.invert ≠ 1 ∧ cgv.rows = 1
      ∧ cgv.columns = 4 * num_boundary_points paths b)
    (hbvv : bvv.invert ≠ 1 ∧ get_num_rows bvv = 2 * num_boundary_points paths b
      ∧ get_num_columns bvv = 1)
    (hbcv : bcv.invert ≠ 1 ∧ get_num_rows bcv = 4 * num_boundary_points paths b
      ∧ get_num_columns bcv = 1)
    (hbrk : 0 < mem.brk)
    (hl1 : cgv.value + 4 * num_boundary_points paths b ≤ mem.brk)
    (hl2 : bcv.value + 4 * num_boundary_points paths b ≤ mem.brk)
    (hvb : vgv.value + 2 * num_boundary_points paths b ≤ bvv.value
      ∨ bvv.value + 2 * num_boundary_points paths b ≤ vgv.value)
    (hvc : vgv.value + 2 * num_boundary_points paths b ≤ bcv.value
      ∨ bcv.value + 4 * num_boundary_points paths b ≤ vgv.value)
    (hcv : cgv.value + 4 * num_boundary_points paths b ≤ vgv.value
      ∨ vgv.value + 2 * num_boundary_points paths b ≤ cgv.value)
    (hcb : cgv.value + 4 * num_boundary_points paths b ≤ bvv.value
      ∨ bvv.value + 2 * num_boundary_points paths b ≤ cgv.value)
    (hcc : cgv.value + 4 * num_boundary_points paths b ≤ bcv.value
      ∨ bcv.value + 4 * num_boundary_points paths b ≤ cgv.value) :
    ∃ h1 h2 mem',
      make_voltage_geometry_vector m t paths P b vgv mem.cells = some h1
      ∧ make_current_geometry_vector m t paths P b cgv h1 = some h2
      ∧ make_internal_voltage cfg m t paths mem b bvv bcv P vgv cgv
        = some ((∑ i in Finset.range (4 * num_boundary_points paths b),
              h2 (cgv.value + i) * mem.cells (bcv.value + i))
            - (∑ i in Finset.range (2 * num_boundary_points paths b),
              h1 (vgv.value + i) * mem.cells (bvv.value + i)),
          mem', bvv, bcv, vgv, cgv)
      ∧ mem'.brk = mem.brk := by
  obtain ⟨h1, h2, mem', e1, e2, e3, e4, _⟩ :=
    make_internal_voltage_spec cfg m t paths mem b bvv bcv P vgv cgv hz hvgv hcgv hbvv hbcv hbrk
      hl1 hl2 hvb hvc hcv hcb hcc
  exact ⟨h1, h2, mem', e1, e2, e3, e4⟩

theorem make_internal_voltage_value_witness :
    ∃ h1 h2 mem',
      make_voltage_geometry_vector exLibM exTerms exFieldPaths ((3 : ℚ), 4) exCachedZone
        exVectors.vgv exHeaps.mem.cells = some h1
      ∧ make_current_geometry_vector exLibM exTerms exFieldPaths ((3 : ℚ), 4) exCachedZone
        exVectors.cgv h1 = some h2
      ∧ make_internal_voltage exCfg exLibM exTerms exFieldPaths exHeaps.mem exCachedZone
          exVectors.bvv exVectors.bcv ((3 : ℚ), 4) exVectors.vgv exVectors.cgv
        = some ((∑ i in Finset.range (4 * num_boundary_points exFieldPaths exCachedZone),
              h2 (exVectors.cgv.value + i) * exHeaps.mem.cells (exVectors.bcv.value + i))
            - (∑ i in Finset.range (2 * num_boundary_points exFieldPaths exCachedZone),
              h1 (exVectors.vgv.value + i) * exHeaps.mem.cells (exVectors.bvv.value + i)),
          mem', exVectors.bvv, exVectors.bcv, exVectors.vgv, exVectors.cgv)
      ∧ mem'.brk = exHeaps.mem.brk :=
  make_internal_voltage_value exCfg exLibM exTerms exFieldPaths exHeaps.mem exCachedZone
    exVectors.bvv exVectors.bcv ((3 : ℚ), 4) exVectors.vgv exVectors.cgv
    (fun _ _ => ⟨by show exField.close ≠ 0; decide, rfl⟩)
    ⟨rfl, by decide, rfl, rfl⟩ ⟨rfl, by decide, rfl, rfl⟩
    ⟨by decide, rfl, rfl⟩ ⟨by decide, rfl, rfl⟩ (by decide) (by decide) (by decide)
    (by decide) (by decide) (by decide) (by decide) (by decide)

section InternalGradient
variable {α : Type} [Field α]

theorem fill_co_voltage_geometry_vector_total (m : LibM α) (t : Terms α) (cm : CoMatrix α)
    (hcm : cm.valid) (paths : Nat → path α) (P : coordinates α) (offset_j path_j : Nat)
    (co_vgv : co_matrix) (c : Nat → coordinates α)
    (hcj : (paths path_j).close ≠ 0) (hxj : (paths path_j).xy.isSome = true)
    (hinv : co_vgv.invert = 0) (hrow : 0 < get_num_rows co_vgv)
    (hcol : (offset_j + (paths path_j).points) * 2 ≤ get_num_columns co_vgv) :
    ∃ c', fill_co_voltage_geometry_vector m t cm paths P offset_j path_j co_vgv c = some c' := by
  unfold fill_co_voltage_geometry_vector
  simp only []
  obtain ⟨c', hc', _⟩ := forNM_total (fun _ (_ : Nat → coordinates α) => True)
    (fun segment_j c => do
      let Qa ← get_path_xy (paths path_j) segment_j
      let Qb ← get_path_xy (paths path_j) (segment_j + 1)
      let j := segment_j * 2
      let (x, y1, y2) := convert_PQ m Qa Qb P
      let Vterm := t.V1 x y1 y2
      let Wterm := t.W1 x y1 y2
      let Vterm := rotate_to_PQ m Vterm.1 Vterm.2 Qa Qb
      let Wterm := rotate_to_PQ m Wterm.1 Wterm.2 Qa Qb
      let (A0, A1) := p2c_2basis_co Vterm Wterm
      let c ← cm.put_block_co_matrix_element c co_vgv 0 (offset_j * 2) 0 j A0
      let c ← cm.put_block_co_matrix_element c co_vgv 0 (offset_j * 2) 0 (j + 1) A1
      pure c) 0 (paths path_j).points c trivial
    (by
      intro segment_j g _ hsj _
      obtain ⟨Qa, hQa⟩ := get_path_xy_closed (paths path_j) (segment_j : Int) hcj hxj (by omega)
      obtain ⟨Qb, hQb⟩ := get_path_xy_closed (paths path_j) ((segment_j : Int) + 1) hcj hxj
        (by omega)
      simp only [hQa, hQb, Option.bind_eq_bind, Option.some_bind]
      obtain ⟨g1, hg1⟩ := Option.isSome_iff_exists.mp
        (hcm.1 g co_vgv 0 (offset_j * 2) 0 (segment_j * 2)
          (p2c_2basis_co
            (rotate_to_PQ m (t.V1 (convert_PQ m Qa Qb P).1 (convert_PQ m Qa Qb P).2.1
                (convert_PQ m Qa Qb P).2.2).1
              (t.V1 (convert_PQ m Qa Qb P).1 (convert_PQ m Qa Qb P).2.1
                (convert_PQ m Qa Qb P).2.2).2 Qa Qb)
            (rotate_to_PQ m (t.W1 (convert_PQ m Qa Qb P).1 (convert_PQ m Qa Qb P).2.1
                (convert_PQ m Qa Qb P).2.2).1
              (t.W1 (convert_PQ m Qa Qb P).1 (convert_PQ m Qa Qb P).2.1
                (convert_PQ m Qa Qb P).2.2).2 Qa Qb)).1
          hinv (by omega) (by omega))
      obtain ⟨g2, hg2⟩ := Option.isSome_iff_exists.mp
        (hcm.1 g1 co_vgv 0 (offset_j * 2) 0 (segment_j * 2 + 1)
          (p2c_2basis_co
            (rotate_to_PQ m (t.V1 (convert_PQ m Qa Qb P).1 (convert_PQ m Qa Qb P).2.1
                (convert_PQ m Qa Qb P).2.2).1
              (t.V1 (convert_PQ m Qa Qb P).1 (convert_PQ m Qa Qb P).2.1
                (convert_PQ m Qa Qb P).2.2).2 Qa Qb)
            (rotate_to_PQ m (t.W1 (convert_PQ m Qa Qb P).1 (convert_PQ m Qa Qb P).2.1
                (convert_PQ m Qa Qb P).2.2).1
              (t.W1 (convert_PQ m Qa Qb P).1 (convert_PQ m Qa Qb P).2.1
                (convert_PQ m Qa Qb P).2.2).2 Qa Qb)).2
          hinv (by omega) (by omega))
      exact ⟨g2, by simp only [hg1, hg2, Option.some_bind]; rfl, trivial⟩)
  exact ⟨c', hc'⟩


theorem fill_co_current_geometry_vector_total (m : LibM α) (t : Terms α) (cm : CoMatrix α)
    (hcm : cm.valid) (paths : Nat → path α) (P : coordinates α) (offset_j path_j : Nat)
    (co_cgv : co_matrix) (c : Nat → coordinates α)
    (hcj : (paths path_j).close ≠ 0) (hxj : (paths path_j).xy.isSome = true)
    (hinv : co_cgv.invert = 0) (hrow : 0 < get_num_rows co_cgv)
    (hcol : (offset_j + (paths path_j).points) * 4 ≤ get_num_columns co_cgv) :
    ∃ c', fill_co_current_geometry_vector m t cm paths P offset_j path_j co_cgv c = some c' := by
  unfold fill_co_current_geometry_vector
  simp only []
  obtain ⟨c', hc', _⟩ := forNM_total (fun _ (_ : Nat → coordinates α) => True)
    (fun segment_j c => do
      let Qa ← get_path_xy (paths path_j) segment_j
      let Qb ← get_path_xy (paths path_j) (segment_j + 1)
      let j := segment_j * 4
      let (x, y1, y2) := convert_PQ m Qa Qb P
      let Jterm := t.J1 x y1 y2
      let Kterm := t.K1 x y1 y2
      let Lterm := t.L1 x y1 y2
      let Mterm := t.M1 x y1 y2
      let Jterm := rotate_to_PQ m Jterm.1 Jterm.2 Qa Qb
      let Kterm := rotate_to_PQ m Kterm.1 Kterm.2 Qa Qb
      let Lterm := rotate_to_PQ m Lterm.1 Lterm.2 Qa Qb
      let Mterm := rotate_to_PQ m Mterm.1 Mterm.2 Qa Qb
      let (A0, A1, A2, A3) := p2c_4basis_co Jterm Kterm Lterm Mterm
      let c ← cm.put_block_co_matrix_element c co_cgv 0 (offset_j * 4) 0 j A0
      let c ← cm.put_block_co_matrix_element c co_cgv 0 (offset_j * 4) 0 (j + 1) A1
      let c ← cm.put_block_co_matrix_element c co_cgv 0 (offset_j * 4) 0 (j + 2) A2
      let c ← cm.put_block_co_matrix_element c co_cgv 0 (offset_j * 4) 0 (j + 3) A3
      pure c) 0 (paths path_j).points c trivial
    (by
      intro segment_j g _ hsj _
      obtain ⟨Qa, hQa⟩ := get_path_xy_closed (paths path_j) (segment_j : Int) hcj hxj (by omega)
      obtain ⟨Qb, hQb⟩ := get_path_xy_closed (paths path_j) ((segment_j : Int) + 1) hcj hxj
        (by omega)
      simp only [hQa, hQb, Option.bind_eq_bind, Option.some_bind]
      obtain ⟨g1, hg1⟩ := Option.isSome_iff_exists.mp
        (hcm.1 g co_cgv 0 (offset_j * 4) 0 (segment_j * 4) (p2c_4basis_co (rotate_to_PQ m (t.J1
          (convert_PQ m Qa Qb P).1 (convert_PQ m Qa Qb P).2.1 (convert_PQ m Qa Qb P).2.2).1
          (t.J1 (convert_PQ m Qa Qb P).1 (convert_PQ m Qa Qb P).2.1 (convert_PQ m Qa Qb
          P).2.2).2 Qa Qb) (rotate_to_PQ m (t.K1 (convert_PQ m Qa Qb P).1 (convert_PQ m Qa Qb
          P).2.1 (convert_PQ m Qa Qb P).2.2).1 (t.K1 (convert_PQ m Qa Qb P).1 (convert_PQ m Qa
          Qb P).2.1 (convert_PQ m Qa Qb P).2.2).2 Qa Qb) (rotate_to_PQ m (t.L1 (convert_PQ m Qa
          Qb P).1 (convert_PQ m Qa Qb P).2.1 (convert_PQ m Qa Qb P).2.2).1 (t.L1 (convert_PQ m
          Qa Qb P).1 (convert_PQ m Qa Qb P).2.1 (convert_PQ m Qa Qb P).2.2).2 Qa Qb)
          (rotate_to_PQ m (t.M1 (convert_PQ m Qa Qb P).1 (convert_PQ m Qa Qb P).2.1 (convert_PQ
          m Qa Qb P).2.2).1 (t.M1 (convert_PQ m Qa Qb P).1 (convert_PQ m Qa Qb P).2.1
          (convert_PQ m Qa Qb P).2.2).2 Qa Qb)).1 hinv (by omega) (by omega))
      obtain ⟨g2, hg2⟩ := Option.isSome_iff_exists.mp
        (hcm.1 g1 co_cgv 0 (offset_j * 4) 0 (segment_j * 4 + 1) (p2c_4basis_co (rotate_to_PQ m
          (t.J1 (convert_PQ m Qa Qb P).1 (convert_PQ m Qa Qb P).2.1 (convert_PQ m Qa Qb
          P).2.2).1 (t.J1 (convert_PQ m Qa Qb P).1 (convert_PQ m Qa Qb P).2.1 (convert_PQ m Qa
          Qb P).2.2).2 Qa Qb) (rotate_to_PQ m (t.K1 (convert_PQ m Qa Qb P).1 (convert_PQ m Qa
          Qb P).2.1 (convert_PQ m Qa Qb P).2.2).1 (t.K1 (convert_PQ m Qa Qb P).1 (convert_PQ m
          Qa Qb P).2.1 (convert_PQ m Qa Qb P).2.2).2 Qa Qb) (rotate_to_PQ m (t.L1 (convert_PQ m
          Qa Qb P).1 (convert_PQ m Qa Qb P).2.1 (convert_PQ m Qa Qb P).2.2).1 (t.L1 (convert_PQ
          m Qa Qb P).1 (convert_PQ m Qa Qb P).2.1 (convert_PQ m Qa Qb P).2.2).2 Qa Qb)
          (rotate_to_PQ m (t.M1 (convert_PQ m Qa Qb P).1 (convert_PQ m Qa Qb P).2.1 (convert_PQ
          m Qa Qb P).2.2).1 (t.M1 (convert_PQ m Qa Qb P).1 (convert_PQ m Qa Qb P).2.1
          (convert_PQ m Qa Qb P).2.2).2 Qa Qb)).2.1 hinv (by omega) (by omega))
      obtain ⟨g3, hg3⟩ := Option.isSome_iff_exists.mp
        (hcm.1 g2 co_cgv 0 (offset_j * 4) 0 (segment_j * 4 + 2) (p2c_4basis_co (rotate_to_PQ m
          (t.J1 (convert_PQ m Qa Qb P).1 (convert_PQ m Qa Qb P).2.1 (convert_PQ m Qa Qb
          P).2.2).1 (t.J1 (convert_PQ m Qa Qb P).1 (convert_PQ m Qa Qb P).2.1 (convert_PQ m Qa
          Qb P).2.2).2 Qa Qb) (rotate_to_PQ m (t.K1 (convert_PQ m Qa Qb P).1 (convert_PQ m Qa
          Qb P).2.1 (convert_PQ m Qa Qb P).2.2).1 (t.K1 (convert_PQ m Qa Qb P).1 (convert_PQ m
          Qa Qb P).2.1 (convert_PQ m Qa Qb P).2.2).2 Qa Qb) (rotate_to_PQ m (t.L1 (convert_PQ m
          Qa Qb P).1 (convert_PQ m Qa Qb P).2.1 (convert_PQ m Qa Qb P).2.2).1 (t.L1 (convert_PQ
          m Qa Qb P).1 (convert_PQ m Qa Qb P).2.1 (convert_PQ m Qa Qb P).2.2).2 Qa Qb)
          (rotate_to_PQ m (t.M1 (convert_PQ m Qa Qb P).1 (convert_PQ m Qa Qb P).2.1 (convert_PQ
          m Qa Qb P).2.2).1 (t.M1 (convert_PQ m Qa Qb P).1 (convert_PQ m Qa Qb P).2.1
          (convert_PQ m Qa Qb P).2.2).2 Qa Qb)).2.2.1 hinv (by omega) (by omega))
      obtain ⟨g4, hg4⟩ := Option.isSome_iff_exists.mp
        (hcm.1 g3 co_cgv 0 (offset_j * 4) 0 (segment_j * 4 + 3) (p2c_4basis_co (rotate_to_PQ m
          (t.J1 (convert_PQ m Qa Qb P).1 (convert_PQ m Qa Qb P).2.1 (convert_PQ m Qa Qb
          P).2.2).1 (t.J1 (convert_PQ m Qa Qb P).1 (convert_PQ m Qa Qb P).2.1 (convert_PQ m Qa
          Qb P).2.2).2 Qa Qb) (rotate_to_PQ m (t.K1 (convert_PQ m Qa Qb P).1 (convert_PQ m Qa
          Qb P).2.1 (convert_PQ m Qa Qb P).2.2).1 (t.K1 (convert_PQ m Qa Qb P).1 (convert_PQ m
          Qa Qb P).2.1 (convert_PQ m Qa Qb P).2.2).2 Qa Qb) (rotate_to_PQ m (t.L1 (convert_PQ m
          Qa Qb P).1 (convert_PQ m Qa Qb P).2.1 (convert_PQ m Qa Qb P).2.2).1 (t.L1 (convert_PQ
          m Qa Qb P).1 (convert_PQ m Qa Qb P).2.1 (convert_PQ m Qa Qb P).2.2).2 Qa Qb)
          (rotate_to_PQ m (t.M1 (convert_PQ m Qa Qb P).1 (convert_PQ m Qa Qb P).2.1 (convert_PQ
          m Qa Qb P).2.2).1 (t.M1 (convert_PQ m Qa Qb P).1 (convert_PQ m Qa Qb P).2.1
          (convert_PQ m Qa Qb P).2.2).2 Qa Qb)).2.2.2 hinv (by omega) (by omega))
      exact ⟨g4, by simp only [hg1, hg2, hg3, hg4, Option.some_bind]; rfl, trivial⟩)
  exact ⟨c', hc'⟩

theorem make_co_voltage_geometry_vector_total (m : LibM α) (t : Terms α) (cm : CoMatrix α)
    (hcm : cm.valid) (paths : Nat → path α) (P : coordinates α) (b : boundary)
    (co_vgv : co_matrix) (c : Nat → coordinates α) (hz : ZonePaths paths b)
    (hinv : co_vgv.invert = 0) (hrow : 0 < get_num_rows co_vgv)
    (hcols : num_boundary_points paths b * 2 ≤ get_num_columns co_vgv) :
    ∃ c', make_co_voltage_geometry_vector m t cm paths P b co_vgv c = some c' := by
  unfold make_co_voltage_geometry_vector
  have outer := forNM_total
    (fun j (st : (Nat → coordinates α) × Nat) => st.2 = points_before paths b j)
    (fun j (st : (Nat → coordinates α) × Nat) => do
      let path_j := b.loop j
      let c ← fill_co_voltage_geometry_vector m t cm paths P st.2 path_j co_vgv st.1
      pure (c, st.2 + (paths (b.loop j)).points))
    0 b.components (c, 0) rfl
    (by
      intro j st _ hj ho
      have hbj := points_before_le paths b (j := j) (by omega)
      obtain ⟨g, hg⟩ := fill_co_voltage_geometry_vector_total m t cm hcm paths P st.2 (b.loop j)
        co_vgv st.1 (hz j (by omega)).1 (hz j (by omega)).2 hinv hrow (by rw [ho]; omega)
      refine ⟨(g, st.2 + (paths (b.loop j)).points), ?_, ?_⟩
      · simp only [hg, Option.bind_eq_bind, Option.some_bind]
        rfl
      · show st.2 + (paths (b.loop j)).points = _
        rw [points_before_succ, ho])
  obtain ⟨st, he, _⟩ := outer
  refine ⟨st.1, ?_⟩
  simp only [Option.bind_eq_bind] at he ⊢
  rw [he]
  rfl

theorem make_co_current_geometry_vector_total (m : LibM α) (t : Terms α) (cm : CoMatrix α)
    (hcm : cm.valid) (paths : Nat → path α) (P : coordinates α) (b : boundary)
    (co_cgv : co_matrix) (c : Nat → coordinates α) (hz : ZonePaths paths b)
    (hinv : co_cgv.invert = 0) (hrow : 0 < get_num_rows co_cgv)
    (hcols : num_boundary_points paths b * 4 ≤ get_num_columns co_cgv) :
    ∃ c', make_co_current_geometry_vector m t cm paths P b co_cgv c = some c' := by
  unfold make_co_current_geometry_vector
  have outer := forNM_total
    (fun j (st : (Nat → coordinates α) × Nat) => st.2 = points_before paths b j)
    (fun j (st : (Nat → coordinates α) × Nat) => do
      let path_j := b.loop j
      let c ← fill_co_current_geometry_vector m t cm paths P st.2 path_j co_cgv st.1
      pure (c, st.2 + (paths (b.loop j)).points))
    0 b.components (c, 0) rfl
    (by
      intro j st _ hj ho
      have hbj := points_before_le paths b (j := j) (by omega)
      obtain ⟨g, hg⟩ := fill_co_current_geometry_vector_total m t cm hcm paths P st.2 (b.loop j)
        co_cgv st.1 (hz j (by omega)).1 (hz j (by omega)).2 hinv hrow (by rw [ho]; omega)
      refine ⟨(g, st.2 + (paths (b.loop j)).points), ?_, ?_⟩
      · simp only [hg, Option.bind_eq_bind, Option.some_bind]
        rfl
      · show st.2 + (paths (b.loop j)).points = _
        rw [points_before_succ, ho])
  obtain ⟨st, he, _⟩ := outer
  refine ⟨st.1, ?_⟩
  simp only [Option.bind_eq_bind] at he ⊢
  rw [he]
  rfl

end InternalGradient
section InternalGradientMain
variable {α : Type} [Field α]

theorem make_internal_grad_voltage_spec (m : LibM α) (t : Terms α) (cm : CoMatrix α)
    (hcm : cm.valid) (paths : Nat → path α) (mem : memory α) (co : memory (coordinates α))
    (b : boundary) (bvv bcv : matrix) (P : coordinates α) (co_vgv co_cgv : co_matrix)
    (hz : ZonePaths paths b)
    (hvgv : co_vgv.transpose = 0 ∧ co_vgv.invert = 0 ∧ co_vgv.rows = 1
      ∧ co_vgv.columns = 2 * num_boundary_points paths b)
    (hcgv : co_cgv.transpose = 0 ∧ co_cgv.invert = 0 ∧ co_cgv.rows = 1
      ∧ co_cgv.columns = 4 * num_boundary_points paths b)
    (hbvv : bvv.invert ≠ 1 ∧ get_num_rows bvv = 2 * num_boundary_points paths b
      ∧ get_num_columns bvv = 1)
    (hbcv : bcv.invert ≠ 1 ∧ get_num_rows bcv = 4 * num_boundary_points paths b
      ∧ get_num_columns bcv = 1)
    (hbrk : 0 < co.brk)
    (hl : co_cgv.value + 4 * num_boundary_points paths b ≤ co.brk) :
    ∃ c1 c2 co',
      make_co_voltage_geometry_vector m t cm paths P b co_vgv co.cells = some c1
      ∧ make_co_current_geometry_vector m t cm paths P b co_cgv c1 = some c2
      ∧ make_internal_grad_voltage m t cm paths mem co b bvv bcv P co_vgv co_cgv
        = some ((((∑ i in Finset.range (4 * num_boundary_points paths b),
                (c2 (co_cgv.value + i)).1 * mem.cells (bcv.value + i))
              - (∑ i in Finset.range (2 * num_boundary_points paths b),
                (c2 (co_vgv.value + i)).1 * mem.cells (bvv.value + i))) / (2 * m.M_PI),
            ((∑ i in Finset.range (4 * num_boundary_points paths b),
                (c2 (co_cgv.value + i)).2 * mem.cells (bcv.value + i))
              - (∑ i in Finset.range (2 * num_boundary_points paths b),
                (c2 (co_vgv.value + i)).2 * mem.cells (bvv.value + i))) / (2 * m.M_PI)),
          mem, co', bvv, bcv, co_vgv, co_cgv)
      ∧ co'.brk = co.brk := by
  generalize hN : num_boundary_points paths b = N at *
  obtain ⟨hvt, hvi, hvr, hvcol⟩ := hvgv
  obtain ⟨hct, hci, hcr, hccol⟩ := hcgv
  have hvrow : get_num_rows co_vgv = 1 := by
    unfold get_num_rows
    rw [if_pos hvt, hvr]
  have hvcols : get_num_columns co_vgv = 2 * N := by
    unfold get_num_columns
    rw [if_pos hvt, hvcol]
  have hcrow : get_num_rows co_cgv = 1 := by
    unfold get_num_rows
    rw [if_pos hct, hcr]
  have hccols : get_num_columns co_cgv = 4 * N := by
    unfold get_num_columns
    rw [if_pos hct, hccol]
  obtain ⟨c1, e1⟩ := make_co_voltage_geometry_vector_total m t cm hcm paths P b co_vgv co.cells
    hz hvi (by omega) (by rw [hN, hvcols]; omega)
  obtain ⟨c2, e2⟩ := make_co_current_geometry_vector_total m t cm hcm paths P b co_cgv c1
    hz hci (by omega) (by rw [hN, hccols]; omega)
  obtain ⟨c3, m1, v1, f1⟩ := hcm.2 mem.cells c2 co_vgv bvv
    { transpose := 0, invert := 0, rows := 1, columns := 1, value := co.brk } (2 * N)
    hvt hvi hvr hvcol hbvv.1 hbvv.2.1 hbvv.2.2 rfl (by show co.brk ≠ 0; omega)
  obtain ⟨c4, m2, v2, _⟩ := hcm.2 mem.cells c3 co_cgv bcv
    (product_header { transpose := 0, invert := 0, rows := 1, columns := 1, value := co.brk } 1 1)
    (4 * N) hct hci hcr hccol hbcv.1 hbcv.2.1 hbcv.2.2 rfl (by show co.brk ≠ 0; omega)
  have hv : (product_header
      { transpose := 0, invert := 0, rows := 1, columns := 1, value := co.brk } 1 1).value
      = co.brk := rfl
  rw [hv] at v2
  have hv1 : ({ transpose := 0, invert := 0, rows := 1, columns := 1, value := co.brk }
      : co_matrix).value = co.brk := rfl
  rw [hv1] at v1 f1
  have s1 : (∑ i in Finset.range (4 * N), (c3 (co_cgv.value + i)).1 * mem.cells (bcv.value + i))
      = ∑ i in Finset.range (4 * N), (c2 (co_cgv.value + i)).1 * mem.cells (bcv.value + i) := by
    apply Finset.sum_congr rfl
    intro i hi
    rw [Finset.mem_range] at hi
    rw [f1 (co_cgv.value + i) (by omega)]
  have s2 : (∑ i in Finset.range (4 * N), (c3 (co_cgv.value + i)).2 * mem.cells (bcv.value + i))
      = ∑ i in Finset.range (4 * N), (c2 (co_cgv.value + i)).2 * mem.cells (bcv.value + i) := by
    apply Finset.sum_congr rfl
    intro i hi
    rw [Finset.mem_range] at hi
    rw [f1 (co_cgv.value + i) (by omega)]
  rw [s1, s2] at v2
  cases hr : make_internal_grad_voltage m t cm paths mem co b bvv bcv P co_vgv co_cgv with
  | none =>
    unfold make_internal_grad_voltage at hr
    simp only [e1, e2, Option.bind_eq_bind, Option.some_bind, m1, m2, pure] at hr
    exact absurd hr (by simp)
  | some r =>
    have hb := make_internal_grad_voltage_brk m t cm paths mem co b bvv bcv P co_vgv co_cgv r hr
    unfold make_internal_grad_voltage at hr
    simp only [e1, e2, Option.bind_eq_bind, Option.some_bind, m1, m2, pure, v1, v2,
      Option.some.injEq] at hr
    subst hr
    exact ⟨c1, c2, _, e1, e2, rfl, rfl⟩

/-- The product of `exCoMatrix` is the pair of the dot products. -/
theorem exCoMatrix_dot (c : Nat → coordinates ℚ) (h : Nat → ℚ) (A B n : Nat) :
    forN (fun i (v : coordinates ℚ) =>
        (v.1 + (c (A + i)).1 * h (B + i), v.2 + (c (A + i)).2 * h (B + i))) 0 n (0, 0)
      = (∑ i in Finset.range n, (c (A + i)).1 * h (B + i),
          ∑ i in Finset.range n, (c (A + i)).2 * h (B + i)) := by
  induction n with
  | zero => simp [forN]
  | succ n ih =>
    rw [forN_succ, ih, Finset.sum_range_succ, Finset.sum_range_succ]
    simp

theorem exCoMatrix_valid : exCoMatrix.valid := by
  refine ⟨fun c x oi oj i j v _ _ _ => rfl, ?_⟩
  intro h c a b x n _ _ _ hac _ _ _ _ _
  refine ⟨_, rfl, ?_, fun addr ha => Function.update_noteq ha _ _⟩
  rw [Function.update_same, hac, exCoMatrix_dot]

end InternalGradientMain

/-- C5. With the routines of co_matrix.c doing what `CoMatrix.valid` states
(the product of a row vector of `coordinates` with a column vector of
`double` is the sum of the products, component by component), for a zone whose
paths are closed and allocated, with `N` its number of boundary points, row
vectors `co_vgv` (`1 x 2N`) and `co_cgv` (`1 x 4N`) with clear flags, `co_cgv`
below the allocator of its cells, and column vectors `bvv` (`2N x 1`) and
`bcv` (`4N x 1`) with clear invert flags: `make_internal_grad_voltage`
returns and writes, for each of the two components,
`Gv = (co_cgv(P) . bcv - co_vgv(P) . bvv) / (2 * M_PI)`, where `co_vgv(P)` and
`co_cgv(P)` are the rows as `make_co_voltage_geometry_vector` and
`make_co_current_geometry_vector` leave them; the cells of `double` and the
four headers are left as they were. -/
theorem make_internal_grad_voltage_value {α : Type} [Field α] (m : LibM α) (t : Terms α)
    (cm : CoMatrix α) (hcm : cm.valid) (paths : Nat → path α) (mem : memory α)
    (co : memory (coordinates α)) (b : boundary) (bvv bcv : matrix) (P : coordinates α)
    (co_vgv co_cgv : co_matrix) (hz : ZonePaths paths b)
    (hvgv : co_vgv.transpose = 0 ∧ co_vgv.invert = 0 ∧ co_vgv.rows = 1
      ∧ co_vgv.columns = 2 * num_boundary_points paths b)
    (hcgv : co_cgv.transpose = 0 ∧ co_cgv.invert = 0 ∧ co_cgv.rows = 1
      ∧ co_cgv.columns = 4 * num_boundary_points paths b)
    (hbvv : bvv.invert ≠ 1 ∧ get_num_rows bvv = 2 * num_boundary_points paths b
      ∧ get_num_columns bvv = 1)
    (hbcv : bcv.invert ≠ 1 ∧ get_num_rows bcv = 4 * num_boundary_points paths b
      ∧ get_num_columns bcv = 1)
    (hbrk : 0 < co.brk)
    (hl : co_cgv.value + 4 * num_boundary_points paths b ≤ co.brk) :
    ∃ c1 c2 co',
      make_co_voltage_geometry_vector m t cm paths P b co_vgv co.cells = some c1
      ∧ make_co_current_geometry_vector m t cm paths P b co_cgv c1 = some c2
      ∧ make_internal_grad_voltage m t cm paths mem co b bvv bcv P co_vgv co_cgv
        = some ((((∑ i in Finset.range (4 * num_boundary_points paths b),
                (c2 (co_cgv.value + i)).1 * mem.cells (bcv.value + i))
              - (∑ i in Finset.range (2 * num_boundary_points paths b),
                (c2 (co_vgv.value + i)).1 * mem.cells (bvv.value + i))) / (2 * m.M_PI),
            ((∑ i in Finset.range (4 * num_boundary_points paths b),
                (c2 (co_cgv.value + i)).2 * mem.cells (bcv.value + i))
              - (∑ i in Finset.range (2 * num_boundary_points paths b),
                (c2 (co_vgv.value + i)).2 * mem.cells (bvv.value + i))) / (2 * m.M_PI)),
          mem, co', bvv, bcv, co_vgv, co_cgv)
      ∧ co'.brk = co.brk :=
  make_internal_grad_voltage_spec m t cm hcm paths mem co b bvv bcv P co_vgv co_cgv hz hvgv
    hcgv hbvv hbcv hbrk hl

theorem make_internal_grad_voltage_value_witness :
    ∃ c1 c2 co',
      make_co_voltage_geometry_vector exLibM exTerms exCoMatrix exFieldPaths ((3 : ℚ), 4)
        exCachedZone exVectors.co_vgv exHeaps.co.cells = some c1
      ∧ make_co_current_geometry_vector exLibM exTerms exCoMatrix exFieldPaths ((3 : ℚ), 4)
        exCachedZone exVectors.co_cgv c1 = some c2
      ∧ make_internal_grad_voltage exLibM exTerms exCoMatrix exFieldPaths exHeaps.mem
          exHeaps.co exCachedZone exVectors.bvv exVectors.bcv ((3 : ℚ), 4) exVectors.co_vgv
          exVectors.co_cgv
        = some ((((∑ i in Finset.range (4 * num_boundary_points exFieldPaths exCachedZone),
                (c2 (exVectors.co_cgv.value + i)).1 * exHeaps.mem.cells (exVectors.bcv.value + i))
              - (∑ i in Finset.range (2 * num_boundary_points exFieldPaths exCachedZone),
                (c2 (exVectors.co_vgv.value + i)).1
                  * exHeaps.mem.cells (exVectors.bvv.value + i))) / (2 * exLibM.M_PI),
            ((∑ i in Finset.range (4 * num_boundary_points exFieldPaths exCachedZone),
                (c2 (exVectors.co_cgv.value + i)).2 * exHeaps.mem.cells (exVectors.bcv.value + i))
              - (∑ i in Finset.range (2 * num_boundary_points exFieldPaths exCachedZone),
                (c2 (exVectors.co_vgv.value + i)).2
                  * exHeaps.mem.cells (exVectors.bvv.value + i))) / (2 * exLibM.M_PI)),
          exHeaps.mem, co', exVectors.bvv, exVectors.bcv, exVectors.co_vgv, exVectors.co_cgv)
      ∧ co'.brk = exHeaps.co.brk :=
  make_internal_grad_voltage_value exLibM exTerms exCoMatrix exCoMatrix_valid exFieldPaths
    exHeaps.mem exHeaps.co exCachedZone exVectors.bvv exVectors.bcv ((3 : ℚ), 4)
    exVectors.co_vgv exVectors.co_cgv
    (fun _ _ => ⟨by show exField.close ≠ 0; decide, rfl⟩)
    ⟨rfl, rfl, rfl, rfl⟩ ⟨rfl, rfl, rfl, rfl⟩
    ⟨by decide, rfl, rfl⟩ ⟨by decide, rfl, rfl⟩ (by decide) (by decide)

section TwoRuns
variable {α : Type}

/-- Two runs of a loop whose body may end the program keep a relation between
their states. -/
theorem forNM_rel {σ τ : Type} (Rel : Nat → σ → τ → Prop) (body : Nat → σ → Option σ)
    (body2 : Nat → τ → Option τ) :
    ∀ (n lo : Nat) (s : σ) (s2 : τ) (r : σ) (r2 : τ), Rel lo s s2 →
      (∀ i s s2 r r2, lo ≤ i → i < lo + n → Rel i s s2 → body i s = some r →
        body2 i s2 = some r2 → Rel (i + 1) r r2) →
      forNM body lo n s = some r → forNM body2 lo n s2 = some r2 → Rel (lo + n) r r2 := by
  intro n
  induction n with
  | zero =>
    intro lo s s2 r r2 h0 _ e e2
    simp only [forNM, Option.some.injEq] at e e2
    rw [← e, ← e2]
    exact h0
  | succ n ih =>
    intro lo s s2 r r2 h0 hstep e e2
    rw [forNM] at e e2
    cases hb : body lo s with
    | none => simp [hb] at e
    | some s1 =>
      cases hb2 : body2 lo s2 with
      | none => simp [hb2] at e2
      | some t1 =>
        rw [hb] at e
        rw [hb2] at e2
        have := ih (lo + 1) s1 t1 r r2 (hstep lo s s2 s1 t1 (le_refl _) (by omega) h0 hb hb2)
          (fun i s s2 r r2 h1 h2 => hstep i s s2 r r2 (by omega) (by omega)) e e2
        rw [show lo + (n + 1) = lo + 1 + n by omega]
        exact this

/-- Two runs of a loop keep a relation between their states. -/
theorem forN_rel {σ τ : Type} (Rel : σ → τ → Prop) (body : Nat → σ → σ) (body2 : Nat → τ → τ)
    (lo n : Nat) (s : σ) (s2 : τ) (h0 : Rel s s2)
    (hstep : ∀ i s s2, Rel s s2 → Rel (body i s) (body2 i s2)) :
    Rel (forN body lo n s) (forN body2 lo n s2) := by
  induction n with
  | zero => simpa [forN] using h0
  | succ n ih =>
    rw [forN_succ, forN_succ]
    exact hstep _ _ _ ih

theorem put_block_agree (h k : Nat → α) (x : matrix) (oi oj i j : Nat) (v : α) (a : Nat)
    (ha : h a = k a) :
    put_block_matrix_element h x oi oj i j v a = put_block_matrix_element k x oi oj i j v a := by
  unfold put_block_matrix_element
  split <;> simp only [Function.update_apply, ha]

theorem put_agree (h k : Nat → α) (x : matrix) (i j : Nat) (v : α) (a : Nat)
    (ha : h a = k a) :
    put_matrix_element h x i j v a = put_matrix_element k x i j v a := by
  rw [put_matrix_element_eq, put_matrix_element_eq]
  simp only [Function.update_apply, ha]

/-- Two runs of a loop over the components of a zone, each round one fill with
the running offset as its first argument: a cell on which the memories agree at
the start holds the same value in both at the end. -/
theorem offset_loop_agree (fill : Nat → Nat → (Nat → α) → Option (Nat → α)) (len : Nat → Nat)
    (a : Nat)
    (hfill : ∀ j o h k g g2, fill j o h = some g → fill j o k = some g2 → h a = k a →
      g a = g2 a)
    (n : Nat) (o : Nat) (h k : Nat → α) (r r2 : (Nat → α) × Nat)
    (e : forNM (fun j (st : (Nat → α) × Nat) =>
      (fill j st.2 st.1).bind fun h => some (h, st.2 + len j)) 0 n (h, o) = some r)
    (e2 : forNM (fun j (st : (Nat → α) × Nat) =>
      (fill j st.2 st.1).bind fun h => some (h, st.2 + len j)) 0 n (k, o) = some r2)
    (ha : h a = k a) : r.1 a = r2.1 a ∧ r.2 = r2.2 := by
  refine forNM_rel (fun _ (s s2 : (Nat → α) × Nat) => s.1 a = s2.1 a ∧ s.2 = s2.2) _ _ _ 0
    (h, o) (k, o) r r2 ⟨ha, rfl⟩ ?_ e e2
  intro j s s2 u u2 _ _ hs f f2
  simp only [Option.bind_eq_some] at f f2
  obtain ⟨g, hg, f⟩ := f
  obtain ⟨g2, hg2, f2⟩ := f2
  simp only [Option.some.injEq] at f f2
  rw [← f, ← f2]
  rw [← hs.2] at hg2
  exact ⟨hfill j s.2 s.1 s2.1 g g2 hg hg2 hs.1, by rw [hs.2]⟩

theorem get_path_value_closed (p : path α) (i : Int) (hc : p.close ≠ 0)
    (hv : p.value.isSome = true) (hi : 0 ≤ i) : ∃ c, get_path_value p i = some c := by
  obtain ⟨f, hf⟩ := Option.isSome_iff_exists.mp hv
  unfold get_path_value check_path_index
  simp only [hf, if_neg hc, if_neg (not_lt.mpr hi)]
  by_cases hr : p.reverse = 0
  · exact ⟨f (i % (p.points : Int)).toNat, by simp [hr, bind, pure]⟩
  · exact ⟨f ((p.points : Int) - 1 - i % (p.points : Int)).toNat, by simp [hr, bind, pure]⟩

end TwoRuns

section ObliviousFills
variable {α : Type} [Field α]

theorem vgm_sample_agree (m : LibM α) (t : Terms α) (vgm : matrix) (oi oj : Nat)
    (Qa Qb : coordinates α) (onS : Bool) (Px : coordinates α) (i j : Nat) (h k : Nat → α)
    (a : Nat) (ha : h a = k a) :
    vgm_sample m t vgm oi oj Qa Qb onS Px i j h a
      = vgm_sample m t vgm oi oj Qa Qb onS Px i j k a := by
  unfold vgm_sample
  simp only []
  exact put_block_agree _ _ vgm oi oj _ _ _ a (put_block_agree _ _ vgm oi oj _ _ _ a ha)

theorem cgm_sample_agree (m : LibM α) (t : Terms α) (cgm : matrix) (oi oj : Nat)
    (Qa Qb : coordinates α) (onS : Bool) (Px : coordinates α) (i j : Nat) (h k : Nat → α)
    (a : Nat) (ha : h a = k a) :
    cgm_sample m t cgm oi oj Qa Qb onS Px i j h a
      = cgm_sample m t cgm oi oj Qa Qb onS Px i j k a := by
  unfold cgm_sample
  simp only []
  exact put_block_agree _ _ cgm oi oj _ _ _ a (put_block_agree _ _ cgm oi oj _ _ _ a
    (put_block_agree _ _ cgm oi oj _ _ _ a (put_block_agree _ _ cgm oi oj _ _ _ a ha)))

/-- What `fill_voltage_geometry_matrix` leaves in a cell does not depend on
the other cells of the memory it starts from. -/
theorem fill_voltage_geometry_matrix_agree (m : LibM α) (t : Terms α) (paths : Nat → path α)
    (offset_i offset_j path_i path_j : Nat) (vgm : matrix) (h k g g2 : Nat → α) (a : Nat)
    (e : fill_voltage_geometry_matrix m t paths offset_i offset_j path_i path_j vgm h = some g)
    (e2 : fill_voltage_geometry_matrix m t paths offset_i offset_j path_i path_j vgm k = some g2)
    (ha : h a = k a) : g a = g2 a := by
  unfold fill_voltage_geometry_matrix at e e2
  simp only [] at e e2
  refine forNM_rel (fun _ (s s2 : Nat → α) => s a = s2 a) _ _ _ 0 h k g g2 ha ?_ e e2
  intro sj s s2 r r2 _ _ hs f f2
  cases hQa : get_path_xy (paths path_j) (sj : Int) with
  | none =>
    rw [hQa] at f
    cases f
  | some Qa =>
    cases hQb : get_path_xy (paths path_j) ((sj : Int) + 1) with
    | none =>
      rw [hQa, hQb] at f
      cases f
    | some Qb =>
      simp only [hQa, hQb, Option.bind_eq_bind, Option.some_bind] at f f2
      refine forNM_rel (fun _ (s s2 : Nat → α) => s a = s2 a) _ _ _ 0 s s2 r r2 hs ?_ f f2
      intro si u u2 v v2 _ _ hu c c2
      cases hPa : get_path_xy (paths path_i) (si : Int) with
      | none =>
        rw [hPa] at c
        cases c
      | some Pa =>
        cases hPf : get_path_xy (paths path_i) ((si : Int) + 1) with
        | none =>
          rw [hPa, hPf] at c
          cases c
        | some Pf =>
          simp only [hPa, hPf, Option.bind_eq_bind, Option.some_bind] at c c2
          split_ifs at c c2 <;>
          · simp only [pure, Option.some.injEq] at c c2
            rw [← c, ← c2]
            exact vgm_sample_agree m t vgm _ _ Qa Qb _ _ _ _ _ _ a
              (vgm_sample_agree m t vgm _ _ Qa Qb _ _ _ _ _ _ a
                (vgm_sample_agree m t vgm _ _ Qa Qb _ _ _ _ _ _ a
                  (vgm_sample_agree m t vgm _ _ Qa Qb _ _ _ _ _ _ a
                    (vgm_sample_agree m t vgm _ _ Qa Qb _ _ _ _ _ _ a hu))))

end ObliviousFills
section ObliviousFills2
variable {α : Type} [Field α]

/-- What `fill_current_geometry_matrix` leaves in a cell does not depend on
the other cells of the memory it starts from. -/
theorem fill_current_geometry_matrix_agree (m : LibM α) (t : Terms α) (paths : Nat → path α)
    (offset_i offset_j path_i path_j : Nat) (cgm : matrix) (h k g g2 : Nat → α) (a : Nat)
    (e : fill_current_geometry_matrix m t paths offset_i offset_j path_i path_j cgm h = some g)
    (e2 : fill_current_geometry_matrix m t paths offset_i offset_j path_i path_j cgm k = some g2)
    (ha : h a = k a) : g a = g2 a := by
  unfold fill_current_geometry_matrix at e e2
  simp only [] at e e2
  refine forNM_rel (fun _ (s s2 : Nat → α) => s a = s2 a) _ _ _ 0 h k g g2 ha ?_ e e2
  intro sj s s2 r r2 _ _ hs f f2
  cases hQa : get_path_xy (paths path_j) (sj : Int) with
  | none =>
    rw [hQa] at f
    cases f
  | some Qa =>
    cases hQb : get_path_xy (paths path_j) ((sj : Int) + 1) with
    | none =>
      rw [hQa, hQb] at f
      cases f
    | some Qb =>
      simp only [hQa, hQb, Option.bind_eq_bind, Option.some_bind] at f f2
      refine forNM_rel (fun _ (s s2 : Nat → α) => s a = s2 a) _ _ _ 0 s s2 r r2 hs ?_ f f2
      intro si u u2 v v2 _ _ hu c c2
      cases hPa : get_path_xy (paths path_i) (si : Int) with
      | none =>
        rw [hPa] at c
        cases c
      | some Pa =>
        cases hPf : get_path_xy (paths path_i) ((si : Int) + 1) with
        | none =>
          rw [hPa, hPf] at c
          cases c
        | some Pf =>
          simp only [hPa, hPf, Option.bind_eq_bind, Option.some_bind] at c c2
          split_ifs at c c2 <;>
          · simp only [pure, Option.some.injEq] at c c2
            rw [← c, ← c2]
            exact cgm_sample_agree m t cgm _ _ Qa Qb _ _ _ _ _ _ a
              (cgm_sample_agree m t cgm _ _ Qa Qb _ _ _ _ _ _ a
                (cgm_sample_agree m t cgm _ _ Qa Qb _ _ _ _ _ _ a
                  (cgm_sample_agree m t cgm _ _ Qa Qb _ _ _ _ _ _ a
                    (cgm_sample_agree m t cgm _ _ Qa Qb _ _ _ _ _ _ a hu))))

/-- What `make_voltage_geometry_vector` leaves in a cell does not depend on the
other cells of the memory it starts from. -/
theorem make_voltage_geometry_vector_agree (m : LibM α) (t : Terms α) (paths : Nat → path α)
    (P : coordinates α) (b : boundary) (vgv : matrix) (h k g g2 : Nat → α) (a : Nat)
    (e : make_voltage_geometry_vector m t paths P b vgv h = some g)
    (e2 : make_voltage_geometry_vector m t paths P b vgv k = some g2)
    (ha : h a = k a) : g a = g2 a := by
  unfold make_voltage_geometry_vector at e e2
  simp only [bind, Option.bind_eq_some, pure, Option.some.injEq] at e e2
  obtain ⟨r, hr, e⟩ := e
  obtain ⟨r2, hr2, e2⟩ := e2
  rw [← e, ← e2]
  exact (offset_loop_agree
    (fun j o h => fill_voltage_geometry_vector m t paths P o (b.loop j) vgv h)
    (fun j => (paths (b.loop j)).points) a
    (fun j o h k g g2 f f2 hh => by
      unfold fill_voltage_geometry_vector at f f2
      simp only [] at f f2
      refine forNM_rel (fun _ (s s2 : Nat → α) => s a = s2 a) _ _ _ 0 h k g g2 hh ?_ f f2
      intro sj s s2 u u2 _ _ hs c c2
      cases hQa : get_path_xy (paths (b.loop j)) (sj : Int) with
      | none =>
        rw [hQa] at c
        cases c
      | some Qa =>
        cases hQb : get_path_xy (paths (b.loop j)) ((sj : Int) + 1) with
        | none =>
          rw [hQa, hQb] at c
          cases c
        | some Qb =>
          simp only [hQa, hQb, Option.bind_eq_bind, Option.some_bind, pure,
            Option.some.injEq] at c c2
          rw [← c, ← c2]
          exact put_block_agree _ _ vgv _ _ _ _ _ a (put_block_agree _ _ vgv _ _ _ _ _ a hs))
    b.components 0 h k r r2 hr hr2 ha).1

end ObliviousFills2

section ObliviousFills3
variable {α : Type} [Field α]

/-- What `make_current_geometry_vector` leaves in a cell does not depend on the
other cells of the memory it starts from. -/
theorem make_current_geometry_vector_agree (m : LibM α) (t : Terms α) (paths : Nat → path α)
    (P : coordinates α) (b : boundary) (cgv : matrix) (h k g g2 : Nat → α) (a : Nat)
    (e : make_current_geometry_vector m t paths P b cgv h = some g)
    (e2 : make_current_geometry_vector m t paths P b cgv k = some g2)
    (ha : h a = k a) : g a = g2 a := by
  unfold make_current_geometry_vector at e e2
  simp only [bind, Option.bind_eq_some, pure, Option.some.injEq] at e e2
  obtain ⟨r, hr, e⟩ := e
  obtain ⟨r2, hr2, e2⟩ := e2
  rw [← e, ← e2]
  exact (offset_loop_agree
    (fun j o h => fill_current_geometry_vector m t paths P o (b.loop j) cgv h)
    (fun j => (paths (b.loop j)).points) a
    (fun j o h k g g2 f f2 hh => by
      unfold fill_current_geometry_vector at f f2
      simp only [] at f f2
      refine forNM_rel (fun _ (s s2 : Nat → α) => s a = s2 a) _ _ _ 0 h k g g2 hh ?_ f f2
      intro sj s s2 u u2 _ _ hs c c2
      cases hQa : get_path_xy (paths (b.loop j)) (sj : Int) with
      | none =>
        rw [hQa] at c
        cases c
      | some Qa =>
        cases hQb : get_path_xy (paths (b.loop j)) ((sj : Int) + 1) with
        | none =>
          rw [hQa, hQb] at c
          cases c
        | some Qb =>
          simp only [hQa, hQb, Option.bind_eq_bind, Option.some_bind, pure,
            Option.some.injEq] at c c2
          rw [← c, ← c2]
          exact put_block_agree _ _ cgv _ _ _ _ _ a (put_block_agree _ _ cgv _ _ _ _ _ a
            (put_block_agree _ _ cgv _ _ _ _ _ a (put_block_agree _ _ cgv _ _ _ _ _ a hs))))
    b.components 0 h k r r2 hr hr2 ha).1

/-- What `make_kcl_geometry_vector` leaves in a cell does not depend on the
other cells of the memory it starts from. -/
theorem make_kcl_geometry_vector_agree (m : LibM α) (paths : Nat → path α)
    (b : boundary) (kcl : matrix) (h k g g2 : Nat → α) (a : Nat)
    (e : make_kcl_geometry_vector m paths b kcl h = some g)
    (e2 : make_kcl_geometry_vector m paths b kcl k = some g2)
    (ha : h a = k a) : g a = g2 a := by
  unfold make_kcl_geometry_vector at e e2
  simp only [bind, Option.bind_eq_some, pure, Option.some.injEq] at e e2
  obtain ⟨r, hr, e⟩ := e
  obtain ⟨r2, hr2, e2⟩ := e2
  rw [← e, ← e2]
  exact (offset_loop_agree
    (fun j o h => fill_kcl_geometry_vector m paths o (b.loop j) kcl h)
    (fun j => (paths (b.loop j)).points) a
    (fun j o h k g g2 f f2 hh => by
      unfold fill_kcl_geometry_vector at f f2
      simp only [] at f f2
      refine forNM_rel (fun _ (s s2 : Nat → α) => s a = s2 a) _ _ _ 0 h k g g2 hh ?_ f f2
      intro sj s s2 u u2 _ _ hs c c2
      cases hQa : get_path_xy (paths (b.loop j)) (sj : Int) with
      | none =>
        rw [hQa] at c
        cases c
      | some Qa =>
        cases hQb : get_path_xy (paths (b.loop j)) ((sj : Int) + 1) with
        | none =>
          rw [hQa, hQb] at c
          cases c
        | some Qb =>
          simp only [hQa, hQb, Option.bind_eq_bind, Option.some_bind, pure,
            Option.some.injEq] at c c2
          rw [← c, ← c2]
          exact put_block_agree _ _ kcl _ _ _ _ _ a (put_block_agree _ _ kcl _ _ _ _ _ a
            (put_block_agree _ _ kcl _ _ _ _ _ a (put_block_agree _ _ kcl _ _ _ _ _ a hs))))
    b.components 0 h k r r2 hr hr2 ha).1

/-- What `make_voltage_geometry_matrix` leaves in a cell does not depend on the
other cells of the memory it starts from. -/
theorem make_voltage_geometry_matrix_agree (m : LibM α) (t : Terms α) (paths : Nat → path α)
    (b : boundary) (vgm : matrix) (h k g g2 : Nat → α) (a : Nat)
    (e : make_voltage_geometry_matrix m t paths b vgm h = some g)
    (e2 : make_voltage_geometry_matrix m t paths b vgm k = some g2)
    (ha : h a = k a) : g a = g2 a := by
  unfold make_voltage_geometry_matrix at e e2
  simp only [Option.bind_eq_bind, Option.bind_eq_some, Option.pure_def, Option.some.injEq] at e e2
  obtain ⟨r, hr, e⟩ := e
  obtain ⟨r2, hr2, e2⟩ := e2
  rw [← e, ← e2]
  refine (forNM_rel (fun _ (s s2 : (Nat → α) × Nat) => s.1 a = s2.1 a ∧ s.2 = s2.2) _ _ _ 0
    (h, 0) (k, 0) r r2 ⟨ha, rfl⟩ ?_ hr hr2).1
  intro j s s2 u u2 _ _ hs f f2
  simp only [Option.bind_eq_some, Option.some.injEq] at f f2
  obtain ⟨x, hx, f⟩ := f
  obtain ⟨x2, hx2, f2⟩ := f2
  rw [← f, ← f2]
  rw [← hs.2] at hx2
  refine ⟨?_, by rw [hs.2]⟩
  exact (offset_loop_agree
    (fun i o h => fill_voltage_geometry_matrix m t paths o s.2 (b.loop i) (b.loop j) vgm h)
    (fun i => (paths (b.loop i)).points) a
    (fun i o h k g g2 c c2 hh =>
      fill_voltage_geometry_matrix_agree m t paths o s.2 (b.loop i) (b.loop j) vgm h k g g2 a
        c c2 hh)
    b.components 0 s.1 s2.1 x x2 hx hx2 hs.1).1

/-- What `make_current_geometry_matrix` leaves in a cell does not depend on the
other cells of the memory it starts from. -/
theorem make_current_geometry_matrix_agree (m : LibM α) (t : Terms α) (paths : Nat → path α)
    (b : boundary) (cgm : matrix) (h k g g2 : Nat → α) (a : Nat)
    (e : make_current_geometry_matrix m t paths b cgm h = some g)
    (e2 : make_current_geometry_matrix m t paths b cgm k = some g2)
    (ha : h a = k a) : g a = g2 a := by
  unfold make_current_geometry_matrix at e e2
  simp only [Option.bind_eq_bind, Option.bind_eq_some, Option.pure_def, Option.some.injEq] at e e2
  obtain ⟨r, hr, e⟩ := e
  obtain ⟨r2, hr2, e2⟩ := e2
  rw [← e, ← e2]
  refine (forNM_rel (fun _ (s s2 : (Nat → α) × Nat) => s.1 a = s2.1 a ∧ s.2 = s2.2) _ _ _ 0
    (h, 0) (k, 0) r r2 ⟨ha, rfl⟩ ?_ hr hr2).1
  intro j s s2 u u2 _ _ hs f f2
  simp only [Option.bind_eq_some, Option.some.injEq] at f f2
  obtain ⟨x, hx, f⟩ := f
  obtain ⟨x2, hx2, f2⟩ := f2
  rw [← f, ← f2]
  rw [← hs.2] at hx2
  refine ⟨?_, by rw [hs.2]⟩
  exact (offset_loop_agree
    (fun i o h => fill_current_geometry_matrix m t paths o s.2 (b.loop i) (b.loop j) cgm h)
    (fun i => (paths (b.loop i)).points) a
    (fun i o h k g g2 c c2 hh =>
      fill_current_geometry_matrix_agree m t paths o s.2 (b.loop i) (b.loop j) cgm h k g g2 a
        c c2 hh)
    b.components 0 s.1 s2.1 x x2 hx hx2 hs.1).1

/-- What `zero_last_matrix_row` leaves in a cell does not depend on the other
cells of the memory it starts from. -/
theorem zero_last_matrix_row_agree (x : matrix) (h k g g2 : Nat → α) (a : Nat)
    (e : zero_last_matrix_row h x = some g) (e2 : zero_last_matrix_row k x = some g2)
    (ha : h a = k a) : g a = g2 a := by
  unfold zero_last_matrix_row at e e2
  simp only [bind, Option.bind_eq_some, pure, Option.some.injEq] at e e2
  obtain ⟨_, _, e⟩ := e
  obtain ⟨_, _, e2⟩ := e2
  rw [← e, ← e2]
  exact forN_rel (fun (s s2 : Nat → α) => s a = s2 a) _ _ 0 _ h k ha
    (fun j s s2 hs => put_agree s s2 x _ j 0 a hs)

end ObliviousFills3

section ObliviousDiagonal
variable {α : Type}

theorem dm_zero_block_agree [Field α] (dm : matrix) (oi oj i j : Nat) (h k : Nat → α) (a : Nat)
    (ha : h a = k a) : dm_zero_block dm oi oj i j h a = dm_zero_block dm oi oj i j k a := by
  unfold dm_zero_block
  iterate 10 apply put_block_agree
  exact ha

theorem zero_blocks_agree [Field α] (dm : matrix) (oi oj j lo hi : Nat) (h k : Nat → α)
    (a : Nat) (ha : h a = k a) :
    forRange (fun segment_i h => dm_zero_block dm oi oj (segment_i * 5) j h) lo hi h a
      = forRange (fun segment_i h => dm_zero_block dm oi oj (segment_i * 5) j h) lo hi k a := by
  unfold forRange
  exact forN_rel (fun (s s2 : Nat → α) => s a = s2 a) _ _ lo _ h k ha
    (fun i s s2 hs => dm_zero_block_agree dm oi oj _ j s s2 a hs)

/-- What `fill_diagonal_matrix` leaves in a cell does not depend on the other
cells of the memory it starts from. -/
theorem fill_diagonal_matrix_agree [LinearOrderedField α] (m : LibM α) (paths : Nat → path α)
    (offset_i offset_j path_i path_j : Nat) (dm : matrix) (h k g g2 : Nat → α) (a : Nat)
    (e : fill_diagonal_matrix m paths offset_i offset_j path_i path_j dm h = some g)
    (e2 : fill_diagonal_matrix m paths offset_i offset_j path_i path_j dm k = some g2)
    (ha : h a = k a) : g a = g2 a := by
  unfold fill_diagonal_matrix at e e2
  simp only [] at e e2
  refine forNM_rel (fun _ (s s2 : Nat → α) => s a = s2 a) _ _ _ 0 h k g g2 ha ?_ e e2
  intro sj s s2 u u2 _ _ hs c c2
  cases hA : get_path_xy (paths path_i) ((sj : Int) - 1 + (paths path_i).points) with
  | none =>
    rw [hA] at c
    cases c
  | some A =>
    cases hB : get_path_xy (paths path_i) (sj : Int) with
    | none =>
      rw [hA, hB] at c
      cases c
    | some B =>
      cases hC : get_path_xy (paths path_i) ((sj : Int) + 1) with
      | none =>
        rw [hA, hB, hC] at c
        cases c
      | some C =>
        simp only [hA, hB, hC, Option.bind_eq_bind, Option.some_bind, pure, p2c_2basis,
          Option.some.injEq] at c c2
        rw [← c, ← c2]
        apply zero_blocks_agree
        iterate 10 apply put_block_agree
        apply zero_blocks_agree
        exact hs

theorem empty_diagonal_matrix_agree [Field α] (paths : Nat → path α)
    (offset_i offset_j path_i path_j : Nat) (dm : matrix) (h k : Nat → α) (a : Nat)
    (ha : h a = k a) :
    empty_diagonal_matrix paths offset_i offset_j path_i path_j dm h a
      = empty_diagonal_matrix paths offset_i offset_j path_i path_j dm k a := by
  unfold empty_diagonal_matrix
  simp only []
  exact forN_rel (fun (s s2 : Nat → α) => s a = s2 a) _ _ 0 _ h k ha
    (fun sj s s2 hs => forN_rel (fun (s s2 : Nat → α) => s a = s2 a) _ _ 0 _ s s2 hs
      (fun si u u2 hu => dm_zero_block_agree dm _ _ _ _ u u2 a hu))

theorem empty_blocks_agree [Field α] (paths : Nat → path α) (b : boundary) (dm : matrix)
    (offset_j path_j lo hi o : Nat) (h k : Nat → α) (a : Nat) (ha : h a = k a) :
    (forRange (fun i (st' : (Nat → α) × Nat) =>
        (empty_diagonal_matrix paths st'.2 offset_j (b.loop i) path_j dm st'.1,
          st'.2 + (paths (b.loop i)).points)) lo hi (h, o)).1 a
      = (forRange (fun i (st' : (Nat → α) × Nat) =>
        (empty_diagonal_matrix paths st'.2 offset_j (b.loop i) path_j dm st'.1,
          st'.2 + (paths (b.loop i)).points)) lo hi (k, o)).1 a
    ∧ (forRange (fun i (st' : (Nat → α) × Nat) =>
        (empty_diagonal_matrix paths st'.2 offset_j (b.loop i) path_j dm st'.1,
          st'.2 + (paths (b.loop i)).points)) lo hi (h, o)).2
      = (forRange (fun i (st' : (Nat → α) × Nat) =>
        (empty_diagonal_matrix paths st'.2 offset_j (b.loop i) path_j dm st'.1,
          st'.2 + (paths (b.loop i)).points)) lo hi (k, o)).2 := by
  unfold forRange
  exact forN_rel (fun (s s2 : (Nat → α) × Nat) => s.1 a = s2.1 a ∧ s.2 = s2.2) _ _ lo _
    (h, o) (k, o) ⟨ha, rfl⟩
    (fun i s s2 hs => by
      refine ⟨?_, by rw [hs.2]⟩
      show empty_diagonal_matrix paths s.2 offset_j (b.loop i) path_j dm s.1 a
        = empty_diagonal_matrix paths s2.2 offset_j (b.loop i) path_j dm s2.1 a
      rw [← hs.2]
      exact empty_diagonal_matrix_agree paths _ _ _ _ dm _ _ a hs.1)

/-- What `make_diagonal_matrix` leaves in a cell does not depend on the other
cells of the memory it starts from. -/
theorem make_diagonal_matrix_agree [LinearOrderedField α] (m : LibM α) (paths : Nat → path α)
    (b : boundary) (dm : matrix) (h k g g2 : Nat → α) (a : Nat)
    (e : make_diagonal_matrix m paths b dm h = some g)
    (e2 : make_diagonal_matrix m paths b dm k = some g2)
    (ha : h a = k a) : g a = g2 a := by
  unfold make_diagonal_matrix at e e2
  simp only [Option.bind_eq_bind, Option.bind_eq_some, Option.pure_def, Option.some.injEq]
    at e e2
  obtain ⟨r, hr, e⟩ := e
  obtain ⟨r2, hr2, e2⟩ := e2
  rw [← e, ← e2]
  refine (forNM_rel (fun _ (s s2 : (Nat → α) × Nat) => s.1 a = s2.1 a ∧ s.2 = s2.2) _ _ _ 0
    (h, 0) (k, 0) r r2 ⟨ha, rfl⟩ ?_ hr hr2).1
  intro j s s2 u u2 _ _ hs f f2
  simp only [Option.bind_eq_some, Option.some.injEq] at f f2
  obtain ⟨x, hx, f⟩ := f
  obtain ⟨x2, hx2, f2⟩ := f2
  rw [← f, ← f2]
  rw [← hs.2] at hx2 ⊢
  refine ⟨?_, rfl⟩
  have h1 := empty_blocks_agree paths b dm s.2 (b.loop j) 0 j 0 s.1 s2.1 a hs.1
  rw [← h1.2] at hx2 ⊢
  have h2 := fill_diagonal_matrix_agree m paths _ _ _ _ dm _ _ x x2 a hx hx2 h1.1
  exact (empty_blocks_agree paths b dm s.2 (b.loop j) (j + 1) b.components _ x x2 a h2).1

end ObliviousDiagonal

section ObliviousAssembly
variable {α : Type} [LinearOrderedField α]

/-- What the assembly of `A` leaves in a cell does not depend on the other
cells of the memory it starts from. -/
theorem KCL_assemble_A_agree (m : LibM α) (t : Terms α) (paths : Nat → path α)
    (b : boundary) (N v : Nat) (h k : Nat → α) (r r2 : (Nat → α) × matrix × matrix) (a : Nat)
    (e : KCL_assemble_A m t paths b N v h = some r)
    (e2 : KCL_assemble_A m t paths b N v k = some r2)
    (ha : h a = k a) : r.1 a = r2.1 a := by
  unfold KCL_assemble_A at e e2
  simp only [Option.bind_eq_bind, Option.bind_eq_some, Option.pure_def, Option.some.injEq]
    at e e2
  obtain ⟨g, hg, z, hz, e⟩ := e
  obtain ⟨g2, hg2, z2, hz2, e2⟩ := e2
  rw [← e, ← e2]
  exact zero_last_matrix_row_agree _ g g2 z z2 a hz hz2
    (make_voltage_geometry_matrix_agree m t paths b _ h k g g2 a hg hg2 ha)

/-- What the assembly of `D` leaves in a cell does not depend on the other
cells of the memory it starts from. -/
theorem KCL_assemble_D_agree (m : LibM α) (paths : Nat → path α)
    (b : boundary) (D : matrix) (h k g g2 : Nat → α) (a : Nat)
    (e : KCL_assemble_D m paths b D h = some g)
    (e2 : KCL_assemble_D m paths b D k = some g2)
    (ha : h a = k a) : g a = g2 a := by
  unfold KCL_assemble_D at e e2
  simp only [Option.bind_eq_bind, Option.bind_eq_some] at e e2
  obtain ⟨z, hz, e⟩ := e
  obtain ⟨z2, hz2, e2⟩ := e2
  exact zero_last_matrix_row_agree D z z2 g g2 a e e2
    (make_diagonal_matrix_agree m paths b D h k z z2 a hz hz2 ha)

end ObliviousAssembly

section InverseLocal
variable {α : Type} [Field α]

/-- Two runs of a loop keep a relation between their states; the rounds know
their index. -/
theorem forN_rel_bounded {σ τ : Type} (Rel : σ → τ → Prop) (body : Nat → σ → σ)
    (body2 : Nat → τ → τ) (lo n : Nat) (s : σ) (s2 : τ) (h0 : Rel s s2)
    (hstep : ∀ i s s2, lo ≤ i → i < lo + n → Rel s s2 → Rel (body i s) (body2 i s2)) :
    Rel (forN body lo n s) (forN body2 lo n s2) := by
  induction n with
  | zero => simpa [forN] using h0
  | succ n ih =>
    rw [forN_succ, forN_succ]
    exact hstep _ _ _ (by omega) (by omega)
      (ih (fun i s s2 h1 h2 => hstep i s s2 h1 (by omega)))

theorem invert_attach_eq (cfg : Config α) (h : Nat → α) (n p : Nat) :
    invert_this_matrix cfg h { attach_matrix n n p with invert := 1 }
      = if p = 0 then none
        else if cfg.use_sequential_inversion = 0 then
          some (cfg.mat_inv h p n, attach_matrix n n p)
        else
          some (forRange (fun j g =>
            reduce_column (scale_row g (attach_matrix n n p) j) (attach_matrix n n p) j)
            0 n h, attach_matrix n n p) := rfl

/-- The entries that `invert_this_matrix` leaves in a square matrix depend only
on the entries it finds there. -/
theorem invert_this_matrix_local (cfg : Config α) (hloc : cfg.inverse_local) (n p : Nat)
    (h k h5 k5 : Nat → α) (a1 a2 : matrix)
    (e : invert_this_matrix cfg h { attach_matrix n n p with invert := 1 } = some (h5, a1))
    (e2 : invert_this_matrix cfg k { attach_matrix n n p with invert := 1 } = some (k5, a2))
    (hag : ∀ i j, i < n → j < n → get_matrix_element h (attach_matrix n n p) i j
        = get_matrix_element k (attach_matrix n n p) i j) :
    ∀ i j, i < n → j < n → get_matrix_element h5 (attach_matrix n n p) i j
        = get_matrix_element k5 (attach_matrix n n p) i j := by
  have hg : ∀ (g : Nat → α) i j,
      get_matrix_element g (attach_matrix n n p) i j = g (p + (j * n + i)) := fun _ _ _ => rfl
  rw [invert_attach_eq] at e e2
  by_cases hp : p = 0
  · rw [if_pos hp] at e
    cases e
  · rw [if_neg hp] at e e2
    by_cases hseq : cfg.use_sequential_inversion = 0
    · rw [if_pos hseq] at e e2
      simp only [Option.some.injEq, Prod.mk.injEq] at e e2
      intro i j hi hj
      rw [hg, hg, ← e.1, ← e2.1]
      exact hloc hseq h k p n (fun i j hi hj => hag i j hi hj) i j hi hj
    · rw [if_neg hseq] at e e2
      simp only [Option.some.injEq, Prod.mk.injEq] at e e2
      rw [← e.1, ← e2.1]
      unfold forRange
      rw [Nat.sub_zero]
      refine forN_rel_bounded
        (fun (g g2 : Nat → α) => ∀ i j, i < n → j < n →
          get_matrix_element g (attach_matrix n n p) i j
            = get_matrix_element g2 (attach_matrix n n p) i j) _ _ 0 n h k hag ?_
      intro t g g2 _ ht hs i j hi hj
      rw [(gj_pass_spec g (attach_matrix n n p) t n rfl rfl (by omega)).1 i j hi hj,
        (gj_pass_spec g2 (attach_matrix n n p) t n rfl rfl (by omega)).1 i j hi hj]
      unfold gjStep
      simp only [hs t t (by omega) (by omega), hs t j (by omega) hj, hs i t hi (by omega),
        hs i j hi hj]

end InverseLocal

section TwiceValues
variable {α : Type} [Field α]

theorem get_path_value_twice (paths : Nat → path α) (a : Nat) (i : Int) :
    get_path_value (twice_values paths a) i
      = (get_path_value (paths a) i).map fun x => 2 * x := by
  unfold get_path_value twice_values
  cases hv : (paths a).value with
  | none => rfl
  | some f =>
    simp only [Option.map_some', Option.bind_eq_bind, Option.some_bind]
    cases hc : check_path_index (paths a) i with
    | none =>
      have : check_path_index { paths a with value := some fun i => 2 * f i } i = none := hc
      rw [this]
      rfl
    | some u =>
      have : check_path_index { paths a with value := some fun i => 2 * f i } i = some u := hc
      rw [this]
      simp only [Option.some_bind]
      split <;> rfl

theorem twice_values_points (paths : Nat → path α) (a : Nat) :
    (twice_values paths a).points = (paths a).points := rfl

end TwiceValues

section TwiceVoltage
variable {α : Type} [Field α]

/-- Total-correctness rule for two runs of a loop whose body may end the
program. -/
theorem forNM_total2 {σ τ : Type} (Rel : Nat → σ → τ → Prop) (body : Nat → σ → Option σ)
    (body2 : Nat → τ → Option τ) (lo n : Nat) (s : σ) (s2 : τ) (h0 : Rel lo s s2)
    (hstep : ∀ i s s2, lo ≤ i → i < lo + n → Rel i s s2 →
      ∃ r r2, body i s = some r ∧ body2 i s2 = some r2 ∧ Rel (i + 1) r r2) :
    ∃ r r2, forNM body lo n s = some r ∧ forNM body2 lo n s2 = some r2
      ∧ Rel (lo + n) r r2 := by
  induction n generalizing lo s s2 with
  | zero => exact ⟨s, s2, rfl, rfl, h0⟩
  | succ n ih =>
    obtain ⟨r, r2, e, e2, hr⟩ := hstep lo s s2 (Nat.le_refl lo) (by omega) h0
    obtain ⟨u, u2, f, f2, hu⟩ := ih (lo + 1) r r2 hr
      (fun i s s2 h1 h2 hp => hstep i s s2 (by omega) (by omega) hp)
    refine ⟨u, u2, ?_, ?_, ?_⟩
    · rw [forNM, e]
      exact f
    · rw [forNM, e2]
      exact f2
    · have : lo + (n + 1) = lo + 1 + n := by omega
      rw [this]
      exact hu

/-- `fill_boundary_voltage_vector` on a closed path with values, run on the
path and on the path with doubled values: both return, the cells written by the
second run hold twice those of the first. -/
theorem fill_boundary_voltage_vector_twice (paths : Nat → path α) (a : Nat)
    (hc : (paths a).close ≠ 0) (hv : (paths a).value.isSome = true) (res lo : Nat)
    (hlo : lo ≤ res) (h0 h k : Nat → α)
    (hd : ∀ x, lo ≤ x → x < res → k x = 2 * h x)
    (hf : ∀ x, (x < lo ∨ res ≤ x) → h x = h0 x ∧ k x = h0 x) :
    ∃ h' k', fill_boundary_voltage_vector (paths a) res h = some h'
      ∧ fill_boundary_voltage_vector (twice_values paths a) res k = some k'
      ∧ (∀ x, lo ≤ x → x < res + 2 * (paths a).points → k' x = 2 * h' x)
      ∧ (∀ x, (x < lo ∨ res + 2 * (paths a).points ≤ x) → h' x = h0 x ∧ k' x = h0 x) := by
  unfold fill_boundary_voltage_vector
  simp only [twice_values_points]
  have key := forNM_total2
    (fun j (g g2 : Nat → α) => (∀ x, lo ≤ x → x < res + 2 * j → g2 x = 2 * g x)
      ∧ (∀ x, (x < lo ∨ res + 2 * j ≤ x) → g x = h0 x ∧ g2 x = h0 x))
    (fun j h => do
      let v1 ← get_path_value (paths a) j
      let v2 ← get_path_value (paths a) (j + 1)
      let V := v2 - v1
      let W := (v2 + v1) / 2
      let (V, W) := p2c_2coeff V W
      let h := Function.update h (res + 2 * j) V
      let h := Function.update h (res + (2 * j + 1)) W
      pure h)
    (fun j h => do
      let v1 ← get_path_value (twice_values paths a) j
      let v2 ← get_path_value (twice_values paths a) (j + 1)
      let V := v2 - v1
      let W := (v2 + v1) / 2
      let (V, W) := p2c_2coeff V W
      let h := Function.update h (res + 2 * j) V
      let h := Function.update h (res + (2 * j + 1)) W
      pure h)
    0 (paths a).points h k
    ⟨fun x h1 h2 => hd x h1 (by omega), fun x hx => hf x (by omega)⟩
    (by
      intro j g g2 _ hj ⟨gd, gf⟩
      obtain ⟨v1, hv1⟩ := get_path_value_closed (paths a) (j : Int) hc hv (by omega)
      obtain ⟨v2, hv2⟩ := get_path_value_closed (paths a) ((j : Int) + 1) hc hv (by omega)
      simp only [get_path_value_twice, hv1, hv2, Option.map_some', Option.bind_eq_bind,
        Option.some_bind, p2c_2coeff]
      refine ⟨_, _, rfl, rfl, ?_, ?_⟩
      · intro x hx1 hx2
        simp only [Function.update_apply]
        by_cases e1 : x = res + (2 * j + 1)
        · rw [if_pos e1, if_pos e1]
          ring
        · rw [if_neg e1, if_neg e1]
          by_cases e2 : x = res + 2 * j
          · rw [if_pos e2, if_pos e2]
            ring
          · rw [if_neg e2, if_neg e2]
            exact gd x hx1 (by omega)
      · intro x hx
        simp only [Function.update_apply]
        rw [if_neg (by omega), if_neg (by omega), if_neg (by omega), if_neg (by omega)]
        exact gf x (by omega))
  obtain ⟨r, r2, e, e2, hr1, hr2⟩ := key
  rw [Nat.zero_add] at hr1 hr2
  exact ⟨r, r2, e, e2, hr1, hr2⟩

/-- `make_boundary_voltage_vector` on a zone without a cached `bvv`, run on the
path structs and on those with doubled values: both calls return with the same
block, the second vector is twice the first, and no other cell is written. -/
theorem make_boundary_voltage_vector_twice (paths : Nat → path α) (mem : memory α)
    (b : boundary) (N : Nat) (hb : b.bvv = 0) (hz : ZonePaths paths b)
    (hval : ∀ j, j < b.components → (paths (b.loop j)).value.isSome = true)
    (hN : N = num_boundary_points paths b) :
    ∃ h k, make_boundary_voltage_vector paths mem b (attach_matrix (2 * N) 1 0)
        = some ({ cells := h, brk := mem.brk + 2 * N }, { b with bvv := mem.brk },
            attach_matrix (2 * N) 1 mem.brk)
      ∧ make_boundary_voltage_vector (twice_values paths) mem b (attach_matrix (2 * N) 1 0)
        = some ({ cells := k, brk := mem.brk + 2 * N }, { b with bvv := mem.brk },
            attach_matrix (2 * N) 1 mem.brk)
      ∧ (∀ x, mem.brk ≤ x → x < mem.brk + 2 * N → k x = 2 * h x)
      ∧ (∀ x, (x < mem.brk ∨ mem.brk + 2 * N ≤ x) → h x = mem.cells x ∧ k x = mem.cells x) := by
  have key := forNM_total2
    (fun j (st st2 : (Nat → α) × Nat) =>
      st.2 = mem.brk + 2 * points_before paths b j ∧ st2.2 = st.2
      ∧ (∀ x, mem.brk ≤ x → x < st.2 → st2.1 x = 2 * st.1 x)
      ∧ (∀ x, (x < mem.brk ∨ st.2 ≤ x) → st.1 x = mem.cells x ∧ st2.1 x = mem.cells x))
    (fun i (st : (Nat → α) × Nat) => do
      let path_i := paths (b.loop i)
      let h ← fill_boundary_voltage_vector path_i st.2 st.1
      let poi := path_i.points
      pure (h, st.2 + 2 * poi))
    (fun i (st : (Nat → α) × Nat) => do
      let path_i := twice_values paths (b.loop i)
      let h ← fill_boundary_voltage_vector path_i st.2 st.1
      let poi := path_i.points
      pure (h, st.2 + 2 * poi))
    0 b.components (mem.cells, mem.brk) (mem.cells, mem.brk)
    ⟨rfl, rfl, fun x h1 h2 => absurd h2 (by simp only []; omega), fun x _ => ⟨rfl, rfl⟩⟩
    (by
      intro j st st2 _ hj ⟨ho, ho2, gd, gf⟩
      obtain ⟨h', k', e, e2, d', f'⟩ := fill_boundary_voltage_vector_twice paths (b.loop j)
        (hz j (by omega)).1 (hval j (by omega)) st.2 mem.brk (by rw [ho]; omega) mem.cells
        st.1 st2.1 gd gf
      refine ⟨(h', st.2 + 2 * (paths (b.loop j)).points),
        (k', st.2 + 2 * (paths (b.loop j)).points), ?_, ?_, ?_, rfl, d', f'⟩
      · simp only [e, Option.bind_eq_bind, Option.some_bind]
        rfl
      · rw [← ho2] at e2 ⊢
        simp only [e2, Option.bind_eq_bind, Option.some_bind]
        rfl
      · show st.2 + 2 * (paths (b.loop j)).points = _
        rw [points_before_succ, ho]
        omega)
  obtain ⟨r, r2, e, e2, ho, ho2, gd, gf⟩ := key
  have hNN : points_before paths b (0 + b.components) = N := by
    rw [Nat.zero_add, hN]
    rfl
  rw [hNN] at ho
  rw [ho] at gd gf
  refine ⟨r.1, r2.1, ?_, ?_, gd, gf⟩
  · unfold make_boundary_voltage_vector malloc
    rw [if_pos hb]
    simp only [Option.bind_eq_bind] at e ⊢
    rw [e]
    rfl
  · unfold make_boundary_voltage_vector malloc
    rw [if_pos hb]
    simp only [Option.bind_eq_bind] at e2 ⊢
    rw [e2]
    rfl

end TwiceVoltage

section TwoRunSolve
variable {α : Type} [Field α]

/-- PHASES 3 to 5 run on two memories that hold the same `B` and where `DAV`
in the second is twice that in the first: both runs return and the second `J`
is twice the first. -/
theorem KCL_solve_twice (cfg : Config α) (hcfg : cfg.valid) (hloc : cfg.inverse_local)
    (R n v p0 p1 p2 : Nat) (J : matrix) (h k : Nat → α) (hJv : J.value ≠ 0)
    (hJs : n * 1 = get_num_rows J * get_num_columns J)
    (hl1 : J.value + n ≤ v) (hl2 : v + R * n ≤ p0) (hl3 : p0 + R ≤ p1)
    (hl4 : p1 + n * n ≤ p2)
    (hB : ∀ r c, r < R → c < n → get_matrix_element k (attach_matrix R n v) r c
      = get_matrix_element h (attach_matrix R n v) r c)
    (hD : ∀ r, r < R → get_matrix_element k (attach_matrix R 1 p0) r 0
      = 2 * get_matrix_element h (attach_matrix R 1 p0) r 0) :
    ∃ h' k', KCL_solve cfg (attach_matrix R n v) { attach_matrix R n v with transpose := 1 }
          (attach_matrix n n p1) (attach_matrix n 1 p2) (attach_matrix R 1 p0) J h
        = some (h', product_header J n 1)
      ∧ KCL_solve cfg (attach_matrix R n v) { attach_matrix R n v with transpose := 1 }
          (attach_matrix n n p1) (attach_matrix n 1 p2) (attach_matrix R 1 p0) J k
        = some (k', product_header J n 1)
      ∧ (∀ i, i < n → get_matrix_element k' (product_header J n 1) i 0
          = 2 * get_matrix_element h' (product_header J n 1) i 0)
      ∧ (∀ addr, (addr < J.value ∨ (J.value + n ≤ addr ∧ addr < p1) ∨ p2 + n ≤ addr) →
          h' addr = h addr)
      ∧ (∀ addr, (addr < J.value ∨ (J.value + n ≤ addr ∧ addr < p1) ∨ p2 + n ≤ addr) →
          k' addr = k addr) := by
  obtain ⟨h4, h5, h', he, g3, i3, r3, j3, f3⟩ := KCL_solve_spec cfg hcfg R n v p0 p1 p2 J h
    hJv hJs hl1 hl2 hl3 hl4
  obtain ⟨k4, k5, k', ke, g4, i4, r4, j4, f4⟩ := KCL_solve_spec cfg hcfg R n v p0 p1 p2 J k
    hJv hJs hl1 hl2 hl3 hl4
  have hinv := invert_this_matrix_local cfg hloc n p1 k4 h4 k5 h5 _ _ i4 i3
    (by
      intro i j hi hj
      rw [g3 i j hi hj, g4 i j hi hj]
      apply Finset.sum_congr rfl
      intro r hr
      have hr' := Finset.mem_range.mp hr
      rw [hB r i hr' hi, hB r j hr' hj])
  refine ⟨h', k', he, ke, ?_, f3, f4⟩
  intro i hi
  rw [j4 i hi, j3 i hi, Finset.mul_sum]
  apply Finset.sum_congr rfl
  intro j hj
  have hj' := Finset.mem_range.mp hj
  rw [r4 i j hi hj', r3 i j hi hj', hinv i j hi hj']
  have hs : (∑ r in Finset.range R, get_matrix_element k (attach_matrix R n v) r j
        * get_matrix_element k (attach_matrix R 1 p0) r 0)
      = 2 * ∑ r in Finset.range R, get_matrix_element h (attach_matrix R n v) r j
        * get_matrix_element h (attach_matrix R 1 p0) r 0 := by
    rw [Finset.mul_sum]
    apply Finset.sum_congr rfl
    intro r hr
    have hr' := Finset.mem_range.mp hr
    rw [hB r j hr' hj', hD r hr']
    ring
  rw [hs]
  ring

end TwoRunSolve

section TwoRunKCL
variable {α : Type} [LinearOrderedField α]

theorem cell_attach (R C v r c : Nat) : cell (attach_matrix R C v) r c = v + (c * R + r) := rfl

/-- `make_bcv_use_KCL` on a zone whose `bcv` is not cached, run on two memories
with the same allocator that agree from it on and where the voltage vector `V`
in the second is twice that in the first: both calls return with the same
blocks, the second `J` is twice the first, and the cells below the allocator
are left as they were. -/
theorem make_bcv_use_KCL_twice (cfg : Config α) (m : LibM α) (t : Terms α)
    (paths : Nat → path α) (cells cells2 : Nat → α) (brk : Nat) (b : boundary) (V J : matrix)
    (N v p0 p1 p2 : Nat)
    (hcfg : cfg.valid) (hloc : cfg.inverse_local) (hz : ZonePaths paths b)
    (hN : N = num_boundary_points paths b)
    (hbcv : b.bcv = 0) (hbrk : brk ≠ 0)
    (hVt : V.transpose = 0) (hVi : V.invert ≠ 1) (hVr : V.rows = 2 * N) (hVc : V.columns = 1)
    (hVv : V.value + 2 * N ≤ brk)
    (hJr : get_num_rows J = 4 * N) (hJc : get_num_columns J = 1)
    (hv : v = brk + 4 * N)
    (hp0 : p0 = v + (5 * N + 1) * (2 * N) + (5 * N + 1) * (2 * N))
    (hp1 : p1 = p0 + (5 * N + 1) * 1) (hp2 : p2 = p1 + 4 * N * (4 * N))
    (hVd : ∀ c, c < 2 * N → get_matrix_element cells2 V c 0
      = 2 * get_matrix_element cells V c 0)
    (hag : ∀ a, brk ≤ a → cells2 a = cells a) :
    ∃ h' k',
      make_bcv_use_KCL cfg m t paths { cells := cells, brk := brk } b V J
        = some ({ cells := h', brk := brk + get_num_rows J + (9 * N + 1) * (4 * N + 1) },
            { b with bcv := brk }, V, product_header { J with value := brk } (4 * N) 1)
      ∧ make_bcv_use_KCL cfg m t paths { cells := cells2, brk := brk } b V J
        = some ({ cells := k', brk := brk + get_num_rows J + (9 * N + 1) * (4 * N + 1) },
            { b with bcv := brk }, V, product_header { J with value := brk } (4 * N) 1)
      ∧ (∀ i, i < 4 * N → k' (brk + i) = 2 * h' (brk + i))
      ∧ (∀ a, a < brk → h' a = cells a)
      ∧ (∀ a, a < brk → k' a = cells2 a) := by
  have hvne : v ≠ 0 := by omega
  have hsplit := arena_split N
  obtain ⟨hA, hD, h1, heA, heD, he1, c1, _, W1, a1, d1⟩ := KCL_phase1_spec cfg m t paths
    { b with bcv := brk } N v V cells hcfg hz hN hvne hVt hVi hVr hVc (by omega)
  obtain ⟨kA, kD, k1, keA, keD, ke1, c2, _, W2, a2, d2⟩ := KCL_phase1_spec cfg m t paths
    { b with bcv := brk } N v V cells2 hcfg hz hN hvne hVt hVi hVr hVc (by omega)
  rw [← hp0] at he1 c1 W1 ke1 c2 W2
  -- the assembled A and D are the same
  have hAD : ∀ a, brk ≤ a → kD a = hD a := fun a ha =>
    KCL_assemble_D_agree m paths _ _ kA hA kD hD a keD heD
      (KCL_assemble_A_agree m t paths _ N v cells2 cells _ _ a keA heA (hag a ha))
  have hAe : ∀ r c, r < 5 * N + 1 → c < 2 * N →
      get_matrix_element kD (attach_matrix (5 * N + 1) (2 * N) v) r c
        = get_matrix_element hD (attach_matrix (5 * N + 1) (2 * N) v) r c := by
    intro r c hr hc
    rw [get_matrix_element_eq, get_matrix_element_eq]
    apply hAD
    rw [cell_attach]
    omega
  have hDe : ∀ r c, r < 5 * N + 1 → c < 2 * N →
      get_matrix_element kD (attach_matrix (5 * N + 1) (2 * N) (v + (5 * N + 1) * (2 * N))) r c
        = get_matrix_element hD
            (attach_matrix (5 * N + 1) (2 * N) (v + (5 * N + 1) * (2 * N))) r c := by
    intro r c hr hc
    rw [get_matrix_element_eq, get_matrix_element_eq]
    apply hAD
    rw [cell_attach]
    omega
  -- the cells of B and of the KCL vector agree before PHASE 2
  have hB1 : ∀ r c, r < 5 * N + 1 → c < 4 * N →
      k1 (cell (attach_matrix (5 * N + 1) (4 * N) v) r c)
        = h1 (cell (attach_matrix (5 * N + 1) (4 * N) v) r c) := by
    intro r c hr hc
    by_cases hc2 : c < 2 * N
    · have e : cell (attach_matrix (5 * N + 1) (4 * N) v) r c
          = cell (attach_matrix (5 * N + 1) (2 * N) v) r c := rfl
      rw [e, ← get_matrix_element_eq k1 (attach_matrix (5 * N + 1) (2 * N) v) r c,
        ← get_matrix_element_eq h1 (attach_matrix (5 * N + 1) (2 * N) v) r c,
        a1 r c hr hc2, a2 r c hr hc2,
        hDe r c hr hc2, hAe r c hr hc2]
    · have e : cell (attach_matrix (5 * N + 1) (4 * N) v) r c
          = cell (attach_matrix (5 * N + 1) (2 * N) (v + (5 * N + 1) * (2 * N))) r
              (c - 2 * N) := by
        rw [cell_attach, cell_attach]
        have : c * (5 * N + 1) = (5 * N + 1) * (2 * N) + (c - 2 * N) * (5 * N + 1) := by
          have hc3 : c = 2 * N + (c - 2 * N) := by omega
          conv_lhs => rw [hc3]
          ring
        omega
      rw [e, ← get_matrix_element_eq k1
          (attach_matrix (5 * N + 1) (2 * N) (v + (5 * N + 1) * (2 * N))) r (c - 2 * N),
        ← get_matrix_element_eq h1
          (attach_matrix (5 * N + 1) (2 * N) (v + (5 * N + 1) * (2 * N))) r (c - 2 * N),
        d1 r (c - 2 * N) hr (by omega), d2 r (c - 2 * N) hr (by omega),
        hDe r (c - 2 * N) hr (by omega)]
  have hK1 : ∀ c, c < 4 * N → k1 (cell (attach_matrix 1 (4 * N) p2) 0 c)
      = h1 (cell (attach_matrix 1 (4 * N) p2) 0 c) := by
    intro c hc
    rw [cell_attach, W1 _ (by omega), W2 _ (by omega)]
    exact hag _ (by omega)
  -- PHASE 2
  obtain ⟨h2, he2, f2, _, hB0, hK, heB0, heK, l2, g2⟩ := KCL_phase2_spec cfg m t paths
    { b with bcv := brk } N v p0 h1 hz hN hvne (by omega)
  obtain ⟨k2, ke2, f3, _, kB0, kK, keB0, keK, l3, g3⟩ := KCL_phase2_spec cfg m t paths
    { b with bcv := brk } N v p0 k1 hz hN hvne (by omega)
  rw [← hp1, ← hp2] at he2 f2 heK l2 ke2 f3 keK l3
  have hKK : ∀ a, k1 a = h1 a → kK a = hK a := fun a ha =>
    make_kcl_geometry_vector_agree m paths _ _ kB0 hB0 kK hK a keK heK
      (make_current_geometry_matrix_agree m t paths _ _ k1 h1 kB0 hB0 a keB0 heB0 ha)
  have hB2 : ∀ r c, r < 5 * N + 1 → c < 4 * N →
      get_matrix_element k2 (attach_matrix (5 * N + 1) (4 * N) v) r c
        = get_matrix_element h2 (attach_matrix (5 * N + 1) (4 * N) v) r c := by
    intro r c hr hc
    by_cases hr5 : r = 5 * N
    · rw [hr5, l2 c hc, l3 c hc, get_matrix_element_eq, get_matrix_element_eq]
      exact hKK _ (hK1 c hc)
    · rw [get_matrix_element_eq, get_matrix_element_eq]
      have hne : ∀ c', c' < 4 * N → cell (attach_matrix (5 * N + 1) (4 * N) v) r c
          ≠ cell (attach_matrix (5 * N + 1) (4 * N) v) (5 * N) c' := by
        intro c' hc' he
        exact hr5 (cell_inj (attach_matrix (5 * N + 1) (4 * N) v) hr hc
          (by show 5 * N < 5 * N + 1; omega) hc' he).1
      rw [g2 _ hne, g3 _ hne]
      exact hKK _ (hB1 r c hr hc)
  have hD2 : ∀ r, r < 5 * N + 1 →
      get_matrix_element k2 (attach_matrix (5 * N + 1) 1 p0) r 0
        = 2 * get_matrix_element h2 (attach_matrix (5 * N + 1) 1 p0) r 0 := by
    intro r hr
    have e2 : get_matrix_element h2 (attach_matrix (5 * N + 1) 1 p0) r 0
        = get_matrix_element h1 (attach_matrix (5 * N + 1) 1 p0) r 0 := by
      rw [get_matrix_element_eq, get_matrix_element_eq, cell_attach]
      exact f2 _ (by omega)
    have e3 : get_matrix_element k2 (attach_matrix (5 * N + 1) 1 p0) r 0
        = get_matrix_element k1 (attach_matrix (5 * N + 1) 1 p0) r 0 := by
      rw [get_matrix_element_eq, get_matrix_element_eq, cell_attach]
      exact f3 _ (by omega)
    rw [e2, e3, c1 r hr, c2 r hr, Finset.mul_sum]
    apply Finset.sum_congr rfl
    intro c hc
    have hc' := Finset.mem_range.mp hc
    rw [hVd c hc', hDe r c hr hc', hAe r c hr hc']
    ring
  -- PHASES 3 to 5
  obtain ⟨h', k', he3, ke3, hJ, f4, f5⟩ := KCL_solve_twice cfg hcfg hloc (5 * N + 1) (4 * N) v
    p0 p1 p2 { J with value := brk } h2 k2 hbrk
    (by
      show 4 * N * 1 = get_num_rows J * get_num_columns J
      rw [hJr, hJc])
    (by show brk + 4 * N ≤ v; omega) (by omega) (by omega) (by omega) hB2 hD2
  have hN' : num_boundary_points paths { b with bcv := brk } = N := hN.symm
  have hvJ : brk + get_num_rows J = v := by rw [hJr, hv]
  have e4 : ({ J with value := brk } : matrix).value = brk := rfl
  refine ⟨h', k', ?_, ?_, ?_, ?_, ?_⟩
  · unfold make_bcv_use_KCL malloc
    simp only [if_pos hbcv, Option.bind_eq_bind, Option.pure_def]
    simp only [hN', hvJ, he1, he2, he3, Option.some_bind]
  · unfold make_bcv_use_KCL malloc
    simp only [if_pos hbcv, Option.bind_eq_bind, Option.pure_def]
    simp only [hN', hvJ, ke1, ke2, ke3, Option.some_bind]
  · intro i hi
    have := hJ i hi
    rw [get_matrix_element_eq, get_matrix_element_eq] at this
    have ec : cell (product_header { J with value := brk } (4 * N) 1) i 0 = brk + i := by
      unfold cell product_header
      simp
    rw [ec] at this
    exact this
  · intro a ha
    rw [f4 a (by rw [e4]; omega), f2 a (by omega), W1 a (by omega)]
  · intro a ha
    rw [f5 a (by rw [e4]; omega), f3 a (by omega), W2 a (by omega)]

end TwoRunKCL

section TwoRunNoKCL
variable {α : Type} [LinearOrderedField α]

/-- `make_bcv_no_KCL` on a zone whose `bcv` is not cached, run on two memories
with the same allocator that agree from it on and where the voltage vector `V`
in the second is twice that in the first: both calls return with the same
blocks, the second `J` is twice the first, and the cells below the allocator
are left as they were. -/
theorem make_bcv_no_KCL_twice (cfg : Config α) (m : LibM α) (t : Terms α)
    (paths : Nat → path α) (cells cells2 : Nat → α) (brk : Nat) (b : boundary) (V J : matrix)
    (N v p0 p1 : Nat)
    (hcfg : cfg.valid) (hloc : cfg.inverse_local) (hz : ZonePaths paths b)
    (hN : N = num_boundary_points paths b)
    (hbcv : b.bcv = 0) (hbrk : brk ≠ 0)
    (hVt : V.transpose = 0) (hVi : V.invert ≠ 1) (hVr : V.rows = 2 * N) (hVc : V.columns = 1)
    (hVv : V.value + 2 * N ≤ brk)
    (hJr : get_num_rows J = 4 * N) (hJc : get_num_columns J = 1)
    (hv : v = brk + 4 * N)
    (hp0 : p0 = v + 5 * N * (2 * N) + 5 * N * (2 * N))
    (hp1 : p1 = p0 + 5 * N * 1)
    (hVd : ∀ c, c < 2 * N → get_matrix_element cells2 V c 0
      = 2 * get_matrix_element cells V c 0)
    (hag : ∀ a, brk ≤ a → cells2 a = cells a) :
    ∃ h' k',
      make_bcv_no_KCL cfg m t paths { cells := cells, brk := brk } b V J
        = some ({ cells := h', brk := brk + get_num_rows J + no_KCL_arena_cells N },
            { b with bcv := brk }, V, product_header { J with value := brk } (4 * N) 1)
      ∧ make_bcv_no_KCL cfg m t paths { cells := cells2, brk := brk } b V J
        = some ({ cells := k', brk := brk + get_num_rows J + no_KCL_arena_cells N },
            { b with bcv := brk }, V, product_header { J with value := brk } (4 * N) 1)
      ∧ (∀ i, i < 4 * N → k' (brk + i) = 2 * h' (brk + i))
      ∧ (∀ a, a < brk → h' a = cells a)
      ∧ (∀ a, a < brk → k' a = cells2 a) := by
  have hvne : v ≠ 0 := by omega
  have hsplit := arena_split_noKCL N
  obtain ⟨hA, hD, h1, heA, heD, he1, c1, W1, a1, d1⟩ := noKCL_phase1_spec cfg m t paths
    { b with bcv := brk } N v V cells hcfg hz hN hvne hVt hVi hVr hVc (by omega)
  obtain ⟨kA, kD, k1, keA, keD, ke1, c2, W2, a2, d2⟩ := noKCL_phase1_spec cfg m t paths
    { b with bcv := brk } N v V cells2 hcfg hz hN hvne hVt hVi hVr hVc (by omega)
  rw [← hp0] at he1 c1 W1 ke1 c2 W2
  -- the assembled A and D are the same
  have hAD : ∀ a, brk ≤ a → kD a = hD a := fun a ha =>
    make_diagonal_matrix_agree m paths _ _ kA hA kD hD a keD heD
      (make_voltage_geometry_matrix_agree m t paths _ _ cells2 cells kA hA a keA heA (hag a ha))
  have hAe : ∀ r c, r < 5 * N → c < 2 * N →
      get_matrix_element kD (attach_matrix (5 * N) (2 * N) v) r c
        = get_matrix_element hD (attach_matrix (5 * N) (2 * N) v) r c := by
    intro r c hr hc
    rw [get_matrix_element_eq, get_matrix_element_eq]
    apply hAD
    rw [cell_attach]
    omega
  have hDe : ∀ r c, r < 5 * N → c < 2 * N →
      get_matrix_element kD (attach_matrix (5 * N) (2 * N) (v + 5 * N * (2 * N))) r c
        = get_matrix_element hD (attach_matrix (5 * N) (2 * N) (v + 5 * N * (2 * N))) r c := by
    intro r c hr hc
    rw [get_matrix_element_eq, get_matrix_element_eq]
    apply hAD
    rw [cell_attach]
    omega
  -- the cells of B agree before the second block
  have hB1 : ∀ r c, r < 5 * N → c < 4 * N →
      k1 (cell (attach_matrix (5 * N) (4 * N) v) r c)
        = h1 (cell (attach_matrix (5 * N) (4 * N) v) r c) := by
    intro r c hr hc
    by_cases hc2 : c < 2 * N
    · have e : cell (attach_matrix (5 * N) (4 * N) v) r c
          = cell (attach_matrix (5 * N) (2 * N) v) r c := rfl
      rw [e, ← get_matrix_element_eq k1 (attach_matrix (5 * N) (2 * N) v) r c,
        ← get_matrix_element_eq h1 (attach_matrix (5 * N) (2 * N) v) r c,
        a1 r c hr hc2, a2 r c hr hc2, hDe r c hr hc2, hAe r c hr hc2]
    · have e : cell (attach_matrix (5 * N) (4 * N) v) r c
          = cell (attach_matrix (5 * N) (2 * N) (v + 5 * N * (2 * N))) r (c - 2 * N) := by
        rw [cell_attach, cell_attach]
        have : c * (5 * N) = 5 * N * (2 * N) + (c - 2 * N) * (5 * N) := by
          have hc3 : c = 2 * N + (c - 2 * N) := by omega
          conv_lhs => rw [hc3]
          ring
        omega
      rw [e, ← get_matrix_element_eq k1
          (attach_matrix (5 * N) (2 * N) (v + 5 * N * (2 * N))) r (c - 2 * N),
        ← get_matrix_element_eq h1
          (attach_matrix (5 * N) (2 * N) (v + 5 * N * (2 * N))) r (c - 2 * N),
        d1 r (c - 2 * N) hr (by omega), d2 r (c - 2 * N) hr (by omega),
        hDe r (c - 2 * N) hr (by omega)]
  -- the second block
  obtain ⟨h2, he2, f2, heB⟩ := noKCL_phase2_spec cfg m t paths { b with bcv := brk } N v p0 h1
    hz hN hvne
  obtain ⟨k2, ke2, f3, keB⟩ := noKCL_phase2_spec cfg m t paths { b with bcv := brk } N v p0 k1
    hz hN hvne
  rw [← hp1] at he2 ke2
  have hB2 : ∀ r c, r < 5 * N → c < 4 * N →
      get_matrix_element k2 (attach_matrix (5 * N) (4 * N) v) r c
        = get_matrix_element h2 (attach_matrix (5 * N) (4 * N) v) r c := by
    intro r c hr hc
    rw [get_matrix_element_eq, get_matrix_element_eq]
    exact make_current_geometry_matrix_agree m t paths _ _ k1 h1 k2 h2 _ keB heB
      (hB1 r c hr hc)
  have hD2 : ∀ r, r < 5 * N →
      get_matrix_element k2 (attach_matrix (5 * N) 1 p0) r 0
        = 2 * get_matrix_element h2 (attach_matrix (5 * N) 1 p0) r 0 := by
    intro r hr
    have e2 : get_matrix_element h2 (attach_matrix (5 * N) 1 p0) r 0
        = get_matrix_element h1 (attach_matrix (5 * N) 1 p0) r 0 := by
      rw [get_matrix_element_eq, get_matrix_element_eq, cell_attach]
      exact f2 _ (by omega)
    have e3 : get_matrix_element k2 (attach_matrix (5 * N) 1 p0) r 0
        = get_matrix_element k1 (attach_matrix (5 * N) 1 p0) r 0 := by
      rw [get_matrix_element_eq, get_matrix_element_eq, cell_attach]
      exact f3 _ (by omega)
    rw [e2, e3, c1 r hr, c2 r hr, Finset.mul_sum]
    apply Finset.sum_congr rfl
    intro c hc
    have hc' := Finset.mem_range.mp hc
    rw [hVd c hc', hDe r c hr hc', hAe r c hr hc']
    ring
  -- the products and the inversion
  obtain ⟨h', k', he3, ke3, hJ, f4, f5⟩ := KCL_solve_twice cfg hcfg hloc (5 * N) (4 * N) v
    p0 p1 (p1 + 4 * N * (4 * N)) { J with value := brk } h2 k2 hbrk
    (by
      show 4 * N * 1 = get_num_rows J * get_num_columns J
      rw [hJr, hJc])
    (by show brk + 4 * N ≤ v; omega) (by omega) (by omega) (by omega) hB2 hD2
  have hN' : num_boundary_points paths { b with bcv := brk } = N := hN.symm
  have hvJ : brk + get_num_rows J = v := by rw [hJr, hv]
  have e4 : ({ J with value := brk } : matrix).value = brk := rfl
  refine ⟨h', k', ?_, ?_, ?_, ?_, ?_⟩
  · unfold make_bcv_no_KCL malloc
    simp only [if_pos hbcv, Option.bind_eq_bind, Option.pure_def]
    simp only [hN', hvJ, he1, he2, he3, Option.some_bind]
  · unfold make_bcv_no_KCL malloc
    simp only [if_pos hbcv, Option.bind_eq_bind, Option.pure_def]
    simp only [hN', hvJ, ke1, ke2, ke3, Option.some_bind]
  · intro i hi
    have := hJ i hi
    rw [get_matrix_element_eq, get_matrix_element_eq] at this
    have ec : cell (product_header { J with value := brk } (4 * N) 1) i 0 = brk + i := by
      unfold cell product_header
      simp
    rw [ec] at this
    exact this
  · intro a ha
    rw [f4 a (by rw [e4]; omega), f2 a (by omega), W1 a (by omega)]
  · intro a ha
    rw [f5 a (by rw [e4]; omega), f3 a (by omega), W2 a (by omega)]

end TwoRunNoKCL

section TwoRunBoundary
variable {α : Type} [LinearOrderedField α]

/-- The boundary current vector is assembled from the geometry of the paths
alone. -/
theorem make_boundary_current_vector_geometry (cfg : Config α) (m : LibM α) (t : Terms α)
    (paths : Nat → path α) (mem : memory α) (b : boundary) (V J : matrix) :
    make_boundary_current_vector cfg m t (twice_values paths) mem b V J
      = make_boundary_current_vector cfg m t paths mem b V J := rfl

/-- `make_boundary_vector` on a zone without cached vectors, run on the path
structs and on those with doubled values: both calls return with the same
blocks, `bvv` at the old allocator and `bcv` behind it; the two vectors of the
second run are twice those of the first, and the cells below the old allocator
are left as they were. -/
theorem make_boundary_vector_twice (cfg : Config α) (m : LibM α) (t : Terms α)
    (paths : Nat → path α) (mem : memory α) (b : boundary) (N : Nat)
    (hcfg : cfg.valid) (hloc : cfg.inverse_local) (hz : ZonePaths paths b)
    (hval : ∀ j, j < b.components → (paths (b.loop j)).value.isSome = true)
    (hN : N = num_boundary_points paths b)
    (hbvv : b.bvv = 0) (hbcv : b.bcv = 0) (hbrk : mem.brk ≠ 0) :
    ∃ h k B,
      make_boundary_vector cfg m t paths mem b (attach_matrix (2 * N) 1 0)
          (attach_matrix (4 * N) 1 0)
        = some ({ cells := h, brk := B }, { b with bvv := mem.brk, bcv := mem.brk + 2 * N },
            attach_matrix (2 * N) 1 mem.brk, attach_matrix (4 * N) 1 (mem.brk + 2 * N))
      ∧ make_boundary_vector cfg m t (twice_values paths) mem b (attach_matrix (2 * N) 1 0)
          (attach_matrix (4 * N) 1 0)
        = some ({ cells := k, brk := B }, { b with bvv := mem.brk, bcv := mem.brk + 2 * N },
            attach_matrix (2 * N) 1 mem.brk, attach_matrix (4 * N) 1 (mem.brk + 2 * N))
      ∧ mem.brk + 6 * N ≤ B
      ∧ (∀ i, i < 2 * N → k (mem.brk + i) = 2 * h (mem.brk + i))
      ∧ (∀ i, i < 4 * N → k (mem.brk + 2 * N + i) = 2 * h (mem.brk + 2 * N + i))
      ∧ (∀ a, a < mem.brk → h a = mem.cells a ∧ k a = mem.cells a) := by
  obtain ⟨h1, k1, e1, e2, d1, f1⟩ := make_boundary_voltage_vector_twice paths mem b N hbvv hz
    hval hN
  have hVd : ∀ c, c < 2 * N → get_matrix_element k1 (attach_matrix (2 * N) 1 mem.brk) c 0
      = 2 * get_matrix_element h1 (attach_matrix (2 * N) 1 mem.brk) c 0 := by
    intro c hc
    rw [get_matrix_element_eq, get_matrix_element_eq, cell_attach]
    exact d1 _ (by omega) (by omega)
  have hag : ∀ a, mem.brk + 2 * N ≤ a → k1 a = h1 a := by
    intro a ha
    rw [(f1 a (Or.inr ha)).1, (f1 a (Or.inr ha)).2]
  have hz1 : ZonePaths paths { b with bvv := mem.brk } := hz
  have hN1 : N = num_boundary_points paths { b with bvv := mem.brk } := hN
  by_cases hfin : forN (fun j (finite : Int) => if b.level j = 0 then 1 else finite)
      0 b.components 0 = 1
  · obtain ⟨h', k', e3, e4, hJ, f3, f4⟩ := make_bcv_use_KCL_twice cfg m t paths h1 k1
      (mem.brk + 2 * N) { b with bvv := mem.brk } (attach_matrix (2 * N) 1 mem.brk)
      (attach_matrix (4 * N) 1 0) N _ _ _ _ hcfg hloc hz1 hN1 hbcv (by omega) rfl
      (by show (0 : Int) ≠ 1; decide) rfl rfl (by show mem.brk + 2 * N ≤ _; omega) rfl rfl
      rfl rfl rfl rfl hVd hag
    refine ⟨h', k',
      mem.brk + 2 * N + get_num_rows (attach_matrix (4 * N) 1 0) + (9 * N + 1) * (4 * N + 1),
      ?_, ?_, ?_, ?_, hJ, ?_⟩
    · unfold make_boundary_vector
      simp only [e1, Option.bind_eq_bind, Option.some_bind]
      unfold make_boundary_current_vector
      simp only [if_pos hfin]
      rw [e3]
      rfl
    · unfold make_boundary_vector
      simp only [e2, Option.bind_eq_bind, Option.some_bind]
      rw [make_boundary_current_vector_geometry]
      unfold make_boundary_current_vector
      simp only [if_pos hfin]
      rw [e4]
      rfl
    · show mem.brk + 6 * N
        ≤ mem.brk + 2 * N + get_num_rows (attach_matrix (4 * N) 1 0) + (9 * N + 1) * (4 * N + 1)
      have : get_num_rows (attach_matrix (4 * N) 1 0) = 4 * N := rfl
      rw [this]
      omega
    · intro i hi
      rw [f3 _ (by omega), f4 _ (by omega)]
      exact d1 _ (by omega) (by omega)
    · intro a ha
      rw [f3 a (by omega), f4 a (by omega)]
      exact f1 a (Or.inl ha)
  · obtain ⟨h', k', e3, e4, hJ, f3, f4⟩ := make_bcv_no_KCL_twice cfg m t paths h1 k1
      (mem.brk + 2 * N) { b with bvv := mem.brk } (attach_matrix (2 * N) 1 mem.brk)
      (attach_matrix (4 * N) 1 0) N _ _ _ hcfg hloc hz1 hN1 hbcv (by omega) rfl
      (by show (0 : Int) ≠ 1; decide) rfl rfl (by show mem.brk + 2 * N ≤ _; omega) rfl rfl
      rfl rfl rfl hVd hag
    refine ⟨h', k',
      mem.brk + 2 * N + get_num_rows (attach_matrix (4 * N) 1 0) + no_KCL_arena_cells N,
      ?_, ?_, ?_, ?_, hJ, ?_⟩
    · unfold make_boundary_vector
      simp only [e1, Option.bind_eq_bind, Option.some_bind]
      unfold make_boundary_current_vector
      simp only [if_neg hfin]
      rw [e3]
      rfl
    · unfold make_boundary_vector
      simp only [e2, Option.bind_eq_bind, Option.some_bind]
      rw [make_boundary_current_vector_geometry]
      unfold make_boundary_current_vector
      simp only [if_neg hfin]
      rw [e4]
      rfl
    · show mem.brk + 6 * N
        ≤ mem.brk + 2 * N + get_num_rows (attach_matrix (4 * N) 1 0) + no_KCL_arena_cells N
      have : get_num_rows (attach_matrix (4 * N) 1 0) = 4 * N := rfl
      rw [this]
      omega
    · intro i hi
      rw [f3 _ (by omega), f4 _ (by omega)]
      exact d1 _ (by omega) (by omega)
    · intro a ha
      rw [f3 a (by omega), f4 a (by omega)]
      exact f1 a (Or.inl ha)

end TwoRunBoundary


section TensorVectors
variable {α : Type}

theorem put_block_ten_eq (c : Nat → tensor α) (x : ten_matrix) (oi oj i j : Nat) (v : tensor α)
    (hinv : x.invert = 0) (ht : x.transpose = 0) (hi : oi + i < x.rows)
    (hj : oj + j < x.columns) :
    put_block_ten_matrix_element c x oi oj i j v
      = some (Function.update c (x.value + ((oj + j) * x.rows + (oi + i))) v) := by
  unfold put_block_ten_matrix_element check_ten_invert check_ten_matrix_index
    get_ten_num_rows get_ten_num_columns
  simp only [hinv, ht, ne_eq, not_true_eq_false, if_false, if_true, ge_iff_le,
    if_neg (not_le.mpr hi), if_neg (not_le.mpr hj), Option.bind_eq_bind, Option.some_bind,
    Option.pure_def]

theorem forNM_returns {σ : Type} (body : Nat → σ → Option σ) (lo n : Nat) (s : σ)
    (hstep : ∀ i s, lo ≤ i → i < lo + n → ∃ s', body i s = some s') :
    ∃ s', forNM body lo n s = some s' := by
  obtain ⟨s', h, _⟩ := forNM_total (fun _ _ => True) body lo n s trivial
    (fun i s h1 h2 _ => by
      obtain ⟨s', hs⟩ := hstep i s h1 h2
      exact ⟨s', hs, trivial⟩)
  exact ⟨s', h⟩

variable [Field α]

theorem fill_ten_voltage_geometry_vector_total (m : LibM α) (t : Terms α)
    (paths : Nat → path α) (P : coordinates α) (offset_j path_j : Nat)
    (ten_vgv : ten_matrix) (c : Nat → tensor α)
    (hcj : (paths path_j).close ≠ 0) (hxj : (paths path_j).xy.isSome = true)
    (hinv : ten_vgv.invert = 0) (ht : ten_vgv.transpose = 0) (hrow : 0 < ten_vgv.rows)
    (hcol : (offset_j + (paths path_j).points) * 2 ≤ ten_vgv.columns) :
    ∃ c', fill_ten_voltage_geometry_vector m t paths P offset_j path_j ten_vgv c = some c' := by
  unfold fill_ten_voltage_geometry_vector
  simp only []
  refine forNM_returns _ 0 (paths path_j).points c
    (by
      intro segment_j g _ hsj
      obtain ⟨Qa, hQa⟩ := get_path_xy_closed (paths path_j) (segment_j : Int) hcj hxj (by omega)
      obtain ⟨Qb, hQb⟩ := get_path_xy_closed (paths path_j) ((segment_j : Int) + 1) hcj hxj
        (by omega)
      simp only [hQa, hQb, Option.bind_eq_bind, Option.some_bind,
        put_block_ten_eq _ ten_vgv 0 (offset_j * 2) 0 (segment_j * 2) _ hinv ht (by omega)
          (by omega),
        put_block_ten_eq _ ten_vgv 0 (offset_j * 2) 0 (segment_j * 2 + 1) _ hinv ht (by omega)
          (by omega)]
      exact ⟨_, rfl⟩)

theorem fill_ten_current_geometry_vector_total (m : LibM α) (t : Terms α)
    (paths : Nat → path α) (P : coordinates α) (offset_j path_j : Nat)
    (ten_cgv : ten_matrix) (c : Nat → tensor α)
    (hcj : (paths path_j).close ≠ 0) (hxj : (paths path_j).xy.isSome = true)
    (hinv : ten_cgv.invert = 0) (ht : ten_cgv.transpose = 0) (hrow : 0 < ten_cgv.rows)
    (hcol : (offset_j + (paths path_j).points) * 4 ≤ ten_cgv.columns) :
    ∃ c', fill_ten_current_geometry_vector m t paths P offset_j path_j ten_cgv c = some c' := by
  unfold fill_ten_current_geometry_vector
  simp only []
  refine forNM_returns _ 0 (paths path_j).points c
    (by
      intro segment_j g _ hsj
      obtain ⟨Qa, hQa⟩ := get_path_xy_closed (paths path_j) (segment_j : Int) hcj hxj (by omega)
      obtain ⟨Qb, hQb⟩ := get_path_xy_closed (paths path_j) ((segment_j : Int) + 1) hcj hxj
        (by omega)
      simp only [hQa, hQb, Option.bind_eq_bind, Option.some_bind,
        put_block_ten_eq _ ten_cgv 0 (offset_j * 4) 0 (segment_j * 4) _ hinv ht (by omega)
          (by omega),
        put_block_ten_eq _ ten_cgv 0 (offset_j * 4) 0 (segment_j * 4 + 1) _ hinv ht (by omega)
          (by omega),
        put_block_ten_eq _ ten_cgv 0 (offset_j * 4) 0 (segment_j * 4 + 2) _ hinv ht (by omega)
          (by omega),
        put_block_ten_eq _ ten_cgv 0 (offset_j * 4) 0 (segment_j * 4 + 3) _ hinv ht (by omega)
          (by omega)]
      exact ⟨_, rfl⟩)

theorem make_ten_voltage_geometry_vector_total (m : LibM α) (t : Terms α)
    (paths : Nat → path α) (P : coordinates α) (b : boundary)
    (ten_vgv : ten_matrix) (c : Nat → tensor α) (hz : ZonePaths paths b)
    (hinv : ten_vgv.invert = 0) (ht : ten_vgv.transpose = 0) (hrow : 0 < ten_vgv.rows)
    (hcols : num_boundary_points paths b * 2 ≤ ten_vgv.columns) :
    ∃ c', make_ten_voltage_geometry_vector m t paths P b ten_vgv c = some c' := by
  unfold make_ten_voltage_geometry_vector
  have outer := forNM_total
    (fun j (st : (Nat → tensor α) × Nat) => st.2 = points_before paths b j)
    (fun j (st : (Nat → tensor α) × Nat) => do
      let path_j := b.loop j
      let c ← fill_ten_voltage_geometry_vector m t paths P st.2 path_j ten_vgv st.1
      pure (c, st.2 + (paths (b.loop j)).points))
    0 b.components (c, 0) rfl
    (by
      intro j st _ hj ho
      have hbj := points_before_le paths b (j := j) (by omega)
      obtain ⟨g, hg⟩ := fill_ten_voltage_geometry_vector_total m t paths P st.2 (b.loop j)
        ten_vgv st.1 (hz j (by omega)).1 (hz j (by omega)).2 hinv ht hrow (by rw [ho]; omega)
      refine ⟨(g, st.2 + (paths (b.loop j)).points), ?_, ?_⟩
      · simp only [hg, Option.bind_eq_bind, Option.some_bind]
        rfl
      · show st.2 + (paths (b.loop j)).points = _
        rw [points_before_succ, ho])
  obtain ⟨st, he, _⟩ := outer
  refine ⟨st.1, ?_⟩
  simp only [Option.bind_eq_bind] at he ⊢
  rw [he]
  rfl

theorem make_ten_current_geometry_vector_total (m : LibM α) (t : Terms α)
    (paths : Nat → path α) (P : coordinates α) (b : boundary)
    (ten_cgv : ten_matrix) (c : Nat → tensor α) (hz : ZonePaths paths b)
    (hinv : ten_cgv.invert = 0) (ht : ten_cgv.transpose = 0) (hrow : 0 < ten_cgv.rows)
    (hcols : num_boundary_points paths b * 4 ≤ ten_cgv.columns) :
    ∃ c', make_ten_current_geometry_vector m t paths P b ten_cgv c = some c' := by
  unfold make_ten_current_geometry_vector
  have outer := forNM_total
    (fun j (st : (Nat → tensor α) × Nat) => st.2 = points_before paths b j)
    (fun j (st : (Nat → tensor α) × Nat) => do
      let path_j := b.loop j
      let c ← fill_ten_current_geometry_vector m t paths P st.2 path_j ten_cgv st.1
      pure (c, st.2 + (paths (b.loop j)).points))
    0 b.components (c, 0) rfl
    (by
      intro j st _ hj ho
      have hbj := points_before_le paths b (j := j) (by omega)
      obtain ⟨g, hg⟩ := fill_ten_current_geometry_vector_total m t paths P st.2 (b.loop j)
        ten_cgv st.1 (hz j (by omega)).1 (hz j (by omega)).2 hinv ht hrow (by rw [ho]; omega)
      refine ⟨(g, st.2 + (paths (b.loop j)).points), ?_, ?_⟩
      · simp only [hg, Option.bind_eq_bind, Option.some_bind]
        rfl
      · show st.2 + (paths (b.loop j)).points = _
        rw [points_before_succ, ho])
  obtain ⟨st, he, _⟩ := outer
  refine ⟨st.1, ?_⟩
  simp only [Option.bind_eq_bind] at he ⊢
  rw [he]
  rfl

/-- The componentwise product of a row of tensors with a column of numbers. -/
theorem ten_dot_loop (h : Nat → α) (t : Nat → tensor α) (a : ten_matrix) (b : matrix) (n : Nat)
    (hat : a.transpose = 0) (hai : a.invert = 0) (har : a.rows = 1) (hac : a.columns = n)
    (hbt : b.transpose = 0) :
    forNM (fun i (value_new : tensor α) => do
        let xy ← get_ten_matrix_element t a 0 i
        let scalar := get_matrix_element h b i 0
        pure ((value_new.1.1 + xy.1.1 * scalar, value_new.1.2 + xy.1.2 * scalar),
          (value_new.2.1 + xy.2.1 * scalar, value_new.2.2 + xy.2.2 * scalar)))
      0 n ((0, 0), (0, 0))
    = some ((∑ i in Finset.range n, (t (a.value + i)).1.1 * h (b.value + i),
          ∑ i in Finset.range n, (t (a.value + i)).1.2 * h (b.value + i)),
        (∑ i in Finset.range n, (t (a.value + i)).2.1 * h (b.value + i),
          ∑ i in Finset.range n, (t (a.value + i)).2.2 * h (b.value + i))) := by
  have key := forNM_total
    (fun k (v : tensor α) =>
      v = ((∑ i in Finset.range k, (t (a.value + i)).1.1 * h (b.value + i),
          ∑ i in Finset.range k, (t (a.value + i)).1.2 * h (b.value + i)),
        (∑ i in Finset.range k, (t (a.value + i)).2.1 * h (b.value + i),
          ∑ i in Finset.range k, (t (a.value + i)).2.2 * h (b.value + i))))
    (fun i (value_new : tensor α) => do
        let xy ← get_ten_matrix_element t a 0 i
        let scalar := get_matrix_element h b i 0
        pure ((value_new.1.1 + xy.1.1 * scalar, value_new.1.2 + xy.1.2 * scalar),
          (value_new.2.1 + xy.2.1 * scalar, value_new.2.2 + xy.2.2 * scalar)))
    0 n ((0, 0), (0, 0)) (by simp)
    (by
      intro i v _ hi hv
      have hg : get_ten_matrix_element t a 0 i = some (t (a.value + i)) := by
        unfold get_ten_matrix_element check_ten_invert check_ten_matrix_index
          get_ten_num_rows get_ten_num_columns
        have h1 : ¬ (0 ≥ a.rows) := by omega
        have h2 : ¬ (i ≥ a.columns) := by omega
        simp only [hai, hat, ne_eq, not_true_eq_false, if_false, if_true, if_neg h1, if_neg h2,
          Option.bind_eq_bind, Option.some_bind, Option.pure_def]
        rw [har, Nat.mul_one, Nat.add_zero]
      have hs : get_matrix_element h b i 0 = h (b.value + i) := by
        unfold get_matrix_element
        simp [hbt]
      simp only [hg, hs, Option.bind_eq_bind, Option.some_bind, Option.pure_def]
      refine ⟨_, rfl, ?_⟩
      rw [hv]
      simp only [Finset.sum_range_succ])
  obtain ⟨v, e, hv⟩ := key
  rw [Nat.zero_add] at hv
  rw [e, hv]

/-- `multiply_ten_matrix` on a row vector of tensors and a column vector of
numbers with a result of one cell: the cell receives the componentwise product,
nothing else changes. -/
theorem multiply_ten_row_column (cfg : Config α) (h : Nat → α) (t : Nat → tensor α)
    (a : ten_matrix) (b : matrix) (x : ten_matrix) (n : Nat)
    (hat : a.transpose = 0) (hai : a.invert = 0) (har : a.rows = 1) (hac : a.columns = n)
    (hbt : b.transpose = 0) (hbi : b.invert ≠ 1) (hbr : b.rows = n) (hbc : b.columns = 1)
    (hx : get_ten_num_rows x * get_ten_num_columns x = 1) (hxv : x.value ≠ 0) :
    multiply_ten_matrix cfg h t a b x
      = some (h, Function.update t x.value
          ((∑ i in Finset.range n, (t (a.value + i)).1.1 * h (b.value + i),
              ∑ i in Finset.range n, (t (a.value + i)).1.2 * h (b.value + i)),
            (∑ i in Finset.range n, (t (a.value + i)).2.1 * h (b.value + i),
              ∑ i in Finset.range n, (t (a.value + i)).2.2 * h (b.value + i))),
          b, product_header x 1 1) := by
  have hcol : get_ten_num_columns a = n := by
    unfold get_ten_num_columns
    rw [if_pos hat, hac]
  have hrow : get_ten_num_rows a = 1 := by
    unfold get_ten_num_rows
    rw [if_pos hat, har]
  have hbrow : get_num_rows b = n := by
    unfold get_num_rows
    rw [if_pos hbt, hbr]
  have hbcol : get_num_columns b = 1 := by
    unfold get_num_columns
    rw [if_pos hbt, hbc]
  have hai1 : ¬ a.invert = 1 := by rw [hai]; decide
  unfold multiply_ten_matrix
  simp only [hcol, hrow, hbrow, hbcol, hx, ne_eq, not_true_eq_false, if_false, if_neg hxv,
    if_neg hai1, if_neg hbi, Option.some_bind, Nat.mul_one]
  have hput : ∀ v : tensor α, put_ten_matrix_element t (product_header x 1 1) 0 0 v
      = some (Function.update t x.value v) := by
    intro v
    unfold put_ten_matrix_element check_ten_invert check_ten_matrix_index
      get_ten_num_rows get_ten_num_columns product_header
    simp
  have hel : multiply_ten_element_column h t a b 0 0 (product_header x 1 1)
      = some (Function.update t x.value
          ((∑ i in Finset.range n, (t (a.value + i)).1.1 * h (b.value + i),
              ∑ i in Finset.range n, (t (a.value + i)).1.2 * h (b.value + i)),
            (∑ i in Finset.range n, (t (a.value + i)).2.1 * h (b.value + i),
              ∑ i in Finset.range n, (t (a.value + i)).2.2 * h (b.value + i)))) := by
    unfold multiply_ten_element_column
    simp only []
    rw [hcol, ten_dot_loop h t a b n hat hai har hac hbt]
    simp only [Option.bind_eq_bind, Option.some_bind]
    exact hput _
  have hrw : multiply_ten_element_row h t a b 0 (product_header x 1 1)
      = some (Function.update t x.value
          ((∑ i in Finset.range n, (t (a.value + i)).1.1 * h (b.value + i),
              ∑ i in Finset.range n, (t (a.value + i)).1.2 * h (b.value + i)),
            (∑ i in Finset.range n, (t (a.value + i)).2.1 * h (b.value + i),
              ∑ i in Finset.range n, (t (a.value + i)).2.2 * h (b.value + i)))) := by
    unfold multiply_ten_element_row
    rw [hbcol]
    simp only [forNM, hel, Option.some_bind]
  simp only [forNM, hrw, Option.some_bind, Option.map_some']

end TensorVectors

section InternalSecondGradient
variable {α : Type} [Field α]

theorem make_internal_sec_grad_voltage_spec (cfg : Config α) (m : LibM α) (t : Terms α)
    (paths : Nat → path α) (mem : memory α) (ten : memory (tensor α))
    (b : boundary) (bvv bcv : matrix) (P : coordinates α) (ten_vgv ten_cgv : ten_matrix)
    (hz : ZonePaths paths b)
    (hvgv : ten_vgv.transpose = 0 ∧ ten_vgv.invert = 0 ∧ ten_vgv.rows = 1
      ∧ ten_vgv.columns = 2 * num_boundary_points paths b)
    (hcgv : ten_cgv.transpose = 0 ∧ ten_cgv.invert = 0 ∧ ten_cgv.rows = 1
      ∧ ten_cgv.columns = 4 * num_boundary_points paths b)
    (hbvv : bvv.transpose = 0 ∧ bvv.invert ≠ 1 ∧ bvv.rows = 2 * num_boundary_points paths b
      ∧ bvv.columns = 1)
    (hbcv : bcv.transpose = 0 ∧ bcv.invert ≠ 1 ∧ bcv.rows = 4 * num_boundary_points paths b
      ∧ bcv.columns = 1)
    (hbrk : 0 < ten.brk)
    (hl : ten_cgv.value + 4 * num_boundary_points paths b ≤ ten.brk) :
    ∃ c1 c2 ten',
      make_ten_voltage_geometry_vector m t paths P b ten_vgv ten.cells = some c1
      ∧ make_ten_current_geometry_vector m t paths P b ten_cgv c1 = some c2
      ∧ make_internal_sec_grad_voltage cfg m t paths mem ten b bvv bcv P ten_vgv ten_cgv
        = some (((((∑ i in Finset.range (4 * num_boundary_points paths b),
                  (c2 (ten_cgv.value + i)).1.1 * mem.cells (bcv.value + i))
                - (∑ i in Finset.range (2 * num_boundary_points paths b),
                  (c2 (ten_vgv.value + i)).1.1 * mem.cells (bvv.value + i))) / (2 * m.M_PI),
              ((∑ i in Finset.range (4 * num_boundary_points paths b),
                  (c2 (ten_cgv.value + i)).1.2 * mem.cells (bcv.value + i))
                - (∑ i in Finset.range (2 * num_boundary_points paths b),
                  (c2 (ten_vgv.value + i)).1.2 * mem.cells (bvv.value + i))) / (2 * m.M_PI)),
            (((∑ i in Finset.range (4 * num_boundary_points paths b),
                  (c2 (ten_cgv.value + i)).2.1 * mem.cells (bcv.value + i))
                - (∑ i in Finset.range (2 * num_boundary_points paths b),
                  (c2 (ten_vgv.value + i)).2.1 * mem.cells (bvv.value + i))) / (2 * m.M_PI),
              ((∑ i in Finset.range (4 * num_boundary_points paths b),
                  (c2 (ten_cgv.value + i)).2.2 * mem.cells (bcv.value + i))
                - (∑ i in Finset.range (2 * num_boundary_points paths b),
                  (c2 (ten_vgv.value + i)).2.2 * mem.cells (bvv.value + i))) / (2 * m.M_PI))),
          mem, ten', bvv, bcv, ten_vgv, ten_cgv)
      ∧ ten'.brk = ten.brk := by
  generalize hN : num_boundary_points paths b = N at *
  obtain ⟨hvt, hvi, hvr, hvcol⟩ := hvgv
  obtain ⟨hct, hci, hcr, hccol⟩ := hcgv
  obtain ⟨c1, e1⟩ := make_ten_voltage_geometry_vector_total m t paths P b ten_vgv ten.cells
    hz hvi hvt (by omega) (by rw [hN, hvcol]; omega)
  obtain ⟨c2, e2⟩ := make_ten_current_geometry_vector_total m t paths P b ten_cgv c1
    hz hci hct (by omega) (by rw [hN, hccol]; omega)
  have m1 := multiply_ten_row_column cfg mem.cells c2 ten_vgv bvv
    { transpose := 0, invert := 0, rows := 1, columns := 1, value := ten.brk } (2 * N)
    hvt hvi hvr hvcol hbvv.1 hbvv.2.1 hbvv.2.2.1 hbvv.2.2.2 rfl (by show ten.brk ≠ 0; omega)
  have hv1 : ({ transpose := 0, invert := 0, rows := 1, columns := 1, value := ten.brk }
      : ten_matrix).value = ten.brk := rfl
  rw [hv1] at m1
  obtain ⟨V, hV⟩ : ∃ V : tensor α, V
      = ((∑ i in Finset.range (2 * N), (c2 (ten_vgv.value + i)).1.1 * mem.cells (bvv.value + i),
          ∑ i in Finset.range (2 * N), (c2 (ten_vgv.value + i)).1.2 * mem.cells (bvv.value + i)),
        (∑ i in Finset.range (2 * N), (c2 (ten_vgv.value + i)).2.1 * mem.cells (bvv.value + i),
          ∑ i in Finset.range (2 * N),
            (c2 (ten_vgv.value + i)).2.2 * mem.cells (bvv.value + i))) := ⟨_, rfl⟩
  rw [← hV] at m1
  have m2 := multiply_ten_row_column cfg mem.cells (Function.update c2 ten.brk V) ten_cgv bcv
    (product_header { transpose := 0, invert := 0, rows := 1, columns := 1, value := ten.brk }
      1 1)
    (4 * N) hct hci hcr hccol hbcv.1 hbcv.2.1 hbcv.2.2.1 hbcv.2.2.2 rfl
    (by show ten.brk ≠ 0; omega)
  have hv : (product_header
      { transpose := 0, invert := 0, rows := 1, columns := 1, value := ten.brk } 1 1).value
      = ten.brk := rfl
  rw [hv] at m2
  have hs : ∀ f : tensor α → α,
      (∑ i in Finset.range (4 * N),
        f (Function.update c2 ten.brk V (ten_cgv.value + i)) * mem.cells (bcv.value + i))
      = ∑ i in Finset.range (4 * N), f (c2 (ten_cgv.value + i)) * mem.cells (bcv.value + i) := by
    intro f
    apply Finset.sum_congr rfl
    intro i hi
    rw [Finset.mem_range] at hi
    rw [Function.update_noteq (by omega)]
  have s11 := hs (fun x => x.1.1)
  have s12 := hs (fun x => x.1.2)
  have s21 := hs (fun x => x.2.1)
  have s22 := hs (fun x => x.2.2)
  simp only [] at s11 s12 s21 s22
  rw [s11, s12, s21, s22] at m2
  cases hr : make_internal_sec_grad_voltage cfg m t paths mem ten b bvv bcv P ten_vgv ten_cgv with
  | none =>
    unfold make_internal_sec_grad_voltage at hr
    simp only [e1, e2, Option.bind_eq_bind, Option.some_bind, m1, m2, pure] at hr
    exact absurd hr (by simp)
  | some r =>
    unfold make_internal_sec_grad_voltage at hr
    simp only [e1, e2, Option.bind_eq_bind, Option.some_bind, m1, m2, pure,
      Function.update_same, Option.some.injEq] at hr
    subst hr
    subst hV
    exact ⟨c1, c2, _, e1, e2, rfl, rfl⟩

end InternalSecondGradient

section TwiceZones
variable {α : Type} [LinearOrderedField α]

theorem reverse_iterate_twice (p : path α) (n : Nat) :
    reverse_path^[n] { p with value := p.value.map fun f i => 2 * f i }
      = { reverse_path^[n] p with value := (reverse_path^[n] p).value.map fun f i => 2 * f i } := by
  induction n generalizing p with
  | zero => rfl
  | succ n ih =>
    rw [Function.iterate_succ_apply, Function.iterate_succ_apply]
    exact ih (reverse_path p)

/-- Reversing the paths of a zone and doubling the node values commute. -/
theorem reverse_zone_twice_values (paths : Nat → path α) (b : boundary) :
    reverse_zone (twice_values paths) b = twice_values (reverse_zone paths b) := by
  funext a
  unfold reverse_zone twice_values
  simp only []
  rw [reverse_zone_apply, reverse_zone_apply]
  exact reverse_iterate_twice (paths a) _

/-- The zone test reads the geometry of the paths alone. -/
theorem check_zone_twice_values (m : LibM α) (paths : Nat → path α) (b : boundary)
    (P : coordinates α) :
    check_zone m (twice_values paths) b P
      = (check_zone m paths b P).map fun r => (r.1, twice_values r.2) := by
  unfold check_zone
  simp only [reverse_zone_twice_values]
  have hd : ∀ (ps : Nat → path α) (a : Nat),
      distance_to_path m P (twice_values ps a) = distance_to_path m P (ps a) := fun _ _ => rfl
  simp only [hd]
  cases forNM (fun j (count : Nat) => do
      let (r, _, _, _) ← distance_to_path m P (reverse_zone paths b (b.loop j))
      if r = 1 then pure (count + 1) else pure count) 0 b.components 0 <;> rfl

theorem whileM_map {σ : Type} (f : σ → σ) (cond : σ → Bool) (body : σ → Option σ)
    (hc : ∀ s, cond (f s) = cond s) (hb : ∀ s, body (f s) = (body s).map f) :
    ∀ (fuel : Nat) (s : σ), whileM cond body fuel (f s) = (whileM cond body fuel s).map f := by
  intro fuel
  induction fuel with
  | zero =>
    intro s
    simp only [whileM, hc]
    split <;> rfl
  | succ n ih =>
    intro s
    simp only [whileM, hc]
    split
    · rw [hb]
      cases body s with
      | none => rfl
      | some s1 =>
        simp only [Option.map_some', Option.some_bind]
        exact ih s1
    · rfl

/-- The zone scan reads the geometry of the paths alone: on the path structs
with doubled values it selects the same zone. -/
theorem check_each_zone_twice_values (m : LibM α) (paths : Nat → path α) (c : catchment)
    (P : coordinates α) :
    check_each_zone m (twice_values paths) c P
      = (check_each_zone m paths c P).map fun r => (r.1, twice_values r.2) := by
  unfold check_each_zone
  have key := whileM_map
    (fun (st : Nat × Int × (Nat → path α)) => (st.1, st.2.1, twice_values st.2.2))
    (fun (st : Nat × Int × (Nat → path α)) => decide (st.1 < c.num_zones ∧ st.2.1 ≠ 0))
    (fun st => do
      let b := c.zones st.1
      let (r, paths) ← check_zone m st.2.2 b P
      let not_this_zone := if r = 1 then 0 else st.2.1
      pure (st.1 + 1, not_this_zone, paths))
    (fun _ => rfl)
    (by
      intro s
      simp only [check_zone_twice_values]
      cases check_zone m s.2.2 (c.zones s.1) P <;> rfl)
    c.num_zones (0, 1, paths)
  simp only [] at key ⊢
  rw [key]
  cases whileM
    (fun (st : Nat × Int × (Nat → path α)) => decide (st.1 < c.num_zones ∧ st.2.1 ≠ 0))
    (fun st => do
      let b := c.zones st.1
      let (r, paths) ← check_zone m st.2.2 b P
      let not_this_zone := if r = 1 then 0 else st.2.1
      pure (st.1 + 1, not_this_zone, paths)) c.num_zones (0, 1, paths) <;> rfl

end TwiceZones

section TwiceField
variable {α : Type} [Field α]

theorem make_internal_voltage_geometry (cfg : Config α) (m : LibM α) (t : Terms α)
    (paths : Nat → path α) (mem : memory α) (b : boundary) (bvv bcv : matrix)
    (P : coordinates α) (vgv cgv : matrix) :
    make_internal_voltage cfg m t (twice_values paths) mem b bvv bcv P vgv cgv
      = make_internal_voltage cfg m t paths mem b bvv bcv P vgv cgv := rfl

theorem make_internal_grad_voltage_geometry (m : LibM α) (t : Terms α) (cm : CoMatrix α)
    (paths : Nat → path α) (mem : memory α) (co : memory (coordinates α)) (b : boundary)
    (bvv bcv : matrix) (P : coordinates α) (co_vgv co_cgv : co_matrix) :
    make_internal_grad_voltage m t cm (twice_values paths) mem co b bvv bcv P co_vgv co_cgv
      = make_internal_grad_voltage m t cm paths mem co b bvv bcv P co_vgv co_cgv := rfl

theorem make_internal_sec_grad_voltage_geometry (cfg : Config α) (m : LibM α) (t : Terms α)
    (paths : Nat → path α) (mem : memory α) (ten : memory (tensor α)) (b : boundary)
    (bvv bcv : matrix) (P : coordinates α) (ten_vgv ten_cgv : ten_matrix) :
    make_internal_sec_grad_voltage cfg m t (twice_values paths) mem ten b bvv bcv P ten_vgv
        ten_cgv
      = make_internal_sec_grad_voltage cfg m t paths mem ten b bvv bcv P ten_vgv ten_cgv := rfl

/-- A sum against a column that is doubled is doubled. -/
theorem sum_mul_twice (n : Nat) (f g g2 : Nat → α) (hg : ∀ i, i < n → g2 i = 2 * g i) :
    (∑ i in Finset.range n, f i * g2 i) = 2 * ∑ i in Finset.range n, f i * g i := by
  rw [Finset.mul_sum]
  apply Finset.sum_congr rfl
  intro i hi
  rw [hg i (Finset.mem_range.mp hi)]
  ring

/-- `make_internal_voltage` on two memories that agree below `p` and hold at
`p` a `bvv` and behind it a `bcv` that are in the second twice those of the
first: both calls return, the second voltage is twice the first, and the two
vectors are left as they were. -/
theorem make_internal_voltage_twice (cfg : Config α) (m : LibM α) (t : Terms α)
    (paths : Nat → path α) (h k : Nat → α) (B : Nat) (b : boundary) (P : coordinates α)
    (N p pv pc : Nat) (hz : ZonePaths paths b) (hN : num_boundary_points paths b = N)
    (hpv : pv + 2 * N ≤ p) (hpc : pc + 4 * N ≤ p) (hB : p + 6 * N ≤ B) (hB0 : 0 < B)
    (hvc : pc + 4 * N ≤ pv ∨ pv + 2 * N ≤ pc)
    (hlow : ∀ a, a < p → k a = h a)
    (hdv : ∀ i, i < 2 * N → k (p + i) = 2 * h (p + i))
    (hdc : ∀ i, i < 4 * N → k (p + 2 * N + i) = 2 * h (p + 2 * N + i)) :
    ∃ V m3 m4,
      make_internal_voltage cfg m t paths { cells := h, brk := B } b (attach_matrix (2 * N) 1 p)
          (attach_matrix (4 * N) 1 (p + 2 * N)) P (attach_matrix 1 (2 * N) pv)
          (attach_matrix 1 (4 * N) pc)
        = some (V, m3, attach_matrix (2 * N) 1 p, attach_matrix (4 * N) 1 (p + 2 * N),
            attach_matrix 1 (2 * N) pv, attach_matrix 1 (4 * N) pc)
      ∧ make_internal_voltage cfg m t (twice_values paths) { cells := k, brk := B } b
          (attach_matrix (2 * N) 1 p) (attach_matrix (4 * N) 1 (p + 2 * N)) P
          (attach_matrix 1 (2 * N) pv) (attach_matrix 1 (4 * N) pc)
        = some (2 * V, m4, attach_matrix (2 * N) 1 p, attach_matrix (4 * N) 1 (p + 2 * N),
            attach_matrix 1 (2 * N) pv, attach_matrix 1 (4 * N) pc)
      ∧ m3.brk = B ∧ m4.brk = B
      ∧ (∀ i, i < 2 * N → m3.cells (p + i) = h (p + i) ∧ m4.cells (p + i) = k (p + i))
      ∧ (∀ i, i < 4 * N → m3.cells (p + 2 * N + i) = h (p + 2 * N + i)
          ∧ m4.cells (p + 2 * N + i) = k (p + 2 * N + i)) := by
  have key : ∀ g : Nat → α, ∃ h1 h2 mem',
      make_voltage_geometry_vector m t paths P b (attach_matrix 1 (2 * N) pv) g = some h1
      ∧ make_current_geometry_vector m t paths P b (attach_matrix 1 (4 * N) pc) h1 = some h2
      ∧ make_internal_voltage cfg m t paths { cells := g, brk := B } b
          (attach_matrix (2 * N) 1 p) (attach_matrix (4 * N) 1 (p + 2 * N)) P
          (attach_matrix 1 (2 * N) pv) (attach_matrix 1 (4 * N) pc)
        = some ((∑ i in Finset.range (4 * N), h2 (pc + i) * g (p + 2 * N + i))
            - (∑ i in Finset.range (2 * N), h1 (pv + i) * g (p + i)),
          mem', attach_matrix (2 * N) 1 p, attach_matrix (4 * N) 1 (p + 2 * N),
            attach_matrix 1 (2 * N) pv, attach_matrix 1 (4 * N) pc)
      ∧ mem'.brk = B
      ∧ (∀ a, a ≠ B → mem'.cells a = h2 a)
      ∧ Within pv (pv + 2 * N) g h1 ∧ Within pc (pc + 4 * N) h1 h2 := by
    intro g
    have h01 : (0 : Int) ≠ 1 := by decide
    obtain ⟨h1, h2, mem', e1, e2, e3, e4, e5⟩ := make_internal_voltage_spec cfg m t paths
      { cells := g, brk := B } b (attach_matrix (2 * N) 1 p)
      (attach_matrix (4 * N) 1 (p + 2 * N)) P (attach_matrix 1 (2 * N) pv)
      (attach_matrix 1 (4 * N) pc) hz
      ⟨rfl, h01, rfl, by rw [hN]; rfl⟩ ⟨rfl, h01, rfl, by rw [hN]; rfl⟩
      ⟨h01, by rw [hN]; rfl, rfl⟩ ⟨h01, by rw [hN]; rfl, rfl⟩ hB0
      (by rw [hN]; show pc + 4 * N ≤ B; omega)
      (by rw [hN]; show p + 2 * N + 4 * N ≤ B; omega)
      (by rw [hN]; exact Or.inl hpv)
      (by rw [hN]; exact Or.inl (by show pv + 2 * N ≤ p + 2 * N; omega))
      (by rw [hN]; exact hvc)
      (by rw [hN]; exact Or.inl hpc)
      (by rw [hN]; exact Or.inl (by show pc + 4 * N ≤ p + 2 * N; omega))
    rw [hN] at e3
    obtain ⟨h1', e1', w1⟩ := make_voltage_geometry_vector_total m t paths P b
      (attach_matrix 1 (2 * N) pv) g hz (by show 0 < 1; omega)
      (by rw [hN]; show N * 2 ≤ 2 * N; omega)
    obtain ⟨h2', e2', w2⟩ := make_current_geometry_vector_total m t paths P b
      (attach_matrix 1 (4 * N) pc) h1 hz (by show 0 < 1; omega)
      (by rw [hN]; show N * 4 ≤ 4 * N; omega)
    rw [e1, Option.some.injEq] at e1'
    rw [e2, Option.some.injEq] at e2'
    subst e1' e2'
    have a1 : after_matrix (attach_matrix 1 (2 * N) pv) = pv + 2 * N := by
      unfold after_matrix attach_matrix
      simp
    have a2 : after_matrix (attach_matrix 1 (4 * N) pc) = pc + 4 * N := by
      unfold after_matrix attach_matrix
      simp
    rw [a1] at w1
    rw [a2] at w2
    exact ⟨h1, h2, mem', e1, e2, e3, e4, e5, w1, w2⟩
  obtain ⟨h1, h2, m3, e1, e2, e3, e4, e5, w1, w2⟩ := key h
  obtain ⟨k1, k2, m4, f1, f2, f3, f4, f5, x1, x2⟩ := key k
  have hv : ∀ i, i < 2 * N → k1 (pv + i) = h1 (pv + i) := fun i hi =>
    make_voltage_geometry_vector_agree m t paths P b _ k h k1 h1 _ f1 e1 (hlow _ (by omega))
  have hc : ∀ i, i < 4 * N → k2 (pc + i) = h2 (pc + i) := fun i hi =>
    make_current_geometry_vector_agree m t paths P b _ k1 h1 k2 h2 _ f2 e2
      (make_voltage_geometry_vector_agree m t paths P b _ k h k1 h1 _ f1 e1 (hlow _ (by omega)))
  refine ⟨_, m3, m4, e3, ?_, e4, f4, ?_, ?_⟩
  · rw [make_internal_voltage_geometry, f3]
    have s1 : (∑ i in Finset.range (4 * N), k2 (pc + i) * k (p + 2 * N + i))
        = 2 * ∑ i in Finset.range (4 * N), h2 (pc + i) * h (p + 2 * N + i) := by
      rw [← sum_mul_twice (4 * N) (fun i => h2 (pc + i)) (fun i => h (p + 2 * N + i))
        (fun i => k (p + 2 * N + i)) hdc]
      apply Finset.sum_congr rfl
      intro i hi
      rw [hc i (Finset.mem_range.mp hi)]
    have s2 : (∑ i in Finset.range (2 * N), k1 (pv + i) * k (p + i))
        = 2 * ∑ i in Finset.range (2 * N), h1 (pv + i) * h (p + i) := by
      rw [← sum_mul_twice (2 * N) (fun i => h1 (pv + i)) (fun i => h (p + i))
        (fun i => k (p + i)) hdv]
      apply Finset.sum_congr rfl
      intro i hi
      rw [hv i (Finset.mem_range.mp hi)]
    rw [s1, s2, ← mul_sub]
  · intro i hi
    rw [e5 _ (by omega), f5 _ (by omega), w2 _ (by omega), w1 _ (by omega), x2 _ (by omega),
      x1 _ (by omega)]
    exact ⟨rfl, rfl⟩
  · intro i hi
    rw [e5 _ (by omega), f5 _ (by omega), w2 _ (by omega), w1 _ (by omega), x2 _ (by omega),
      x1 _ (by omega)]
    exact ⟨rfl, rfl⟩

end TwiceField

section TwiceGradient
variable {α : Type} [Field α]

/-- `make_internal_grad_voltage` on two memories that hold at `p` a `bvv` and
behind it a `bcv` that are in the second twice those of the first: both calls
return and the second gradient is twice the first. -/
theorem make_internal_grad_voltage_twice (m : LibM α) (t : Terms α) (cm : CoMatrix α)
    (hcm : cm.valid) (paths : Nat → path α) (m3 m4 : memory α) (co : memory (coordinates α))
    (b : boundary) (P : coordinates α) (N p qv qc : Nat) (hz : ZonePaths paths b)
    (hN : num_boundary_points paths b = N) (hco : 0 < co.brk) (hl : qc + 4 * N ≤ co.brk)
    (hdv : ∀ i, i < 2 * N → m4.cells (p + i) = 2 * m3.cells (p + i))
    (hdc : ∀ i, i < 4 * N → m4.cells (p + 2 * N + i) = 2 * m3.cells (p + 2 * N + i)) :
    ∃ G co3 co4,
      make_internal_grad_voltage m t cm paths m3 co b (attach_matrix (2 * N) 1 p)
          (attach_matrix (4 * N) 1 (p + 2 * N)) P (attach_matrix 1 (2 * N) qv)
          (attach_matrix 1 (4 * N) qc)
        = some (G, m3, co3, attach_matrix (2 * N) 1 p, attach_matrix (4 * N) 1 (p + 2 * N),
            attach_matrix 1 (2 * N) qv, attach_matrix 1 (4 * N) qc)
      ∧ make_internal_grad_voltage m t cm (twice_values paths) m4 co b
          (attach_matrix (2 * N) 1 p) (attach_matrix (4 * N) 1 (p + 2 * N)) P
          (attach_matrix 1 (2 * N) qv) (attach_matrix 1 (4 * N) qc)
        = some ((2 * G.1, 2 * G.2), m4, co4, attach_matrix (2 * N) 1 p,
            attach_matrix (4 * N) 1 (p + 2 * N), attach_matrix 1 (2 * N) qv,
            attach_matrix 1 (4 * N) qc)
      ∧ co3.brk = co.brk ∧ co4.brk = co.brk := by
  have h01 : (0 : Int) ≠ 1 := by decide
  have key : ∀ mem : memory α, ∃ c1 c2 co',
      make_co_voltage_geometry_vector m t cm paths P b (attach_matrix 1 (2 * N) qv) co.cells
        = some c1
      ∧ make_co_current_geometry_vector m t cm paths P b (attach_matrix 1 (4 * N) qc) c1
        = some c2
      ∧ make_internal_grad_voltage m t cm paths mem co b (attach_matrix (2 * N) 1 p)
          (attach_matrix (4 * N) 1 (p + 2 * N)) P (attach_matrix 1 (2 * N) qv)
          (attach_matrix 1 (4 * N) qc)
        = some ((((∑ i in Finset.range (4 * N), (c2 (qc + i)).1 * mem.cells (p + 2 * N + i))
              - (∑ i in Finset.range (2 * N), (c2 (qv + i)).1 * mem.cells (p + i)))
              / (2 * m.M_PI),
            ((∑ i in Finset.range (4 * N), (c2 (qc + i)).2 * mem.cells (p + 2 * N + i))
              - (∑ i in Finset.range (2 * N), (c2 (qv + i)).2 * mem.cells (p + i)))
              / (2 * m.M_PI)),
          mem, co', attach_matrix (2 * N) 1 p, attach_matrix (4 * N) 1 (p + 2 * N),
            attach_matrix 1 (2 * N) qv, attach_matrix 1 (4 * N) qc)
      ∧ co'.brk = co.brk := by
    intro mem
    obtain ⟨c1, c2, co', e1, e2, e3, e4⟩ := make_internal_grad_voltage_spec m t cm hcm paths
      mem co b (attach_matrix (2 * N) 1 p) (attach_matrix (4 * N) 1 (p + 2 * N)) P
      (attach_matrix 1 (2 * N) qv) (attach_matrix 1 (4 * N) qc) hz
      ⟨rfl, rfl, rfl, by rw [hN]; rfl⟩ ⟨rfl, rfl, rfl, by rw [hN]; rfl⟩
      ⟨h01, by rw [hN]; rfl, rfl⟩ ⟨h01, by rw [hN]; rfl, rfl⟩ hco
      (by rw [hN]; exact hl)
    rw [hN] at e3
    exact ⟨c1, c2, co', e1, e2, e3, e4⟩
  obtain ⟨c1, c2, co3, e1, e2, e3, e4⟩ := key m3
  obtain ⟨d1, d2, co4, f1, f2, f3, f4⟩ := key m4
  rw [e1, Option.some.injEq] at f1
  subst f1
  rw [e2, Option.some.injEq] at f2
  subst f2
  refine ⟨_, co3, co4, e3, ?_, e4, f4⟩
  rw [make_internal_grad_voltage_geometry, f3]
  simp only [sum_mul_twice (4 * N) (fun i => (c2 (qc + i)).1)
      (fun i => m3.cells (p + 2 * N + i)) (fun i => m4.cells (p + 2 * N + i)) hdc,
    sum_mul_twice (4 * N) (fun i => (c2 (qc + i)).2)
      (fun i => m3.cells (p + 2 * N + i)) (fun i => m4.cells (p + 2 * N + i)) hdc,
    sum_mul_twice (2 * N) (fun i => (c2 (qv + i)).1)
      (fun i => m3.cells (p + i)) (fun i => m4.cells (p + i)) hdv,
    sum_mul_twice (2 * N) (fun i => (c2 (qv + i)).2)
      (fun i => m3.cells (p + i)) (fun i => m4.cells (p + i)) hdv,
    ← mul_sub, mul_div_assoc]

/-- `make_internal_sec_grad_voltage` on two memories that hold at `p` a `bvv`
and behind it a `bcv` that are in the second twice those of the first: both
calls return and the second tensor is twice the first. -/
theorem make_internal_sec_grad_voltage_twice (cfg : Config α) (m : LibM α) (t : Terms α)
    (paths : Nat → path α) (m3 m4 : memory α) (ten : memory (tensor α))
    (b : boundary) (P : coordinates α) (N p qv qc : Nat) (hz : ZonePaths paths b)
    (hN : num_boundary_points paths b = N) (hten : 0 < ten.brk) (hl : qc + 4 * N ≤ ten.brk)
    (hdv : ∀ i, i < 2 * N → m4.cells (p + i) = 2 * m3.cells (p + i))
    (hdc : ∀ i, i < 4 * N → m4.cells (p + 2 * N + i) = 2 * m3.cells (p + 2 * N + i)) :
    ∃ G ten3 ten4,
      make_internal_sec_grad_voltage cfg m t paths m3 ten b (attach_matrix (2 * N) 1 p)
          (attach_matrix (4 * N) 1 (p + 2 * N)) P (attach_ten_matrix 1 (2 * N) qv)
          (attach_ten_matrix 1 (4 * N) qc)
        = some (G, m3, ten3, attach_matrix (2 * N) 1 p, attach_matrix (4 * N) 1 (p + 2 * N),
            attach_ten_matrix 1 (2 * N) qv, attach_ten_matrix 1 (4 * N) qc)
      ∧ make_internal_sec_grad_voltage cfg m t (twice_values paths) m4 ten b
          (attach_matrix (2 * N) 1 p) (attach_matrix (4 * N) 1 (p + 2 * N)) P
          (attach_ten_matrix 1 (2 * N) qv) (attach_ten_matrix 1 (4 * N) qc)
        = some (((2 * G.1.1, 2 * G.1.2), (2 * G.2.1, 2 * G.2.2)), m4, ten4,
            attach_matrix (2 * N) 1 p, attach_matrix (4 * N) 1 (p + 2 * N),
            attach_ten_matrix 1 (2 * N) qv, attach_ten_matrix 1 (4 * N) qc)
      ∧ ten3.brk = ten.brk ∧ ten4.brk = ten.brk := by
  have h01 : (0 : Int) ≠ 1 := by decide
  have key : ∀ mem : memory α, ∃ c1 c2 ten',
      make_ten_voltage_geometry_vector m t paths P b (attach_ten_matrix 1 (2 * N) qv) ten.cells
        = some c1
      ∧ make_ten_current_geometry_vector m t paths P b (attach_ten_matrix 1 (4 * N) qc) c1
        = some c2
      ∧ make_internal_sec_grad_voltage cfg m t paths mem ten b (attach_matrix (2 * N) 1 p)
          (attach_matrix (4 * N) 1 (p + 2 * N)) P (attach_ten_matrix 1 (2 * N) qv)
          (attach_ten_matrix 1 (4 * N) qc)
        = some (((((∑ i in Finset.range (4 * N), (c2 (qc + i)).1.1 * mem.cells (p + 2 * N + i))
                - (∑ i in Finset.range (2 * N), (c2 (qv + i)).1.1 * mem.cells (p + i)))
                / (2 * m.M_PI),
              ((∑ i in Finset.range (4 * N), (c2 (qc + i)).1.2 * mem.cells (p + 2 * N + i))
                - (∑ i in Finset.range (2 * N), (c2 (qv + i)).1.2 * mem.cells (p + i)))
                / (2 * m.M_PI)),
            (((∑ i in Finset.range (4 * N), (c2 (qc + i)).2.1 * mem.cells (p + 2 * N + i))
                - (∑ i in Finset.range (2 * N), (c2 (qv + i)).2.1 * mem.cells (p + i)))
                / (2 * m.M_PI),
              ((∑ i in Finset.range (4 * N), (c2 (qc + i)).2.2 * mem.cells (p + 2 * N + i))
                - (∑ i in Finset.range (2 * N), (c2 (qv + i)).2.2 * mem.cells (p + i)))
                / (2 * m.M_PI))),
          mem, ten', attach_matrix (2 * N) 1 p, attach_matrix (4 * N) 1 (p + 2 * N),
            attach_ten_matrix 1 (2 * N) qv, attach_ten_matrix 1 (4 * N) qc)
      ∧ ten'.brk = ten.brk := by
    intro mem
    obtain ⟨c1, c2, ten', e1, e2, e3, e4⟩ := make_internal_sec_grad_voltage_spec cfg m t paths
      mem ten b (attach_matrix (2 * N) 1 p) (attach_matrix (4 * N) 1 (p + 2 * N)) P
      (attach_ten_matrix 1 (2 * N) qv) (attach_ten_matrix 1 (4 * N) qc) hz
      ⟨rfl, rfl, rfl, by rw [hN]; rfl⟩ ⟨rfl, rfl, rfl, by rw [hN]; rfl⟩
      ⟨rfl, h01, by rw [hN]; rfl, rfl⟩ ⟨rfl, h01, by rw [hN]; rfl, rfl⟩ hten
      (by rw [hN]; exact hl)
    rw [hN] at e3
    exact ⟨c1, c2, ten', e1, e2, e3, e4⟩
  obtain ⟨c1, c2, ten3, e1, e2, e3, e4⟩ := key m3
  obtain ⟨d1, d2, ten4, f1, f2, f3, f4⟩ := key m4
  rw [e1, Option.some.injEq] at f1
  subst f1
  rw [e2, Option.some.injEq] at f2
  subst f2
  refine ⟨_, ten3, ten4, e3, ?_, e4, f4⟩
  rw [make_internal_sec_grad_voltage_geometry, f3]
  simp only [sum_mul_twice (4 * N) (fun i => (c2 (qc + i)).1.1)
      (fun i => m3.cells (p + 2 * N + i)) (fun i => m4.cells (p + 2 * N + i)) hdc,
    sum_mul_twice (4 * N) (fun i => (c2 (qc + i)).1.2)
      (fun i => m3.cells (p + 2 * N + i)) (fun i => m4.cells (p + 2 * N + i)) hdc,
    sum_mul_twice (4 * N) (fun i => (c2 (qc + i)).2.1)
      (fun i => m3.cells (p + 2 * N + i)) (fun i => m4.cells (p + 2 * N + i)) hdc,
    sum_mul_twice (4 * N) (fun i => (c2 (qc + i)).2.2)
      (fun i => m3.cells (p + 2 * N + i)) (fun i => m4.cells (p + 2 * N + i)) hdc,
    sum_mul_twice (2 * N) (fun i => (c2 (qv + i)).1.1)
      (fun i => m3.cells (p + i)) (fun i => m4.cells (p + i)) hdv,
    sum_mul_twice (2 * N) (fun i => (c2 (qv + i)).1.2)
      (fun i => m3.cells (p + i)) (fun i => m4.cells (p + i)) hdv,
    sum_mul_twice (2 * N) (fun i => (c2 (qv + i)).2.1)
      (fun i => m3.cells (p + i)) (fun i => m4.cells (p + i)) hdv,
    sum_mul_twice (2 * N) (fun i => (c2 (qv + i)).2.2)
      (fun i => m3.cells (p + i)) (fun i => m4.cells (p + i)) hdv,
    ← mul_sub, mul_div_assoc]

end TwiceGradient

section ReverseFields
variable {α : Type}

theorem reverse_zone_fields (paths : Nat → path α) (b : boundary) (a : Nat) :
    (reverse_zone paths b a).close = (paths a).close
    ∧ (reverse_zone paths b a).xy = (paths a).xy
    ∧ (reverse_zone paths b a).points = (paths a).points
    ∧ (reverse_zone paths b a).value = (paths a).value := by
  unfold reverse_zone
  simp only []
  rw [reverse_zone_apply]
  generalize toggleCount b b.components a = n
  induction n with
  | zero => exact ⟨rfl, rfl, rfl, rfl⟩
  | succ n ih =>
    rw [Function.iterate_succ_apply']
    exact ih

theorem reverse_zone_ZonePaths (paths : Nat → path α) (b : boundary) (hz : ZonePaths paths b) :
    ZonePaths (reverse_zone paths b) b := by
  intro j hj
  rw [(reverse_zone_fields paths b (b.loop j)).1, (reverse_zone_fields paths b (b.loop j)).2.1]
  exact hz j hj

theorem reverse_zone_num_points (paths : Nat → path α) (b : boundary) :
    num_boundary_points (reverse_zone paths b) b = num_boundary_points paths b := by
  unfold num_boundary_points
  have : (fun j N => N + (reverse_zone paths b (b.loop j)).points)
      = (fun j N => N + (paths (b.loop j)).points) := by
    funext j N
    rw [(reverse_zone_fields paths b (b.loop j)).2.2.1]
  rw [this]

end ReverseFields

section TwiceNewZone
variable {α : Type} [LinearOrderedField α]

/-- `calculate_in_new_zone` on a zone without cached vectors, run on the path
structs and on those with doubled values: both calls return, and the voltage,
the gradient and the second derivatives of the second run are twice those of
the first; the zone and the vectors are left the same. -/
theorem calculate_in_new_zone_twice (cfg : Config α) (m : LibM α) (t : Terms α)
    (cm : CoMatrix α) (w : heaps α) (b : boundary) (P : coordinates α) (x : bem_vectors)
    (R R2 : bem_results α) (N : Nat)
    (hcfg : cfg.valid) (hloc : cfg.inverse_local) (hcm : cm.valid)
    (hatt : ∀ y r c d, cm.attach_co_matrix y r c d = attach_matrix r c d)
    (hst : ∀ y, cm.startof_co_matrix y = y.value)
    (hz : ZonePaths w.paths b)
    (hval : ∀ j, j < b.components → (w.paths (b.loop j)).value.isSome = true)
    (hN : N = num_boundary_points w.paths b)
    (hbvv : b.bvv = 0) (hbcv : b.bcv = 0)
    (hmem : 0 < w.mem.brk) (hxv : x.vgv.value + 2 * N ≤ w.mem.brk)
    (hxc : x.cgv.value + 4 * N ≤ w.mem.brk)
    (hxvc : x.cgv.value + 4 * N ≤ x.vgv.value ∨ x.vgv.value + 2 * N ≤ x.cgv.value)
    (hco : 0 < w.co.brk) (hcoc : x.co_cgv.value + 4 * N ≤ w.co.brk)
    (hten : 0 < w.ten.brk) (htenc : x.ten_cgv.value + 4 * N ≤ w.ten.brk) :
    ∃ V G T w3 w4 b1 x1,
      calculate_in_new_zone cfg m t cm w b P x R
        = some (V, w3, b1, x1, { V := V, dV := G, d2V := T })
      ∧ calculate_in_new_zone cfg m t cm
          { paths := twice_values w.paths, mem := w.mem, co := w.co, ten := w.ten } b P x R2
        = some (2 * V, w4, b1, x1,
            { V := 2 * V, dV := (2 * G.1, 2 * G.2),
              d2V := ((2 * T.1.1, 2 * T.1.2), (2 * T.2.1, 2 * T.2.2)) })
      ∧ w4.paths = twice_values w3.paths := by
  have hzps := reverse_zone_ZonePaths w.paths b hz
  have hvalps : ∀ j, j < b.components →
      (reverse_zone w.paths b (b.loop j)).value.isSome = true := by
    intro j hj
    rw [(reverse_zone_fields w.paths b (b.loop j)).2.2.2]
    exact hval j hj
  have hNps : num_boundary_points (reverse_zone w.paths b) b = N := by
    rw [reverse_zone_num_points, hN]
  obtain ⟨h, k, B, e1, e2, hB, dv, dc, fr⟩ := make_boundary_vector_twice cfg m t
    (reverse_zone w.paths b) w.mem b N hcfg hloc hzps hvalps hNps.symm hbvv hbcv (by omega)
  have hz1 : ZonePaths (reverse_zone w.paths b)
      { b with bvv := w.mem.brk, bcv := w.mem.brk + 2 * N } := hzps
  have hN1 : num_boundary_points (reverse_zone w.paths b)
      { b with bvv := w.mem.brk, bcv := w.mem.brk + 2 * N } = N := hNps
  obtain ⟨V, m3, m4, eV, eV2, hm3, hm4, cv, cc⟩ := make_internal_voltage_twice cfg m t
    (reverse_zone w.paths b) h k B { b with bvv := w.mem.brk, bcv := w.mem.brk + 2 * N } P N
    w.mem.brk x.vgv.value x.cgv.value hz1 hN1 hxv hxc hB (by omega) hxvc
    (fun a ha => by rw [(fr a ha).1, (fr a ha).2]) dv dc
  have dv3 : ∀ i, i < 2 * N → m4.cells (w.mem.brk + i) = 2 * m3.cells (w.mem.brk + i) := by
    intro i hi
    rw [(cv i hi).1, (cv i hi).2]
    exact dv i hi
  have dc3 : ∀ i, i < 4 * N →
      m4.cells (w.mem.brk + 2 * N + i) = 2 * m3.cells (w.mem.brk + 2 * N + i) := by
    intro i hi
    rw [(cc i hi).1, (cc i hi).2]
    exact dc i hi
  obtain ⟨G, co3, co4, eG, eG2, _, _⟩ := make_internal_grad_voltage_twice m t cm hcm
    (reverse_zone w.paths b) m3 m4 w.co { b with bvv := w.mem.brk, bcv := w.mem.brk + 2 * N }
    P N w.mem.brk x.co_vgv.value x.co_cgv.value hz1 hN1 hco hcoc dv3 dc3
  obtain ⟨T, ten3, ten4, eT, eT2, _, _⟩ := make_internal_sec_grad_voltage_twice cfg m t
    (reverse_zone w.paths b) m3 m4 w.ten { b with bvv := w.mem.brk, bcv := w.mem.brk + 2 * N }
    P N w.mem.brk x.ten_vgv.value x.ten_cgv.value hz1 hN1 hten htenc dv3 dc3
  have hNdef : forN (fun k N => N + (w.paths (b.loop k)).points) 0 b.components 0 = N := by
    rw [hN]
    rfl
  have hNdef2 : forN (fun k N => N + (twice_values w.paths (b.loop k)).points) 0 b.components 0
      = N := hNdef
  refine ⟨V, G, T,
    { paths := reverse_zone (reverse_zone w.paths b)
        { b with bvv := w.mem.brk, bcv := w.mem.brk + 2 * N },
      mem := m3, co := co3, ten := ten3 },
    { paths := reverse_zone (twice_values (reverse_zone w.paths b))
        { b with bvv := w.mem.brk, bcv := w.mem.brk + 2 * N },
      mem := m4, co := co4, ten := ten4 },
    { b with bvv := w.mem.brk, bcv := w.mem.brk + 2 * N },
    { bvv := attach_matrix (2 * N) 1 w.mem.brk, bcv := attach_matrix (4 * N) 1 (w.mem.brk + 2 * N),
      vgv := attach_matrix 1 (2 * N) x.vgv.value, cgv := attach_matrix 1 (4 * N) x.cgv.value,
      co_vgv := attach_matrix 1 (2 * N) x.co_vgv.value,
      co_cgv := attach_matrix 1 (4 * N) x.co_cgv.value,
      ten_vgv := attach_ten_matrix 1 (2 * N) x.ten_vgv.value,
      ten_cgv := attach_ten_matrix 1 (4 * N) x.ten_cgv.value }, ?_, ?_, ?_⟩
  · unfold calculate_in_new_zone
    simp only [hNdef, startof_matrix, startof_ten_matrix, hatt, hst, e1, eV, eG, eT,
      Option.bind_eq_bind, Option.some_bind, Option.pure_def]
  · unfold calculate_in_new_zone
    simp only [hNdef2, startof_matrix, startof_ten_matrix, hatt, hst,
      reverse_zone_twice_values w.paths b, e2, eV2, eG2, eT2,
      Option.bind_eq_bind, Option.some_bind, Option.pure_def]
  · exact reverse_zone_twice_values _ _

end TwiceNewZone

/-- C8. Field linearity. Take a catchment as it is after loading (no zone
visited yet, `previous_zone = -1`) and a point `P` that `check_each_zone` puts
in zone `k`, a zone without cached `bvv` and `bcv` whose paths are closed and
carry coordinates and values; let `N` be its number of boundary points, and let
the vectors of `x` lie below the allocators with room for `2 N` and `4 N`
entries. Take as second catchment the same one over the path structs with
every node value doubled (`twice_values`), everything else being the same.
Then `calculate_inside_catchment` returns on both, selects zone `k` on both
(`previous_zone` becomes `k`, `new_z = 1`), and the returned voltage, `V`, the
two components of `dV` and the four components of `d2V` of the second run are
exactly twice those of the first. The arithmetic is that of an ordered field,
with division as the field has it; of LAPACK, when it is the back end, only
`Config.inverse_local` is used, and of co_matrix.c only `CoMatrix.valid` and
that `attach_co_matrix` and `startof_co_matrix` set and read the header as
their `matrix` and `ten_matrix` namesakes do. -/
theorem field_linearity {α : Type} [LinearOrderedField α] (cfg : Config α) (m : LibM α)
    (t : Terms α) (cm : CoMatrix α) (w : heaps α) (c : catchment) (P : coordinates α)
    (x : bem_vectors) (R R2 : bem_results α) (k N : Nat) (ps : Nat → path α)
    (hcfg : cfg.valid) (hloc : cfg.inverse_local) (hcm : cm.valid)
    (hatt : ∀ y r c d, cm.attach_co_matrix y r c d = attach_matrix r c d)
    (hst : ∀ y, cm.startof_co_matrix y = y.value)
    (hzone : check_each_zone m w.paths c P = some ((k : Int), ps))
    (hfresh : c.previous_zone = -1)
    (hbvv : (c.zones k).bvv = 0) (hbcv : (c.zones k).bcv = 0)
    (hz : ZonePaths w.paths (c.zones k))
    (hval : ∀ j, j < (c.zones k).components →
      (w.paths ((c.zones k).loop j)).value.isSome = true)
    (hN : N = num_boundary_points w.paths (c.zones k))
    (hmem : 0 < w.mem.brk) (hxv : x.vgv.value + 2 * N ≤ w.mem.brk)
    (hxc : x.cgv.value + 4 * N ≤ w.mem.brk)
    (hxvc : x.cgv.value + 4 * N ≤ x.vgv.value ∨ x.vgv.value + 2 * N ≤ x.cgv.value)
    (hco : 0 < w.co.brk) (hcoc : x.co_cgv.value + 4 * N ≤ w.co.brk)
    (hten : 0 < w.ten.brk) (htenc : x.ten_cgv.value + 4 * N ≤ w.ten.brk) :
    ∃ r r2,
      calculate_inside_catchment cfg m t cm w c P x R = some r
      ∧ calculate_inside_catchment cfg m t cm
          { paths := twice_values w.paths, mem := w.mem, co := w.co, ten := w.ten } c P x R2
        = some r2
      ∧ r2.1 = 2 * r.1
      ∧ r2.2.2.2.2.1.V = 2 * r.2.2.2.2.1.V
      ∧ r2.2.2.2.2.1.dV = (2 * r.2.2.2.2.1.dV.1, 2 * r.2.2.2.2.1.dV.2)
      ∧ r2.2.2.2.2.1.d2V
        = ((2 * r.2.2.2.2.1.d2V.1.1, 2 * r.2.2.2.2.1.d2V.1.2),
            (2 * r.2.2.2.2.1.d2V.2.1, 2 * r.2.2.2.2.1.d2V.2.2))
      ∧ (check_each_zone m (twice_values w.paths) c P).map Prod.fst = some (k : Int)
      ∧ r.2.2.1.previous_zone = (k : Int) ∧ r2.2.2.1.previous_zone = (k : Int)
      ∧ r.2.2.2.2.2 = 1 ∧ r2.2.2.2.2.2 = 1 := by
  have hps := check_each_zone_paths m w.paths c P _ ps hzone
  subst hps
  have hzone2 : check_each_zone m (twice_values w.paths) c P
      = some ((k : Int), twice_values w.paths) := by
    rw [check_each_zone_twice_values, hzone]
    rfl
  obtain ⟨V, G, T, w3, w4, b1, x1, e1, e2, _⟩ := calculate_in_new_zone_twice cfg m t cm
    { paths := w.paths, mem := w.mem, co := w.co, ten := w.ten } (c.zones k) P x R R2 N
    hcfg hloc hcm hatt hst hz hval hN hbvv hbcv hmem hxv hxc hxvc hco hcoc hten htenc
  have hk0 : ¬ ((k : Int) < 0) := by omega
  have hkp : ¬ ((k : Int) = c.previous_zone) := by
    rw [hfresh]
    omega
  obtain ⟨c1, hc1⟩ : ∃ c1 : catchment, c1
      = { { c with previous_zone := (k : Int) } with zones := Function.update c.zones k b1 } :=
    ⟨_, rfl⟩
  have hc1p : c1.previous_zone = (k : Int) := by rw [hc1]
  refine ⟨(V, w3, c1, x1, bem_results.mk V G T, 1),
    (2 * V, w4, c1, x1,
      bem_results.mk (2 * V) (2 * G.1, 2 * G.2) ((2 * T.1.1, 2 * T.1.2), (2 * T.2.1, 2 * T.2.2)),
      1),
    ?_, ?_, rfl, rfl, rfl, rfl, ?_, hc1p, hc1p, rfl, rfl⟩
  · unfold calculate_inside_catchment
    simp only [hzone, Option.bind_eq_bind, Option.some_bind, hk0, if_false, Int.toNat_ofNat,
      hkp, e1, Option.pure_def, hc1]
  · unfold calculate_inside_catchment
    simp only [hzone2, Option.bind_eq_bind, Option.some_bind, hk0, if_false, Int.toNat_ofNat,
      hkp, e2, Option.pure_def, hc1]
  · rw [hzone2]
    rfl

set_option maxRecDepth 100000 in
theorem field_linearity_witness :
    ∃ r r2,
      calculate_inside_catchment exCfg exLibM exTerms exCoMatrix exHeaps exFreshCatchment
          ((3 : ℚ), 4) exVectors exResults = some r
      ∧ calculate_inside_catchment exCfg exLibM exTerms exCoMatrix
          { paths := twice_values exHeaps.paths, mem := exHeaps.mem, co := exHeaps.co,
            ten := exHeaps.ten } exFreshCatchment ((3 : ℚ), 4) exVectors exResults
        = some r2
      ∧ r2.1 = 2 * r.1
      ∧ r2.2.2.2.2.1.V = 2 * r.2.2.2.2.1.V
      ∧ r2.2.2.2.2.1.dV = (2 * r.2.2.2.2.1.dV.1, 2 * r.2.2.2.2.1.dV.2)
      ∧ r2.2.2.2.2.1.d2V
        = ((2 * r.2.2.2.2.1.d2V.1.1, 2 * r.2.2.2.2.1.d2V.1.2),
            (2 * r.2.2.2.2.1.d2V.2.1, 2 * r.2.2.2.2.1.d2V.2.2))
      ∧ (check_each_zone exLibM (twice_values exHeaps.paths) exFreshCatchment
          ((3 : ℚ), 4)).map Prod.fst = some ((0 : Nat) : Int)
      ∧ r.2.2.1.previous_zone = ((0 : Nat) : Int) ∧ r2.2.2.1.previous_zone = ((0 : Nat) : Int)
      ∧ r.2.2.2.2.2 = 1 ∧ r2.2.2.2.2.2 = 1 := by
  obtain ⟨ps, hps⟩ := option_fst_some
    (check_each_zone exLibM exHeaps.paths exFreshCatchment ((3 : ℚ), 4)) ((0 : Nat) : Int)
    (by decide!)
  exact field_linearity exCfg exLibM exTerms exCoMatrix exHeaps exFreshCatchment ((3 : ℚ), 4)
    exVectors exResults exResults 0 4 ps
    ⟨by decide, by decide, fun h => absurd rfl h, fun h => absurd h (by decide)⟩
    (fun h => absurd h (by decide)) exCoMatrix_valid (fun _ _ _ _ => rfl) (fun _ => rfl)
    hps rfl rfl rfl (fun _ _ => ⟨by show exField.close ≠ 0; decide, rfl⟩) (fun _ _ => rfl)
    (by decide) (by decide) (by decide) (by decide) (by decide) (by decide) (by decide)
    (by decide) (by decide)

section VariantsAgree
variable {α : Type}

theorem multiply_matrix_sequential_loops [Zero α] [Add α] [Mul α] (h : Nat → α)
    (a b x : matrix) :
    multiply_matrix_sequential h a b x
      = mulLoops a.value b.value x.value
          (fun i row => if a.transpose = 0 then i * a.rows + row else row * a.rows + i)
          (fun col i => col * b.rows + i) x.rows
          (if a.transpose ≠ 0 then a.columns else a.rows)
          (if b.transpose ≠ 0 then b.rows else b.columns)
          (if a.transpose ≠ 0 then a.rows else a.columns) h := by
  unfold multiply_matrix_sequential mulLoops
  by_cases ht : a.transpose = 0
  · simp only [ht, if_true, ne_eq, not_true_eq_false, if_false]
  · simp only [ht, if_true, ne_eq, not_false_eq_true, if_false]

theorem multiply_matrix_simd_hybrid_loops [Semiring α] (avx2 : Bool) (h : Nat → α)
    (a b x : matrix) (block_size : Nat) :
    multiply_matrix_simd_hybrid avx2 h a b x block_size
      = mulLoops a.value b.value x.value
          (fun i row => if a.transpose = 0 then i * a.rows + row else row * a.rows + i)
          (fun col i => col * b.rows + i) x.rows
          (if a.transpose ≠ 0 then a.columns else a.rows)
          (if b.transpose ≠ 0 then b.rows else b.columns)
          (if a.transpose ≠ 0 then a.rows else a.columns)
          (forN (fun i h => Function.update h (x.value + i) 0) 0 (x.rows * x.columns) h) := by
  unfold multiply_matrix_simd_hybrid mulLoops
  cases avx2
  · simp only [Bool.false_eq_true, if_false]
    by_cases ht : a.transpose = 0 <;>
      simp only [ht, if_true, if_false, ne_eq, not_true_eq_false, not_false_eq_true]
  · simp only [if_true]
    by_cases ht : a.transpose = 0
    · simp only [ht, if_true, ne_eq, not_true_eq_false, if_false]
      congr 1
      funext row g
      congr 1
      funext col g'
      exact congrArg _
        (simd_dot_proj g' a.value b.value b.rows a.columns col (fun i => i * a.rows + row))
    · simp only [ht, if_false, ne_eq, not_false_eq_true, if_true]
      congr 1
      funext row g
      congr 1
      funext col g'
      exact congrArg _
        (simd_dot_proj g' a.value b.value b.rows a.rows col (fun i => row * a.rows + i))

theorem multiply_matrix_cache_hybrid_loops [Zero α] [Add α] [Mul α] (h : Nat → α)
    (a b x : matrix) (block_size : Nat) :
    multiply_matrix_cache_hybrid h a b x block_size
      = blockedLoops a.value b.value x.value
          (fun i row => if a.transpose = 0 then i * a.rows + row else row * a.rows + i)
          b.rows x.rows
          (if a.transpose ≠ 0 then a.columns else a.rows)
          (if b.transpose ≠ 0 then b.rows else b.columns)
          (if a.transpose ≠ 0 then a.rows else a.columns) block_size
          (forN (fun i h => Function.update h (x.value + i) 0) 0 (x.rows * x.columns) h) := by
  unfold multiply_matrix_cache_hybrid blockedLoops
  by_cases ht : a.transpose = 0
  · simp only [ht, if_true, ne_eq, not_true_eq_false, if_false]
  · simp only [ht, if_true, ne_eq, not_false_eq_true, if_false]

/-- An address inside a column-major array is the cell of a row and a column. -/
theorem cell_of_addr (X xr C addr : Nat) (h1 : X ≤ addr) (h2 : addr < X + xr * C) :
    ∃ row col, row < xr ∧ col < C ∧ addr = X + (col * xr + row) := by
  have hxr : 0 < xr := by
    rcases Nat.eq_zero_or_pos xr with h0 | h0
    · rw [h0, Nat.zero_mul] at h2; omega
    · exact h0
  refine ⟨(addr - X) % xr, (addr - X) / xr, Nat.mod_lt _ hxr, ?_, ?_⟩
  · rw [Nat.div_lt_iff_lt_mul hxr, Nat.mul_comm]
    omega
  · have := Nat.div_add_mod (addr - X) xr
    rw [Nat.mul_comm] at this
    omega

end VariantsAgree

/-- C21. The optimized products leave in memory exactly what the baseline
`multiply_matrix_sequential` leaves, in exact arithmetic and with the parallel
iterations run in order: `multiply_matrix_openmp_hybrid` always;
`multiply_matrix_cache_hybrid` (which returns for every block size `>= 1`,
whether or not it divides the dimensions) and `multiply_matrix_simd_hybrid`
(with the AVX2 lanes and scalar remainder, or with its scalar fallback) when
`x` has the size of the product and its array is apart from the cells read
from `a` and `b`. Both values of the transpose flags of `a` and `b` are
covered. -/
theorem multiply_variants_agree {α : Type} [Semiring α] (avx2 : Bool) (h : Nat → α)
    (a b x : matrix) (block_size : Nat) (hbs : 1 ≤ block_size)
    (hxr : x.rows = if a.transpose ≠ 0 then a.columns else a.rows)
    (hxc : x.columns = if b.transpose ≠ 0 then b.rows else b.columns)
    (hapart : OperandsApart a b x) :
    multiply_matrix_openmp_hybrid h a b x = multiply_matrix_sequential h a b x
    ∧ multiply_matrix_cache_hybrid h a b x block_size
        = some (multiply_matrix_sequential h a b x)
    ∧ multiply_matrix_simd_hybrid avx2 h a b x block_size
        = multiply_matrix_sequential h a b x := by
  obtain ⟨hA, hB⟩ := hapart
  have hzf := zero_fill_spec x.value (x.rows * x.columns) h
  have hA' : ∀ i row, i < (if a.transpose ≠ 0 then a.rows else a.columns) →
      row < (if a.transpose ≠ 0 then a.columns else a.rows) →
      (a.value + (fun i row => if a.transpose = 0 then i * a.rows + row
          else row * a.rows + i) i row < x.value
        ∨ x.value + x.rows * (if b.transpose ≠ 0 then b.rows else b.columns)
          ≤ a.value + (fun i row => if a.transpose = 0 then i * a.rows + row
              else row * a.rows + i) i row) := by
    intro i row hi hrow
    rw [← hxc]
    exact hA i hi row hrow
  have hB' : ∀ col i, col < (if b.transpose ≠ 0 then b.rows else b.columns) →
      i < (if a.transpose ≠ 0 then a.rows else a.columns) →
      (b.value + (fun col i => col * b.rows + i) col i < x.value
        ∨ x.value + x.rows * (if b.transpose ≠ 0 then b.rows else b.columns)
          ≤ b.value + (fun col i => col * b.rows + i) col i) := by
    intro col i hcol hi
    rw [← hxc]
    exact hB col hcol i hi
  have hseq := mulLoops_spec a.value b.value x.value
    (fun i row => if a.transpose = 0 then i * a.rows + row else row * a.rows + i)
    (fun col i => col * b.rows + i) x.rows
    (if a.transpose ≠ 0 then a.columns else a.rows)
    (if b.transpose ≠ 0 then b.rows else b.columns)
    (if a.transpose ≠ 0 then a.rows else a.columns) h (le_of_eq hxr.symm) hA' hB'
  have hsimd := mulLoops_spec a.value b.value x.value
    (fun i row => if a.transpose = 0 then i * a.rows + row else row * a.rows + i)
    (fun col i => col * b.rows + i) x.rows
    (if a.transpose ≠ 0 then a.columns else a.rows)
    (if b.transpose ≠ 0 then b.rows else b.columns)
    (if a.transpose ≠ 0 then a.rows else a.columns)
    (forN (fun i h => Function.update h (x.value + i) 0) 0 (x.rows * x.columns) h)
    (le_of_eq hxr.symm) hA' hB'
  obtain ⟨g, hg, hacc⟩ := blockedLoops_spec a.value b.value x.value b.rows x.rows
    (if a.transpose ≠ 0 then a.columns else a.rows)
    (if b.transpose ≠ 0 then b.rows else b.columns)
    (if a.transpose ≠ 0 then a.rows else a.columns) block_size
    (fun i row => if a.transpose = 0 then i * a.rows + row else row * a.rows + i)
    (forN (fun i h => Function.update h (x.value + i) 0) 0 (x.rows * x.columns) h)
    (le_of_eq hxr.symm) hbs hA' hB'
    (by
      intro row col hrow hcol
      apply hzf.1
      exact idx_lt (by omega) (by omega))
  -- the zero fill leaves the cells read as they were
  have hread : ∀ row col, row < (if a.transpose ≠ 0 then a.columns else a.rows) →
      col < (if b.transpose ≠ 0 then b.rows else b.columns) →
      ∑ i in Finset.range (if a.transpose ≠ 0 then a.rows else a.columns),
        forN (fun i h => Function.update h (x.value + i) 0) 0 (x.rows * x.columns) h
            (a.value + (if a.transpose = 0 then i * a.rows + row else row * a.rows + i))
          * forN (fun i h => Function.update h (x.value + i) 0) 0 (x.rows * x.columns) h
            (b.value + (col * b.rows + i))
      = ∑ i in Finset.range (if a.transpose ≠ 0 then a.rows else a.columns),
        h (a.value + (if a.transpose = 0 then i * a.rows + row else row * a.rows + i))
          * h (b.value + (col * b.rows + i)) := by
    intro row col hrow hcol
    apply Finset.sum_congr rfl
    intro i hi
    have hi' := Finset.mem_range.mp hi
    rw [hzf.2 _ (hA i hi' row hrow), hzf.2 _ (hB col hcol i hi')]
  have hsimd_eq : mulLoops a.value b.value x.value
      (fun i row => if a.transpose = 0 then i * a.rows + row else row * a.rows + i)
      (fun col i => col * b.rows + i) x.rows
      (if a.transpose ≠ 0 then a.columns else a.rows)
      (if b.transpose ≠ 0 then b.rows else b.columns)
      (if a.transpose ≠ 0 then a.rows else a.columns)
      (forN (fun i h => Function.update h (x.value + i) 0) 0 (x.rows * x.columns) h)
    = multiply_matrix_sequential h a b x := by
    rw [multiply_matrix_sequential_loops]
    funext addr
    by_cases hin : x.value ≤ addr ∧ addr < x.value + x.rows * x.columns
    · obtain ⟨row, col, hrow, hcol, rfl⟩ := cell_of_addr x.value x.rows x.columns addr hin.1 hin.2
      rw [hxr] at hrow
      rw [hxc] at hcol
      rw [hsimd.1 row col hrow hcol, hseq.1 row col hrow hcol]
      exact hread row col hrow hcol
    · have hout : addr < x.value ∨ x.value + x.rows * x.columns ≤ addr := by omega
      have hout' := hout
      rw [hxc] at hout'
      rw [hsimd.2 addr hout', hseq.2 addr hout', hzf.2 addr hout]
  refine ⟨?_, ?_, ?_⟩
  · rw [multiply_matrix_sequential_loops]
    unfold multiply_matrix_openmp_hybrid mulLoops
    by_cases ht : a.transpose = 0
    · simp only [ht, if_true, ne_eq, not_true_eq_false, if_false]
    · simp only [ht, if_true, ne_eq, not_false_eq_true, if_false]
  · rw [multiply_matrix_cache_hybrid_loops, hg, multiply_matrix_sequential_loops]
    congr 1
    funext addr
    by_cases hin : x.value ≤ addr ∧ addr < x.value + x.rows * x.columns
    · obtain ⟨row, col, hrow, hcol, rfl⟩ := cell_of_addr x.value x.rows x.columns addr hin.1 hin.2
      rw [hxr] at hrow
      rw [hxc] at hcol
      rw [hacc.1 row col hrow hcol, hseq.1 row col hrow hcol]
      exact hread row col hrow hcol
    · have hout : addr < x.value ∨ x.value + x.rows * x.columns ≤ addr := by omega
      have hout' := hout
      rw [hxc] at hout'
      rw [hacc.2 addr hout', hseq.2 addr hout', hzf.2 addr hout]
  · rw [multiply_matrix_simd_hybrid_loops]
    exact hsimd_eq

set_option maxRecDepth 100000 in
theorem multiply_variants_agree_witness :
    multiply_matrix_openmp_hybrid exMemProduct exWideT exSq7 exOut32
        = multiply_matrix_sequential exMemProduct exWideT exSq7 exOut32
    ∧ multiply_matrix_cache_hybrid exMemProduct exWideT exSq7 exOut32 2
        = some (multiply_matrix_sequential exMemProduct exWideT exSq7 exOut32)
    ∧ multiply_matrix_simd_hybrid true exMemProduct exWideT exSq7 exOut32 2
        = multiply_matrix_sequential exMemProduct exWideT exSq7 exOut32
    ∧ (List.range 17).map (multiply_matrix_sequential exMemProduct exWideT exSq7 exOut32)
        = [0, 1, 2, 3, 4, 5, 6, 1, 2, 3, 4, 5, 11, 17, 11, 25, 39] :=
  ⟨(multiply_variants_agree true exMemProduct exWideT exSq7 exOut32 2 (by decide)
      (by decide) (by decide) (by unfold OperandsApart; decide)).1,
    (multiply_variants_agree true exMemProduct exWideT exSq7 exOut32 2 (by decide)
      (by decide) (by decide) (by unfold OperandsApart; decide)).2.1,
    (multiply_variants_agree true exMemProduct exWideT exSq7 exOut32 2 (by decide)
      (by decide) (by decide) (by unfold OperandsApart; decide)).2.2,
    by decide!⟩

set_option maxRecDepth 100000 in
/-- Counterexample to C22 as stated: for two zones with processing times 1 and
2 (and a `NULL` entry between them) `aggregate_zone_results` leaves 2 in
`*total_time`, the largest, while the sum of the times is 3; the areas 10 and
5 are added to 15. -/
theorem aggregate_zone_results_time_example :
    aggregate_zone_results exZoneResults 3 = (15, 2)
    ∧ (∑ z in Finset.range 3, (exZoneResults z).elim 0 zone_result.total_time) = 3 :=
  ⟨by decide!, by decide!⟩

/-- C22, amended. For every array of zone results (entries may be `NULL`) and
every `num_zones`, `aggregate_zone_results` sets `*total_area` to the sum of
`catchment_area` over the non-`NULL` results, and `*total_time` to the largest
`total_time` among the non-`NULL` results, or to 0 if none of them is
positive: the value is at least 0 and at least every `total_time`, and it is 0
or the `total_time` of one of the results. It is not the sum of the times. -/
theorem aggregate_zone_results_spec {α : Type} [LinearOrderedField α]
    (results : Nat → Option (zone_result α)) (num_zones : Int) :
    (aggregate_zone_results results num_zones).1
      = ∑ z in Finset.range num_zones.toNat, (results z).elim 0 zone_result.catchment_area
    ∧ 0 ≤ (aggregate_zone_results results num_zones).2
    ∧ (∀ z r, z < num_zones.toNat → results z = some r →
        r.total_time ≤ (aggregate_zone_results results num_zones).2)
    ∧ ((aggregate_zone_results results num_zones).2 = 0
      ∨ ∃ z r, z < num_zones.toNat ∧ results z = some r
          ∧ r.total_time = (aggregate_zone_results results num_zones).2) := by
  unfold aggregate_zone_results
  simp only []
  have key := forN_inv
    (fun t (st : α × α) =>
      st.1 = ∑ z in Finset.range t, (results z).elim 0 zone_result.catchment_area
      ∧ 0 ≤ st.2
      ∧ (∀ z r, z < t → results z = some r → r.total_time ≤ st.2)
      ∧ (st.2 = 0 ∨ ∃ z r, z < t ∧ results z = some r ∧ r.total_time = st.2))
    (fun z (st : α × α) =>
      match results z with
      | some r =>
        (st.1 + r.catchment_area, if r.total_time > st.2 then r.total_time else st.2)
      | none => st) 0 num_zones.toNat ((0 : α), (0 : α))
    ⟨by simp, le_refl _, by intro z r hz; omega, Or.inl rfl⟩
    (by
      intro t _ st ⟨h1, h2, h3, h4⟩
      rw [Nat.zero_add]
      beta_reduce
      cases hr : results t with
      | none =>
        dsimp only
        refine ⟨?_, h2, ?_, ?_⟩
        · show st.1 = _
          rw [Finset.sum_range_succ, hr, h1]
          simp
        · intro z r hz hzr
          have hzt : z < t := by
            rcases Nat.lt_succ_iff_lt_or_eq.mp hz with h | h
            · exact h
            · subst h; rw [hr] at hzr; cases hzr
          exact h3 z r hzt hzr
        · rcases h4 with h4 | ⟨z, r, hz, hzr, he⟩
          · exact Or.inl h4
          · exact Or.inr ⟨z, r, by omega, hzr, he⟩
      | some r0 =>
        dsimp only
        refine ⟨?_, ?_, ?_, ?_⟩
        · show st.1 + r0.catchment_area = _
          rw [Finset.sum_range_succ, hr, h1]
          rfl
        · show 0 ≤ (if r0.total_time > st.2 then r0.total_time else st.2)
          split
          · next hgt => exact le_trans h2 (le_of_lt hgt)
          · exact h2
        · intro z r hz hzr
          show r.total_time ≤ (if r0.total_time > st.2 then r0.total_time else st.2)
          rcases Nat.lt_succ_iff_lt_or_eq.mp hz with h | h
          · have := h3 z r h hzr
            split
            · next hgt => exact le_trans this (le_of_lt hgt)
            · exact this
          · subst h
            rw [hr] at hzr
            cases hzr
            split
            · exact le_refl _
            · next hgt => exact not_lt.mp hgt
        · show (if r0.total_time > st.2 then r0.total_time else st.2) = 0 ∨ _
          split
          · exact Or.inr ⟨t, r0, by omega, hr, rfl⟩
          · rcases h4 with h4 | ⟨z, r, hz, hzr, he⟩
            · exact Or.inl h4
            · exact Or.inr ⟨z, r, by omega, hzr, he⟩)
  exact key

section Arena

/-- The two phases of `make_bcv_use_KCL` work on the views of
`make_bcv_use_KCL_views`. -/
theorem KCL_phases_views {α : Type} [LinearOrderedField α] (cfg : Config α) (m : LibM α)
    (t : Terms α) (paths : Nat → path α) (b : boundary) (N values : Nat) (V : matrix)
    (h : Nat → α) :
    KCL_phase1 cfg m t paths b N values V h
      = (do
          let h ← make_voltage_geometry_matrix m t paths b (make_bcv_use_KCL_views N values).A h
          let h ← zero_last_matrix_row h (make_bcv_use_KCL_views N values).A
          let h ← make_diagonal_matrix m paths b (make_bcv_use_KCL_views N values).D h
          let h ← zero_last_matrix_row h (make_bcv_use_KCL_views N values).D
          let (h, _, _, DA) ← add_matrix cfg h (make_bcv_use_KCL_views N values).D
            (make_bcv_use_KCL_views N values).A (make_bcv_use_KCL_views N values).DA
          let (h, DA, V, DAV) ← multiply_matrix cfg h DA V (make_bcv_use_KCL_views N values).DAV
          pure (h, DA, V, DAV))
    ∧ KCL_phase2 cfg m t paths b N values (make_bcv_use_KCL_views N values).DAV h
      = (do
          let h ← make_current_geometry_matrix m t paths b (make_bcv_use_KCL_views N values).B h
          let h ← make_kcl_geometry_vector m paths b (make_bcv_use_KCL_views N values).KCL h
          let h ← fill_last_matrix_row h (make_bcv_use_KCL_views N values).B
            (make_bcv_use_KCL_views N values).KCL
          let (h, BT, _) ← transpose_matrix cfg h (make_bcv_use_KCL_views N values).BT none
          pure (h, (make_bcv_use_KCL_views N values).B, BT,
            (make_bcv_use_KCL_views N values).BTB, (make_bcv_use_KCL_views N values).BTDAV)) := by
  refine ⟨?_, ?_⟩
  · unfold KCL_phase1 KCL_assemble_A KCL_assemble_D make_bcv_use_KCL_views
    simp only [bind_assoc, pure_bind]
  · unfold KCL_phase2 make_bcv_use_KCL_views
    rfl

/-- The two blocks of `make_bcv_no_KCL` work on the views of
`make_bcv_no_KCL_views`. -/
theorem noKCL_phases_views {α : Type} [LinearOrderedField α] (cfg : Config α) (m : LibM α)
    (t : Terms α) (paths : Nat → path α) (b : boundary) (N values : Nat) (V : matrix)
    (h : Nat → α) :
    noKCL_phase1 cfg m t paths b N values V h
      = (do
          let h ← make_voltage_geometry_matrix m t paths b (make_bcv_no_KCL_views N values).A h
          let h ← make_diagonal_matrix m paths b (make_bcv_no_KCL_views N values).D h
          let (h, _, _, DA) ← add_matrix cfg h (make_bcv_no_KCL_views N values).D
            (make_bcv_no_KCL_views N values).A (make_bcv_no_KCL_views N values).DA
          let (h, DA, V, DAV) ← multiply_matrix cfg h DA V (make_bcv_no_KCL_views N values).DAV
          pure (h, DA, V, DAV))
    ∧ noKCL_phase2 cfg m t paths b N values (make_bcv_no_KCL_views N values).DAV h
      = (do
          let h ← make_current_geometry_matrix m t paths b (make_bcv_no_KCL_views N values).B h
          let (h, BT, _) ← transpose_matrix cfg h (make_bcv_no_KCL_views N values).BT none
          pure (h, (make_bcv_no_KCL_views N values).B, BT,
            (make_bcv_no_KCL_views N values).BTB, (make_bcv_no_KCL_views N values).BTDAV)) := by
  refine ⟨?_, ?_⟩
  · unfold noKCL_phase1 make_bcv_no_KCL_views
    rfl
  · unfold noKCL_phase2 make_bcv_no_KCL_views
    rfl

theorem KCL_views_extent (N values : Nat) :
    (make_bcv_use_KCL_views N values).A = attach_matrix (5 * N + 1) (2 * N) values
    ∧ (make_bcv_use_KCL_views N values).D
        = attach_matrix (5 * N + 1) (2 * N) (values + (10 * (N * N) + 2 * N))
    ∧ (make_bcv_use_KCL_views N values).DA = attach_matrix (5 * N + 1) (2 * N) values
    ∧ (make_bcv_use_KCL_views N values).DAV
        = attach_matrix (5 * N + 1) 1 (values + (20 * (N * N) + 4 * N))
    ∧ (make_bcv_use_KCL_views N values).B = attach_matrix (5 * N + 1) (4 * N) values
    ∧ (make_bcv_use_KCL_views N values).BT = attach_matrix (5 * N + 1) (4 * N) values
    ∧ (make_bcv_use_KCL_views N values).BTB
        = attach_matrix (4 * N) (4 * N) (values + (20 * (N * N) + 9 * N + 1))
    ∧ (make_bcv_use_KCL_views N values).BTDAV
        = attach_matrix (4 * N) 1 (values + (36 * (N * N) + 9 * N + 1))
    ∧ (make_bcv_use_KCL_views N values).KCL
        = attach_matrix 1 (4 * N) (values + (36 * (N * N) + 9 * N + 1)) := by
  unfold make_bcv_use_KCL_views
  refine ⟨rfl, ?_, rfl, ?_, rfl, rfl, ?_, ?_, ?_⟩ <;>
  · simp only [after_attach]
    congr 1
    ring

theorem noKCL_views_extent (N values : Nat) :
    (make_bcv_no_KCL_views N values).A = attach_matrix (5 * N) (2 * N) values
    ∧ (make_bcv_no_KCL_views N values).D
        = attach_matrix (5 * N) (2 * N) (values + 10 * (N * N))
    ∧ (make_bcv_no_KCL_views N values).DA = attach_matrix (5 * N) (2 * N) values
    ∧ (make_bcv_no_KCL_views N values).DAV
        = attach_matrix (5 * N) 1 (values + 20 * (N * N))
    ∧ (make_bcv_no_KCL_views N values).B = attach_matrix (5 * N) (4 * N) values
    ∧ (make_bcv_no_KCL_views N values).BT = attach_matrix (5 * N) (4 * N) values
    ∧ (make_bcv_no_KCL_views N values).BTB
        = attach_matrix (4 * N) (4 * N) (values + (20 * (N * N) + 5 * N))
    ∧ (make_bcv_no_KCL_views N values).BTDAV
        = attach_matrix (4 * N) 1 (values + (36 * (N * N) + 5 * N)) := by
  unfold make_bcv_no_KCL_views
  refine ⟨rfl, ?_, rfl, ?_, rfl, rfl, ?_, ?_⟩ <;>
  · simp only [after_attach]
    congr 1
    ring

theorem arena_size (N : Nat) :
    (9 * N + 1) * (4 * N + 1) = 36 * (N * N) + 13 * N + 1
    ∧ 9 * N * (4 * N + 1) = 36 * (N * N) + 9 * N := by
  constructor <;> ring

theorem view_sizes (N : Nat) :
    (5 * N + 1) * (2 * N) = 10 * (N * N) + 2 * N
    ∧ (5 * N + 1) * (4 * N) = 20 * (N * N) + 4 * N
    ∧ 4 * N * (4 * N) = 16 * (N * N)
    ∧ 5 * N * (2 * N) = 10 * (N * N)
    ∧ 5 * N * (4 * N) = 20 * (N * N) := by
  refine ⟨?_, ?_, ?_, ?_, ?_⟩ <;> ring

end Arena

/-- The extent of the views against the numbers `(9N+1)(4N+1)` and
`9N(4N+1)`: every view of `make_bcv_use_KCL` starts at or after `values` and
ends at or before `values + (9N+1)(4N+1)`, `BTDAV` and `KCL` end exactly there;
every view of `make_bcv_no_KCL` ends at or before `values + 9N(4N+1)`, and
`BTDAV` exactly there. The ends are those computed by `after_matrix`. -/
theorem arena_views_in_bounds (N values : Nat) :
    (∀ v ∈ (make_bcv_use_KCL_views N values).all,
      values ≤ startof_matrix v ∧ after_matrix v ≤ values + (9 * N + 1) * (4 * N + 1))
    ∧ after_matrix (make_bcv_use_KCL_views N values).BTDAV
        = values + (9 * N + 1) * (4 * N + 1)
    ∧ after_matrix (make_bcv_use_KCL_views N values).KCL
        = values + (9 * N + 1) * (4 * N + 1)
    ∧ (∀ v ∈ (make_bcv_no_KCL_views N values).all,
      values ≤ startof_matrix v ∧ after_matrix v ≤ values + 9 * N * (4 * N + 1))
    ∧ after_matrix (make_bcv_no_KCL_views N values).BTDAV
        = values + 9 * N * (4 * N + 1) := by
  obtain ⟨a1, a2, a3, a4, a5, a6, a7, a8, a9⟩ := KCL_views_extent N values
  obtain ⟨b1, b2, b3, b4, b5, b6, b7, b8⟩ := noKCL_views_extent N values
  obtain ⟨s1, s2⟩ := arena_size N
  obtain ⟨z1, z2, z3, z4, z5⟩ := view_sizes N
  refine ⟨?_, ?_, ?_, ?_, ?_⟩
  · intro v hv
    simp only [KCL_views.all, List.mem_cons, List.mem_singleton, List.not_mem_nil, or_false,
      a1, a2, a3, a4, a5, a6, a7, a8, a9] at hv
    rcases hv with rfl | rfl | rfl | rfl | rfl | rfl | rfl | rfl | rfl <;>
    · simp only [after_attach]
      simp only [startof_matrix, attach_matrix, s1, z1, z2, z3]
      omega
  · rw [a8, after_attach, s1]
    omega
  · rw [a9, after_attach, s1]
    omega
  · intro v hv
    simp only [noKCL_views.all, List.mem_cons, List.mem_singleton, List.not_mem_nil, or_false,
      b1, b2, b3, b4, b5, b6, b7, b8] at hv
    rcases hv with rfl | rfl | rfl | rfl | rfl | rfl | rfl | rfl <;>
    · simp only [after_attach]
      simp only [startof_matrix, attach_matrix, s2, z3, z4, z5]
      omega
  · rw [b8, after_attach, s2]
    omega

section ArenaInt

theorem int_wrap_eq (z : Int) (h1 : -2 ^ 31 ≤ z) (h2 : z < 2 ^ 31) : int_wrap z = z := by
  unfold int_wrap
  rw [Int.emod_eq_of_lt (by omega) (by omega)]
  omega

/-- While `9*N*(4*N+1)` fits an `int`, `make_bcv_no_KCL` asks for that many
doubles. -/
theorem no_KCL_arena_cells_eq (N : Nat) (h : 9 * N * (4 * N + 1) < 2 ^ 31) :
    no_KCL_arena_cells N = 9 * N * (4 * N + 1) := by
  have hN : N < 2 ^ 31 := by nlinarith
  have h9 : 9 * N < 2 ^ 31 := by nlinarith
  have h4 : 4 * N + 1 < 2 ^ 31 := by nlinarith
  have e9 : int_wrap (9 * (N : Int)) = 9 * (N : Int) := int_wrap_eq _ (by omega) (by omega)
  have e4 : int_wrap (4 * (N : Int)) = 4 * (N : Int) := int_wrap_eq _ (by omega) (by omega)
  have e41 : int_wrap (4 * (N : Int) + 1) = 4 * (N : Int) + 1 :=
    int_wrap_eq _ (by omega) (by omega)
  have hp : (9 * (N : Int)) * (4 * (N : Int) + 1) = ((9 * N * (4 * N + 1) : Nat) : Int) := by
    push_cast
    ring
  unfold no_KCL_arena_cells no_KCL_malloc_bytes
  simp only [e9, e4, e41, hp]
  generalize 9 * N * (4 * N + 1) = q at h ⊢
  rw [int_wrap_eq _ (by omega) (by omega)]
  have : ((q : Int) % 2 ^ 64).toNat = q := by
    rw [Int.emod_eq_of_lt (by omega) (by omega)]
    exact Int.toNat_natCast q
  rw [this]
  omega

theorem no_KCL_arena_overflow_values :
    9 * 7724 * (4 * 7724 + 1) = 2147835852
    ∧ int_wrap (int_wrap (9 * 7724) * int_wrap (int_wrap (4 * 7724) + 1)) = -2147131444
    ∧ no_KCL_malloc_bytes 7724 = 2 ^ 64 - 17177051552
    ∧ 2 ^ 63 ≤ no_KCL_malloc_bytes 7724
    ∧ no_KCL_arena_cells 7724 ≠ 9 * 7724 * (4 * 7724 + 1) := by
  refine ⟨by norm_num, by decide, by decide, by decide, by decide⟩

end ArenaInt

/-- The arena that `make_bcv_use_KCL` has asked for when it returns:
`(9N+1)(4N+1)` doubles after the `get_num_rows(J)` doubles of `J`. -/
theorem make_bcv_use_KCL_brk {α : Type} [LinearOrderedField α] (cfg : Config α) (m : LibM α)
    (t : Terms α) (paths : Nat → path α) (mem : memory α) (b : boundary) (V J : matrix)
    (r : memory α × boundary × matrix × matrix) (hb : b.bcv = 0)
    (h : make_bcv_use_KCL cfg m t paths mem b V J = some r) :
    r.1.brk = mem.brk + get_num_rows J
      + (9 * num_boundary_points paths b + 1) * (4 * num_boundary_points paths b + 1) := by
  unfold make_bcv_use_KCL at h
  rw [if_pos hb] at h
  simp only [malloc, Option.bind_eq_bind, Option.bind_eq_some, pure, Option.some.injEq] at h
  obtain ⟨_, _, _, _, _, _, hr⟩ := h
  rw [← hr]
  rfl

/-- The arena that `make_bcv_no_KCL` has asked for when it returns:
`no_KCL_arena_cells N` doubles after the `get_num_rows(J)` doubles of `J`. -/
theorem make_bcv_no_KCL_brk {α : Type} [LinearOrderedField α] (cfg : Config α) (m : LibM α)
    (t : Terms α) (paths : Nat → path α) (mem : memory α) (b : boundary) (V J : matrix)
    (r : memory α × boundary × matrix × matrix) (hb : b.bcv = 0)
    (h : make_bcv_no_KCL cfg m t paths mem b V J = some r) :
    r.1.brk = mem.brk + get_num_rows J + no_KCL_arena_cells (num_boundary_points paths b) := by
  unfold make_bcv_no_KCL at h
  rw [if_pos hb] at h
  simp only [malloc, Option.bind_eq_bind, Option.bind_eq_some, pure, Option.some.injEq] at h
  obtain ⟨_, _, _, _, _, _, hr⟩ := h
  rw [← hr]
  rfl

/-- C23 (code bug). `make_bcv_use_KCL` asks `malloc` for `(9N+1)(4N+1)` doubles,
computed in `size_t`, and for every `N` each of its views `A`, `D`, `DA`, `DAV`,
`B`, `BT`, `BTB`, `BTDAV`, `KCL` lies inside that arena, `BTDAV` and `KCL` ending
exactly at offset `(9N+1)(4N+1)`. `make_bcv_no_KCL` asks for
`no_KCL_arena_cells N` doubles: the product `9*N*(4*N+1)` is evaluated in `int`.
While the product is below `2^31` (up to `N = 7723`) this is `9N(4N+1)` and
every view lies inside the arena, `BTDAV` ending exactly at its end. At
`N = 7724`, where every matrix of the routine still has fewer than `2^31`
entries, the product is `2147835852`, which is not an `int`: the expression
wraps to `-2147131444`, and the request handed to `malloc` is
`2^64 - 17177051552` bytes, more than `2^63`, and not the `9N(4N+1)` doubles of
the claim. -/
theorem make_bcv_no_KCL_arena_overflow {α : Type} [LinearOrderedField α] (cfg : Config α)
    (m : LibM α) (t : Terms α) (paths : Nat → path α) (mem : memory α) (b : boundary)
    (V J : matrix) :
    -- the requests of the two routines
    (∀ r, b.bcv = 0 → make_bcv_use_KCL cfg m t paths mem b V J = some r →
        r.1.brk = mem.brk + get_num_rows J
          + (9 * num_boundary_points paths b + 1) * (4 * num_boundary_points paths b + 1))
    ∧ (∀ r, b.bcv = 0 → make_bcv_no_KCL cfg m t paths mem b V J = some r →
        r.1.brk = mem.brk + get_num_rows J
          + no_KCL_arena_cells (num_boundary_points paths b))
    -- with KCL: every view inside the arena, for every N
    ∧ (∀ N values : Nat,
        (∀ v ∈ (make_bcv_use_KCL_views N values).all,
          values ≤ startof_matrix v ∧ after_matrix v ≤ values + (9 * N + 1) * (4 * N + 1))
        ∧ after_matrix (make_bcv_use_KCL_views N values).BTDAV
            = values + (9 * N + 1) * (4 * N + 1)
        ∧ after_matrix (make_bcv_use_KCL_views N values).KCL
            = values + (9 * N + 1) * (4 * N + 1))
    -- without KCL: inside the arena while the product fits an int
    ∧ (∀ N values : Nat, 9 * N * (4 * N + 1) < 2 ^ 31 →
        no_KCL_arena_cells N = 9 * N * (4 * N + 1)
        ∧ (∀ v ∈ (make_bcv_no_KCL_views N values).all,
            values ≤ startof_matrix v ∧ after_matrix v ≤ values + no_KCL_arena_cells N)
        ∧ after_matrix (make_bcv_no_KCL_views N values).BTDAV
            = values + no_KCL_arena_cells N)
    ∧ 9 * 7723 * (4 * 7723 + 1) < 2 ^ 31
    -- N = 7724: the matrices are within int, the arena size is not
    ∧ 5 * 7724 * (4 * 7724) < 2 ^ 31 ∧ 4 * 7724 * (4 * 7724) < 2 ^ 31
    ∧ 9 * 7724 * (4 * 7724 + 1) = 2147835852 ∧ 2 ^ 31 ≤ 9 * 7724 * (4 * 7724 + 1)
    ∧ int_wrap (int_wrap (9 * 7724) * int_wrap (int_wrap (4 * 7724) + 1)) = -2147131444
    ∧ no_KCL_malloc_bytes 7724 = 2 ^ 64 - 17177051552
    ∧ 2 ^ 63 ≤ no_KCL_malloc_bytes 7724
    ∧ no_KCL_arena_cells 7724 ≠ 9 * 7724 * (4 * 7724 + 1) := by
  obtain ⟨o1, o2, o3, o4, o5⟩ := no_KCL_arena_overflow_values
  refine ⟨fun r hb h => make_bcv_use_KCL_brk cfg m t paths mem b V J r hb h,
    fun r hb h => make_bcv_no_KCL_brk cfg m t paths mem b V J r hb h,
    fun N values => ?_, fun N values hN => ?_, by norm_num, by norm_num, by norm_num, o1,
    by norm_num, o2, o3, o4, o5⟩
  · obtain ⟨k1, k2, k3, _, _⟩ := arena_views_in_bounds N values
    exact ⟨k1, k2, k3⟩
  · obtain ⟨_, _, _, k4, k5⟩ := arena_views_in_bounds N values
    have e := no_KCL_arena_cells_eq N hN
    rw [e]
    exact ⟨rfl, k4, k5⟩

section ViewOverlap

/-- Which views of `make_bcv_use_KCL` share cells: `DA` is `A`, `BT` is `B`,
`B` covers `A` and `D`, `KCL` lies on `BTDAV`; all other pairs are apart. -/
theorem KCL_views_apart (N values : Nat) :
    Apart (make_bcv_use_KCL_views N values).B (make_bcv_use_KCL_views N values).DAV
    ∧ Apart (make_bcv_use_KCL_views N values).B (make_bcv_use_KCL_views N values).BTB
    ∧ Apart (make_bcv_use_KCL_views N values).B (make_bcv_use_KCL_views N values).BTDAV
    ∧ Apart (make_bcv_use_KCL_views N values).BTB (make_bcv_use_KCL_views N values).DAV
    ∧ Apart (make_bcv_use_KCL_views N values).BTB (make_bcv_use_KCL_views N values).BTDAV
    ∧ Apart (make_bcv_use_KCL_views N values).D (make_bcv_use_KCL_views N values).A
    ∧ Apart (make_bcv_use_KCL_views N values).D (make_bcv_use_KCL_views N values).DAV
    ∧ Apart (make_bcv_use_KCL_views N values).D (make_bcv_use_KCL_views N values).BTB
    ∧ Apart (make_bcv_use_KCL_views N values).D (make_bcv_use_KCL_views N values).BTDAV
    ∧ Apart (make_bcv_use_KCL_views N values).A (make_bcv_use_KCL_views N values).DAV
    ∧ Apart (make_bcv_use_KCL_views N values).A (make_bcv_use_KCL_views N values).BTB
    ∧ Apart (make_bcv_use_KCL_views N values).A (make_bcv_use_KCL_views N values).BTDAV
    ∧ Apart (make_bcv_use_KCL_views N values).DAV (make_bcv_use_KCL_views N values).BTDAV := by
  obtain ⟨a1, a2, a3, a4, a5, a6, a7, a8, a9⟩ := KCL_views_extent N values
  obtain ⟨z1, z2, z3, z4, z5⟩ := view_sizes N
  simp only [a1, a2, a4, a5, a7, a8, Apart, after_attach]
  simp only [attach_matrix, z1, z2, z3]
  refine ⟨?_, ?_, ?_, ?_, ?_, ?_, ?_, ?_, ?_, ?_, ?_, ?_, ?_⟩ <;> omega

theorem noKCL_views_apart (N values : Nat) :
    Apart (make_bcv_no_KCL_views N values).B (make_bcv_no_KCL_views N values).DAV
    ∧ Apart (make_bcv_no_KCL_views N values).B (make_bcv_no_KCL_views N values).BTB
    ∧ Apart (make_bcv_no_KCL_views N values).B (make_bcv_no_KCL_views N values).BTDAV
    ∧ Apart (make_bcv_no_KCL_views N values).BTB (make_bcv_no_KCL_views N values).DAV
    ∧ Apart (make_bcv_no_KCL_views N values).BTB (make_bcv_no_KCL_views N values).BTDAV
    ∧ Apart (make_bcv_no_KCL_views N values).D (make_bcv_no_KCL_views N values).A
    ∧ Apart (make_bcv_no_KCL_views N values).D (make_bcv_no_KCL_views N values).DAV
    ∧ Apart (make_bcv_no_KCL_views N values).D (make_bcv_no_KCL_views N values).BTB
    ∧ Apart (make_bcv_no_KCL_views N values).D (make_bcv_no_KCL_views N values).BTDAV
    ∧ Apart (make_bcv_no_KCL_views N values).A (make_bcv_no_KCL_views N values).DAV
    ∧ Apart (make_bcv_no_KCL_views N values).A (make_bcv_no_KCL_views N values).BTB
    ∧ Apart (make_bcv_no_KCL_views N values).A (make_bcv_no_KCL_views N values).BTDAV
    ∧ Apart (make_bcv_no_KCL_views N values).DAV (make_bcv_no_KCL_views N values).BTDAV := by
  obtain ⟨b1, b2, b3, b4, b5, b6, b7, b8⟩ := noKCL_views_extent N values
  obtain ⟨z1, z2, z3, z4, z5⟩ := view_sizes N
  simp only [b1, b2, b4, b5, b7, b8, Apart, after_attach]
  simp only [attach_matrix, z3, z4, z5]
  refine ⟨?_, ?_, ?_, ?_, ?_, ?_, ?_, ?_, ?_, ?_, ?_, ?_, ?_⟩ <;> omega

/-- The views that share cells in `make_bcv_use_KCL`. -/
theorem KCL_views_shared (N values : Nat) :
    (make_bcv_use_KCL_views N values).DA = (make_bcv_use_KCL_views N values).A
    ∧ (make_bcv_use_KCL_views N values).BT = (make_bcv_use_KCL_views N values).B
    ∧ startof_matrix (make_bcv_use_KCL_views N values).B
        = startof_matrix (make_bcv_use_KCL_views N values).A
    ∧ after_matrix (make_bcv_use_KCL_views N values).B
        = after_matrix (make_bcv_use_KCL_views N values).D
    ∧ startof_matrix (make_bcv_use_KCL_views N values).KCL
        = startof_matrix (make_bcv_use_KCL_views N values).BTDAV
    ∧ after_matrix (make_bcv_use_KCL_views N values).KCL
        = after_matrix (make_bcv_use_KCL_views N values).BTDAV
    ∧ (∀ c, c < 4 * N → cell (make_bcv_use_KCL_views N values).KCL 0 c
        = cell (make_bcv_use_KCL_views N values).BTDAV c 0) := by
  refine ⟨rfl, rfl, rfl, ?_, rfl, ?_, ?_⟩
  · obtain ⟨a1, a2, a3, a4, a5, a6, a7, a8, a9⟩ := KCL_views_extent N values
    obtain ⟨z1, z2, z3, z4, z5⟩ := view_sizes N
    rw [a5, a2, after_attach, after_attach, z1, z2]
    omega
  · obtain ⟨a1, a2, a3, a4, a5, a6, a7, a8, a9⟩ := KCL_views_extent N values
    rw [a8, a9, after_attach, after_attach]
    omega
  · intro c _
    obtain ⟨a1, a2, a3, a4, a5, a6, a7, a8, a9⟩ := KCL_views_extent N values
    rw [a8, a9]
    unfold cell attach_matrix
    simp only [if_true]
    omega

/-- The views that share cells in `make_bcv_no_KCL`. -/
theorem noKCL_views_shared (N values : Nat) :
    (make_bcv_no_KCL_views N values).DA = (make_bcv_no_KCL_views N values).A
    ∧ (make_bcv_no_KCL_views N values).BT = (make_bcv_no_KCL_views N values).B
    ∧ startof_matrix (make_bcv_no_KCL_views N values).B
        = startof_matrix (make_bcv_no_KCL_views N values).A
    ∧ after_matrix (make_bcv_no_KCL_views N values).B
        = after_matrix (make_bcv_no_KCL_views N values).D := by
  refine ⟨rfl, rfl, rfl, ?_⟩
  obtain ⟨b1, b2, b3, b4, b5, b6, b7, b8⟩ := noKCL_views_extent N values
  obtain ⟨z1, z2, z3, z4, z5⟩ := view_sizes N
  rw [b5, b2, after_attach, after_attach, z4, z5]
  omega

end ViewOverlap
section ViewDiscipline
variable {α : Type} [LinearOrderedField α]

/-- The run of `make_bcv_use_KCL` phase by phase on the views of
`make_bcv_use_KCL_views`: what is in the shared cells when they are reused. -/
theorem make_bcv_use_KCL_phases (cfg : Config α) (m : LibM α) (t : Terms α)
    (paths : Nat → path α) (mem : memory α) (b : boundary) (V J : matrix) (N v : Nat)
    (hcfg : cfg.valid) (hz : ZonePaths paths b) (hN : N = num_boundary_points paths b)
    (hbcv : b.bcv = 0) (hbrk : mem.brk ≠ 0)
    (hVt : V.transpose = 0) (hVi : V.invert = 0) (hVr : V.rows = 2 * N) (hVc : V.columns = 1)
    (hVv : V.value + 2 * N ≤ mem.brk)
    (hJr : get_num_rows J = 4 * N) (hJc : get_num_columns J = 1)
    (hv : v = mem.brk + 4 * N) :
    ∃ hD h1 hK h2 h' BT,
      KCL_phase1 cfg m t paths { b with bcv := mem.brk } N v V mem.cells
        = some (h1, (make_bcv_use_KCL_views N v).DA, V, (make_bcv_use_KCL_views N v).DAV)
      ∧ KCL_phase2 cfg m t paths { b with bcv := mem.brk } N v
          (make_bcv_use_KCL_views N v).DAV h1
        = some (h2, (make_bcv_use_KCL_views N v).B, BT, (make_bcv_use_KCL_views N v).BTB,
            (make_bcv_use_KCL_views N v).BTDAV)
      ∧ KCL_solve cfg (make_bcv_use_KCL_views N v).B BT (make_bcv_use_KCL_views N v).BTB
          (make_bcv_use_KCL_views N v).BTDAV (make_bcv_use_KCL_views N v).DAV
          { J with value := mem.brk } h2
        = some (h', product_header { J with value := mem.brk } (4 * N) 1)
      ∧ make_bcv_use_KCL cfg m t paths mem b V J
        = some ({ cells := h', brk := mem.brk + get_num_rows J + (9 * N + 1) * (4 * N + 1) },
            { b with bcv := mem.brk }, V, product_header { J with value := mem.brk } (4 * N) 1)
      -- `DAV` is made from `A` and `D` in PHASE 1, before `B` is written on them
      ∧ (∀ r, r < 5 * N + 1 →
          get_matrix_element h1 (make_bcv_use_KCL_views N v).DAV r 0
            = ∑ c in Finset.range (2 * N),
                (get_matrix_element hD (make_bcv_use_KCL_views N v).D r c
                  + get_matrix_element hD (make_bcv_use_KCL_views N v).A r c)
                * get_matrix_element mem.cells V c 0)
      -- and is not touched afterwards
      ∧ (∀ r, r < 5 * N + 1 →
          get_matrix_element h' (make_bcv_use_KCL_views N v).DAV r 0
            = get_matrix_element h1 (make_bcv_use_KCL_views N v).DAV r 0)
      -- the KCL vector is in the last row of `B` when PHASE 2 ends
      ∧ (∀ c, c < 4 * N →
          get_matrix_element hK (make_bcv_use_KCL_views N v).KCL 0 c
            = get_matrix_element h2 (make_bcv_use_KCL_views N v).B (5 * N) c)
      -- `B` is not touched by PHASES 3 to 5, which write `BTB`, `BTDAV` and `J`
      ∧ (∀ r c, r < 5 * N + 1 → c < 4 * N →
          get_matrix_element h' (make_bcv_use_KCL_views N v).B r c
            = get_matrix_element h2 (make_bcv_use_KCL_views N v).B r c)
      ∧ (∃ hA hB0,
          KCL_assemble_A m t paths { b with bcv := mem.brk } N v mem.cells
            = some (hA, (make_bcv_use_KCL_views N v).A, (make_bcv_use_KCL_views N v).D)
          ∧ KCL_assemble_D m paths { b with bcv := mem.brk } (make_bcv_use_KCL_views N v).D hA
            = some hD
          ∧ make_current_geometry_matrix m t paths { b with bcv := mem.brk }
              (make_bcv_use_KCL_views N v).B h1 = some hB0
          ∧ make_kcl_geometry_vector m paths { b with bcv := mem.brk }
              (make_bcv_use_KCL_views N v).KCL hB0 = some hK) := by
  have hvne : v ≠ 0 := by omega
  have hsplit := arena_split N
  have hVi' : V.invert ≠ 1 := by rw [hVi]; decide
  obtain ⟨hA, hD, h1, heA, heD, he1, c1, z1, W1, _, _⟩ := KCL_phase1_spec cfg m t paths
    { b with bcv := mem.brk } N v V mem.cells hcfg hz hN hvne hVt hVi' hVr hVc (by omega)
  obtain ⟨h2, he2, f2, l2, hB0, hK, heB0, heK, lK, fK⟩ := KCL_phase2_spec cfg m t paths
    { b with bcv := mem.brk } N v (v + (5 * N + 1) * (2 * N) + (5 * N + 1) * (2 * N)) h1
    hz hN hvne (by omega)
  obtain ⟨h4, h5, h', he3, g3, i3, r3, j3, f3⟩ := KCL_solve_spec cfg hcfg (5 * N + 1) (4 * N) v
    (v + (5 * N + 1) * (2 * N) + (5 * N + 1) * (2 * N))
    (v + (5 * N + 1) * (2 * N) + (5 * N + 1) * (2 * N) + (5 * N + 1) * 1)
    (v + (5 * N + 1) * (2 * N) + (5 * N + 1) * (2 * N) + (5 * N + 1) * 1 + 4 * N * (4 * N))
    { J with value := mem.brk } h2 hbrk
    (by
      show 4 * N * 1 = get_num_rows J * get_num_columns J
      rw [hJr, hJc])
    (by show mem.brk + 4 * N ≤ v; omega) (by omega) (by omega) (by omega)
  have e4 : ({ J with value := mem.brk } : matrix).value = mem.brk := rfl
  refine ⟨hD, h1, hK, h2, h', _, he1, he2, he3, ?_, c1, ?_, ?_, ?_, hA, hB0, heA, heD, heB0, heK⟩
  · unfold make_bcv_use_KCL malloc
    simp only [if_pos hbcv, Option.bind_eq_bind, Option.pure_def]
    have hN' : num_boundary_points paths { b with bcv := mem.brk } = N := hN.symm
    have hvJ : mem.brk + get_num_rows J = v := by rw [hJr, hv]
    simp only [hN', hvJ, he1, he2, he3, Option.some_bind]
  · intro r hr
    have hm := cell_mem
      (attach_matrix (5 * N + 1) 1 (v + (5 * N + 1) * (2 * N) + (5 * N + 1) * (2 * N)))
      (i := r) (j := 0) hr (by show 0 < 1; omega)
    have e1 : (attach_matrix (5 * N + 1) 1
      (v + (5 * N + 1) * (2 * N) + (5 * N + 1) * (2 * N))).value
        = v + (5 * N + 1) * (2 * N) + (5 * N + 1) * (2 * N) := rfl
    have e2 : (attach_matrix (5 * N + 1) 1
      (v + (5 * N + 1) * (2 * N) + (5 * N + 1) * (2 * N))).rows = 5 * N + 1 := rfl
    have e3 : (attach_matrix (5 * N + 1) 1
      (v + (5 * N + 1) * (2 * N) + (5 * N + 1) * (2 * N))).columns = 1 := rfl
    rw [e1, e2, e3] at hm
    show get_matrix_element h'
        (attach_matrix (5 * N + 1) 1 (v + (5 * N + 1) * (2 * N) + (5 * N + 1) * (2 * N))) r 0
      = get_matrix_element h1
        (attach_matrix (5 * N + 1) 1 (v + (5 * N + 1) * (2 * N) + (5 * N + 1) * (2 * N))) r 0
    rw [get_matrix_element_eq, get_matrix_element_eq, f3 _ (by rw [e4]; omega),
      f2 _ (by omega)]
  · intro c hc
    exact (lK c hc).symm
  · intro r c hr hc
    have hm := cell_mem (attach_matrix (5 * N + 1) (4 * N) v) (i := r) (j := c) hr hc
    have e1 : (attach_matrix (5 * N + 1) (4 * N) v).value = v := rfl
    have e2 : (attach_matrix (5 * N + 1) (4 * N) v).rows = 5 * N + 1 := rfl
    have e3 : (attach_matrix (5 * N + 1) (4 * N) v).columns = 4 * N := rfl
    rw [e1, e2, e3] at hm
    show get_matrix_element h' (attach_matrix (5 * N + 1) (4 * N) v) r c
      = get_matrix_element h2 (attach_matrix (5 * N + 1) (4 * N) v) r c
    rw [get_matrix_element_eq, get_matrix_element_eq, f3 _ (by rw [e4]; omega)]

end ViewDiscipline
section ViewDisciplineNoKCL
variable {α : Type} [LinearOrderedField α]

/-- The run of `make_bcv_no_KCL` block by block on the views of
`make_bcv_no_KCL_views`. -/
theorem make_bcv_no_KCL_phases (cfg : Config α) (m : LibM α) (t : Terms α)
    (paths : Nat → path α) (mem : memory α) (b : boundary) (V J : matrix) (N v : Nat)
    (hcfg : cfg.valid) (hz : ZonePaths paths b) (hN : N = num_boundary_points paths b)
    (hbcv : b.bcv = 0) (hbrk : mem.brk ≠ 0)
    (hVt : V.transpose = 0) (hVi : V.invert = 0) (hVr : V.rows = 2 * N) (hVc : V.columns = 1)
    (hVv : V.value + 2 * N ≤ mem.brk)
    (hJr : get_num_rows J = 4 * N) (hJc : get_num_columns J = 1)
    (hv : v = mem.brk + 4 * N) :
    ∃ hA hD h1 h2 h' BT,
      noKCL_phase1 cfg m t paths { b with bcv := mem.brk } N v V mem.cells
        = some (h1, (make_bcv_no_KCL_views N v).DA, V, (make_bcv_no_KCL_views N v).DAV)
      ∧ noKCL_phase2 cfg m t paths { b with bcv := mem.brk } N v
          (make_bcv_no_KCL_views N v).DAV h1
        = some (h2, (make_bcv_no_KCL_views N v).B, BT, (make_bcv_no_KCL_views N v).BTB,
            (make_bcv_no_KCL_views N v).BTDAV)
      ∧ KCL_solve cfg (make_bcv_no_KCL_views N v).B BT (make_bcv_no_KCL_views N v).BTB
          (make_bcv_no_KCL_views N v).BTDAV (make_bcv_no_KCL_views N v).DAV
          { J with value := mem.brk } h2
        = some (h', product_header { J with value := mem.brk } (4 * N) 1)
      ∧ make_bcv_no_KCL cfg m t paths mem b V J
        = some ({ cells := h', brk := mem.brk + get_num_rows J + no_KCL_arena_cells N },
            { b with bcv := mem.brk }, V, product_header { J with value := mem.brk } (4 * N) 1)
      ∧ make_voltage_geometry_matrix m t paths { b with bcv := mem.brk }
          (make_bcv_no_KCL_views N v).A mem.cells = some hA
      ∧ make_diagonal_matrix m paths { b with bcv := mem.brk }
          (make_bcv_no_KCL_views N v).D hA = some hD
      ∧ (∀ r, r < 5 * N →
          get_matrix_element h1 (make_bcv_no_KCL_views N v).DAV r 0
            = ∑ c in Finset.range (2 * N),
                (get_matrix_element hD (make_bcv_no_KCL_views N v).D r c
                  + get_matrix_element hD (make_bcv_no_KCL_views N v).A r c)
                * get_matrix_element mem.cells V c 0)
      ∧ (∀ r, r < 5 * N →
          get_matrix_element h' (make_bcv_no_KCL_views N v).DAV r 0
            = get_matrix_element h1 (make_bcv_no_KCL_views N v).DAV r 0)
      ∧ (∀ r c, r < 5 * N → c < 4 * N →
          get_matrix_element h' (make_bcv_no_KCL_views N v).B r c
            = get_matrix_element h2 (make_bcv_no_KCL_views N v).B r c) := by
  have hvne : v ≠ 0 := by omega
  have hsplit := arena_split_noKCL N
  have hVi' : V.invert ≠ 1 := by rw [hVi]; decide
  obtain ⟨hA, hD, h1, heA, heD, he1, c1, W1, _, _⟩ := noKCL_phase1_spec cfg m t paths
    { b with bcv := mem.brk } N v V mem.cells hcfg hz hN hvne hVt hVi' hVr hVc (by omega)
  obtain ⟨h2, he2, W2, _⟩ := noKCL_phase2_spec cfg m t paths { b with bcv := mem.brk } N v
    (v + 5 * N * (2 * N) + 5 * N * (2 * N)) h1 hz hN hvne
  obtain ⟨h4, h5, h', he3, g3, i3, r3, j3, f3⟩ := KCL_solve_spec cfg hcfg (5 * N) (4 * N) v
    (v + 5 * N * (2 * N) + 5 * N * (2 * N))
    (v + 5 * N * (2 * N) + 5 * N * (2 * N) + 5 * N * 1)
    (v + 5 * N * (2 * N) + 5 * N * (2 * N) + 5 * N * 1 + 4 * N * (4 * N))
    { J with value := mem.brk } h2 hbrk
    (by
      show 4 * N * 1 = get_num_rows J * get_num_columns J
      rw [hJr, hJc])
    (by show mem.brk + 4 * N ≤ v; omega) (by omega) (by omega) (by omega)
  have e4 : ({ J with value := mem.brk } : matrix).value = mem.brk := rfl
  refine ⟨hA, hD, h1, h2, h', _, he1, he2, he3, ?_, heA, heD, c1, ?_, ?_⟩
  · unfold make_bcv_no_KCL malloc
    simp only [if_pos hbcv, Option.bind_eq_bind, Option.pure_def]
    have hN' : num_boundary_points paths { b with bcv := mem.brk } = N := hN.symm
    have hvJ : mem.brk + get_num_rows J = v := by rw [hJr, hv]
    simp only [hN', hvJ, he1, he2, he3, Option.some_bind]
  · intro r hr
    have hm := cell_mem
      (attach_matrix (5 * N) 1 (v + 5 * N * (2 * N) + 5 * N * (2 * N)))
      (i := r) (j := 0) hr (by show 0 < 1; omega)
    have e1 : (attach_matrix (5 * N) 1
      (v + 5 * N * (2 * N) + 5 * N * (2 * N))).value
        = v + 5 * N * (2 * N) + 5 * N * (2 * N) := rfl
    have e2 : (attach_matrix (5 * N) 1
      (v + 5 * N * (2 * N) + 5 * N * (2 * N))).rows = 5 * N := rfl
    have e3 : (attach_matrix (5 * N) 1
      (v + 5 * N * (2 * N) + 5 * N * (2 * N))).columns = 1 := rfl
    rw [e1, e2, e3] at hm
    show get_matrix_element h'
        (attach_matrix (5 * N) 1 (v + 5 * N * (2 * N) + 5 * N * (2 * N))) r 0
      = get_matrix_element h1
        (attach_matrix (5 * N) 1 (v + 5 * N * (2 * N) + 5 * N * (2 * N))) r 0
    rw [get_matrix_element_eq, get_matrix_element_eq, f3 _ (by rw [e4]; omega),
      W2 _ (by omega)]
  · intro r c hr hc
    have hm := cell_mem (attach_matrix (5 * N) (4 * N) v) (i := r) (j := c) hr hc
    have e1 : (attach_matrix (5 * N) (4 * N) v).value = v := rfl
    have e2 : (attach_matrix (5 * N) (4 * N) v).rows = 5 * N := rfl
    have e3 : (attach_matrix (5 * N) (4 * N) v).columns = 4 * N := rfl
    rw [e1, e2, e3] at hm
    show get_matrix_element h' (attach_matrix (5 * N) (4 * N) v) r c
      = get_matrix_element h2 (attach_matrix (5 * N) (4 * N) v) r c
    rw [get_matrix_element_eq, get_matrix_element_eq, f3 _ (by rw [e4]; omega)]

end ViewDisciplineNoKCL

/-- C27. In `make_bcv_use_KCL` and `make_bcv_no_KCL`, for every `N` (the
hypotheses are those of a run on a well-formed zone whose `bcv` is not cached,
with `V` of `2N` entries stored before the allocator), on the views that the
two routines attach to their arenas at `v`:
the storage of `B` (which `BT` shares) is apart from `DAV`, `BTB` and `BTDAV`;
`BTB` is apart from `DAV` and `BTDAV`; `D` is apart from `A` and from `DAV`;
the views that share cells are `DA` with `A` (the same header, so element for
element the same layout), `B` with `A` and `D` (it starts where `A` starts and
ends where `D` ends) and, with KCL, `KCL` with `BTDAV` (the same cells); the
other pairs are apart. And in the run: `DAV = (D + A) V` is made from `A` and
`D` before `B` is written on them and is not touched afterwards; the KCL vector
is in the last row of `B` when PHASE 2 ends, that is before `KCL_solve`, the
only writer of `BTDAV`, starts from that memory; and `B` is not touched while
`BTB`, `BTDAV` and `J` are written. -/
theorem views_not_overwritten_while_needed {α : Type} [LinearOrderedField α] (cfg : Config α)
    (m : LibM α) (t : Terms α) (paths : Nat → path α) (mem : memory α) (b : boundary)
    (V J : matrix) (N v : Nat)
    (hcfg : cfg.valid) (hz : ZonePaths paths b) (hN : N = num_boundary_points paths b)
    (hbcv : b.bcv = 0) (hbrk : mem.brk ≠ 0)
    (hVt : V.transpose = 0) (hVi : V.invert = 0) (hVr : V.rows = 2 * N) (hVc : V.columns = 1)
    (hVv : V.value + 2 * N ≤ mem.brk)
    (hJr : get_num_rows J = 4 * N) (hJc : get_num_columns J = 1)
    (hv : v = mem.brk + 4 * N) :
    -- with KCL: the pairs that are apart
    (Apart (make_bcv_use_KCL_views N v).B (make_bcv_use_KCL_views N v).DAV
      ∧ Apart (make_bcv_use_KCL_views N v).B (make_bcv_use_KCL_views N v).BTB
      ∧ Apart (make_bcv_use_KCL_views N v).B (make_bcv_use_KCL_views N v).BTDAV
      ∧ Apart (make_bcv_use_KCL_views N v).BTB (make_bcv_use_KCL_views N v).DAV
      ∧ Apart (make_bcv_use_KCL_views N v).BTB (make_bcv_use_KCL_views N v).BTDAV
      ∧ Apart (make_bcv_use_KCL_views N v).D (make_bcv_use_KCL_views N v).A
      ∧ Apart (make_bcv_use_KCL_views N v).D (make_bcv_use_KCL_views N v).DAV
      ∧ Apart (make_bcv_use_KCL_views N v).D (make_bcv_use_KCL_views N v).BTB
      ∧ Apart (make_bcv_use_KCL_views N v).D (make_bcv_use_KCL_views N v).BTDAV
      ∧ Apart (make_bcv_use_KCL_views N v).A (make_bcv_use_KCL_views N v).DAV
      ∧ Apart (make_bcv_use_KCL_views N v).A (make_bcv_use_KCL_views N v).BTB
      ∧ Apart (make_bcv_use_KCL_views N v).A (make_bcv_use_KCL_views N v).BTDAV
      ∧ Apart (make_bcv_use_KCL_views N v).DAV (make_bcv_use_KCL_views N v).BTDAV)
    -- with KCL: the views that share cells
    ∧ ((make_bcv_use_KCL_views N v).DA = (make_bcv_use_KCL_views N v).A
      ∧ (make_bcv_use_KCL_views N v).BT = (make_bcv_use_KCL_views N v).B
      ∧ startof_matrix (make_bcv_use_KCL_views N v).B
          = startof_matrix (make_bcv_use_KCL_views N v).A
      ∧ after_matrix (make_bcv_use_KCL_views N v).B
          = after_matrix (make_bcv_use_KCL_views N v).D
      ∧ startof_matrix (make_bcv_use_KCL_views N v).KCL
          = startof_matrix (make_bcv_use_KCL_views N v).BTDAV
      ∧ after_matrix (make_bcv_use_KCL_views N v).KCL
          = after_matrix (make_bcv_use_KCL_views N v).BTDAV
      ∧ (∀ c, c < 4 * N → cell (make_bcv_use_KCL_views N v).KCL 0 c
          = cell (make_bcv_use_KCL_views N v).BTDAV c 0))
    -- without KCL: the pairs that are apart
    ∧ (Apart (make_bcv_no_KCL_views N v).B (make_bcv_no_KCL_views N v).DAV
      ∧ Apart (make_bcv_no_KCL_views N v).B (make_bcv_no_KCL_views N v).BTB
      ∧ Apart (make_bcv_no_KCL_views N v).B (make_bcv_no_KCL_views N v).BTDAV
      ∧ Apart (make_bcv_no_KCL_views N v).BTB (make_bcv_no_KCL_views N v).DAV
      ∧ Apart (make_bcv_no_KCL_views N v).BTB (make_bcv_no_KCL_views N v).BTDAV
      ∧ Apart (make_bcv_no_KCL_views N v).D (make_bcv_no_KCL_views N v).A
      ∧ Apart (make_bcv_no_KCL_views N v).D (make_bcv_no_KCL_views N v).DAV
      ∧ Apart (make_bcv_no_KCL_views N v).D (make_bcv_no_KCL_views N v).BTB
      ∧ Apart (make_bcv_no_KCL_views N v).D (make_bcv_no_KCL_views N v).BTDAV
      ∧ Apart (make_bcv_no_KCL_views N v).A (make_bcv_no_KCL_views N v).DAV
      ∧ Apart (make_bcv_no_KCL_views N v).A (make_bcv_no_KCL_views N v).BTB
      ∧ Apart (make_bcv_no_KCL_views N v).A (make_bcv_no_KCL_views N v).BTDAV
      ∧ Apart (make_bcv_no_KCL_views N v).DAV (make_bcv_no_KCL_views N v).BTDAV)
    -- without KCL: the views that share cells
    ∧ ((make_bcv_no_KCL_views N v).DA = (make_bcv_no_KCL_views N v).A
      ∧ (make_bcv_no_KCL_views N v).BT = (make_bcv_no_KCL_views N v).B
      ∧ startof_matrix (make_bcv_no_KCL_views N v).B
          = startof_matrix (make_bcv_no_KCL_views N v).A
      ∧ after_matrix (make_bcv_no_KCL_views N v).B
          = after_matrix (make_bcv_no_KCL_views N v).D)
    -- the run with KCL
    ∧ (∃ hD h1 hK h2 h' BT,
        KCL_phase1 cfg m t paths { b with bcv := mem.brk } N v V mem.cells
          = some (h1, (make_bcv_use_KCL_views N v).DA, V, (make_bcv_use_KCL_views N v).DAV)
        ∧ KCL_phase2 cfg m t paths { b with bcv := mem.brk } N v
            (make_bcv_use_KCL_views N v).DAV h1
          = some (h2, (make_bcv_use_KCL_views N v).B, BT, (make_bcv_use_KCL_views N v).BTB,
              (make_bcv_use_KCL_views N v).BTDAV)
        ∧ KCL_solve cfg (make_bcv_use_KCL_views N v).B BT (make_bcv_use_KCL_views N v).BTB
            (make_bcv_use_KCL_views N v).BTDAV (make_bcv_use_KCL_views N v).DAV
            { J with value := mem.brk } h2
          = some (h', product_header { J with value := mem.brk } (4 * N) 1)
        ∧ make_bcv_use_KCL cfg m t paths mem b V J
          = some ({ cells := h', brk := mem.brk + get_num_rows J + (9 * N + 1) * (4 * N + 1) },
              { b with bcv := mem.brk }, V,
              product_header { J with value := mem.brk } (4 * N) 1)
        ∧ (∀ r, r < 5 * N + 1 →
            get_matrix_element h1 (make_bcv_use_KCL_views N v).DAV r 0
              = ∑ c in Finset.range (2 * N),
                  (get_matrix_element hD (make_bcv_use_KCL_views N v).D r c
                    + get_matrix_element hD (make_bcv_use_KCL_views N v).A r c)
                  * get_matrix_element mem.cells V c 0)
        ∧ (∀ r, r < 5 * N + 1 →
            get_matrix_element h' (make_bcv_use_KCL_views N v).DAV r 0
              = get_matrix_element h1 (make_bcv_use_KCL_views N v).DAV r 0)
        ∧ (∀ c, c < 4 * N →
            get_matrix_element hK (make_bcv_use_KCL_views N v).KCL 0 c
              = get_matrix_element h2 (make_bcv_use_KCL_views N v).B (5 * N) c)
        ∧ (∀ r c, r < 5 * N + 1 → c < 4 * N →
            get_matrix_element h' (make_bcv_use_KCL_views N v).B r c
              = get_matrix_element h2 (make_bcv_use_KCL_views N v).B r c)
        ∧ (∃ hA hB0,
            KCL_assemble_A m t paths { b with bcv := mem.brk } N v mem.cells
              = some (hA, (make_bcv_use_KCL_views N v).A, (make_bcv_use_KCL_views N v).D)
            ∧ KCL_assemble_D m paths { b with bcv := mem.brk }
                (make_bcv_use_KCL_views N v).D hA = some hD
            ∧ make_current_geometry_matrix m t paths { b with bcv := mem.brk }
                (make_bcv_use_KCL_views N v).B h1 = some hB0
            ∧ make_kcl_geometry_vector m paths { b with bcv := mem.brk }
                (make_bcv_use_KCL_views N v).KCL hB0 = some hK))
    -- the run without KCL
    ∧ (∃ hA hD h1 h2 h' BT,
        noKCL_phase1 cfg m t paths { b with bcv := mem.brk } N v V mem.cells
          = some (h1, (make_bcv_no_KCL_views N v).DA, V, (make_bcv_no_KCL_views N v).DAV)
        ∧ noKCL_phase2 cfg m t paths { b with bcv := mem.brk } N v
            (make_bcv_no_KCL_views N v).DAV h1
          = some (h2, (make_bcv_no_KCL_views N v).B, BT, (make_bcv_no_KCL_views N v).BTB,
              (make_bcv_no_KCL_views N v).BTDAV)
        ∧ KCL_solve cfg (make_bcv_no_KCL_views N v).B BT (make_bcv_no_KCL_views N v).BTB
            (make_bcv_no_KCL_views N v).BTDAV (make_bcv_no_KCL_views N v).DAV
            { J with value := mem.brk } h2
          = some (h', product_header { J with value := mem.brk } (4 * N) 1)
        ∧ make_bcv_no_KCL cfg m t paths mem b V J
          = some ({ cells := h', brk := mem.brk + get_num_rows J + no_KCL_arena_cells N },
              { b with bcv := mem.brk }, V,
              product_header { J with value := mem.brk } (4 * N) 1)
        ∧ make_voltage_geometry_matrix m t paths { b with bcv := mem.brk }
            (make_bcv_no_KCL_views N v).A mem.cells = some hA
        ∧ make_diagonal_matrix m paths { b with bcv := mem.brk }
            (make_bcv_no_KCL_views N v).D hA = some hD
        ∧ (∀ r, r < 5 * N →
            get_matrix_element h1 (make_bcv_no_KCL_views N v).DAV r 0
              = ∑ c in Finset.range (2 * N),
                  (get_matrix_element hD (make_bcv_no_KCL_views N v).D r c
                    + get_matrix_element hD (make_bcv_no_KCL_views N v).A r c)
                  * get_matrix_element mem.cells V c 0)
        ∧ (∀ r, r < 5 * N →
            get_matrix_element h' (make_bcv_no_KCL_views N v).DAV r 0
              = get_matrix_element h1 (make_bcv_no_KCL_views N v).DAV r 0)
        ∧ (∀ r c, r < 5 * N → c < 4 * N →
            get_matrix_element h' (make_bcv_no_KCL_views N v).B r c
              = get_matrix_element h2 (make_bcv_no_KCL_views N v).B r c)) :=
  ⟨KCL_views_apart N v, KCL_views_shared N v, noKCL_views_apart N v, noKCL_views_shared N v,
    make_bcv_use_KCL_phases cfg m t paths mem b V J N v hcfg hz hN hbcv hbrk hVt hVi hVr hVc
      hVv hJr hJc hv,
    make_bcv_no_KCL_phases cfg m t paths mem b V J N v hcfg hz hN hbcv hbrk hVt hVi hVr hVc
      hVv hJr hJc hv⟩

theorem views_not_overwritten_while_needed_witness :
    exCfg.valid ∧ ZonePaths exPaths (exZone 1)
    ∧ Apart (make_bcv_use_KCL_views 4 25).B (make_bcv_use_KCL_views 4 25).BTDAV
    ∧ startof_matrix (make_bcv_use_KCL_views 4 25).KCL
        = startof_matrix (make_bcv_use_KCL_views 4 25).BTDAV
    ∧ (∃ mem' J', make_bcv_use_KCL exCfg exLibM exTerms exPaths exMemory (exZone 1)
        (attach_matrix 8 1 1) (attach_matrix 16 1 0)
        = some (mem', { exZone 1 with bcv := 9 }, attach_matrix 8 1 1, J'))
    ∧ (∃ mem' J', make_bcv_no_KCL exCfg exLibM exTerms exPaths exMemory (exZone 1)
        (attach_matrix 8 1 1) (attach_matrix 16 1 0)
        = some (mem', { exZone 1 with bcv := 9 }, attach_matrix 8 1 1, J')) := by
  have hcfg : exCfg.valid :=
    ⟨by decide, by decide, fun h => absurd rfl h, fun h => absurd h (by decide)⟩
  have hz : ZonePaths exPaths (exZone 1) := by
    intro j _
    exact ⟨by show (1 : Int) ≠ 0; decide, rfl⟩
  have key := views_not_overwritten_while_needed exCfg exLibM exTerms exPaths exMemory
    (exZone 1) (attach_matrix 8 1 1) (attach_matrix 16 1 0) 4 25 hcfg hz (by decide) rfl
    (by decide) rfl rfl rfl rfl (by decide) rfl rfl rfl
  obtain ⟨ha, hs, _, _, ⟨_, _, _, _, h1, _, _, _, _, he1, _⟩,
    ⟨_, _, _, _, h2, _, _, _, _, he2, _⟩⟩ := key
  exact ⟨hcfg, hz, ha.2.2.1, hs.2.2.2.2.1, ⟨_, _, he1⟩, ⟨_, _, he2⟩⟩

section StreamIndex
variable {α world : Type} [LinearOrderedField α]

/-- The counter `k` of `catchment_area` stays below `n_stream` while mouth
points remain, when there are at least two buffers. -/
theorem stream_index_le (n n_stream : Int) (hns : 2 ≤ n_stream) :
    ∀ i : Nat, 1 ≤ i → (i : Int) ≤ n → (stream_index n n_stream i : Int) ≤ n_stream - 1 := by
  intro i
  induction i with
  | zero => intro h; omega
  | succ i ih =>
    intro _ hin
    rcases Nat.eq_zero_or_pos i with h0 | hpos
    · subst h0
      show ((stream_index n n_stream 1 : Nat) : Int) ≤ n_stream - 1
      rw [stream_index]
      omega
    · have hi : (i : Int) ≤ n := by push_cast at hin; omega
      have ihi := ih hpos hi
      rw [stream_index_succ n n_stream i hpos]
      split
      · next hc =>
        push_cast
        by_contra hlt
        have hs : (stream_index n n_stream i : Int) = n_stream - 1 := by omega
        rw [hs] at hc
        have hin' : (i : Int) + 1 ≤ n := by push_cast at hin; exact hin
        have hpos' : (0 : Int) < n_stream - 1 := by omega
        have : (n_stream - 1) * n ≤ (n_stream - 1) * (i : Int) := by
          have := hc
          rw [ge_iff_le, mul_comm (i : Int)] at this
          exact this
        have := le_of_mul_le_mul_left this hpos'
        omega
      · exact ihi

theorem stream_index_step (n n_stream : Int) (i : Nat) (hi : 1 ≤ i) :
    stream_index n n_stream (i + 1) = stream_index n n_stream i
    ∨ stream_index n n_stream (i + 1) = stream_index n n_stream i + 1 := by
  rw [stream_index_succ n n_stream i hi]
  split
  · exact Or.inr rfl
  · exact Or.inl rfl

theorem stream_index_pos (n n_stream : Int) : ∀ i : Nat, 1 ≤ i → 1 ≤ stream_index n n_stream i := by
  intro i
  induction i with
  | zero => intro h; omega
  | succ i ih =>
    intro _
    rcases Nat.eq_zero_or_pos i with h0 | hpos
    · subst h0
      rw [stream_index]
    · rcases stream_index_step n n_stream i hpos with h | h <;> rw [h] <;>
        have := ih hpos <;> omega

/-- The calls of `catchment_area` for the mouth points `i .. i + cnt - 1` find
their buffer in an array of `n_stream` buffers. -/
theorem mouth_streamlines_checked (m : LibM α)
    (sl : world → coordinates α → Int → Int → α → Nat → bem_results α →
      Option (α × bem_results α × world))
    (mouth : Section α) (direction max_steps : Int) (step_size : α) (n_stream : Int)
    (hns : 2 ≤ n_stream) :
    ∀ (cnt i : Nat) (w : world) (R : bem_results α), ((i + cnt : Nat) : Int) ≤ mouth.n →
      mouth_streamlines m (streamline_checked n_stream sl) mouth direction max_steps step_size
          n_stream i cnt w R
        = mouth_streamlines m sl mouth direction max_steps step_size n_stream i cnt w R := by
  intro cnt
  induction cnt with
  | zero =>
    intro i w R _
    rw [mouth_streamlines, mouth_streamlines]
  | succ cnt ih =>
    intro i w R hic
    rw [mouth_streamlines, mouth_streamlines]
    have hk : (stream_index (mouth.n - 1) n_stream i : Int) < n_stream := by
      rcases Nat.eq_zero_or_pos i with h0 | hpos
      · subst h0
        rw [stream_index]
        push_cast
        omega
      · have := stream_index_le (mouth.n - 1) n_stream hns i hpos (by push_cast at hic; omega)
        omega
    have hcall : streamline_checked n_stream sl w (xy_section mouth i) direction max_steps
        step_size (stream_index (mouth.n - 1) n_stream i) R
        = sl w (xy_section mouth i) direction max_steps step_size
          (stream_index (mouth.n - 1) n_stream i) R := by
      unfold streamline_checked
      rw [if_pos hk]
    rw [hcall]
    congr 1
    funext r
    rw [ih (i + 1) r.2.2 r.2.1 (by push_cast at hic ⊢; omega)]

end StreamIndex

section StreamOverrun
variable {α world : Type} [LinearOrderedField α]

/-- C24 (code bug). For every mouth with `n >= 2` points, whatever `n_stream`
is, `catchment_area` hands `streamline[0]` to the call of `streamline_loop` for
the first mouth point and `streamline[1]` to the call for the second
(`stream_index` is the index used for each point, as the second part states for
`n_stream = 1`). With `n_stream = 1` the index 1 is outside `0 .. n_stream - 1`:
the run in which every call is checked against an array of `n_stream = 1` path
buffers ends the program, whatever `streamline_loop` does. -/
theorem streamline_index_overrun (m : LibM α)
    (streamline_loop : world → coordinates α → Int → Int → α → Nat → bem_results α →
      Option (α × bem_results α × world))
    (w : world) (mouth : Section α) (direction max_steps : Int) (step_size : α)
    (R : bem_results α) (hn : 2 ≤ mouth.n) :
    (∀ n_stream : Int, stream_index (mouth.n - 1) n_stream 0 = 0
      ∧ stream_index (mouth.n - 1) n_stream 1 = 1)
    ∧ catchment_area m streamline_loop w mouth direction max_steps step_size 1 R
      = (mouth_streamlines m streamline_loop mouth direction max_steps step_size 1
          0 mouth.n.toNat w R).map (fun r => (trapezoid_area mouth.step r.1, r.2.2))
    ∧ catchment_area m (streamline_checked 1 streamline_loop) w mouth direction max_steps
        step_size 1 R = none := by
  refine ⟨fun n_stream => ⟨by rw [stream_index], by rw [stream_index]⟩,
    catchment_area_eq m streamline_loop w mouth direction max_steps step_size 1 R (by omega), ?_⟩
  rw [catchment_area_eq m _ w mouth direction max_steps step_size 1 R (by omega)]
  obtain ⟨cnt, hcnt⟩ : ∃ cnt, mouth.n.toNat = cnt + 2 := ⟨mouth.n.toNat - 2, by omega⟩
  rw [hcnt, mouth_streamlines]
  cases h0 : streamline_checked 1 streamline_loop w (xy_section mouth ((0 : Nat) : Int)) direction
      max_steps step_size (stream_index (mouth.n - 1) 1 0) R with
  | none => rfl
  | some r =>
    rw [Option.some_bind, mouth_streamlines]
    have h1 : stream_index (mouth.n - 1) 1 (0 + 1) = 1 := by rw [stream_index]
    rw [h1]
    have hnone : streamline_checked 1 streamline_loop r.2.2 (xy_section mouth ((0 + 1 : Nat) : Int))
        direction max_steps step_size 1 r.2.1 = none := by
      unfold streamline_checked
      rw [if_neg (by decide)]
    rw [hnone]
    rfl

end StreamOverrun

set_option maxRecDepth 100000 in
theorem streamline_index_overrun_witness :
    2 ≤ (put_sectionV2 exLibM 1 ((0 : ℚ), 0) (1, 0)).n
    ∧ catchment_area exLibM exStreamline [] (put_sectionV2 exLibM 1 ((0 : ℚ), 0) (1, 0))
        1 (-1) 1 1 exResults
      = some (3 / 2, [(((0 : ℚ), (0 : ℚ)), 0), ((1, 0), 1)])
    ∧ catchment_area exLibM (streamline_checked 1 exStreamline) []
        (put_sectionV2 exLibM 1 ((0 : ℚ), 0) (1, 0)) 1 (-1) 1 1 exResults = none :=
  ⟨by decide, by decide!,
    (streamline_index_overrun exLibM exStreamline [] (put_sectionV2 exLibM 1 ((0 : ℚ), 0) (1, 0))
      1 (-1) 1 exResults (by decide)).2.2⟩

/-- The index handed to `streamline_loop` when there are at least two buffers:
for every mouth with `n >= 2` points and every `n_stream >= 2`, every index `k`
with which `catchment_area` passes `streamline[k]` satisfies
`0 <= k <= n_stream - 1`. The index for mouth point `i` is
`stream_index (n - 1) n_stream i`, which is 0 for `i = 0`, at least 1
afterwards, at most `n_stream - 1` for `i <= n - 1`, and from one point to the
next it stays or grows by one (a buffer whose index stays is overwritten by the
next call); and running `catchment_area` with every call checked against an
array of `n_stream` buffers gives the same result as running it unchecked. -/
theorem streamline_index_bounded {α world : Type} [LinearOrderedField α] (m : LibM α)
    (streamline_loop : world → coordinates α → Int → Int → α → Nat → bem_results α →
      Option (α × bem_results α × world))
    (w : world) (mouth : Section α) (direction max_steps : Int) (step_size : α)
    (n_stream : Int) (R : bem_results α) (hn : 2 ≤ mouth.n) (hns : 2 ≤ n_stream) :
    catchment_area m (streamline_checked n_stream streamline_loop) w mouth direction max_steps
        step_size n_stream R
      = catchment_area m streamline_loop w mouth direction max_steps step_size n_stream R
    ∧ catchment_area m streamline_loop w mouth direction max_steps step_size n_stream R
      = (mouth_streamlines m streamline_loop mouth direction max_steps step_size n_stream
          0 mouth.n.toNat w R).map (fun r => (trapezoid_area mouth.step r.1, r.2.2))
    ∧ stream_index (mouth.n - 1) n_stream 0 = 0
    ∧ (∀ i : Nat, (i : Int) ≤ mouth.n - 1 →
        (stream_index (mouth.n - 1) n_stream i : Int) ≤ n_stream - 1)
    ∧ (∀ i : Nat, 1 ≤ i → 1 ≤ stream_index (mouth.n - 1) n_stream i)
    ∧ (∀ i : Nat, 1 ≤ i →
        stream_index (mouth.n - 1) n_stream (i + 1) = stream_index (mouth.n - 1) n_stream i
        ∨ stream_index (mouth.n - 1) n_stream (i + 1)
            = stream_index (mouth.n - 1) n_stream i + 1) := by
  refine ⟨?_, catchment_area_eq m streamline_loop w mouth direction max_steps step_size
    n_stream R (by omega), ?_, ?_, stream_index_pos _ _, stream_index_step _ _⟩
  · rw [catchment_area_eq m _ w mouth direction max_steps step_size n_stream R (by omega),
      catchment_area_eq m _ w mouth direction max_steps step_size n_stream R (by omega),
      mouth_streamlines_checked m streamline_loop mouth direction max_steps step_size n_stream
        hns mouth.n.toNat 0 w R (by rw [Nat.zero_add, Int.toNat_of_nonneg (by omega)])]
  · rw [stream_index]
  · intro i hi
    rcases Nat.eq_zero_or_pos i with h0 | hpos
    · subst h0
      rw [stream_index]
      push_cast
      omega
    · exact stream_index_le (mouth.n - 1) n_stream hns i hpos hi

set_option maxRecDepth 100000 in
theorem streamline_index_bounded_witness :
    catchment_area exLibM (streamline_checked 2 exStreamline) []
        (put_sectionV2 exLibM 3 ((0 : ℚ), 0) (3, 0)) 1 (-1) 1 2 exResults
      = catchment_area exLibM exStreamline [] (put_sectionV2 exLibM 3 ((0 : ℚ), 0) (3, 0))
          1 (-1) 1 2 exResults
    ∧ catchment_area exLibM exStreamline [] (put_sectionV2 exLibM 3 ((0 : ℚ), 0) (3, 0))
          1 (-1) 1 2 exResults
      = some (15 / 2, [(((0 : ℚ), (0 : ℚ)), 0), ((1, 0), 1), ((2, 0), 1), ((3, 0), 1)]) :=
  ⟨(streamline_index_bounded exLibM exStreamline []
      (put_sectionV2 exLibM 3 ((0 : ℚ), 0) (3, 0)) 1 (-1) 1 2 exResults (by decide)
      (by decide)).1, by decide!⟩

section CosSquared
variable {α : Type} [LinearOrderedField α]

/-- Cauchy-Schwarz for the projection of the mouth direction on the gradient:
with `dx^2 + dy^2 = dw^2`, `dw` not zero and a gradient that is not zero,
`((dx gx + dy gy)/dw)^2 / (gx^2 + gy^2)` lies in `[0, 1]`. -/
theorem cos_sq_le_one (dx dy dw gx gy : α) (hdw : dx * dx + dy * dy = dw * dw) (h0 : dw ≠ 0)
    (hg : gx ≠ 0 ∨ gy ≠ 0) :
    0 ≤ (dx * gx + dy * gy) / dw * ((dx * gx + dy * gy) / dw) / (gx * gx + gy * gy)
    ∧ (dx * gx + dy * gy) / dw * ((dx * gx + dy * gy) / dw) / (gx * gx + gy * gy) ≤ 1 := by
  have hgpos : 0 < gx * gx + gy * gy := by
    rcases hg with h | h
    · have := mul_self_pos.mpr h
      have := mul_self_nonneg gy
      linarith
    · have := mul_self_pos.mpr h
      have := mul_self_nonneg gx
      linarith
  have hwpos : 0 < dw * dw := mul_self_pos.mpr h0
  refine ⟨div_nonneg (mul_self_nonneg _) (le_of_lt hgpos), ?_⟩
  rw [div_le_one hgpos, div_mul_div_comm, div_le_iff₀ hwpos]
  have hcs : (dx * gx + dy * gy) * (dx * gx + dy * gy)
      ≤ (gx * gx + gy * gy) * (dx * dx + dy * dy) := by
    nlinarith [mul_self_nonneg (dx * gy - dy * gx)]
  rw [← hdw]
  exact hcs

/-- In a section whose step is the length of the mouth divided by the number
of steps, the increments `dx`, `dy` of `catchment_area` satisfy
`dx^2 + dy^2 = dw^2`, and `dw` is not zero when the end points differ. -/
theorem mouth_step_sq (m : LibM α) (mouth : Section α)
    (hn : ((mouth.n - 1 : Int) : α) ≠ 0)
    (hstep : mouth.step
      = m.sqrt ((mouth.P2.1 - mouth.P1.1) * (mouth.P2.1 - mouth.P1.1)
          + (mouth.P2.2 - mouth.P1.2) * (mouth.P2.2 - mouth.P1.2)) / ((mouth.n - 1 : Int) : α))
    (hdist : mouth.P1 ≠ mouth.P2)
    (hsqrt : m.sqrt ((mouth.P2.1 - mouth.P1.1) * (mouth.P2.1 - mouth.P1.1)
          + (mouth.P2.2 - mouth.P1.2) * (mouth.P2.2 - mouth.P1.2))
        * m.sqrt ((mouth.P2.1 - mouth.P1.1) * (mouth.P2.1 - mouth.P1.1)
          + (mouth.P2.2 - mouth.P1.2) * (mouth.P2.2 - mouth.P1.2))
      = (mouth.P2.1 - mouth.P1.1) * (mouth.P2.1 - mouth.P1.1)
          + (mouth.P2.2 - mouth.P1.2) * (mouth.P2.2 - mouth.P1.2)) :
    (mouth.P2.1 - mouth.P1.1) / ((mouth.n - 1 : Int) : α)
        * ((mouth.P2.1 - mouth.P1.1) / ((mouth.n - 1 : Int) : α))
      + (mouth.P2.2 - mouth.P1.2) / ((mouth.n - 1 : Int) : α)
        * ((mouth.P2.2 - mouth.P1.2) / ((mouth.n - 1 : Int) : α))
      = mouth.step * mouth.step
    ∧ mouth.step ≠ 0 := by
  have hs : (mouth.P2.1 - mouth.P1.1) * (mouth.P2.1 - mouth.P1.1)
      + (mouth.P2.2 - mouth.P1.2) * (mouth.P2.2 - mouth.P1.2) ≠ 0 := by
    intro h0
    have h1 := mul_self_nonneg (mouth.P2.1 - mouth.P1.1)
    have h2 := mul_self_nonneg (mouth.P2.2 - mouth.P1.2)
    have e1 : (mouth.P2.1 - mouth.P1.1) * (mouth.P2.1 - mouth.P1.1) = 0 := by linarith
    have e2 : (mouth.P2.2 - mouth.P1.2) * (mouth.P2.2 - mouth.P1.2) = 0 := by linarith
    have f1 := mul_self_eq_zero.mp e1
    have f2 := mul_self_eq_zero.mp e2
    apply hdist
    exact Prod.ext (by linarith) (by linarith)
  have hr : m.sqrt ((mouth.P2.1 - mouth.P1.1) * (mouth.P2.1 - mouth.P1.1)
      + (mouth.P2.2 - mouth.P1.2) * (mouth.P2.2 - mouth.P1.2)) ≠ 0 := by
    intro h0
    rw [h0, mul_zero] at hsqrt
    exact hs hsqrt.symm
  refine ⟨?_, ?_⟩
  · rw [hstep, div_mul_div_comm, div_mul_div_comm, div_mul_div_comm, hsqrt, ← add_div]
  · rw [hstep]
    exact div_ne_zero hr hn

end CosSquared

/-- C29. In `catchment_area`, for every section built by `put_section` (with
`i2 > i1`) or `put_sectionV2` (with `Nseg >= 1`) whose end points differ, with
`sqrt` squaring to its argument at the squared length of the mouth, and for
every gradient `dV` that is not zero: `dx^2 + dy^2 = dw^2`, so the quantity
`cos^2 = ((dx dVx + dy dVy)/dw)^2 / (dVx^2 + dVy^2)` computed before the clip
lies in `[0, 1]`; the clip to 1 leaves it as it is, and the argument
`1 - cos^2` of `sqrt` is not negative. -/
theorem cos_sq_in_unit_interval {α : Type} [LinearOrderedField α] (m : LibM α)
    (mouth : Section α) (dV : coordinates α)
    (hsec : (∃ i1 first i2 last, i1 < i2 ∧ mouth = put_section m i1 first i2 last)
      ∨ (∃ Nseg PA PB, 1 ≤ Nseg ∧ mouth = put_sectionV2 m Nseg PA PB))
    (hdist : mouth.P1 ≠ mouth.P2)
    (hsqrt : m.sqrt ((mouth.P2.1 - mouth.P1.1) * (mouth.P2.1 - mouth.P1.1)
          + (mouth.P2.2 - mouth.P1.2) * (mouth.P2.2 - mouth.P1.2))
        * m.sqrt ((mouth.P2.1 - mouth.P1.1) * (mouth.P2.1 - mouth.P1.1)
          + (mouth.P2.2 - mouth.P1.2) * (mouth.P2.2 - mouth.P1.2))
      = (mouth.P2.1 - mouth.P1.1) * (mouth.P2.1 - mouth.P1.1)
          + (mouth.P2.2 - mouth.P1.2) * (mouth.P2.2 - mouth.P1.2))
    (hgrad : dV ≠ (0, 0)) :
    (mouth.P2.1 - mouth.P1.1) / ((mouth.n - 1 : Int) : α)
        * ((mouth.P2.1 - mouth.P1.1) / ((mouth.n - 1 : Int) : α))
      + (mouth.P2.2 - mouth.P1.2) / ((mouth.n - 1 : Int) : α)
        * ((mouth.P2.2 - mouth.P1.2) / ((mouth.n - 1 : Int) : α))
      = mouth.step * mouth.step
    ∧ 0 ≤ ((mouth.P2.1 - mouth.P1.1) / ((mouth.n - 1 : Int) : α) * dV.1
            + (mouth.P2.2 - mouth.P1.2) / ((mouth.n - 1 : Int) : α) * dV.2) / mouth.step
          * (((mouth.P2.1 - mouth.P1.1) / ((mouth.n - 1 : Int) : α) * dV.1
            + (mouth.P2.2 - mouth.P1.2) / ((mouth.n - 1 : Int) : α) * dV.2) / mouth.step)
          / (dV.1 * dV.1 + dV.2 * dV.2)
    ∧ ((mouth.P2.1 - mouth.P1.1) / ((mouth.n - 1 : Int) : α) * dV.1
            + (mouth.P2.2 - mouth.P1.2) / ((mouth.n - 1 : Int) : α) * dV.2) / mouth.step
          * (((mouth.P2.1 - mouth.P1.1) / ((mouth.n - 1 : Int) : α) * dV.1
            + (mouth.P2.2 - mouth.P1.2) / ((mouth.n - 1 : Int) : α) * dV.2) / mouth.step)
          / (dV.1 * dV.1 + dV.2 * dV.2) ≤ 1
    ∧ 0 ≤ 1 - ((mouth.P2.1 - mouth.P1.1) / ((mouth.n - 1 : Int) : α) * dV.1
            + (mouth.P2.2 - mouth.P1.2) / ((mouth.n - 1 : Int) : α) * dV.2) / mouth.step
          * (((mouth.P2.1 - mouth.P1.1) / ((mouth.n - 1 : Int) : α) * dV.1
            + (mouth.P2.2 - mouth.P1.2) / ((mouth.n - 1 : Int) : α) * dV.2) / mouth.step)
          / (dV.1 * dV.1 + dV.2 * dV.2)
    ∧ sin_theta m mouth dV
      = m.sqrt (1 - ((mouth.P2.1 - mouth.P1.1) / ((mouth.n - 1 : Int) : α) * dV.1
            + (mouth.P2.2 - mouth.P1.2) / ((mouth.n - 1 : Int) : α) * dV.2) / mouth.step
          * (((mouth.P2.1 - mouth.P1.1) / ((mouth.n - 1 : Int) : α) * dV.1
            + (mouth.P2.2 - mouth.P1.2) / ((mouth.n - 1 : Int) : α) * dV.2) / mouth.step)
          / (dV.1 * dV.1 + dV.2 * dV.2)) := by
  have hn : ((mouth.n - 1 : Int) : α) ≠ 0
      ∧ mouth.step = m.sqrt ((mouth.P2.1 - mouth.P1.1) * (mouth.P2.1 - mouth.P1.1)
          + (mouth.P2.2 - mouth.P1.2) * (mouth.P2.2 - mouth.P1.2))
            / ((mouth.n - 1 : Int) : α) := by
    rcases hsec with ⟨i1, first, i2, last, hi, rfl⟩ | ⟨Nseg, PA, PB, hN, rfl⟩
    · have e : (put_section m i1 first i2 last).n - 1 = i2 - i1 := by
        show i2 - i1 + 1 - 1 = i2 - i1
        omega
      rw [e]
      refine ⟨?_, rfl⟩
      have : i2 - i1 ≠ 0 := by omega
      exact_mod_cast this
    · have e : (put_sectionV2 m Nseg PA PB).n - 1 = Nseg := by
        show Nseg + 1 - 1 = Nseg
        omega
      rw [e]
      refine ⟨?_, rfl⟩
      have : Nseg ≠ 0 := by omega
      exact_mod_cast this
  obtain ⟨hsq, hw⟩ := mouth_step_sq m mouth hn.1 hn.2 hdist hsqrt
  have hg : dV.1 ≠ 0 ∨ dV.2 ≠ 0 := by
    by_contra hc
    push_neg at hc
    exact hgrad (Prod.ext hc.1 hc.2)
  obtain ⟨c0, c1⟩ := cos_sq_le_one _ _ _ dV.1 dV.2 hsq hw hg
  refine ⟨hsq, c0, c1, by linarith, ?_⟩
  unfold sin_theta
  simp only []
  rw [min_eq_right c1]

theorem cos_sq_in_unit_interval_witness :
    (put_sectionV2 exLibM 3 ((0 : ℚ), 0) (3, 0)).step = 1
    ∧ sin_theta exLibM (put_sectionV2 exLibM 3 ((0 : ℚ), 0) (3, 0)) ((3 : ℚ), 4)
      = exLibM.sqrt (1 - (((3 : ℚ) - 0) / ((3 + 1 - 1 : Int) : ℚ) * 3
            + (0 - 0) / ((3 + 1 - 1 : Int) : ℚ) * 4)
              / (put_sectionV2 exLibM 3 ((0 : ℚ), 0) (3, 0)).step
          * ((((3 : ℚ) - 0) / ((3 + 1 - 1 : Int) : ℚ) * 3
            + (0 - 0) / ((3 + 1 - 1 : Int) : ℚ) * 4)
              / (put_sectionV2 exLibM 3 ((0 : ℚ), 0) (3, 0)).step)
          / (3 * 3 + 4 * 4)) :=
  ⟨by decide!,
    (cos_sq_in_unit_interval exLibM (put_sectionV2 exLibM 3 ((0 : ℚ), 0) (3, 0)) ((3 : ℚ), 4)
      (Or.inr ⟨3, (0, 0), (3, 0), by decide, rfl⟩) (by decide) (by decide!) (by decide)).2.2.2.2⟩

section CopyMatrix
variable {α : Type} [Field α]

/-- `copy_matrix(a, x)` into a different matrix `x` whose storage is apart from
that of `a`: after the pending inversion of `a`, if any, has left the memory
`h1` and the header `a1`, the entries of `a1` are copied into `x`, which becomes
untransposed with the logical shape of `a1`; nothing else is written. -/
theorem copy_matrix_spec (cfg : Config α) (h h1 : Nat → α) (a a1 x : matrix)
    (hpre : (if a.invert = 1 then invert_this_matrix cfg h a else some (h, a)) = some (h1, a1))
    (hr : a1.rows = a.rows) (hc : a1.columns = a.columns) (hv : a1.value = a.value)
    (hsize : a.rows * a.columns = x.rows * x.columns) (hxv : x.value ≠ 0) (hax : Apart a x) :
    ∃ h', copy_matrix cfg h a (some x)
        = some (h', a1, some (product_header x (get_num_rows a1) (get_num_columns a1)))
      ∧ (∀ i j, i < get_num_rows a1 → j < get_num_columns a1 →
          get_matrix_element h' (product_header x (get_num_rows a1) (get_num_columns a1)) i j
            = get_matrix_element h1 a1 i j)
      ∧ Within x.value (after_matrix x) h1 h' := by
  have hRC : get_num_rows a1 * get_num_columns a1 = x.rows * x.columns := by
    unfold get_num_rows get_num_columns
    by_cases ht : a1.transpose = 0
    · simp only [ht, if_true, hr, hc, hsize]
    · simp only [ht, if_false, hr, hc, ← hsize, Nat.mul_comm]
  have hcx : ∀ i j, cell (product_header x (get_num_rows a1) (get_num_columns a1)) i j
      = x.value + (j * get_num_rows a1 + i) := by
    intro i j
    unfold cell product_header
    simp
  have hfill := forN2_fill (fun p q => x.value + (p * get_num_rows a1 + q))
    (fun g p q => g (cell a1 q p)) (get_num_columns a1) (get_num_rows a1) h1
    (by
      intro p q p' q' hp hq hp' hq' he
      have := idx_inj (r := get_num_rows a1) (i := q) (j := p) hq hq'
        (Nat.add_left_cancel he)
      omega)
    (by
      intro p q hp hq g hg
      beta_reduce
      apply hg
      intro p' q' hp' hq' _ he
      beta_reduce at he
      have h1' := cell_mem a1 (i := q) (j := p) hq hp
      have h2 := idx_lt (r := get_num_rows a1) (c := get_num_columns a1) (i := q') (j := p')
        hq' hp'
      unfold Apart after_matrix at hax
      rw [hv, hr, hc, hsize] at h1'
      rw [hsize] at hax
      rw [hRC] at h2
      omega)
  have hdef : copy_matrix cfg h a (some x)
      = some (forN (fun p g => forN (fun q g =>
          Function.update g (x.value + (p * get_num_rows a1 + q)) (g (cell a1 q p)))
            0 (get_num_rows a1) g) 0 (get_num_columns a1) h1, a1,
          some (product_header x (get_num_rows a1) (get_num_columns a1))) := by
    have hput : ∀ (g' : Nat → α) (p q : Nat),
        put_matrix_element g'
          { transpose := 0, invert := 0, rows := get_num_rows a1, columns := get_num_columns a1,
            value := x.value } q p (get_matrix_element g' a1 q p)
        = Function.update g' (x.value + (p * get_num_rows a1 + q)) (g' (cell a1 q p)) := by
      intro g' p q
      rw [put_matrix_element_eq, get_matrix_element_eq]
      have := hcx q p
      unfold product_header at this
      rw [this]
    unfold copy_matrix check_size check_memory
    by_cases hai : a.invert = 1
    · rw [if_pos hai] at hpre
      simp only [Option.getD_some, hsize, ne_eq, not_true_eq_false, if_false, if_neg hxv,
        Option.bind_eq_bind, Option.some_bind, Option.pure_def, if_pos hai, hpre, hput]
      rfl
    · rw [if_neg hai] at hpre
      have e1 : h1 = h := (congrArg Prod.fst (Option.some.inj hpre)).symm
      have e2 : a1 = a := (congrArg Prod.snd (Option.some.inj hpre)).symm
      subst e1
      subst e2
      simp only [Option.getD_some, hsize, ne_eq, not_true_eq_false, if_false, if_neg hxv,
        Option.bind_eq_bind, Option.some_bind, Option.pure_def, if_neg hai, hput]
      rfl
  refine ⟨_, hdef, ?_, ?_⟩
  · intro i j hi hj
    rw [get_matrix_element_eq, get_matrix_element_eq, hcx]
    exact hfill.1 j i hj hi
  · intro addr haddr
    apply hfill.2
    intro p q hp hq he
    beta_reduce at he
    have h2 := idx_lt (r := get_num_rows a1) (c := get_num_columns a1) (i := q) (j := p) hq hp
    rw [hRC] at h2
    unfold after_matrix at haddr
    omega

end CopyMatrix
section ToggledFlags

theorem get_toggled_transpose {α : Type} (g : Nat → α) (a : matrix)
    (ht : a.transpose = 0 ∨ a.transpose = 1) (i j : Nat) :
    get_matrix_element g { a with transpose := 1 - a.transpose } i j
      = get_matrix_element g a j i := by
  unfold get_matrix_element
  rcases ht with h | h <;> simp [h]

theorem shape_toggled_transpose (a : matrix) (ht : a.transpose = 0 ∨ a.transpose = 1) :
    get_num_rows { a with transpose := 1 - a.transpose } = get_num_columns a
    ∧ get_num_columns { a with transpose := 1 - a.transpose } = get_num_rows a := by
  unfold get_num_rows get_num_columns
  rcases ht with h | h <;> simp [h]

theorem toggle_twice (a : matrix) :
    ({ { a with transpose := 1 - a.transpose } with
        transpose := 1 - ({ a with transpose := 1 - a.transpose } : matrix).transpose } : matrix)
      = a
    ∧ ({ { a with invert := 1 - a.invert } with
        invert := 1 - ({ a with invert := 1 - a.invert } : matrix).invert } : matrix) = a := by
  constructor
  · show ({ a with transpose := 1 - (1 - a.transpose) } : matrix) = a
    rw [sub_sub_cancel]
  · show ({ a with invert := 1 - (1 - a.invert) } : matrix) = a
    rw [sub_sub_cancel]

end ToggledFlags

section InvertTranspose
variable {α : Type} [Field α]

/-- `invert_matrix(a, x)` into a different matrix `x`, storage apart, on a square
`a`: the call returns; afterwards the headers of `a` and `x` have the invert
flag 0, and both hold, element for element, what the header of `a` with its
invert flag toggled denoted before the call. With flag 0 before, the array of
`a` has been inverted in place; with flag 1 before, the array is untouched and
only the flag is cleared. -/
theorem invert_matrix_distinct (cfg : Config α) (h : Nat → α) (a x : matrix) (n : Nat)
    (hcfg : cfg.valid) (hav : a.value ≠ 0) (hxv : x.value ≠ 0)
    (hr : a.rows = n) (hc : a.columns = n)
    (hsize : a.rows * a.columns = x.rows * x.columns) (hax : Apart a x)
    (hflag : a.invert = 0 ∨ a.invert = 1) :
    ∃ h' M, invert_matrix cfg h a (some x)
        = some (h', { a with invert := 0 }, some (product_header x n n))
      ∧ denoted cfg h { a with invert := 1 - a.invert } = some M
      ∧ (∀ i j, i < n → j < n → get_matrix_element h' { a with invert := 0 } i j = M i j)
      ∧ (∀ i j, i < n → j < n → get_matrix_element h' (product_header x n n) i j = M i j)
      ∧ (a.invert = 1 → Within x.value (after_matrix x) h h')
      ∧ (a.invert = 0 → ∃ hi, invert_this_matrix cfg h { a with invert := 1 }
            = some (hi, { a with invert := 0 })
          ∧ Within a.value (after_matrix a) h hi ∧ Within x.value (after_matrix x) hi h') := by
  have hrows : ∀ (f : Int), get_num_rows { a with invert := f } = n := by
    intro f; unfold get_num_rows; by_cases ht : a.transpose = 0 <;> simp [ht, hr, hc]
  have hcols : ∀ (f : Int), get_num_columns { a with invert := f } = n := by
    intro f; unfold get_num_columns; by_cases ht : a.transpose = 0 <;> simp [ht, hr, hc]
  have hshape : get_num_rows a = get_num_columns a := by
    have h1 := hrows a.invert
    have h2 := hcols a.invert
    have e : ({ a with invert := a.invert } : matrix) = a := rfl
    rw [e] at h1 h2
    rw [h1, h2]
  have hmem : ∀ (g : Nat → α) (i j : Nat), i < n → j < n →
      a.value ≤ cell { a with invert := 0 } i j
      ∧ cell { a with invert := 0 } i j < a.value + a.rows * a.columns := by
    intro g i j hi hj
    exact cell_mem { a with invert := 0 } (i := i) (j := j) (by rw [hrows]; exact hi)
      (by rw [hcols]; exact hj)
  have hdef : invert_matrix cfg h a (some x)
      = copy_matrix cfg h { a with invert := 1 - a.invert } (some x) := by
    unfold invert_matrix check_size check_invert_shape check_memory
    simp only [Option.getD_some, hsize, ne_eq, not_true_eq_false, if_false, if_neg hxv, hshape,
      Option.bind_eq_bind, Option.some_bind]
  rcases hflag with h0 | h1
  · -- flag 0: the array is inverted in place, then copied
    have e1 : ({ a with invert := 1 - a.invert } : matrix) = { a with invert := 1 } := by
      rw [h0]; rfl
    obtain ⟨hi, hei, Wi⟩ := invert_this_matrix_within cfg h { a with invert := 1 } n hcfg hav hr hc
    have e0 : ({ ({ a with invert := 1 } : matrix) with invert := 0 } : matrix)
        = { a with invert := 0 } := rfl
    rw [e0] at hei
    obtain ⟨h', he, hx, Wx⟩ := copy_matrix_spec cfg h hi { a with invert := 1 }
      { a with invert := 0 } x (by rw [if_pos rfl]; exact hei) rfl rfl rfl hsize hxv hax
    rw [hrows, hcols] at he hx
    refine ⟨h', fun i j => get_matrix_element hi { a with invert := 0 } i j, ?_, ?_, ?_, hx, ?_, ?_⟩
    · rw [hdef, e1, he]
    · rw [e1]
      unfold denoted
      rw [if_pos rfl, hei]
      rfl
    · intro i j hi' hj'
      beta_reduce
      rw [get_matrix_element_eq, get_matrix_element_eq]
      have := hmem h i j hi' hj'
      apply Wx
      unfold Apart after_matrix at hax
      unfold after_matrix
      omega
    · intro hc1
      rw [h0] at hc1
      exact absurd hc1 (by decide)
    · intro _
      exact ⟨hi, hei, Wi, Wx⟩
  · -- flag 1: the flag is cleared and the array is copied as it is
    have e1 : ({ a with invert := 1 - a.invert } : matrix) = { a with invert := 0 } := by
      rw [h1]; rfl
    obtain ⟨h', he, hx, Wx⟩ := copy_matrix_spec cfg h h { a with invert := 0 }
      { a with invert := 0 } x (by rw [if_neg (by show (0 : Int) ≠ 1; decide)]) rfl rfl rfl
      hsize hxv hax
    rw [hrows, hcols] at he hx
    refine ⟨h', fun i j => get_matrix_element h { a with invert := 0 } i j, ?_, ?_, ?_, hx, ?_, ?_⟩
    · rw [hdef, e1, he]
    · rw [e1]
      unfold denoted
      rw [if_neg (by show (0 : Int) ≠ 1; decide)]
    · intro i j hi' hj'
      beta_reduce
      rw [get_matrix_element_eq, get_matrix_element_eq]
      have := hmem h i j hi' hj'
      apply Wx
      unfold Apart after_matrix at hax
      unfold after_matrix
      omega
    · intro _
      exact Wx
    · intro hc0
      rw [h1] at hc0
      exact absurd hc0 (by decide)

/-- `transpose_matrix(a, x)` into a different matrix `x`, storage apart, for an
`a` without pending inversion: `a` is handed back with its flags as they were,
only cells of `x` are written, and `x(i, j) = a(j, i)`. -/
theorem transpose_matrix_distinct (cfg : Config α) (h : Nat → α) (a x : matrix)
    (hxv : x.value ≠ 0) (hsize : a.rows * a.columns = x.rows * x.columns) (hax : Apart a x)
    (ht : a.transpose = 0 ∨ a.transpose = 1) (hai : a.invert ≠ 1) :
    ∃ h', transpose_matrix cfg h a (some x)
        = some (h', a, some (product_header x (get_num_columns a) (get_num_rows a)))
      ∧ (∀ i j, i < get_num_columns a → j < get_num_rows a →
          get_matrix_element h' (product_header x (get_num_columns a) (get_num_rows a)) i j
            = get_matrix_element h a j i)
      ∧ Within x.value (after_matrix x) h h' := by
  obtain ⟨s1, s2⟩ := shape_toggled_transpose a ht
  obtain ⟨h', he, hx, Wx⟩ := copy_matrix_spec cfg h h { a with transpose := 1 - a.transpose }
    { a with transpose := 1 - a.transpose } x (by rw [if_neg hai]) rfl rfl rfl hsize hxv hax
  rw [s1, s2] at he hx
  refine ⟨h', ?_, ?_, Wx⟩
  · unfold transpose_matrix check_size check_memory
    simp only [Option.getD_some, hsize, ne_eq, not_true_eq_false, if_false, if_neg hxv,
      Option.bind_eq_bind, Option.some_bind, he, Option.pure_def]
    rw [(toggle_twice a).1]
  · intro i j hi hj
    rw [hx i j hi hj, get_toggled_transpose h a ht]

/-- `transpose_matrix(a, x)` into a different matrix `x` for a square `a` with a
pending inversion: the inversion is carried out on the array of `a`, and `a` is
handed back with its invert flag cleared. -/
theorem transpose_matrix_pending (cfg : Config α) (h : Nat → α) (a x : matrix) (n : Nat)
    (hcfg : cfg.valid) (hav : a.value ≠ 0) (hxv : x.value ≠ 0)
    (hr : a.rows = n) (hc : a.columns = n)
    (hsize : a.rows * a.columns = x.rows * x.columns) (hax : Apart a x)
    (ht : a.transpose = 0 ∨ a.transpose = 1) (hai : a.invert = 1) :
    ∃ hi h', invert_this_matrix cfg h { a with transpose := 1 - a.transpose }
        = some (hi, { a with transpose := 1 - a.transpose, invert := 0 })
      ∧ transpose_matrix cfg h a (some x)
        = some (h', { a with invert := 0 }, some (product_header x n n))
      ∧ (∀ i j, i < n → j < n →
          get_matrix_element h' { a with invert := 0 } i j
            = get_matrix_element hi { a with invert := 0 } i j)
      ∧ (∀ i j, i < n → j < n →
          get_matrix_element h' (product_header x n n) i j
            = get_matrix_element hi { a with invert := 0 } j i)
      ∧ Within a.value (after_matrix a) h hi ∧ Within x.value (after_matrix x) hi h' := by
  obtain ⟨hi, hei, Wi⟩ := invert_this_matrix_within cfg h
    { a with transpose := 1 - a.transpose } n hcfg hav hr hc
  have e0 : ({ ({ a with transpose := 1 - a.transpose } : matrix) with invert := 0 } : matrix)
      = { a with transpose := 1 - a.transpose, invert := 0 } := rfl
  rw [e0] at hei
  have hrows : get_num_rows ({ a with transpose := 1 - a.transpose, invert := 0 } : matrix) = n := by
    unfold get_num_rows; rcases ht with h0 | h0 <;> simp [h0, hr, hc]
  have hcols : get_num_columns ({ a with transpose := 1 - a.transpose, invert := 0 } : matrix)
      = n := by
    unfold get_num_columns; rcases ht with h0 | h0 <;> simp [h0, hr, hc]
  obtain ⟨h', he, hx, Wx⟩ := copy_matrix_spec cfg h hi { a with transpose := 1 - a.transpose }
    { a with transpose := 1 - a.transpose, invert := 0 } x
    (by
      have : ({ a with transpose := 1 - a.transpose } : matrix).invert = 1 := hai
      rw [if_pos this]
      exact hei) rfl rfl rfl hsize hxv hax
  rw [hrows, hcols] at he hx
  have hback : ({ ({ a with transpose := 1 - a.transpose, invert := 0 } : matrix) with
      transpose := 1 - ({ a with transpose := 1 - a.transpose, invert := 0 } : matrix).transpose }
        : matrix) = { a with invert := 0 } := by
    show ({ a with transpose := 1 - (1 - a.transpose), invert := 0 } : matrix) = _
    rw [sub_sub_cancel]
  refine ⟨hi, h', hei, ?_, ?_, ?_, Wi, Wx⟩
  · unfold transpose_matrix check_size check_memory
    simp only [Option.getD_some, hsize, ne_eq, not_true_eq_false, if_false, if_neg hxv,
      Option.bind_eq_bind, Option.some_bind, he, Option.pure_def]
    rw [hback]
  · intro i j hi' hj'
    rw [get_matrix_element_eq, get_matrix_element_eq]
    have := cell_mem { a with invert := 0 } (i := i) (j := j)
      (by unfold get_num_rows; by_cases h0 : a.transpose = 0 <;> simp [h0, hr, hc, hi'])
      (by unfold get_num_columns; by_cases h0 : a.transpose = 0 <;> simp [h0, hr, hc, hj'])
    apply Wx
    unfold Apart after_matrix at hax
    unfold after_matrix
    simp only at this
    omega
  · intro i j hi' hj'
    rw [hx i j hi' hj']
    exact get_toggled_transpose hi { a with invert := 0 } ht i j

end InvertTranspose
section InverseDenoted
variable {α : Type} [Field α]

/-- On the Gauss-Jordan path and with non-zero leading minors of the stored
array, the matrix that a square `a` denotes and the matrix that `a` with its
invert flag toggled denotes are inverses of each other. -/
theorem denoted_toggle_inverse (cfg : Config α) (h : Nat → α) (a : matrix) (n : Nat)
    (hseq : cfg.use_sequential_inversion ≠ 0) (hav : a.value ≠ 0)
    (hr : a.rows = n) (hc : a.columns = n) (hflag : a.invert = 0 ∨ a.invert = 1)
    (hminor : ∀ k, k ≤ n → (Matrix.of fun i j : Fin k => get_matrix_element h a i j).det ≠ 0) :
    ∃ M0 M1, denoted cfg h a = some M0
      ∧ denoted cfg h { a with invert := 1 - a.invert } = some M1
      ∧ (Matrix.of fun i j : Fin n => M1 i j) * (Matrix.of fun i j : Fin n => M0 i j) = 1
      ∧ (Matrix.of fun i j : Fin n => M0 i j) * (Matrix.of fun i j : Fin n => M1 i j) = 1 := by
  obtain ⟨hi, hei, hmul, _⟩ := invert_this_matrix_sequential cfg h { a with invert := 1 } n hseq
    hav hr hc hminor
  have e0 : ({ ({ a with invert := 1 } : matrix) with invert := 0 } : matrix)
      = { a with invert := 0 } := rfl
  rw [e0] at hei
  have hmul' : (Matrix.of fun i j : Fin n => get_matrix_element h a i j)
      * (Matrix.of fun i j : Fin n => get_matrix_element hi { a with invert := 1 } i j) = 1 :=
    Matrix.mul_eq_one_comm.mp hmul
  rcases hflag with h0 | h1
  · have e1 : ({ a with invert := 1 - a.invert } : matrix) = { a with invert := 1 } := by
      rw [h0]; rfl
    refine ⟨fun i j => get_matrix_element h a i j,
      fun i j => get_matrix_element hi { a with invert := 0 } i j, ?_, ?_, hmul, hmul'⟩
    · unfold denoted
      rw [if_neg (by rw [h0]; decide)]
    · rw [e1]
      unfold denoted
      rw [if_pos rfl, hei]
      rfl
  · have e1 : ({ a with invert := 1 - a.invert } : matrix) = { a with invert := 0 } := by
      rw [h1]; rfl
    have ea : ({ a with invert := 1 } : matrix) = a := by
      rw [← h1]
    rw [ea] at hei
    refine ⟨fun i j => get_matrix_element hi { a with invert := 0 } i j,
      fun i j => get_matrix_element h { a with invert := 0 } i j, ?_, ?_, hmul', hmul⟩
    · unfold denoted
      rw [if_pos h1, hei]
      rfl
    · rw [e1]
      unfold denoted
      rw [if_neg (by show (0 : Int) ≠ 1; decide)]

end InverseDenoted

set_option maxRecDepth 100000 in
/-- Counterexample to C30 as stated, for `transpose_matrix(a, x)` with a pending
inversion on `a`: with `a` the 2-by-2 array with columns `(2, 1)` and `(3, 2)`
and invert flag 1, and `x` a separate 2-by-2 array, the call clears the invert
flag of `a` and replaces the stored entries of `a` by those of the inverse,
columns `(2, -1)` and `(-3, 2)`; `x` receives the transpose of that inverse.
The list shows the cells 0..8 after the call. -/
theorem transpose_matrix_pending_inversion_example :
    (transpose_matrix exCfg exMemSquare exSquareInv (some exSq5)).map
        (fun r => ((List.range 9).map r.1, r.2.1, r.2.2))
      = some ([0, 2, -1, -3, 2, 2, -3, -1, 2], { exSquareInv with invert := 0 }, some exSq5)
    ∧ (List.range 9).map exMemSquare = [0, 2, 1, 3, 2, 9, 9, 9, 9] :=
  ⟨by decide!, by decide!⟩

/-- C30, amended. For a square matrix `a` (flags 0 or 1) and a different matrix
`x` of the same size with storage of its own:
`invert_matrix(a, x)` returns and does not preserve its input: afterwards `a`
and `x` both have invert flag 0 and both hold, element for element, the matrix
that `a` with its invert flag toggled denoted before the call; with flag 0
before, the array of `a` has been inverted in place; with flag 1 before, only
the flag of `a` is cleared. On the Gauss-Jordan path with non-zero leading
minors that matrix is the inverse (on both sides) of the matrix `a` denoted
before the call.
`transpose_matrix(a, x)` returns; if `a` has no pending inversion it hands `a`
back with flags and contents unchanged, writes only cells of `x`, and sets
`x(i, j) = a(j, i)`; if `a` has invert flag 1 the pending inversion is carried
out on the array of `a`, whose invert flag is cleared, and `x(i, j)` is the
entry `(j, i)` of the inverted array.
`invert_matrix(a, a)` only toggles the invert flag, and a second call restores
`a`. -/
theorem invert_transpose_frame {α : Type} [Field α] (cfg : Config α) (h : Nat → α)
    (a x : matrix) (n : Nat)
    (hcfg : cfg.valid) (hav : a.value ≠ 0) (hxv : x.value ≠ 0)
    (hr : a.rows = n) (hc : a.columns = n)
    (hsize : a.rows * a.columns = x.rows * x.columns) (hax : Apart a x)
    (hflag : a.invert = 0 ∨ a.invert = 1) (ht : a.transpose = 0 ∨ a.transpose = 1) :
    (∃ h' M, invert_matrix cfg h a (some x)
        = some (h', { a with invert := 0 }, some (product_header x n n))
      ∧ denoted cfg h { a with invert := 1 - a.invert } = some M
      ∧ (∀ i j, i < n → j < n → get_matrix_element h' { a with invert := 0 } i j = M i j)
      ∧ (∀ i j, i < n → j < n → get_matrix_element h' (product_header x n n) i j = M i j)
      ∧ (a.invert = 1 → Within x.value (after_matrix x) h h')
      ∧ (a.invert = 0 → ∃ hi, invert_this_matrix cfg h { a with invert := 1 }
            = some (hi, { a with invert := 0 })
          ∧ Within a.value (after_matrix a) h hi ∧ Within x.value (after_matrix x) hi h'))
    ∧ (cfg.use_sequential_inversion ≠ 0 →
        (∀ k, k ≤ n → (Matrix.of fun i j : Fin k => get_matrix_element h a i j).det ≠ 0) →
        ∃ M0 M1, denoted cfg h a = some M0
          ∧ denoted cfg h { a with invert := 1 - a.invert } = some M1
          ∧ (Matrix.of fun i j : Fin n => M1 i j) * (Matrix.of fun i j : Fin n => M0 i j) = 1
          ∧ (Matrix.of fun i j : Fin n => M0 i j) * (Matrix.of fun i j : Fin n => M1 i j) = 1)
    ∧ (a.invert = 0 → ∃ h', transpose_matrix cfg h a (some x)
          = some (h', a, some (product_header x (get_num_columns a) (get_num_rows a)))
        ∧ (∀ i j, i < get_num_columns a → j < get_num_rows a →
            get_matrix_element h' (product_header x (get_num_columns a) (get_num_rows a)) i j
              = get_matrix_element h a j i)
        ∧ Within x.value (after_matrix x) h h')
    ∧ (a.invert = 1 → ∃ hi h',
        invert_this_matrix cfg h { a with transpose := 1 - a.transpose }
          = some (hi, { a with transpose := 1 - a.transpose, invert := 0 })
        ∧ transpose_matrix cfg h a (some x)
          = some (h', { a with invert := 0 }, some (product_header x n n))
        ∧ (∀ i j, i < n → j < n →
            get_matrix_element h' { a with invert := 0 } i j
              = get_matrix_element hi { a with invert := 0 } i j)
        ∧ (∀ i j, i < n → j < n →
            get_matrix_element h' (product_header x n n) i j
              = get_matrix_element hi { a with invert := 0 } j i)
        ∧ Within a.value (after_matrix a) h hi ∧ Within x.value (after_matrix x) hi h')
    ∧ invert_matrix cfg h a none = some (h, { a with invert := 1 - a.invert }, none)
    ∧ invert_matrix cfg h { a with invert := 1 - a.invert } none = some (h, a, none) := by
  have hsq : get_num_rows a = get_num_columns a := by
    unfold get_num_rows get_num_columns
    by_cases h0 : a.transpose = 0 <;> simp [h0, hr, hc]
  refine ⟨invert_matrix_distinct cfg h a x n hcfg hav hxv hr hc hsize hax hflag,
    fun hseq hminor => denoted_toggle_inverse cfg h a n hseq hav hr hc hflag hminor,
    fun h0 => transpose_matrix_distinct cfg h a x hxv hsize hax ht (by rw [h0]; decide),
    fun h1 => transpose_matrix_pending cfg h a x n hcfg hav hxv hr hc hsize hax ht h1,
    invert_matrix_self cfg h a hav hsq, ?_⟩
  have := invert_matrix_self cfg h { a with invert := 1 - a.invert } hav hsq
  rw [(toggle_twice a).2] at this
  exact this

set_option maxRecDepth 100000 in
theorem invert_transpose_frame_witness :
    exCfg.valid
    ∧ (∃ h', invert_matrix exCfg exMemSquare exSquareInv (some exSq5)
        = some (h', { exSquareInv with invert := 0 }, some (product_header exSq5 2 2)))
    ∧ invert_matrix exCfg exMemSquare exSquareInv none
        = some (exMemSquare, { exSquareInv with invert := 1 - exSquareInv.invert }, none) := by
  have hcfg : exCfg.valid :=
    ⟨by decide, by decide, fun h => absurd rfl h, fun h => absurd h (by decide)⟩
  have key := invert_transpose_frame exCfg exMemSquare exSquareInv exSq5 2 hcfg (by decide)
    (by decide) rfl rfl rfl (by unfold Apart; decide) (Or.inr rfl) (Or.inl rfl)
  obtain ⟨⟨h', _, he, _⟩, _, _, _, hs, _⟩ := key
  exact ⟨hcfg, ⟨h', he⟩, hs⟩

section PathList

/-- `strncmp` returns 0 exactly when the two buffers agree on their first `n`
bytes up to the terminating NUL. -/
theorem strncmp_eq_zero_iff : ∀ (n : Nat) (s1 s2 : List Nat),
    strncmp s1 s2 n = 0 ↔ leading_bytes s1 n = leading_bytes s2 n := by
  intro n
  induction n with
  | zero => intro s1 s2; simp [strncmp, leading_bytes]
  | succ n ih =>
    intro s1 s2
    rw [strncmp, leading_bytes, leading_bytes]
    by_cases hne : s1.headD 0 = s2.headD 0
    · rw [if_neg (not_not.mpr hne)]
      by_cases h0 : s1.headD 0 = 0
      · rw [if_pos h0, if_pos h0, if_pos (hne ▸ h0)]
        simp
      · rw [if_neg h0, if_neg h0, if_neg (hne ▸ h0), ih, hne]
        constructor
        · intro h; rw [h]
        · intro h; exact (List.cons.inj h).2
    · rw [if_pos hne]
      constructor
      · intro h
        exfalso
        apply hne
        omega
      · intro h
        exfalso
        by_cases h1 : s1.headD 0 = 0
        · rw [if_pos h1] at h
          by_cases h2 : s2.headD 0 = 0
          · exact hne (h1.trans h2.symm)
          · rw [if_neg h2] at h
            cases h
        · rw [if_neg h1] at h
          by_cases h2 : s2.headD 0 = 0
          · rw [if_pos h2] at h
            cases h
          · rw [if_neg h2] at h
            exact hne (List.cons.inj h).1

theorem leading_bytes_replicate (n k : Nat) : leading_bytes (List.replicate n 0) k = [] := by
  cases k with
  | zero => rfl
  | succ k =>
    rw [leading_bytes]
    cases n <;> simp [List.replicate]

/-- The first `k` bytes that `strncpy` writes agree with the source up to its
NUL. -/
theorem leading_bytes_strncpy : ∀ (k m : Nat) (f : List Nat), k ≤ m →
    leading_bytes (strncpy f m) k = leading_bytes f k := by
  intro k
  induction k with
  | zero => intro m f _; rfl
  | succ k ih =>
    intro m f hm
    obtain ⟨m', rfl⟩ : ∃ m', m = m' + 1 := ⟨m - 1, by omega⟩
    rw [strncpy]
    by_cases h0 : f.headD 0 = 0
    · rw [if_pos h0, leading_bytes_replicate, leading_bytes, if_pos h0]
    · rw [if_neg h0, leading_bytes, leading_bytes]
      simp only [List.headD_cons, List.tail_cons, if_neg h0]
      rw [ih m' f.tail (by omega)]

/-- A byte written at index `i` or later is not among the first `k <= i`. -/
theorem leading_bytes_set : ∀ (k i : Nat) (l : List Nat) (v : Nat), k ≤ i →
    leading_bytes (l.set i v) k = leading_bytes l k := by
  intro k
  induction k with
  | zero => intro i l v _; rfl
  | succ k ih =>
    intro i l v hi
    obtain ⟨i', rfl⟩ : ∃ i', i = i' + 1 := ⟨i - 1, by omega⟩
    cases l with
    | nil => rfl
    | cons x xs =>
      rw [List.set_cons_succ, leading_bytes, leading_bytes]
      simp only [List.headD_cons, List.tail_cons]
      rw [ih i' xs v (by omega)]

/-- The name that `load_path_list` stores agrees with the file name on its
first 31 bytes up to the NUL. -/
theorem load_path_list_name (file_name : List Nat) (index : Nat)
    (path_list : Nat → path_link) (this_path : Nat) :
    (load_path_list file_name index path_list this_path).1 = index
    ∧ ((load_path_list file_name index path_list this_path).2 index).path_p = this_path
    ∧ leading_bytes ((load_path_list file_name index path_list this_path).2 index).name 31
        = leading_bytes file_name 31
    ∧ (∀ i, i ≠ index →
        (load_path_list file_name index path_list this_path).2 i = path_list i) := by
  unfold load_path_list
  refine ⟨rfl, ?_, ?_, ?_⟩
  · simp only [Function.update_same]
  · simp only [Function.update_same]
    rw [leading_bytes_set 31 31 _ 0 (le_refl _), leading_bytes_strncpy 31 32 _ (by omega)]
  · intro i hi
    simp only [Function.update_noteq hi]

/-- The scan loop of `search_path_list` from entry `i0` with no hit so far. -/
theorem search_loop (file_name : List Nat) (n : Int) (path_list : Nat → path_link) :
    ∀ (fuel i0 : Nat) (c : Int), i0 + fuel = n.toNat → c ≠ 0 →
      ∃ r i c', whileM
          (fun (st : Int × Nat × Int) => decide (st.2.2 ≠ 0 ∧ (st.2.1 : Int) < n))
          (fun st =>
            let compare := strncmp file_name (path_list st.2.1).name 31
            let index := if compare = 0 then (st.2.1 : Int) else st.1
            some (index, st.2.1 + 1, compare))
          fuel (-1, i0, c) = some (r, i, c')
        ∧ ((r = -1 ∧ ∀ i : Nat, i0 ≤ i → (i : Int) < n →
              strncmp file_name (path_list i).name 31 ≠ 0)
          ∨ ∃ k : Nat, r = (k : Int) ∧ i0 ≤ k ∧ (k : Int) < n
              ∧ strncmp file_name (path_list k).name 31 = 0
              ∧ ∀ i : Nat, i0 ≤ i → i < k → strncmp file_name (path_list i).name 31 ≠ 0) := by
  intro fuel
  induction fuel with
  | zero =>
    intro i0 c h0 hc
    refine ⟨-1, i0, c, ?_, Or.inl ⟨rfl, ?_⟩⟩
    · rw [whileM]
      have : ¬ (c ≠ 0 ∧ (i0 : Int) < n) := by
        intro ⟨_, hlt⟩
        omega
      simp only [this, decide_False, Bool.false_eq_true, if_false]
    · intro i hi hlt
      omega
  | succ fuel ih =>
    intro i0 c h0 hc
    have hcond : (c ≠ 0 ∧ (i0 : Int) < n) := ⟨hc, by omega⟩
    rw [whileM]
    simp only [hcond, and_self, decide_True, if_true, Option.some_bind, ne_eq, not_false_eq_true]
    by_cases hm : strncmp file_name (path_list i0).name 31 = 0
    · refine ⟨(i0 : Int), i0 + 1, 0, ?_, Or.inr ⟨i0, rfl, le_refl _, hcond.2, hm, ?_⟩⟩
      · simp only [hm, if_true]
        exact whileM_done _ _ _ _ (by simp)
      · intro i hi hlt
        omega
    · obtain ⟨r, i, c', he, hres⟩ := ih (i0 + 1) (strncmp file_name (path_list i0).name 31)
        (by omega) hm
      refine ⟨r, i, c', ?_, ?_⟩
      · simp only [hm, if_false]
        exact he
      · rcases hres with ⟨hr, hno⟩ | ⟨k, hr, hk0, hkn, hkm, hno⟩
        · refine Or.inl ⟨hr, ?_⟩
          intro i hi hlt
          rcases Nat.eq_or_lt_of_le hi with h | h
          · rw [← h]; exact hm
          · exact hno i h hlt
        · refine Or.inr ⟨k, hr, by omega, hkn, hkm, ?_⟩
          intro i hi hlt
          rcases Nat.eq_or_lt_of_le hi with h | h
          · rw [← h]; exact hm
          · exact hno i h hlt

/-- `search_path_list` returns the smallest index below `n` whose stored name
compares equal under `strncmp(.., .., 31)`, and -1 if there is none. -/
theorem search_path_list_spec (file_name : List Nat) (n : Int) (path_list : Nat → path_link) :
    ∃ r, search_path_list file_name n path_list = some r
      ∧ ((r = -1 ∧ ∀ i : Nat, (i : Int) < n → strncmp file_name (path_list i).name 31 ≠ 0)
        ∨ ∃ k : Nat, r = (k : Int) ∧ (k : Int) < n
            ∧ strncmp file_name (path_list k).name 31 = 0
            ∧ ∀ i : Nat, i < k → strncmp file_name (path_list i).name 31 ≠ 0) := by
  obtain ⟨r, i, c', he, hres⟩ := search_loop file_name n path_list n.toNat 0 1 (by omega)
    (by decide)
  refine ⟨r, ?_, ?_⟩
  · unfold search_path_list
    simp only [Option.bind_eq_bind, he, Option.some_bind, Option.pure_def]
  · rcases hres with ⟨hr, hno⟩ | ⟨k, hr, _, hkn, hkm, hno⟩
    · exact Or.inl ⟨hr, fun i hlt => hno i (Nat.zero_le _) hlt⟩
    · exact Or.inr ⟨k, hr, hkn, hkm, fun i hlt => hno i (Nat.zero_le _) hlt⟩

end PathList
section PathIdentity

theorem search_path_list_first (file_name : List Nat) (n : Int) (path_list : Nat → path_link)
    (k : Nat) (hk : (k : Int) < n) (hm : strncmp file_name (path_list k).name 31 = 0)
    (hno : ∀ i : Nat, i < k → strncmp file_name (path_list i).name 31 ≠ 0) :
    search_path_list file_name n path_list = some (k : Int) := by
  obtain ⟨r, he, hres⟩ := search_path_list_spec file_name n path_list
  rw [he]
  rcases hres with ⟨_, hnone⟩ | ⟨k', hr, hk', hm', hno'⟩
  · exact absurd hm (hnone k hk)
  · rcases Nat.lt_trichotomy k k' with h | h | h
    · exact absurd hm (hno' k h)
    · rw [hr, h]
    · exact absurd hm' (hno k' h)

theorem search_path_list_none (file_name : List Nat) (n : Int) (path_list : Nat → path_link)
    (hno : ∀ i : Nat, (i : Int) < n → strncmp file_name (path_list i).name 31 ≠ 0) :
    search_path_list file_name n path_list = some (-1) := by
  obtain ⟨r, he, hres⟩ := search_path_list_spec file_name n path_list
  rw [he]
  rcases hres with ⟨hr, _⟩ | ⟨k', _, hk', hm', _⟩
  · rw [hr]
  · exact absurd hm' (hno k' hk')

/-- Two file names that agree on their first 31 bytes up to the NUL resolve to
the same path struct, and the second lookup leaves the pool as it is. -/
theorem get_catchment_path_same (c c1 : catchment) (f1 f2 : List Nat) (fresh1 fresh2 p1 : Nat)
    (hf : leading_bytes f1 31 = leading_bytes f2 31)
    (h1 : get_catchment_path c f1 fresh1 = some (c1, p1)) :
    get_catchment_path c1 f2 fresh2 = some (c1, p1) := by
  have hsame : ∀ s : List Nat, strncmp f2 s 31 = 0 ↔ strncmp f1 s 31 = 0 := by
    intro s
    rw [strncmp_eq_zero_iff, strncmp_eq_zero_iff, hf]
  obtain ⟨r, he, hres⟩ := search_path_list_spec f1 c.num_paths c.path_list
  unfold get_catchment_path at h1
  simp only [Option.bind_eq_bind, he, Option.some_bind, Option.pure_def] at h1
  rcases hres with ⟨hr, hnone⟩ | ⟨k, hr, hk, hm, hno⟩
  · -- the first name is loaded at index `num_paths`
    subst hr
    by_cases hroom : c.num_paths < c.max_paths
    · simp only [show ((-1 : Int) < 0) from by decide, if_true, if_pos hroom, Option.some_bind,
        Option.some.injEq, Prod.mk.injEq] at h1
      obtain ⟨hc1, hp1⟩ := h1
      obtain ⟨l1, l2, l3, l4⟩ := load_path_list_name f1 c.num_paths c.path_list fresh1
      have hn1 : c1.num_paths = c.num_paths + 1 := by rw [← hc1]
      have hpl : c1.path_list = (load_path_list f1 c.num_paths c.path_list fresh1).2 := by
        rw [← hc1]
      have hfound : search_path_list f2 c1.num_paths c1.path_list
          = some ((c.num_paths : Nat) : Int) := by
        apply search_path_list_first
        · rw [hn1]; push_cast; omega
        · rw [hpl, strncmp_eq_zero_iff, l3, hf]
        · intro i hi
          rw [hpl, l4 i (by omega)]
          intro h0
          exact hnone i (by omega) ((hsame _).mp h0)
      unfold get_catchment_path
      simp only [Option.bind_eq_bind, hfound, Option.some_bind, Option.pure_def]
      have hneg : ¬ (((c.num_paths : Nat) : Int) < 0) := by omega
      simp only [if_neg hneg, Option.some_bind, Int.toNat_ofNat, Option.some.injEq,
        Prod.mk.injEq, true_and]
      rw [← hp1, ← hc1]
      simp only [Int.toNat_ofNat]
      rfl
    · simp only [show ((-1 : Int) < 0) from by decide, if_true, if_neg hroom,
        Option.none_bind] at h1
      cases h1
  · -- the first name is found at index `k`
    subst hr
    have hneg : ¬ ((k : Int) < 0) := by omega
    simp only [if_neg hneg, Option.some_bind, Option.some.injEq, Prod.mk.injEq] at h1
    obtain ⟨hc1, hp1⟩ := h1
    subst hc1
    have hfound : search_path_list f2 c.num_paths c.path_list = some (k : Int) := by
      apply search_path_list_first _ _ _ k hk ((hsame _).mpr hm)
      intro i hi h0
      exact hno i hi ((hsame _).mp h0)
    unfold get_catchment_path
    simp only [Option.bind_eq_bind, hfound, Option.some_bind, Option.pure_def, if_neg hneg,
      hp1]

end PathIdentity

/-- C28. Path identity in the pool is decided by the first 31 bytes of the file
name: for every pool, every `n` and every query name, `search_path_list`
returns the smallest index `i < n` whose stored name agrees with the query on
the first 31 bytes up to the terminating NUL, and -1 if there is none; the name
that `load_path_list` stores agrees with the loaded file name on these bytes;
and, in the lookup of `get_catchment`, once a file name `f1` has been resolved
to a path struct `p1` (found or loaded), every file name `f2` that agrees with
`f1` on the first 31 bytes up to the NUL resolves to the same `p1`, and the
pool is left as it is, so the file `f2` is not loaded. -/
theorem path_identity_first_31_bytes (query : List Nat) (n : Int) (pool : Nat → path_link)
    (c c1 : catchment) (f1 f2 : List Nat) (fresh1 fresh2 p1 : Nat)
    (hf : leading_bytes f1 31 = leading_bytes f2 31)
    (h1 : get_catchment_path c f1 fresh1 = some (c1, p1)) :
    (∃ r, search_path_list query n pool = some r
      ∧ ((r = -1 ∧ ∀ i : Nat, (i : Int) < n →
            leading_bytes query 31 ≠ leading_bytes (pool i).name 31)
        ∨ ∃ k : Nat, r = (k : Int) ∧ (k : Int) < n
            ∧ leading_bytes query 31 = leading_bytes (pool k).name 31
            ∧ ∀ i : Nat, i < k → leading_bytes query 31 ≠ leading_bytes (pool i).name 31))
    ∧ (∀ s1 s2 : List Nat, strncmp s1 s2 31 = 0 ↔ leading_bytes s1 31 = leading_bytes s2 31)
    ∧ (∀ (index this_path : Nat),
        ((load_path_list f1 index pool this_path).2 index).path_p = this_path
        ∧ leading_bytes ((load_path_list f1 index pool this_path).2 index).name 31
            = leading_bytes f1 31)
    ∧ get_catchment_path c1 f2 fresh2 = some (c1, p1) := by
  refine ⟨?_, strncmp_eq_zero_iff 31, ?_, get_catchment_path_same c c1 f1 f2 fresh1 fresh2 p1 hf h1⟩
  · obtain ⟨r, he, hres⟩ := search_path_list_spec query n pool
    refine ⟨r, he, ?_⟩
    rcases hres with ⟨hr, hnone⟩ | ⟨k, hr, hk, hm, hno⟩
    · refine Or.inl ⟨hr, fun i hi h0 => hnone i hi ((strncmp_eq_zero_iff 31 _ _).mpr h0)⟩
    · refine Or.inr ⟨k, hr, hk, (strncmp_eq_zero_iff 31 _ _).mp hm, fun i hi h0 =>
        hno i hi ((strncmp_eq_zero_iff 31 _ _).mpr h0)⟩
  · intro index this_path
    obtain ⟨_, l2, l3, _⟩ := load_path_list_name f1 index pool this_path
    exact ⟨l2, l3⟩

theorem path_identity_first_31_bytes_witness :
    exName1 ≠ exName2
    ∧ get_catchment_path exEmptyPool exName1 7
      = some ({ { exEmptyPool with
            path_list := (load_path_list exName1 0 exEmptyPool.path_list 7).2 } with
          num_paths := 1 }, 7)
    ∧ get_catchment_path { { exEmptyPool with
            path_list := (load_path_list exName1 0 exEmptyPool.path_list 7).2 } with
          num_paths := 1 } exName2 8
      = some ({ { exEmptyPool with
            path_list := (load_path_list exName1 0 exEmptyPool.path_list 7).2 } with
          num_paths := 1 }, 7) :=
  ⟨by decide, rfl,
    (path_identity_first_31_bytes [] 0 exEmptyPool.path_list exEmptyPool _ exName1 exName2 7 8 7
      (by decide) rfl).2.2.2⟩

section Replay
variable {α σ : Type}

theorem replay_nil (put : σ → Nat → Nat → α → σ) (s : σ) : replay_on put s [] = s := rfl

theorem replay_append (put : σ → Nat → Nat → α → σ) (s : σ) (l1 l2 : List (Nat × Nat × α)) :
    replay_on put s (l1 ++ l2) = replay_on put (replay_on put s l1) l2 := by
  unfold replay_on
  rw [List.foldl_append]

/-- A loop whose body replays a list of writes replays their concatenation. -/
theorem forN_replay (put : σ → Nat → Nat → α → σ) (F : Nat → σ → σ)
    (w : Nat → List (Nat × Nat × α)) (lo n : Nat) (s : σ)
    (hF : ∀ i g, lo ≤ i → i < lo + n → F i g = replay_on put g (w i)) :
    forN F lo n s = replay_on put s ((List.range' lo n).flatMap w) := by
  induction n with
  | zero => simp [forN, replay_on]
  | succ n ih =>
    rw [forN_succ, ih (fun i g h1 h2 => hF i g h1 (by omega)), hF _ _ (by omega) (by omega),
      List.range'_concat, List.flatMap_append, replay_append]
    simp [Nat.mul_one]

/-- A loop whose body replays a list of writes or ends the program, when no
round ends it. -/
theorem forNM_replay (put : σ → Nat → Nat → α → σ) (F : Nat → σ → Option σ)
    (w : Nat → List (Nat × Nat × α)) :
    ∀ (n lo : Nat) (s : σ),
      (∀ i g, lo ≤ i → i < lo + n → F i g = some (replay_on put g (w i))) →
      forNM F lo n s = some (replay_on put s ((List.range' lo n).flatMap w)) := by
  intro n
  induction n with
  | zero => intro lo s _; simp [forNM, replay_on]
  | succ n ih =>
    intro lo s hF
    rw [forNM, hF lo s (le_refl _) (by omega), Option.some_bind,
      ih (lo + 1) _ (fun i g h1 h2 => hF i g (by omega) (by omega)), List.range'_succ,
      List.flatMap_cons, replay_append]

theorem range_split {j n : Nat} (hj : j < n) :
    List.range n = List.range' 0 j ++ j :: List.range' (j + 1) (n - (j + 1)) := by
  have h1 := List.range'_append_1 0 j (n - j)
  rw [Nat.zero_add, show n - j + j = n by omega] at h1
  have h2 : n - j = (n - (j + 1)) + 1 := by omega
  rw [List.range_eq_range', ← h1, h2, List.range'_succ]

theorem flatMap_congr_mem {β γ : Type} (l : List β) (f g : β → List γ)
    (h : ∀ x, x ∈ l → f x = g x) : l.flatMap f = l.flatMap g := by
  induction l with
  | nil => rfl
  | cons x xs ih =>
    rw [List.flatMap_cons, List.flatMap_cons, h x (List.mem_cons_self _ _),
      ih (fun y hy => h y (List.mem_cons_of_mem _ hy))]

/-- Replaying writes on a log appends them. -/
theorem replay_log (l0 l : List (Nat × Nat × α)) : replay_on log_write l0 l = l0 ++ l := by
  induction l generalizing l0 with
  | nil => simp [replay_on]
  | cons w l ih =>
    have h := ih (log_write l0 w.1 w.2.1 w.2.2)
    unfold replay_on at h ⊢
    rw [List.foldl_cons, h]
    simp [log_write]

end Replay

section DiagonalWrites
variable {α σ : Type}

theorem block_writes_eq {β : Type} (R C : Nat) (v : Nat → Nat → β) :
    block_writes R C v
      = [(R + 0, C + 0, v 0 0), (R + 0, C + 1, v 0 1), (R + 1, C + 0, v 1 0),
          (R + 1, C + 1, v 1 1), (R + 2, C + 0, v 2 0), (R + 2, C + 1, v 2 1),
          (R + 3, C + 0, v 3 0), (R + 3, C + 1, v 3 1), (R + 4, C + 0, v 4 0),
          (R + 4, C + 1, v 4 1)] := by
  unfold block_writes
  rfl

theorem dm_zero_block_replay [Field α] (put : σ → Nat → Nat → α → σ) (oi oj i j : Nat)
    (s : σ) :
    dm_zero_block_on put oi oj i j s
      = replay_on put s (block_writes (oi + i) (oj + j) (fun _ _ => 0)) := by
  rw [block_writes_eq]
  unfold dm_zero_block_on replay_on
  simp only [List.foldl_cons, List.foldl_nil, Nat.add_zero, Nat.add_assoc]

/-- `empty_diagonal_matrix` makes the writes of its pairs of segments, all with
value 0. -/
theorem empty_diagonal_matrix_replay [Field α] (put : σ → Nat → Nat → α → σ)
    (paths : Nat → path α) (offset_i offset_j path_i path_j : Nat) (s : σ) :
    empty_diagonal_matrix_on put paths offset_i offset_j path_i path_j s
      = replay_on put s
          ((List.range (paths path_j).points).flatMap fun sj =>
            (List.range (paths path_i).points).flatMap fun si =>
              block_writes (offset_i * 5 + si * 5) (offset_j * 2 + sj * 2) (fun _ _ => (0 : α))) := by
  unfold empty_diagonal_matrix_on
  simp only []
  rw [List.range_eq_range']
  apply forN_replay
  intro sj g _ _
  rw [List.range_eq_range']
  apply forN_replay
  intro si g' _ _
  exact dm_zero_block_replay put _ _ _ _ g'

theorem diag_stencil_values [Field α] (syn : α) :
    diag_stencil syn 0 0 = syn ∧ diag_stencil syn 0 1 = 4 * (-(1 / 2) * syn)
    ∧ diag_stencil syn 1 0 = 1 / 2 ∧ diag_stencil syn 1 1 = 4 * (-(3 / 10) * (1 / 2))
    ∧ diag_stencil syn 2 0 = 1 / 2 ∧ diag_stencil syn 2 1 = 4 * (-(1 / 10) * (1 / 2))
    ∧ diag_stencil syn 3 0 = 1 / 2 ∧ diag_stencil syn 3 1 = 4 * (1 / 10 * (1 / 2))
    ∧ diag_stencil syn 4 0 = 1 / 2 ∧ diag_stencil syn 4 1 = 4 * (3 / 10 * (1 / 2)) :=
  ⟨rfl, rfl, rfl, rfl, rfl, rfl, rfl, rfl, rfl, rfl⟩

/-- The ten writes of `fill_diagonal_matrix` for a segment against itself. -/
theorem self_block_replay [Field α] (put : σ → Nat → Nat → α → σ) (R C : Nat) (syn : α)
    (g : σ) :
    put (put (put (put (put (put (put (put (put (put g R C syn)
        R (C + 1) (4 * (-(1 / 2) * syn)))
        (R + 1) C (1 / 2)) (R + 1) (C + 1) (4 * (-(3 / 10) * (1 / 2))))
        (R + 2) C (1 / 2)) (R + 2) (C + 1) (4 * (-(1 / 10) * (1 / 2))))
        (R + 3) C (1 / 2)) (R + 3) (C + 1) (4 * (1 / 10 * (1 / 2))))
        (R + 4) C (1 / 2)) (R + 4) (C + 1) (4 * (3 / 10 * (1 / 2)))
      = replay_on put g (block_writes R C (fun k c => diag_stencil syn k c)) := by
  obtain ⟨v1, v2, v3, v4, v5, v6, v7, v8, v9, v10⟩ := diag_stencil_values syn
  rw [block_writes_eq]
  unfold replay_on
  simp only [List.foldl_cons, List.foldl_nil, Nat.add_zero, v1, v2, v3, v4, v5, v6, v7, v8, v9,
    v10]

theorem zero_blocks_replay [Field α] (put : σ → Nat → Nat → α → σ) (oi oj j lo hi : Nat)
    (sj : Nat) (syn : α) (hne : ∀ si, lo ≤ si → si < hi → si ≠ sj) (g : σ) :
    forRange (fun segment_i s => dm_zero_block_on put oi oj (segment_i * 5) j s) lo hi g
      = replay_on put g ((List.range' lo (hi - lo)).flatMap fun si =>
          block_writes (oi + si * 5) (oj + j)
            (fun k c => if si = sj then diag_stencil syn k c else 0)) := by
  unfold forRange
  rw [forN_replay put _ (fun si => block_writes (oi + si * 5) (oj + j) (fun _ _ => (0 : α)))
    lo _ g (fun si g' _ _ => dm_zero_block_replay put _ _ _ _ g')]
  refine congrArg _ ?_
  apply flatMap_congr_mem
  intro si hsi
  have hm := List.mem_range'_1.mp hsi
  have : si ≠ sj := hne si hm.1 (by omega)
  simp only [if_neg this]

/-- One round of the loop of `fill_diagonal_matrix` over the segments. -/
theorem fill_round [LinearOrderedField α] (put : σ → Nat → Nat → α → σ) (m : LibM α)
    (p : path α) (oi oj sj : Nat) (g : σ) (syn : α) (hsj : sj < p.points)
    (hsyn : node_syn m p sj = some syn) :
    (do
      let j := sj * 2
      let s := forRange (fun segment_i s =>
        dm_zero_block_on put oi oj (segment_i * 5) j s) 0 sj g
      let segment_i := sj
      let i := segment_i * 5
      let a ← get_path_xy p ((segment_i : Int) - 1 + p.points)
      let b ← get_path_xy p segment_i
      let c ← get_path_xy p (segment_i + 1)
      let syn_y := (a.2 - b.2) * (c.1 - b.1) - (c.2 - b.2) * (a.1 - b.1)
      let syn_x := (a.1 - b.1) * (c.1 - b.1) + (c.2 - b.2) * (a.2 - b.2)
      let syn := m.atan2 syn_y syn_x
      let syn := syn / (2 * m.M_PI)
      let syn := if syn < 0 then syn + 1 else syn
      let (V, W) := p2c_2basis (-(1 / 2) * syn) syn
      let s := put s (oi + i) (oj + j) V
      let s := put s (oi + i) (oj + (j + 1)) W
      let (V, W) := p2c_2basis (-(3 / 10) * (1 / 2 : α)) (1 / 2)
      let s := put s (oi + (i + 1)) (oj + j) V
      let s := put s (oi + (i + 1)) (oj + (j + 1)) W
      let (V, W) := p2c_2basis (-(1 / 10) * (1 / 2 : α)) (1 / 2)
      let s := put s (oi + (i + 2)) (oj + j) V
      let s := put s (oi + (i + 2)) (oj + (j + 1)) W
      let (V, W) := p2c_2basis (1 / 10 * (1 / 2 : α)) (1 / 2)
      let s := put s (oi + (i + 3)) (oj + j) V
      let s := put s (oi + (i + 3)) (oj + (j + 1)) W
      let (V, W) := p2c_2basis (3 / 10 * (1 / 2 : α)) (1 / 2)
      let s := put s (oi + (i + 4)) (oj + j) V
      let s := put s (oi + (i + 4)) (oj + (j + 1)) W
      let s := forRange (fun segment_i s =>
        dm_zero_block_on put oi oj (segment_i * 5) j s) (sj + 1) p.points s
      (pure s : Option σ))
    = some (replay_on put g
        ((List.range p.points).flatMap fun si =>
          block_writes (oi + si * 5) (oj + sj * 2)
            (fun k c => if si = sj then diag_stencil syn k c else 0))) := by
  unfold node_syn at hsyn
  simp only [Option.bind_eq_bind, Option.bind_eq_some, Option.pure_def, Option.some.injEq]
    at hsyn
  obtain ⟨a, ha, b, hb, c, hc, hs⟩ := hsyn
  unfold node_angle at hs
  simp only [] at hs
  simp only [ha, hb, hc, Option.bind_eq_bind, Option.some_bind, Option.pure_def, p2c_2basis, hs,
    Option.some.injEq]
  rw [range_split hsj, List.flatMap_append, List.flatMap_cons, replay_append, replay_append,
    zero_blocks_replay put oi oj (sj * 2) (sj + 1) p.points sj syn (fun si h1 _ => by omega),
    zero_blocks_replay put oi oj (sj * 2) 0 sj sj syn (fun si _ h2 => by omega) g,
    Nat.sub_zero]
  simp only [← Nat.add_assoc, if_true]
  rw [self_block_replay put (oi + sj * 5) (oj + sj * 2) syn]

/-- `fill_diagonal_matrix` makes the writes of its pairs of segments: the
stencil where the two segments are the same, 0 elsewhere. -/
theorem fill_diagonal_matrix_replay [LinearOrderedField α] (put : σ → Nat → Nat → α → σ)
    (m : LibM α) (paths : Nat → path α)
    (offset_i offset_j path_i path_j : Nat) (s : σ) (syn : Nat → α)
    (hp : (paths path_j).points ≤ (paths path_i).points)
    (hsyn : ∀ t, t < (paths path_j).points → node_syn m (paths path_i) t = some (syn t)) :
    fill_diagonal_matrix_on put m paths offset_i offset_j path_i path_j s
      = some (replay_on put s
          ((List.range' 0 (paths path_j).points).flatMap fun sj =>
            (List.range (paths path_i).points).flatMap fun si =>
              block_writes (offset_i * 5 + si * 5) (offset_j * 2 + sj * 2)
                (fun k c => if si = sj then diag_stencil (syn sj) k c else 0))) := by
  unfold fill_diagonal_matrix_on
  refine forNM_replay put _ _ _ 0 s ?_
  intro sj g _ hsj
  rw [Nat.zero_add] at hsj
  exact fill_round put m (paths path_i) (offset_i * 5) (offset_j * 2) sj g (syn sj) (by omega)
    (hsyn sj hsj)

/-- The loops of `make_diagonal_matrix` over the components other than the
current one make the writes of their blocks, all with value 0, and advance the
running offset. -/
theorem empty_blocks_replay [Field α] (put : σ → Nat → Nat → α → σ) (paths : Nat → path α)
    (b : boundary) (offset_j path_j : Nat) (g : σ) (lo n : Nat) :
    forN (fun i (st' : σ × Nat) =>
        (empty_diagonal_matrix_on put paths st'.2 offset_j (b.loop i) path_j st'.1,
          st'.2 + (paths (b.loop i)).points)) lo n (g, points_before paths b lo)
      = (replay_on put g ((List.range' lo n).flatMap fun i =>
          (List.range (paths path_j).points).flatMap fun sj =>
            (List.range (paths (b.loop i)).points).flatMap fun si =>
              block_writes (points_before paths b i * 5 + si * 5) (offset_j * 2 + sj * 2)
                (fun _ _ => (0 : α))),
        points_before paths b (lo + n)) := by
  induction n with
  | zero => simp [forN, replay_on]
  | succ n ih =>
    rw [forN_succ, ih, List.range'_concat, List.flatMap_append, replay_append]
    simp only [Nat.mul_one, Nat.one_mul, List.flatMap_cons, List.flatMap_nil, List.append_nil]
    rw [empty_diagonal_matrix_replay, ← Nat.add_assoc, points_before_succ]

end DiagonalWrites

section DiagonalLinkMain
variable {α σ : Type} [LinearOrderedField α]

/-- The writes of one round of the outer loop of `make_diagonal_matrix`. -/
theorem make_diagonal_round (put : σ → Nat → Nat → α → σ) (m : LibM α) (paths : Nat → path α)
    (b : boundary) (syn : Nat → Nat → α) (j : Nat) (hj : j < b.components) (g : σ)
    (hsyn : ∀ t, t < (paths (b.loop j)).points →
      node_syn m (paths (b.loop j)) t = some (syn j t)) :
    (do
      let path_j := b.loop j
      let offset_j := points_before paths b j
      let (s, offset_i) := forRange (fun i (st' : σ × Nat) =>
        (empty_diagonal_matrix_on put paths st'.2 offset_j (b.loop i) path_j st'.1,
          st'.2 + (paths (b.loop i)).points)) 0 j (g, 0)
      let i := j
      let path_i := b.loop i
      let s ← fill_diagonal_matrix_on put m paths offset_i offset_j path_i path_j s
      let offset_i := offset_i + (paths (b.loop i)).points
      let (s, _) := forRange (fun i (st' : σ × Nat) =>
        (empty_diagonal_matrix_on put paths st'.2 offset_j (b.loop i) path_j st'.1,
          st'.2 + (paths (b.loop i)).points)) (j + 1) b.components (s, offset_i)
      (pure (s, offset_j + (paths (b.loop j)).points) : Option (σ × Nat)))
    = some (replay_on put g
        ((List.range b.components).flatMap fun i =>
          (List.range (paths (b.loop j)).points).flatMap fun sj =>
            (List.range (paths (b.loop i)).points).flatMap fun si =>
              block_writes (points_before paths b i * 5 + si * 5)
                (points_before paths b j * 2 + sj * 2)
                (fun k c => if i = j ∧ si = sj then diag_stencil (syn j sj) k c else 0)),
        points_before paths b (j + 1)) := by
  have hpb0 : points_before paths b 0 = 0 := rfl
  have E1 := empty_blocks_replay put paths b (points_before paths b j) (b.loop j) g 0 j
  rw [hpb0, Nat.zero_add] at E1
  have hwE : ∀ (lo n : Nat), (∀ i, lo ≤ i → i < lo + n → i ≠ j) →
      ((List.range' lo n).flatMap fun i =>
        (List.range (paths (b.loop j)).points).flatMap fun sj =>
          (List.range (paths (b.loop i)).points).flatMap fun si =>
            block_writes (points_before paths b i * 5 + si * 5)
              (points_before paths b j * 2 + sj * 2) (fun _ _ => (0 : α)))
      = (List.range' lo n).flatMap fun i =>
        (List.range (paths (b.loop j)).points).flatMap fun sj =>
          (List.range (paths (b.loop i)).points).flatMap fun si =>
            block_writes (points_before paths b i * 5 + si * 5)
              (points_before paths b j * 2 + sj * 2)
              (fun k c => if i = j ∧ si = sj then diag_stencil (syn j sj) k c else 0) := by
    intro lo n hne
    apply flatMap_congr_mem
    intro i hi
    have hm := List.mem_range'_1.mp hi
    have hij : i ≠ j := hne i hm.1 hm.2
    simp only [hij, false_and, if_false]
  have F := fill_diagonal_matrix_replay put m paths (points_before paths b j)
    (points_before paths b j) (b.loop j) (b.loop j)
    (replay_on put g ((List.range' 0 j).flatMap fun i =>
      (List.range (paths (b.loop j)).points).flatMap fun sj =>
        (List.range (paths (b.loop i)).points).flatMap fun si =>
          block_writes (points_before paths b i * 5 + si * 5)
            (points_before paths b j * 2 + sj * 2) (fun _ _ => (0 : α))))
    (syn j) (le_refl _) hsyn
  simp only [forRange, Nat.sub_zero, E1, F, Option.bind_eq_bind, Option.some_bind,
    ← points_before_succ]
  rw [empty_blocks_replay]
  simp only [Option.pure_def, ← replay_append]
  rw [range_split hj, List.flatMap_append, List.flatMap_cons,
    ← hwE 0 j (fun i _ hi => by omega),
    ← hwE (j + 1) (b.components - (j + 1)) (fun i hi _ => by omega)]
  simp only [true_and, List.range_eq_range', List.append_assoc]

/-- The run of `make_diagonal_matrix` makes exactly the writes of
`diagonal_writes`, in that order, when every node angle is computed. -/
theorem make_diagonal_matrix_replay (put : σ → Nat → Nat → α → σ) (m : LibM α)
    (paths : Nat → path α) (b : boundary) (s : σ) (syn : Nat → Nat → α)
    (hsyn : ∀ j, j < b.components → ∀ t, t < (paths (b.loop j)).points →
      node_syn m (paths (b.loop j)) t = some (syn j t)) :
    make_diagonal_matrix_on put m paths b s
      = some (replay_on put s (diagonal_writes paths b syn)) := by
  unfold make_diagonal_matrix_on
  have outer := forNM_total
    (fun t (st : σ × Nat) =>
      st = (replay_on put s ((List.range' 0 t).flatMap fun j =>
        (List.range b.components).flatMap fun i =>
          (List.range (paths (b.loop j)).points).flatMap fun sj =>
            (List.range (paths (b.loop i)).points).flatMap fun si =>
              block_writes (points_before paths b i * 5 + si * 5)
                (points_before paths b j * 2 + sj * 2)
                (fun k c => if i = j ∧ si = sj then diag_stencil (syn j sj) k c else 0)),
        points_before paths b t))
    (fun j (st : σ × Nat) => do
      let path_j := b.loop j
      let offset_j := st.2
      let (s, offset_i) := forRange (fun i (st' : σ × Nat) =>
        (empty_diagonal_matrix_on put paths st'.2 offset_j (b.loop i) path_j st'.1,
          st'.2 + (paths (b.loop i)).points)) 0 j (st.1, 0)
      let i := j
      let path_i := b.loop i
      let s ← fill_diagonal_matrix_on put m paths offset_i offset_j path_i path_j s
      let offset_i := offset_i + (paths (b.loop i)).points
      let (s, _) := forRange (fun i (st' : σ × Nat) =>
        (empty_diagonal_matrix_on put paths st'.2 offset_j (b.loop i) path_j st'.1,
          st'.2 + (paths (b.loop i)).points)) (j + 1) b.components (s, offset_i)
      pure (s, offset_j + (paths (b.loop j)).points))
    0 b.components (s, 0) rfl
    (by
      intro j st _ hj hst
      rw [Nat.zero_add] at hj
      subst hst
      refine ⟨_, make_diagonal_round put m paths b syn j hj _ (hsyn j hj), ?_⟩
      beta_reduce
      rw [List.range'_concat, List.flatMap_append, replay_append]
      simp only [Nat.mul_one, Nat.one_mul, Nat.zero_add, List.flatMap_cons, List.flatMap_nil,
        List.append_nil])
  obtain ⟨s', he, hs'⟩ := outer
  rw [Nat.zero_add] at hs'
  simp only [Option.bind_eq_bind] at he ⊢
  rw [he, hs']
  simp only [diagonal_writes, List.range_eq_range']
  rfl

theorem put_block_eq {β : Type} (h : Nat → β) (x : matrix) (oi oj i j : Nat) (v : β) :
    put_block_matrix_element h x oi oj i j v = put_matrix_element h x (oi + i) (oj + j) v :=
  rfl

theorem dm_zero_block_eq_on (dm : matrix) (oi oj i j : Nat) (h : Nat → α) :
    dm_zero_block dm oi oj i j h
      = dm_zero_block_on (fun h r c v => put_matrix_element h dm r c v) oi oj i j h := rfl

theorem empty_diagonal_matrix_eq_on (paths : Nat → path α)
    (offset_i offset_j path_i path_j : Nat) (dm : matrix) (h : Nat → α) :
    empty_diagonal_matrix paths offset_i offset_j path_i path_j dm h
      = empty_diagonal_matrix_on (fun h r c v => put_matrix_element h dm r c v) paths
          offset_i offset_j path_i path_j h := by
  unfold empty_diagonal_matrix empty_diagonal_matrix_on
  simp only [dm_zero_block_eq_on]

theorem fill_diagonal_matrix_eq_on (m : LibM α) (paths : Nat → path α)
    (offset_i offset_j path_i path_j : Nat) (dm : matrix) (h : Nat → α) :
    fill_diagonal_matrix m paths offset_i offset_j path_i path_j dm h
      = fill_diagonal_matrix_on (fun h r c v => put_matrix_element h dm r c v) m paths
          offset_i offset_j path_i path_j h := by
  unfold fill_diagonal_matrix fill_diagonal_matrix_on
  simp only [dm_zero_block_eq_on, put_block_eq]

/-- The embedding of `make_diagonal_matrix` on the memory is the code with the
store `put_matrix_element` on `dm`. -/
theorem make_diagonal_matrix_eq_on (m : LibM α) (paths : Nat → path α) (b : boundary)
    (dm : matrix) (h : Nat → α) :
    make_diagonal_matrix m paths b dm h
      = make_diagonal_matrix_on (fun h r c v => put_matrix_element h dm r c v) m paths b h := by
  unfold make_diagonal_matrix make_diagonal_matrix_on
  simp only [empty_diagonal_matrix_eq_on, fill_diagonal_matrix_eq_on]

end DiagonalLinkMain
section WriteLists
variable {α : Type}

/-- A list that covers a finite set and is not longer than it has no
duplicates. -/
theorem nodup_of_cover {β : Type} [DecidableEq β] (l : List β) (S : Finset β)
    (hsub : ∀ x, x ∈ S → x ∈ l) (hlen : l.length ≤ S.card) : l.Nodup := by
  have h1 : S ⊆ l.toFinset := fun x hx => List.mem_toFinset.mpr (hsub x hx)
  have h2 : S.card ≤ l.toFinset.card := Finset.card_le_card h1
  rw [List.card_toFinset] at h2
  have h3 : l.dedup = l :=
    (List.dedup_sublist l).eq_of_length (le_antisymm (List.dedup_sublist l).length_le
      (le_trans hlen h2))
  rw [← h3]
  exact List.nodup_dedup l

theorem length_flatMap_const {β γ : Type} (l : List β) (f : β → List γ) (c : Nat)
    (h : ∀ x, x ∈ l → (f x).length = c) : (l.flatMap f).length = l.length * c := by
  induction l with
  | nil => simp
  | cons x xs ih =>
    rw [List.flatMap_cons, List.length_append, h x (List.mem_cons_self _ _),
      ih (fun y hy => h y (List.mem_cons_of_mem _ hy)), List.length_cons, Nat.succ_mul,
      Nat.add_comm]

/-- The length of a list built over the components of a boundary, when the
part of component `i` has length `points_i * c`. -/
theorem length_flatMap_points {γ : Type} (paths : Nat → path α) (b : boundary)
    (f : Nat → List γ) (c : Nat) (h : ∀ i, (f i).length = (paths (b.loop i)).points * c)
    (n : Nat) : ((List.range n).flatMap f).length = points_before paths b n * c := by
  induction n with
  | zero => simp [points_before, forN]
  | succ n ih =>
    rw [List.range_succ, List.flatMap_append, List.length_append, ih, points_before_succ,
      Nat.add_mul]
    simp [h n]

theorem length_block_writes (R C : Nat) (v : Nat → Nat → α) :
    (block_writes R C v).length = 10 := by
  rw [block_writes_eq]
  rfl

theorem mem_block_writes (R C : Nat) (v : Nat → Nat → α) (w : Nat × Nat × α) :
    w ∈ block_writes R C v ↔ ∃ k, k < 5 ∧ ∃ c, c < 2 ∧ w = (R + k, C + c, v k c) := by
  unfold block_writes
  simp only [List.mem_flatMap, List.mem_map, List.mem_range]
  constructor
  · rintro ⟨k, hk, c, hc, rfl⟩
    exact ⟨k, hk, c, hc, rfl⟩
  · rintro ⟨k, hk, c, hc, rfl⟩
    exact ⟨k, hk, c, hc, rfl⟩

/-- Every global segment number lies in exactly one component. -/
theorem segment_lookup (paths : Nat → path α) (b : boundary) (n s : Nat)
    (hs : s < points_before paths b n) :
    ∃ i, i < n ∧ ∃ si, si < (paths (b.loop i)).points ∧ s = points_before paths b i + si := by
  induction n with
  | zero => exact absurd hs (by simp [points_before, forN])
  | succ n ih =>
    by_cases h : s < points_before paths b n
    · obtain ⟨i, hi, si, hsi, e⟩ := ih h
      exact ⟨i, by omega, si, hsi, e⟩
    · rw [points_before_succ] at hs
      exact ⟨n, by omega, s - points_before paths b n, by omega, by omega⟩

theorem segment_unique (paths : Nat → path α) (b : boundary) (i j si sj : Nat)
    (hsi : si < (paths (b.loop i)).points) (hsj : sj < (paths (b.loop j)).points)
    (h : points_before paths b i + si = points_before paths b j + sj) : i = j ∧ si = sj := by
  have key : ∀ i j si sj, si < (paths (b.loop i)).points →
      points_before paths b i + si = points_before paths b j + sj → ¬ i < j := by
    intro i j si sj hsi h hij
    have h1 := points_before_mono paths b (show i + 1 ≤ j by omega)
    rw [points_before_succ] at h1
    omega
  have h1 := key i j si sj hsi h
  have h2 := key j i sj si hsj h.symm
  have hij : i = j := by omega
  subst hij
  exact ⟨rfl, by omega⟩

end WriteLists

section DiagonalWriteList
variable {α : Type} [Field α]

theorem mem_diagonal_writes (paths : Nat → path α) (b : boundary) (syn : Nat → Nat → α)
    (w : Nat × Nat × α) :
    w ∈ diagonal_writes paths b syn ↔
      ∃ j, j < b.components ∧ ∃ i, i < b.components ∧
      ∃ sj, sj < (paths (b.loop j)).points ∧ ∃ si, si < (paths (b.loop i)).points ∧
      ∃ k, k < 5 ∧ ∃ c, c < 2 ∧
        w = (points_before paths b i * 5 + si * 5 + k, points_before paths b j * 2 + sj * 2 + c,
          if i = j ∧ si = sj then diag_stencil (syn j sj) k c else 0) := by
  unfold diagonal_writes
  simp only [List.mem_flatMap, List.mem_range, mem_block_writes]

theorem length_diagonal_writes (paths : Nat → path α) (b : boundary) (syn : Nat → Nat → α) :
    (diagonal_writes paths b syn).length
      = (num_boundary_points paths b * 5) * (num_boundary_points paths b * 2) := by
  have hN : num_boundary_points paths b = points_before paths b b.components := rfl
  unfold diagonal_writes
  rw [length_flatMap_points paths b _ (num_boundary_points paths b * 10) _ b.components, hN]
  · ring
  · intro j
    rw [length_flatMap_points paths b _ ((paths (b.loop j)).points * 10) _ b.components, hN]
    · ring
    · intro i
      rw [length_flatMap_const _ _ ((paths (b.loop i)).points * 10), List.length_range]
      · ring
      · intro sj _
        rw [length_flatMap_const _ _ 10, List.length_range]
        intro si _
        exact length_block_writes _ _ _

/-- The writes of `diagonal_writes` fall inside rows `0..5N-1` and columns
`0..2N-1`. -/
theorem diagonal_writes_in_range (paths : Nat → path α) (b : boundary) (syn : Nat → Nat → α)
    (w : Nat × Nat × α) (hw : w ∈ diagonal_writes paths b syn) :
    w.1 < num_boundary_points paths b * 5 ∧ w.2.1 < num_boundary_points paths b * 2 := by
  obtain ⟨j, hj, i, hi, sj, hsj, si, hsi, k, hk, c, hc, rfl⟩ :=
    (mem_diagonal_writes paths b syn w).mp hw
  have h1 := points_before_le paths b hi
  have h2 := points_before_le paths b hj
  constructor
  · show points_before paths b i * 5 + si * 5 + k < _
    omega
  · show points_before paths b j * 2 + sj * 2 + c < _
    omega

/-- Every entry of rows `0..5N-1` and columns `0..2N-1` is the target of a
write of `diagonal_writes`. -/
theorem diagonal_writes_cover (paths : Nat → path α) (b : boundary) (syn : Nat → Nat → α)
    (r c : Nat) (hr : r < num_boundary_points paths b * 5)
    (hc : c < num_boundary_points paths b * 2) :
    (r, c) ∈ (diagonal_writes paths b syn).map (fun w => (w.1, w.2.1)) := by
  have hN : num_boundary_points paths b = points_before paths b b.components := rfl
  obtain ⟨i, hi, si, hsi, e1⟩ := segment_lookup paths b b.components (r / 5) (by omega)
  obtain ⟨j, hj, sj, hsj, e2⟩ := segment_lookup paths b b.components (c / 2) (by omega)
  rw [List.mem_map]
  refine ⟨(points_before paths b i * 5 + si * 5 + r % 5,
      points_before paths b j * 2 + sj * 2 + c % 2,
      if i = j ∧ si = sj then diag_stencil (syn j sj) (r % 5) (c % 2) else 0), ?_, ?_⟩
  · exact (mem_diagonal_writes paths b syn _).mpr
      ⟨j, hj, i, hi, sj, hsj, si, hsi, r % 5, Nat.mod_lt _ (by omega), c % 2,
        Nat.mod_lt _ (by omega), rfl⟩
  · show (points_before paths b i * 5 + si * 5 + r % 5,
      points_before paths b j * 2 + sj * 2 + c % 2) = (r, c)
    have h5 := Nat.div_add_mod r 5
    have h2 := Nat.div_add_mod c 2
    rw [Prod.mk.injEq]
    constructor <;> omega

/-- No two writes of `diagonal_writes` have the same target. -/
theorem diagonal_writes_nodup (paths : Nat → path α) (b : boundary) (syn : Nat → Nat → α) :
    ((diagonal_writes paths b syn).map (fun w => (w.1, w.2.1))).Nodup := by
  apply nodup_of_cover _
    (Finset.range (num_boundary_points paths b * 5) ×ˢ
      Finset.range (num_boundary_points paths b * 2))
  · rintro ⟨r, c⟩ hx
    rw [Finset.mem_product, Finset.mem_range, Finset.mem_range] at hx
    exact diagonal_writes_cover paths b syn r c hx.1 hx.2
  · rw [List.length_map, length_diagonal_writes, Finset.card_product, Finset.card_range,
      Finset.card_range]

end DiagonalWriteList
section ReplayValues
variable {α : Type}

/-- Writes to other entries leave an entry of the matrix as it was. -/
theorem replay_get_other (dm : matrix) (l : List (Nat × Nat × α)) (h : Nat → α) (r c : Nat)
    (hr : r < get_num_rows dm) (hc : c < get_num_columns dm)
    (hin : ∀ w, w ∈ l → w.1 < get_num_rows dm ∧ w.2.1 < get_num_columns dm)
    (hne : ∀ w, w ∈ l → (w.1, w.2.1) ≠ (r, c)) :
    get_matrix_element (replay_on (fun h r c v => put_matrix_element h dm r c v) h l) dm r c
      = get_matrix_element h dm r c := by
  induction l generalizing h with
  | nil => rfl
  | cons x xs ih =>
    have hx := hin x (List.mem_cons_self _ _)
    have hxne := hne x (List.mem_cons_self _ _)
    show get_matrix_element (replay_on _ (put_matrix_element h dm x.1 x.2.1 x.2.2) xs) dm r c = _
    rw [ih _ (fun w hw => hin w (List.mem_cons_of_mem _ hw))
      (fun w hw => hne w (List.mem_cons_of_mem _ hw)),
      get_matrix_element_eq, put_matrix_element_eq, get_matrix_element_eq]
    apply Function.update_noteq
    intro e
    have := cell_inj dm hr hc hx.1 hx.2 e
    exact hxne (by rw [this.1, this.2])

/-- After the writes of a list whose targets are distinct, the entry written
by a member of the list holds its value. -/
theorem replay_get (dm : matrix) (l : List (Nat × Nat × α)) (h : Nat → α)
    (hnd : (l.map (fun w => (w.1, w.2.1))).Nodup)
    (hin : ∀ w, w ∈ l → w.1 < get_num_rows dm ∧ w.2.1 < get_num_columns dm)
    (w : Nat × Nat × α) (hw : w ∈ l) :
    get_matrix_element (replay_on (fun h r c v => put_matrix_element h dm r c v) h l) dm
      w.1 w.2.1 = w.2.2 := by
  induction l generalizing h with
  | nil => exact absurd hw (List.not_mem_nil _)
  | cons x xs ih =>
    rw [List.map_cons, List.nodup_cons] at hnd
    show get_matrix_element (replay_on _ (put_matrix_element h dm x.1 x.2.1 x.2.2) xs) dm
      w.1 w.2.1 = _
    rcases List.mem_cons.mp hw with e | hxs
    · subst e
      have hx := hin w (List.mem_cons_self _ _)
      rw [replay_get_other dm xs _ w.1 w.2.1 hx.1 hx.2
        (fun u hu => hin u (List.mem_cons_of_mem _ hu))
        (fun u hu e => hnd.1 (by rw [← e]; exact List.mem_map_of_mem _ hu)),
        get_matrix_element_eq, put_matrix_element_eq, Function.update_same]
    · exact ih _ hnd.2 (fun u hu => hin u (List.mem_cons_of_mem _ hu)) hxs

/-- In a list of writes with distinct targets, a target that occurs is the
target of exactly one write. -/
theorem writes_to_target (l : List (Nat × Nat × α)) (r c : Nat)
    (hnd : (l.map (fun w => (w.1, w.2.1))).Nodup)
    (hmem : (r, c) ∈ l.map (fun w => (w.1, w.2.1))) :
    (l.filter (fun w => decide (w.1 = r ∧ w.2.1 = c))).length = 1 := by
  induction l with
  | nil => exact absurd hmem (List.not_mem_nil _)
  | cons x xs ih =>
    rw [List.map_cons, List.nodup_cons] at hnd
    by_cases hx : x.1 = r ∧ x.2.1 = c
    · have hnone : xs.filter (fun w => decide (w.1 = r ∧ w.2.1 = c)) = [] := by
        rw [List.filter_eq_nil_iff]
        intro w hw hd
        have hd' : w.1 = r ∧ w.2.1 = c := of_decide_eq_true hd
        apply hnd.1
        rw [hx.1, hx.2, ← hd'.1, ← hd'.2]
        exact List.mem_map_of_mem _ hw
      rw [List.filter_cons_of_pos (by simpa using hx), hnone]
      rfl
    · rw [List.filter_cons_of_neg (by simpa using hx)]
      apply ih hnd.2
      rw [List.map_cons, List.mem_cons] at hmem
      rcases hmem with e | hm
      · exact absurd ⟨(Prod.mk.inj e).1.symm, (Prod.mk.inj e).2.symm⟩ hx
      · exact hm

end ReplayValues

section NodeAngle
variable {α : Type} [LinearOrderedField α]

/-- The angle `syn` lies in `[0, 1)` when `atan2` takes its values between
`-pi` and `pi`. -/
theorem node_angle_range (m : LibM α) (a b c : coordinates α) (hpi : 0 < m.M_PI)
    (hat : ∀ y x, -m.M_PI ≤ m.atan2 y x ∧ m.atan2 y x ≤ m.M_PI) :
    0 ≤ node_angle m a b c ∧ node_angle m a b c < 1 := by
  unfold node_angle
  simp only []
  obtain ⟨h1, h2⟩ := hat ((a.2 - b.2) * (c.1 - b.1) - (c.2 - b.2) * (a.1 - b.1))
    ((a.1 - b.1) * (c.1 - b.1) + (c.2 - b.2) * (a.2 - b.2))
  generalize m.atan2 ((a.2 - b.2) * (c.1 - b.1) - (c.2 - b.2) * (a.1 - b.1))
    ((a.1 - b.1) * (c.1 - b.1) + (c.2 - b.2) * (a.2 - b.2)) = t at h1 h2
  have h2pi : 0 < 2 * m.M_PI := by linarith
  have lo : -(1 / 2) ≤ t / (2 * m.M_PI) := by
    rw [le_div_iff₀ h2pi]
    linarith
  have hi : t / (2 * m.M_PI) ≤ 1 / 2 := by
    rw [div_le_iff₀ h2pi]
    linarith
  split_ifs with hneg
  · constructor <;> linarith
  · constructor <;> linarith

/-- On a closed path with coordinates the angle at every node is computed. -/
theorem node_syn_total (m : LibM α) (p : path α) (s : Nat) (hc : p.close ≠ 0)
    (hxy : p.xy.isSome = true) (hs : s < p.points) :
    ∃ a b c, node_syn m p s = some (node_angle m a b c) := by
  obtain ⟨a, ha⟩ := get_path_xy_closed p ((s : Int) - 1 + p.points) hc hxy (by omega)
  obtain ⟨b, hb⟩ := get_path_xy_closed p (s : Int) hc hxy (by omega)
  obtain ⟨c, hcc⟩ := get_path_xy_closed p ((s : Int) + 1) hc hxy (by omega)
  refine ⟨a, b, c, ?_⟩
  unfold node_syn
  simp only [ha, hb, hcc, Option.bind_eq_bind, Option.some_bind, Option.pure_def]

end NodeAngle
section DiagonalClaim
variable {α : Type} [LinearOrderedField α]

/-- The memory after `make_diagonal_matrix`: the entry of sample `k` of segment
`si` of component `i` against column `c` of segment `sj` of component `j`. -/
theorem make_diagonal_matrix_values (m : LibM α) (paths : Nat → path α) (b : boundary)
    (dm : matrix) (h : Nat → α) (syn : Nat → Nat → α)
    (hrows : num_boundary_points paths b * 5 ≤ get_num_rows dm)
    (hcols : num_boundary_points paths b * 2 ≤ get_num_columns dm)
    (hsyn : ∀ j, j < b.components → ∀ t, t < (paths (b.loop j)).points →
      node_syn m (paths (b.loop j)) t = some (syn j t)) :
    ∃ h', make_diagonal_matrix m paths b dm h = some h'
      ∧ ∀ i j si sj k c, i < b.components → j < b.components →
          si < (paths (b.loop i)).points → sj < (paths (b.loop j)).points → k < 5 → c < 2 →
          get_matrix_element h' dm ((points_before paths b i + si) * 5 + k)
              ((points_before paths b j + sj) * 2 + c)
            = if points_before paths b i + si = points_before paths b j + sj
              then diag_stencil (syn j sj) k c else 0 := by
  refine ⟨_, (make_diagonal_matrix_eq_on m paths b dm h).trans
    (make_diagonal_matrix_replay _ m paths b h syn hsyn), ?_⟩
  intro i j si sj k c hi hj hsi hsj hk hc
  have hin : ∀ w, w ∈ diagonal_writes paths b syn →
      w.1 < get_num_rows dm ∧ w.2.1 < get_num_columns dm := by
    intro w hw
    have := diagonal_writes_in_range paths b syn w hw
    exact ⟨by omega, by omega⟩
  have hmem := (mem_diagonal_writes paths b syn _).mpr
    ⟨j, hj, i, hi, sj, hsj, si, hsi, k, hk, c, hc, rfl⟩
  have key := replay_get dm (diagonal_writes paths b syn) h
    (diagonal_writes_nodup paths b syn) hin _ hmem
  have e1 : (points_before paths b i + si) * 5 + k = points_before paths b i * 5 + si * 5 + k := by
    omega
  have e2 : (points_before paths b j + sj) * 2 + c = points_before paths b j * 2 + sj * 2 + c := by
    omega
  rw [e1, e2]
  refine key.trans ?_
  by_cases hs : points_before paths b i + si = points_before paths b j + sj
  · have := segment_unique paths b i j si sj hsi hsj hs
    simp only [this.1, this.2, and_self, if_true]
  · have hn : ¬ (i = j ∧ si = sj) := by
      rintro ⟨rfl, rfl⟩
      exact hs rfl
    simp only [hn, hs, if_false]

/-- Claim C25: for a zone with `N` nodes whose paths are closed,
`make_diagonal_matrix` returns; run on a log of its writes, it writes only
entries of rows `0..5N-1` and columns `0..2N-1` of `D`, and each of them exactly
once. Every global segment number below `N` is `points_before i + si` for a
segment `si` of a component `i`; in the memory after the run the entry of
sample `k` of segment `s` against column `c` of segment `t` is 0 when `s ≠ t`,
and for `s = t` it is `diag_stencil syn k c`: the `p2c_2basis` image `(W, 4 V)`
with `V = -0.5 syn`, `W = syn` for sample 0 and `V = c 0.5`, `W = 0.5` with
`c = -0.3, -0.1, 0.1, 0.3` for samples 1 to 4, where `syn` is the angle that the
code computes at the node, divided by `2 pi` and normalised into `[0, 1)`
(`atan2` taking its values between `-pi` and `pi`). -/
theorem make_diagonal_matrix_entries (m : LibM α) (paths : Nat → path α) (b : boundary)
    (dm : matrix) (h : Nat → α) (hz : ZonePaths paths b)
    (hrows : num_boundary_points paths b * 5 ≤ get_num_rows dm)
    (hcols : num_boundary_points paths b * 2 ≤ get_num_columns dm)
    (hpi : 0 < m.M_PI)
    (hat : ∀ y x, -m.M_PI ≤ m.atan2 y x ∧ m.atan2 y x ≤ m.M_PI) :
    ∃ (h' : Nat → α) (log : List (Nat × Nat × α)) (syn : Nat → Nat → α),
      make_diagonal_matrix m paths b dm h = some h'
      ∧ make_diagonal_matrix_on log_write m paths b [] = some log
      ∧ (∀ w, w ∈ log →
          w.1 < num_boundary_points paths b * 5 ∧ w.2.1 < num_boundary_points paths b * 2)
      ∧ (∀ r c, r < num_boundary_points paths b * 5 → c < num_boundary_points paths b * 2 →
          (log.filter (fun w => decide (w.1 = r ∧ w.2.1 = c))).length = 1)
      ∧ (∀ s, s < num_boundary_points paths b →
          ∃ i, i < b.components ∧ ∃ si, si < (paths (b.loop i)).points ∧
            s = points_before paths b i + si)
      ∧ (∀ j, j < b.components → ∀ sj, sj < (paths (b.loop j)).points →
          (∃ p q r, node_syn m (paths (b.loop j)) sj = some (syn j sj)
            ∧ syn j sj = node_angle m p q r)
          ∧ 0 ≤ syn j sj ∧ syn j sj < 1)
      ∧ (∀ i j si sj k c, i < b.components → j < b.components →
          si < (paths (b.loop i)).points → sj < (paths (b.loop j)).points → k < 5 → c < 2 →
          get_matrix_element h' dm ((points_before paths b i + si) * 5 + k)
              ((points_before paths b j + sj) * 2 + c)
            = if points_before paths b i + si = points_before paths b j + sj
              then diag_stencil (syn j sj) k c else 0)
      ∧ (∀ x : α, diag_stencil x 0 0 = x ∧ diag_stencil x 0 1 = 4 * (-(1 / 2) * x)
          ∧ diag_stencil x 1 0 = 1 / 2 ∧ diag_stencil x 1 1 = 4 * (-(3 / 10) * (1 / 2))
          ∧ diag_stencil x 2 0 = 1 / 2 ∧ diag_stencil x 2 1 = 4 * (-(1 / 10) * (1 / 2))
          ∧ diag_stencil x 3 0 = 1 / 2 ∧ diag_stencil x 3 1 = 4 * (1 / 10 * (1 / 2))
          ∧ diag_stencil x 4 0 = 1 / 2 ∧ diag_stencil x 4 1 = 4 * (3 / 10 * (1 / 2))) := by
  have hsynT : ∀ j, j < b.components → ∀ t, t < (paths (b.loop j)).points →
      ∃ p q r, node_syn m (paths (b.loop j)) t
          = some ((node_syn m (paths (b.loop j)) t).getD 0)
        ∧ (node_syn m (paths (b.loop j)) t).getD 0 = node_angle m p q r := by
    intro j hj t ht
    obtain ⟨p, q, r, e⟩ := node_syn_total m (paths (b.loop j)) t (hz j hj).1 (hz j hj).2 ht
    exact ⟨p, q, r, by rw [e]; rfl, by rw [e]; rfl⟩
  have hsyn : ∀ j, j < b.components → ∀ t, t < (paths (b.loop j)).points →
      node_syn m (paths (b.loop j)) t = some ((node_syn m (paths (b.loop j)) t).getD 0) := by
    intro j hj t ht
    obtain ⟨_, _, _, e, _⟩ := hsynT j hj t ht
    exact e
  obtain ⟨h', he, hval⟩ := make_diagonal_matrix_values m paths b dm h
    (fun j t => (node_syn m (paths (b.loop j)) t).getD 0) hrows hcols hsyn
  have hlog := make_diagonal_matrix_replay log_write m paths b []
    (fun j t => (node_syn m (paths (b.loop j)) t).getD 0) hsyn
  rw [replay_log, List.nil_append] at hlog
  refine ⟨h', _, fun j t => (node_syn m (paths (b.loop j)) t).getD 0, he, hlog,
    diagonal_writes_in_range paths b _, ?_, ?_, ?_, hval, diag_stencil_values⟩
  · intro r c hr hc
    exact writes_to_target _ r c (diagonal_writes_nodup paths b _)
      (diagonal_writes_cover paths b _ r c hr hc)
  · intro s hs
    exact segment_lookup paths b b.components s hs
  · intro j hj sj hsj
    obtain ⟨p, q, r, e1, e2⟩ := hsynT j hj sj hsj
    refine ⟨⟨p, q, r, e1, e2⟩, ?_⟩
    show 0 ≤ (node_syn m (paths (b.loop j)) sj).getD 0
      ∧ (node_syn m (paths (b.loop j)) sj).getD 0 < 1
    rw [e2]
    exact node_angle_range m p q r hpi hat

end DiagonalClaim

theorem exLibMAxis_range (y x : ℚ) :
    -exLibMAxis.M_PI ≤ exLibMAxis.atan2 y x ∧ exLibMAxis.atan2 y x ≤ exLibMAxis.M_PI := by
  unfold exLibMAxis
  dsimp only
  split_ifs <;> constructor <;> norm_num

theorem make_diagonal_matrix_entries_witness :
    ZonePaths exPaths (exZone 1)
    ∧ num_boundary_points exPaths (exZone 1) * 5 ≤ get_num_rows (attach_matrix 20 8 1)
    ∧ num_boundary_points exPaths (exZone 1) * 2 ≤ get_num_columns (attach_matrix 20 8 1)
    ∧ ∃ (h' : Nat → ℚ) (log : List (Nat × Nat × ℚ)),
      make_diagonal_matrix exLibMAxis exPaths (exZone 1) (attach_matrix 20 8 1) (fun _ => 0)
        = some h'
      ∧ make_diagonal_matrix_on log_write exLibMAxis exPaths (exZone 1) [] = some log
      ∧ (∀ r c, r < num_boundary_points exPaths (exZone 1) * 5 →
          c < num_boundary_points exPaths (exZone 1) * 2 →
          (log.filter (fun w => decide (w.1 = r ∧ w.2.1 = c))).length = 1) := by
  have hz : ZonePaths exPaths (exZone 1) := by
    intro j _
    exact ⟨by show (1 : Int) ≠ 0; decide, rfl⟩
  have hr : num_boundary_points exPaths (exZone 1) * 5 ≤ get_num_rows (attach_matrix 20 8 1) := by
    decide
  have hc : num_boundary_points exPaths (exZone 1) * 2
      ≤ get_num_columns (attach_matrix 20 8 1) := by
    decide
  obtain ⟨h', log, _, he, hl, _, hcount, _⟩ :=
    make_diagonal_matrix_entries exLibMAxis exPaths (exZone 1) (attach_matrix 20 8 1)
      (fun _ => 0) hz hr hc (by unfold exLibMAxis; norm_num) exLibMAxis_range
  exact ⟨hz, hr, hc, h', log, he, hl, hcount⟩
section FillWrites
variable {α : Type} [Field α]

theorem mem_fill_writes (R C ni nj : Nat) (syn : Nat → α) (w : Nat × Nat × α) :
    w ∈ fill_writes R C ni nj syn ↔
      ∃ sj, sj < nj ∧ ∃ si, si < ni ∧ ∃ k, k < 5 ∧ ∃ c, c < 2 ∧
        w = (R + si * 5 + k, C + sj * 2 + c,
          if si = sj then diag_stencil (syn sj) k c else 0) := by
  unfold fill_writes
  simp only [List.mem_flatMap, List.mem_range, mem_block_writes]

theorem length_fill_writes (R C ni nj : Nat) (syn : Nat → α) :
    (fill_writes R C ni nj syn).length = (ni * 5) * (nj * 2) := by
  unfold fill_writes
  rw [length_flatMap_const _ _ (ni * 10), List.length_range]
  · ring
  · intro sj _
    rw [length_flatMap_const _ _ 10, List.length_range]
    intro si _
    exact length_block_writes _ _ _

theorem fill_writes_in_range (R C ni nj : Nat) (syn : Nat → α) (w : Nat × Nat × α)
    (hw : w ∈ fill_writes R C ni nj syn) :
    (R ≤ w.1 ∧ w.1 < R + ni * 5) ∧ (C ≤ w.2.1 ∧ w.2.1 < C + nj * 2) := by
  obtain ⟨sj, hsj, si, hsi, k, hk, c, hc, rfl⟩ := (mem_fill_writes R C ni nj syn w).mp hw
  refine ⟨⟨?_, ?_⟩, ⟨?_, ?_⟩⟩
  · show R ≤ R + si * 5 + k
    omega
  · show R + si * 5 + k < _
    omega
  · show C ≤ C + sj * 2 + c
    omega
  · show C + sj * 2 + c < _
    omega

theorem fill_writes_cover (R C ni nj : Nat) (syn : Nat → α) (r c : Nat)
    (hr : R ≤ r ∧ r < R + ni * 5) (hc : C ≤ c ∧ c < C + nj * 2) :
    (r, c) ∈ (fill_writes R C ni nj syn).map (fun w => (w.1, w.2.1)) := by
  rw [List.mem_map]
  refine ⟨(R + (r - R) / 5 * 5 + (r - R) % 5, C + (c - C) / 2 * 2 + (c - C) % 2,
      if (r - R) / 5 = (c - C) / 2
      then diag_stencil (syn ((c - C) / 2)) ((r - R) % 5) ((c - C) % 2) else 0), ?_, ?_⟩
  · exact (mem_fill_writes R C ni nj syn _).mpr
      ⟨(c - C) / 2, by omega, (r - R) / 5, by omega, (r - R) % 5, Nat.mod_lt _ (by omega),
        (c - C) % 2, Nat.mod_lt _ (by omega), rfl⟩
  · show (R + (r - R) / 5 * 5 + (r - R) % 5, C + (c - C) / 2 * 2 + (c - C) % 2) = (r, c)
    have h5 := Nat.div_add_mod (r - R) 5
    have h2 := Nat.div_add_mod (c - C) 2
    rw [Prod.mk.injEq]
    constructor <;> omega

theorem fill_writes_nodup (R C ni nj : Nat) (syn : Nat → α) :
    ((fill_writes R C ni nj syn).map (fun w => (w.1, w.2.1))).Nodup := by
  apply nodup_of_cover _ (Finset.Ico R (R + ni * 5) ×ˢ Finset.Ico C (C + nj * 2))
  · rintro ⟨r, c⟩ hx
    rw [Finset.mem_product, Finset.mem_Ico, Finset.mem_Ico] at hx
    exact fill_writes_cover R C ni nj syn r c hx.1 hx.2
  · rw [List.length_map, length_fill_writes, Finset.card_product, Nat.card_Ico, Nat.card_Ico,
      Nat.add_sub_cancel_left, Nat.add_sub_cancel_left]

end FillWrites

section SelfBlock
variable {α : Type} [LinearOrderedField α]

/-- The run of `fill_diagonal_matrix` on a component against itself makes
exactly the writes of `fill_writes`, in that order. -/
theorem fill_diagonal_matrix_writes {σ : Type} (put : σ → Nat → Nat → α → σ) (m : LibM α)
    (paths : Nat → path α) (offset_i offset_j p : Nat) (s : σ) (syn : Nat → α)
    (hsyn : ∀ t, t < (paths p).points → node_syn m (paths p) t = some (syn t)) :
    fill_diagonal_matrix_on put m paths offset_i offset_j p p s
      = some (replay_on put s
          (fill_writes (offset_i * 5) (offset_j * 2) (paths p).points (paths p).points syn)) := by
  rw [fill_diagonal_matrix_replay put m paths offset_i offset_j p p s syn (le_refl _) hsyn]
  unfold fill_writes
  rw [List.range_eq_range']

/-- The memory after `fill_diagonal_matrix` on a component against itself. -/
theorem fill_diagonal_matrix_values (m : LibM α) (paths : Nat → path α)
    (offset_i offset_j p : Nat) (dm : matrix) (h : Nat → α) (syn : Nat → α)
    (hrows : (offset_i + (paths p).points) * 5 ≤ get_num_rows dm)
    (hcols : (offset_j + (paths p).points) * 2 ≤ get_num_columns dm)
    (hsyn : ∀ t, t < (paths p).points → node_syn m (paths p) t = some (syn t)) :
    ∃ h', fill_diagonal_matrix m paths offset_i offset_j p p dm h = some h'
      ∧ ∀ si sj k c, si < (paths p).points → sj < (paths p).points → k < 5 → c < 2 →
          get_matrix_element h' dm (offset_i * 5 + si * 5 + k) (offset_j * 2 + sj * 2 + c)
            = if si = sj then diag_stencil (syn sj) k c else 0 := by
  refine ⟨_, (fill_diagonal_matrix_eq_on m paths offset_i offset_j p p dm h).trans
    (fill_diagonal_matrix_writes _ m paths offset_i offset_j p h syn hsyn), ?_⟩
  intro si sj k c hsi hsj hk hc
  have hin : ∀ w, w ∈ fill_writes (offset_i * 5) (offset_j * 2) (paths p).points
      (paths p).points syn → w.1 < get_num_rows dm ∧ w.2.1 < get_num_columns dm := by
    intro w hw
    have := fill_writes_in_range _ _ _ _ syn w hw
    exact ⟨by omega, by omega⟩
  exact replay_get dm _ h (fill_writes_nodup _ _ _ _ syn) hin _
    ((mem_fill_writes _ _ _ _ syn _).mpr ⟨sj, hsj, si, hsi, k, hk, c, hc, rfl⟩)

/-- Claim C26, as the code has it: on a closed path `fill_diagonal_matrix`
returns, and for every node `s` the entries of the self block of its segment,
summed over the five sample rows, are `syn + 2` in the first column and
`-2 syn` in the second, `2 - syn` in all, where `syn` in `[0, 1)` is the angle
at the node divided by `2 pi`. The total lies in `(1, 2]` whether the node is
convex or reflex: it is never `-1` and never `+1`. -/
theorem self_block_sums (m : LibM α) (paths : Nat → path α) (offset_i offset_j p : Nat)
    (dm : matrix) (h : Nat → α) (hc : (paths p).close ≠ 0) (hxy : (paths p).xy.isSome = true)
    (hrows : (offset_i + (paths p).points) * 5 ≤ get_num_rows dm)
    (hcols : (offset_j + (paths p).points) * 2 ≤ get_num_columns dm)
    (hpi : 0 < m.M_PI)
    (hat : ∀ y x, -m.M_PI ≤ m.atan2 y x ∧ m.atan2 y x ≤ m.M_PI) :
    ∃ (h' : Nat → α) (syn : Nat → α),
      fill_diagonal_matrix m paths offset_i offset_j p p dm h = some h'
      ∧ ∀ s, s < (paths p).points →
          node_syn m (paths p) s = some (syn s) ∧ 0 ≤ syn s ∧ syn s < 1
          ∧ (∑ k in Finset.range 5,
              get_matrix_element h' dm (offset_i * 5 + s * 5 + k) (offset_j * 2 + s * 2))
            = syn s + 2
          ∧ (∑ k in Finset.range 5,
              get_matrix_element h' dm (offset_i * 5 + s * 5 + k) (offset_j * 2 + s * 2 + 1))
            = -(2 * syn s)
          ∧ 1 < (∑ k in Finset.range 5,
              (get_matrix_element h' dm (offset_i * 5 + s * 5 + k) (offset_j * 2 + s * 2)
                + get_matrix_element h' dm (offset_i * 5 + s * 5 + k)
                    (offset_j * 2 + s * 2 + 1)))
          ∧ (∑ k in Finset.range 5,
              (get_matrix_element h' dm (offset_i * 5 + s * 5 + k) (offset_j * 2 + s * 2)
                + get_matrix_element h' dm (offset_i * 5 + s * 5 + k)
                    (offset_j * 2 + s * 2 + 1))) ≤ 2 := by
  have hsynT : ∀ t, t < (paths p).points →
      ∃ a b c, node_syn m (paths p) t = some ((node_syn m (paths p) t).getD 0)
        ∧ (node_syn m (paths p) t).getD 0 = node_angle m a b c := by
    intro t ht
    obtain ⟨a, b, c, e⟩ := node_syn_total m (paths p) t hc hxy ht
    exact ⟨a, b, c, by rw [e]; rfl, by rw [e]; rfl⟩
  obtain ⟨h', he, hval⟩ := fill_diagonal_matrix_values m paths offset_i offset_j p dm h
    (fun t => (node_syn m (paths p) t).getD 0) hrows hcols
    (fun t ht => by obtain ⟨_, _, _, e, _⟩ := hsynT t ht; exact e)
  refine ⟨h', fun t => (node_syn m (paths p) t).getD 0, he, ?_⟩
  intro s hs
  obtain ⟨a, b, c, e1, e2⟩ := hsynT s hs
  have hrange : 0 ≤ (node_syn m (paths p) s).getD 0 ∧ (node_syn m (paths p) s).getD 0 < 1 := by
    rw [e2]
    exact node_angle_range m a b c hpi hat
  obtain ⟨v1, v2, v3, v4, v5, v6, v7, v8, v9, v10⟩ :=
    diag_stencil_values ((node_syn m (paths p) s).getD 0)
  have g0 : ∀ k, k < 5 →
      get_matrix_element h' dm (offset_i * 5 + s * 5 + k) (offset_j * 2 + s * 2)
        = diag_stencil ((node_syn m (paths p) s).getD 0) k 0 := by
    intro k hk
    have := hval s s k 0 hs hs hk (by omega)
    rw [Nat.add_zero, if_pos rfl] at this
    exact this
  have g1 : ∀ k, k < 5 →
      get_matrix_element h' dm (offset_i * 5 + s * 5 + k) (offset_j * 2 + s * 2 + 1)
        = diag_stencil ((node_syn m (paths p) s).getD 0) k 1 := by
    intro k hk
    have := hval s s k 1 hs hs hk (by omega)
    rw [if_pos rfl] at this
    exact this
  have s0 : (∑ k in Finset.range 5,
      get_matrix_element h' dm (offset_i * 5 + s * 5 + k) (offset_j * 2 + s * 2))
      = (node_syn m (paths p) s).getD 0 + 2 := by
    simp only [Finset.sum_range_succ, Finset.sum_range_zero, Nat.add_zero]
    have a0 := g0 0 (by omega)
    rw [Nat.add_zero] at a0
    rw [a0, g0 1 (by omega), g0 2 (by omega), g0 3 (by omega), g0 4 (by omega), v1, v3, v5, v7,
      v9]
    ring
  have s1 : (∑ k in Finset.range 5,
      get_matrix_element h' dm (offset_i * 5 + s * 5 + k) (offset_j * 2 + s * 2 + 1))
      = -(2 * (node_syn m (paths p) s).getD 0) := by
    simp only [Finset.sum_range_succ, Finset.sum_range_zero, Nat.add_zero]
    have a0 := g1 0 (by omega)
    rw [Nat.add_zero] at a0
    rw [a0, g1 1 (by omega), g1 2 (by omega), g1 3 (by omega), g1 4 (by omega), v2, v4, v6, v8,
      v10]
    ring
  refine ⟨e1, hrange.1, hrange.2, s0, s1, ?_, ?_⟩
  · rw [Finset.sum_add_distrib, s0, s1]
    linarith [hrange.2]
  · rw [Finset.sum_add_distrib, s0, s1]
    linarith [hrange.1]

end SelfBlock

set_option maxRecDepth 100000 in
/-- The self block of node 0 of the rectangle `exRect`. Taken anticlockwise
the node is convex (`syn = 1/4`, a right angle) and the ten entries sum to
`7/4`, not `+1`; taken clockwise (`reverse = 1`) the node is reflex
(`syn = 3/4`) and they sum to `5/4`, not `-1`. -/
theorem self_block_sum_example :
    node_syn exLibMAxis exRect 0 = some (1 / 4)
    ∧ (fill_diagonal_matrix exLibMAxis exPaths 0 0 1 1 (attach_matrix 20 8 1) (fun _ => 0)).map
        (fun h' => (List.range 5).map fun k =>
          (get_matrix_element h' (attach_matrix 20 8 1) k 0,
            get_matrix_element h' (attach_matrix 20 8 1) k 1))
      = some [(1 / 4, -(1 / 2)), (1 / 2, -(3 / 5)), (1 / 2, -(1 / 5)), (1 / 2, 1 / 5),
          (1 / 2, 3 / 5)]
    ∧ (fill_diagonal_matrix exLibMAxis exPaths 0 0 1 1 (attach_matrix 20 8 1) (fun _ => 0)).map
        (fun h' => ((List.range 5).map fun k =>
          get_matrix_element h' (attach_matrix 20 8 1) k 0
            + get_matrix_element h' (attach_matrix 20 8 1) k 1).sum)
      = some (7 / 4)
    ∧ node_syn exLibMAxis { exRect with reverse := 1 } 0 = some (3 / 4)
    ∧ (fill_diagonal_matrix exLibMAxis (fun _ => { exRect with reverse := 1 }) 0 0 1 1
          (attach_matrix 20 8 1) (fun _ => 0)).map
        (fun h' => (List.range 5).map fun k =>
          (get_matrix_element h' (attach_matrix 20 8 1) k 0,
            get_matrix_element h' (attach_matrix 20 8 1) k 1))
      = some [(3 / 4, -(3 / 2)), (1 / 2, -(3 / 5)), (1 / 2, -(1 / 5)), (1 / 2, 1 / 5),
          (1 / 2, 3 / 5)]
    ∧ (fill_diagonal_matrix exLibMAxis (fun _ => { exRect with reverse := 1 }) 0 0 1 1
          (attach_matrix 20 8 1) (fun _ => 0)).map
        (fun h' => ((List.range 5).map fun k =>
          get_matrix_element h' (attach_matrix 20 8 1) k 0
            + get_matrix_element h' (attach_matrix 20 8 1) k 1).sum)
      = some (5 / 4) := by
  refine ⟨?_, ?_, ?_, ?_, ?_, ?_⟩
  · decide!
  · decide!
  · decide!
  · decide!
  · decide!
  · decide!

theorem self_block_sums_witness :
    exRect.close ≠ 0 ∧ exRect.xy.isSome = true
    ∧ ∃ (h' : Nat → ℚ) (syn : Nat → ℚ),
      fill_diagonal_matrix exLibMAxis exPaths 0 0 1 1 (attach_matrix 20 8 1) (fun _ => 0)
        = some h'
      ∧ ∀ s, s < exRect.points →
          node_syn exLibMAxis exRect s = some (syn s) ∧ 0 ≤ syn s ∧ syn s < 1
          ∧ (∑ k in Finset.range 5,
              get_matrix_element h' (attach_matrix 20 8 1) (0 * 5 + s * 5 + k) (0 * 2 + s * 2))
            = syn s + 2
          ∧ (∑ k in Finset.range 5,
              get_matrix_element h' (attach_matrix 20 8 1) (0 * 5 + s * 5 + k)
                (0 * 2 + s * 2 + 1))
            = -(2 * syn s) := by
  have hc : (exPaths 1).close ≠ 0 := by show (1 : Int) ≠ 0; decide
  have hxy : (exPaths 1).xy.isSome = true := rfl
  obtain ⟨h', syn, he, hs⟩ := self_block_sums exLibMAxis exPaths 0 0 1 (attach_matrix 20 8 1)
    (fun _ => 0) hc hxy (by decide) (by decide) (by unfold exLibMAxis; norm_num)
    exLibMAxis_range
  exact ⟨hc, hxy, h', syn, he, fun s hs' => by
    obtain ⟨a, b, c, d, e, _⟩ := hs s hs'
    exact ⟨a, b, c, d, e⟩⟩

section NestedZones
variable {α : Type} [LinearOrderedField α]

end NestedZones

section ZoneOrient
variable {α : Type}

end ZoneOrient

section NestedTree
variable {α : Type} [LinearOrderedField α]

end NestedTree
section NestedTree2
variable {α : Type} [LinearOrderedField α]

end NestedTree2
end SwpBem
